import Mathlib

/-!
# SearchSystem: a verification development

A shallow embedding of the index encoder (`src/IndexBuilder`) and of the
query evaluator (`src/QueryProcessor`) of the SearchSystem repository,
followed by theorems about the embedded functions.

Conventions of the embedding.

* A C `int` is an `Int`; a `uint32_t` or a `uint8_t` is a `Nat` and every
  operation that can leave the 32-bit (8-bit) range is followed by an explicit
  `% 2 ^ 32` (`% 256`).  Array indices and counters that the code only
  increments from zero are `Nat`.
* A `double` is an element of a type parameter; the floating-point operations
  the code calls are the fields of `DoubleOps`.
* A byte pointer that only moves forward (`uint8_t **byteBuffer`) is the list of
  the bytes from the pointer to the end of its buffer; reading past the end of
  the buffer is `none`.
* A loop is a function by structural recursion on a fuel argument; the
  function that calls the loop passes a fuel that is sufficient, or the fuel is
  an explicit argument and a theorem states what fuel is enough.
-/

namespace SearchSystem

/-! ## Constants (`InvertedIndex.h`, `InvertedList.h`, `QueryHeap.h`, `MergeHeap.h`) -/

/-- Maximum postings per chunk. -/
def MAX_POSTING_COUNT : Nat := 128

/-- Maximum chunks per block. -/
def MAX_CHUNK_COUNT : Nat := 64

/-- Maximum blocks per index file. -/
def MAX_BLOCK_COUNT : Nat := 24000

/-- Maximum number of query results to track. -/
def QUERY_HEAP_SIZE : Nat := 20

/-- Maximum number of files to merge at once. -/
def MERGE_HEAP_SIZE : Nat := 8

/-- Number of intermediate files to merge. -/
def INTERMEDIATE_FILE_COUNT : Nat := 8

/-! ## Variable-byte codec (`Compression.c`, `Decompression.c`) -/

/-- The loop `while (docId >= 128)` of `varByteCompressInt`, followed by the
store of the final byte.  The result is the sequence of bytes written to
`byteBuffer`; stores to a `uint8_t` are taken `% 256`.  The first argument is
the fuel. -/
def varByteCompressLoop : Nat → Nat → List Nat
  | 0, docId => [docId % 256]
  | fuel + 1, docId =>
    if docId ≥ 128 then
      (((docId &&& 127) ||| 128) % 256) :: varByteCompressLoop fuel (docId >>> 7)
    else [docId % 256]

/-- The bytes `varByteCompressInt(docId, byteBuffer)` writes; the returned byte
count is the length of the list.  The loop shifts `docId` right by 7 at every
turn, so `docId` turns are always enough. -/
def varByteCompressInt (docId : Nat) : List Nat :=
  varByteCompressLoop docId docId

/-- The loop `while (1)` of `varByteDecompressInt` on the bytes from the read
cursor on.  Returns the decoded value and the bytes from the advanced cursor on.
`docId |= (currentByteValue & 0x7F) << shift` is stored to a `uint32_t`. -/
def varByteDecompressLoop : List Nat → Nat → Nat → Option (Nat × List Nat)
  | [], _, _ => none
  | currentByteValue :: rest, docId, shift =>
    let docId1 := (docId ||| ((currentByteValue &&& 0x7F) <<< shift)) % 2 ^ 32
    if currentByteValue &&& 0x80 = 0 then some (docId1, rest)
    else varByteDecompressLoop rest docId1 (shift + 7)

/-- The function `varByteDecompressInt(&byteBuffer)`. -/
def varByteDecompressInt (byteBuffer : List Nat) : Option (Nat × List Nat) :=
  varByteDecompressLoop byteBuffer 0 0

/-! ## Doubles -/

/-- The floating-point operations of `math.h` and of the C language that the
code applies to `double` values, apart from `0.0`, `+` and `<`, which are the
`Zero`, `Add` and `LT` instances of the type that stands for `double`. -/
structure DoubleOps (D : Type) where
  /-- The conversion `(double)n` of a byte. -/
  ofByte : Nat → D
  /-- The literal `36.06`. -/
  scale : D
  /-- The literal `1`, converted to `double`. -/
  one : D
  /-- Division of doubles. -/
  div : D → D → D
  /-- Subtraction of doubles. -/
  sub : D → D → D
  /-- The function `exp2` of `math.h`. -/
  exp2 : D → D
  /-- The function `logCompressDouble` of `Compression.c`: a double to a byte. -/
  logCompressDouble : D → Nat
  /-- The function `calculateBM25ImpactScore` of `Utils.c`, applied to
  `totalDocCount`, `termDocCount`, `termFrequency`, `docLength`, `avgDocLength`. -/
  calculateBM25ImpactScore : Int → Int → Int → Int → Int → D

/-! ## Files and 32-bit integers in files -/

/-- An open `FILE *` in a read mode: the bytes of the file and the position of
the stream. -/
structure FILE where
  content : List Nat
  pos : Nat
deriving DecidableEq, Repr

/-- The value of the `int` stored little-endian in four bytes. -/
def int32OfBytes (b0 b1 b2 b3 : Nat) : Int :=
  let u := b0 + 256 * b1 + 65536 * b2 + 16777216 * b3
  if u ≥ 2 ^ 31 then (u : Int) - 2 ^ 32 else (u : Int)

/-- The four bytes `fwrite` writes for one `int`. -/
def int32ToBytes (v : Int) : List Nat :=
  let u := (v % 2 ^ 32).toNat
  [u % 256, u / 256 % 256, u / 65536 % 256, u / 16777216 % 256]

/-- The `int`s held by a sequence of bytes, four bytes each; bytes left over
at the end hold no complete `int`. -/
def intsOfBytes : List Nat → List Int
  | b0 :: b1 :: b2 :: b3 :: rest => int32OfBytes b0 b1 b2 b3 :: intsOfBytes rest
  | _ => []

/-- The bytes `fwrite(array, sizeof(int), n, file)` writes. -/
def intsToBytes (vs : List Int) : List Nat :=
  vs.flatMap int32ToBytes

/-- The call `fread(buffer, 1, n, file)`: the bytes read (fewer than `n` at
the end of the file) and the stream after the call. -/
def freadBytes (fp : FILE) (n : Nat) : List Nat × FILE :=
  let bytes := (fp.content.drop fp.pos).take n
  (bytes, { fp with pos := fp.pos + bytes.length })

/-- The call `fread(array, sizeof(int), n, file)` on an array that held `old`:
the complete items read replace the first entries of the array. -/
def freadInts (fp : FILE) (n : Nat) (old : List Int) : List Int × FILE :=
  let r := freadBytes fp (4 * n)
  let vs := intsOfBytes r.1
  (vs ++ old.drop vs.length, r.2)

/-- The call `fseek(file, offset, SEEK_CUR)`; a seek to a negative position
fails and leaves the position where it was. -/
def fseekCur (fp : FILE) (offset : Int) : FILE :=
  if 0 ≤ (fp.pos : Int) + offset then { fp with pos := ((fp.pos : Int) + offset).toNat } else fp

/-- The conversion of a `uint32_t` to `int`. -/
def toInt32 (u : Nat) : Int :=
  if u % 2 ^ 32 ≥ 2 ^ 31 then ((u % 2 ^ 32 : Nat) : Int) - 2 ^ 32 else ((u % 2 ^ 32 : Nat) : Int)

/-- The conversion of an `int` to `uint32_t`. -/
def toUInt32 (v : Int) : Nat :=
  (v % 2 ^ 32).toNat

/-! ## The list iterator (`InvertedList.h`, `InvertedList.c`) -/

/-- The structure `InvertedList`.  The array fields are lists of
`MAX_CHUNK_COUNT` and of `MAX_POSTING_COUNT` entries; `postings` holds the bytes
that were read into the buffer of the current chunk. -/
structure InvertedList (D : Type) where
  word : List Nat
  listPointer : FILE
  currentChunkIndex : Nat
  remainingChunkCount : Int
  chunkSizes : List Int
  lastDocIds : List Int
  currentPostingIndex : Nat
  postingCount : Nat
  postings : List Nat
  docIds : List Int
  impactScores : List D

/-- The sum `chunkSizes[from] + ... + chunkSizes[to - 1]` the skipping loops
compute. -/
def sumChunkSizes (chunkSizes : List Int) (start stop : Nat) : Int :=
  ((List.range (stop - start)).map (fun i => chunkSizes.getD (start + i) 0)).sum

/-- The function `createInvertedList`.  The header arrays of a fresh
`InvertedList` are taken as zero before the first `fread`. -/
def createInvertedList {D : Type} [Zero D] (listPointer : FILE) (word : List Nat)
    (remainingChunkToStart : Nat) (remainingChunkToEnd : Int) : InvertedList D :=
  let r1 := freadInts listPointer MAX_CHUNK_COUNT (List.replicate MAX_CHUNK_COUNT 0)
  let r2 := freadInts r1.2 MAX_CHUNK_COUNT (List.replicate MAX_CHUNK_COUNT 0)
  let sumSize := sumChunkSizes r1.1 0 (min remainingChunkToStart MAX_CHUNK_COUNT)
  let fp := fseekCur r2.2 sumSize
  let r3 := freadBytes fp (r1.1.getD remainingChunkToStart 0).toNat
  { word := word
    listPointer := r3.2
    currentChunkIndex := remainingChunkToStart
    remainingChunkCount := remainingChunkToEnd
    chunkSizes := r1.1
    lastDocIds := r2.1
    currentPostingIndex := 0
    postingCount := 0
    postings := r3.1
    docIds := List.replicate MAX_POSTING_COUNT (-1)
    impactScores := List.replicate MAX_POSTING_COUNT 0 }

/-- The function `updateInvertedListByChunk`. -/
def updateInvertedListByChunk {D : Type} [Zero D] (invertedList : InvertedList D) :
    InvertedList D :=
  let l1 : InvertedList D :=
    if invertedList.currentChunkIndex = MAX_CHUNK_COUNT - 1 then
      let r1 := freadInts invertedList.listPointer MAX_CHUNK_COUNT invertedList.chunkSizes
      let r2 := freadInts r1.2 MAX_CHUNK_COUNT invertedList.lastDocIds
      { invertedList with
        currentChunkIndex := 0, chunkSizes := r1.1, lastDocIds := r2.1, listPointer := r2.2 }
    else
      { invertedList with currentChunkIndex := invertedList.currentChunkIndex + 1 }
  let r3 := freadBytes l1.listPointer (l1.chunkSizes.getD l1.currentChunkIndex 0).toNat
  { l1 with
    remainingChunkCount := l1.remainingChunkCount - 1
    postingCount := 0
    postings := r3.1
    listPointer := r3.2
    docIds := List.replicate MAX_POSTING_COUNT (-1)
    impactScores := List.replicate MAX_POSTING_COUNT 0 }

/-- The function `updateInvertedListByBlock`. -/
def updateInvertedListByBlock {D : Type} [Zero D] (invertedList : InvertedList D) :
    InvertedList D :=
  let sumSize :=
    sumChunkSizes invertedList.chunkSizes (invertedList.currentChunkIndex + 1) MAX_CHUNK_COUNT
  let fp := fseekCur invertedList.listPointer sumSize
  let r1 := freadInts fp MAX_CHUNK_COUNT invertedList.chunkSizes
  let r2 := freadInts r1.2 MAX_CHUNK_COUNT invertedList.lastDocIds
  let r3 := freadBytes r2.2 (r1.1.getD 0 0).toNat
  { invertedList with
    remainingChunkCount :=
      invertedList.remainingChunkCount - ((MAX_CHUNK_COUNT : Int) - invertedList.currentChunkIndex)
    currentChunkIndex := 0
    chunkSizes := r1.1
    lastDocIds := r2.1
    postingCount := 0
    postings := r3.1
    listPointer := r3.2
    docIds := List.replicate MAX_POSTING_COUNT (-1)
    impactScores := List.replicate MAX_POSTING_COUNT 0 }

/-! ## Decompression of a chunk (`Decompression.c`) -/

/-- The function `logDecompressToDouble(&byteBuffer)`: the decoded score and
the bytes from the cursor on after the call.  On a zero byte the function
returns before `(*byteBuffer)++`. -/
def logDecompressToDouble {D : Type} [Zero D] (ops : DoubleOps D) :
    List Nat → Option (D × List Nat)
  | [] => none
  | compressed :: rest =>
    if compressed = 0 then some (0, compressed :: rest)
    else
      let logImpactScore := ops.div (ops.ofByte compressed) ops.scale
      let impactScore := ops.sub (ops.exp2 logImpactScore) ops.one
      some (impactScore, rest)

/-- The first loop of `decompressPostings` (`while (1)` over the docID gaps).
Arguments: fuel, the read cursor, `lastDocId`, `prevDocId`, `postingIndex1` and
the array `docIds`.  Returns the cursor, `postingIndex1` and `docIds` at the
`break`.  A store outside the array `docIds` is `none`. -/
def decompressDocIds : Nat → List Nat → Int → Int → Nat → List Int →
    Option (List Nat × Nat × List Int)
  | 0, _, _, _, _, _ => none
  | fuel + 1, currentByte, lastDocId, prevDocId, postingIndex1, docIds =>
    match varByteDecompressInt currentByte with
    | none => none
    | some (v, currentByte1) =>
      let docId := if prevDocId ≠ -1 then toInt32 v + prevDocId else toInt32 v
      if postingIndex1 < docIds.length then
        let docIds1 := docIds.set postingIndex1 docId
        if docId = lastDocId then some (currentByte1, postingIndex1 + 1, docIds1)
        else decompressDocIds fuel currentByte1 lastDocId docId (postingIndex1 + 1) docIds1
      else none

/-- The second loop of `decompressPostings` (`for postingIndex2`).  Arguments:
the number of turns left, the read cursor, `postingIndex2` and the array
`impactScores`. -/
def decompressImpactScores {D : Type} [Zero D] (ops : DoubleOps D) :
    Nat → List Nat → Nat → List D → Option (List D)
  | 0, _, _, impactScores => some impactScores
  | n + 1, currentByte, postingIndex2, impactScores =>
    match logDecompressToDouble ops currentByte with
    | none => none
    | some (score, currentByte1) =>
      if postingIndex2 < impactScores.length then
        decompressImpactScores ops n currentByte1 (postingIndex2 + 1)
          (impactScores.set postingIndex2 score)
      else none

/-- The function `decompressPostings`.  Every turn of the first loop reads at
least one byte, so one turn per byte of the buffer, and one more, is enough
fuel. -/
def decompressPostings {D : Type} [Zero D] (ops : DoubleOps D) (invertedList : InvertedList D) :
    Option (InvertedList D) :=
  let lastDocId := invertedList.lastDocIds.getD invertedList.currentChunkIndex 0
  match decompressDocIds (invertedList.postings.length + 1) invertedList.postings lastDocId (-1) 0
      invertedList.docIds with
  | none => none
  | some (currentByte, postingIndex1, docIds) =>
    match decompressImpactScores ops postingIndex1 currentByte 0 invertedList.impactScores with
    | none => none
    | some impactScores =>
      some { invertedList with
             docIds := docIds, postingCount := postingIndex1, impactScores := impactScores }

/-! ## `nextGEQ` (`QueryProcessor.c`) -/

/-- The loop `// Skip blocks if possible` of `getNextGEQDocId`. -/
def skipBlocks {D : Type} [Zero D] : Nat → InvertedList D → Int → InvertedList D
  | 0, invertedList, _ => invertedList
  | fuel + 1, invertedList, docId =>
    if invertedList.remainingChunkCount
          - ((MAX_CHUNK_COUNT : Int) - ((invertedList.currentChunkIndex : Int) + 1)) > 0
        ∧ invertedList.lastDocIds.getD (MAX_CHUNK_COUNT - 1) 0 < docId then
      skipBlocks fuel (updateInvertedListByBlock invertedList) docId
    else invertedList

/-- The loop `// Skip chunks if possible` of `getNextGEQDocId`. -/
def skipChunks {D : Type} [Zero D] : Nat → InvertedList D → Int → InvertedList D
  | 0, invertedList, _ => invertedList
  | fuel + 1, invertedList, docId =>
    if invertedList.remainingChunkCount > 0
        ∧ invertedList.lastDocIds.getD invertedList.currentChunkIndex 0 < docId then
      skipChunks fuel (updateInvertedListByChunk invertedList) docId
    else invertedList

/-- The loop `for (postingIndex ...)` of `getNextGEQDocId` from `postingIndex`
on, with the number of turns left as first argument: the index of the first
posting with `docIds[postingIndex] >= docId`. -/
def searchPostings : Nat → Nat → List Int → Int → Option Nat
  | 0, _, _, _ => none
  | n + 1, postingIndex, docIds, docId =>
    if docIds.getD postingIndex 0 ≥ docId then some postingIndex
    else searchPostings n (postingIndex + 1) docIds docId

/-- The function `getNextGEQDocId`: the returned docID (or `-1`) and the
iterator after the call; `none` when `decompressPostings` reads outside the
chunk buffer.  Each turn of the skipping loops lowers `remainingChunkCount`,
which is positive when a turn starts, so `remainingChunkCount` turns are enough
fuel. -/
def getNextGEQDocId {D : Type} [Zero D] (ops : DoubleOps D) (invertedList : InvertedList D)
    (docId : Int) : Option (Int × InvertedList D) :=
  let l1 := skipBlocks invertedList.remainingChunkCount.toNat invertedList docId
  let l2 := skipChunks l1.remainingChunkCount.toNat l1 docId
  match decompressPostings ops l2 with
  | none => none
  | some l3 =>
    match searchPostings l3.postingCount 0 l3.docIds docId with
    | some postingIndex =>
      some (l3.docIds.getD postingIndex 0, { l3 with currentPostingIndex := postingIndex })
    | none => some (-1, l3)

/-! ## Array heaps (`QueryHeap.c`, `MergeHeap.c`)

`QueryHeap.c` and `MergeHeap.c` hold the same six functions over two node
types; they differ in the comparison of two nodes only.  The functions are
embedded once, over the node type and over the comparison `less a b` ("node `a`
goes before node `b`"), and instantiated for the two heaps below. -/

/-- The structures `QueryHeap` and `MergeHeap`: the number of nodes and the
array of nodes. -/
structure ArrayHeap (α : Type) where
  nodeCount : Nat
  heapNodes : List α

namespace ArrayHeap

variable {α : Type} [Inhabited α]

/-- The function `swapHeapNodes`. -/
def swapHeapNodes (heapNodes : List α) (i j : Nat) : List α :=
  let temp := heapNodes.getD i default
  (heapNodes.set i (heapNodes.getD j default)).set j temp

/-- The loop of `heapify`, with its fuel as first argument. -/
def heapifyLoop (less : α → α → Bool) : Nat → ArrayHeap α → Nat → ArrayHeap α
  | 0, heap, _ => heap
  | fuel + 1, heap, i =>
    if i < heap.nodeCount then
      let left := 2 * i + 1
      let right := 2 * i + 2
      let smallest := i
      let smallest :=
        if left < heap.nodeCount ∧
            less (heap.heapNodes.getD left default) (heap.heapNodes.getD smallest default) then left
        else smallest
      let smallest :=
        if right < heap.nodeCount ∧
            less (heap.heapNodes.getD right default) (heap.heapNodes.getD smallest default) then right
        else smallest
      if smallest ≠ i then
        heapifyLoop less fuel { heap with heapNodes := swapHeapNodes heap.heapNodes i smallest } smallest
      else heap
    else heap

/-- The function `heapify`.  The index `i` grows at every turn of the loop and
stays below `nodeCount`, so `nodeCount` turns are enough. -/
def heapify (less : α → α → Bool) (heap : ArrayHeap α) (i : Nat) : ArrayHeap α :=
  heapifyLoop less heap.nodeCount heap i

/-- The loop of `buildHeap`: `heapify(heap, i)` for `i = k - 1` down to `0`. -/
def buildHeapLoop (less : α → α → Bool) : Nat → ArrayHeap α → ArrayHeap α
  | 0, heap => heap
  | k + 1, heap => buildHeapLoop less k (heapify less heap k)

/-- The function `buildHeap`. -/
def buildHeap (less : α → α → Bool) (heap : ArrayHeap α) : ArrayHeap α :=
  buildHeapLoop less (heap.nodeCount / 2) heap

/-- The function `extractMin`: the node returned and the heap after the call.
The code calls it on non-empty heaps only. -/
def extractMin (less : α → α → Bool) (heap : ArrayHeap α) : α × ArrayHeap α :=
  let min := heap.heapNodes.getD 0 default
  let heap1 : ArrayHeap α :=
    { nodeCount := heap.nodeCount - 1
      heapNodes := heap.heapNodes.set 0 (heap.heapNodes.getD (heap.nodeCount - 1) default) }
  (min, heapify less heap1 0)

/-- The bubble-up loop of `insertHeapNode`, with its fuel as first argument. -/
def bubbleUp (less : α → α → Bool) : Nat → List α → Nat → List α
  | 0, heapNodes, _ => heapNodes
  | fuel + 1, heapNodes, i =>
    if i > 0 then
      let parentIndex := (i - 1) / 2
      if less (heapNodes.getD i default) (heapNodes.getD parentIndex default) then
        bubbleUp less fuel (swapHeapNodes heapNodes i parentIndex) parentIndex
      else heapNodes
    else heapNodes

/-- The function `insertHeapNode`.  The index `i` falls at every turn of the
loop, so `nodeCount` turns are enough. -/
def insertHeapNode (less : α → α → Bool) (heap : ArrayHeap α) (heapNode : α) : ArrayHeap α :=
  let heapNodes := heap.heapNodes.set heap.nodeCount heapNode
  { nodeCount := heap.nodeCount + 1
    heapNodes := bubbleUp less (heap.nodeCount + 1) heapNodes heap.nodeCount }

/-- The loop of `heapSort`: for `i = k` down to `1`, swap nodes `0` and `i`,
lower `nodeCount` and `heapify(heap, 0)`. -/
def heapSortLoop (less : α → α → Bool) : Nat → ArrayHeap α → ArrayHeap α
  | 0, heap => heap
  | k + 1, heap =>
    let heap1 : ArrayHeap α :=
      { nodeCount := heap.nodeCount - 1
        heapNodes := swapHeapNodes heap.heapNodes 0 (k + 1) }
    heapSortLoop less k (heapify less heap1 0)

/-- The function `heapSort`. -/
def heapSort (less : α → α → Bool) (heap : ArrayHeap α) : ArrayHeap α :=
  let heap1 := buildHeap less heap
  let originalSize := heap1.nodeCount
  let heap2 := heapSortLoop less (heap1.nodeCount - 1) heap1
  { heap2 with nodeCount := originalSize }

end ArrayHeap

/-! ## The top-K heap of the query evaluator (`QueryHeap.h`, `QueryHeap.c`) -/

/-- The structure `QueryHeapNode`. -/
structure QueryHeapNode (D : Type) where
  docId : Int
  impactScore : D
deriving DecidableEq, Repr

instance {D : Type} [Zero D] : Inhabited (QueryHeapNode D) := ⟨⟨0, 0⟩⟩

/-- The structure `QueryHeap`. -/
abbrev QueryHeap (D : Type) := ArrayHeap (QueryHeapNode D)

namespace QueryHeap

variable {D : Type} [Zero D] [LT D] [DecidableRel (fun a b : D => a < b)]

/-- The comparison of `QueryHeap.c`: `a.impactScore < b.impactScore`. -/
def less (a b : QueryHeapNode D) : Bool := decide (a.impactScore < b.impactScore)

/-- The function `createHeap` of `QueryHeap.c`; the array is taken as filled
with zero nodes. -/
def createHeap : QueryHeap D :=
  { nodeCount := 0, heapNodes := List.replicate QUERY_HEAP_SIZE default }

/-- The function `heapify` of `QueryHeap.c`. -/
def heapify (heap : QueryHeap D) (i : Nat) : QueryHeap D := ArrayHeap.heapify less heap i

/-- The function `buildHeap` of `QueryHeap.c`. -/
def buildHeap (heap : QueryHeap D) : QueryHeap D := ArrayHeap.buildHeap less heap

/-- The function `extractMin` of `QueryHeap.c`. -/
def extractMin (heap : QueryHeap D) : QueryHeapNode D × QueryHeap D :=
  ArrayHeap.extractMin less heap

/-- The function `insertHeapNode` of `QueryHeap.c`. -/
def insertHeapNode (heap : QueryHeap D) (heapNode : QueryHeapNode D) : QueryHeap D :=
  ArrayHeap.insertHeapNode less heap heapNode

/-- The function `heapSort` of `QueryHeap.c`. -/
def heapSort (heap : QueryHeap D) : QueryHeap D := ArrayHeap.heapSort less heap

end QueryHeap

/-- The state of the `// Update top-K heap` step of the two evaluators: the
heap and `resultCount`. -/
structure TopK (D : Type) where
  heap : QueryHeap D
  resultCount : Nat

/-- The step `// Update top-K heap` followed by `resultCount++`
(`QueryProcessor.c`, lines 204-219 and 295-310). -/
def updateTopK {D : Type} [Zero D] [LT D] [DecidableRel (fun a b : D => a < b)]
    (st : TopK D) (docId : Int) (totalImpactScore : D) : TopK D :=
  let heap :=
    if st.resultCount < QUERY_HEAP_SIZE then
      QueryHeap.insertHeapNode st.heap ⟨docId, totalImpactScore⟩
    else if (st.heap.heapNodes.getD 0 default).impactScore < totalImpactScore then
      QueryHeap.insertHeapNode (QueryHeap.extractMin st.heap).2 ⟨docId, totalImpactScore⟩
    else st.heap
  { heap := heap, resultCount := st.resultCount + 1 }

/-! ## The in-memory index of the encoder (`InvertedIndex.h`, `InvertedIndex.c`) -/

/-- The structure `IndexChunk`; the arrays have `MAX_POSTING_COUNT` entries. -/
structure IndexChunk (D : Type) where
  postingCount : Nat
  docIds : List Int
  impactScores : List D

/-- The structure `IndexBlock`; the arrays have `MAX_CHUNK_COUNT` entries.  The
link `nextIndexBlock` is the order of the list `InvertedIndex.blocks`. -/
structure IndexBlock (D : Type) where
  chunkCount : Nat
  chunkSizes : List Int
  lastDocIds : List Int
  indexChunks : List (IndexChunk D)

/-- The structure `InvertedIndex`: `blocks` is the linked list from
`headIndexBlock` to `tailIndexBlock`. -/
structure InvertedIndex (D : Type) where
  chunkNumber : Int
  blockCount : Int
  blocks : List (IndexBlock D)

/-- A chunk as `createIndexBlock` initialises it. -/
def emptyIndexChunk {D : Type} [Zero D] : IndexChunk D :=
  { postingCount := 0
    docIds := List.replicate MAX_POSTING_COUNT (-1)
    impactScores := List.replicate MAX_POSTING_COUNT 0 }

/-- The function `createIndexBlock`. -/
def createIndexBlock {D : Type} [Zero D] : IndexBlock D :=
  { chunkCount := 0
    chunkSizes := List.replicate MAX_CHUNK_COUNT 0
    lastDocIds := List.replicate MAX_CHUNK_COUNT (-1)
    indexChunks := List.replicate MAX_CHUNK_COUNT emptyIndexChunk }

/-- The function `createInvertedIndex`. -/
def createInvertedIndex {D : Type} : InvertedIndex D :=
  { chunkNumber := 0, blockCount := 0, blocks := [] }

/-! ## The lexicon of the encoder (`Lexicon.h`, `Lexicon.c`) -/

/-- The structure `LexiconNode`. -/
structure LexiconNode where
  word : List Nat
  startChunk : Int
  endChunk : Int
deriving DecidableEq, Repr

/-- The structure `Lexicon`: `nodes` is the linked list from `headNode` to
`tailNode`. -/
structure Lexicon where
  nodeCount : Int
  nodes : List LexiconNode
deriving DecidableEq, Repr

/-- The function `createLexicon`. -/
def createLexicon : Lexicon := { nodeCount := 0, nodes := [] }

/-- The function `addNodeToLexicon`; `word` is a non-null string. -/
def addNodeToLexicon (lexicon : Lexicon) (word : List Nat) (startChunk endChunk : Int) :
    Lexicon :=
  { nodeCount := lexicon.nodeCount + 1
    nodes := lexicon.nodes ++ [{ word := word, startChunk := startChunk, endChunk := endChunk }] }

/-! ## Parsed items (`MergeHeap.h`, `MergeHeap.c`, `Utils.c`) -/

/-- The structure `ParsedItem`: a word (the bytes of the string, without the
terminating zero) and its postings of one intermediate file. -/
structure ParsedItem where
  word : List Nat
  postingCount : Int
  docIds : List Int
  frequencies : List Int
deriving DecidableEq, Repr

/-- The pairs `(docIds[postingIndex], frequencies[postingIndex])` for
`postingIndex < postingCount`, in the order of the loop over `postingIndex`. -/
def ParsedItem.postings (parsedItem : ParsedItem) : List (Int × Int) :=
  (parsedItem.docIds.zip parsedItem.frequencies).take parsedItem.postingCount.toNat

/-- The function `computeTermDocCount`. -/
def computeTermDocCount (parsedItems : List (Option ParsedItem)) : Int :=
  parsedItems.foldl
    (fun termDocCount parsedItem =>
      match parsedItem with
      | some item => termDocCount + item.postingCount
      | none => termDocCount)
    0

/-- The loop of `computeVarByteLength`, with its fuel as first argument. -/
def computeVarByteLengthLoop : Nat → Int → Int → Int
  | 0, _, byteCount => byteCount
  | fuel + 1, docId, byteCount =>
    if docId ≥ 128 then computeVarByteLengthLoop fuel (docId / 128) (byteCount + 1)
    else byteCount

/-- The function `computeVarByteLength`; `docId >>= 7` on an `int` that is at
least 128 is the division by 128. -/
def computeVarByteLength (docId : Int) : Int :=
  computeVarByteLengthLoop docId.toNat docId 0 + 1

/-! ## The encoder (`IndexBuilder.c`) -/

/-- The local variables of `addParsedItemsToInvertedIndex` together with the
fields of the index it updates: `doneBlocks` are the blocks of the list before
`currentBlock`, which is the tail of the list. -/
structure EncoderState (D : Type) where
  doneBlocks : List (IndexBlock D)
  currentBlock : IndexBlock D
  blockCount : Int
  chunkNumber : Int
  chunkIndex : Nat
  postingCount : Nat
  prevDocId : Int
  word : Option (List Nat)

/-- The statements `chunkIndex = currentBlock->chunkCount; postingCount = ...;
currentBlock->chunkCount++; invertedIndex->chunkNumber++; prevDocId = -1;` that
open a chunk (lines 117-121 and 145-149). -/
def openChunk {D : Type} [Zero D] (s : EncoderState D) : EncoderState D :=
  { s with
    chunkIndex := s.currentBlock.chunkCount
    postingCount :=
      (s.currentBlock.indexChunks.getD s.currentBlock.chunkCount emptyIndexChunk).postingCount
    currentBlock := { s.currentBlock with chunkCount := s.currentBlock.chunkCount + 1 }
    chunkNumber := s.chunkNumber + 1
    prevDocId := -1 }

/-- The statements that append a fresh block to the list and make it the
current block (lines 105-114 and 139-143). -/
def openBlock {D : Type} [Zero D] (s : EncoderState D) : EncoderState D :=
  { s with
    doneBlocks := s.doneBlocks ++ [s.currentBlock]
    currentBlock := createIndexBlock
    blockCount := s.blockCount + 1 }

/-- The statements of lines 151-164: store the posting in the open chunk and
update the metadata of the block. -/
def storePosting {D : Type} [Zero D] (s : EncoderState D) (docId : Int) (impactScore : D) :
    EncoderState D :=
  let block := s.currentBlock
  let chunk := block.indexChunks.getD s.chunkIndex emptyIndexChunk
  let stored := if s.prevDocId ≠ -1 then docId - s.prevDocId else docId
  let chunk1 : IndexChunk D :=
    { postingCount := chunk.postingCount + 1
      docIds := chunk.docIds.set s.postingCount stored
      impactScores := chunk.impactScores.set s.postingCount impactScore }
  let block1 : IndexBlock D :=
    { block with
      indexChunks := block.indexChunks.set s.chunkIndex chunk1
      chunkSizes := block.chunkSizes.set s.chunkIndex
        (block.chunkSizes.getD s.chunkIndex 0 + computeVarByteLength stored + 1)
      lastDocIds := block.lastDocIds.set s.chunkIndex docId }
  { s with currentBlock := block1, prevDocId := docId, postingCount := chunk1.postingCount }

/-- The body of the loop over `postingIndex` (lines 130-164) for one posting of
the word `word`. -/
def addPosting {D : Type} [Zero D] (ops : DoubleOps D) (docLengths : Int → Int)
    (totalDocCount termDocCount avgDocLength : Int) (word : List Nat)
    (s : EncoderState D) (posting : Int × Int) : EncoderState D :=
  let docId := posting.1
  let frequency := posting.2
  let impactScore := ops.calculateBM25ImpactScore totalDocCount termDocCount frequency
    (docLengths (docId - 1)) avgDocLength
  let s1 := { s with word := some word }
  let s2 :=
    if s1.postingCount = MAX_POSTING_COUNT then
      openChunk (if s1.chunkIndex = MAX_CHUNK_COUNT - 1 then openBlock s1 else s1)
    else s1
  storePosting s2 docId impactScore

/-- The body of the loop over `itemIndex` (lines 126-165). -/
def addParsedItem {D : Type} [Zero D] (ops : DoubleOps D) (docLengths : Int → Int)
    (totalDocCount termDocCount avgDocLength : Int)
    (s : EncoderState D) (parsedItem : Option ParsedItem) : EncoderState D :=
  match parsedItem with
  | none => s
  | some item =>
    item.postings.foldl
      (addPosting ops docLengths totalDocCount termDocCount avgDocLength item.word) s

/-- The state of `addParsedItemsToInvertedIndex` when its loop starts
(lines 101-123). -/
def startTerm {D : Type} [Zero D] (invertedIndex : InvertedIndex D) : EncoderState D :=
  let s0 : EncoderState D :=
    match invertedIndex.blocks.getLast? with
    | none =>
      { doneBlocks := [], currentBlock := createIndexBlock
        blockCount := invertedIndex.blockCount + 1, chunkNumber := invertedIndex.chunkNumber
        chunkIndex := 0, postingCount := 0, prevDocId := -1, word := none }
    | some currentBlock =>
      if currentBlock.chunkCount = MAX_CHUNK_COUNT then
        { doneBlocks := invertedIndex.blocks, currentBlock := createIndexBlock
          blockCount := invertedIndex.blockCount + 1, chunkNumber := invertedIndex.chunkNumber
          chunkIndex := 0, postingCount := 0, prevDocId := -1, word := none }
      else
        { doneBlocks := invertedIndex.blocks.dropLast, currentBlock := currentBlock
          blockCount := invertedIndex.blockCount, chunkNumber := invertedIndex.chunkNumber
          chunkIndex := 0, postingCount := 0, prevDocId := -1, word := none }
  openChunk s0

/-- The function `addParsedItemsToInvertedIndex`.  The array `parsedItems` is
the list of its `MERGE_HEAP_SIZE` entries, `docLengths` is the memory that the
pointer `docLengths` addresses, as a function of the index.  The result is
`none` when `addNodeToLexicon` is reached with `word == NULL`, where
`strlen(word)` dereferences the null pointer. -/
def addParsedItemsToInvertedIndex {D : Type} [Zero D] (ops : DoubleOps D)
    (parsedItems : List (Option ParsedItem)) (invertedIndex : InvertedIndex D)
    (lexicon : Lexicon) (docLengths : Int → Int) (totalDocCount avgDocLength : Int) :
    Option (InvertedIndex D × Lexicon) :=
  let termDocCount := computeTermDocCount parsedItems
  let s0 := startTerm invertedIndex
  let startChunk := s0.chunkNumber
  let s := parsedItems.foldl
    (addParsedItem ops docLengths totalDocCount termDocCount avgDocLength) s0
  let endChunk := s.chunkNumber
  match s.word with
  | none => none
  | some word =>
    some ({ chunkNumber := s.chunkNumber, blockCount := s.blockCount
            blocks := s.doneBlocks ++ [s.currentBlock] },
          addNodeToLexicon lexicon word startChunk endChunk)

/-- The bytes `writeInvertedIndexToDisk` writes for one chunk: the
variable-byte codes of the stored docID values, then one byte per impact
score. -/
def writeChunk {D : Type} (ops : DoubleOps D) (chunk : IndexChunk D) : List Nat :=
  (chunk.docIds.take chunk.postingCount).flatMap (fun v => varByteCompressInt (toUInt32 v))
    ++ (chunk.impactScores.take chunk.postingCount).map (fun x => ops.logCompressDouble x % 256)

/-- The bytes `writeInvertedIndexToDisk` writes for one block. -/
def writeBlock {D : Type} (ops : DoubleOps D) (block : IndexBlock D) : List Nat :=
  intsToBytes block.chunkSizes ++ intsToBytes block.lastDocIds
    ++ (block.indexChunks.take block.chunkCount).flatMap (writeChunk ops)

/-- The content of the file `writeInvertedIndexToDisk` writes. -/
def writeInvertedIndexToDisk {D : Type} (ops : DoubleOps D) (invertedIndex : InvertedIndex D) :
    List Nat :=
  invertedIndex.blocks.flatMap (writeBlock ops)

/-! ## Posting lists as the encoder lays them out in chunks -/

/-- The values the encoder stores for a run of docIDs placed in one chunk
(lines 152-160 of `IndexBuilder.c`): the difference to `prevDocId`, or the docID
itself when `prevDocId` is `-1`, as it is when the chunk is opened. -/
def storedDocIds : Int → List Int → List Int
  | _, [] => []
  | prevDocId, docId :: rest =>
    (if prevDocId ≠ -1 then docId - prevDocId else docId) :: storedDocIds docId rest

/-- The bytes of a chunk that holds the postings `chunk`, each a docID and an
impact byte: the variable-byte codes of the stored docID values, then the
impact bytes (the layout `writeChunk` writes). -/
def chunkBytes (chunk : List (Int × Nat)) : List Nat :=
  (storedDocIds (-1) (chunk.map (fun p => p.1))).flatMap
      (fun v => varByteCompressInt (toUInt32 v))
    ++ chunk.map (fun p => p.2)

/-- The last docID of a chunk, the value the encoder keeps in `lastDocIds`. -/
def chunkLastDocId (chunk : List (Int × Nat)) : Int :=
  (chunk.map (fun p => p.1)).getLastD (-1)

/-- The impact scores `decompressPostings` decodes for a chunk with the impact
bytes `impactBytes`: the first `impactBytes.length` entries of the array that
its second loop fills, read at the start of the impact bytes. -/
def decodedImpacts {D : Type} [Zero D] (ops : DoubleOps D) (impactBytes : List Nat) : List D :=
  match decompressImpactScores ops impactBytes.length impactBytes 0
      (List.replicate impactBytes.length 0) with
  | some impactScores => impactScores
  | none => []

/-- The postings of a chunk as the iterator decodes them: docID and decoded
impact score. -/
def decodedChunk {D : Type} [Zero D] (ops : DoubleOps D) (chunk : List (Int × Nat)) :
    List (Int × D) :=
  (chunk.map (fun p => p.1)).zip (decodedImpacts ops (chunk.map (fun p => p.2)))

/-! ## Specification predicates for the heaps -/

namespace ArrayHeap

variable {α : Type} [Inhabited α] {κ : Type} [LinearOrder κ]

/-- Node `j` of the array is not larger, in the key, than its children below `n`. -/
def Dominates (key : α → κ) (a : List α) (n j : Nat) : Prop :=
  ∀ c, (c = 2 * j + 1 ∨ c = 2 * j + 2) → c < n →
    key (a.getD j default) ≤ key (a.getD c default)

/-- The heap property on the first `n` nodes of the array. -/
def IsHeap (key : α → κ) (a : List α) (n : Nat) : Prop :=
  ∀ j, Dominates key a n j

end ArrayHeap

section TopKSpec

variable {D : Type} [Zero D] [LinearOrder D]

/-- The scores held by the first `nodeCount` nodes of a heap. -/
def heapScores (heap : QueryHeap D) : List D :=
  (heap.heapNodes.take heap.nodeCount).map (fun node => node.impactScore)

/-- The invariant of the top-K update step after the candidates with the
scores `scores` have been offered: the heap is a min-heap of
`min scores.length 20` nodes, and the scores offered so far split into the
scores in the heap and a list `R` of rejected scores, none of which is larger
than a score in the heap. -/
def TopKInv (st : TopK D) (scores : List D) : Prop :=
  st.resultCount = scores.length ∧
  st.heap.heapNodes.length = QUERY_HEAP_SIZE ∧
  st.heap.nodeCount = min scores.length QUERY_HEAP_SIZE ∧
  ArrayHeap.IsHeap (fun node : QueryHeapNode D => node.impactScore)
    st.heap.heapNodes st.heap.nodeCount ∧
  ∃ R : List D, (heapScores st.heap ++ R).Perm scores ∧
    (scores.length ≤ QUERY_HEAP_SIZE → R = []) ∧
    ∀ r ∈ R, ∀ x ∈ heapScores st.heap, r ≤ x

end TopKSpec

/-! ## Specification predicates for the encoder and the decoder -/

/-- The docIDs of a run are strictly increasing, start above `prevDocId` and lie
in the range of a non-negative `int`. -/
def IncreasingFrom : Int → List Int → Prop
  | _, [] => True
  | prevDocId, docId :: rest =>
    prevDocId < docId ∧ 0 ≤ docId ∧ docId < 2 ^ 31 ∧ IncreasingFrom docId rest

/-- The absolute docIDs that the stored values of a chunk stand for, read the
way `decompressPostings` reads them: a stored value is added to the docID
before it unless that docID is `-1`. -/
def decodeStored : Int → List Int → List Int
  | _, [] => []
  | prevDocId, v :: rest =>
    let docId := if prevDocId ≠ -1 then v + prevDocId else v
    docId :: decodeStored docId rest

/-- The absolute docIDs of the postings of a chunk of the in-memory index. -/
def IndexChunk.absDocIds {D : Type} (chunk : IndexChunk D) : List Int :=
  decodeStored (-1) (chunk.docIds.take chunk.postingCount)

/-- The chunks of a list of blocks, in the order of the global chunk numbering. -/
def allChunks {D : Type} (blocks : List (IndexBlock D)) : List (IndexChunk D) :=
  blocks.flatMap (fun block => block.indexChunks.take block.chunkCount)

/-- The shape of a block the encoder has built: arrays of the declared sizes,
at most `MAX_CHUNK_COUNT` chunks, and the slots from `chunkCount` on as
`createIndexBlock` left them. -/
structure BlockWF {D : Type} [Zero D] (block : IndexBlock D) : Prop where
  count_le : block.chunkCount ≤ MAX_CHUNK_COUNT
  chunks_length : block.indexChunks.length = MAX_CHUNK_COUNT
  sizes_length : block.chunkSizes.length = MAX_CHUNK_COUNT
  lasts_length : block.lastDocIds.length = MAX_CHUNK_COUNT
  fresh : ∀ j, block.chunkCount ≤ j → block.indexChunks.getD j emptyIndexChunk = emptyIndexChunk
  docIds_length : ∀ c ∈ block.indexChunks, c.docIds.length = MAX_POSTING_COUNT
  scores_length : ∀ c ∈ block.indexChunks, c.impactScores.length = MAX_POSTING_COUNT
  posting_le : ∀ c ∈ block.indexChunks, c.postingCount ≤ MAX_POSTING_COUNT

/-- The invariant of the loop of `addParsedItemsToInvertedIndex`: the current
block is well formed, the open chunk is its last chunk, `postingCount` is the
number of postings of the open chunk and `prevDocId` is its last docID, or
`-1` when it is empty. -/
structure EncInv {D : Type} [Zero D] (s : EncoderState D) : Prop where
  wf : BlockWF s.currentBlock
  open_last : s.currentBlock.chunkCount = s.chunkIndex + 1
  posting_eq : (s.currentBlock.indexChunks.getD s.chunkIndex emptyIndexChunk).postingCount
    = s.postingCount
  prev_eq : s.prevDocId
    = (s.currentBlock.indexChunks.getD s.chunkIndex emptyIndexChunk).absDocIds.getLastD (-1)
  last_eq : 0 < s.postingCount → s.currentBlock.lastDocIds.getD s.chunkIndex 0 = s.prevDocId

/-- The absolute docIDs of all chunks of the index under construction, chunk by
chunk. -/
def EncoderState.absLists {D : Type} (s : EncoderState D) : List (List Int) :=
  (allChunks (s.doneBlocks ++ [s.currentBlock])).map IndexChunk.absDocIds

/-- The absolute docIDs of the chunks before the open chunk, chunk by chunk. -/
def EncoderState.closedLists {D : Type} (s : EncoderState D) : List (List Int) :=
  (allChunks s.doneBlocks ++ s.currentBlock.indexChunks.take s.chunkIndex).map
    IndexChunk.absDocIds

/-- The absolute docIDs of the open chunk. -/
def EncoderState.openList {D : Type} [Zero D] (s : EncoderState D) : List Int :=
  (s.currentBlock.indexChunks.getD s.chunkIndex emptyIndexChunk).absDocIds

/-- The invariant of `addParsedItemsToInvertedIndex` for the term it adds: the
chunks before the term hold the docID lists `G0`, `n0` chunks were numbered
before the term, and the chunks of the term hold, in order, the docIDs `Q`
added so far; every closed chunk of the term holds `MAX_POSTING_COUNT`
postings. -/
structure TermInv {D : Type} [Zero D] (s : EncoderState D) (G0 : List (List Int)) (n0 : Int)
    (Q : List Int) : Prop where
  enc : EncInv s
  done_wf : ∀ b ∈ s.doneBlocks, BlockWF b
  closed : ∃ Tc : List (List Int), s.closedLists = G0 ++ Tc ∧ Tc.flatten ++ s.openList = Q ∧
    s.chunkNumber = n0 + Tc.length + 1 ∧ ∀ l ∈ Tc, l.length = MAX_POSTING_COUNT
  open_length : s.openList.length = s.postingCount

/-- The docIDs of the postings of the items of `parsedItems`, in the order in
which `addParsedItemsToInvertedIndex` visits them. -/
def itemsDocIds (parsedItems : List (Option ParsedItem)) : List Int :=
  parsedItems.flatMap (fun parsedItem =>
    match parsedItem with
    | some item => item.postings.map (fun p => p.1)
    | none => [])

/-- The value of the variable `word` after the loops of
`addParsedItemsToInvertedIndex` over `parsedItems`, from the value `word`. -/
def lastWord (word : Option (List Nat)) (parsedItems : List (Option ParsedItem)) :
    Option (List Nat) :=
  parsedItems.foldl (fun w parsedItem =>
    match parsedItem with
    | some item => if item.postings = [] then w else some item.word
    | none => w) word

/-- The absolute docIDs of all chunks of an index, chunk by chunk. -/
def InvertedIndex.absLists {D : Type} (invertedIndex : InvertedIndex D) : List (List Int) :=
  (allChunks invertedIndex.blocks).map IndexChunk.absDocIds

/-- Every block of the index has the shape the encoder builds. -/
def IndexWF {D : Type} [Zero D] (invertedIndex : InvertedIndex D) : Prop :=
  ∀ b ∈ invertedIndex.blocks, BlockWF b

/-! ## Specification of the list iterator -/

/-- The layout, in the file `content`, of the chunks `chunks` of a term that
follow the current chunk of an iterator: the iterator holds the block header
`chunkSizes`, `lastDocIds`, its current chunk is slot `k` of that block and its
stream is at `pos`.  A chunk in a later slot of the same block has its size and
last docID in the header and its bytes next in the file; after slot
`MAX_CHUNK_COUNT - 1` the file holds the header of the next block
(`MAX_CHUNK_COUNT` sizes, `MAX_CHUNK_COUNT` last docIDs), then slot 0. -/
def laidOut (content : List Nat) : List Int → List Int → Nat → Nat → List (List (Int × Nat)) → Bool
  | _, _, _, _, [] => true
  | chunkSizes, lastDocIds, k, pos, chunk :: chunks =>
    if k + 1 < MAX_CHUNK_COUNT then
      decide (chunkSizes.getD (k + 1) 0 = ((chunkBytes chunk).length : Int)) &&
      decide (lastDocIds.getD (k + 1) 0 = chunkLastDocId chunk) &&
      decide ((content.drop pos).take (chunkBytes chunk).length = chunkBytes chunk) &&
      laidOut content chunkSizes lastDocIds (k + 1) (pos + (chunkBytes chunk).length) chunks
    else
      let sizeBytes := (content.drop pos).take (4 * MAX_CHUNK_COUNT)
      let lastBytes := (content.drop (pos + 4 * MAX_CHUNK_COUNT)).take (4 * MAX_CHUNK_COUNT)
      decide (sizeBytes.length = 4 * MAX_CHUNK_COUNT) &&
      decide (lastBytes.length = 4 * MAX_CHUNK_COUNT) &&
      decide ((intsOfBytes sizeBytes).getD 0 0 = ((chunkBytes chunk).length : Int)) &&
      decide ((intsOfBytes lastBytes).getD 0 0 = chunkLastDocId chunk) &&
      decide ((content.drop (pos + 8 * MAX_CHUNK_COUNT)).take (chunkBytes chunk).length
        = chunkBytes chunk) &&
      laidOut content (intsOfBytes sizeBytes) (intsOfBytes lastBytes) 0
        (pos + 8 * MAX_CHUNK_COUNT + (chunkBytes chunk).length) chunks

/-- The iterator `invertedList` is on a term whose remaining chunks, from the
current chunk to the last chunk of the term, hold the postings `chunks` (docID
and impact byte), all in the file of the iterator. -/
def Represents {D : Type} (invertedList : InvertedList D) : List (List (Int × Nat)) → Prop
  | [] => False
  | chunk :: chunks =>
    invertedList.currentChunkIndex < MAX_CHUNK_COUNT ∧
    invertedList.remainingChunkCount = (chunks.length : Int) ∧
    invertedList.postings = chunkBytes chunk ∧
    invertedList.lastDocIds.getD invertedList.currentChunkIndex 0 = chunkLastDocId chunk ∧
    invertedList.chunkSizes.length = MAX_CHUNK_COUNT ∧
    invertedList.lastDocIds.length = MAX_CHUNK_COUNT ∧
    invertedList.docIds.length = MAX_POSTING_COUNT ∧
    invertedList.impactScores.length = MAX_POSTING_COUNT ∧
    laidOut invertedList.listPointer.content invertedList.chunkSizes invertedList.lastDocIds
      invertedList.currentChunkIndex invertedList.listPointer.pos chunks = true

/-- The number of bytes of a run of chunks. -/
def chunksByteLength (chunks : List (List (Int × Nat))) : Nat :=
  (chunks.map (fun chunk => (chunkBytes chunk).length)).sum

/-- The docIDs of a run of chunks, in order. -/
def docIdsOf (chunks : List (List (Int × Nat))) : List Int :=
  chunks.flatten.map (fun p => p.1)

/-- The chunks of a posting list as the encoder builds them: no chunk is
empty, no chunk has more than `MAX_POSTING_COUNT` postings, the docIDs are
strictly increasing across the chunks and are non-negative `int`s below
`INT_MAX`. -/
structure ChunksOK (chunks : List (List (Int × Nat))) : Prop where
  nonempty : ∀ c ∈ chunks, c ≠ []
  small : ∀ c ∈ chunks, c.length ≤ MAX_POSTING_COUNT
  sorted : (docIdsOf chunks).Pairwise (fun a b => a < b)
  range : ∀ d ∈ docIdsOf chunks, 0 ≤ d ∧ d < 2 ^ 31 - 1

/-- The chunks `rest` are what is left of `chunks` after a prefix whose docIDs
are all below `target` has been skipped. -/
def SkipsTo (chunks rest : List (List (Int × Nat))) (target : Int) : Prop :=
  ∃ dropped, chunks = dropped ++ rest ∧ ∀ d ∈ docIdsOf dropped, d < target

/-- The impact scores the second loop of `decompressPostings` computes in `n`
turns from a cursor at `bytes`: a zero byte gives `0.0` and leaves the cursor
where it is. -/
def impactsOf {D : Type} [Zero D] (ops : DoubleOps D) : Nat → List Nat → List D
  | 0, _ => []
  | _ + 1, [] => []
  | n + 1, b :: rest =>
    if b = 0 then 0 :: impactsOf ops n (b :: rest)
    else ops.sub (ops.exp2 (ops.div (ops.ofByte b) ops.scale)) ops.one :: impactsOf ops n rest

/-- The postings of a run of chunks as the iterator decodes them. -/
def decodedPostings {D : Type} [Zero D] (ops : DoubleOps D) (chunks : List (List (Int × Nat))) :
    List (Int × D) :=
  chunks.flatMap (decodedChunk ops)

/-- What `getNextGEQDocId` returns for the target `t` on an iterator whose
remaining postings are `chunks`: `-1` when no docID is at least `t`, otherwise
the smallest docID `r` that is at least `t`, the iterator being positioned on
the posting `(r, impact)`. -/
def NextGEQResult {D : Type} [Zero D] (ops : DoubleOps D) (chunks : List (List (Int × Nat)))
    (t r : Int) (impact : D) : Prop :=
  (r = -1 ∧ ∀ d ∈ docIdsOf chunks, d < t) ∨
  (t ≤ r ∧ (r, impact) ∈ decodedPostings ops chunks ∧ ∀ d ∈ docIdsOf chunks, t ≤ d → r ≤ d)

instance {D : Type} (invertedList : InvertedList D) (chunks : List (List (Int × Nat))) :
    Decidable (Represents invertedList chunks) :=
  match chunks with
  | [] => isFalse (fun h => h)
  | chunk :: rest =>
    inferInstanceAs (Decidable (
      invertedList.currentChunkIndex < MAX_CHUNK_COUNT ∧
      invertedList.remainingChunkCount = (rest.length : Int) ∧
      invertedList.postings = chunkBytes chunk ∧
      invertedList.lastDocIds.getD invertedList.currentChunkIndex 0 = chunkLastDocId chunk ∧
      invertedList.chunkSizes.length = MAX_CHUNK_COUNT ∧
      invertedList.lastDocIds.length = MAX_CHUNK_COUNT ∧
      invertedList.docIds.length = MAX_POSTING_COUNT ∧
      invertedList.impactScores.length = MAX_POSTING_COUNT ∧
      laidOut invertedList.listPointer.content invertedList.chunkSizes invertedList.lastDocIds
        invertedList.currentChunkIndex invertedList.listPointer.pos rest = true))

/-! ## The conjunctive evaluator (`QueryProcessor.c`) -/

/-- The constant `INT_MAX` of `<limits.h>`. -/
def INT_MAX : Int := 2 ^ 31 - 1

/-- The sum `totalImpactScore` of the evaluators: `0.0`, to which the entry
`impactScores[currentPostingIndex]` of every list is added in the order of the
words. -/
def sumCurrentImpacts {D : Type} [Zero D] [Add D] (invertedLists : List (InvertedList D)) : D :=
  invertedLists.foldl
    (fun total invertedList =>
      total + invertedList.impactScores.getD invertedList.currentPostingIndex 0) 0

/-- The variables the loop over `wordIndex = 1, ..., wordCount - 1` of
`conjunctiveDocumentAtATime` may write. -/
structure ConjunctiveFlags where
  anyListExhausted : Bool
  allMatched : Bool
  currentDocId : Int

/-- The loop `// Check if candidate appears in all other lists` of
`conjunctiveDocumentAtATime` (lines 178-190) on the lists from `wordIndex` on.
The result is `none` when a call of `getNextGEQDocId` does not return. -/
def conjunctiveCheck {D : Type} [Zero D] (ops : DoubleOps D) :
    List (InvertedList D) → Int → ConjunctiveFlags →
      Option (List (InvertedList D) × ConjunctiveFlags)
  | [], _, flags => some ([], flags)
  | invertedList :: others, candidateDocId, flags =>
    match getNextGEQDocId ops invertedList candidateDocId with
    | none => none
    | some (nextDocId, invertedList1) =>
      if nextDocId = -1 then
        some (invertedList1 :: others, { flags with anyListExhausted := true })
      else if nextDocId ≠ candidateDocId then
        some (invertedList1 :: others,
          { flags with allMatched := false, currentDocId := nextDocId })
      else
        match conjunctiveCheck ops others candidateDocId flags with
        | none => none
        | some (others1, flags1) => some (invertedList1 :: others1, flags1)

/-- The state of the main loop of `conjunctiveDocumentAtATime`: the lists of the
words, the heap with `resultCount`, and `currentDocId`. -/
structure ConjunctiveState (D : Type) where
  invertedLists : List (InvertedList D)
  topK : TopK D
  currentDocId : Int

/-- The main loop `while (1)` of `conjunctiveDocumentAtATime` (lines 169-222),
with its fuel as first argument; the result is the state at the `break`.  The
result is `none` when the fuel runs out, when a call of `getNextGEQDocId` does
not return, when there is no list at index 0, and when `candidateDocId + 1`
overflows `int`. -/
def conjunctiveLoop {D : Type} [Zero D] [Add D] [LT D] [DecidableRel (fun a b : D => a < b)]
    (ops : DoubleOps D) : Nat → ConjunctiveState D → Option (ConjunctiveState D)
  | 0, _ => none
  | fuel + 1, st =>
    match st.invertedLists with
    | [] => none
    | first :: others =>
      match getNextGEQDocId ops first st.currentDocId with
      | none => none
      | some (candidateDocId, first1) =>
        if candidateDocId = -1 then
          some { st with invertedLists := first1 :: others }
        else
          match conjunctiveCheck ops others candidateDocId
              { anyListExhausted := false, allMatched := true,
                currentDocId := st.currentDocId } with
          | none => none
          | some (others1, flags) =>
            if flags.anyListExhausted then
              some { st with invertedLists := first1 :: others1,
                             currentDocId := flags.currentDocId }
            else if flags.allMatched then
              if candidateDocId = INT_MAX then none
              else
                conjunctiveLoop ops fuel
                  { invertedLists := first1 :: others1
                    topK := updateTopK st.topK candidateDocId
                      (sumCurrentImpacts (first1 :: others1))
                    currentDocId := candidateDocId + 1 }
            else
              conjunctiveLoop ops fuel
                { st with invertedLists := first1 :: others1,
                          currentDocId := flags.currentDocId }

/-- The function `conjunctiveDocumentAtATime` from the array `invertedLists` on
(lines 160-230): the early return when a word is not in the lexicon, the main
loop from `currentDocId = 0`, and `heapSort`.  The argument is the array the
first loop of the function has filled, with `none` for `NULL`; a query has at
least one word. -/
def conjunctiveDocumentAtATime {D : Type} [Zero D] [Add D] [LT D]
    [DecidableRel (fun a b : D => a < b)] (ops : DoubleOps D) (fuel : Nat)
    (invertedLists : List (Option (InvertedList D))) : Option (QueryHeap D) :=
  if invertedLists.any (fun l => l.isNone) then some QueryHeap.createHeap
  else
    match conjunctiveLoop ops fuel
        { invertedLists := invertedLists.filterMap id
          topK := { heap := QueryHeap.createHeap, resultCount := 0 }
          currentDocId := 0 } with
    | none => none
    | some st => some (QueryHeap.heapSort st.topK.heap)

/-- The iterator `invertedList` stands in the postings `total` of its term and
has skipped only chunks whose docIDs are below `bound`. -/
def IteratorAt {D : Type} (bound : Int) (invertedList : InvertedList D)
    (total : List (List (Int × Nat))) : Prop :=
  ∃ rest, Represents invertedList rest ∧ SkipsTo total rest bound

/-- The impacts `impacts` are, term by term, the decoded impacts of the docID
`docId` in the postings `terms`. -/
def ImpactsAt {D : Type} [Zero D] (ops : DoubleOps D) (docId : Int)
    (terms : List (List (List (Int × Nat)))) (impacts : List D) : Prop :=
  List.Forall₂ (fun total x => (docId, x) ∈ decodedPostings ops total) terms impacts

/-! ## The disjunctive evaluator (`QueryProcessor.c`) -/

/-- Entry `i` of the three arrays `invertedLists`, `currentDocIds` and
`listExhausted` of `disjunctiveDocumentAtATime`, which have one entry per word
and are indexed together.  `invertedList` is `none` for `NULL`. -/
structure ListCursor (D : Type) where
  invertedList : Option (InvertedList D)
  currentDocId : Int
  listExhausted : Bool

/-- The loop `// Initialize each list's state` of `disjunctiveDocumentAtATime`
(lines 265-273).  For a word without list `currentDocIds[i]` is not written;
it is taken as `0` and never read. -/
def disjunctiveInit {D : Type} [Zero D] (ops : DoubleOps D) :
    List (Option (InvertedList D)) → Option (List (ListCursor D))
  | [] => some []
  | none :: rest =>
    match disjunctiveInit ops rest with
    | none => none
    | some cursors =>
      some ({ invertedList := none, currentDocId := 0, listExhausted := true } :: cursors)
  | some invertedList :: rest =>
    match getNextGEQDocId ops invertedList 0 with
    | none => none
    | some (docId, invertedList1) =>
      match disjunctiveInit ops rest with
      | none => none
      | some cursors =>
        some ({ invertedList := some invertedList1, currentDocId := docId
                listExhausted := decide (docId = -1) } :: cursors)

/-- The loop `// Find minimum document ID among all current positions`
(lines 277-283). -/
def findMinDocId {D : Type} (cursors : List (ListCursor D)) : Int :=
  cursors.foldl
    (fun minDocId c =>
      if c.listExhausted = false ∧ c.currentDocId < minDocId then c.currentDocId else minDocId)
    INT_MAX

/-- The loop `// Calculate total impact score for current document`
(lines 289-294), from the value `total` of `totalImpactScore`.  The result is
`none` when `invertedLists[i]` is dereferenced and is `NULL`. -/
def sumMatchingImpacts {D : Type} [Zero D] [Add D] :
    List (ListCursor D) → Int → D → Option D
  | [], _, total => some total
  | c :: cursors, minDocId, total =>
    if c.listExhausted = false ∧ c.currentDocId = minDocId then
      match c.invertedList with
      | none => none
      | some invertedList =>
        sumMatchingImpacts cursors minDocId
          (total + invertedList.impactScores.getD invertedList.currentPostingIndex 0)
    else sumMatchingImpacts cursors minDocId total

/-- The loop `// Advance lists that matched current document` (lines 313-321),
from the value `allListsExhausted` of the flag.  `minDocId + 1` does not
overflow: the loop is reached with `minDocId != INT_MAX` only. -/
def advanceMatching {D : Type} [Zero D] (ops : DoubleOps D) :
    List (ListCursor D) → Int → Bool → Option (List (ListCursor D) × Bool)
  | [], _, allListsExhausted => some ([], allListsExhausted)
  | c :: cursors, minDocId, allListsExhausted =>
    let advanced : Option (ListCursor D) :=
      if c.listExhausted = false ∧ c.currentDocId = minDocId then
        match c.invertedList with
        | none => none
        | some invertedList =>
          match getNextGEQDocId ops invertedList (minDocId + 1) with
          | none => none
          | some (docId, invertedList1) =>
            some { invertedList := some invertedList1, currentDocId := docId
                   listExhausted := decide (docId = -1) }
      else some c
    match advanced with
    | none => none
    | some c1 =>
      match advanceMatching ops cursors minDocId
          (if c1.listExhausted = false then false else allListsExhausted) with
      | none => none
      | some (cursors1, flag) => some (c1 :: cursors1, flag)

/-- The state of the main loop of `disjunctiveDocumentAtATime`. -/
structure DisjunctiveState (D : Type) where
  cursors : List (ListCursor D)
  topK : TopK D
  allListsExhausted : Bool

/-- The main loop `while (!allListsExhausted)` of `disjunctiveDocumentAtATime`
(lines 275-322), with its fuel as first argument; the result is the state when
the loop is left. -/
def disjunctiveLoop {D : Type} [Zero D] [Add D] [LT D] [DecidableRel (fun a b : D => a < b)]
    (ops : DoubleOps D) : Nat → DisjunctiveState D → Option (DisjunctiveState D)
  | 0, _ => none
  | fuel + 1, st =>
    if st.allListsExhausted then some st
    else
      let minDocId := findMinDocId st.cursors
      if minDocId = INT_MAX then some st
      else
        match sumMatchingImpacts st.cursors minDocId 0 with
        | none => none
        | some totalImpactScore =>
          match advanceMatching ops st.cursors minDocId true with
          | none => none
          | some (cursors1, flag) =>
            disjunctiveLoop ops fuel
              { cursors := cursors1
                topK := updateTopK st.topK minDocId totalImpactScore
                allListsExhausted := flag }

/-- The function `disjunctiveDocumentAtATime` from the array `invertedLists` on
(lines 259-334): the initialisation of the per-list state, the main loop, and
`heapSort`.  The argument is the array the first loop of the function has
filled, with `none` for `NULL`. -/
def disjunctiveDocumentAtATime {D : Type} [Zero D] [Add D] [LT D]
    [DecidableRel (fun a b : D => a < b)] (ops : DoubleOps D) (fuel : Nat)
    (invertedLists : List (Option (InvertedList D))) : Option (QueryHeap D) :=
  match disjunctiveInit ops invertedLists with
  | none => none
  | some cursors =>
    match disjunctiveLoop ops fuel
        { cursors := cursors
          topK := { heap := QueryHeap.createHeap, resultCount := 0 }
          allListsExhausted := false } with
    | none => none
    | some st => some (QueryHeap.heapSort st.topK.heap)

/-- The entry of `invertedLists` for a word: `NULL` for a word that is not in
the lexicon, and a fresh iterator on the postings of the word otherwise. -/
def RepresentsTerm {D : Type} :
    Option (InvertedList D) → Option (List (List (Int × Nat))) → Prop
  | none, none => True
  | some invertedList, some total => Represents invertedList total
  | _, _ => False

/-- The state of a list of `disjunctiveDocumentAtATime` when every docID below
`bound` has been dealt with: the list of an absent word is marked exhausted;
the list of a present word is exhausted when no docID from `bound` on is left,
and stands on the smallest such docID otherwise. -/
def CursorAt {D : Type} [Zero D] (ops : DoubleOps D) (bound : Int) (c : ListCursor D) :
    Option (List (List (Int × Nat))) → Prop
  | none => c.listExhausted = true
  | some total =>
    ∃ invertedList, c.invertedList = some invertedList ∧ IteratorAt bound invertedList total ∧
      ((c.listExhausted = true ∧ ∀ d ∈ docIdsOf total, d < bound) ∨
       (c.listExhausted = false ∧ bound ≤ c.currentDocId ∧
          (c.currentDocId,
            invertedList.impactScores.getD invertedList.currentPostingIndex 0)
            ∈ decodedPostings ops total ∧
          ∀ d ∈ docIdsOf total, bound ≤ d → c.currentDocId ≤ d))

/-- What the postings of a word add to the score of `docId`: the decoded
impact of `docId` when the postings hold `docId`, and nothing when they do not
or the word is absent. -/
def Contribution {D : Type} [Zero D] (ops : DoubleOps D) (docId : Int) :
    Option (List (List (Int × Nat))) → Option D → Prop
  | some total, some x => (docId, x) ∈ decodedPostings ops total
  | some total, none => docId ∉ docIdsOf total
  | none, none => True
  | none, some _ => False

/-- The sum of the contributions, from `total`, in the order of the words. -/
def sumContributions {D : Type} [Add D] (total : D) (contributions : List (Option D)) : D :=
  contributions.foldl
    (fun acc x =>
      match x with
      | some v => acc + v
      | none => acc) total

/-- The docIDs of the words that are in the lexicon. -/
def presentDocIds (terms : List (Option (List (List (Int × Nat))))) : List Int :=
  terms.flatMap (fun term =>
    match term with
    | some total => docIdsOf total
    | none => [])

/-! ## The merge of the intermediate files (`MergeHeap.c`, `IndexBuilder.c`) -/

/-- The constant `READ_SIZE` of `IndexBuilder.h`. -/
def READ_SIZE : Nat := 48 * 1024 * 1024

/-- The constant `DOC_COUNT` of `IndexBuilder.h`. -/
def DOC_COUNT : Int := 8841822

/-- The function `computeAvgDocLength` of `Utils.c`; `docLengths` is the memory
the pointer addresses, as a function of the index.  The sum is taken without
overflow. -/
def computeAvgDocLength (docLengths : Int → Int) (totalDocCount : Int) : Int :=
  Int.tdiv
    ((List.range totalDocCount.toNat).foldl
      (fun totalDocLength docIndex => totalDocLength + docLengths docIndex) 0)
    totalDocCount

/-- The sign of `strcmp` on two strings given by their bytes: the end of the
list and a zero byte both end the string. -/
def strcmp : List Nat → List Nat → Int
  | [], [] => 0
  | [], b :: _ => if b = 0 then 0 else -1
  | a :: _, [] => if a = 0 then 0 else 1
  | a :: as, b :: bs =>
    if a ≠ b then (if a < b then -1 else 1)
    else if a = 0 then 0
    else strcmp as bs

instance : Inhabited ParsedItem := ⟨{ word := [], postingCount := 0, docIds := [], frequencies := [] }⟩

/-- The structure `MergeHeapNode`. -/
structure MergeHeapNode where
  fileNumber : Nat
  parsedItem : ParsedItem
deriving DecidableEq, Repr

instance : Inhabited MergeHeapNode := ⟨{ fileNumber := 0, parsedItem := default }⟩

/-- The structure `MergeHeap`. -/
abbrev MergeHeap := ArrayHeap MergeHeapNode

namespace MergeHeap

/-- The comparison of `heapify` and `insertHeapNode` of `MergeHeap.c`: the word
in the order of `strcmp` first, then the file number. -/
def less (a b : MergeHeapNode) : Bool :=
  let cmp := strcmp a.parsedItem.word b.parsedItem.word
  decide (cmp < 0) || (decide (cmp = 0) && decide (a.fileNumber < b.fileNumber))

/-- The function `createHeap` of `MergeHeap.c`; the nodes are not initialised. -/
def createHeap : MergeHeap :=
  { nodeCount := 0, heapNodes := List.replicate MERGE_HEAP_SIZE default }

/-- The function `extractMin` of `MergeHeap.c`. -/
def extractMin (heap : MergeHeap) : MergeHeapNode × MergeHeap := ArrayHeap.extractMin less heap

/-- The function `insertHeapNode` of `MergeHeap.c`. -/
def insertHeapNode (heap : MergeHeap) (heapNode : MergeHeapNode) : MergeHeap :=
  ArrayHeap.insertHeapNode less heap heapNode

end MergeHeap

/-- The conversion of an `int` to `size_t`. -/
def toSizeT (v : Int) : Nat := (v % 2 ^ 64).toNat

/-- The `int` at the offset `start` of a buffer. -/
def readInt32 (buffer : List Nat) (start : Nat) : Int :=
  int32OfBytes (buffer.getD start 0) (buffer.getD (start + 1) 0) (buffer.getD (start + 2) 0)
    (buffer.getD (start + 3) 0)

/-- The function `convertBinaryToParsedItem`.  The argument is the memory from
`*remainingBuffer` to the end of the buffer, so that `*remainingBufferSize` is
its length; the result holds the returned item, `none` for `NULL`, and the
memory from the new `*remainingBuffer` on.  The sums are sums of `size_t`.  The
result is `none` when `memcpy` is called with a negative `wordLength` or
`postingCount` converted to `size_t`. -/
def convertBinaryToParsedItem (remainingBuffer : List Nat) :
    Option (Option ParsedItem × List Nat) :=
  let remainingBufferSize := remainingBuffer.length
  if remainingBufferSize < 4 then some (none, remainingBuffer)
  else
    let wordLength := readInt32 remainingBuffer 0
    if remainingBufferSize < (4 + toSizeT wordLength) % 2 ^ 64 then some (none, remainingBuffer)
    else if wordLength < 0 then none
    else
      let word := (remainingBuffer.drop 4).take wordLength.toNat
      if remainingBufferSize < (4 + toSizeT wordLength + 4) % 2 ^ 64 then
        some (none, remainingBuffer)
      else
        let postingCount := readInt32 remainingBuffer (4 + wordLength.toNat)
        let recordSize := (4 + toSizeT wordLength + 4 + toSizeT postingCount * 4 * 2) % 2 ^ 64
        if remainingBufferSize < recordSize then some (none, remainingBuffer)
        else if postingCount < 0 then none
        else
          let docIds := intsOfBytes
            ((remainingBuffer.drop (4 + wordLength.toNat + 4)).take (4 * postingCount.toNat))
          let frequencies := intsOfBytes
            ((remainingBuffer.drop (4 + wordLength.toNat + 4 + 4 * postingCount.toNat)).take
              (4 * postingCount.toNat))
          some (some { word := word, postingCount := postingCount, docIds := docIds
                       frequencies := frequencies },
                remainingBuffer.drop recordSize)

/-- The variables of `buildIndex` for one intermediate file: the bytes of the
file, `offsets[i]`, and the memory from `remainingBuffer[i]` to the end of the
buffer (`none` for `NULL`), whose length is `remainingBufferSizes[i]`. -/
structure IntermediateFile where
  content : List Nat
  offset : Nat
  remainingBuffer : Option (List Nat)
deriving DecidableEq, Repr

/-- The function `mapIntermediateContentFromDisk`: whether the result is not
`NULL`, and the variables of the file after the call. -/
def mapIntermediateContentFromDisk (file : IntermediateFile) : Bool × IntermediateFile :=
  let fileSize := file.content.length
  if file.offset ≥ fileSize then (false, file)
  else
    let remainingFileSize := fileSize - file.offset
    let mapSize := if remainingFileSize < READ_SIZE then remainingFileSize else READ_SIZE
    let mappedContent := (file.content.drop file.offset).take mapSize
    let newBuffer :=
      match file.remainingBuffer with
      | some old => if old.length > 0 then old ++ mappedContent else mappedContent
      | none => mappedContent
    (true, { file with offset := file.offset + mapSize, remainingBuffer := some newBuffer })

/-- The steps `// Try to get next item from same file` of the merge loops of
`buildIndex` (lines 307-329 and 334-354) for the file `fileNumber`: the heap
and the files after the steps, and whether the `continue` is taken.  The
result is `none` when `convertBinaryToParsedItem` does not return. -/
def refill (heap : MergeHeap) (files : List IntermediateFile) (fileNumber : Nat) :
    Option (MergeHeap × List IntermediateFile × Bool) :=
  match files[fileNumber]? with
  | none => none
  | some file =>
    match convertBinaryToParsedItem (file.remainingBuffer.getD []) with
    | none => none
    | some (some newParsedItem, rest) =>
      some (MergeHeap.insertHeapNode heap { fileNumber := fileNumber, parsedItem := newParsedItem },
        files.set fileNumber { file with remainingBuffer := some rest }, false)
    | some (none, _) =>
      let mapped := mapIntermediateContentFromDisk file
      if mapped.1 = false then some (heap, files.set fileNumber mapped.2, true)
      else
        match convertBinaryToParsedItem (mapped.2.remainingBuffer.getD []) with
        | none => none
        | some (some newParsedItem, rest) =>
          some (MergeHeap.insertHeapNode heap
              { fileNumber := fileNumber, parsedItem := newParsedItem },
            files.set fileNumber { mapped.2 with remainingBuffer := some rest }, false)
        | some (none, _) => some (heap, files.set fileNumber mapped.2, false)

/-- The loop `// Collect all items with same word` of `buildIndex`
(lines 331-355), with its fuel as first argument; `minFileNumber` is
`min.fileNumber`.  The result is `none` when the fuel runs out, when
`parsedItems[min.fileNumber]` is `NULL`, and when `convertBinaryToParsedItem`
does not return. -/
def collectLoop : Nat → MergeHeap → List IntermediateFile → List (Option ParsedItem) → Nat →
    Option (MergeHeap × List IntermediateFile × List (Option ParsedItem))
  | 0, _, _, _, _ => none
  | fuel + 1, heap, files, parsedItems, minFileNumber =>
    match parsedItems.getD minFileNumber none with
    | none => if heap.nodeCount > 0 then none else some (heap, files, parsedItems)
    | some current =>
      if heap.nodeCount > 0 ∧
          strcmp current.word (heap.heapNodes.getD 0 default).parsedItem.word = 0 then
        let r := MergeHeap.extractMin heap
        let parsedItems1 := parsedItems.set r.1.fileNumber (some r.1.parsedItem)
        match refill r.2 files r.1.fileNumber with
        | none => none
        | some (heap2, files2, _) => collectLoop fuel heap2 files2 parsedItems1 r.1.fileNumber
      else some (heap, files, parsedItems)

/-- The variables of the main merge loop of `buildIndex`; `written` holds the
indexes that have been passed to `writeInvertedIndexToDisk`, in the order of
the files `InvertedIndex0.bin`, `InvertedIndex1.bin`, ...  The array
`parsedItems` is declared without an initialiser (line 298), so that an entry
holds an indeterminate value until it is assigned: `indeterminate` lists the
indexes of the entries whose value at the declaration is not `NULL`.  Such a
value is not the address of a parsed item; the list `parsedItems` holds `none`
in that entry until the entry is assigned. -/
structure MergeState (D : Type) where
  heap : MergeHeap
  files : List IntermediateFile
  parsedItems : List (Option ParsedItem)
  indeterminate : List Nat
  lexicon : Lexicon
  invertedIndex : InvertedIndex D
  fileNumber : Nat
  written : List (InvertedIndex D)

/-- Whether a loop over all entries of the array `parsedItems` (the loops of
`computeTermDocCount`, `addParsedItemsToInvertedIndex` and `freeParsedItems`)
reads an entry that has not been assigned and whose indeterminate value is not
`NULL`.  An assignment stores the address of an item, so an entry of
`indeterminate` has been assigned when it holds an item. -/
def readsIndeterminate (indeterminate : List Nat) (parsedItems : List (Option ParsedItem)) :
    Bool :=
  indeterminate.any (fun itemIndex =>
    decide (itemIndex < MERGE_HEAP_SIZE) && (parsedItems.getD itemIndex none).isNone)

/-- The main merge loop `while (heap->nodeCount > 0)` of `buildIndex`
(lines 302-369), with its fuel as first argument.  The result is `none` when
the fuel runs out, when a step does not return, and when the call of
`addParsedItemsToInvertedIndex` reads an entry of `parsedItems` that has not
been assigned and does not hold `NULL`: `computeTermDocCount` dereferences
every entry that is not `NULL`.  After `freeParsedItems` every entry holds
`NULL`. -/
def mergeLoop {D : Type} [Zero D] (ops : DoubleOps D) (docLengths : Int → Int)
    (totalDocCount avgDocLength : Int) : Nat → MergeState D → Option (MergeState D)
  | 0, _ => none
  | fuel + 1, st =>
    if st.heap.nodeCount > 0 then
      let r := MergeHeap.extractMin st.heap
      let parsedItems1 := st.parsedItems.set r.1.fileNumber (some r.1.parsedItem)
      match refill r.2 st.files r.1.fileNumber with
      | none => none
      | some (heap2, files2, true) =>
        mergeLoop ops docLengths totalDocCount avgDocLength fuel
          { st with heap := heap2, files := files2, parsedItems := parsedItems1 }
      | some (heap2, files2, false) =>
        match collectLoop fuel heap2 files2 parsedItems1 r.1.fileNumber with
        | none => none
        | some (heap3, files3, parsedItems3) =>
          if readsIndeterminate st.indeterminate parsedItems3 then none
          else
            match addParsedItemsToInvertedIndex ops parsedItems3 st.invertedIndex st.lexicon
                docLengths totalDocCount avgDocLength with
            | none => none
            | some (invertedIndex1, lexicon1) =>
              let freed : List (Option ParsedItem) := parsedItems3.map (fun _ => none)
              if invertedIndex1.blockCount ≥ MAX_BLOCK_COUNT then
                mergeLoop ops docLengths totalDocCount avgDocLength fuel
                  { heap := heap3, files := files3, parsedItems := freed, indeterminate := []
                    lexicon := lexicon1
                    invertedIndex :=
                      { createInvertedIndex with chunkNumber := invertedIndex1.chunkNumber }
                    fileNumber := st.fileNumber + 1
                    written := st.written ++ [invertedIndex1] }
              else
                mergeLoop ops docLengths totalDocCount avgDocLength fuel
                  { heap := heap3, files := files3, parsedItems := freed, indeterminate := []
                    lexicon := lexicon1
                    invertedIndex := invertedIndex1
                    fileNumber := st.fileNumber
                    written := st.written }
    else some st

/-- The loop `// Open and initialize all intermediate files` of `buildIndex`
(lines 262-287) over the files from `fileIndex` on; `contents` holds the bytes
of these files. -/
def openIntermediateFiles : List (List Nat) → Nat → MergeHeap → List IntermediateFile →
    Option (MergeHeap × List IntermediateFile)
  | [], _, heap, files => some (heap, files)
  | content :: contents, fileIndex, heap, files =>
    let mapped := mapIntermediateContentFromDisk
      { content := content, offset := 0, remainingBuffer := none }
    match convertBinaryToParsedItem (mapped.2.remainingBuffer.getD []) with
    | none => none
    | some (some parsedItem, rest) =>
      openIntermediateFiles contents (fileIndex + 1)
        (MergeHeap.insertHeapNode heap { fileNumber := fileIndex, parsedItem := parsedItem })
        (files ++ [{ mapped.2 with remainingBuffer := some rest }])
    | some (none, _) =>
      openIntermediateFiles contents (fileIndex + 1) heap (files ++ [mapped.2])

/-- What `buildIndex` writes: the indexes passed to `writeInvertedIndexToDisk`,
in the order of the files, and the lexicon passed to `writeLexiconToDisk`. -/
structure BuildResult (D : Type) where
  indexes : List (InvertedIndex D)
  lexicon : Lexicon

/-- The function `buildIndex`.  `intermediateFiles` holds the bytes of the
files `Intermediate0.bin`, ..., of which there are `INTERMEDIATE_FILE_COUNT`,
`docLengths` the content of `DocLengths.bin`.  The function declares the array
`parsedItems` without an initialiser (line 298), so that what the array holds
when the merge loop starts is not fixed by the program: `indeterminate` lists
the indexes of the entries that do not hold `NULL` at that point.  It is `[]`
when, by chance, every entry holds `NULL`; with every index in it the function
has a result only if it reads no entry before it has assigned it.  The result
is `none` when a file is missing, when the fuel of the merge loop runs out,
when a step does not return, and when an entry of `indeterminate` is read
before it has been assigned. -/
def buildIndex {D : Type} [Zero D] (ops : DoubleOps D) (docLengths : Int → Int) (fuel : Nat)
    (indeterminate : List Nat) (intermediateFiles : List (List Nat)) :
    Option (BuildResult D) :=
  if intermediateFiles.length ≠ INTERMEDIATE_FILE_COUNT then none
  else
    match openIntermediateFiles intermediateFiles 0 MergeHeap.createHeap [] with
    | none => none
    | some (heap, files) =>
      let totalDocCount := DOC_COUNT
      let avgDocLength := computeAvgDocLength docLengths totalDocCount
      match mergeLoop ops docLengths totalDocCount avgDocLength fuel
          { heap := heap, files := files
            parsedItems := List.replicate MERGE_HEAP_SIZE none
            indeterminate := indeterminate
            lexicon := createLexicon
            invertedIndex := createInvertedIndex
            fileNumber := 0
            written := [] } with
      | none => none
      | some st =>
        some { indexes := st.written ++ [st.invertedIndex], lexicon := st.lexicon }

/-- The bytes of a record of an intermediate file (`writeHashTableToDisk` of
`DataParser.c`, lines 75-89): the length of the word, the word, the number of
postings, the docIDs, the frequencies. -/
def encodeParsedItem (item : ParsedItem) : List Nat :=
  int32ToBytes item.word.length ++ item.word ++ int32ToBytes item.postingCount
    ++ intsToBytes item.docIds ++ intsToBytes item.frequencies

/-- The bytes of an intermediate file with the records `items`. -/
def encodeParsedItems (items : List ParsedItem) : List Nat :=
  items.flatMap encodeParsedItem

/-! ## Specification of the merge: records -/

/-- A record that `writeHashTableToDisk` can write: the lengths and the values
are `int`s, and `postingCount` is the length of the two arrays. -/
structure RecordWF (item : ParsedItem) : Prop where
  word_lt : item.word.length < 2 ^ 31
  count_eq : item.postingCount = (item.docIds.length : Int)
  freq_len : item.frequencies.length = item.docIds.length
  count_lt : item.docIds.length < 2 ^ 31
  docIds_range : ∀ d ∈ item.docIds, -2 ^ 31 ≤ d ∧ d < 2 ^ 31
  freq_range : ∀ d ∈ item.frequencies, -2 ^ 31 ≤ d ∧ d < 2 ^ 31

instance (item : ParsedItem) : Decidable (RecordWF item) :=
  decidable_of_iff
    (item.word.length < 2 ^ 31 ∧ item.postingCount = (item.docIds.length : Int) ∧
      item.frequencies.length = item.docIds.length ∧ item.docIds.length < 2 ^ 31 ∧
      (∀ d ∈ item.docIds, -2 ^ 31 ≤ d ∧ d < 2 ^ 31) ∧
      (∀ d ∈ item.frequencies, -2 ^ 31 ≤ d ∧ d < 2 ^ 31))
    ⟨fun h => ⟨h.1, h.2.1, h.2.2.1, h.2.2.2.1, h.2.2.2.2.1, h.2.2.2.2.2⟩,
     fun h => ⟨h.word_lt, h.count_eq, h.freq_len, h.count_lt, h.docIds_range, h.freq_range⟩⟩

/-! ## Specification of the merge: the invariant -/

/-- The bytes of the file `file` that have not been parsed, those in the buffer
followed by those not yet mapped, are the records `rem`. -/
def FileInv (file : IntermediateFile) (rem : List ParsedItem) : Prop :=
  file.remainingBuffer.getD [] ++ file.content.drop file.offset = encodeParsedItems rem

/-- The invariant of the merge of `buildIndex` on the first `k` files: the
files hold the records `rem`, which are records of `records`, and the heap holds
at most one record per file, a record of that file. -/
structure MergeInv (records : List (List ParsedItem)) (k : Nat) (heap : MergeHeap)
    (files : List IntermediateFile) (rem : List (List ParsedItem)) : Prop where
  files_inv : List.Forall₂ FileInv files rem
  rem_len : rem.length = k
  rem_sub : ∀ i, ∀ item ∈ rem.getD i [], item ∈ records.getD i []
  heap_len : heap.heapNodes.length = MERGE_HEAP_SIZE
  k_le : k ≤ MERGE_HEAP_SIZE
  count_le : heap.nodeCount ≤ MERGE_HEAP_SIZE
  heap_nodes : ∀ node ∈ heap.heapNodes.take heap.nodeCount,
    node.fileNumber < k ∧ node.parsedItem ∈ records.getD node.fileNumber []
  heap_nodup : ((heap.heapNodes.take heap.nodeCount).map (fun node => node.fileNumber)).Nodup

/-- The number of records that are still in the files or in the heap. -/
def mergeMeasure (heap : MergeHeap) (rem : List (List ParsedItem)) : Nat :=
  (rem.map List.length).sum + heap.nodeCount

/-! ## Specification of the merge: what is written -/

/-- The array `parsedItems` of `buildIndex` holds in entry `i` nothing or a
record of file `i`. -/
def SlotsInv (records : List (List ParsedItem)) (parsedItems : List (Option ParsedItem)) : Prop :=
  parsedItems.length = MERGE_HEAP_SIZE ∧
  ∀ i item, parsedItems.getD i none = some item → item ∈ records.getD i []

/-- The docID lists of the chunks of a sequence of index files, in the order of
the global chunk numbering. -/
def writtenChunks {D : Type} (indexes : List (InvertedIndex D)) : List (List Int) :=
  indexes.flatMap InvertedIndex.absLists

/-- The docIDs of the chunks `startChunk`, ..., `endChunk` of a lexicon entry,
read in order. -/
def termDocIds (chunks : List (List Int)) (node : LexiconNode) : List Int :=
  ((chunks.drop (node.startChunk - 1).toNat).take
    (node.endChunk - node.startChunk + 1).toNat).flatten

/-- Every entry of the lexicon names a non-empty range of chunks that exist,
and the docIDs of these chunks, read in order, are strictly increasing. -/
def LexiconOK (lexicon : Lexicon) (chunks : List (List Int)) : Prop :=
  ∀ node ∈ lexicon.nodes, 1 ≤ node.startChunk ∧ node.startChunk ≤ node.endChunk ∧
    node.endChunk ≤ chunks.length ∧ (termDocIds chunks node).Pairwise (fun a b => a < b)

/-- The part of the state of the merge loop that `buildIndex` writes is as
claimed. -/
def StateGood {D : Type} [Zero D] (st : MergeState D) : Prop :=
  IndexWF st.invertedIndex ∧
  st.invertedIndex.chunkNumber = (writtenChunks (st.written ++ [st.invertedIndex])).length ∧
  LexiconOK st.lexicon (writtenChunks (st.written ++ [st.invertedIndex]))

/-! ## Metadata kept by the encoder -/

/-- The value `addParsedItemsToInvertedIndex` accumulates in `chunkSizes` for a
chunk (lines 152-162): for every stored docID value, its
`computeVarByteLength` and one byte for the impact score. -/
def chunkSizeOf {D : Type} (chunk : IndexChunk D) : Int :=
  ((chunk.docIds.take chunk.postingCount).map (fun v => computeVarByteLength v + 1)).sum

/-- The metadata arrays of a block agree with its chunks: `chunkSizes[j]` is
the accumulated size of chunk `j`, and `lastDocIds[j]` is the absolute docID
of the last posting of chunk `j`, `-1` for a chunk without postings. -/
structure BlockMeta {D : Type} [Zero D] (block : IndexBlock D) : Prop where
  sizes : ∀ j, block.chunkSizes.getD j 0
    = chunkSizeOf (block.indexChunks.getD j emptyIndexChunk)
  lasts : ∀ j, block.lastDocIds.getD j (-1)
    = (block.indexChunks.getD j emptyIndexChunk).absDocIds.getLastD (-1)

/-- What the encoder keeps in addition to `EncInv`: the metadata of every
block agrees with its chunks, every block before the current one is full, and
`blockCount` counts the blocks. -/
structure EncExtra {D : Type} [Zero D] (s : EncoderState D) : Prop where
  cur_meta : BlockMeta s.currentBlock
  done_meta : ∀ b ∈ s.doneBlocks, BlockMeta b
  done_full : ∀ b ∈ s.doneBlocks, b.chunkCount = MAX_CHUNK_COUNT
  count_eq : s.blockCount = (s.doneBlocks.length : Int) + 1

/-- The same for an index between two calls of
`addParsedItemsToInvertedIndex`. -/
structure IndexExtra {D : Type} [Zero D] (invertedIndex : InvertedIndex D) : Prop where
  blocks_meta : ∀ b ∈ invertedIndex.blocks, BlockMeta b
  full : ∀ b ∈ invertedIndex.blocks.dropLast, b.chunkCount = MAX_CHUNK_COUNT
  count_eq : invertedIndex.blockCount = (invertedIndex.blocks.length : Int)

/-! ## Metadata of an index, chunk by chunk -/

/-- The entries of `lastDocIds` of the chunks of an index, in the order of the
global chunk numbering: the first `chunkCount` entries of every block. -/
def InvertedIndex.lastDocIdList {D : Type} (invertedIndex : InvertedIndex D) : List Int :=
  invertedIndex.blocks.flatMap (fun block => block.lastDocIds.take block.chunkCount)

/-- The entries of `chunkSizes` of the chunks of an index, in the order of the
global chunk numbering. -/
def InvertedIndex.chunkSizeList {D : Type} (invertedIndex : InvertedIndex D) : List Int :=
  invertedIndex.blocks.flatMap (fun block => block.chunkSizes.take block.chunkCount)

/-! ## Lexicon entries and the chunk numbering -/

/-- The entries `nodes` tile the chunk numbers from `prev + 1` to `total`: the
first entry starts at `prev + 1`, every entry names a non-empty range, every
later entry starts right after the end of the entry before it, and the last
entry ends at `total`. -/
def lexiconTiles : Int → List LexiconNode → Int → Prop
  | prev, [], total => prev = total
  | prev, node :: nodes, total =>
    node.startChunk = prev + 1 ∧ node.startChunk ≤ node.endChunk ∧
      lexiconTiles node.endChunk nodes total

/-! ## The order of the merge heap -/

/-- The string that the bytes `word` hold for the C library: the bytes before
the first zero byte. -/
def cstr (word : List Nat) : List Nat :=
  word.takeWhile (fun b => b ≠ 0)

/-- The key by which the merge heap orders its nodes: the word as a string, in
the lexicographic order of its bytes, then the file number. -/
def mergeKey (node : MergeHeapNode) : List Nat ×ₗ Nat :=
  toLex (cstr node.parsedItem.word, node.fileNumber)

/-! ## Order invariants of the merge -/

/-- The order invariant of the merge heap: the nodes form a heap in the order
of `mergeKey`, the records left in every file are in strictly ascending order
of their words, and the word of a node is before the words of the records left
in its file. -/
structure HeapOrd (heap : MergeHeap) (rem : List (List ParsedItem)) : Prop where
  heap_ord : ArrayHeap.IsHeap mergeKey heap.heapNodes heap.nodeCount
  rem_sorted : ∀ i, (rem.getD i []).Pairwise (fun a b => cstr a.word < cstr b.word)
  heap_rem : ∀ node ∈ heap.heapNodes.take heap.nodeCount,
    ∀ item ∈ rem.getD node.fileNumber [], cstr node.parsedItem.word < cstr item.word

/-- The order invariant of the lexicon in the merge loop: the words of the
entries are strictly ascending and before the words of the records in
`parsedItems` and in the heap, and no word of a record in `parsedItems` is
after the word of a node of the heap. -/
structure LexOrd (heap : MergeHeap) (parsedItems : List (Option ParsedItem))
    (lexicon : Lexicon) : Prop where
  lex_sorted : lexicon.nodes.Pairwise (fun a b => cstr a.word < cstr b.word)
  lex_slots : ∀ l ∈ lexicon.nodes, ∀ s, some s ∈ parsedItems → cstr l.word < cstr s.word
  lex_heap : ∀ l ∈ lexicon.nodes, ∀ node ∈ heap.heapNodes.take heap.nodeCount,
    cstr l.word < cstr node.parsedItem.word
  slots_heap : ∀ s, some s ∈ parsedItems → ∀ node ∈ heap.heapNodes.take heap.nodeCount,
    cstr s.word ≤ cstr node.parsedItem.word

/-! ## The merge of a single file -/

/-- The state of the merge of one file of records `recs` before the record
`i` is extracted: the heap holds that record alone, and the records after it
are in the buffer of the file, which has been mapped to its end. -/
structure SingleInv (recs : List ParsedItem) (i : Nat) (heap : MergeHeap)
    (files : List IntermediateFile) : Prop where
  count : heap.nodeCount = 1
  len : heap.heapNodes.length = MERGE_HEAP_SIZE
  top : heap.heapNodes.getD 0 default = { fileNumber := 0, parsedItem := recs.getD i default }
  file : ∃ file, files[0]? = some file ∧ FileInv file (recs.drop (i + 1)) ∧
    file.content.length ≤ file.offset

/-! ## Blocks per index file -/

/-- The last block of the index, if there is one, holds a chunk. -/
def LastBlockUsed {D : Type} (invertedIndex : InvertedIndex D) : Prop :=
  invertedIndex.blocks = [] ∨
    ∃ last, invertedIndex.blocks.getLast? = some last ∧ 1 ≤ last.chunkCount

/-- Number of the term of `overflowRecords` that has more than one posting: the
number of chunks of 23999 blocks. -/
def overflowTermCount : Nat := 1535936

/-- Three bytes between 1 and 250 that are the digits of `i` to the base 250:
a word, in ascending byte order for `i` below `250 ^ 3`. -/
def smallWord (i : Nat) : List Nat :=
  [i / 62500 % 250 + 1, i / 250 % 250 + 1, i % 250 + 1]

/-- Number of postings of the record `i` of `overflowRecords`. -/
def overflowPostingCount (i : Nat) : Nat :=
  if i = overflowTermCount then 16385 else 1

/-- The record `i` of `overflowRecords`: the word `smallWord i` with the docIDs
`1, 2, ...` and the frequency 1. -/
def overflowRecord (i : Nat) : ParsedItem :=
  { word := smallWord i
    postingCount := (overflowPostingCount i : Int)
    docIds := (List.range (overflowPostingCount i)).map (fun (j : Nat) => (j : Int) + 1)
    frequencies := List.replicate (overflowPostingCount i) 1 }

/-- The records of an intermediate file: 1535936 words with one posting each,
one word with 16385 postings, and one more word with one posting. -/
def overflowRecords : List ParsedItem :=
  (List.range (overflowTermCount + 2)).map overflowRecord

/-- Eight intermediate files: the first holds `overflowRecords`, the others are
empty. -/
def overflowFiles : List (List Nat) :=
  (overflowRecords :: List.replicate 7 []).map encodeParsedItems

/-! ## Blocks as they lie in an index file -/

/-- A block as the encoder leaves it for `writeInvertedIndexToDisk`: the two
metadata arrays have `MAX_CHUNK_COUNT` entries, the sizes of the chunks of the
block are above 0 and the other sizes are 0, and the sizes add up to the number
of bytes written for the chunks. -/
structure BlockOnDisk {D : Type} (ops : DoubleOps D) (block : IndexBlock D) : Prop where
  sizes_length : block.chunkSizes.length = MAX_CHUNK_COUNT
  lasts_length : block.lastDocIds.length = MAX_CHUNK_COUNT
  count_le : block.chunkCount ≤ MAX_CHUNK_COUNT
  sizes_range : ∀ v ∈ block.chunkSizes, -2 ^ 31 ≤ v ∧ v < 2 ^ 31
  sizes_pos : ∀ j, j < block.chunkCount → 0 < block.chunkSizes.getD j 0
  sizes_zero : ∀ j, block.chunkCount ≤ j → block.chunkSizes.getD j 0 = 0
  sizes_sum : block.chunkSizes.sum
    = (((block.indexChunks.take block.chunkCount).flatMap (writeChunk ops)).length : Int)

/-! ## Concrete inputs -/

/-- A heap of eight nodes, for the statements on concrete inputs. -/
def sampleHeap : QueryHeap Int :=
  { nodeCount := 8
    heapNodes := ([3, 1, 4, 1, 5, 9, 2, 6].map fun x => (⟨10 + x, x⟩ : QueryHeapNode Int))
      ++ List.replicate 12 default }

/-! ## Concrete inputs: chunks -/

/-- A stand-in for the doubles in statements on concrete inputs: the integers,
with `exp2` and the constants read as integers, the impact byte of a score
being the score itself and the BM25 score of a posting being its frequency. -/
def intOps : DoubleOps Int :=
  { ofByte := fun n => (n : Int)
    scale := 1
    one := 1
    div := fun a b => a / b
    sub := fun a b => a - b
    exp2 := fun a => 2 ^ a.toNat
    logCompressDouble := fun x => x.toNat
    calculateBM25ImpactScore := fun _ _ termFrequency _ _ => termFrequency }

/-- Four postings with the docIDs 1, 3, 6 and 130 and the frequencies 5, 0, 7, 2. -/
def samplePostings : List (Int × Int) := [(1, 5), (3, 0), (6, 7), (130, 2)]

/-- The encoder state after the sample postings have been added to an empty
index. -/
def sampleEncoded : EncoderState Int :=
  samplePostings.foldl (addPosting intOps (fun _ => 10) 100 4 10 [97])
    (startTerm createInvertedIndex)

/-- An iterator on the chunk of the sample postings. -/
def sampleList : InvertedList Int :=
  { word := [97]
    listPointer := { content := [], pos := 0 }
    currentChunkIndex := 0
    remainingChunkCount := 0
    chunkSizes := sampleEncoded.currentBlock.chunkSizes
    lastDocIds := sampleEncoded.currentBlock.lastDocIds
    currentPostingIndex := 0
    postingCount := 0
    postings := writeChunk intOps (sampleEncoded.currentBlock.indexChunks.getD 0 emptyIndexChunk)
    docIds := List.replicate MAX_POSTING_COUNT (-1)
    impactScores := List.replicate MAX_POSTING_COUNT 0 }

/-- Doubles as uninterpreted terms: every floating-point operation of the code
is a constructor, so two values are equal only if they were computed in the
same way. -/
inductive SymDouble where
  | zero : SymDouble
  | ofByte : Nat → SymDouble
  | scale : SymDouble
  | one : SymDouble
  | div : SymDouble → SymDouble → SymDouble
  | sub : SymDouble → SymDouble → SymDouble
  | exp2 : SymDouble → SymDouble
  | add : SymDouble → SymDouble → SymDouble
  | bm25 : Int → Int → Int → Int → Int → SymDouble
deriving DecidableEq, Repr

instance : Zero SymDouble := ⟨SymDouble.zero⟩

instance : Add SymDouble := ⟨SymDouble.add⟩

/-- The operations on uninterpreted doubles; the impact byte of a BM25 score
is taken to be the term frequency, and `0` for every other term. -/
def symOps : DoubleOps SymDouble :=
  { ofByte := SymDouble.ofByte
    scale := SymDouble.scale
    one := SymDouble.one
    div := SymDouble.div
    sub := SymDouble.sub
    exp2 := SymDouble.exp2
    logCompressDouble := fun x =>
      match x with
      | SymDouble.bm25 _ _ termFrequency _ _ => termFrequency.toNat
      | _ => 0
    calculateBM25ImpactScore := SymDouble.bm25 }

/-- An iterator on a chunk with the docIDs 1, 3, 6, 130 (stored as 1, 2, 3, 124)
and the impact bytes 5, 0, 7, 2; `lastDocId` of the chunk is 130. -/
def zeroImpactList : InvertedList SymDouble :=
  { word := [97]
    listPointer := { content := [], pos := 0 }
    currentChunkIndex := 0
    remainingChunkCount := 0
    chunkSizes := 8 :: List.replicate 63 0
    lastDocIds := 130 :: List.replicate 63 (-1)
    currentPostingIndex := 0
    postingCount := 0
    postings := [1, 2, 3, 124, 5, 0, 7, 2]
    docIds := List.replicate MAX_POSTING_COUNT (-1)
    impactScores := List.replicate MAX_POSTING_COUNT 0 }

/-- The log-decompression of an impact byte as the claim C8 states it: `0.0`
for the byte 0 and `2^(byte/36.06) - 1` otherwise. -/
def logDecompressByte {D : Type} [Zero D] (ops : DoubleOps D) (compressed : Nat) : D :=
  if compressed = 0 then 0
  else ops.sub (ops.exp2 (ops.div (ops.ofByte compressed) ops.scale)) ops.one

/-! ## A concrete index file with a two-chunk list -/

/-- A word with 130 postings: the docIDs 1, 3, ..., 259 with the frequencies
`i % 7`. -/
def longItem : ParsedItem :=
  { word := [97]
    postingCount := 130
    docIds := (List.range 130).map (fun i => 2 * (i : Int) + 1)
    frequencies := (List.range 130).map (fun i => ((i % 7 : Nat) : Int)) }

/-- The index file the encoder writes for `longItem` alone. -/
def longIndexFile : List Nat :=
  match addParsedItemsToInvertedIndex intOps
      (some longItem :: List.replicate 7 none) createInvertedIndex createLexicon
      (fun _ => 10) 100 10 with
  | some (invertedIndex, _) => writeInvertedIndexToDisk intOps invertedIndex
  | none => []

/-- A fresh iterator on the word of `longIndexFile`, whose lexicon entry is
`(1, 2)`. -/
def longList : InvertedList Int :=
  createInvertedList { content := longIndexFile, pos := 0 } [97] 0 1

/-- The postings of `longItem` as they lie in the two chunks of the index. -/
def longChunks : List (List (Int × Nat)) :=
  [(List.range 128).map (fun (i : Nat) => (2 * (i : Int) + 1, i % 7)),
   [(257, 2), (259, 3)]]

/-! ## A concrete index file with two words -/

/-- The record of the word "a": docIDs 1, 3, 5, 7 with the frequencies 2, 1, 4, 3. -/
def itemA : ParsedItem :=
  { word := [97], postingCount := 4, docIds := [1, 3, 5, 7], frequencies := [2, 1, 4, 3] }

/-- The record of the word "b": docIDs 3, 4, 7, 9 with the frequencies 1, 5, 6, 2. -/
def itemB : ParsedItem :=
  { word := [98], postingCount := 4, docIds := [3, 4, 7, 9], frequencies := [1, 5, 6, 2] }

/-- The index file the encoder writes for the words "a" and "b". -/
def twoTermFile : List Nat :=
  match (addParsedItemsToInvertedIndex intOps (some itemA :: List.replicate 7 none)
      createInvertedIndex createLexicon (fun _ => 10) 100 10).bind
      (fun r => addParsedItemsToInvertedIndex intOps (some itemB :: List.replicate 7 none)
        r.1 r.2 (fun _ => 10) 100 10) with
  | some (invertedIndex, _) => writeInvertedIndexToDisk intOps invertedIndex
  | none => []

/-- Fresh iterators on the words "a" (lexicon entry `(1, 1)`) and "b" (lexicon
entry `(2, 2)`) of `twoTermFile`. -/
def twoTermLists : List (InvertedList Int) :=
  [createInvertedList { content := twoTermFile, pos := 0 } [97] 0 0,
   createInvertedList { content := twoTermFile, pos := 0 } [98] 1 0]

/-- The postings of "a" and of "b", with their impact bytes. -/
def twoTermPostings : List (List (List (Int × Nat))) :=
  [[[(1, 2), (3, 1), (5, 4), (7, 3)]], [[(3, 1), (4, 5), (7, 6), (9, 2)]]]

/-! ## A concrete query with a word that is not in the lexicon -/

/-- The array `invertedLists` for the query "a", "c", "b" on `twoTermFile`: the
word "c" is not in the lexicon. -/
def threeWordLists : List (Option (InvertedList Int)) :=
  [some (createInvertedList { content := twoTermFile, pos := 0 } [97] 0 0),
   none,
   some (createInvertedList { content := twoTermFile, pos := 0 } [98] 1 0)]

/-- The postings of the words "a", "c" and "b". -/
def threeWordPostings : List (Option (List (List (Int × Nat)))) :=
  [some [[(1, 2), (3, 1), (5, 4), (7, 3)]], none, some [[(3, 1), (4, 5), (7, 6), (9, 2)]]]

/-! ## Concrete intermediate files -/

/-- The record of the word "a" with the posting `(1, 1)`. -/
def recordA : ParsedItem :=
  { word := [97], postingCount := 1, docIds := [1], frequencies := [1] }

/-- The record of the word "b" with the posting `(2, 1)`. -/
def recordB : ParsedItem :=
  { word := [98], postingCount := 1, docIds := [2], frequencies := [1] }

/-- The record of the word "c" with the posting `(3, 1)`. -/
def recordC : ParsedItem :=
  { word := [99], postingCount := 1, docIds := [3], frequencies := [1] }

/-- Eight intermediate files: the first holds the record of "a", the second
the records of "b" and "c", the others are empty. -/
def threeRecordFiles : List (List Nat) :=
  encodeParsedItems [recordA] :: encodeParsedItems [recordB, recordC] :: List.replicate 6 []

/-- Eight intermediate files: the first holds the record of "a", the others
are empty. -/
def singleRecordFiles : List (List Nat) :=
  encodeParsedItems [recordA] :: List.replicate 7 []

/-- The records of eight intermediate files: "a" and "b" in the first, "a" and
"c" in the second, none in the others. -/
def mergeRecords : List (List ParsedItem) :=
  [[{ word := [97], postingCount := 2, docIds := [1, 2], frequencies := [3, 1] },
    { word := [98], postingCount := 1, docIds := [3], frequencies := [2] }],
   [{ word := [97], postingCount := 1, docIds := [5], frequencies := [1] },
    { word := [99], postingCount := 1, docIds := [7], frequencies := [4] }],
   [], [], [], [], [], []]

/-! ## A concrete file with four words -/

/-- The records of eight intermediate files: "a", "b", "c" and "d" in the
first, with one posting each, none in the others. -/
def fourRecords : List (List ParsedItem) :=
  [[{ word := [97], postingCount := 1, docIds := [1], frequencies := [1] },
    { word := [98], postingCount := 1, docIds := [2], frequencies := [1] },
    { word := [99], postingCount := 1, docIds := [3], frequencies := [1] },
    { word := [100], postingCount := 1, docIds := [4], frequencies := [1] }],
   [], [], [], [], [], [], []]

/-! ## The list pointer of a word (getListPointerForWord) -/

/-- Number of index files the query processor looks through (`QueryProcessor.h`). -/
def INDEX_FILE_COUNT : Nat := 3

/-- What `getListPointerForWord` returns, with the value it leaves in
`*remainingChunkToStart`: the stream `filePointer`, the number of the file
`InvertedIndex<fileNumber>.bin` it was opened on, and whether `fclose` has been
called on it. -/
structure ListPointer where
  filePointer : FILE
  fileNumber : Nat
  closed : Bool
  remainingChunkToStart : Int
deriving DecidableEq, Repr

/-- The loop `for (chunkIndex = 0; chunkIndex < MAX_CHUNK_COUNT; chunkIndex++)`
of `getListPointerForWord` (lines 74-80), with its fuel as first argument: the
values of `sumSize` and `chunkEndIndex` after the loop. -/
def scanChunkSizes (chunkSizes : List Int) : Nat → Nat → Int → Int × Nat
  | 0, _, sumSize => (sumSize, MAX_CHUNK_COUNT)
  | fuel + 1, chunkIndex, sumSize =>
    if chunkSizes.getD chunkIndex 0 = 0 then (sumSize, chunkIndex)
    else scanChunkSizes chunkSizes fuel (chunkIndex + 1) (sumSize + chunkSizes.getD chunkIndex 0)

/-- The loop `while (*remainingChunkToStart / MAX_CHUNK_COUNT > 0)` of
`getListPointerForWord` (lines 69-88), with its fuel as first argument: the
stream and `*remainingChunkToStart` after the loop.  Every turn that does not
leave the loop lowers `*remainingChunkToStart` by `MAX_CHUNK_COUNT`. -/
def skipBlocksToStart (fileSize : Nat) : Nat → FILE → List Int → Int → FILE × Int
  | 0, filePointer, _, remainingChunkToStart => (filePointer, remainingChunkToStart)
  | fuel + 1, filePointer, chunkSizes, remainingChunkToStart =>
    if Int.tdiv remainingChunkToStart MAX_CHUNK_COUNT > 0 then
      let r := freadInts filePointer MAX_CHUNK_COUNT chunkSizes
      let fp1 := fseekCur r.2 (MAX_CHUNK_COUNT * 4)
      let scan := scanChunkSizes r.1 MAX_CHUNK_COUNT 0 0
      let fp2 := fseekCur fp1 scan.1
      if fp2.pos = fileSize then (fp2, remainingChunkToStart - scan.2)
      else skipBlocksToStart fileSize fuel fp2 r.1 (remainingChunkToStart - MAX_CHUNK_COUNT)
    else (filePointer, remainingChunkToStart)

/-- The loop `while (fileNumber < INDEX_FILE_COUNT)` of `getListPointerForWord`
(lines 56-99); the first argument is `INDEX_FILE_COUNT - fileNumber`, and
`filePointer` is the stream closed last, if any.  The content of the array
`chunkSizes`, which `malloc` does not initialise, is taken as zero.  The
result is `none` when `NULL` is returned. -/
def getListPointerLoop (files : List (List Nat)) :
    Nat → Nat → Option FILE → Int → Option ListPointer
  | 0, fileNumber, filePointer, remainingChunkToStart =>
    match filePointer with
    | none => none
    | some fp =>
      some { filePointer := fp, fileNumber := fileNumber - 1, closed := true
             remainingChunkToStart := remainingChunkToStart }
  | todo + 1, fileNumber, _, remainingChunkToStart =>
    match files[fileNumber]? with
    | none => none
    | some content =>
      let fileSize := content.length
      let r := skipBlocksToStart fileSize remainingChunkToStart.toNat
        { content := content, pos := 0 } (List.replicate MAX_CHUNK_COUNT 0) remainingChunkToStart
      if r.1.pos = fileSize then getListPointerLoop files todo (fileNumber + 1) (some r.1) r.2
      else
        some { filePointer := r.1, fileNumber := fileNumber, closed := false
               remainingChunkToStart := r.2 }

/-- The function `getListPointerForWord`; `files` holds the bytes of the files
`InvertedIndex0.bin`, `InvertedIndex1.bin`, ... that exist. -/
def getListPointerForWord (files : List (List Nat)) (remainingChunkToStart : Int) :
    Option ListPointer :=
  getListPointerLoop files INDEX_FILE_COUNT 0 none remainingChunkToStart

/-- The index file the encoder writes for the one word of `item`, whose first
chunk has the global chunk number `chunkNumber + 1`. -/
def singleTermFile (item : ParsedItem) (chunkNumber : Int) : List Nat :=
  match addParsedItemsToInvertedIndex intOps (some item :: List.replicate 7 none)
      { createInvertedIndex with chunkNumber := chunkNumber } createLexicon
      (fun _ => 10) 100 10 with
  | some (invertedIndex, _) => writeInvertedIndexToDisk intOps invertedIndex
  | none => []

/-- Three index files: the first holds the chunk of "a", which has the global
chunk number 1, the second the chunk of "b", which has the global chunk number
2, the third is empty. -/
def twoIndexFiles : List (List Nat) :=
  [singleTermFile itemA 0, singleTermFile itemB 1, []]

/-! ## The lexicon table of the query processor -/

/-- Size of the lexicon hash table (`LexiconTable.h`). -/
def LEXICON_SIZE : Nat := 1999993

/-- The value of a byte read through a `char`, which is signed. -/
def charValue (b : Nat) : Int :=
  if b % 256 ≥ 128 then ((b % 256 : Nat) : Int) - 256 else ((b % 256 : Nat) : Int)

/-- The loop of `hashFunction` over the bytes of the string from `word[i]` on;
the arithmetic on the `int` variable `hash` is taken to wrap at 32 bits. -/
def hashLoop : List Nat → Int → Int
  | [], hash => hash
  | c :: rest, hash =>
    if c = 0 then hash
    else hashLoop rest (toInt32 (toUInt32 (hash * 32 + hash + charValue c)))

/-- The function `hashFunction`: `%` truncates toward zero, and a negative
remainder is raised by `LEXICON_SIZE`. -/
def hashFunction (word : List Nat) : Nat :=
  let hash := hashLoop word 5381
  let result := Int.tmod hash LEXICON_SIZE
  (if result < 0 then result + LEXICON_SIZE else result).toNat

/-- The structure `LexiconEntry`; the link `next` is the order of the chain. -/
structure LexiconEntry where
  word : List Nat
  startChunk : Int
  endChunk : Int
deriving DecidableEq, Repr

/-- The structure `LexiconTable`: the chain of every slot. -/
structure LexiconTable where
  wordCount : Int
  slots : Nat → List LexiconEntry

/-- The function `createLexiconTable`. -/
def createLexiconTable : LexiconTable :=
  { wordCount := 0, slots := fun _ => [] }

/-- The function `addEntryToLexiconTable`: the entry is put at the front of the
chain of its slot, with a copy of the string `word`. -/
def addEntryToLexiconTable (lexiconTable : LexiconTable) (word : List Nat)
    (startChunk endChunk : Int) : LexiconTable :=
  let slotIndex := hashFunction word
  { wordCount := lexiconTable.wordCount + 1
    slots := fun i =>
      if i = slotIndex then
        { word := cstr word, startChunk := startChunk, endChunk := endChunk }
          :: lexiconTable.slots i
      else lexiconTable.slots i }

/-- The function `findWordInLexiconTable`: the first entry of the chain of the
slot of `word` whose word `strcmp` finds equal to `word`, `none` for `NULL`. -/
def findWordInLexiconTable (lexiconTable : LexiconTable) (word : List Nat) :
    Option LexiconEntry :=
  (lexiconTable.slots (hashFunction word)).find? (fun entry => strcmp entry.word word = 0)

/-- The steps of `conjunctiveDocumentAtATime` for a word that is in the lexicon
(lines 148-151): `getListPointerForWord`, then `createInvertedList`.  The
result is `none` when `createInvertedList` reads from `NULL` or from a stream
that has been closed, and when it indexes `chunkSizes` outside the array. -/
def openInvertedList {D : Type} [Zero D] (files : List (List Nat)) (word : List Nat)
    (lexiconEntry : LexiconEntry) : Option (InvertedList D) :=
  let remainingChunkToStart := lexiconEntry.startChunk - 1
  let remainingChunkToEnd := lexiconEntry.endChunk - lexiconEntry.startChunk
  match getListPointerForWord files remainingChunkToStart with
  | none => none
  | some lp =>
    if lp.closed then none
    else if lp.remainingChunkToStart < 0 ∨ lp.remainingChunkToStart ≥ MAX_CHUNK_COUNT then none
    else
      some (createInvertedList lp.filePointer word lp.remainingChunkToStart.toNat
        remainingChunkToEnd)

/-- The loop `// Allocate and initialize inverted lists for each query term` of
`conjunctiveDocumentAtATime` (lines 143-157) over the words from `wordIndex`
on: the entries of the array `invertedLists`, `none` for `NULL`. -/
def lookupInvertedLists {D : Type} [Zero D] (lexiconTable : LexiconTable)
    (files : List (List Nat)) : List (List Nat) → Option (List (Option (InvertedList D)))
  | [] => some []
  | word :: words =>
    let entry : Option (Option (InvertedList D)) :=
      match findWordInLexiconTable lexiconTable word with
      | some lexiconEntry => (openInvertedList files word lexiconEntry).map some
      | none => some none
    match entry with
    | none => none
    | some invertedList =>
      match lookupInvertedLists lexiconTable files words with
      | none => none
      | some invertedLists => some (invertedList :: invertedLists)

/-- The function `conjunctiveDocumentAtATime` from its first line on: the loop
that looks the words up, then the rest of the function. -/
def conjunctiveDocumentAtATimeOfWords {D : Type} [Zero D] [Add D] [LT D]
    [DecidableRel (fun a b : D => a < b)] (ops : DoubleOps D) (fuel : Nat)
    (lexiconTable : LexiconTable) (files : List (List Nat)) (words : List (List Nat)) :
    Option (QueryHeap D) :=
  match lookupInvertedLists lexiconTable files words with
  | none => none
  | some invertedLists => conjunctiveDocumentAtATime ops fuel invertedLists

/-- A lexicon table with the words "a" and "b" of `twoTermFile`. -/
def twoTermTable : LexiconTable :=
  addEntryToLexiconTable (addEntryToLexiconTable createLexiconTable [97] 1 1) [98] 2 2

/-! ## The segment table (`HashTable.h`, `HashTable.c`) -/

/-- The constant `HASHTABLE_SLOT_SIZE` of `HashTable.h`. -/
def HASHTABLE_SLOT_SIZE : Nat := 400009

/-- The structure `LinkedListNode` of `HashTable.h`; the link `next` is the
order of the chain. -/
structure LinkedListNode where
  docId : Int
  frequency : Int
deriving DecidableEq, Repr

/-- The structure `LinkedList`: `nodes` is the chain from `headNode` on, and
`tailNode` is its last node. -/
structure LinkedList where
  nodeCount : Int
  nodes : List LinkedListNode
deriving DecidableEq, Repr

/-- The structure `HashTableEntry`; the link `next` is the order of the chain
of the slot. -/
structure HashTableEntry where
  wordLength : Int
  word : List Nat
  list : LinkedList
deriving DecidableEq, Repr

/-- The structure `HashTable`: the chain of every slot. -/
structure HashTable where
  wordCount : Int
  slots : Nat → List HashTableEntry

/-- The value of `v + 1` stored to an `int`, taken to wrap at 32 bits
(`frequency += 1`, `nodeCount++`, `wordCount++`). -/
def incrementInt (v : Int) : Int :=
  toInt32 (toUInt32 (v + 1))

/-- The function `addLinkedListNode`.  The result is `none` when `nodeCount` is
not zero and `tailNode` is `NULL`. -/
def addLinkedListNode (list : LinkedList) (docId : Int) : Option LinkedList :=
  let newNode : LinkedListNode := { docId := docId, frequency := 1 }
  if list.nodeCount = 0 then
    some { nodeCount := incrementInt list.nodeCount, nodes := [newNode] }
  else if list.nodes = [] then none
  else some { nodeCount := incrementInt list.nodeCount, nodes := list.nodes ++ [newNode] }

/-- The function `updateLinkedList`.  The result is `none` when `tailNode` is
`NULL`. -/
def updateLinkedList (list : LinkedList) (docId : Int) : Option LinkedList :=
  match list.nodes.getLast? with
  | none => none
  | some currentNode =>
    if currentNode.docId = docId then
      some { list with
        nodes := list.nodes.dropLast ++
          [{ currentNode with frequency := incrementInt currentNode.frequency }] }
    else addLinkedListNode list docId

/-- The function `hashFunction` of `HashTable.c`: the loop is that of
`LexiconTable.c`, the modulus is `HASHTABLE_SLOT_SIZE`. -/
def HashTable.hashFunction (word : List Nat) : Nat :=
  let hash := hashLoop word 5381
  let result := Int.tmod hash HASHTABLE_SLOT_SIZE
  (if result < 0 then result + HASHTABLE_SLOT_SIZE else result).toNat

/-- The function `createHashTable`. -/
def createHashTable : HashTable :=
  { wordCount := 0, slots := fun _ => [] }

/-- The function `addHashTableEntry`: the entry holds a copy of the string
`word` and is put at the front of the chain of its slot. -/
def addHashTableEntry (table : HashTable) (word : List Nat) (docId : Int) : Option HashTable :=
  let slotIndex := HashTable.hashFunction word
  match addLinkedListNode { nodeCount := 0, nodes := [] } docId with
  | none => none
  | some newList =>
    let newEntry : HashTableEntry :=
      { wordLength := toInt32 (cstr word).length, word := cstr word, list := newList }
    some { wordCount := incrementInt table.wordCount
           slots := fun i => if i = slotIndex then newEntry :: table.slots i else table.slots i }

/-- The loop of `updateHashTable` over the chain of a slot.  The result is
`some none` when no entry holds `word`, and `none` when `updateLinkedList`
reads from `NULL`. -/
def updateEntries (word : List Nat) (docId : Int) :
    List HashTableEntry → Option (Option (List HashTableEntry))
  | [] => some none
  | currentEntry :: rest =>
    if strcmp currentEntry.word word = 0 then
      match updateLinkedList currentEntry.list docId with
      | none => none
      | some list => some (some ({ currentEntry with list := list } :: rest))
    else
      match updateEntries word docId rest with
      | none => none
      | some none => some none
      | some (some rest1) => some (some (currentEntry :: rest1))

/-- The function `updateHashTable`. -/
def updateHashTable (table : HashTable) (word : List Nat) (docId : Int) : Option HashTable :=
  let slotIndex := HashTable.hashFunction word
  match updateEntries word docId (table.slots slotIndex) with
  | none => none
  | some (some chain) =>
    some { table with slots := fun i => if i = slotIndex then chain else table.slots i }
  | some none => addHashTableEntry table word docId

/-- The calls `updateHashTable(table, word, docId)` for a sequence of
occurrences `(docId, word)`, in order. -/
def updateHashTableAll : HashTable → List (Int × List Nat) → Option HashTable
  | table, [] => some table
  | table, occurrence :: rest =>
    match updateHashTable table occurrence.2 occurrence.1 with
    | none => none
    | some table1 => updateHashTableAll table1 rest

/-- The entry of the table that holds `word`: the first entry of the chain of
its slot that `strcmp` finds equal to `word`. -/
def findHashTableEntry (table : HashTable) (word : List Nat) : Option HashTableEntry :=
  (table.slots (HashTable.hashFunction word)).find? (fun entry => strcmp entry.word word = 0)

/-- The posting list of a term in the table: the records `(docId, frequency)` of
the list of its entry, none when the table has no entry for the term. -/
def postingList (table : HashTable) (word : List Nat) : List (Int × Int) :=
  match findHashTableEntry table word with
  | none => []
  | some entry => entry.list.nodes.map (fun node => (node.docId, node.frequency))

/-- A short sequence of occurrences of three terms in two documents. -/
def sampleOccurrences : List (Int × List Nat) :=
  [(1, [98]), (1, [97]), (1, [98]), (2, [99]), (2, [98])]

/-! ## The segment builder (`DataParser.c`) -/

/-- The function `isalnum` of the C library in the C locale, on the value of a
byte: a digit or a letter of the ASCII alphabet. -/
def isalnum (c : Nat) : Bool :=
  (48 ≤ c && c ≤ 57) || (65 ≤ c && c ≤ 90) || (97 ≤ c && c ≤ 122)

/-- The function `isspace` of the C library in the C locale. -/
def isspace (c : Nat) : Bool :=
  c = 32 || (9 ≤ c && c ≤ 13)

/-- The function `isdigit` of the C library. -/
def isdigit (c : Nat) : Bool :=
  48 ≤ c && c ≤ 57

/-- The value of the decimal digits at the start of a string, after the value
`acc` of the digits before them. -/
def digitsValue : List Nat → Nat → Nat
  | [], acc => acc
  | c :: rest, acc => if isdigit c then digitsValue rest (acc * 10 + (c - 48)) else acc

/-- The function `strtoll(s, NULL, 10)` of the C library: white space, an
optional sign, decimal digits; a value outside `long long` is clamped. -/
def strtoll (s : List Nat) : Int :=
  match s.dropWhile isspace with
  | 45 :: digits => max (-(digitsValue digits 0 : Int)) (-2 ^ 63)
  | 43 :: digits => min (digitsValue digits 0 : Int) (2 ^ 63 - 1)
  | digits => min (digitsValue digits 0 : Int) (2 ^ 63 - 1)

/-- The function `strtol(s, NULL, 10)` of the C library; `long` has 64 bits. -/
def strtol (s : List Nat) : Int := strtoll s

/-- The byte `mapRawContentFromDisk` stores for a byte of the mapped file
(the loop of lines 28-34). -/
def normalizeByte (c : Nat) : Nat :=
  if c = 9 ∨ c = 10 ∨ isalnum c = true then c else 32

/-- The function `mapRawContentFromDisk`: the string `remainingContent`
(`none` for `NULL`) followed by the string of the normalized bytes of the
mapped part of the file. -/
def mapRawContentFromDisk (mapContent : List Nat) (remainingContent : Option (List Nat)) :
    List Nat :=
  let tempBuffer := mapContent.map normalizeByte
  match remainingContent with
  | some remaining => cstr remaining ++ cstr tempBuffer
  | none => cstr tempBuffer

/-- The loop `while (*wordStart != '\0')` of `parseData` (lines 169-186) on the
bytes from `wordStart` to the end of the line: the table and `wordCount` after
the loop, `none` when `updateHashTable` fails.  The first argument is the
fuel. -/
def parseWords : Nat → HashTable → Int → List Nat → Int → Option (HashTable × Int)
  | 0, table, wordCount, _, _ => some (table, wordCount)
  | fuel + 1, table, wordCount, wordStart, docId =>
    if wordStart = [] then some (table, wordCount)
    else
      let word := wordStart.takeWhile (fun c => c ≠ 32)
      match wordStart.dropWhile (fun c => c ≠ 32) with
      | [] =>
        match updateHashTable table word docId with
        | none => none
        | some table1 => some (table1, incrementInt wordCount)
      | _ :: next =>
        if word = [] then parseWords fuel table wordCount next docId
        else
          match updateHashTable table word docId with
          | none => none
          | some table1 => parseWords fuel table1 (incrementInt wordCount) next docId

/-- The body of the line loop of `parseData` for a complete line (lines
160-188): `line` holds the bytes from `lineStart` to `lineEnd`, `docLengths`
is the memory of the array.  The result is `none` when `updateHashTable` fails
and when `docLengths[docId]` is outside the array. -/
def parseLine (table : HashTable) (docLengths : Int → Int) (line : List Nat) :
    Option (HashTable × (Int → Int)) :=
  match line.dropWhile (fun c => c ≠ 9) with
  | [] => some (table, docLengths)
  | _ :: wordsStart =>
    let docId := toInt32 (toUInt32 (strtol (line.takeWhile (fun c => c ≠ 9))))
    match parseWords (wordsStart.length + 1) table 0 wordsStart docId with
    | none => none
    | some (table1, wordCount) =>
      if 0 ≤ docId ∧ docId < DOC_COUNT then
        some (table1, fun i => if i = docId then wordCount else docLengths i)
      else none

/-! ## Specification of the segment builder -/

/-- The entries of a table, slot by slot. -/
def tableEntries (table : HashTable) : List HashTableEntry :=
  (List.range HASHTABLE_SLOT_SIZE).flatMap table.slots

/-- The sum of the frequencies that the list of an entry records for `docId`. -/
def entryFrequency (docId : Int) (entry : HashTableEntry) : Int :=
  ((entry.list.nodes.filter (fun node => node.docId = docId)).map
    (fun node => node.frequency)).sum

/-- The sum, over all terms of the table, of the frequencies recorded for
`docId`. -/
def docFrequency (table : HashTable) (docId : Int) : Int :=
  ((List.range HASHTABLE_SLOT_SIZE).map
    (fun slotIndex => ((table.slots slotIndex).map (entryFrequency docId)).sum)).sum

/-- The document number of a line: the value `parseData` reads before the first
tab. -/
def lineDocId (line : List Nat) : Int :=
  toInt32 (toUInt32 (strtol (line.takeWhile (fun c => c ≠ 9))))

/-- The body of a line: the bytes after the first tab. -/
def lineBody (line : List Nat) : List Nat :=
  (line.dropWhile (fun c => c ≠ 9)).drop 1

/-- The strings between the spaces of a body that are not empty, in order. -/
def bodyWords (body : List Nat) : List (List Nat) :=
  (body.splitOn 32).filter (fun word => word ≠ [])

/-! ## Specification of the segment table -/

/-- The rule of the segment builder for one occurrence of a term in the
document `docId`, on the records `(docId, frequency)` of the term: when the
last record is for `docId` its frequency is raised by one, otherwise a record
with frequency 1 is appended. -/
def countOccurrence (postings : List (Int × Int)) (docId : Int) : List (Int × Int) :=
  match postings.getLast? with
  | none => [(docId, 1)]
  | some last =>
    if last.1 = docId then postings.dropLast ++ [(last.1, last.2 + 1)]
    else postings ++ [(docId, 1)]

/-- The records `(docId, frequency)` of a list. -/
def LinkedList.postings (list : LinkedList) : List (Int × Int) :=
  list.nodes.map (fun node => (node.docId, node.frequency))

/-- A list of an entry after at most `n` calls of `updateHashTable`: it has a
node, `nodeCount` is the number of nodes, and the frequencies lie between 1 and
`n`. -/
structure ListOK (n : Nat) (list : LinkedList) : Prop where
  nodes_ne : list.nodes ≠ []
  count_eq : list.nodeCount = (list.nodes.length : Int)
  count_le : list.nodes.length ≤ n
  freq_range : ∀ node ∈ list.nodes, 1 ≤ node.frequency ∧ node.frequency ≤ (n : Int)

/-- A table after at most `n` calls of `updateHashTable`: every entry is in the
slot of its word, holds the word as a string with its length, the words of a
chain are distinct, `wordCount` is the number of entries, and every list is as
`ListOK` says. -/
structure TableOK (n : Nat) (table : HashTable) : Prop where
  slot_hash : ∀ i, ∀ entry ∈ table.slots i, HashTable.hashFunction entry.word = i
  word_cstr : ∀ i, ∀ entry ∈ table.slots i,
    cstr entry.word = entry.word ∧ entry.wordLength = toInt32 entry.word.length
  words_nodup : ∀ i, (table.slots i).Pairwise (fun a b => a.word ≠ b.word)
  count_eq : table.wordCount = ((tableEntries table).length : Int)
  count_le : (tableEntries table).length ≤ n
  lists_ok : ∀ i, ∀ entry ∈ table.slots i, ListOK n entry.list

/-! ## Occurrences of terms in documents -/

/-- The distinct elements of a list in the order of their first occurrence. -/
def distinctInOrder {α : Type} [DecidableEq α] : List α → List α
  | [] => []
  | a :: l => a :: (distinctInOrder l).filter (fun b => b ≠ a)

/-- The documents of the occurrences of a term, in the order of the
occurrences. -/
def occurrenceDocIds (occurrences : List (Int × List Nat)) (term : List Nat) : List Int :=
  (occurrences.filter (fun o => cstr o.2 = cstr term)).map (fun o => o.1)

/-- The occurrences of one element are contiguous: no other element lies
between two of them. -/
def Contiguous {α : Type} (l : List α) : Prop :=
  ∀ a b, List.Sublist [a, b, a] l → b = a

/-! ## The intermediate file of a segment (`DataParser.c`) -/

/-- The function `compare` of `HashTable.c` on two elements of the array of
words. -/
def HashTable.compare (a b : List Nat) : Int := strcmp a b

/-- The call `qsort(words, wordIndex, sizeof(char *), compare)` of the C
library: the array in the order of `compare`. -/
def qsortWords (words : List (List Nat)) : List (List Nat) :=
  words.insertionSort (fun a b => HashTable.compare a b ≤ 0)

/-- The function `getSortedWordsFromHashTable`: the array `words` has
`wordCount` elements, and the result is `none` when the table has more
entries. -/
def getSortedWordsFromHashTable (table : HashTable) : Option (List (List Nat)) :=
  let words := (List.range HASHTABLE_SLOT_SIZE).flatMap
    (fun slotIndex => (table.slots slotIndex).map (fun currentEntry => currentEntry.word))
  if (words.length : Int) ≤ table.wordCount then some (qsortWords words) else none

/-- The bytes `writeHashTableToDisk` writes for an entry (lines 69-95): the
length of the word, the word, the number of postings, the docIDs, the
frequencies. -/
def writeEntry (currentEntry : HashTableEntry) : List Nat :=
  int32ToBytes currentEntry.wordLength ++ cstr currentEntry.word
    ++ int32ToBytes currentEntry.list.nodeCount
    ++ intsToBytes (currentEntry.list.nodes.map (fun currentNode => currentNode.docId))
    ++ intsToBytes (currentEntry.list.nodes.map (fun currentNode => currentNode.frequency))

/-- The body of the loop of `writeHashTableToDisk` for one word of the sorted
array: the first entry of the chain of its slot that holds the word is
written. -/
def writeWord (table : HashTable) (word : List Nat) : List Nat :=
  match findHashTableEntry table word with
  | none => []
  | some currentEntry => writeEntry currentEntry

/-- The function `writeHashTableToDisk`: the bytes of the file.  The result is
`none` when the loop reads past the words that `getSortedWordsFromHashTable`
stored. -/
def writeHashTableToDisk (table : HashTable) : Option (List Nat) :=
  match getSortedWordsFromHashTable table with
  | none => none
  | some words =>
    if table.wordCount ≤ (words.length : Int) then
      some ((words.take table.wordCount.toNat).flatMap (writeWord table))
    else none

/-- The record of an intermediate file that an entry of the table stands
for. -/
def entryItem (entry : HashTableEntry) : ParsedItem :=
  { word := entry.word, postingCount := entry.list.nodeCount
    docIds := entry.list.nodes.map (fun node => node.docId)
    frequencies := entry.list.nodes.map (fun node => node.frequency) }

/-! ## The words of a query (`QueryProcessor.c`) -/

/-- The tokens that the calls `strtok(s, delimiters)`, `strtok(NULL,
delimiters)`, ... of the C library return until `NULL`: the maximal runs of
bytes of the string that are not delimiters.  The first argument holds the bytes
of the token that is being read. -/
def strtokLoop (delimiters : List Nat) : List Nat → List Nat → List (List Nat)
  | token, [] => if token = [] then [] else [token]
  | token, c :: rest =>
    if c ∈ delimiters then
      (if token = [] then strtokLoop delimiters [] rest
       else token :: strtokLoop delimiters [] rest)
    else strtokLoop delimiters (token ++ [c]) rest

/-- The second pass of `splitIntoWords` over the tokens: a token is stored
after `tempWords` unless `strcmp` finds it equal to a word of `tempWords`. -/
def dedupTokens : List (List Nat) → List (List Nat) → List (List Nat)
  | tempWords, [] => tempWords
  | tempWords, token :: rest =>
    if tempWords.any (fun word => strcmp word token = 0) then dedupTokens tempWords rest
    else dedupTokens (tempWords ++ [token]) rest

/-- The function `splitIntoWords`: the array of words it returns and the value
it stores to `*wordCount`. -/
def splitIntoWords (input : List Nat) : List (List Nat) × Int :=
  let input1 := (cstr input).map (fun c => if isalnum c = true then c else 32)
  let tempWords := dedupTokens [] (strtokLoop [32, 9, 10] [] input1)
  (tempWords, toInt32 tempWords.length)

/-- The maximal runs of alphanumeric bytes of a string, in order: the string is
split at every byte that is not alphanumeric, and the empty pieces are left
out. -/
def alnumRuns (s : List Nat) : List (List Nat) :=
  (s.splitOnP (fun c => !isalnum c)).filter (fun run => run ≠ [])

/-! ## Entries of the lexicon table -/

/-- The calls `addEntryToLexiconTable(lexiconTable, word, startChunk,
endChunk)` for a sequence of entries `(word, startChunk, endChunk)`, in order,
on the table of `createLexiconTable`. -/
def addEntriesToLexiconTable (entries : List (List Nat × Int × Int)) : LexiconTable :=
  entries.foldl (fun lexiconTable entry =>
    addEntryToLexiconTable lexiconTable entry.1 entry.2.1 entry.2.2) createLexiconTable

/-- Two words of the same slot of the lexicon table, and a third word. -/
def collidingEntries : List (List Nat × Int × Int) :=
  [([97, 114], 1, 2), ([99, 48], 3, 5), ([98], 6, 6)]

/-! ## The lexicon file (`IndexBuilder.c`, `LexiconTable.c`) -/

/-- The decimal digits of `n` before the digits `acc`, as `fprintf` writes them
for `%d`.  The first argument is the fuel. -/
def formatNatLoop : Nat → Nat → List Nat → List Nat
  | 0, _, acc => acc
  | fuel + 1, n, acc =>
    if n < 10 then (48 + n) :: acc
    else formatNatLoop fuel (n / 10) ((48 + n % 10) :: acc)

/-- The decimal digits of a natural number. -/
def formatNat (n : Nat) : List Nat :=
  formatNatLoop (n + 1) n []

/-- The bytes `fprintf` of the C library writes for `%d`: a minus sign for a
negative value, then the decimal digits. -/
def formatInt (v : Int) : List Nat :=
  if v < 0 then 45 :: formatNat (-v).toNat else formatNat v.toNat

/-- The function `writeLexiconToDisk`: the bytes of the file `Lexicon.txt`, one
line `"%s %d %d\n"` for every node. -/
def writeLexiconToDisk (lexicon : Lexicon) : List Nat :=
  lexicon.nodes.flatMap (fun currentNode =>
    cstr currentNode.word ++ [32] ++ formatInt currentNode.startChunk ++ [32]
      ++ formatInt currentNode.endChunk ++ [10])

/-- The body of the loop of `convertLexiconFileToLexiconTable` for one line:
`line` holds the bytes from `lineStart` to `lineEnd`. -/
def convertLexiconLine (lexiconTable : LexiconTable) (line : List Nat) : LexiconTable :=
  let word := line.takeWhile (fun c => c ≠ 32)
  match line.dropWhile (fun c => c ≠ 32) with
  | [] => lexiconTable
  | _ :: startChunkStr =>
    match startChunkStr.dropWhile (fun c => c ≠ 32) with
    | [] => lexiconTable
    | _ :: endChunkStr =>
      let startChunk := toInt32 (toUInt32 (strtoll (startChunkStr.takeWhile (fun c => c ≠ 32))))
      let endChunk := toInt32 (toUInt32 (strtoll endChunkStr))
      addEntryToLexiconTable lexiconTable word startChunk endChunk

/-- The loop `while ((lineEnd = strchr(lineStart, '\n')) != NULL)` of
`convertLexiconFileToLexiconTable` on the bytes of the string from `lineStart`
on.  The first argument is the fuel. -/
def convertLexiconLoop : Nat → LexiconTable → List Nat → LexiconTable
  | 0, lexiconTable, _ => lexiconTable
  | fuel + 1, lexiconTable, lineStart =>
    match lineStart.dropWhile (fun c => c ≠ 10) with
    | [] => lexiconTable
    | _ :: next =>
      convertLexiconLoop fuel
        (convertLexiconLine lexiconTable (lineStart.takeWhile (fun c => c ≠ 10))) next

/-- The function `convertLexiconFileToLexiconTable` on the string `buffer`;
every turn of the loop takes at least one byte of the string. -/
def convertLexiconFileToLexiconTable (lexiconTable : LexiconTable) (buffer : List Nat) :
    LexiconTable :=
  convertLexiconLoop ((cstr buffer).length + 1) lexiconTable (cstr buffer)

/-- A lexicon of three words, two of them in one slot of the lexicon table. -/
def collidingLexicon : Lexicon :=
  { nodeCount := 3
    nodes := [{ word := [97, 114], startChunk := 1, endChunk := 2 },
              { word := [99, 48], startChunk := 3, endChunk := 15 },
              { word := [122], startChunk := 16, endChunk := 16 }] }

/-! ## The arithmetic of doubles (`Compression.c`, `Utils.c`) -/

/-- The functions `log` and `log2` of `math.h`, on a type `D` that stands for
`double`.  In the two functions below the arithmetic of `double` is taken as
exact: `D` is a linear ordered field, `+`, `-`, `*`, `/` and `<=` are its
operations, and rounding is not modelled. -/
structure MathOps (D : Type) where
  /-- The function `log` of `math.h`, the natural logarithm. -/
  log : D → D
  /-- The function `log2` of `math.h`. -/
  log2 : D → D

/-- The conversion `(uint8_t)x` of a `double`: the fractional part is
discarded, and the behaviour is undefined, here `none`, when the integral part
is not a value of `uint8_t`. -/
def castToUInt8 {D : Type} [LinearOrderedField D] [FloorRing D] (x : D) : Option Nat :=
  let integral : Int := if 0 ≤ x then ⌊x⌋ else ⌈x⌉
  if 0 ≤ integral ∧ integral ≤ 255 then some integral.toNat else none

/-- The function `logCompressDouble` of `Compression.c`. -/
def logCompressDouble {D : Type} [LinearOrderedField D] [FloorRing D] (m : MathOps D) (impactScore : D) : Option Nat :=
  if impactScore ≤ 0 then some 0
  else
    let logImpactScore := m.log2 (impactScore + 1)
    castToUInt8 (logImpactScore * 36.06)

/-- The function `calculateBM25ImpactScore` of `Utils.c`.  The difference
`totalDocCount - termDocCount` is taken in `int`; the conversions of `int` to
`double` are exact. -/
def calculateBM25ImpactScore {D : Type} [LinearOrderedField D] (m : MathOps D)
    (totalDocCount termDocCount termFrequency docLength avgDocLength : Int) : D :=
  let k1 : D := 1.2
  let b : D := 0.75
  let idf := m.log
    ((((toInt32 (toUInt32 (totalDocCount - termDocCount)) : Int) : D) + 0.5)
      / ((termDocCount : D) + 0.5))
  let tf := ((k1 + 1) * (termFrequency : D))
    / (k1 * ((1 - b) + b * ((docLength : D) / (avgDocLength : D))) + (termFrequency : D))
  idf * tf

/-- The byte of an impact `s` as the claim C31 states it: `0` for `s <= 0`,
and `floor(log2(s + 1) * 36.06)` clamped to the range from 0 to 255
otherwise. -/
def logCompressClamped {D : Type} [LinearOrderedField D] [FloorRing D] (m : MathOps D) (s : D) : Nat :=
  if s ≤ 0 then 0 else (max 0 (min 255 ⌊m.log2 (s + 1) * 36.06⌋)).toNat

/-- The BM25 score as the claim C32 states it. -/
def bm25Formula {D : Type} [LinearOrderedField D] (m : MathOps D) (N n f L Lavg : Int) : D :=
  let k1 : D := 1.2
  let b : D := 0.75
  m.log (((N : D) - (n : D) + 0.5) / ((n : D) + 0.5)) * ((k1 + 1) * (f : D))
    / (k1 * ((1 - b) + b * (L : D) / (Lavg : D)) + (f : D))

/-- The integer part of the binary logarithm of `n`, with its fuel as first
argument. -/
def floorLog2Loop : Nat → Nat → Nat
  | 0, _ => 0
  | fuel + 1, n => if 2 ≤ n then floorLog2Loop fuel (n / 2) + 1 else 0

/-- Stand-ins for `log` and `log2` on the rationals, for the statements on
concrete inputs: `log x` is `x - 1`, which has the sign of the natural
logarithm of every positive `x` and its value at 1; `log2 x` is the integer
part of the binary logarithm of the integer part of `x`, which is the binary
logarithm at the powers of two. -/
def ratOps : MathOps ℚ :=
  { log := fun x => x - 1
    log2 := fun x => (floorLog2Loop ⌊x⌋.toNat ⌊x⌋.toNat : Nat) }

/-! ## A concrete posting and document lengths -/

/-- The record of the word "a" with one posting: docID 1, frequency 2. -/
def lengthItem : ParsedItem :=
  { word := [97], postingCount := 1, docIds := [1], frequencies := [2] }

/-- Document lengths as the segment builder records them for documents of
5, 15, 25, ... words: `docLengths[docId] = 10 * docId + 5`. -/
def sampleDocLengths (docId : Int) : Int := 10 * docId + 5

/-- The scores of the postings of an index, chunk by chunk. -/
def indexScores {D : Type} (invertedIndex : InvertedIndex D) : List (List Int × List D) :=
  (allChunks invertedIndex.blocks).map
    (fun chunk => (chunk.absDocIds, chunk.impactScores.take chunk.postingCount))

/-! ## A concrete chunk that runs past its last docID -/

/-- An iterator on a chunk whose `lastDocId` is 5 and whose bytes hold the
stored values 3, 4 and `0xFFFFFFFE`, then three impact bytes: the running docID
is 3, then 7, which is above 5, then, after the addition wraps, 5. -/
def corruptList : InvertedList Int :=
  { word := [97]
    listPointer := { content := [], pos := 0 }
    currentChunkIndex := 0
    remainingChunkCount := 0
    chunkSizes := 10 :: List.replicate 63 0
    lastDocIds := 5 :: List.replicate 63 (-1)
    currentPostingIndex := 0
    postingCount := 0
    postings := varByteCompressInt 3 ++ varByteCompressInt 4 ++ varByteCompressInt 4294967294
      ++ [9, 8, 7]
    docIds := List.replicate MAX_POSTING_COUNT (-1)
    impactScores := List.replicate MAX_POSTING_COUNT 0 }

/-! ## Heaps the program reaches -/

/-- The merge heaps that `createHeap`, `insertHeapNode` on a heap of fewer than
`MERGE_HEAP_SIZE` nodes, and `extractMin` on a non-empty heap produce. -/
inductive MergeHeap.Reached : MergeHeap → Prop
  | create : MergeHeap.Reached MergeHeap.createHeap
  | insert (heap : MergeHeap) (heapNode : MergeHeapNode) :
      MergeHeap.Reached heap → heap.nodeCount < MERGE_HEAP_SIZE →
      MergeHeap.Reached (MergeHeap.insertHeapNode heap heapNode)
  | extract (heap : MergeHeap) :
      MergeHeap.Reached heap → 0 < heap.nodeCount →
      MergeHeap.Reached (MergeHeap.extractMin heap).2

/-- The top-K heaps that `createHeap`, `insertHeapNode` on a heap of fewer than
`QUERY_HEAP_SIZE` nodes, and `extractMin` on a non-empty heap produce. -/
inductive QueryHeap.Reached {D : Type} [Zero D] [LT D] [DecidableRel (fun a b : D => a < b)] :
    QueryHeap D → Prop
  | create : QueryHeap.Reached QueryHeap.createHeap
  | insert (heap : QueryHeap D) (heapNode : QueryHeapNode D) :
      QueryHeap.Reached heap → heap.nodeCount < QUERY_HEAP_SIZE →
      QueryHeap.Reached (QueryHeap.insertHeapNode heap heapNode)
  | extract (heap : QueryHeap D) :
      QueryHeap.Reached heap → 0 < heap.nodeCount →
      QueryHeap.Reached (QueryHeap.extractMin heap).2

/-- Two nodes of the merge heap with the word "b" of file 1 and the word "a" of
file 2. -/
def sampleMergeNodes : List MergeHeapNode :=
  [{ fileNumber := 1, parsedItem := { word := [98], postingCount := 0, docIds := [], frequencies := [] } },
   { fileNumber := 2, parsedItem := { word := [97], postingCount := 0, docIds := [], frequencies := [] } }]

/-- The merge heap after the two sample nodes have been inserted. -/
def sampleMergeHeap : MergeHeap :=
  sampleMergeNodes.foldl MergeHeap.insertHeapNode MergeHeap.createHeap

/-- The top-K heap after the scores 5, 2 and 7 have been inserted. -/
def sampleQueryHeap : QueryHeap Int :=
  ([⟨1, 5⟩, ⟨2, 2⟩, ⟨3, 7⟩] : List (QueryHeapNode Int)).foldl QueryHeap.insertHeapNode
    QueryHeap.createHeap

/-! ## One turn of the conjunctive evaluator -/

/-- One turn of the main loop `while (1)` of `conjunctiveDocumentAtATime`
(lines 172-222): whether the turn leaves the loop by `break`, and the state
after the turn.  The result is `none` when a call of `getNextGEQDocId` does not
return, when there is no list at index 0, and when `candidateDocId + 1`
overflows `int`. -/
def conjunctiveTurn {D : Type} [Zero D] [Add D] [LT D] [DecidableRel (fun a b : D => a < b)]
    (ops : DoubleOps D) (st : ConjunctiveState D) : Option (Bool × ConjunctiveState D) :=
  match st.invertedLists with
  | [] => none
  | first :: others =>
    match getNextGEQDocId ops first st.currentDocId with
    | none => none
    | some (candidateDocId, first1) =>
      if candidateDocId = -1 then
        some (true, { st with invertedLists := first1 :: others })
      else
        match conjunctiveCheck ops others candidateDocId
            { anyListExhausted := false, allMatched := true,
              currentDocId := st.currentDocId } with
        | none => none
        | some (others1, flags) =>
          if flags.anyListExhausted then
            some (true, { st with invertedLists := first1 :: others1,
                                  currentDocId := flags.currentDocId })
          else if flags.allMatched then
            if candidateDocId = INT_MAX then none
            else
              some (false,
                { invertedLists := first1 :: others1
                  topK := updateTopK st.topK candidateDocId
                    (sumCurrentImpacts (first1 :: others1))
                  currentDocId := candidateDocId + 1 })
          else
            some (false, { st with invertedLists := first1 :: others1,
                                   currentDocId := flags.currentDocId })

/-! ## Chunks of an index file -/

/-- The postings of a chunk of the in-memory index as `writeInvertedIndexToDisk`
writes them: the absolute docID and the impact byte of every posting. -/
def IndexChunk.pairs {D : Type} (ops : DoubleOps D) (chunk : IndexChunk D) : List (Int × Nat) :=
  chunk.absDocIds.zip
    ((chunk.impactScores.take chunk.postingCount).map (fun x => ops.logCompressDouble x % 256))

/-- The position, in the file of an index, of its block `blockIndex`. -/
def InvertedIndex.blockOffset {D : Type} (ops : DoubleOps D) (invertedIndex : InvertedIndex D)
    (blockIndex : Nat) : Nat :=
  ((invertedIndex.blocks.take blockIndex).flatMap (writeBlock ops)).length

/-- The postings of the chunks `start`, ..., `start + count - 1` of an index,
counted from 0 in the order of the file. -/
def InvertedIndex.chunkRun {D : Type} (ops : DoubleOps D) (invertedIndex : InvertedIndex D)
    (start count : Nat) : List (List (Int × Nat)) :=
  (((allChunks invertedIndex.blocks).drop start).take count).map (IndexChunk.pairs ops)

/-- An index as `buildIndex` passes it to `writeInvertedIndexToDisk`: blocks of
the shape the encoder builds, with their metadata, every block but the last
full, and in every chunk a non-empty run of increasing docIDs. -/
structure IndexOnDisk {D : Type} [Zero D] (invertedIndex : InvertedIndex D) : Prop where
  wf : IndexWF invertedIndex
  extra : IndexExtra invertedIndex
  runs : ∀ l ∈ invertedIndex.absLists, l ≠ [] ∧ IncreasingFrom (-1) l

/-! ## Lexicon entries and index files -/

/-- The chunks of the lexicon entry `node` are in one index file written, or
in the index in memory: `written` holds a file `ix`, after the files `pre`,
such that the chunk numbers of the entry are above those of `pre` and not
above those of `pre` and `ix`; or they are above those of `written` and not
above the number of chunks so far. -/
def TermPlaced {D : Type} (written : List (InvertedIndex D)) (chunkNumber : Int)
    (node : LexiconNode) : Prop :=
  node.startChunk ≤ node.endChunk ∧
  ((∃ pre ix post, written = pre ++ ix :: post ∧
      ((writtenChunks pre).length : Int) < node.startChunk ∧
      node.endChunk ≤ ((writtenChunks (pre ++ [ix])).length : Int)) ∨
   (((writtenChunks written).length : Int) < node.startChunk ∧ node.endChunk ≤ chunkNumber))

/-! ## Concrete intermediate files with several terms -/

/-- The records of eight intermediate files that all begin with the word "a":
in the first "a" with the 130 postings of `longItem`, then "b" and "y"; in the
second "a", "c" and "z"; in each of the others "a" and "m".  The merge assigns
every entry of `parsedItems` before the first call of
`addParsedItemsToInvertedIndex`. -/
def sharedWordRecords : List (List ParsedItem) :=
  [[longItem,
    { word := [98], postingCount := 1, docIds := [300], frequencies := [2] },
    { word := [121], postingCount := 1, docIds := [301], frequencies := [1] }],
   [{ word := [97], postingCount := 1, docIds := [400], frequencies := [1] },
    { word := [99], postingCount := 1, docIds := [500], frequencies := [4] },
    { word := [122], postingCount := 1, docIds := [501], frequencies := [1] }],
   [{ word := [97], postingCount := 1, docIds := [600], frequencies := [1] },
    { word := [109], postingCount := 1, docIds := [601], frequencies := [1] }],
   [{ word := [97], postingCount := 1, docIds := [700], frequencies := [2] },
    { word := [109], postingCount := 1, docIds := [701], frequencies := [1] }],
   [{ word := [97], postingCount := 1, docIds := [800], frequencies := [1] },
    { word := [109], postingCount := 1, docIds := [801], frequencies := [1] }],
   [{ word := [97], postingCount := 1, docIds := [900], frequencies := [3] },
    { word := [109], postingCount := 1, docIds := [901], frequencies := [1] }],
   [{ word := [97], postingCount := 1, docIds := [1000], frequencies := [1] },
    { word := [109], postingCount := 1, docIds := [1001], frequencies := [1] }],
   [{ word := [97], postingCount := 1, docIds := [1100], frequencies := [1] },
    { word := [109], postingCount := 1, docIds := [1101], frequencies := [1] }]]

/-- Every index of the array `parsedItems`: no entry holds `NULL` at the
declaration, so that `buildIndex` has a result only if it reads no entry before
it has assigned it. -/
def allEntries : List Nat := List.range MERGE_HEAP_SIZE

/-- The records of eight intermediate files: "a" in the first; "b", "c" and "d"
in the second; none in the others.  Every word has one posting. -/
def mixedChunkRecords : List (List ParsedItem) :=
  [[{ word := [97], postingCount := 1, docIds := [1], frequencies := [1] }],
   [{ word := [98], postingCount := 1, docIds := [2], frequencies := [1] },
    { word := [99], postingCount := 1, docIds := [3], frequencies := [1] },
    { word := [100], postingCount := 1, docIds := [4], frequencies := [1] }],
   [], [], [], [], [], []]

/-- The bytes of the index files `buildIndex` writes for `sharedWordRecords`;
there is one file. -/
def sharedWordIndexFile : List Nat :=
  match buildIndex intOps (fun _ => 10) 20 allEntries
      (sharedWordRecords.map encodeParsedItems) with
  | some result => result.indexes.flatMap (writeInvertedIndexToDisk intOps)
  | none => []

/-! ## Theorems -/

/-! ### Variable-byte round trip -/

theorem low7_or_high (r : Nat) (h : r < 128) :
    (r ||| 128) % 256 = r + 128 ∧ (r + 128) &&& 0x7F = r ∧ (r + 128) &&& 0x80 = 128 := by
  revert r
  decide

theorem low7_small (r : Nat) (h : r < 128) :
    r % 256 = r ∧ r &&& 0x7F = r ∧ r &&& 0x80 = 0 := by
  revert r
  decide

theorem or_shift_eq_add (acc r shift : Nat) (h : acc < 2 ^ shift) :
    acc ||| (r <<< shift) = acc + r * 2 ^ shift := by
  rw [Nat.shiftLeft_eq, Nat.or_comm, Nat.mul_comm r, ← Nat.mul_add_lt_is_or h, Nat.add_comm]

theorem varByteDecompressLoop_compress (fuel : Nat) :
    ∀ (x acc shift : Nat) (rest : List Nat), x ≤ fuel → acc < 2 ^ shift →
      acc + x * 2 ^ shift < 2 ^ 32 →
      varByteDecompressLoop (varByteCompressLoop fuel x ++ rest) acc shift
        = some (acc + x * 2 ^ shift, rest) := by
  induction fuel with
  | zero =>
    intro x acc shift rest hx hacc hlt
    have hx0 : x = 0 := by omega
    subst hx0
    have hlt2 : acc < 4294967296 := by simpa using hlt
    simp [varByteCompressLoop, varByteDecompressLoop, Nat.mod_eq_of_lt hlt2]
  | succ fuel ih =>
    intro x acc shift rest hx hacc hlt
    by_cases hbig : x ≥ 128
    · have hmod : x &&& 127 = x % 128 := Nat.and_pow_two_sub_one_eq_mod x 7
      have hr : x % 128 < 128 := Nat.mod_lt _ (by norm_num)
      obtain ⟨h1, h2, h3⟩ := low7_or_high (x % 128) hr
      have hdiv : x >>> 7 = x / 128 := by rw [Nat.shiftRight_eq_div_pow]
      have hsplit : x = 128 * (x / 128) + x % 128 := (Nat.div_add_mod x 128).symm
      have hpow : 2 ^ (shift + 7) = 2 ^ shift * 128 := by rw [pow_add]; norm_num
      have hacc1 : acc + x % 128 * 2 ^ shift < 2 ^ (shift + 7) := by
        rw [hpow]; nlinarith
      have htot : acc + x % 128 * 2 ^ shift + x / 128 * 2 ^ (shift + 7)
          = acc + x * 2 ^ shift := by
        rw [hpow]; nlinarith
      have hle : acc + x % 128 * 2 ^ shift < 2 ^ 32 := by
        have : acc + x % 128 * 2 ^ shift ≤ acc + x * 2 ^ shift := by
          rw [← htot]; exact Nat.le_add_right _ _
        omega
      have hfuel : x / 128 ≤ fuel := by omega
      have hrec := ih (x / 128) (acc + x % 128 * 2 ^ shift) (shift + 7) rest hfuel hacc1
        (by rw [htot]; exact hlt)
      rw [htot] at hrec
      simp only [varByteCompressLoop, if_pos hbig, hmod, h1, hdiv, List.cons_append,
        varByteDecompressLoop, h2, h3, or_shift_eq_add _ _ _ hacc, Nat.mod_eq_of_lt hle]
      simpa using hrec
    · have hsm : x < 128 := by omega
      obtain ⟨h1, h2, h3⟩ := low7_small x hsm
      simp only [varByteCompressLoop, if_neg hbig, h1, List.singleton_append,
        varByteDecompressLoop, h2, h3, or_shift_eq_add _ _ _ hacc, Nat.mod_eq_of_lt hlt]
      simp

/-- C6: for every `x` with `0 <= x < 2^32`, `varByteDecompressInt` applied to
the bytes written by `varByteCompressInt(x)` (whatever bytes follow them in the
buffer) returns `x`, and the read cursor it leaves is the buffer advanced by
exactly the number of bytes that were written. -/
theorem varByte_roundtrip (x : Nat) (hx : x < 2 ^ 32) (rest : List Nat) :
    varByteDecompressInt (varByteCompressInt x ++ rest)
      = some (x, (varByteCompressInt x ++ rest).drop (varByteCompressInt x).length) := by
  have h := varByteDecompressLoop_compress x x 0 0 rest le_rfl (by norm_num) (by simpa using hx)
  simpa [varByteDecompressInt, varByteCompressInt] using h

theorem varByte_roundtrip_witness :
    varByteDecompressInt (varByteCompressInt 300 ++ [7])
      = some (300, (varByteCompressInt 300 ++ [7]).drop (varByteCompressInt 300).length) :=
  varByte_roundtrip 300 (by decide) [7]



/-! ### Array heaps -/

namespace ArrayHeap

variable {α : Type} [Inhabited α] {κ : Type} [LinearOrder κ]

theorem swapHeapNodes_length (l : List α) (i j : Nat) :
    (swapHeapNodes l i j).length = l.length := by
  simp [swapHeapNodes]

theorem swapHeapNodes_getD (l : List α) (i j k : Nat) (hi : i < l.length) (hj : j < l.length) :
    (swapHeapNodes l i j).getD k default =
      if k = j then l.getD i default else if k = i then l.getD j default else l.getD k default := by
  simp only [swapHeapNodes, List.getD_eq_getElem?_getD, List.getElem?_set, List.length_set]
  by_cases hkj : k = j
  · subst hkj; simp [hj]
  · by_cases hki : k = i
    · subst hki; simp [hkj, Ne.symm hkj, hi]
    · simp [hkj, hki, Ne.symm hkj, Ne.symm hki]

theorem swapHeapNodes_eq (l : List α) (i j : Nat) (hi : i < l.length) (hj : j < l.length) :
    swapHeapNodes l i j = (l.set i l[j]).set j l[i] := by
  have h1 : l.getD i default = l[i] := by simp [List.getD_eq_getElem?_getD, hi]
  have h2 : l.getD j default = l[j] := by simp [List.getD_eq_getElem?_getD, hj]
  simp only [swapHeapNodes, h1, h2]

theorem swapHeapNodes_perm (l : List α) (i j : Nat) (hi : i < l.length) (hj : j < l.length) :
    (swapHeapNodes l i j).Perm l := by
  classical
  rw [swapHeapNodes_eq l i j hi hj, List.perm_iff_count]
  intro a
  by_cases hij : i = j
  · subst hij
    have : l.set i l[i] = l := by
      apply List.ext_getElem (by simp)
      intro n h1 h2
      rw [List.getElem_set]
      split
      · next h => subst h; rfl
      · rfl
    simp [this]
  · have hj2 : j < (l.set i l[j]).length := by simpa using hj
    rw [List.count_set _ _ _ _ hj2, List.count_set _ _ _ _ hi]
    have h3 : (l.set i l[j])[j] = l[j] := by
      rw [List.getElem_set]; simp [hij]
    rw [h3]
    have c1 : 0 < List.count l[i] l := List.count_pos_iff.mpr (List.getElem_mem _)
    have c2 : 0 < List.count l[j] l := List.count_pos_iff.mpr (List.getElem_mem _)
    by_cases e1 : l[i] = a <;> by_cases e2 : l[j] = a
    · simp only [e1, e2, beq_self_eq_true, if_true]; rw [e1] at c1; omega
    · simp only [e1, e2, beq_self_eq_true, if_true, beq_iff_eq, if_false]; rw [e1] at c1; omega
    · simp only [e1, e2, beq_self_eq_true, if_true, beq_iff_eq, if_false]; rw [e2] at c2; omega
    · simp [e1, e2]

theorem swapHeapNodes_drop (l : List α) (i j n : Nat) (hi : i < n) (hj : j < n) :
    (swapHeapNodes l i j).drop n = l.drop n := by
  simp only [swapHeapNodes]
  rw [List.drop_set_of_lt _ _ hj, List.drop_set_of_lt _ _ hi]


theorem heapifyLoop_spec (key : α → κ) (less : α → α → Bool)
    (hless : ∀ a b, less a b = true ↔ key a < key b) (k : Nat) :
    ∀ (fuel : Nat) (h : ArrayHeap α) (i : Nat),
      h.nodeCount ≤ h.heapNodes.length → h.nodeCount - i ≤ fuel → k ≤ i →
      (∀ j, k ≤ j → j ≠ i → Dominates key h.heapNodes h.nodeCount j) →
      (∀ p, k ≤ p → (i = 2 * p + 1 ∨ i = 2 * p + 2) →
        ∀ c, (c = 2 * i + 1 ∨ c = 2 * i + 2) → c < h.nodeCount →
          key (h.heapNodes.getD p default) ≤ key (h.heapNodes.getD c default)) →
      (heapifyLoop less fuel h i).nodeCount = h.nodeCount ∧
      (heapifyLoop less fuel h i).heapNodes.length = h.heapNodes.length ∧
      (heapifyLoop less fuel h i).heapNodes.Perm h.heapNodes ∧
      (heapifyLoop less fuel h i).heapNodes.drop h.nodeCount = h.heapNodes.drop h.nodeCount ∧
      (∀ m, m < i → (heapifyLoop less fuel h i).heapNodes.getD m default
          = h.heapNodes.getD m default) ∧
      (∀ j, k ≤ j → Dominates key (heapifyLoop less fuel h i).heapNodes h.nodeCount j) := by
  intro fuel
  induction fuel with
  | zero =>
    intro h i hlen hfuel hki H1 H2
    refine ⟨rfl, rfl, List.Perm.refl _, rfl, fun _ _ => rfl, ?_⟩
    intro j hj
    by_cases hji : j = i
    · subst hji
      intro c hc hcn
      omega
    · exact H1 j hj hji
  | succ fuel ih =>
    intro h i hlen hfuel hki H1 H2
    by_cases hin : i < h.nodeCount
    swap
    · have : heapifyLoop less (fuel + 1) h i = h := by simp [heapifyLoop, hin]
      rw [this]
      refine ⟨rfl, rfl, List.Perm.refl _, rfl, fun _ _ => rfl, ?_⟩
      intro j hj
      by_cases hji : j = i
      · subst hji
        intro c hc hcn
        omega
      · exact H1 j hj hji
    · -- the choice of `smallest`
      obtain ⟨s, hs, hdef⟩ :
          ∃ s, (s = i ∨ ((s = 2 * i + 1 ∨ s = 2 * i + 2) ∧ s < h.nodeCount ∧
                  key (h.heapNodes.getD s default) < key (h.heapNodes.getD i default))) ∧
            (∀ c, (c = 2 * i + 1 ∨ c = 2 * i + 2) → c < h.nodeCount →
                key (h.heapNodes.getD s default) ≤ key (h.heapNodes.getD c default)) ∧
            heapifyLoop less (fuel + 1) h i =
              if s ≠ i then
                heapifyLoop less fuel { h with heapNodes := swapHeapNodes h.heapNodes i s } s
              else h := by
        by_cases hl : 2 * i + 1 < h.nodeCount ∧
            less (h.heapNodes.getD (2 * i + 1) default) (h.heapNodes.getD i default) = true
        · by_cases hr : 2 * i + 2 < h.nodeCount ∧
              less (h.heapNodes.getD (2 * i + 2) default) (h.heapNodes.getD (2 * i + 1) default) = true
          · refine ⟨2 * i + 2, Or.inr ⟨Or.inr rfl, hr.1, ?_⟩, ?_, ?_⟩
            · exact lt_trans ((hless _ _).1 hr.2) ((hless _ _).1 hl.2)
            · rintro c (rfl | rfl) hc
              · exact le_of_lt ((hless _ _).1 hr.2)
              · exact le_rfl
            · simp only [heapifyLoop, if_pos hin, hl, hr, and_self, and_true, and_false, if_true, if_false, true_and, false_and, not_false_eq_true, not_true_eq_false]
          · refine ⟨2 * i + 1, Or.inr ⟨Or.inl rfl, hl.1, (hless _ _).1 hl.2⟩, ?_, ?_⟩
            · rintro c (rfl | rfl) hc
              · exact le_rfl
              · have : ¬ less (h.heapNodes.getD (2 * i + 2) default)
                    (h.heapNodes.getD (2 * i + 1) default) = true := fun hh => hr ⟨hc, hh⟩
                rw [hless] at this
                exact not_lt.1 this
            · simp only [heapifyLoop, if_pos hin, hl, hr, and_self, and_true, and_false, if_true, if_false, true_and, false_and, not_false_eq_true, not_true_eq_false]
        · by_cases hr : 2 * i + 2 < h.nodeCount ∧
              less (h.heapNodes.getD (2 * i + 2) default) (h.heapNodes.getD i default) = true
          · refine ⟨2 * i + 2, Or.inr ⟨Or.inr rfl, hr.1, (hless _ _).1 hr.2⟩, ?_, ?_⟩
            · rintro c (rfl | rfl) hc
              · have : ¬ less (h.heapNodes.getD (2 * i + 1) default)
                    (h.heapNodes.getD i default) = true := fun hh => hl ⟨hc, hh⟩
                rw [hless] at this
                exact le_trans (le_of_lt ((hless _ _).1 hr.2)) (not_lt.1 this)
              · exact le_rfl
            · simp only [heapifyLoop, if_pos hin, hl, hr, and_self, and_true, and_false, if_true, if_false, true_and, false_and, not_false_eq_true, not_true_eq_false]
          · refine ⟨i, Or.inl rfl, ?_, ?_⟩
            · rintro c (rfl | rfl) hc
              · have : ¬ less (h.heapNodes.getD (2 * i + 1) default)
                    (h.heapNodes.getD i default) = true := fun hh => hl ⟨hc, hh⟩
                rw [hless] at this
                exact not_lt.1 this
              · have : ¬ less (h.heapNodes.getD (2 * i + 2) default)
                    (h.heapNodes.getD i default) = true := fun hh => hr ⟨hc, hh⟩
                rw [hless] at this
                exact not_lt.1 this
            · simp only [heapifyLoop, if_pos hin, hl, hr, and_self, and_true, and_false, if_true, if_false, true_and, false_and, not_false_eq_true, not_true_eq_false]
      rcases hs with hsi | ⟨hchild, hsn, hslt⟩
      · subst hsi
        rw [hdef.2, if_neg (by simp)]
        refine ⟨rfl, rfl, List.Perm.refl _, rfl, fun _ _ => rfl, ?_⟩
        intro j hj
        by_cases hji : j = s
        · subst hji
          exact hdef.1
        · exact H1 j hj hji
      · have hsi : s ≠ i := by omega
        have hil : i < h.heapNodes.length := by omega
        have hsl : s < h.heapNodes.length := by omega
        rw [hdef.2, if_pos hsi]
        have hget := swapHeapNodes_getD h.heapNodes i s
        have IH := ih { h with heapNodes := swapHeapNodes h.heapNodes i s } s
          (by simpa [swapHeapNodes_length] using hlen) (by simp; omega) (by omega)
          (by
            intro j hj hjs c hc hcn
            simp only at hcn ⊢
            rw [hget j hil hsl, hget c hil hsl]
            by_cases hji : j = i
            · subst hji
              simp only [hjs, if_false, if_true]
              by_cases hcs : c = s
              · simp only [hcs, if_true]; exact le_of_lt hslt
              · have hcj : c ≠ j := by omega
                simp only [hcs, hcj, if_false]
                exact hdef.1 c hc hcn
            · simp only [hjs, hji, if_false]
              have hcs : c ≠ s := by omega
              simp only [hcs, if_false]
              by_cases hci : c = i
              · simp only [hci, if_true]
                exact H2 j hj (by omega) s hchild hsn
              · simp only [hci, if_false]
                exact H1 j hj hji c hc hcn)
          (by
            intro p hp hps c hc hcn
            simp only at hcn ⊢
            have hpi : p = i := by omega
            subst hpi
            rw [hget p hil hsl, hget c hil hsl]
            have h1 : p ≠ s := by omega
            have h2 : c ≠ s := by omega
            have h3 : c ≠ p := by omega
            simp only [h1, h2, h3, if_false, if_true]
            exact H1 s (by omega) hsi c hc hcn)
        obtain ⟨e1, e2, e3, e4, e5, e6⟩ := IH
        simp only at e1 e2 e3 e4 e5 e6
        refine ⟨e1, ?_, ?_, ?_, ?_, e6⟩
        · rw [e2, swapHeapNodes_length]
        · exact e3.trans (swapHeapNodes_perm _ _ _ hil hsl)
        · rw [e4, swapHeapNodes_drop _ _ _ _ hin hsn]
        · intro m hm
          rw [e5 m (by omega), hget m hil hsl]
          have h1 : m ≠ s := by omega
          have h2 : m ≠ i := by omega
          simp [h1, h2]


theorem getD_mem_take (a : List α) (n c : Nat) (hc : c < n) (hn : n ≤ a.length) :
    a.getD c default ∈ a.take n := by
  have hc2 : c < a.length := by omega
  have h1 : a.getD c default = a[c] := by simp [List.getD_eq_getElem?_getD, hc2]
  rw [h1, List.mem_take_iff_getElem]
  exact ⟨c, by simp; omega, rfl⟩

theorem exists_of_mem_take (a : List α) (n : Nat) (x : α) (hx : x ∈ a.take n) :
    ∃ c, c < n ∧ c < a.length ∧ x = a.getD c default := by
  rw [List.mem_take_iff_getElem] at hx
  obtain ⟨c, hc, rfl⟩ := hx
  have hc1 : c < n := by simp at hc; omega
  have hc2 : c < a.length := by simp at hc; omega
  exact ⟨c, hc1, hc2, by simp [List.getD_eq_getElem?_getD, hc2]⟩

omit [Inhabited α] in
theorem perm_take_of_perm_of_drop (a b : List α) (n : Nat) (hp : a.Perm b)
    (hd : a.drop n = b.drop n) : (a.take n).Perm (b.take n) := by
  have h1 : (a.take n ++ a.drop n).Perm (b.take n ++ a.drop n) := by
    rw [List.take_append_drop, hd, List.take_append_drop]; exact hp
  exact (List.perm_append_right_iff _).1 h1

theorem getD_eq_of_drop_eq (a b : List α) (n m : Nat) (hd : a.drop n = b.drop n) (hm : n ≤ m) :
    a.getD m default = b.getD m default := by
  have h1 : ∀ l : List α, l.getD m default = (l.drop n).getD (m - n) default := by
    intro l
    simp only [List.getD_eq_getElem?_getD, List.getElem?_drop]
    congr 2
    omega
  rw [h1 a, h1 b, hd]

theorem IsHeap.root_le (key : α → κ) (a : List α) (n : Nat) (h : IsHeap key a n) :
    ∀ j, j < n → key (a.getD 0 default) ≤ key (a.getD j default) := by
  intro j
  induction j using Nat.strong_induction_on with
  | _ j ih =>
    intro hj
    rcases Nat.eq_zero_or_pos j with h0 | hpos
    · subst h0; exact le_rfl
    · have hp : (j - 1) / 2 < j := by omega
      have hc : j = 2 * ((j - 1) / 2) + 1 ∨ j = 2 * ((j - 1) / 2) + 2 := by omega
      exact le_trans (ih _ hp (by omega)) (h _ j hc hj)

theorem heapify_spec (key : α → κ) (less : α → α → Bool)
    (hless : ∀ a b, less a b = true ↔ key a < key b) (h : ArrayHeap α) (i : Nat)
    (hlen : h.nodeCount ≤ h.heapNodes.length)
    (H1 : ∀ j, i < j → Dominates key h.heapNodes h.nodeCount j) :
    (heapify less h i).nodeCount = h.nodeCount ∧
    (heapify less h i).heapNodes.length = h.heapNodes.length ∧
    (heapify less h i).heapNodes.Perm h.heapNodes ∧
    (heapify less h i).heapNodes.drop h.nodeCount = h.heapNodes.drop h.nodeCount ∧
    (∀ j, i ≤ j → Dominates key (heapify less h i).heapNodes h.nodeCount j) := by
  have := heapifyLoop_spec key less hless i h.nodeCount h i hlen (by omega) le_rfl
    (fun j hj hji => H1 j (by omega)) (fun p hp hpi => by omega)
  exact ⟨this.1, this.2.1, this.2.2.1, this.2.2.2.1, this.2.2.2.2.2⟩

theorem buildHeapLoop_spec (key : α → κ) (less : α → α → Bool)
    (hless : ∀ a b, less a b = true ↔ key a < key b) :
    ∀ (k : Nat) (h : ArrayHeap α), h.nodeCount ≤ h.heapNodes.length →
      (∀ j, k ≤ j → Dominates key h.heapNodes h.nodeCount j) →
      (buildHeapLoop less k h).nodeCount = h.nodeCount ∧
      (buildHeapLoop less k h).heapNodes.length = h.heapNodes.length ∧
      (buildHeapLoop less k h).heapNodes.Perm h.heapNodes ∧
      (buildHeapLoop less k h).heapNodes.drop h.nodeCount = h.heapNodes.drop h.nodeCount ∧
      IsHeap key (buildHeapLoop less k h).heapNodes h.nodeCount := by
  intro k
  induction k with
  | zero =>
    intro h hlen H
    exact ⟨rfl, rfl, List.Perm.refl _, rfl, fun j => H j (Nat.zero_le _)⟩
  | succ k ih =>
    intro h hlen H
    obtain ⟨e1, e2, e3, e4, e5⟩ := heapify_spec key less hless h k hlen (fun j hj => H j (by omega))
    obtain ⟨f1, f2, f3, f4, f5⟩ := ih (heapify less h k) (by rw [e1, e2]; exact hlen)
      (by rw [e1]; exact e5)
    simp only [buildHeapLoop]
    rw [e1] at f1 f4 f5
    exact ⟨f1, f2.trans e2, f3.trans e3, f4.trans e4, f5⟩

theorem buildHeap_spec (key : α → κ) (less : α → α → Bool)
    (hless : ∀ a b, less a b = true ↔ key a < key b) (h : ArrayHeap α)
    (hlen : h.nodeCount ≤ h.heapNodes.length) :
    (buildHeap less h).nodeCount = h.nodeCount ∧
    (buildHeap less h).heapNodes.length = h.heapNodes.length ∧
    (buildHeap less h).heapNodes.Perm h.heapNodes ∧
    (buildHeap less h).heapNodes.drop h.nodeCount = h.heapNodes.drop h.nodeCount ∧
    IsHeap key (buildHeap less h).heapNodes h.nodeCount :=
  buildHeapLoop_spec key less hless (h.nodeCount / 2) h hlen
    (fun j hj c hc hcn => by omega)

theorem heapSortLoop_spec (key : α → κ) (less : α → α → Bool)
    (hless : ∀ a b, less a b = true ↔ key a < key b) (N : Nat) :
    ∀ (k : Nat) (h : ArrayHeap α), h.nodeCount = k + 1 → k + 1 ≤ N → N ≤ h.heapNodes.length →
      IsHeap key h.heapNodes h.nodeCount →
      (∀ i j, k + 1 ≤ i → i < j → j < N →
        key (h.heapNodes.getD j default) ≤ key (h.heapNodes.getD i default)) →
      (∀ x ∈ h.heapNodes.take (k + 1), ∀ j, k + 1 ≤ j → j < N →
        key (h.heapNodes.getD j default) ≤ key x) →
      (heapSortLoop less k h).heapNodes.length = h.heapNodes.length ∧
      (heapSortLoop less k h).heapNodes.Perm h.heapNodes ∧
      (heapSortLoop less k h).heapNodes.drop N = h.heapNodes.drop N ∧
      (∀ i j, i < j → j < N →
        key ((heapSortLoop less k h).heapNodes.getD j default)
          ≤ key ((heapSortLoop less k h).heapNodes.getD i default)) := by
  intro k
  induction k with
  | zero =>
    intro h hn hN hlen hheap hS hB
    refine ⟨rfl, List.Perm.refl _, rfl, ?_⟩
    intro i j hij hj
    simp only [heapSortLoop]
    rcases Nat.eq_zero_or_pos i with h0 | hpos
    · subst h0
      exact hB _ (getD_mem_take _ _ _ (by omega) (by omega)) j (by omega) hj
    · exact hS i j (by omega) hij hj
  | succ k ih =>
    intro h hn hN hlen hheap hS hB
    simp only [heapSortLoop]
    have h0l : 0 < h.heapNodes.length := by omega
    have hkl : k + 1 < h.heapNodes.length := by omega
    have hget := fun m => swapHeapNodes_getD h.heapNodes 0 (k + 1) m h0l hkl
    set heap1 : ArrayHeap α :=
      { nodeCount := h.nodeCount - 1, heapNodes := swapHeapNodes h.heapNodes 0 (k + 1) } with hheap1
    have hc1 : heap1.nodeCount = k + 1 := by simp [hheap1, hn]
    have hl1 : heap1.heapNodes.length = h.heapNodes.length := by
      simp [hheap1, swapHeapNodes_length]
    obtain ⟨e1, e2, e3, e4, e5⟩ := heapify_spec key less hless heap1 0
      (by rw [hc1, hl1]; omega)
      (by
        intro j hj c hc hcn
        rw [hc1] at hcn
        simp only [hheap1]
        rw [hget j, hget c]
        have h1 : j ≠ k + 1 := by omega
        have h2 : j ≠ 0 := by omega
        have h3 : c ≠ k + 1 := by omega
        have h4 : c ≠ 0 := by omega
        simp only [h1, h2, h3, h4, if_false]
        exact hheap j c hc (by omega))
    rw [hc1] at e1 e4 e5
    set heap2 := heapify less heap1 0 with hheap2
    have hgetk : heap2.heapNodes.getD (k + 1) default = h.heapNodes.getD 0 default := by
      rw [getD_eq_of_drop_eq _ _ (k + 1) (k + 1) e4 le_rfl]
      simp only [hheap1]
      rw [hget]; simp
    have hgetj : ∀ j, k + 2 ≤ j →
        heap2.heapNodes.getD j default = h.heapNodes.getD j default := by
      intro j hj
      rw [getD_eq_of_drop_eq _ _ (k + 1) j e4 (by omega)]
      simp only [hheap1]
      rw [hget]
      have h1 : j ≠ k + 1 := by omega
      have h2 : j ≠ 0 := by omega
      simp [h1, h2]
    have hmem : ∀ x ∈ heap2.heapNodes.take (k + 1), x ∈ h.heapNodes.take (k + 2) := by
      intro x hx
      have hp := perm_take_of_perm_of_drop _ _ (k + 1) e3 e4
      have hx1 := hp.mem_iff.1 hx
      obtain ⟨c, hc1', hc2, rfl⟩ := exists_of_mem_take _ _ _ hx1
      simp only [hheap1]
      rw [hget]
      split
      · omega
      · split
        · exact getD_mem_take _ _ _ (by omega) (by omega)
        · exact getD_mem_take _ _ _ (by omega) (by omega)
    have hroot := IsHeap.root_le key h.heapNodes h.nodeCount hheap
    obtain ⟨f1, f2, f3, f4⟩ := ih heap2 e1 (by omega) (by rw [e2, hl1]; exact hlen)
      (by rw [e1]; exact fun j => e5 j (Nat.zero_le _))
      (by
        intro i j hi hij hj
        rw [hgetj j (by omega)]
        rcases Nat.eq_or_lt_of_le hi with heq | hlt
        · rw [← heq, hgetk]
          exact hB _ (getD_mem_take _ _ _ (by omega) (by omega)) j (by omega) hj
        · rw [hgetj i (by omega)]
          exact hS i j (by omega) hij hj)
      (by
        intro x hx j hj hjN
        have hx2 := hmem x hx
        rcases Nat.eq_or_lt_of_le hj with heq | hlt
        · rw [← heq, hgetk]
          obtain ⟨c, hc1', hc2, rfl⟩ := exists_of_mem_take _ _ _ hx2
          exact hroot c (by omega)
        · rw [hgetj j (by omega)]
          exact hB x hx2 j (by omega) hjN)
    refine ⟨by rw [f1, e2, hl1], f2.trans (e3.trans ?_), ?_, f4⟩
    · exact swapHeapNodes_perm _ _ _ h0l hkl
    · rw [f3]
      have : heap2.heapNodes.drop N = heap1.heapNodes.drop N := by
        have := congrArg (List.drop (N - (k + 1))) e4
        simpa [List.drop_drop, show k + 1 + (N - (k + 1)) = N by omega] using this
      rw [this]
      exact swapHeapNodes_drop _ _ _ _ (by omega) (by omega)

theorem heapSort_spec (key : α → κ) (less : α → α → Bool)
    (hless : ∀ a b, less a b = true ↔ key a < key b) (h : ArrayHeap α)
    (hlen : h.nodeCount ≤ h.heapNodes.length) :
    (heapSort less h).nodeCount = h.nodeCount ∧
    (heapSort less h).heapNodes.length = h.heapNodes.length ∧
    ((heapSort less h).heapNodes.take h.nodeCount).Perm (h.heapNodes.take h.nodeCount) ∧
    (heapSort less h).heapNodes.drop h.nodeCount = h.heapNodes.drop h.nodeCount ∧
    (((heapSort less h).heapNodes.take h.nodeCount).map key).Pairwise (fun a b => b ≤ a) := by
  obtain ⟨b1, b2, b3, b4, b5⟩ := buildHeap_spec key less hless h hlen
  rcases Nat.eq_zero_or_pos h.nodeCount with h0 | hpos
  · have hb : (buildHeap less h).heapNodes = h.heapNodes := by
      have := b4; rw [h0] at this; simpa using this
    simp [heapSort, b1, h0, heapSortLoop, b2, hb]
  · obtain ⟨s1, s2, s3, s4⟩ := heapSortLoop_spec key less hless h.nodeCount (h.nodeCount - 1)
      (buildHeap less h) (by rw [b1]; omega) (by omega) (by rw [b2]; exact hlen)
      (by rw [b1]; exact b5) (fun i j hi hij hj => by omega)
      (fun x _ j hj hjN => by omega)
    have hnc : (heapSort less h).nodeCount = h.nodeCount := by simp [heapSort, b1]
    have hnodes : (heapSort less h).heapNodes
        = (heapSortLoop less (h.nodeCount - 1) (buildHeap less h)).heapNodes := by
      simp [heapSort, b1]
    rw [hnodes]
    refine ⟨hnc, s1.trans b2, ?_, s3.trans b4, ?_⟩
    · exact perm_take_of_perm_of_drop _ _ _ (s2.trans b3) (s3.trans b4)
    · rw [List.pairwise_map, List.pairwise_iff_getElem]
      intro i j hi hj hij
      have hj' : j < h.nodeCount := by simp at hj; omega
      have hjl : j < (heapSortLoop less (h.nodeCount - 1) (buildHeap less h)).heapNodes.length := by
        simp at hj; omega
      have := s4 i j hij hj'
      simpa [List.getD_eq_getElem?_getD, List.getElem_take, hjl,
        show i < (heapSortLoop less (h.nodeCount - 1) (buildHeap less h)).heapNodes.length by omega]
        using this


theorem bubbleUp_spec (key : α → κ) (less : α → α → Bool)
    (hless : ∀ a b, less a b = true ↔ key a < key b) (n : Nat) :
    ∀ (fuel : Nat) (a : List α) (i : Nat), i ≤ fuel → i < n → n ≤ a.length →
      (∀ j c, (c = 2 * j + 1 ∨ c = 2 * j + 2) → c < n → c ≠ i →
        key (a.getD j default) ≤ key (a.getD c default)) →
      (∀ p c, (i = 2 * p + 1 ∨ i = 2 * p + 2) → (c = 2 * i + 1 ∨ c = 2 * i + 2) → c < n →
        key (a.getD p default) ≤ key (a.getD c default)) →
      (bubbleUp less fuel a i).length = a.length ∧
      (bubbleUp less fuel a i).Perm a ∧
      (bubbleUp less fuel a i).drop n = a.drop n ∧
      IsHeap key (bubbleUp less fuel a i) n := by
  intro fuel
  induction fuel with
  | zero =>
    intro a i hi hin hlen U1 U2
    have h0 : i = 0 := by omega
    subst h0
    refine ⟨rfl, List.Perm.refl _, rfl, ?_⟩
    intro j c hc hcn
    exact U1 j c hc hcn (by omega)
  | succ fuel ih =>
    intro a i hi hin hlen U1 U2
    by_cases hpos : i > 0
    swap
    · have h0 : i = 0 := by omega
      subst h0
      have hb : bubbleUp less (fuel + 1) a 0 = a := by simp [bubbleUp]
      rw [hb]
      refine ⟨rfl, List.Perm.refl _, rfl, ?_⟩
      intro j c hc hcn
      exact U1 j c hc hcn (by omega)
    · by_cases hlt : less (a.getD i default) (a.getD ((i - 1) / 2) default) = true
      · have hpl : (i - 1) / 2 < i := by omega
        have hil : i < a.length := by omega
        have hpl2 : (i - 1) / 2 < a.length := by omega
        have hchild : i = 2 * ((i - 1) / 2) + 1 ∨ i = 2 * ((i - 1) / 2) + 2 := by omega
        have hget := fun m => swapHeapNodes_getD a i ((i - 1) / 2) m hil hpl2
        have hkey := (hless _ _).1 hlt
        obtain ⟨e1, e2, e3, e4⟩ := ih (swapHeapNodes a i ((i - 1) / 2)) ((i - 1) / 2)
          (by omega) (by omega) (by rw [swapHeapNodes_length]; exact hlen)
          (by
            intro j c hc hcn hcp
            rw [hget j, hget c]
            simp only [hcp, if_false]
            by_cases hci : c = i
            · have hjp : j = (i - 1) / 2 := by omega
              simp only [hci, hjp, if_true]
              exact le_of_lt hkey
            · simp only [hci, if_false]
              by_cases hjp : j = (i - 1) / 2
              · simp only [hjp, if_true]
                exact le_trans (le_of_lt hkey) (U1 _ c (by omega) hcn hci)
              · simp only [hjp, if_false]
                by_cases hji : j = i
                · simp only [hji, if_true]
                  exact U2 _ c hchild (by omega) hcn
                · simp only [hji, if_false]
                  exact U1 j c hc hcn hci)
          (by
            intro g c hg hc hcn
            rw [hget g, hget c]
            have h1 : g ≠ (i - 1) / 2 := by omega
            have h2 : g ≠ i := by omega
            have h3 : c ≠ (i - 1) / 2 := by omega
            simp only [h1, h2, h3, if_false]
            by_cases hci : c = i
            · simp only [hci, if_true]
              exact U1 g _ hg (by omega) (by omega)
            · simp only [hci, if_false]
              exact le_trans (U1 g _ hg (by omega) (by omega)) (U1 _ c hc hcn hci))
        simp only [bubbleUp, hpos, if_true, hlt]
        refine ⟨by rw [e1, swapHeapNodes_length], e2.trans (swapHeapNodes_perm _ _ _ hil hpl2), ?_, e4⟩
        rw [e3, swapHeapNodes_drop _ _ _ _ hin (by omega)]
      · simp only [bubbleUp, hpos, if_true, hlt]
        refine ⟨rfl, List.Perm.refl _, rfl, ?_⟩
        intro j c hc hcn
        by_cases hci : c = i
        · have hjp : j = (i - 1) / 2 := by omega
          rw [hci, hjp]
          rw [hless] at hlt
          exact not_lt.1 hlt
        · exact U1 j c hc hcn hci

omit [Inhabited α] in
theorem take_succ_set (a : List α) (n : Nat) (x : α) (hn : n < a.length) :
    (a.set n x).take (n + 1) = a.take n ++ [x] := by
  rw [List.take_succ]
  have h1 : (a.set n x).take n = a.take n := by
    apply List.ext_getElem? ; intro i
    rw [List.getElem?_take, List.getElem?_take]
    split
    · rw [List.getElem?_set_ne (by omega)]
    · rfl
  simp [List.getElem?_set, hn, h1]

theorem insertHeapNode_spec (key : α → κ) (less : α → α → Bool)
    (hless : ∀ a b, less a b = true ↔ key a < key b) (h : ArrayHeap α) (x : α)
    (hlen : h.nodeCount < h.heapNodes.length) (hheap : IsHeap key h.heapNodes h.nodeCount) :
    (insertHeapNode less h x).nodeCount = h.nodeCount + 1 ∧
    (insertHeapNode less h x).heapNodes.length = h.heapNodes.length ∧
    ((insertHeapNode less h x).heapNodes.take (h.nodeCount + 1)).Perm
      (x :: h.heapNodes.take h.nodeCount) ∧
    IsHeap key (insertHeapNode less h x).heapNodes (h.nodeCount + 1) := by
  have hget : ∀ m, m ≠ h.nodeCount →
      (h.heapNodes.set h.nodeCount x).getD m default = h.heapNodes.getD m default := by
    intro m hm
    simp [List.getD_eq_getElem?_getD, List.getElem?_set, Ne.symm hm]
  obtain ⟨e1, e2, e3, e4⟩ := bubbleUp_spec key less hless (h.nodeCount + 1) (h.nodeCount + 1)
    (h.heapNodes.set h.nodeCount x) h.nodeCount (by omega) (by omega) (by simp; omega)
    (by
      intro j c hc hcn hcne
      rw [hget j (by omega), hget c hcne]
      exact hheap j c hc (by omega))
    (by intro p c hp hc hcn; omega)
  refine ⟨rfl, by simp [insertHeapNode, e1], ?_, e4⟩
  have hp := perm_take_of_perm_of_drop _ _ (h.nodeCount + 1) e2 e3
  simp only [insertHeapNode]
  refine hp.trans ?_
  rw [take_succ_set _ _ _ hlen]
  exact List.perm_append_singleton _ _

theorem extractMin_spec (key : α → κ) (less : α → α → Bool)
    (hless : ∀ a b, less a b = true ↔ key a < key b) (h : ArrayHeap α)
    (hpos : 0 < h.nodeCount) (hlen : h.nodeCount ≤ h.heapNodes.length)
    (hheap : IsHeap key h.heapNodes h.nodeCount) :
    (extractMin less h).1 = h.heapNodes.getD 0 default ∧
    (extractMin less h).2.nodeCount = h.nodeCount - 1 ∧
    (extractMin less h).2.heapNodes.length = h.heapNodes.length ∧
    (h.heapNodes.take h.nodeCount).Perm
      (h.heapNodes.getD 0 default :: (extractMin less h).2.heapNodes.take (h.nodeCount - 1)) ∧
    IsHeap key (extractMin less h).2.heapNodes (h.nodeCount - 1) := by
  set heap1 : ArrayHeap α :=
    { nodeCount := h.nodeCount - 1
      heapNodes := h.heapNodes.set 0 (h.heapNodes.getD (h.nodeCount - 1) default) } with hheap1
  have hget : ∀ m, m ≠ 0 → heap1.heapNodes.getD m default = h.heapNodes.getD m default := by
    intro m hm
    simp [hheap1, List.getD_eq_getElem?_getD, List.getElem?_set, Ne.symm hm]
  obtain ⟨e1, e2, e3, e4, e5⟩ := heapify_spec key less hless heap1 0
    (by simp [hheap1]; omega)
    (by
      intro j hj c hc hcn
      rw [hget j (by omega), hget c (by omega)]
      exact hheap j c hc (by simp [hheap1] at hcn; omega))
  have hres : (extractMin less h).2 = heapify less heap1 0 := rfl
  rw [hres]
  refine ⟨rfl, e1, by rw [e2]; simp [hheap1], ?_, fun j => e5 j (Nat.zero_le _)⟩
  have hp := perm_take_of_perm_of_drop _ _ (h.nodeCount - 1) e3 e4
  have hp' : (heapify less heap1 0).heapNodes.take (h.nodeCount - 1)
      |>.Perm (heap1.heapNodes.take (h.nodeCount - 1)) := hp
  refine List.Perm.trans ?_ (List.Perm.cons _ hp'.symm)
  -- the array before the call against the array after the store at index 0
  obtain ⟨n, hn⟩ : ∃ n, h.nodeCount = n + 1 := ⟨h.nodeCount - 1, by omega⟩
  cases hl : h.heapNodes with
  | nil => rw [hl] at hlen; simp at hlen; omega
  | cons a0 rest =>
    simp only [hheap1, hl, hn, Nat.add_sub_cancel, List.set_cons_zero, List.take_succ_cons,
      List.getD_cons_zero]
    rcases Nat.eq_zero_or_pos n with h0 | hnpos
    · subst h0; simp
    · obtain ⟨m, hm⟩ : ∃ m, n = m + 1 := ⟨n - 1, by omega⟩
      subst hm
      have hml : m < rest.length := by rw [hl] at hlen; simp at hlen; omega
      have hgetm : (a0 :: rest).getD (m + 1) default = rest[m] := by
        simp [List.getD_eq_getElem?_getD, hml]
      rw [hgetm, List.take_succ_cons, List.take_succ, List.getElem?_eq_getElem hml]
      simp only [Option.toList_some]
      refine List.Perm.cons _ ?_
      exact List.perm_append_singleton _ _

end ArrayHeap

section TopKProofs

variable {D : Type} [Zero D] [LinearOrder D]

omit [Zero D] in
theorem QueryHeap.less_iff (a b : QueryHeapNode D) :
    QueryHeap.less a b = true ↔ a.impactScore < b.impactScore := by
  simp [QueryHeap.less]

theorem TopKInv_init : TopKInv (⟨QueryHeap.createHeap, 0⟩ : TopK D) [] := by
  refine ⟨rfl, by simp [QueryHeap.createHeap], rfl, ?_, [], ?_, fun _ => rfl, ?_⟩
  · intro j c hc hcn
    simp [QueryHeap.createHeap] at hcn
  · simp [heapScores, QueryHeap.createHeap]
  · simp

theorem TopKInv_step (st : TopK D) (scores : List D) (docId : Int) (s : D)
    (h : TopKInv st scores) : TopKInv (updateTopK st docId s) (scores ++ [s]) := by
  obtain ⟨h1, h2, h3, h4, R, h5, h6, h7⟩ := h
  by_cases hlt : st.resultCount < QUERY_HEAP_SIZE
  · -- the heap is not full: insert
    have hR : R = [] := h6 (by omega)
    subst hR
    have hnc : st.heap.nodeCount = scores.length := by rw [h3]; omega
    obtain ⟨e1, e2, e3, e4⟩ := ArrayHeap.insertHeapNode_spec
      (fun node : QueryHeapNode D => node.impactScore) QueryHeap.less QueryHeap.less_iff
      st.heap ⟨docId, s⟩ (by rw [h2, hnc]; omega) h4
    have hup : (updateTopK st docId s).heap = QueryHeap.insertHeapNode st.heap ⟨docId, s⟩ := by
      simp only [updateTopK, if_pos hlt]
    refine ⟨by simp [updateTopK, h1], by rw [hup]; exact e2.trans h2, ?_, ?_, [], ?_, fun _ => rfl,
      by simp⟩
    · rw [hup]; simp only [QueryHeap.insertHeapNode, e1, hnc, List.length_append,
        List.length_singleton]; omega
    · rw [hup]; simp only [QueryHeap.insertHeapNode, e1]; exact e4
    · rw [hup]
      simp only [heapScores, QueryHeap.insertHeapNode, e1, List.append_nil]
      have := (e3.map (fun node : QueryHeapNode D => node.impactScore))
      refine this.trans ?_
      simp only [List.map_cons]
      have h5' : (heapScores st.heap).Perm scores := by simpa using h5
      exact (List.Perm.cons _ h5').trans (List.perm_append_singleton _ _).symm
  · have hfull : st.heap.nodeCount = QUERY_HEAP_SIZE := by rw [h3]; omega
    have hroot := ArrayHeap.IsHeap.root_le _ _ _ h4
    have hrootmin : ∀ x ∈ heapScores st.heap,
        (st.heap.heapNodes.getD 0 default).impactScore ≤ x := by
      intro x hx
      simp only [heapScores, List.mem_map] at hx
      obtain ⟨node, hnode, rfl⟩ := hx
      obtain ⟨c, hc1, hc2, rfl⟩ := ArrayHeap.exists_of_mem_take _ _ _ hnode
      exact hroot c hc1
    by_cases hgt : (st.heap.heapNodes.getD 0 default).impactScore < s
    · -- the new score is better than the minimum: replace the minimum
      obtain ⟨x1, x2, x3, x4, x5⟩ := ArrayHeap.extractMin_spec
        (fun node : QueryHeapNode D => node.impactScore) QueryHeap.less QueryHeap.less_iff
        st.heap (by rw [hfull]; decide) (by rw [hfull, h2]) h4
      set heap1 := (QueryHeap.extractMin st.heap).2 with hheap1
      have x2' : heap1.nodeCount = st.heap.nodeCount - 1 := x2
      have x3' : heap1.heapNodes.length = st.heap.heapNodes.length := x3
      obtain ⟨e1, e2, e3, e4⟩ := ArrayHeap.insertHeapNode_spec
        (fun node : QueryHeapNode D => node.impactScore) QueryHeap.less QueryHeap.less_iff
        heap1 ⟨docId, s⟩ (by rw [x2', x3', hfull, h2]; decide) (by rw [x2']; exact x5)
      have hup : (updateTopK st docId s).heap = QueryHeap.insertHeapNode heap1 ⟨docId, s⟩ := by
        simp only [updateTopK, if_neg hlt, if_pos hgt, hheap1]
      have hcount : (QueryHeap.insertHeapNode heap1 ⟨docId, s⟩).nodeCount = QUERY_HEAP_SIZE := by
        simp only [QueryHeap.insertHeapNode, e1, x2', hfull]; decide
      have hscores : (heapScores (QueryHeap.insertHeapNode heap1 ⟨docId, s⟩)).Perm
          (s :: (heap1.heapNodes.take (st.heap.nodeCount - 1)).map (fun node => node.impactScore)) := by
        simp only [heapScores, hcount]
        have : QUERY_HEAP_SIZE = heap1.nodeCount + 1 := by rw [x2', hfull]; decide
        rw [this]
        have := (e3.map (fun node : QueryHeapNode D => node.impactScore))
        simpa [QueryHeap.insertHeapNode, x2'] using this
      have hold : (heapScores st.heap).Perm
          ((st.heap.heapNodes.getD 0 default).impactScore ::
            (heap1.heapNodes.take (st.heap.nodeCount - 1)).map (fun node => node.impactScore)) := by
        simpa [heapScores] using (x4.map (fun node : QueryHeapNode D => node.impactScore))
      refine ⟨by simp [updateTopK, h1], by rw [hup]; exact e2.trans (x3'.trans h2), ?_, ?_,
        (st.heap.heapNodes.getD 0 default).impactScore :: R, ?_, ?_, ?_⟩
      · rw [hup, hcount]; simp; omega
      · rw [hup, hcount]
        have : QUERY_HEAP_SIZE = heap1.nodeCount + 1 := by rw [x2', hfull]; decide
        rw [this]; exact e4
      · rw [hup]
        refine (List.Perm.append_right _ hscores).trans ?_
        have h5' := (List.Perm.append_right R hold).symm.trans h5
        have : (scores ++ [s]).Perm (s :: scores) := List.perm_append_singleton _ _
        refine List.Perm.trans ?_ this.symm
        simp only [List.cons_append]
        refine List.Perm.cons _ ?_
        refine List.Perm.trans ?_ h5'
        simp only [List.cons_append]
        exact List.perm_middle
      · intro hle; simp at hle; omega
      · intro r hr x hx
        rw [hup] at hx
        have hx' := hscores.mem_iff.1 hx
        have hmin_le : ∀ y ∈ (heap1.heapNodes.take (st.heap.nodeCount - 1)).map
            (fun node => node.impactScore), (st.heap.heapNodes.getD 0 default).impactScore ≤ y := by
          intro y hy
          exact hrootmin y (hold.mem_iff.2 (List.mem_cons_of_mem _ hy))
        have hr_le_min : ∀ r' ∈ R, r' ≤ (st.heap.heapNodes.getD 0 default).impactScore := by
          intro r' hr'
          exact h7 r' hr' _ (hold.mem_iff.2 (List.mem_cons_self _ _))
        rcases List.mem_cons.1 hr with rfl | hrR
        · rcases List.mem_cons.1 hx' with rfl | hxh
          · exact le_of_lt hgt
          · exact hmin_le x hxh
        · rcases List.mem_cons.1 hx' with rfl | hxh
          · exact le_trans (hr_le_min r hrR) (le_of_lt hgt)
          · exact le_trans (hr_le_min r hrR) (hmin_le x hxh)
    · -- the new score is not better than the minimum: the heap is left as it is
      have hup : (updateTopK st docId s).heap = st.heap := by
        simp only [updateTopK, if_neg hlt, if_neg hgt]
      refine ⟨by simp [updateTopK, h1], by rw [hup]; exact h2, ?_, by rw [hup]; exact h4,
        s :: R, ?_, ?_, ?_⟩
      · rw [hup, hfull]; simp; omega
      · rw [hup]
        have : (scores ++ [s]).Perm (s :: scores) := List.perm_append_singleton _ _
        refine List.Perm.trans ?_ this.symm
        exact List.perm_middle.trans (List.Perm.cons _ h5)
      · intro hle; simp at hle; omega
      · intro r hr x hx
        rw [hup] at hx
        rcases List.mem_cons.1 hr with rfl | hrR
        · exact le_trans (not_lt.1 hgt) (hrootmin x hx)
        · exact h7 r hrR x hx

theorem TopKInv_foldl (cands : List (Int × D)) :
    ∀ (st : TopK D) (scores : List D), TopKInv st scores →
      TopKInv (cands.foldl (fun st c => updateTopK st c.1 c.2) st)
        (scores ++ cands.map (fun c => c.2)) := by
  induction cands with
  | nil => intro st scores h; simpa using h
  | cons c cs ih =>
    intro st scores h
    have := ih _ _ (TopKInv_step st scores c.1 c.2 h)
    simpa using this

theorem TopKInv_scores (st : TopK D) (scores : List D) (h : TopKInv st scores) :
    (heapScores st.heap).Perm
      ((scores.insertionSort (fun a b => b ≤ a)).take (min scores.length QUERY_HEAP_SIZE)) := by
  obtain ⟨h1, h2, h3, h4, R, h5, h6, h7⟩ := h
  have hlenH : (heapScores st.heap).length = min scores.length QUERY_HEAP_SIZE := by
    simp only [heapScores, List.length_map, List.length_take, h2, h3]
    omega
  set H := heapScores st.heap with hH
  have hsortedH := List.sorted_insertionSort (fun a b : D => b ≤ a) H
  have hsortedR := List.sorted_insertionSort (fun a b : D => b ≤ a) R
  have hpH := List.perm_insertionSort (fun a b : D => b ≤ a) H
  have hpR := List.perm_insertionSort (fun a b : D => b ≤ a) R
  have hcat : List.Sorted (fun a b : D => b ≤ a)
      (H.insertionSort (fun a b => b ≤ a) ++ R.insertionSort (fun a b => b ≤ a)) := by
    rw [List.Sorted, List.pairwise_append]
    refine ⟨hsortedH, hsortedR, ?_⟩
    intro a ha b hb
    exact h7 b (hpR.mem_iff.1 hb) a (hpH.mem_iff.1 ha)
  have hperm : (H.insertionSort (fun a b => b ≤ a) ++ R.insertionSort (fun a b => b ≤ a)).Perm
      (scores.insertionSort (fun a b => b ≤ a)) :=
    ((hpH.append hpR).trans h5).trans (List.perm_insertionSort _ _).symm
  have heq := List.eq_of_perm_of_sorted hperm hcat (List.sorted_insertionSort _ _)
  rw [← heq, ← hlenH]
  have : (H.insertionSort (fun a b => b ≤ a)).length = H.length := List.length_insertionSort _ _
  rw [← this, List.take_left']
  · exact hpH.symm
  · rfl

end TopKProofs


section HeapClaims

variable {D : Type} [Zero D] [LinearOrder D]

/-- C4: after the heap-update step of the evaluators has been applied, from the
empty heap and `resultCount = 0`, to any sequence of `n` scored candidates, the
heap holds exactly `min n 20` nodes and the scores of these nodes are, as a
multiset, the first `min n 20` entries of the scores of the sequence sorted in
non-increasing order.  Scores are elements of a linear order: the comparisons
of the code are `<` on doubles that are sums of decoded impacts. -/
theorem updateTopK_keeps_largest (cands : List (Int × D)) :
    (cands.foldl (fun st c => updateTopK st c.1 c.2)
        (⟨QueryHeap.createHeap, 0⟩ : TopK D)).heap.nodeCount
      = min cands.length QUERY_HEAP_SIZE ∧
    (heapScores (cands.foldl (fun st c => updateTopK st c.1 c.2)
        (⟨QueryHeap.createHeap, 0⟩ : TopK D)).heap).Perm
      (((cands.map (fun c => c.2)).insertionSort (fun a b => b ≤ a)).take
        (min cands.length QUERY_HEAP_SIZE)) := by
  have h := TopKInv_foldl cands _ _ (TopKInv_init (D := D))
  simp only [List.nil_append] at h
  refine ⟨by simpa using h.2.2.1, ?_⟩
  simpa using TopKInv_scores _ _ h

/-- C5: for every heap content of 0 to 20 nodes, `heapSort` leaves `nodeCount`
unchanged and leaves `heapNodes[0..nodeCount)` a permutation of its previous
contents in which the `impactScore` never increases with the index, so the
highest score is at index 0. -/
theorem heapSort_descending (heap : QueryHeap D) (hcount : heap.nodeCount ≤ QUERY_HEAP_SIZE)
    (hlen : heap.heapNodes.length = QUERY_HEAP_SIZE) :
    (QueryHeap.heapSort heap).nodeCount = heap.nodeCount ∧
    ((QueryHeap.heapSort heap).heapNodes.take heap.nodeCount).Perm
      (heap.heapNodes.take heap.nodeCount) ∧
    (((QueryHeap.heapSort heap).heapNodes.take heap.nodeCount).map
      (fun node => node.impactScore)).Pairwise (fun a b => b ≤ a) := by
  have h := ArrayHeap.heapSort_spec (fun node : QueryHeapNode D => node.impactScore)
    QueryHeap.less QueryHeap.less_iff heap (by omega)
  exact ⟨h.1, h.2.2.1, h.2.2.2.2⟩

end HeapClaims

theorem heapSort_descending_witness :
    (QueryHeap.heapSort sampleHeap).nodeCount = sampleHeap.nodeCount ∧
    ((QueryHeap.heapSort sampleHeap).heapNodes.take sampleHeap.nodeCount).Perm
      (sampleHeap.heapNodes.take sampleHeap.nodeCount) ∧
    (((QueryHeap.heapSort sampleHeap).heapNodes.take sampleHeap.nodeCount).map
      (fun node => node.impactScore)).Pairwise (fun a b => b ≤ a) :=
  heapSort_descending sampleHeap (by decide) (by decide)

/-! ### Chunks: encoder and decoder -/

theorem varByteCompressLoop_ne_nil (fuel x : Nat) : varByteCompressLoop fuel x ≠ [] := by
  cases fuel with
  | zero => simp [varByteCompressLoop]
  | succ n => simp only [varByteCompressLoop]; split <;> simp

theorem varByteCompressInt_length_pos (x : Nat) : 0 < (varByteCompressInt x).length :=
  List.length_pos.2 (varByteCompressLoop_ne_nil _ _)

theorem toInt32_toUInt32 (v : Int) (h0 : 0 ≤ v) (h1 : v < 2 ^ 31) :
    toInt32 (toUInt32 v) = v ∧ toUInt32 v < 2 ^ 32 := by
  have hv : (v % 2 ^ 32).toNat = v.toNat := by
    rw [Int.emod_eq_of_lt h0 (by omega)]
  have hlt : v.toNat < 2 ^ 31 := by omega
  simp only [toUInt32, toInt32, hv]
  have hmod : v.toNat % 2 ^ 32 = v.toNat := Nat.mod_eq_of_lt (by omega)
  rw [hmod]
  refine ⟨?_, by omega⟩
  rw [if_neg (by omega)]
  omega

theorem IncreasingFrom.lt_getLast (prev : Int) (ds : List Int) (h : IncreasingFrom prev ds) :
    ∀ d, prev < ds.getLastD d ∨ ds = [] := by
  induction ds generalizing prev with
  | nil => intro d; right; rfl
  | cons a rest ih =>
    intro d
    left
    obtain ⟨h1, _, _, h4⟩ := h
    cases rest with
    | nil => simpa using h1
    | cons b rest2 =>
      rcases ih a h4 d with h | h
      · simp only [List.getLastD_cons] at h ⊢
        omega
      · simp at h

theorem decompressDocIds_stored (ds : List Int) :
    ∀ (fuel : Nat) (prev : Int) (idx : Nat) (docIds : List Int) (rest : List Nat),
      ds ≠ [] → IncreasingFrom prev ds → -1 ≤ prev → ds.length ≤ fuel →
      idx + ds.length ≤ docIds.length →
      ∃ out, decompressDocIds fuel
          ((storedDocIds prev ds).flatMap (fun v => varByteCompressInt (toUInt32 v)) ++ rest)
          (ds.getLastD (-1)) prev idx docIds
        = some (rest, idx + ds.length, out) ∧ out.length = docIds.length ∧
          out.take idx = docIds.take idx ∧ (out.drop idx).take ds.length = ds := by
  induction ds with
  | nil => intro fuel prev idx docIds rest h; exact absurd rfl h
  | cons d rest' ih =>
    intro fuel prev idx docIds rest _ hinc hprev hfuel hidx
    obtain ⟨h1, h2, h3, h4⟩ := hinc
    obtain ⟨fuel', rfl⟩ : ∃ f, fuel = f + 1 := ⟨fuel - 1, by simp at hfuel; omega⟩
    have hstored : 0 ≤ (if prev ≠ -1 then d - prev else d) ∧
        (if prev ≠ -1 then d - prev else d) < 2 ^ 31 := by
      split <;> omega
    obtain ⟨hcast, hrange⟩ := toInt32_toUInt32 _ hstored.1 hstored.2
    have hdec : (if prev ≠ -1 then toInt32 (toUInt32 (if prev ≠ -1 then d - prev else d)) + prev
        else toInt32 (toUInt32 (if prev ≠ -1 then d - prev else d))) = d := by
      rw [hcast]; split <;> omega
    have hidx' : idx < docIds.length := by simp at hidx; omega
    have hstep : decompressDocIds (fuel' + 1)
        ((storedDocIds prev (d :: rest')).flatMap (fun v => varByteCompressInt (toUInt32 v)) ++ rest)
        ((d :: rest').getLastD (-1)) prev idx docIds
        = if d = (d :: rest').getLastD (-1) then some
            ((storedDocIds d rest').flatMap (fun v => varByteCompressInt (toUInt32 v)) ++ rest,
              idx + 1, docIds.set idx d)
          else decompressDocIds fuel'
            ((storedDocIds d rest').flatMap (fun v => varByteCompressInt (toUInt32 v)) ++ rest)
            ((d :: rest').getLastD (-1)) d (idx + 1) (docIds.set idx d) := by
      simp only [storedDocIds, List.flatMap_cons, List.append_assoc, decompressDocIds]
      rw [varByte_roundtrip _ hrange]
      simp only [List.drop_left', hdec, hidx', if_true]
    rw [hstep]
    have hset_take : (docIds.set idx d).take idx = docIds.take idx := by
      apply List.ext_getElem?; intro i
      rw [List.getElem?_take, List.getElem?_take]
      split
      · rw [List.getElem?_set_ne (by omega)]
      · rfl
    have hset_get : (docIds.set idx d)[idx]? = some d := by
      rw [List.getElem?_set]; simp [hidx']
    cases rest' with
    | nil =>
      refine ⟨docIds.set idx d, by simp [storedDocIds], by simp, hset_take, ?_⟩
      rw [List.drop_eq_getElem_cons (by simpa using hidx')]
      simp [List.getElem_set]
    | cons d2 rest2 =>
      have hne : d ≠ (d :: d2 :: rest2).getLastD (-1) := by
        rcases IncreasingFrom.lt_getLast d (d2 :: rest2) h4 d with h | h
        · simp only [List.getLastD_cons] at h ⊢; omega
        · simp at h
      rw [if_neg hne]
      have hlast : (d :: d2 :: rest2).getLastD (-1) = (d2 :: rest2).getLastD (-1) := by
        simp [List.getLastD_cons]
      rw [hlast]
      obtain ⟨out, e1, e2, e3, e4⟩ := ih fuel' d (idx + 1) (docIds.set idx d) rest (by simp) h4
        (by omega) (by simp at hfuel ⊢; omega) (by simp at hidx ⊢; omega)
      have hlen : out.length = docIds.length := by simpa using e2
      have hget : out[idx]? = some d := by
        have := congrArg (fun l => l[idx]?) e3
        simp only [List.getElem?_take] at this
        rw [if_pos (by omega), if_pos (by omega)] at this
        rw [this, hset_get]
      refine ⟨out, ?_, hlen, ?_, ?_⟩
      · rw [e1]; congr 2; simp; omega
      · have := congrArg (List.take idx) e3
        rw [List.take_take, List.take_take, min_eq_left (by omega)] at this
        rw [this, hset_take]
      · have hil : idx < out.length := by omega
        rw [List.drop_eq_getElem_cons hil]
        have hg : out[idx] = d := by
          rw [List.getElem?_eq_getElem hil] at hget
          exact Option.some.inj hget
        rw [hg]
        simp only [List.length_cons, List.take_succ_cons]
        congr 1

theorem decompressImpactScores_total {D : Type} [Zero D] (ops : DoubleOps D) :
    ∀ (n : Nat) (bytes : List Nat) (idx : Nat) (scores : List D),
      n ≤ bytes.length → idx + n ≤ scores.length →
      ∃ out, decompressImpactScores ops n bytes idx scores = some out ∧
        out.length = scores.length ∧ out.take idx = scores.take idx := by
  intro n
  induction n with
  | zero => intro bytes idx scores _ _; exact ⟨scores, rfl, rfl, rfl⟩
  | succ n ih =>
    intro bytes idx scores hb hs
    cases bytes with
    | nil => simp at hb
    | cons b rest =>
      have hidx : idx < scores.length := by omega
      have htake : ∀ x : D, (scores.set idx x).take idx = scores.take idx := by
        intro x
        apply List.ext_getElem?; intro i
        rw [List.getElem?_take, List.getElem?_take]
        split
        · rw [List.getElem?_set_ne (by omega)]
        · rfl
      by_cases hb0 : b = 0
      · subst hb0
        obtain ⟨out, e1, e2, e3⟩ := ih (0 :: rest) (idx + 1) (scores.set idx 0)
          (by simp at hb ⊢; omega) (by simp; omega)
        refine ⟨out, ?_, by simpa using e2, ?_⟩
        · simp only [decompressImpactScores, logDecompressToDouble, if_true, hidx]
          exact e1
        · have := congrArg (List.take idx) e3
          rw [List.take_take, List.take_take, min_eq_left (by omega)] at this
          rw [this, htake]
      · obtain ⟨out, e1, e2, e3⟩ := ih rest (idx + 1)
          (scores.set idx (ops.sub (ops.exp2 (ops.div (ops.ofByte b) ops.scale)) ops.one))
          (by simp at hb ⊢; omega) (by simp; omega)
        refine ⟨out, ?_, by simpa using e2, ?_⟩
        · simp only [decompressImpactScores, logDecompressToDouble, if_neg hb0, hidx, if_true]
          exact e1
        · have := congrArg (List.take idx) e3
          rw [List.take_take, List.take_take, min_eq_left (by omega)] at this
          rw [this, htake]

theorem decodeStored_append (prev : Int) (vs : List Int) (v : Int) :
    decodeStored prev (vs ++ [v]) = decodeStored prev vs ++
      [if (decodeStored prev vs).getLastD prev ≠ -1 then v + (decodeStored prev vs).getLastD prev
        else v] := by
  induction vs generalizing prev with
  | nil => simp [decodeStored]
  | cons a rest ih =>
    have h := ih (if prev ≠ -1 then a + prev else a)
    simp only [List.cons_append, decodeStored, List.getLastD_cons]
    exact congrArg _ h

theorem storedDocIds_decodeStored (prev : Int) (vs : List Int) :
    storedDocIds prev (decodeStored prev vs) = vs := by
  induction vs generalizing prev with
  | nil => rfl
  | cons a rest ih =>
    simp only [decodeStored, storedDocIds, ih]
    congr 1
    split <;> omega

theorem BlockWF_create {D : Type} [Zero D] : BlockWF (createIndexBlock : IndexBlock D) := by
  refine ⟨by simp [createIndexBlock], by simp [createIndexBlock], by simp [createIndexBlock],
    by simp [createIndexBlock], ?_, ?_, ?_, ?_⟩
  · intro j _
    simp only [createIndexBlock, List.getD_eq_getElem?_getD, List.getElem?_replicate]
    split <;> rfl
  · intro c hc
    simp only [createIndexBlock] at hc
    rw [List.eq_of_mem_replicate hc]; simp [emptyIndexChunk]
  · intro c hc
    simp only [createIndexBlock] at hc
    rw [List.eq_of_mem_replicate hc]; simp [emptyIndexChunk]
  · intro c hc
    simp only [createIndexBlock] at hc
    rw [List.eq_of_mem_replicate hc]; simp [emptyIndexChunk]

theorem allChunks_append {D : Type} (a b : List (IndexBlock D)) :
    allChunks (a ++ b) = allChunks a ++ allChunks b := by
  simp [allChunks]

theorem take_succ_getD {α : Type} (l : List α) (n : Nat) (d : α) (h : n < l.length) :
    l.take (n + 1) = l.take n ++ [l.getD n d] := by
  rw [List.take_succ, List.getElem?_eq_getElem h]
  simp [List.getD_eq_getElem?_getD, h]

theorem openChunk_spec {D : Type} [Zero D] (s : EncoderState D) (hwf : BlockWF s.currentBlock)
    (hroom : s.currentBlock.chunkCount < MAX_CHUNK_COUNT) :
    EncInv (openChunk s) ∧ (openChunk s).postingCount = 0 ∧
    (openChunk s).absLists = s.absLists ++ [[]] ∧
    (openChunk s).chunkNumber = s.chunkNumber + 1 ∧
    (openChunk s).blockCount = s.blockCount ∧ (openChunk s).word = s.word ∧
    (openChunk s).doneBlocks = s.doneBlocks := by
  have hfresh := hwf.fresh s.currentBlock.chunkCount le_rfl
  have hlen : s.currentBlock.chunkCount < s.currentBlock.indexChunks.length := by
    rw [hwf.chunks_length]; exact hroom
  refine ⟨⟨?_, rfl, ?_, ?_, ?_⟩, ?_, ?_, rfl, rfl, rfl, rfl⟩
  · exact ⟨by simp only [openChunk]; omega, hwf.chunks_length, hwf.sizes_length, hwf.lasts_length,
      fun j hj => hwf.fresh j (by simp only [openChunk] at hj; omega),
      hwf.docIds_length, hwf.scores_length, hwf.posting_le⟩
  · simp only [openChunk]
  · simp only [openChunk, hfresh]
    simp [IndexChunk.absDocIds, emptyIndexChunk, decodeStored]
  · intro h
    simp only [openChunk, hfresh] at h
    simp [emptyIndexChunk] at h
  · simp only [openChunk, hfresh]; rfl
  · have h1 : allChunks [{ s.currentBlock with chunkCount := s.currentBlock.chunkCount + 1 }]
        = allChunks [s.currentBlock] ++ [emptyIndexChunk] := by
      simp only [allChunks, List.flatMap_cons, List.flatMap_nil, List.append_nil]
      rw [take_succ_getD _ _ emptyIndexChunk hlen, hfresh]
    simp only [EncoderState.absLists, openChunk, allChunks_append, List.map_append, h1,
      List.append_assoc]
    simp [IndexChunk.absDocIds, emptyIndexChunk, decodeStored]

theorem EncInv.absLists_eq {D : Type} [Zero D] (s : EncoderState D) (h : EncInv s) :
    s.absLists = s.closedLists ++ [s.openList] := by
  have hlen : s.chunkIndex < s.currentBlock.indexChunks.length := by
    rw [h.wf.chunks_length]; have := h.wf.count_le; have := h.open_last; omega
  simp only [EncoderState.absLists, EncoderState.closedLists, EncoderState.openList,
    allChunks_append, List.map_append]
  simp only [allChunks, List.flatMap_cons, List.flatMap_nil, List.append_nil, h.open_last]
  rw [take_succ_getD _ _ emptyIndexChunk hlen]
  simp

theorem EncInv.postingCount_le {D : Type} [Zero D] (s : EncoderState D) (h : EncInv s) :
    s.postingCount ≤ MAX_POSTING_COUNT := by
  have hlen : s.chunkIndex < s.currentBlock.indexChunks.length := by
    rw [h.wf.chunks_length]; have := h.wf.count_le; have := h.open_last; omega
  rw [← h.posting_eq]
  apply h.wf.posting_le
  rw [List.getD_eq_getElem _ _ hlen]
  exact List.getElem_mem _

theorem getD_set_self {α : Type} (l : List α) (i : Nat) (x d : α) (h : i < l.length) :
    (l.set i x).getD i d = x := by
  simp [List.getD_eq_getElem?_getD, List.getElem?_set, h]

theorem take_set_self {α : Type} (l : List α) (i : Nat) (x : α) :
    (l.set i x).take i = l.take i := by
  apply List.ext_getElem?; intro n
  rw [List.getElem?_take, List.getElem?_take]
  split
  · rw [List.getElem?_set_ne (by omega)]
  · rfl

theorem storePosting_eq {D : Type} [Zero D] (s : EncoderState D) (docId : Int) (x : D)
    (chunk : IndexChunk D)
    (hchunk : s.currentBlock.indexChunks.getD s.chunkIndex emptyIndexChunk = chunk) :
    storePosting s docId x =
      { s with
        currentBlock :=
          { s.currentBlock with
            indexChunks := s.currentBlock.indexChunks.set s.chunkIndex
              { postingCount := chunk.postingCount + 1
                docIds := chunk.docIds.set s.postingCount
                  (if s.prevDocId ≠ -1 then docId - s.prevDocId else docId)
                impactScores := chunk.impactScores.set s.postingCount x }
            chunkSizes := s.currentBlock.chunkSizes.set s.chunkIndex
              (s.currentBlock.chunkSizes.getD s.chunkIndex 0
                + computeVarByteLength (if s.prevDocId ≠ -1 then docId - s.prevDocId else docId) + 1)
            lastDocIds := s.currentBlock.lastDocIds.set s.chunkIndex docId }
        prevDocId := docId
        postingCount := chunk.postingCount + 1 } := by
  subst hchunk; rfl

theorem storePosting_spec {D : Type} [Zero D] (s : EncoderState D) (docId : Int) (x : D)
    (h : EncInv s) (hroom : s.postingCount < MAX_POSTING_COUNT) :
    EncInv (storePosting s docId x) ∧
    (storePosting s docId x).postingCount = s.postingCount + 1 ∧
    (storePosting s docId x).closedLists = s.closedLists ∧
    (storePosting s docId x).openList = s.openList ++ [docId] ∧
    (storePosting s docId x).chunkNumber = s.chunkNumber ∧
    (storePosting s docId x).blockCount = s.blockCount ∧
    (storePosting s docId x).word = s.word ∧
    (storePosting s docId x).doneBlocks = s.doneBlocks ∧
    (storePosting s docId x).chunkIndex = s.chunkIndex ∧
    (storePosting s docId x).currentBlock.chunkCount = s.currentBlock.chunkCount := by
  have hlen : s.chunkIndex < s.currentBlock.indexChunks.length := by
    rw [h.wf.chunks_length]; have := h.wf.count_le; have := h.open_last; omega
  have hlen2 : s.chunkIndex < s.currentBlock.lastDocIds.length := by
    rw [h.wf.lasts_length]; have := h.wf.count_le; have := h.open_last; omega
  obtain ⟨chunk, hchunk⟩ : ∃ c, s.currentBlock.indexChunks.getD s.chunkIndex emptyIndexChunk = c :=
    ⟨_, rfl⟩
  have hmem : chunk ∈ s.currentBlock.indexChunks := by
    rw [← hchunk, List.getD_eq_getElem _ _ hlen]; exact List.getElem_mem _
  have hdl : chunk.docIds.length = MAX_POSTING_COUNT := h.wf.docIds_length _ hmem
  have hsl : chunk.impactScores.length = MAX_POSTING_COUNT := h.wf.scores_length _ hmem
  have hpc : chunk.postingCount = s.postingCount := by rw [← hchunk]; exact h.posting_eq
  have hprev : s.prevDocId
      = (decodeStored (-1) (chunk.docIds.take s.postingCount)).getLastD (-1) := by
    have := h.prev_eq
    rw [hchunk] at this
    simpa [IndexChunk.absDocIds, hpc] using this
  have hopen : s.openList = decodeStored (-1) (chunk.docIds.take s.postingCount) := by
    simp only [EncoderState.openList, hchunk, IndexChunk.absDocIds, hpc]
  rw [storePosting_eq s docId x chunk hchunk]
  have habs : (decodeStored (-1)
      ((chunk.docIds.set s.postingCount
        (if s.prevDocId ≠ -1 then docId - s.prevDocId else docId)).take (s.postingCount + 1)))
      = decodeStored (-1) (chunk.docIds.take s.postingCount) ++ [docId] := by
    rw [take_succ_getD _ _ 0 (by simp; omega), getD_set_self _ _ _ _ (by omega),
      take_set_self, decodeStored_append, ← hprev]
    congr 2
    split <;> omega
  refine ⟨⟨?_, ?_, ?_, ?_, ?_⟩, ?_, ?_, ?_, rfl, rfl, rfl, rfl, rfl, rfl⟩
  · refine ⟨h.wf.count_le, by simp [h.wf.chunks_length],
      by simp [h.wf.sizes_length], by simp [h.wf.lasts_length], ?_, ?_, ?_, ?_⟩
    · intro j hj
      have hjne : s.chunkIndex ≠ j := by
        simp only [h.open_last] at hj; omega
      have := h.wf.fresh j hj
      simp only [List.getD_eq_getElem?_getD, List.getElem?_set, hjne, if_false] at this ⊢
      exact this
    · intro c hc
      rcases List.mem_or_eq_of_mem_set hc with hc | rfl
      · exact h.wf.docIds_length c hc
      · simp [hdl]
    · intro c hc
      rcases List.mem_or_eq_of_mem_set hc with hc | rfl
      · exact h.wf.scores_length c hc
      · simp [hsl]
    · intro c hc
      rcases List.mem_or_eq_of_mem_set hc with hc | rfl
      · exact h.wf.posting_le c hc
      · simp only; rw [hpc]; omega
  · exact h.open_last
  · simp only; rw [getD_set_self _ _ _ _ hlen]
  · simp only; rw [getD_set_self _ _ _ _ hlen]
    simp only [IndexChunk.absDocIds, hpc, habs]
    simp
  · intro _
    simp only
    rw [getD_set_self _ _ _ _ hlen2]
  · simp only [hpc]
  · simp only [EncoderState.closedLists, take_set_self]
  · rw [hopen]
    simp only [EncoderState.openList]
    rw [getD_set_self _ _ _ _ hlen]
    simp only [IndexChunk.absDocIds, hpc, habs]

theorem allChunks_create {D : Type} [Zero D] :
    allChunks [(createIndexBlock : IndexBlock D)] = [] := by
  simp [allChunks, createIndexBlock]

theorem openBlock_spec {D : Type} [Zero D] (s : EncoderState D) :
    BlockWF (openBlock s).currentBlock ∧ (openBlock s).currentBlock.chunkCount = 0 ∧
    (openBlock s).absLists = s.absLists ∧ (openBlock s).chunkNumber = s.chunkNumber ∧
    (openBlock s).word = s.word ∧ (openBlock s).doneBlocks = s.doneBlocks ++ [s.currentBlock] ∧
    (openBlock s).blockCount = s.blockCount + 1 := by
  refine ⟨BlockWF_create, rfl, ?_, rfl, rfl, rfl, rfl⟩
  simp only [EncoderState.absLists, openBlock, allChunks_append, allChunks_create,
    List.append_nil]

/-- The step that closes a full chunk and opens the next one (lines 136-150). -/
theorem advance_spec {D : Type} [Zero D] (s : EncoderState D) (h : EncInv s) :
    EncInv (openChunk (if s.chunkIndex = MAX_CHUNK_COUNT - 1 then openBlock s else s)) ∧
    (openChunk (if s.chunkIndex = MAX_CHUNK_COUNT - 1 then openBlock s else s)).postingCount = 0 ∧
    (openChunk (if s.chunkIndex = MAX_CHUNK_COUNT - 1 then openBlock s else s)).closedLists
      = s.closedLists ++ [s.openList] ∧
    (openChunk (if s.chunkIndex = MAX_CHUNK_COUNT - 1 then openBlock s else s)).openList = [] ∧
    (openChunk (if s.chunkIndex = MAX_CHUNK_COUNT - 1 then openBlock s else s)).chunkNumber
      = s.chunkNumber + 1 ∧
    (openChunk (if s.chunkIndex = MAX_CHUNK_COUNT - 1 then openBlock s else s)).word = s.word ∧
    (∀ b ∈ (openChunk (if s.chunkIndex = MAX_CHUNK_COUNT - 1 then openBlock s else s)).doneBlocks,
      b ∈ s.doneBlocks ∨ b = s.currentBlock) := by
  have key : ∀ s1 : EncoderState D, BlockWF s1.currentBlock →
      s1.currentBlock.chunkCount < MAX_CHUNK_COUNT → s1.absLists = s.absLists →
      s1.chunkNumber = s.chunkNumber → s1.word = s.word →
      (∀ b ∈ s1.doneBlocks, b ∈ s.doneBlocks ∨ b = s.currentBlock) →
      EncInv (openChunk s1) ∧ (openChunk s1).postingCount = 0 ∧
      (openChunk s1).closedLists = s.closedLists ++ [s.openList] ∧
      (openChunk s1).openList = [] ∧ (openChunk s1).chunkNumber = s.chunkNumber + 1 ∧
      (openChunk s1).word = s.word ∧
      (∀ b ∈ (openChunk s1).doneBlocks, b ∈ s.doneBlocks ∨ b = s.currentBlock) := by
    intro s1 hwf hroom habs hnum hword hdone
    obtain ⟨e1, e2, e3, e4, _, e6, e7⟩ := openChunk_spec s1 hwf hroom
    have h1 := EncInv.absLists_eq _ e1
    rw [e3, habs, EncInv.absLists_eq s h] at h1
    have h2 := List.append_inj' h1 rfl
    refine ⟨e1, e2, h2.1.symm, ?_, by rw [e4, hnum], by rw [e6, hword], by rw [e7]; exact hdone⟩
    have := h2.2
    simp only [List.cons.injEq, and_true] at this
    exact this.symm
  by_cases hc : s.chunkIndex = MAX_CHUNK_COUNT - 1
  · rw [if_pos hc]
    obtain ⟨o1, o2, o3, o4, o5, o6, _⟩ := openBlock_spec s
    refine key (openBlock s) o1 (by rw [o2]; decide) o3 o4 o5 ?_
    intro b hb
    rw [o6] at hb
    rcases List.mem_append.1 hb with hb | hb
    · exact Or.inl hb
    · exact Or.inr (by simpa using hb)
  · rw [if_neg hc]
    refine key s h.wf ?_ rfl rfl rfl (fun b hb => Or.inl hb)
    have := h.wf.count_le
    have := h.open_last
    omega

theorem EncInv_word {D : Type} [Zero D] (s : EncoderState D) (w : Option (List Nat))
    (h : EncInv s) : EncInv { s with word := w } :=
  ⟨h.wf, h.open_last, h.posting_eq, h.prev_eq, h.last_eq⟩

theorem addPosting_spec {D : Type} [Zero D] (ops : DoubleOps D) (docLengths : Int → Int)
    (totalDocCount termDocCount avgDocLength : Int) (word : List Nat)
    (s : EncoderState D) (posting : Int × Int) (G0 : List (List Int)) (n0 : Int) (Q : List Int)
    (h : TermInv s G0 n0 Q) :
    TermInv (addPosting ops docLengths totalDocCount termDocCount avgDocLength word s posting)
      G0 n0 (Q ++ [posting.1]) ∧
    (addPosting ops docLengths totalDocCount termDocCount avgDocLength word s posting).word
      = some word := by
  obtain ⟨henc, hdone, ⟨Tc, c1, c2, c3, c4⟩, hol⟩ := h
  have hle := EncInv.postingCount_le s henc
  have henc1 := EncInv_word s (some word) henc
  by_cases hfull : s.postingCount = MAX_POSTING_COUNT
  · obtain ⟨a1, a2, a3, a4, a5, a6, a7⟩ := advance_spec { s with word := some word } henc1
    obtain ⟨p1, p2, p3, p4, p5, _, p7, p8, _, _⟩ := storePosting_spec _ posting.1
      (ops.calculateBM25ImpactScore totalDocCount termDocCount posting.2
        (docLengths (posting.1 - 1)) avgDocLength) a1 (by rw [a2]; decide)
    have hadd : addPosting ops docLengths totalDocCount termDocCount avgDocLength word s posting
        = storePosting (openChunk (if ({ s with word := some word } : EncoderState D).chunkIndex
            = MAX_CHUNK_COUNT - 1 then openBlock { s with word := some word }
            else { s with word := some word })) posting.1
          (ops.calculateBM25ImpactScore totalDocCount termDocCount posting.2
            (docLengths (posting.1 - 1)) avgDocLength) := by
      simp only [addPosting, hfull, if_true]
    rw [hadd]
    refine ⟨⟨p1, ?_, ⟨Tc ++ [s.openList], ?_, ?_, ?_, ?_⟩, ?_⟩, ?_⟩
    · intro b hb
      rw [p8] at hb
      rcases a7 b hb with hb | rfl
      · exact hdone b hb
      · exact henc.wf
    · rw [p3, a3]
      have : ({ s with word := some word } : EncoderState D).closedLists = s.closedLists := rfl
      have h2 : ({ s with word := some word } : EncoderState D).openList = s.openList := rfl
      rw [this, h2, c1, List.append_assoc]
    · rw [p4, a4, List.flatten_append, ← c2]
      simp
    · rw [p5, a5]
      have : ({ s with word := some word } : EncoderState D).chunkNumber = s.chunkNumber := rfl
      rw [this, c3]; simp; omega
    · intro l hl
      rcases List.mem_append.1 hl with hl | hl
      · exact c4 l hl
      · have : l = s.openList := by simpa using hl
        rw [this, hol, hfull]
    · rw [p4, p2, a4, a2]; simp
    · rw [p7, a6]
  · have hroom : s.postingCount < MAX_POSTING_COUNT := by omega
    obtain ⟨p1, p2, p3, p4, p5, _, p7, p8, _, _⟩ := storePosting_spec { s with word := some word }
      posting.1 (ops.calculateBM25ImpactScore totalDocCount termDocCount posting.2
        (docLengths (posting.1 - 1)) avgDocLength) henc1 hroom
    have hadd : addPosting ops docLengths totalDocCount termDocCount avgDocLength word s posting
        = storePosting { s with word := some word } posting.1
          (ops.calculateBM25ImpactScore totalDocCount termDocCount posting.2
            (docLengths (posting.1 - 1)) avgDocLength) := by
      simp only [addPosting, hfull, if_false]
    rw [hadd]
    have e1 : ({ s with word := some word } : EncoderState D).closedLists = s.closedLists := rfl
    have e2 : ({ s with word := some word } : EncoderState D).openList = s.openList := rfl
    refine ⟨⟨p1, ?_, ⟨Tc, ?_, ?_, ?_, c4⟩, ?_⟩, ?_⟩
    · intro b hb; rw [p8] at hb; exact hdone b hb
    · rw [p3, e1, c1]
    · rw [p4, e2, ← List.append_assoc, c2]
    · rw [p5]; exact c3
    · rw [p4, p2, e2]; simp [hol]
    · rw [p7]

theorem addPostings_spec {D : Type} [Zero D] (ops : DoubleOps D) (docLengths : Int → Int)
    (totalDocCount termDocCount avgDocLength : Int) (word : List Nat)
    (postings : List (Int × Int)) :
    ∀ (s : EncoderState D) (G0 : List (List Int)) (n0 : Int) (Q : List Int),
      TermInv s G0 n0 Q →
      TermInv (postings.foldl
          (addPosting ops docLengths totalDocCount termDocCount avgDocLength word) s)
        G0 n0 (Q ++ postings.map (fun p => p.1)) ∧
      (postings.foldl (addPosting ops docLengths totalDocCount termDocCount avgDocLength word)
          s).word = if postings = [] then s.word else some word := by
  induction postings with
  | nil => intro s G0 n0 Q h; simpa using h
  | cons p rest ih =>
    intro s G0 n0 Q h
    obtain ⟨h1, h2⟩ := addPosting_spec ops docLengths totalDocCount termDocCount avgDocLength
      word s p G0 n0 Q h
    obtain ⟨i1, i2⟩ := ih _ G0 n0 _ h1
    simp only [List.foldl_cons, List.map_cons]
    refine ⟨by simpa using i1, ?_⟩
    rw [i2, h2]
    simp

theorem addParsedItem_fold_spec {D : Type} [Zero D] (ops : DoubleOps D) (docLengths : Int → Int)
    (totalDocCount termDocCount avgDocLength : Int) (parsedItems : List (Option ParsedItem)) :
    ∀ (s : EncoderState D) (G0 : List (List Int)) (n0 : Int) (Q : List Int),
      TermInv s G0 n0 Q →
      TermInv (parsedItems.foldl
          (addParsedItem ops docLengths totalDocCount termDocCount avgDocLength) s)
        G0 n0 (Q ++ itemsDocIds parsedItems) ∧
      (parsedItems.foldl (addParsedItem ops docLengths totalDocCount termDocCount avgDocLength)
          s).word = lastWord s.word parsedItems := by
  induction parsedItems with
  | nil => intro s G0 n0 Q h; simpa [itemsDocIds, lastWord] using h
  | cons o rest ih =>
    intro s G0 n0 Q h
    cases o with
    | none =>
      have := ih s G0 n0 Q h
      simpa [itemsDocIds, lastWord, addParsedItem] using this
    | some item =>
      obtain ⟨h1, h2⟩ := addPostings_spec ops docLengths totalDocCount termDocCount avgDocLength
        item.word item.postings s G0 n0 Q h
      obtain ⟨i1, i2⟩ := ih _ G0 n0 _ h1
      simp only [List.foldl_cons, addParsedItem]
      refine ⟨?_, ?_⟩
      · have : Q ++ itemsDocIds (some item :: rest)
            = Q ++ item.postings.map (fun p => p.1) ++ itemsDocIds rest := by
          simp [itemsDocIds]
        rw [this]; exact i1
      · rw [i2, h2]
        simp only [lastWord, List.foldl_cons]

theorem startTerm_spec {D : Type} [Zero D] (invertedIndex : InvertedIndex D)
    (hwf : IndexWF invertedIndex) :
    TermInv (startTerm invertedIndex) invertedIndex.absLists invertedIndex.chunkNumber [] ∧
    (startTerm invertedIndex).word = none ∧
    (startTerm invertedIndex).chunkNumber = invertedIndex.chunkNumber + 1 := by
  have key : ∀ s0 : EncoderState D, BlockWF s0.currentBlock →
      s0.currentBlock.chunkCount < MAX_CHUNK_COUNT →
      s0.absLists = invertedIndex.absLists → s0.chunkNumber = invertedIndex.chunkNumber →
      s0.word = none → (∀ b ∈ s0.doneBlocks, BlockWF b) →
      TermInv (openChunk s0) invertedIndex.absLists invertedIndex.chunkNumber [] ∧
      (openChunk s0).word = none ∧
      (openChunk s0).chunkNumber = invertedIndex.chunkNumber + 1 := by
    intro s0 h1 h2 h3 h4 h5 h6
    obtain ⟨e1, e2, e3, e4, _, e6, e7⟩ := openChunk_spec s0 h1 h2
    have h := EncInv.absLists_eq _ e1
    rw [e3, h3] at h
    have hinj := List.append_inj' h rfl
    have hopen : (openChunk s0).openList = [] := by
      have := hinj.2
      simp only [List.cons.injEq, and_true] at this
      exact this.symm
    refine ⟨⟨e1, by rw [e7]; exact h6, ⟨[], ?_, ?_, ?_, by simp⟩, ?_⟩, by rw [e6, h5],
      by rw [e4, h4]⟩
    · rw [← hinj.1]; simp
    · simp [hopen]
    · rw [e4, h4]; simp
    · rw [hopen, e2]; rfl
  have hroom0 : (createIndexBlock : IndexBlock D).chunkCount < MAX_CHUNK_COUNT := by
    simp [createIndexBlock, MAX_CHUNK_COUNT]
  unfold startTerm
  cases hlast : invertedIndex.blocks.getLast? with
  | none =>
    have hnil : invertedIndex.blocks = [] := by simpa using hlast
    simp only
    refine key _ BlockWF_create hroom0 ?_ rfl rfl (by simp)
    simp only [EncoderState.absLists, InvertedIndex.absLists, hnil, List.nil_append,
      allChunks_create]
    simp [allChunks]
  | some currentBlock =>
    have hmem : currentBlock ∈ invertedIndex.blocks := List.mem_of_getLast?_eq_some hlast
    simp only
    by_cases hfull : currentBlock.chunkCount = MAX_CHUNK_COUNT
    · rw [if_pos hfull]
      refine key _ BlockWF_create hroom0 ?_ rfl rfl (fun b hb => hwf b hb)
      simp [EncoderState.absLists, InvertedIndex.absLists, allChunks_append, allChunks_create]
    · rw [if_neg hfull]
      have hsplit : invertedIndex.blocks.dropLast ++ [currentBlock] = invertedIndex.blocks :=
        List.dropLast_append_getLast? _ hlast
      refine key _ (hwf _ hmem) ?_ ?_ rfl rfl
        (fun b hb => hwf b (List.mem_of_mem_dropLast hb))
      · have := (hwf _ hmem).count_le
        simp only; omega
      · simp only [EncoderState.absLists, InvertedIndex.absLists, hsplit]

theorem addParsedItemsToInvertedIndex_spec {D : Type} [Zero D] (ops : DoubleOps D)
    (parsedItems : List (Option ParsedItem)) (invertedIndex : InvertedIndex D)
    (lexicon : Lexicon) (docLengths : Int → Int) (totalDocCount avgDocLength : Int)
    (hwf : IndexWF invertedIndex) :
    match addParsedItemsToInvertedIndex ops parsedItems invertedIndex lexicon docLengths
        totalDocCount avgDocLength with
    | none => lastWord none parsedItems = none
    | some (index1, lexicon1) =>
      IndexWF index1 ∧
      ∃ (T : List (List Int)) (word : List Nat),
        index1.absLists = invertedIndex.absLists ++ T ∧ T ≠ [] ∧
        T.flatten = itemsDocIds parsedItems ∧
        (∀ l ∈ T.dropLast, l.length = MAX_POSTING_COUNT) ∧
        index1.chunkNumber = invertedIndex.chunkNumber + T.length ∧
        lastWord none parsedItems = some word ∧
        lexicon1 = addNodeToLexicon lexicon word (invertedIndex.chunkNumber + 1)
          (invertedIndex.chunkNumber + T.length) := by
  obtain ⟨s1, s2, hstart⟩ := startTerm_spec invertedIndex hwf
  obtain ⟨f1, f2⟩ := addParsedItem_fold_spec ops docLengths totalDocCount
    (computeTermDocCount parsedItems) avgDocLength parsedItems _ _ _ _ s1
  rw [s2] at f2
  unfold addParsedItemsToInvertedIndex
  simp only
  obtain ⟨sf, hsf⟩ : ∃ sf, parsedItems.foldl (addParsedItem ops docLengths totalDocCount
      (computeTermDocCount parsedItems) avgDocLength) (startTerm invertedIndex) = sf := ⟨_, rfl⟩
  rw [hsf] at f1 f2 ⊢
  cases hw : sf.word with
  | none =>
    simp only
    rw [← f2, hw]
  | some word =>
    simp only
    obtain ⟨Tc, c1, c2, c3, c4⟩ := f1.closed
    refine ⟨?_, Tc ++ [sf.openList], word, ?_, by simp, ?_, ?_, ?_, ?_, ?_⟩
    · intro b hb
      rcases List.mem_append.1 hb with hb | hb
      · exact f1.done_wf b hb
      · have : b = sf.currentBlock := by simpa using hb
        rw [this]; exact f1.enc.wf
    · have := f1.enc.absLists_eq
      simp only [EncoderState.absLists] at this
      show List.map IndexChunk.absDocIds (allChunks (sf.doneBlocks ++ [sf.currentBlock])) = _
      rw [this, c1, List.append_assoc]
    · rw [List.flatten_append]; simpa using c2
    · intro l hl
      rw [List.dropLast_concat] at hl
      exact c4 l hl
    · simp only [c3, List.length_append, List.length_singleton]; push_cast; omega
    · rw [← f2, hw]
    · rw [hstart]
      simp only [c3, List.length_append, List.length_singleton]; push_cast
      congr 1; omega

theorem decodeStored_length (prev : Int) (vs : List Int) :
    (decodeStored prev vs).length = vs.length := by
  induction vs generalizing prev with
  | nil => rfl
  | cons a rest ih => simp [decodeStored, ih]

/-- Postings added to a chunk that has room for all of them stay in that chunk. -/
theorem addPostings_within {D : Type} [Zero D] (ops : DoubleOps D) (docLengths : Int → Int)
    (totalDocCount termDocCount avgDocLength : Int) (word : List Nat)
    (postings : List (Int × Int)) :
    ∀ (s : EncoderState D), EncInv s → s.postingCount + postings.length ≤ MAX_POSTING_COUNT →
      EncInv (postings.foldl
        (addPosting ops docLengths totalDocCount termDocCount avgDocLength word) s) ∧
      (postings.foldl (addPosting ops docLengths totalDocCount termDocCount avgDocLength word)
        s).openList = s.openList ++ postings.map (fun p => p.1) ∧
      (postings.foldl (addPosting ops docLengths totalDocCount termDocCount avgDocLength word)
        s).postingCount = s.postingCount + postings.length := by
  induction postings with
  | nil => intro s h _; simpa using h
  | cons p rest ih =>
    intro s h hroom
    have hlt : s.postingCount < MAX_POSTING_COUNT := by simp at hroom; omega
    have hne : s.postingCount ≠ MAX_POSTING_COUNT := by omega
    have hadd : addPosting ops docLengths totalDocCount termDocCount avgDocLength word s p
        = storePosting { s with word := some word } p.1
          (ops.calculateBM25ImpactScore totalDocCount termDocCount p.2
            (docLengths (p.1 - 1)) avgDocLength) := by
      simp only [addPosting, hne, if_false]
    obtain ⟨p1, p2, _, p4, _⟩ := storePosting_spec { s with word := some word } p.1
      (ops.calculateBM25ImpactScore totalDocCount termDocCount p.2
        (docLengths (p.1 - 1)) avgDocLength) (EncInv_word s _ h) hlt
    rw [← hadd] at p1 p2 p4
    obtain ⟨i1, i2, i3⟩ := ih _ p1 (by rw [p2]; simp at hroom ⊢; omega)
    simp only [List.foldl_cons, List.map_cons, List.length_cons]
    refine ⟨i1, ?_, ?_⟩
    · rw [i2, p4]
      have : ({ s with word := some word } : EncoderState D).openList = s.openList := rfl
      rw [this]; simp
    · rw [i3, p2]; simp; omega

theorem decompressImpactScores_exact {D : Type} [Zero D] (ops : DoubleOps D) (n : Nat)
    (bytes : List Nat) (scores : List D) (hb : n ≤ bytes.length) (hs : n ≤ scores.length) :
    ∃ out, decompressImpactScores ops n bytes 0 scores = some out ∧
      out.length = scores.length := by
  obtain ⟨out, e1, e2, _⟩ := decompressImpactScores_total ops n bytes 0 scores hb (by omega)
  exact ⟨out, e1, e2⟩

theorem decompressPostings_encoded {D : Type} [Zero D] (ops : DoubleOps D)
    (invertedIndex : InvertedIndex D) (hwf : IndexWF invertedIndex) (word : List Nat)
    (postings : List (Int × Int)) (h1 : 1 ≤ postings.length)
    (h128 : postings.length ≤ MAX_POSTING_COUNT)
    (hinc : IncreasingFrom (-1) (postings.map (fun p => p.1)))
    (docLengths : Int → Int) (totalDocCount termDocCount avgDocLength : Int)
    (invertedList : InvertedList D)
    (hbytes : invertedList.postings = writeChunk ops
      ((postings.foldl (addPosting ops docLengths totalDocCount termDocCount avgDocLength word)
          (startTerm invertedIndex)).currentBlock.indexChunks.getD
        (postings.foldl (addPosting ops docLengths totalDocCount termDocCount avgDocLength word)
          (startTerm invertedIndex)).chunkIndex emptyIndexChunk))
    (hlast : invertedList.lastDocIds.getD invertedList.currentChunkIndex 0 =
      (postings.foldl (addPosting ops docLengths totalDocCount termDocCount avgDocLength word)
          (startTerm invertedIndex)).currentBlock.lastDocIds.getD
        (postings.foldl (addPosting ops docLengths totalDocCount termDocCount avgDocLength word)
          (startTerm invertedIndex)).chunkIndex 0)
    (hdl : invertedList.docIds.length = MAX_POSTING_COUNT)
    (hsl : invertedList.impactScores.length = MAX_POSTING_COUNT) :
    ∃ decoded, decompressPostings ops invertedList = some decoded ∧
      decoded.postingCount = postings.length ∧
      decoded.docIds.take postings.length = postings.map (fun p => p.1) ∧
      decoded.docIds.getD (decoded.postingCount - 1) 0
        = invertedList.lastDocIds.getD invertedList.currentChunkIndex 0 := by
  obtain ⟨t1, _, _⟩ := startTerm_spec invertedIndex hwf
  have hpc0 : (startTerm invertedIndex).postingCount = 0 := by
    have := t1.open_length
    obtain ⟨Tc, _, c2, _⟩ := t1.closed
    have h := (List.append_eq_nil.1 c2).2
    rw [h] at this; simpa using this.symm
  have hopen0 : (startTerm invertedIndex).openList = [] := by
    obtain ⟨Tc, _, c2, _⟩ := t1.closed
    exact (List.append_eq_nil.1 c2).2
  obtain ⟨e1, e2, e3⟩ := addPostings_within ops docLengths totalDocCount termDocCount
    avgDocLength word postings (startTerm invertedIndex) t1.enc (by rw [hpc0]; omega)
  obtain ⟨sf, hsf⟩ : ∃ sf, postings.foldl (addPosting ops docLengths totalDocCount termDocCount
      avgDocLength word) (startTerm invertedIndex) = sf := ⟨_, rfl⟩
  rw [hsf] at e1 e2 e3 hbytes hlast
  rw [hopen0, List.nil_append] at e2
  rw [hpc0, Nat.zero_add] at e3
  obtain ⟨chunk, hchunk⟩ : ∃ c, sf.currentBlock.indexChunks.getD sf.chunkIndex emptyIndexChunk = c :=
    ⟨_, rfl⟩
  rw [hchunk] at hbytes
  have hlen : sf.chunkIndex < sf.currentBlock.indexChunks.length := by
    rw [e1.wf.chunks_length]; have := e1.wf.count_le; have := e1.open_last; omega
  have hmem : chunk ∈ sf.currentBlock.indexChunks := by
    rw [← hchunk, List.getD_eq_getElem _ _ hlen]; exact List.getElem_mem _
  have hpc : chunk.postingCount = postings.length := by
    rw [← hchunk, e1.posting_eq, e3]
  have habs : decodeStored (-1) (chunk.docIds.take postings.length)
      = postings.map (fun p => p.1) := by
    have := e2
    simp only [EncoderState.openList, hchunk, IndexChunk.absDocIds, hpc] at this
    exact this
  have hstored : chunk.docIds.take postings.length
      = storedDocIds (-1) (postings.map (fun p => p.1)) := by
    rw [← habs, storedDocIds_decodeStored]
  have hlastv : invertedList.lastDocIds.getD invertedList.currentChunkIndex 0
      = (postings.map (fun p => p.1)).getLastD (-1) := by
    rw [hlast, e1.last_eq (by rw [e3]; omega), e1.prev_eq, hchunk]
    simp only [IndexChunk.absDocIds, hpc, habs]
  have hne : postings.map (fun p => p.1) ≠ [] := by
    intro h; rw [List.map_eq_nil_iff] at h; rw [h] at h1; simp at h1
  have hil : (chunk.impactScores.take chunk.postingCount).length = postings.length := by
    rw [List.length_take, e1.wf.scores_length _ hmem, hpc]; exact min_eq_left h128
  obtain ⟨out, d1, d2, _, d4⟩ := decompressDocIds_stored (postings.map (fun p => p.1))
    (invertedList.postings.length + 1) (-1) 0 invertedList.docIds
    ((chunk.impactScores.take chunk.postingCount).map (fun x => ops.logCompressDouble x % 256))
    hne hinc le_rfl
    (by simp only [hbytes, writeChunk, List.length_append, List.length_map, hil]; omega)
    (by rw [hdl, List.length_map]; omega)
  obtain ⟨scores, s1, s2⟩ := decompressImpactScores_exact ops postings.length
    ((chunk.impactScores.take chunk.postingCount).map (fun x => ops.logCompressDouble x % 256))
    invertedList.impactScores (by rw [List.length_map, hil]) (by rw [hsl]; exact h128)
  have hrun : decompressPostings ops invertedList = some
      { invertedList with docIds := out, postingCount := postings.length, impactScores := scores } := by
    unfold decompressPostings
    simp only [hlastv]
    have hb2 : invertedList.postings
        = (storedDocIds (-1) (postings.map (fun p => p.1))).flatMap
            (fun v => varByteCompressInt (toUInt32 v))
          ++ (chunk.impactScores.take chunk.postingCount).map
            (fun x => ops.logCompressDouble x % 256) := by
      rw [hbytes, writeChunk, hpc, hstored]
    rw [← hb2] at d1
    simp only [List.length_map, Nat.zero_add] at d1
    rw [d1]
    simp only
    rw [s1]
  refine ⟨_, hrun, rfl, ?_, ?_⟩
  · simpa using d4
  · simp only
    rw [hlastv]
    have hd4 : out.take postings.length = postings.map (fun p => p.1) := by simpa using d4
    have hol : postings.length ≤ out.length := by rw [d2, hdl]; exact h128
    have : out.getD (postings.length - 1) 0
        = (out.take postings.length).getD (postings.length - 1) 0 := by
      simp only [List.getD_eq_getElem?_getD, List.getElem?_take]
      rw [if_pos (by omega)]
    rw [this, hd4]
    have hlen2 : (postings.map (fun p => p.1)).length = postings.length := by simp
    rw [← hlen2]
    cases hm : postings.map (fun p => p.1) with
    | nil => exact absurd hm hne
    | cons a l =>
      simp only [List.length_cons, Nat.add_sub_cancel, List.getLastD_cons]
      rw [List.getD_eq_getElem?_getD, List.getLastD_eq_getLast?, List.getLast?_eq_getElem?]
      simp
      cases l with
      | nil => simp
      | cons b l2 => simp [List.getLast?_eq_getElem?]

/-! ### Decoding an encoded chunk -/

theorem IncreasingFrom_of_pairwise (ds : List Int) :
    ∀ prev : Int, ds.Pairwise (fun a b => a < b) → (∀ d ∈ ds, 0 ≤ d ∧ d < 2 ^ 31) →
      (∀ d ∈ ds, prev < d) → IncreasingFrom prev ds := by
  induction ds with
  | nil => intro _ _ _ _; trivial
  | cons a rest ih =>
    intro prev hp hr hprev
    rw [List.pairwise_cons] at hp
    refine ⟨hprev a (List.mem_cons_self _ _), (hr a (List.mem_cons_self _ _)).1,
      (hr a (List.mem_cons_self _ _)).2, ?_⟩
    exact ih a hp.2 (fun d hd => hr d (List.mem_cons_of_mem _ hd)) hp.1

/-- C7: for every strictly increasing sequence of 1 to 128 non-negative docIDs
that the encoder stores in one chunk (`addPosting` for each posting, from the
state in which `addParsedItemsToInvertedIndex` starts a term on a well-formed
index), and for an iterator whose chunk buffer holds the bytes
`writeInvertedIndexToDisk` writes for that chunk and whose `lastDocIds` entry is
the one the encoder recorded, `decompressPostings` reconstructs exactly that
docID sequence in `docIds[0..n)` and sets `postingCount` to `n`, so that
`docIds[postingCount-1]` equals `lastDocId`. -/
theorem decompressPostings_roundtrip {D : Type} [Zero D] (ops : DoubleOps D)
    (invertedIndex : InvertedIndex D) (hwf : IndexWF invertedIndex) (word : List Nat)
    (postings : List (Int × Int)) (h1 : 1 ≤ postings.length)
    (h128 : postings.length ≤ MAX_POSTING_COUNT)
    (hinc : (postings.map (fun p => p.1)).Pairwise (fun a b => a < b))
    (hrange : ∀ d ∈ postings.map (fun p => p.1), 0 ≤ d ∧ d < 2 ^ 31)
    (docLengths : Int → Int) (totalDocCount termDocCount avgDocLength : Int)
    (invertedList : InvertedList D)
    (hbytes : invertedList.postings = writeChunk ops
      ((postings.foldl (addPosting ops docLengths totalDocCount termDocCount avgDocLength word)
          (startTerm invertedIndex)).currentBlock.indexChunks.getD
        (postings.foldl (addPosting ops docLengths totalDocCount termDocCount avgDocLength word)
          (startTerm invertedIndex)).chunkIndex emptyIndexChunk))
    (hlast : invertedList.lastDocIds.getD invertedList.currentChunkIndex 0 =
      (postings.foldl (addPosting ops docLengths totalDocCount termDocCount avgDocLength word)
          (startTerm invertedIndex)).currentBlock.lastDocIds.getD
        (postings.foldl (addPosting ops docLengths totalDocCount termDocCount avgDocLength word)
          (startTerm invertedIndex)).chunkIndex 0)
    (hdl : invertedList.docIds.length = MAX_POSTING_COUNT)
    (hsl : invertedList.impactScores.length = MAX_POSTING_COUNT) :
    ∃ decoded, decompressPostings ops invertedList = some decoded ∧
      decoded.postingCount = postings.length ∧
      decoded.docIds.take postings.length = postings.map (fun p => p.1) ∧
      decoded.docIds.getD (decoded.postingCount - 1) 0
        = invertedList.lastDocIds.getD invertedList.currentChunkIndex 0 :=
  decompressPostings_encoded ops invertedIndex hwf word postings h1 h128
    (IncreasingFrom_of_pairwise _ _ hinc hrange (fun d hd => by have := (hrange d hd).1; omega))
    docLengths totalDocCount termDocCount avgDocLength invertedList hbytes hlast hdl hsl

theorem IndexWF_create {D : Type} [Zero D] : IndexWF (createInvertedIndex : InvertedIndex D) := by
  intro b hb
  simp [createInvertedIndex] at hb

set_option maxRecDepth 100000 in
theorem decompressPostings_roundtrip_witness :
    ∃ decoded, decompressPostings intOps sampleList = some decoded ∧
      decoded.postingCount = samplePostings.length ∧
      decoded.docIds.take samplePostings.length = samplePostings.map (fun p => p.1) ∧
      decoded.docIds.getD (decoded.postingCount - 1) 0
        = sampleList.lastDocIds.getD sampleList.currentChunkIndex 0 :=
  decompressPostings_roundtrip intOps createInvertedIndex IndexWF_create [97] samplePostings
    (by decide) (by decide) (by decide) (by decide) (fun _ => 10) 100 4 10 sampleList
    (by decide) (by decide) (by decide) (by decide)

set_option maxRecDepth 100000 in
/-- C8 (evaluation at the failing input): on a chunk whose impact bytes are
5, 0, 7, 2 `decompressPostings` decodes the four docIDs, but after the zero
byte it reads the same byte again for every later posting, because
`logDecompressToDouble` returns before it advances the cursor: postings 2 and 3
get the score `0.0`, which is not the log-decompression of their bytes 7 and 2. -/

theorem decompressPostings_zero_impact_repeats :
    (decompressPostings symOps zeroImpactList).map
        (fun l => (l.postingCount, l.docIds.take 4, l.impactScores.take 4))
      = some (4, [1, 3, 6, 130],
          [logDecompressByte symOps 5, logDecompressByte symOps 0,
            logDecompressByte symOps 0, logDecompressByte symOps 0]) ∧
    logDecompressByte symOps 7 ≠ logDecompressByte symOps 0 ∧
    logDecompressByte symOps 2 ≠ logDecompressByte symOps 0 := by
  decide

/-! ### The list iterator -/

theorem intsOfBytes_length : ∀ (n : Nat) (bytes : List Nat), bytes.length = 4 * n →
    (intsOfBytes bytes).length = n := by
  intro n
  induction n with
  | zero => intro bytes h; simp at h; subst h; rfl
  | succ n ih =>
    intro bytes h
    match bytes, h with
    | b0 :: b1 :: b2 :: b3 :: rest, h =>
      simp only [intsOfBytes, List.length_cons]
      rw [ih rest (by simp at h; omega)]

theorem freadInts_full (fp : FILE) (old : List Int)
    (hold : old.length = MAX_CHUNK_COUNT)
    (hlen : ((fp.content.drop fp.pos).take (4 * MAX_CHUNK_COUNT)).length = 4 * MAX_CHUNK_COUNT) :
    freadInts fp MAX_CHUNK_COUNT old
      = (intsOfBytes ((fp.content.drop fp.pos).take (4 * MAX_CHUNK_COUNT)),
          { fp with pos := fp.pos + 4 * MAX_CHUNK_COUNT }) := by
  have h1 := intsOfBytes_length MAX_CHUNK_COUNT _ hlen
  simp only [freadInts, freadBytes, h1, hlen]
  rw [List.drop_of_length_le (le_of_eq hold)]
  simp

theorem freadBytes_exact (fp : FILE) (n : Nat) (bytes : List Nat)
    (h : (fp.content.drop fp.pos).take n = bytes) (hn : bytes.length = n) :
    freadBytes fp n = (bytes, { fp with pos := fp.pos + n }) := by
  simp only [freadBytes, h, hn]

theorem updateInvertedListByChunk_represents {D : Type} [Zero D] (invertedList : InvertedList D)
    (chunk next : List (Int × Nat)) (chunks : List (List (Int × Nat)))
    (h : Represents invertedList (chunk :: next :: chunks)) :
    Represents (updateInvertedListByChunk invertedList) (next :: chunks) ∧
    (updateInvertedListByChunk invertedList).currentPostingIndex
      = invertedList.currentPostingIndex := by
  obtain ⟨h1, h2, h3, h4, h5, h6, h7, h8, h9⟩ := h
  by_cases hk : invertedList.currentChunkIndex + 1 < MAX_CHUNK_COUNT
  · have hne : invertedList.currentChunkIndex ≠ MAX_CHUNK_COUNT - 1 := by
      simp only [MAX_CHUNK_COUNT] at hk ⊢; omega
    simp only [laidOut, if_pos hk, Bool.and_eq_true, decide_eq_true_eq] at h9
    obtain ⟨⟨⟨l1, l2⟩, l3⟩, l4⟩ := h9
    have hread := freadBytes_exact invertedList.listPointer (chunkBytes next).length
      (chunkBytes next) l3 rfl
    have hsz : (invertedList.chunkSizes.getD (invertedList.currentChunkIndex + 1) 0).toNat
        = (chunkBytes next).length := by rw [l1]; simp
    simp only [updateInvertedListByChunk, if_neg hne, hsz, hread]
    refine ⟨⟨hk, ?_, rfl, l2, h5, h6, by simp, by simp, l4⟩, trivial⟩
    simp only [h2, List.length_cons]; push_cast; omega
  · have hke : invertedList.currentChunkIndex = MAX_CHUNK_COUNT - 1 := by
      simp only [MAX_CHUNK_COUNT] at hk h1 ⊢; omega
    simp only [laidOut, if_neg hk, Bool.and_eq_true, decide_eq_true_eq] at h9
    obtain ⟨⟨⟨⟨⟨l1, l2⟩, l3⟩, l4⟩, l5⟩, l6⟩ := h9
    have hr1 := freadInts_full invertedList.listPointer invertedList.chunkSizes h5 l1
    have hr2 := freadInts_full { invertedList.listPointer with
      pos := invertedList.listPointer.pos + 4 * MAX_CHUNK_COUNT } invertedList.lastDocIds h6 l2
    have hpos : invertedList.listPointer.pos + 4 * MAX_CHUNK_COUNT + 4 * MAX_CHUNK_COUNT
        = invertedList.listPointer.pos + 8 * MAX_CHUNK_COUNT := by omega
    have hread := freadBytes_exact { invertedList.listPointer with
      pos := invertedList.listPointer.pos + 8 * MAX_CHUNK_COUNT } (chunkBytes next).length
      (chunkBytes next) l5 rfl
    have hsz : ((intsOfBytes ((invertedList.listPointer.content.drop
        invertedList.listPointer.pos).take (4 * MAX_CHUNK_COUNT))).getD 0 0).toNat
        = (chunkBytes next).length := by rw [l3]; simp
    simp only [updateInvertedListByChunk, if_pos hke, hr1, hr2, hpos, hsz, hread]
    refine ⟨⟨by simp [MAX_CHUNK_COUNT], ?_, rfl, l4, ?_, ?_, by simp, by simp, l6⟩, trivial⟩
    · simp only [h2, List.length_cons]; push_cast; omega
    · exact intsOfBytes_length _ _ l1
    · exact intsOfBytes_length _ _ l2

theorem sumChunkSizes_self (chunkSizes : List Int) (a : Nat) : sumChunkSizes chunkSizes a a = 0 := by
  simp [sumChunkSizes]

theorem sumChunkSizes_succ (chunkSizes : List Int) (a b : Nat) (h : a < b) :
    sumChunkSizes chunkSizes a b = chunkSizes.getD a 0 + sumChunkSizes chunkSizes (a + 1) b := by
  obtain ⟨n, hn⟩ : ∃ n, b - a = n + 1 := ⟨b - a - 1, by omega⟩
  have hn2 : b - (a + 1) = n := by omega
  simp only [sumChunkSizes, hn, hn2, List.range_succ_eq_map, List.map_cons, List.sum_cons,
    List.map_map, Nat.add_zero]
  congr 2
  apply List.map_congr_left
  intro i _
  simp only [Function.comp]
  congr 1
  omega

theorem laidOut_drop (content : List Nat) (chunkSizes lastDocIds : List Int) :
    ∀ (j : Nat) (chunks : List (List (Int × Nat))) (k pos : Nat),
      laidOut content chunkSizes lastDocIds k pos chunks = true → j ≤ chunks.length →
      k + j < MAX_CHUNK_COUNT →
      laidOut content chunkSizes lastDocIds (k + j) (pos + chunksByteLength (chunks.take j))
        (chunks.drop j) = true ∧
      sumChunkSizes chunkSizes (k + 1) (k + 1 + j) = (chunksByteLength (chunks.take j) : Int) ∧
      (∀ i, i < j → lastDocIds.getD (k + 1 + i) 0
        = chunkLastDocId (chunks.getD i [])) := by
  intro j
  induction j with
  | zero =>
    intro chunks k pos h _ _
    simp [chunksByteLength, sumChunkSizes_self, h]
  | succ j ih =>
    intro chunks k pos h hj hk
    cases chunks with
    | nil => simp at hj
    | cons c cs =>
      have hk1 : k + 1 < MAX_CHUNK_COUNT := by omega
      simp only [laidOut, if_pos hk1, Bool.and_eq_true, decide_eq_true_eq] at h
      obtain ⟨⟨⟨l1, l2⟩, l3⟩, l4⟩ := h
      obtain ⟨i1, i2, i3⟩ := ih cs (k + 1) (pos + (chunkBytes c).length) l4
        (by simp at hj; omega) (by omega)
      refine ⟨?_, ?_, ?_⟩
      · have e1 : k + (j + 1) = k + 1 + j := by omega
        have e2 : pos + chunksByteLength ((c :: cs).take (j + 1))
            = pos + (chunkBytes c).length + chunksByteLength (cs.take j) := by
          simp [chunksByteLength]; omega
        rw [e1, e2]
        simpa using i1
      · rw [sumChunkSizes_succ _ _ _ (by omega), l1]
        have e1 : k + 1 + (j + 1) = k + 1 + 1 + j := by omega
        rw [e1, i2]
        simp [chunksByteLength]
      · intro i hi
        cases i with
        | zero => simpa using l2
        | succ i =>
          have := i3 i (by omega)
          have e1 : k + 1 + (i + 1) = k + 1 + 1 + i := by omega
          rw [e1, this]
          simp

theorem updateInvertedListByBlock_represents {D : Type} [Zero D]
    (invertedList : InvertedList D) (chunk : List (Int × Nat))
    (chunks : List (List (Int × Nat))) (h : Represents invertedList (chunk :: chunks))
    (hmore : invertedList.remainingChunkCount
      - ((MAX_CHUNK_COUNT : Int) - ((invertedList.currentChunkIndex : Int) + 1)) > 0) :
    MAX_CHUNK_COUNT - 1 - invertedList.currentChunkIndex < chunks.length ∧
    Represents (updateInvertedListByBlock invertedList)
      (chunks.drop (MAX_CHUNK_COUNT - 1 - invertedList.currentChunkIndex)) ∧
    (updateInvertedListByBlock invertedList).currentPostingIndex
      = invertedList.currentPostingIndex ∧
    invertedList.lastDocIds.getD (MAX_CHUNK_COUNT - 1) 0
      = chunkLastDocId ((chunk :: chunks).getD
          (MAX_CHUNK_COUNT - 1 - invertedList.currentChunkIndex) []) := by
  obtain ⟨h1, h2, h3, h4, h5, h6, h7, h8, h9⟩ := h
  obtain ⟨j, hj⟩ : ∃ j, j = MAX_CHUNK_COUNT - 1 - invertedList.currentChunkIndex := ⟨_, rfl⟩
  have hjlt : j < chunks.length := by
    rw [h2] at hmore
    simp only [MAX_CHUNK_COUNT] at hmore hj h1 ⊢
    omega
  have hkj : invertedList.currentChunkIndex + j = MAX_CHUNK_COUNT - 1 := by
    simp only [MAX_CHUNK_COUNT] at hj h1 ⊢; omega
  obtain ⟨d1, d2, d3⟩ := laidOut_drop _ _ _ j chunks _ _ h9 (by omega)
    (by rw [hkj]; simp [MAX_CHUNK_COUNT])
  rw [← hj]
  have hlast : invertedList.lastDocIds.getD (MAX_CHUNK_COUNT - 1) 0
      = chunkLastDocId ((chunk :: chunks).getD j []) := by
    cases j with
    | zero =>
      have : invertedList.currentChunkIndex = MAX_CHUNK_COUNT - 1 := by omega
      rw [← this, h4]; simp
    | succ i =>
      have := d3 i (by omega)
      have e : invertedList.currentChunkIndex + 1 + i = MAX_CHUNK_COUNT - 1 := by omega
      rw [e] at this
      rw [this]; simp
  refine ⟨hjlt, ?_, ?_, hlast⟩
  · -- the chunk in slot 0 of the next block
    obtain ⟨next, rest, hdrop⟩ : ∃ next rest, chunks.drop j = next :: rest := by
      cases hd : chunks.drop j with
      | nil =>
        have := congrArg List.length hd
        simp at this; omega
      | cons a l => exact ⟨a, l, rfl⟩
    rw [hdrop] at d1 ⊢
    have hnk : ¬ (invertedList.currentChunkIndex + j + 1 < MAX_CHUNK_COUNT) := by
      rw [hkj]; simp [MAX_CHUNK_COUNT]
    simp only [laidOut, if_neg hnk, Bool.and_eq_true, decide_eq_true_eq] at d1
    obtain ⟨⟨⟨⟨⟨l1, l2⟩, l3⟩, l4⟩, l5⟩, l6⟩ := d1
    have hsum : sumChunkSizes invertedList.chunkSizes (invertedList.currentChunkIndex + 1)
        MAX_CHUNK_COUNT = (chunksByteLength (chunks.take j) : Int) := by
      have e : invertedList.currentChunkIndex + 1 + j = MAX_CHUNK_COUNT := by
        simp only [MAX_CHUNK_COUNT] at hkj ⊢; omega
      rw [← e]; exact d2
    have hseek : fseekCur invertedList.listPointer (chunksByteLength (chunks.take j) : Int)
        = { invertedList.listPointer with
            pos := invertedList.listPointer.pos + chunksByteLength (chunks.take j) } := by
      simp only [fseekCur]
      rw [if_pos (by omega)]
      congr 1
    obtain ⟨fp, hfp⟩ : ∃ fp : FILE, fp = { invertedList.listPointer with
        pos := invertedList.listPointer.pos + chunksByteLength (chunks.take j) } := ⟨_, rfl⟩
    have hr1 := freadInts_full fp invertedList.chunkSizes h5 (by rw [hfp]; exact l1)
    have hr2 := freadInts_full { fp with pos := fp.pos + 4 * MAX_CHUNK_COUNT }
      invertedList.lastDocIds h6 (by rw [hfp]; exact l2)
    have hpos : fp.pos + 4 * MAX_CHUNK_COUNT + 4 * MAX_CHUNK_COUNT
        = fp.pos + 8 * MAX_CHUNK_COUNT := by omega
    have hread := freadBytes_exact { fp with pos := fp.pos + 8 * MAX_CHUNK_COUNT }
      (chunkBytes next).length (chunkBytes next) (by rw [hfp]; exact l5) rfl
    have hsz : ((intsOfBytes ((fp.content.drop fp.pos).take (4 * MAX_CHUNK_COUNT))).getD 0 0).toNat
        = (chunkBytes next).length := by rw [hfp]; simp only; rw [l3]; simp
    simp only [updateInvertedListByBlock, hsum, hseek, ← hfp, hr1, hr2, hpos, hsz, hread]
    refine ⟨by simp [MAX_CHUNK_COUNT], ?_, rfl, ?_, ?_, ?_, by simp, by simp, ?_⟩
    · have hlen := congrArg List.length hdrop
      simp only [List.length_drop, List.length_cons] at hlen
      simp only [h2]
      simp only [MAX_CHUNK_COUNT] at hj h1 ⊢
      omega
    · rw [hfp]; exact l4
    · rw [hfp]; exact intsOfBytes_length _ _ l1
    · rw [hfp]; exact intsOfBytes_length _ _ l2
    · rw [hfp]; exact l6
  · simp [updateInvertedListByBlock]

theorem docIdsOf_append (a b : List (List (Int × Nat))) :
    docIdsOf (a ++ b) = docIdsOf a ++ docIdsOf b := by
  simp [docIdsOf]

theorem docIdsOf_cons (c : List (Int × Nat)) (cs : List (List (Int × Nat))) :
    docIdsOf (c :: cs) = c.map (fun p => p.1) ++ docIdsOf cs := by
  simp [docIdsOf]

theorem ChunksOK.suffix (a b : List (List (Int × Nat))) (h : ChunksOK (a ++ b)) : ChunksOK b :=
  ⟨fun c hc => h.nonempty c (List.mem_append_right _ hc),
   fun c hc => h.small c (List.mem_append_right _ hc),
   by have := h.sorted; rw [docIdsOf_append] at this; exact (List.pairwise_append.1 this).2.1,
   fun d hd => h.range d (by rw [docIdsOf_append]; exact List.mem_append_right _ hd)⟩

theorem ChunksOK.prefix (a b : List (List (Int × Nat))) (h : ChunksOK (a ++ b)) : ChunksOK a :=
  ⟨fun c hc => h.nonempty c (List.mem_append_left _ hc),
   fun c hc => h.small c (List.mem_append_left _ hc),
   by have := h.sorted; rw [docIdsOf_append] at this; exact (List.pairwise_append.1 this).1,
   fun d hd => h.range d (by rw [docIdsOf_append]; exact List.mem_append_left _ hd)⟩

theorem SkipsTo.refl (chunks : List (List (Int × Nat))) (t : Int) : SkipsTo chunks chunks t :=
  ⟨[], rfl, by simp [docIdsOf]⟩

theorem SkipsTo.trans {a b c : List (List (Int × Nat))} {t : Int} (h1 : SkipsTo a b t)
    (h2 : SkipsTo b c t) : SkipsTo a c t := by
  obtain ⟨d1, e1, f1⟩ := h1
  obtain ⟨d2, e2, f2⟩ := h2
  refine ⟨d1 ++ d2, by rw [e1, e2, List.append_assoc], ?_⟩
  intro d hd
  rw [docIdsOf_append] at hd
  rcases List.mem_append.1 hd with h | h
  · exact f1 d h
  · exact f2 d h

theorem chunkLastDocId_eq (L : List (Int × Nat)) (hL : L ≠ []) :
    L.map (fun p => p.1) = (L.dropLast).map (fun p => p.1) ++ [chunkLastDocId L] := by
  have h := List.dropLast_append_getLast hL
  have h2 : chunkLastDocId L = (L.getLast hL).1 := by
    simp only [chunkLastDocId]
    conv_lhs => rw [← h]
    simp
  rw [h2]
  conv_lhs => rw [← h]
  simp

theorem docIds_lt_of_last_lt (pre : List (List (Int × Nat))) (L : List (Int × Nat)) (t : Int)
    (hL : L ≠ []) (hs : (docIdsOf (pre ++ [L])).Pairwise (fun a b => a < b))
    (hlt : chunkLastDocId L < t) : ∀ d ∈ docIdsOf (pre ++ [L]), d < t := by
  have hsplit : docIdsOf (pre ++ [L])
      = (docIdsOf pre ++ (L.dropLast).map (fun p => p.1)) ++ [chunkLastDocId L] := by
    rw [docIdsOf_append, docIdsOf_cons, chunkLastDocId_eq L hL]
    simp [docIdsOf]
  rw [hsplit] at hs ⊢
  have hp := (List.pairwise_append.1 hs).2.2
  intro d hd
  rcases List.mem_append.1 hd with h | h
  · have := hp d h (chunkLastDocId L) (by simp)
    omega
  · have : d = chunkLastDocId L := by simpa using h
    omega

theorem skipBlocks_spec {D : Type} [Zero D] (t : Int) :
    ∀ (fuel : Nat) (invertedList : InvertedList D) (chunks : List (List (Int × Nat))),
      Represents invertedList chunks → ChunksOK chunks →
      invertedList.remainingChunkCount.toNat ≤ fuel →
      ∃ rest, Represents (skipBlocks fuel invertedList t) rest ∧ SkipsTo chunks rest t ∧
        (skipBlocks fuel invertedList t).currentPostingIndex
          = invertedList.currentPostingIndex ∧
        ¬ ((skipBlocks fuel invertedList t).remainingChunkCount
            - ((MAX_CHUNK_COUNT : Int)
              - (((skipBlocks fuel invertedList t).currentChunkIndex : Int) + 1)) > 0
          ∧ (skipBlocks fuel invertedList t).lastDocIds.getD (MAX_CHUNK_COUNT - 1) 0 < t) := by
  intro fuel
  induction fuel with
  | zero =>
    intro il chunks hrep hok hfuel
    refine ⟨chunks, hrep, SkipsTo.refl _ _, rfl, ?_⟩
    simp only [skipBlocks]
    cases chunks with
    | nil => exact absurd hrep (by simp [Represents])
    | cons c cs =>
      obtain ⟨h1, h2, _⟩ := hrep
      intro hg
      have := hg.1
      simp only [MAX_CHUNK_COUNT] at this h1
      omega
  | succ fuel ih =>
    intro il chunks hrep hok hfuel
    by_cases hg : il.remainingChunkCount
          - ((MAX_CHUNK_COUNT : Int) - ((il.currentChunkIndex : Int) + 1)) > 0
        ∧ il.lastDocIds.getD (MAX_CHUNK_COUNT - 1) 0 < t
    · cases chunks with
      | nil => exact absurd hrep (by simp [Represents])
      | cons c cs =>
        obtain ⟨b1, b2, b3, b4⟩ := updateInvertedListByBlock_represents il c cs hrep hg.1
        obtain ⟨j, hj⟩ : ∃ j, j = MAX_CHUNK_COUNT - 1 - il.currentChunkIndex := ⟨_, rfl⟩
        rw [← hj] at b1 b2 b4
        have hsplit : c :: cs = (c :: cs).take (j + 1) ++ cs.drop j := by
          rw [List.take_succ_cons]
          simp
        have hok2 : ChunksOK (cs.drop j) := by
          rw [hsplit] at hok; exact hok.suffix _ _
        have hrem : (updateInvertedListByBlock il).remainingChunkCount.toNat ≤ fuel := by
          have hr := hrep.2.1
          have h1 := hrep.1
          simp only [updateInvertedListByBlock]
          simp only [MAX_CHUNK_COUNT] at h1 ⊢
          omega
        obtain ⟨rest, r1, r2, r3, r4⟩ := ih (updateInvertedListByBlock il) (cs.drop j) b2 hok2 hrem
        have hstep : skipBlocks (fuel + 1) il t = skipBlocks fuel (updateInvertedListByBlock il) t := by
          simp only [skipBlocks, if_pos hg]
        rw [hstep]
        refine ⟨rest, r1, SkipsTo.trans ⟨(c :: cs).take (j + 1), hsplit, ?_⟩ r2, by rw [r3, b3], r4⟩
        have htake : (c :: cs).take (j + 1) = (c :: cs).take j ++ [(c :: cs).getD j []] :=
          take_succ_getD _ _ _ (by simp; omega)
        rw [htake]
        have hmem : (c :: cs).getD j [] ∈ c :: cs := by
          rw [List.getD_eq_getElem _ _ (by simp; omega)]
          exact List.getElem_mem _
        apply docIds_lt_of_last_lt _ _ _ (hok.nonempty _ hmem)
        · have := hok.sorted
          rw [hsplit, htake, docIdsOf_append] at this
          exact (List.pairwise_append.1 this).1
        · rw [← b4]; exact hg.2
    · have hstep : skipBlocks (fuel + 1) il t = il := by
        simp only [skipBlocks, if_neg hg]
      rw [hstep]
      exact ⟨chunks, hrep, SkipsTo.refl _ _, rfl, hg⟩

theorem skipChunks_spec {D : Type} [Zero D] (t : Int) :
    ∀ (fuel : Nat) (invertedList : InvertedList D) (chunks : List (List (Int × Nat))),
      Represents invertedList chunks → ChunksOK chunks →
      invertedList.remainingChunkCount.toNat ≤ fuel →
      ∃ rest, Represents (skipChunks fuel invertedList t) rest ∧ SkipsTo chunks rest t ∧
        (skipChunks fuel invertedList t).currentPostingIndex
          = invertedList.currentPostingIndex ∧
        ¬ ((skipChunks fuel invertedList t).remainingChunkCount > 0
          ∧ (skipChunks fuel invertedList t).lastDocIds.getD
              (skipChunks fuel invertedList t).currentChunkIndex 0 < t) := by
  intro fuel
  induction fuel with
  | zero =>
    intro il chunks hrep hok hfuel
    refine ⟨chunks, hrep, SkipsTo.refl _ _, rfl, ?_⟩
    simp only [skipChunks]
    intro hg
    have := hg.1
    omega
  | succ fuel ih =>
    intro il chunks hrep hok hfuel
    by_cases hg : il.remainingChunkCount > 0
        ∧ il.lastDocIds.getD il.currentChunkIndex 0 < t
    · cases chunks with
      | nil => exact absurd hrep (by simp [Represents])
      | cons c cs =>
        cases cs with
        | nil =>
          have := hrep.2.1
          have := hg.1
          simp at *
          omega
        | cons c2 cs2 =>
          obtain ⟨u1, u2⟩ := updateInvertedListByChunk_represents il c c2 cs2 hrep
          have hok2 : ChunksOK (c2 :: cs2) := by
            have : c :: c2 :: cs2 = [c] ++ (c2 :: cs2) := rfl
            rw [this] at hok; exact hok.suffix _ _
          have hrem : (updateInvertedListByChunk il).remainingChunkCount.toNat ≤ fuel := by
            have := u1.2.1
            have := hrep.2.1
            simp only [List.length_cons] at *
            omega
          obtain ⟨rest, r1, r2, r3, r4⟩ := ih (updateInvertedListByChunk il) (c2 :: cs2) u1 hok2 hrem
          have hstep : skipChunks (fuel + 1) il t
              = skipChunks fuel (updateInvertedListByChunk il) t := by
            simp only [skipChunks, if_pos hg]
          rw [hstep]
          refine ⟨rest, r1, SkipsTo.trans ⟨[c], rfl, ?_⟩ r2, by rw [r3, u2], r4⟩
          have hc : chunkLastDocId c < t := by rw [← hrep.2.2.2.1]; exact hg.2
          have := docIds_lt_of_last_lt [] c t (hok.nonempty c (List.mem_cons_self _ _))
            (by
              have h := hok.sorted
              rw [docIdsOf_cons] at h
              simpa [docIdsOf] using (List.pairwise_append.1 h).1)
            hc
          simpa using this
    · have hstep : skipChunks (fuel + 1) il t = il := by
        simp only [skipChunks, if_neg hg]
      rw [hstep]
      exact ⟨chunks, hrep, SkipsTo.refl _ _, rfl, hg⟩

theorem impactsOf_length {D : Type} [Zero D] (ops : DoubleOps D) :
    ∀ (n : Nat) (bytes : List Nat), n ≤ bytes.length → (impactsOf ops n bytes).length = n := by
  intro n
  induction n with
  | zero => intro _ _; rfl
  | succ n ih =>
    intro bytes h
    cases bytes with
    | nil => simp at h
    | cons b rest =>
      simp only [impactsOf]
      split
      · simp [ih (b :: rest) (by simp at h ⊢; omega)]
      · simp [ih rest (by simp at h ⊢; omega)]

theorem decompressImpactScores_impactsOf {D : Type} [Zero D] (ops : DoubleOps D) :
    ∀ (n : Nat) (bytes : List Nat) (idx : Nat) (scores : List D),
      n ≤ bytes.length → idx + n ≤ scores.length →
      ∃ out, decompressImpactScores ops n bytes idx scores = some out ∧
        out.length = scores.length ∧ out.take idx = scores.take idx ∧
        (out.drop idx).take n = impactsOf ops n bytes := by
  intro n
  induction n with
  | zero => intro bytes idx scores _ _; exact ⟨scores, rfl, rfl, rfl, by simp [impactsOf]⟩
  | succ n ih =>
    intro bytes idx scores hb hs
    cases bytes with
    | nil => simp at hb
    | cons b rest =>
      have hidx : idx < scores.length := by omega
      have key : ∀ (x : D) (bytes1 : List Nat), n ≤ bytes1.length →
          ∃ out, decompressImpactScores ops n bytes1 (idx + 1) (scores.set idx x) = some out ∧
            out.length = scores.length ∧ out.take idx = scores.take idx ∧
            (out.drop idx).take (n + 1) = x :: impactsOf ops n bytes1 := by
        intro x bytes1 hb1
        obtain ⟨out, e1, e2, e3, e4⟩ := ih bytes1 (idx + 1) (scores.set idx x) hb1
          (by simp; omega)
        have hlen : out.length = scores.length := by simpa using e2
        refine ⟨out, e1, hlen, ?_, ?_⟩
        · have := congrArg (List.take idx) e3
          rw [List.take_take, List.take_take, min_eq_left (by omega)] at this
          rw [this, take_set_self]
        · have hget : out[idx]? = some x := by
            have := congrArg (fun l => l[idx]?) e3
            simp only [List.getElem?_take] at this
            rw [if_pos (by omega), if_pos (by omega)] at this
            rw [this, List.getElem?_set]; simp [hidx]
          have hil : idx < out.length := by omega
          rw [List.drop_eq_getElem_cons hil]
          have hg : out[idx] = x := by
            rw [List.getElem?_eq_getElem hil] at hget
            exact Option.some.inj hget
          rw [hg, List.take_succ_cons, e4]
      by_cases hb0 : b = 0
      · subst hb0
        obtain ⟨out, e1, e2, e3, e4⟩ := key 0 (0 :: rest) (by simp at hb ⊢; omega)
        refine ⟨out, ?_, e2, e3, ?_⟩
        · simp only [decompressImpactScores, logDecompressToDouble, if_true, hidx]
          exact e1
        · rw [e4]; simp [impactsOf]
      · obtain ⟨out, e1, e2, e3, e4⟩ :=
          key (ops.sub (ops.exp2 (ops.div (ops.ofByte b) ops.scale)) ops.one) rest
            (by simp at hb ⊢; omega)
        refine ⟨out, ?_, e2, e3, ?_⟩
        · simp only [decompressImpactScores, logDecompressToDouble, if_neg hb0, hidx, if_true]
          exact e1
        · rw [e4]; simp [impactsOf, hb0]

theorem decodedImpacts_eq {D : Type} [Zero D] (ops : DoubleOps D) (bytes : List Nat) :
    decodedImpacts ops bytes = impactsOf ops bytes.length bytes := by
  obtain ⟨out, e1, e2, _, e4⟩ := decompressImpactScores_impactsOf ops bytes.length bytes 0
    (List.replicate bytes.length 0) le_rfl (by simp)
  simp only [decodedImpacts, e1]
  rw [← e4]
  simp only [List.drop_zero]
  rw [List.take_of_length_le]
  rw [e2]; simp

theorem decompressPostings_represents {D : Type} [Zero D] (ops : DoubleOps D)
    (invertedList : InvertedList D) (chunk : List (Int × Nat))
    (chunks : List (List (Int × Nat))) (h : Represents invertedList (chunk :: chunks))
    (hok : ChunksOK (chunk :: chunks)) :
    ∃ decoded, decompressPostings ops invertedList = some decoded ∧
      decoded.postingCount = chunk.length ∧
      decoded.docIds.take chunk.length = chunk.map (fun p => p.1) ∧
      decoded.impactScores.take chunk.length = decodedImpacts ops (chunk.map (fun p => p.2)) ∧
      Represents decoded (chunk :: chunks) ∧
      decoded.currentPostingIndex = invertedList.currentPostingIndex := by
  obtain ⟨h1, h2, h3, h4, h5, h6, h7, h8, h9⟩ := h
  have hne : chunk ≠ [] := hok.nonempty chunk (List.mem_cons_self _ _)
  have hne2 : chunk.map (fun p => p.1) ≠ [] := by simpa using hne
  have hsmall := hok.small chunk (List.mem_cons_self _ _)
  have hinc : IncreasingFrom (-1) (chunk.map (fun p => p.1)) := by
    have hs := hok.sorted
    rw [docIdsOf_cons] at hs
    apply IncreasingFrom_of_pairwise _ _ (List.pairwise_append.1 hs).1
    · intro d hd
      have := hok.range d (by rw [docIdsOf_cons]; exact List.mem_append_left _ hd)
      omega
    · intro d hd
      have := hok.range d (by rw [docIdsOf_cons]; exact List.mem_append_left _ hd)
      omega
  obtain ⟨out, d1, d2, _, d4⟩ := decompressDocIds_stored (chunk.map (fun p => p.1))
    (invertedList.postings.length + 1) (-1) 0 invertedList.docIds (chunk.map (fun p => p.2))
    hne2 hinc le_rfl
    (by rw [h3]; simp only [chunkBytes, List.length_append, List.length_map]; omega)
    (by rw [h7, List.length_map]; omega)
  obtain ⟨scores, s1, s2, _, s4⟩ := decompressImpactScores_impactsOf ops chunk.length
    (chunk.map (fun p => p.2)) 0 invertedList.impactScores (by simp) (by rw [h8]; omega)
  have hrun : decompressPostings ops invertedList = some
      { invertedList with docIds := out, postingCount := chunk.length, impactScores := scores } := by
    unfold decompressPostings
    simp only [h4]
    have hb : invertedList.postings = (storedDocIds (-1) (chunk.map (fun p => p.1))).flatMap
        (fun v => varByteCompressInt (toUInt32 v)) ++ chunk.map (fun p => p.2) := h3
    rw [← hb] at d1
    simp only [List.length_map, Nat.zero_add, chunkLastDocId] at d1 ⊢
    rw [d1]
    simp only
    rw [s1]
  refine ⟨_, hrun, rfl, by simpa using d4, ?_, ?_, rfl⟩
  · rw [decodedImpacts_eq]
    simpa using s4
  · exact ⟨h1, h2, h3, h4, h5, h6, by simp only; rw [d2, h7], by simp only; rw [s2, h8], h9⟩

theorem searchPostings_spec (docIds : List Int) (t : Int) :
    ∀ (n i : Nat),
      match searchPostings n i docIds t with
      | some k => i ≤ k ∧ k < i + n ∧ t ≤ docIds.getD k 0 ∧
          ∀ j, i ≤ j → j < k → docIds.getD j 0 < t
      | none => ∀ j, i ≤ j → j < i + n → docIds.getD j 0 < t := by
  intro n
  induction n with
  | zero => intro i; simp only [searchPostings]; intro j h1 h2; omega
  | succ n ih =>
    intro i
    simp only [searchPostings]
    by_cases hge : docIds.getD i 0 ≥ t
    · rw [if_pos hge]
      exact ⟨le_rfl, by omega, hge, fun j h1 h2 => by omega⟩
    · rw [if_neg hge]
      have := ih (i + 1)
      cases hs : searchPostings n (i + 1) docIds t with
      | some k =>
        rw [hs] at this
        obtain ⟨a1, a2, a3, a4⟩ := this
        refine ⟨by omega, by omega, a3, ?_⟩
        intro j h1 h2
        rcases Nat.eq_or_lt_of_le h1 with h | h
        · rw [← h]; omega
        · exact a4 j (by omega) h2
      | none =>
        rw [hs] at this
        intro j h1 h2
        rcases Nat.eq_or_lt_of_le h1 with h | h
        · rw [← h]; omega
        · exact this j (by omega) (by omega)

theorem getD_of_take_eq {α : Type} (l m : List α) (n : Nat) (d : α) (h : l.take n = m)
    (j : Nat) (hj : j < n) : l.getD j d = m.getD j d := by
  rw [← h]
  simp only [List.getD_eq_getElem?_getD, List.getElem?_take, if_pos hj]

theorem getNextGEQDocId_spec {D : Type} [Zero D] (ops : DoubleOps D)
    (invertedList : InvertedList D) (chunks : List (List (Int × Nat))) (t : Int)
    (hrep : Represents invertedList chunks) (hok : ChunksOK chunks) :
    ∃ r after rest, getNextGEQDocId ops invertedList t = some (r, after) ∧
      Represents after rest ∧ SkipsTo chunks rest t ∧
      NextGEQResult ops rest t r (after.impactScores.getD after.currentPostingIndex 0) := by
  obtain ⟨rest1, b1, b2, _, _⟩ := skipBlocks_spec t invertedList.remainingChunkCount.toNat
    invertedList chunks hrep hok le_rfl
  obtain ⟨l1, hl1⟩ : ∃ l1, skipBlocks invertedList.remainingChunkCount.toNat invertedList t = l1 :=
    ⟨_, rfl⟩
  rw [hl1] at b1
  have hok1 : ChunksOK rest1 := by
    obtain ⟨dr, e, _⟩ := b2; rw [e] at hok; exact hok.suffix _ _
  obtain ⟨rest2, c1, c2, _, c4⟩ := skipChunks_spec t l1.remainingChunkCount.toNat l1 rest1 b1 hok1
    le_rfl
  obtain ⟨l2, hl2⟩ : ∃ l2, skipChunks l1.remainingChunkCount.toNat l1 t = l2 := ⟨_, rfl⟩
  rw [hl2] at c1 c4
  have hok2 : ChunksOK rest2 := by
    obtain ⟨dr, e, _⟩ := c2; rw [e] at hok1; exact hok1.suffix _ _
  cases rest2 with
  | nil => exact absurd c1 (by simp [Represents])
  | cons c cs =>
    obtain ⟨l3, d1, d2, d3, d4, d5, _⟩ := decompressPostings_represents ops l2 c cs c1 hok2
    have hskip : SkipsTo chunks (c :: cs) t := b2.trans c2
    have hspec := searchPostings_spec l3.docIds t l3.postingCount 0
    have hfst : ∀ j, j < c.length → l3.docIds.getD j 0 = (c.map (fun p => p.1)).getD j 0 :=
      fun j hj => getD_of_take_eq _ _ _ _ d3 j hj
    cases hs : searchPostings l3.postingCount 0 l3.docIds t with
    | some k =>
      rw [hs] at hspec
      obtain ⟨_, a2, a3, a4⟩ := hspec
      rw [d2, Nat.zero_add] at a2
      have hrun : getNextGEQDocId ops invertedList t
          = some (l3.docIds.getD k 0, { l3 with currentPostingIndex := k }) := by
        simp only [getNextGEQDocId, hl1, hl2, d1, hs]
      rw [hrun]
      refine ⟨_, _, c :: cs, rfl, ?_, hskip, Or.inr ⟨a3, ?_, ?_⟩⟩
      · obtain ⟨r1, r2, r3, r4, r5, r6, r7, r8, r9⟩ := d5
        exact ⟨r1, r2, r3, r4, r5, r6, r7, r8, r9⟩
      · simp only [decodedPostings, List.flatMap_cons]
        apply List.mem_append_left
        simp only [decodedChunk]
        have hlen1 : k < (c.map (fun p => p.1)).length := by simpa using a2
        have hlen2 : k < (decodedImpacts ops (c.map (fun p => p.2))).length := by
          rw [decodedImpacts_eq, impactsOf_length _ _ _ le_rfl]; simpa using a2
        have hz : k < ((c.map (fun p => p.1)).zip (decodedImpacts ops (c.map (fun p => p.2)))).length := by
          simp only [List.length_zip]; omega
        have hmem := List.getElem_mem hz
        rw [List.getElem_zip] at hmem
        have e1 : l3.docIds.getD k 0 = (c.map (fun p => p.1))[k] := by
          rw [hfst k a2, List.getD_eq_getElem _ _ hlen1]
        have e2 : l3.impactScores.getD k 0 = (decodedImpacts ops (c.map (fun p => p.2)))[k] := by
          rw [getD_of_take_eq _ _ _ _ d4 k a2, List.getD_eq_getElem _ _ hlen2]
        rw [e1, e2]
        exact hmem
      · intro d hd htd
        rw [docIdsOf_cons] at hd
        have hsorted := hok2.sorted
        rw [docIdsOf_cons] at hsorted
        have hk1 : k < (c.map (fun p => p.1)).length := by simpa using a2
        have hr : l3.docIds.getD k 0 = (c.map (fun p => p.1))[k] := by
          rw [hfst k a2, List.getD_eq_getElem _ _ hk1]
        rw [hr]
        rcases List.mem_append.1 hd with hd | hd
        · obtain ⟨j, hj, rfl⟩ := List.getElem_of_mem hd
          have hj' : j < c.length := by simpa using hj
          rcases Nat.lt_trichotomy j k with hjk | hjk | hjk
          · have := a4 j (Nat.zero_le _) hjk
            rw [hfst j hj', List.getD_eq_getElem _ _ hj] at this
            omega
          · subst hjk; exact le_rfl
          · have hp := (List.pairwise_append.1 hsorted).1
            rw [List.pairwise_iff_getElem] at hp
            exact le_of_lt (hp k j hk1 hj hjk)
        · have hp := (List.pairwise_append.1 hsorted).2.2
          exact le_of_lt (hp _ (List.getElem_mem hk1) d hd)
    | none =>
      rw [hs] at hspec
      have hrun : getNextGEQDocId ops invertedList t = some (-1, l3) := by
        simp only [getNextGEQDocId, hl1, hl2, d1, hs]
      rw [hrun]
      have hall : ∀ d ∈ c.map (fun p => p.1), d < t := by
        intro d hd
        obtain ⟨j, hj, rfl⟩ := List.getElem_of_mem hd
        have hj' : j < c.length := by simpa using hj
        have := hspec j (Nat.zero_le _) (by rw [d2]; omega)
        rw [hfst j hj', List.getD_eq_getElem _ _ hj] at this
        exact this
      have hcs : cs = [] := by
        have hlast : chunkLastDocId c < t := by
          have hne := hok2.nonempty c (List.mem_cons_self _ _)
          apply hall
          rw [chunkLastDocId_eq c hne]
          simp
        by_contra hne
        apply c4
        refine ⟨?_, ?_⟩
        · rw [c1.2.1]
          have : 0 < cs.length := List.length_pos.2 hne
          omega
        · rw [c1.2.2.2.1]; exact hlast
      refine ⟨_, _, c :: cs, rfl, d5, hskip, Or.inl ⟨rfl, ?_⟩⟩
      intro d hd
      rw [docIdsOf_cons, hcs] at hd
      simp only [docIdsOf, List.flatten_nil, List.map_nil, List.append_nil] at hd
      exact hall d hd

theorem mem_docIdsOf_of_mem_decodedPostings {D : Type} [Zero D] (ops : DoubleOps D)
    (chunks : List (List (Int × Nat))) (r : Int) (x : D)
    (h : (r, x) ∈ decodedPostings ops chunks) : r ∈ docIdsOf chunks := by
  simp only [decodedPostings, List.mem_flatMap] at h
  obtain ⟨c, hc, hm⟩ := h
  simp only [decodedChunk] at hm
  have := (List.of_mem_zip hm).1
  simp only [docIdsOf, List.mem_map, List.mem_flatten]
  simp only [List.mem_map] at this
  obtain ⟨p, hp, hp1⟩ := this
  exact ⟨p, ⟨c, hc, hp⟩, hp1⟩

theorem decodedPostings_append {D : Type} [Zero D] (ops : DoubleOps D)
    (a b : List (List (Int × Nat))) :
    decodedPostings ops (a ++ b) = decodedPostings ops a ++ decodedPostings ops b := by
  simp [decodedPostings]

theorem NextGEQResult.lift {D : Type} [Zero D] (ops : DoubleOps D)
    (chunks rest : List (List (Int × Nat))) (t r : Int) (x : D) (hskip : SkipsTo chunks rest t)
    (h : NextGEQResult ops rest t r x) : NextGEQResult ops chunks t r x := by
  obtain ⟨dropped, e, hd⟩ := hskip
  rcases h with ⟨h1, h2⟩ | ⟨h1, h2, h3⟩
  · left
    refine ⟨h1, ?_⟩
    intro d hdm
    rw [e, docIdsOf_append] at hdm
    rcases List.mem_append.1 hdm with h | h
    · exact hd d h
    · exact h2 d h
  · right
    refine ⟨h1, ?_, ?_⟩
    · rw [e, decodedPostings_append]; exact List.mem_append_right _ h2
    · intro d hdm htd
      rw [e, docIdsOf_append] at hdm
      rcases List.mem_append.1 hdm with h | h
      · have := hd d h; omega
      · exact h3 d h htd

/-- C1: for a list iterator on a term whose remaining postings, from the
current chunk to the last chunk of the term, lie in the file of the iterator
and have strictly increasing docIDs (non-negative `int`s), `getNextGEQDocId`
with the target `t` returns the smallest docID that is at least `t` among these
postings, and it returns `-1` exactly when there is no such posting.  In
particular the target 0 returns the first docID, and a target above the
`lastDocId` of the final chunk returns `-1`. -/
theorem getNextGEQDocId_correct {D : Type} [Zero D] (ops : DoubleOps D)
    (invertedList : InvertedList D) (chunks : List (List (Int × Nat))) (t : Int)
    (hrep : Represents invertedList chunks) (hok : ChunksOK chunks) :
    ∃ r after, getNextGEQDocId ops invertedList t = some (r, after) ∧
      ((r = -1 ∧ ∀ d ∈ docIdsOf chunks, d < t) ∨
        (r ∈ docIdsOf chunks ∧ t ≤ r ∧ ∀ d ∈ docIdsOf chunks, t ≤ d → r ≤ d)) ∧
      (r = -1 ↔ ∀ d ∈ docIdsOf chunks, d < t) ∧
      (t = 0 → (docIdsOf chunks).head? = some r) ∧
      (chunkLastDocId (chunks.getLastD []) < t → r = -1) := by
  obtain ⟨r, after, rest, h1, _, h3, h4⟩ := getNextGEQDocId_spec ops invertedList chunks t hrep hok
  have hres := NextGEQResult.lift ops chunks rest t r _ h3 h4
  have hmain : (r = -1 ∧ ∀ d ∈ docIdsOf chunks, d < t) ∨
      (r ∈ docIdsOf chunks ∧ t ≤ r ∧ ∀ d ∈ docIdsOf chunks, t ≤ d → r ≤ d) := by
    rcases hres with h | ⟨a, b, c⟩
    · exact Or.inl h
    · exact Or.inr ⟨mem_docIdsOf_of_mem_decodedPostings ops _ _ _ b, a, c⟩
  have hiff : r = -1 ↔ ∀ d ∈ docIdsOf chunks, d < t := by
    constructor
    · intro hr
      rcases hmain with h | ⟨a, _, _⟩
      · exact h.2
      · have := (hok.range r a).1; omega
    · intro hall
      rcases hmain with h | ⟨a, b, _⟩
      · exact h.1
      · have := hall r a; omega
  refine ⟨r, after, h1, hmain, hiff, ?_, ?_⟩
  · intro ht
    subst ht
    cases hd : docIdsOf chunks with
    | nil =>
      exfalso
      cases chunks with
      | nil => exact absurd hrep (by simp [Represents])
      | cons c cs =>
        have hne := hok.nonempty c (List.mem_cons_self _ _)
        rw [docIdsOf_cons] at hd
        have := (List.append_eq_nil.1 hd).1
        simp at this
        exact hne this
    | cons a l =>
      simp only [List.head?_cons, Option.some.injEq]
      have ha : a ∈ docIdsOf chunks := by rw [hd]; exact List.mem_cons_self _ _
      have ha0 := (hok.range a ha).1
      have hsorted := hok.sorted
      rw [hd] at hsorted hmain
      rcases hmain with h | ⟨m1, _, m3⟩
      · have := h.2 a (List.mem_cons_self _ _); omega
      · have hle := m3 a (List.mem_cons_self _ _) ha0
        rcases List.mem_cons.1 m1 with h | h
        · exact h.symm
        · have := (List.pairwise_cons.1 hsorted).1 r h
          omega
  · intro hlast
    rw [hiff]
    cases chunks with
    | nil => exact absurd hrep (by simp [Represents])
    | cons c cs =>
      have hne : c :: cs ≠ [] := by simp
      have hsplit := List.dropLast_append_getLast hne
      have hL : (c :: cs).getLastD [] = (c :: cs).getLast hne := by
        simp [List.getLastD_eq_getLast?, List.getLast?_eq_getLast _ hne]
      rw [hL] at hlast
      rw [← hsplit]
      apply docIds_lt_of_last_lt _ _ _ (hok.nonempty _ (List.getLast_mem hne))
      · rw [hsplit]; exact hok.sorted
      · exact hlast

/-! ### The list iterator on the concrete index file -/

set_option maxRecDepth 1000000 in
theorem longList_represents : Represents longList longChunks := by decide

set_option maxRecDepth 1000000 in
theorem longChunks_ok : ChunksOK longChunks :=
  ⟨by decide, by decide, by decide, by decide⟩

set_option maxRecDepth 1000000 in
theorem getNextGEQDocId_correct_witness :
    Represents longList longChunks ∧ ChunksOK longChunks ∧
    ∃ r after, getNextGEQDocId intOps longList 258 = some (r, after) ∧
      ((r = -1 ∧ ∀ d ∈ docIdsOf longChunks, d < 258) ∨
        (r ∈ docIdsOf longChunks ∧ (258 : Int) ≤ r ∧
          ∀ d ∈ docIdsOf longChunks, 258 ≤ d → r ≤ d)) ∧
      (r = -1 ↔ ∀ d ∈ docIdsOf longChunks, d < 258) ∧
      ((258 : Int) = 0 → (docIdsOf longChunks).head? = some r) ∧
      (chunkLastDocId (longChunks.getLastD []) < 258 → r = -1) :=
  ⟨longList_represents, longChunks_ok,
    getNextGEQDocId_correct intOps longList longChunks 258 longList_represents longChunks_ok⟩

set_option maxRecDepth 1000000 in
theorem getNextGEQDocId_longList_258 :
    (getNextGEQDocId intOps longList 258).map (fun p => p.1) = some 259 := by decide

/-! ### The conjunctive evaluator -/

theorem SkipsTo_mono (chunks rest : List (List (Int × Nat))) (a b : Int) (hab : a ≤ b)
    (h : SkipsTo chunks rest a) : SkipsTo chunks rest b := by
  obtain ⟨dropped, e, hd⟩ := h
  exact ⟨dropped, e, fun d hdm => lt_of_lt_of_le (hd d hdm) hab⟩

theorem IteratorAt_mono {D : Type} (a b : Int) (hab : a ≤ b) (invertedList : InvertedList D)
    (total : List (List (Int × Nat))) (h : IteratorAt a invertedList total) :
    IteratorAt b invertedList total := by
  obtain ⟨rest, h1, h2⟩ := h
  exact ⟨rest, h1, SkipsTo_mono _ _ a b hab h2⟩

/-- One call of `getNextGEQDocId` on an iterator that stands in the postings
`total` of its term. -/
theorem getNextGEQDocId_iterator {D : Type} [Zero D] (ops : DoubleOps D)
    (invertedList : InvertedList D) (total : List (List (Int × Nat))) (bound t : Int)
    (hbt : bound ≤ t) (hit : IteratorAt bound invertedList total) (hok : ChunksOK total) :
    ∃ r after, getNextGEQDocId ops invertedList t = some (r, after) ∧
      IteratorAt t after total ∧
      NextGEQResult ops total t r (after.impactScores.getD after.currentPostingIndex 0) := by
  obtain ⟨rest, hrep, hskip⟩ := hit
  have hskip1 := SkipsTo_mono _ _ bound t hbt hskip
  obtain ⟨dropped, e, _⟩ := hskip
  have hokr : ChunksOK rest := ChunksOK.suffix dropped rest (e ▸ hok)
  obtain ⟨r, after, rest1, h1, h2, h3, h4⟩ := getNextGEQDocId_spec ops invertedList rest t hrep hokr
  have hskip2 := SkipsTo.trans hskip1 h3
  exact ⟨r, after, h1, ⟨rest1, h2, hskip2⟩, NextGEQResult.lift ops total rest1 t r _ hskip2 h4⟩

theorem filter_ge_length_le (l : List Int) (a b : Int) (hab : a ≤ b) :
    (l.filter (fun d => decide (b ≤ d))).length ≤ (l.filter (fun d => decide (a ≤ d))).length := by
  induction l with
  | nil => simp
  | cons x xs ih =>
    simp only [List.filter_cons]
    by_cases hb : b ≤ x
    · have ha : a ≤ x := le_trans hab hb
      simp only [hb, ha, decide_True, if_true, List.length_cons]
      omega
    · simp only [hb, decide_False]
      by_cases ha : a ≤ x
      · simp only [ha, decide_True, if_true, List.length_cons]
        simp only [Bool.false_eq_true, if_false]
        omega
      · simp only [ha, decide_False, Bool.false_eq_true, if_false]
        exact ih

theorem filter_ge_length_lt (l : List Int) (a b c : Int) (hc : c ∈ l) (hac : a ≤ c)
    (hcb : c < b) :
    (l.filter (fun d => decide (b ≤ d))).length < (l.filter (fun d => decide (a ≤ d))).length := by
  induction l with
  | nil => simp at hc
  | cons x xs ih =>
    simp only [List.filter_cons]
    rcases List.mem_cons.1 hc with h | h
    · subst h
      have hb : ¬ b ≤ c := by omega
      have := filter_ge_length_le xs a b (by omega)
      simp only [hb, hac, decide_True, decide_False, if_true, Bool.false_eq_true, if_false,
        List.length_cons]
      omega
    · have := ih h
      by_cases hb : b ≤ x
      · have ha : a ≤ x := by omega
        simp only [hb, ha, decide_True, if_true, List.length_cons]
        omega
      · simp only [hb, decide_False, Bool.false_eq_true, if_false]
        by_cases ha : a ≤ x
        · simp only [ha, decide_True, if_true, List.length_cons]
          omega
        · simp only [ha, decide_False, Bool.false_eq_true, if_false]
          exact this

theorem conjunctiveCheck_spec {D : Type} [Zero D] (ops : DoubleOps D) (bound candidate : Int)
    (hbc : bound ≤ candidate) (h0 : 0 ≤ candidate) (flags : ConjunctiveFlags)
    (hf1 : flags.anyListExhausted = false) (hf2 : flags.allMatched = true) :
    ∀ (others : List (InvertedList D)) (terms : List (List (List (Int × Nat)))),
      List.Forall₂ (IteratorAt bound) others terms → (∀ t ∈ terms, ChunksOK t) →
      ∃ others1 flags1, conjunctiveCheck ops others candidate flags = some (others1, flags1) ∧
        List.Forall₂ (IteratorAt candidate) others1 terms ∧
        ((flags1.anyListExhausted = true ∧ ∃ t ∈ terms, ∀ d ∈ docIdsOf t, d < candidate) ∨
         (flags1.anyListExhausted = false ∧ flags1.allMatched = false ∧
            candidate < flags1.currentDocId ∧
            ∃ t ∈ terms, ∀ d ∈ docIdsOf t, candidate ≤ d → flags1.currentDocId ≤ d) ∨
         (flags1.anyListExhausted = false ∧ flags1.allMatched = true ∧
            ImpactsAt ops candidate terms
              (others1.map (fun il => il.impactScores.getD il.currentPostingIndex 0)))) := by
  intro others terms hall
  induction hall with
  | nil =>
    intro _
    exact ⟨[], flags, rfl, List.Forall₂.nil, Or.inr (Or.inr ⟨hf1, hf2, List.Forall₂.nil⟩)⟩
  | @cons il total ils totals hit hrest ih =>
    intro hok
    obtain ⟨r, after, hrun, hafter, hres⟩ := getNextGEQDocId_iterator ops il total bound candidate
      hbc hit (hok total (List.mem_cons_self _ _))
    have hrest1 : List.Forall₂ (IteratorAt candidate) ils totals :=
      hrest.imp (fun a b h => IteratorAt_mono bound candidate hbc a b h)
    by_cases hr : r = -1
    · refine ⟨after :: ils, { flags with anyListExhausted := true }, ?_,
        List.Forall₂.cons hafter hrest1, Or.inl ⟨rfl, total, List.mem_cons_self _ _, ?_⟩⟩
      · simp only [conjunctiveCheck, hrun, if_pos hr]
      · rcases hres with h | h
        · exact h.2
        · omega
    · have hres1 : candidate ≤ r ∧
          (r, after.impactScores.getD after.currentPostingIndex 0) ∈ decodedPostings ops total ∧
          ∀ d ∈ docIdsOf total, candidate ≤ d → r ≤ d := by
        rcases hres with h | h
        · exact absurd h.1 hr
        · exact h
      by_cases hne : r ≠ candidate
      · refine ⟨after :: ils, { flags with allMatched := false, currentDocId := r }, ?_,
          List.Forall₂.cons hafter hrest1,
          Or.inr (Or.inl ⟨hf1, rfl, ?_, total, List.mem_cons_self _ _, hres1.2.2⟩)⟩
        · simp only [conjunctiveCheck, hrun, if_neg hr, if_pos hne]
        · show candidate < r
          omega
      · have hrc : r = candidate := not_not.1 hne
        obtain ⟨others1, flags1, hrun1, hall1, hcase⟩ :=
          ih (fun t ht => hok t (List.mem_cons_of_mem _ ht))
        refine ⟨after :: others1, flags1, ?_, List.Forall₂.cons hafter hall1, ?_⟩
        · simp only [conjunctiveCheck, hrun, if_neg hr, if_neg hne, hrun1]
        · rcases hcase with ⟨a, t, ht, b⟩ | ⟨a, b, c, t, ht, e⟩ | ⟨a, b, c⟩
          · exact Or.inl ⟨a, t, List.mem_cons_of_mem _ ht, b⟩
          · exact Or.inr (Or.inl ⟨a, b, c, t, List.mem_cons_of_mem _ ht, e⟩)
          · refine Or.inr (Or.inr ⟨a, b, ?_⟩)
            simp only [List.map_cons]
            exact List.Forall₂.cons (hrc ▸ hres1.2.1) c

theorem forall₂_exists_of_mem {α β : Type} {R : α → β → Prop} {l1 : List α} {l2 : List β}
    (h : List.Forall₂ R l1 l2) {a : α} (ha : a ∈ l1) : ∃ b, b ∈ l2 ∧ R a b := by
  induction h with
  | nil => simp at ha
  | @cons x y xs ys hxy _ ih =>
    rcases List.mem_cons.1 ha with h | h
    · subst h; exact ⟨y, List.mem_cons_self _ _, hxy⟩
    · obtain ⟨b, hb, hr⟩ := ih h
      exact ⟨b, List.mem_cons_of_mem _ hb, hr⟩

theorem sumCurrentImpacts_eq {D : Type} [Zero D] [Add D] (invertedLists : List (InvertedList D)) :
    sumCurrentImpacts invertedLists =
      (invertedLists.map (fun il => il.impactScores.getD il.currentPostingIndex 0)).foldl
        (fun a b => a + b) 0 := by
  simp only [sumCurrentImpacts, List.foldl_map]

/-- The main loop of `conjunctiveDocumentAtATime` from any state whose iterators
have skipped only docIDs below `currentDocId`. -/
theorem conjunctiveLoop_spec {D : Type} [Zero D] [Add D] [LT D]
    [DecidableRel (fun a b : D => a < b)] (ops : DoubleOps D)
    (total0 : List (List (Int × Nat))) (totals : List (List (List (Int × Nat))))
    (hok : ∀ t ∈ total0 :: totals, ChunksOK t) :
    ∀ (fuel : Nat) (st : ConjunctiveState D),
      List.Forall₂ (IteratorAt st.currentDocId) st.invertedLists (total0 :: totals) →
      0 ≤ st.currentDocId →
      ((docIdsOf total0).filter (fun d => decide (st.currentDocId ≤ d))).length < fuel →
      ∃ (st1 : ConjunctiveState D) (offered : List (Int × D)),
        conjunctiveLoop ops fuel st = some st1 ∧
        st1.topK = offered.foldl (fun topK c => updateTopK topK c.1 c.2) st.topK ∧
        (offered.map (fun c => c.1)).Pairwise (fun a b => a < b) ∧
        (∀ d, d ∈ offered.map (fun c => c.1) ↔
          st.currentDocId ≤ d ∧ ∀ t ∈ total0 :: totals, d ∈ docIdsOf t) ∧
        ∀ c ∈ offered, ∃ impacts, ImpactsAt ops c.1 (total0 :: totals) impacts ∧
          c.2 = impacts.foldl (fun a b => a + b) 0 := by
  intro fuel
  induction fuel with
  | zero => intro st _ _ h; omega
  | succ fuel ih =>
    intro st hall h0 hfuel
    obtain ⟨ils, topK, cur⟩ := st
    simp only at hall h0 hfuel
    cases hall with
    | @cons first _ others _ hfirst hothers =>
    have hok0 := hok total0 (List.mem_cons_self _ _)
    obtain ⟨cand, first1, hrun, hfirst1, hres⟩ :=
      getNextGEQDocId_iterator ops first total0 cur cur le_rfl hfirst hok0
    by_cases hc : cand = -1
    · refine ⟨{ invertedLists := first1 :: others, topK := topK, currentDocId := cur }, [],
        ?_, rfl, List.Pairwise.nil, ?_, ?_⟩
      · simp only [conjunctiveLoop, hrun, if_pos hc]
      · intro d
        simp only [List.map_nil, List.not_mem_nil, false_iff, not_and]
        intro hd hin
        rcases hres with h | h
        · have := h.2 d (hin total0 (List.mem_cons_self _ _)); omega
        · omega
      · intro c hcm; simp at hcm
    · have hres1 : cur ≤ cand ∧
          (cand, first1.impactScores.getD first1.currentPostingIndex 0)
            ∈ decodedPostings ops total0 ∧
          ∀ d ∈ docIdsOf total0, cur ≤ d → cand ≤ d := by
        rcases hres with h | h
        · exact absurd h.1 hc
        · exact h
      have hcmem := mem_docIdsOf_of_mem_decodedPostings ops _ _ _ hres1.2.1
      have hcand0 : 0 ≤ cand := by omega
      obtain ⟨others1, flags, hchk, hall1, hcase⟩ :=
        conjunctiveCheck_spec ops cur cand hres1.1 hcand0
          { anyListExhausted := false, allMatched := true, currentDocId := cur } rfl rfl
          others totals hothers (fun t ht => hok t (List.mem_cons_of_mem _ ht))
      rcases hcase with ⟨a, t, ht, b⟩ | ⟨a, b, c, t, ht, e⟩ | ⟨a, b, himp⟩
      · -- a later list is exhausted
        refine ⟨{ invertedLists := first1 :: others1, topK := topK,
                  currentDocId := flags.currentDocId }, [],
          ?_, rfl, List.Pairwise.nil, ?_, ?_⟩
        · simp only [conjunctiveLoop, hrun, if_neg hc, hchk, a, if_true]
        · intro d
          simp only [List.map_nil, List.not_mem_nil, false_iff, not_and]
          intro hd hin
          have h1 := hres1.2.2 d (hin total0 (List.mem_cons_self _ _)) hd
          have h2 := b d (hin t (List.mem_cons_of_mem _ ht))
          omega
        · intro c hcm; simp at hcm
      · -- a later list has no posting at the candidate
        have hlt : ((docIdsOf total0).filter
            (fun d => decide (flags.currentDocId ≤ d))).length < fuel := by
          have := filter_ge_length_lt (docIdsOf total0) cur flags.currentDocId cand hcmem
            hres1.1 c
          omega
        have hle : cand ≤ flags.currentDocId := by omega
        obtain ⟨st1, offered, hr1, hr2, hr3, hr4, hr5⟩ := ih
          { invertedLists := first1 :: others1, topK := topK, currentDocId := flags.currentDocId }
          (List.Forall₂.cons (IteratorAt_mono cur _ (by simp only; omega) _ _ hfirst1)
            (hall1.imp (fun x y h => IteratorAt_mono cand _ hle x y h)))
          (by simp only; omega) hlt
        refine ⟨st1, offered, ?_, hr2, hr3, ?_, hr5⟩
        · simp only [conjunctiveLoop, hrun, if_neg hc, hchk, a, b, Bool.false_eq_true, if_false]
          exact hr1
        · intro d
          rw [hr4 d]
          simp only
          constructor
          · rintro ⟨h1, h2⟩
            exact ⟨by omega, h2⟩
          · rintro ⟨h1, h2⟩
            refine ⟨?_, h2⟩
            have h3 := hres1.2.2 d (h2 total0 (List.mem_cons_self _ _)) h1
            exact e d (h2 t (List.mem_cons_of_mem _ ht)) h3
      · -- the candidate is in every list
        have hmax : cand ≠ INT_MAX := by
          have := (hok0.range cand hcmem).2
          simp only [INT_MAX]; omega
        have hlt : ((docIdsOf total0).filter
            (fun d => decide (cand + 1 ≤ d))).length < fuel := by
          have := filter_ge_length_lt (docIdsOf total0) cur (cand + 1) cand hcmem
            hres1.1 (by omega)
          omega
        obtain ⟨st1, offered, hr1, hr2, hr3, hr4, hr5⟩ := ih
          { invertedLists := first1 :: others1
            topK := updateTopK topK cand (sumCurrentImpacts (first1 :: others1))
            currentDocId := cand + 1 }
          (List.Forall₂.cons (IteratorAt_mono cur _ (by simp only; omega) _ _ hfirst1)
            (hall1.imp (fun x y h => IteratorAt_mono cand _ (by simp only; omega) x y h)))
          (by simp only; omega) hlt
        simp only at hr2 hr4
        refine ⟨st1, (cand, sumCurrentImpacts (first1 :: others1)) :: offered, ?_, ?_, ?_, ?_, ?_⟩
        · simp only [conjunctiveLoop, hrun, if_neg hc, hchk, a, b, Bool.false_eq_true, if_false,
            if_true, if_neg hmax]
          exact hr1
        · simp only [List.foldl_cons]
          exact hr2
        · simp only [List.map_cons, List.pairwise_cons]
          refine ⟨?_, hr3⟩
          intro d hd
          have := ((hr4 d).1 hd).1
          omega
        · intro d
          simp only [List.map_cons]
          constructor
          · intro hd
            rcases List.mem_cons.1 hd with h | h
            · subst h
              refine ⟨hres1.1, ?_⟩
              intro t ht
              rcases List.mem_cons.1 ht with h | h
              · subst h; exact hcmem
              · obtain ⟨x, _, hxm⟩ := forall₂_exists_of_mem himp h
                exact mem_docIdsOf_of_mem_decodedPostings ops _ _ _ hxm
            · have := (hr4 d).1 h
              exact ⟨by omega, this.2⟩
          · rintro ⟨h1, h2⟩
            have h3 := hres1.2.2 d (h2 total0 (List.mem_cons_self _ _)) h1
            by_cases hdc : d = cand
            · exact List.mem_cons.2 (Or.inl hdc)
            · exact List.mem_cons_of_mem _ ((hr4 d).2 ⟨by omega, h2⟩)
        · intro c hcm
          rcases List.mem_cons.1 hcm with h | h
          · subst h
            refine ⟨_, List.Forall₂.cons hres1.2.1 himp, ?_⟩
            simp only [sumCurrentImpacts_eq, List.map_cons]
          · exact hr5 c h

/-- C2: when every word of the query has a list (none is `NULL`) and the
postings of every word have strictly increasing docIDs, non-negative and below
`INT_MAX`, `conjunctiveDocumentAtATime` returns the sorted heap that results
from offering a sequence `offered` of candidates to the empty top-K heap, where
the docIDs of `offered` are strictly increasing (no docID is offered twice), a
docID is offered exactly if it occurs in the postings of every word, and the
score of an offered docID is `0.0` plus, in the order of the words, the decoded
impact of the docID in the postings of each word.  The loop needs more turns
than the first word has postings. -/
theorem conjunctiveDocumentAtATime_offers {D : Type} [Zero D] [Add D] [LT D]
    [DecidableRel (fun a b : D => a < b)] (ops : DoubleOps D) (fuel : Nat)
    (invertedLists : List (InvertedList D)) (terms : List (List (List (Int × Nat))))
    (hne : invertedLists ≠ [])
    (hrep : List.Forall₂ Represents invertedLists terms)
    (hok : ∀ t ∈ terms, ChunksOK t)
    (hfuel : (docIdsOf (terms.headD [])).length < fuel) :
    ∃ offered : List (Int × D),
      conjunctiveDocumentAtATime ops fuel (invertedLists.map some) =
        some (QueryHeap.heapSort
          (offered.foldl (fun topK c => updateTopK topK c.1 c.2)
            { heap := QueryHeap.createHeap, resultCount := 0 }).heap) ∧
      (offered.map (fun c => c.1)).Pairwise (fun a b => a < b) ∧
      (∀ d, d ∈ offered.map (fun c => c.1) ↔ ∀ t ∈ terms, d ∈ docIdsOf t) ∧
      ∀ c ∈ offered, ∃ impacts, ImpactsAt ops c.1 terms impacts ∧
        c.2 = impacts.foldl (fun a b => a + b) 0 := by
  cases hrep with
  | nil => exact absurd rfl hne
  | @cons first total0 others totals hfirst hothers =>
    have hall : List.Forall₂ (IteratorAt (0 : Int)) (first :: others) (total0 :: totals) :=
      List.Forall₂.cons ⟨_, hfirst, SkipsTo.refl _ _⟩
        (hothers.imp (fun a b h => ⟨_, h, SkipsTo.refl _ _⟩))
    have hlen : ((docIdsOf total0).filter (fun d => decide ((0 : Int) ≤ d))).length < fuel :=
      lt_of_le_of_lt (List.length_filter_le _ _) hfuel
    obtain ⟨st1, offered, h1, h2, h3, h4, h5⟩ := conjunctiveLoop_spec ops total0 totals hok fuel
      { invertedLists := first :: others
        topK := { heap := QueryHeap.createHeap, resultCount := 0 }
        currentDocId := 0 } hall le_rfl hlen
    refine ⟨offered, ?_, h3, ?_, h5⟩
    · have hany : ((first :: others).map some).any (fun l => l.isNone) = false := by
        simp
      have hfm : ((first :: others).map some).filterMap id = first :: others := by
        simp
      simp only [conjunctiveDocumentAtATime, hany, hfm, Bool.false_eq_true, if_false, h1]
      rw [h2]
    · intro d
      rw [h4 d]
      constructor
      · exact fun h => h.2
      · intro h
        exact ⟨(hok total0 (List.mem_cons_self _ _)).range d (h total0 (List.mem_cons_self _ _))
          |>.1, h⟩

/-! ### The conjunctive evaluator on the concrete index file -/

set_option maxRecDepth 1000000 in
theorem twoTermLists_represent : List.Forall₂ Represents twoTermLists twoTermPostings :=
  List.Forall₂.cons (by decide) (List.Forall₂.cons (by decide) List.Forall₂.nil)

set_option maxRecDepth 1000000 in
theorem twoTermPostings_ok : ∀ t ∈ twoTermPostings, ChunksOK t := by
  intro t ht
  simp only [twoTermPostings, List.mem_cons, List.mem_singleton, List.not_mem_nil, or_false] at ht
  rcases ht with h | h <;> subst h <;> exact ⟨by decide, by decide, by decide, by decide⟩

set_option maxRecDepth 1000000 in
theorem conjunctiveDocumentAtATime_offers_witness :
    twoTermLists ≠ [] ∧ List.Forall₂ Represents twoTermLists twoTermPostings ∧
    (∀ t ∈ twoTermPostings, ChunksOK t) ∧
    (docIdsOf (twoTermPostings.headD [])).length < 5 ∧
    ∃ offered : List (Int × Int),
      conjunctiveDocumentAtATime intOps 5 (twoTermLists.map some) =
        some (QueryHeap.heapSort
          (offered.foldl (fun topK c => updateTopK topK c.1 c.2)
            { heap := QueryHeap.createHeap, resultCount := 0 }).heap) ∧
      (offered.map (fun c => c.1)).Pairwise (fun a b => a < b) ∧
      (∀ d, d ∈ offered.map (fun c => c.1) ↔ ∀ t ∈ twoTermPostings, d ∈ docIdsOf t) ∧
      ∀ c ∈ offered, ∃ impacts, ImpactsAt intOps c.1 twoTermPostings impacts ∧
        c.2 = impacts.foldl (fun a b => a + b) 0 :=
  ⟨List.cons_ne_nil _ _, twoTermLists_represent, twoTermPostings_ok, by decide,
    conjunctiveDocumentAtATime_offers intOps 5 twoTermLists twoTermPostings
      (List.cons_ne_nil _ _)
      twoTermLists_represent twoTermPostings_ok (by decide)⟩

set_option maxRecDepth 1000000 in
theorem conjunctiveDocumentAtATime_twoTerm :
    (conjunctiveDocumentAtATime intOps 5 (twoTermLists.map some)).map
      (fun heap => (heap.nodeCount, (heap.heapNodes.take 2).map (fun n => n.docId)))
      = some (2, [7, 3]) := by decide

/-! ### The disjunctive evaluator -/

theorem findMin_foldl {D : Type} (cursors : List (ListCursor D)) :
    ∀ m0 : Int,
      let r := cursors.foldl
        (fun minDocId c =>
          if c.listExhausted = false ∧ c.currentDocId < minDocId then c.currentDocId
          else minDocId) m0
      r ≤ m0 ∧ (∀ c ∈ cursors, c.listExhausted = false → r ≤ c.currentDocId) ∧
        (r = m0 ∨ ∃ c ∈ cursors, c.listExhausted = false ∧ c.currentDocId = r) := by
  induction cursors with
  | nil => intro m0; simp
  | cons c cs ih =>
    intro m0
    simp only [List.foldl_cons]
    by_cases h : c.listExhausted = false ∧ c.currentDocId < m0
    · obtain ⟨h1, h2, h3⟩ := ih c.currentDocId
      simp only [if_pos h]
      refine ⟨by omega, ?_, ?_⟩
      · intro x hx hxe
        rcases List.mem_cons.1 hx with e | e
        · subst e; exact h1
        · exact h2 x e hxe
      · right
        rcases h3 with e | ⟨x, hx, hxe, hxc⟩
        · exact ⟨c, List.mem_cons_self _ _, h.1, e.symm⟩
        · exact ⟨x, List.mem_cons_of_mem _ hx, hxe, hxc⟩
    · obtain ⟨h1, h2, h3⟩ := ih m0
      simp only [if_neg h]
      refine ⟨h1, ?_, ?_⟩
      · intro x hx hxe
        rcases List.mem_cons.1 hx with e | e
        · subst e
          have : ¬ x.currentDocId < m0 := fun hlt => h ⟨hxe, hlt⟩
          omega
        · exact h2 x e hxe
      · rcases h3 with e | ⟨x, hx, hxe, hxc⟩
        · exact Or.inl e
        · exact Or.inr ⟨x, List.mem_cons_of_mem _ hx, hxe, hxc⟩

theorem findMinDocId_spec {D : Type} (cursors : List (ListCursor D))
    (hlt : ∀ c ∈ cursors, c.listExhausted = false → c.currentDocId < INT_MAX) :
    (findMinDocId cursors = INT_MAX ∧ ∀ c ∈ cursors, c.listExhausted = true) ∨
    (findMinDocId cursors ≠ INT_MAX ∧
      (∃ c ∈ cursors, c.listExhausted = false ∧ c.currentDocId = findMinDocId cursors) ∧
      ∀ c ∈ cursors, c.listExhausted = false → findMinDocId cursors ≤ c.currentDocId) := by
  have h : findMinDocId cursors ≤ INT_MAX ∧
      (∀ c ∈ cursors, c.listExhausted = false → findMinDocId cursors ≤ c.currentDocId) ∧
      (findMinDocId cursors = INT_MAX ∨
        ∃ c ∈ cursors, c.listExhausted = false ∧ c.currentDocId = findMinDocId cursors) :=
    findMin_foldl cursors INT_MAX
  obtain ⟨h1, h2, h3⟩ := h
  by_cases he : findMinDocId cursors = INT_MAX
  · left
    refine ⟨he, ?_⟩
    intro c hc
    by_contra hce
    have hce1 : c.listExhausted = false := by simpa using hce
    have a := h2 c hc hce1
    have b := hlt c hc hce1
    omega
  · right
    refine ⟨he, ?_, h2⟩
    rcases h3 with e | e
    · exact absurd e he
    · exact e

theorem CursorAt.lt_max {D : Type} [Zero D] (ops : DoubleOps D) (bound : Int)
    (cursors : List (ListCursor D)) (terms : List (Option (List (List (Int × Nat)))))
    (hall : List.Forall₂ (CursorAt ops bound) cursors terms)
    (hok : ∀ t, some t ∈ terms → ChunksOK t) :
    ∀ c ∈ cursors, c.listExhausted = false → c.currentDocId < INT_MAX := by
  intro c hc hce
  obtain ⟨term, hterm, hcur⟩ := forall₂_exists_of_mem hall hc
  cases term with
  | none => simp only [CursorAt] at hcur; rw [hcur] at hce; exact absurd hce (by simp)
  | some total =>
    obtain ⟨il, _, _, h | h⟩ := hcur
    · rw [h.1] at hce; exact absurd hce (by simp)
    · have := ((hok total hterm).range _
        (mem_docIdsOf_of_mem_decodedPostings ops _ _ _ h.2.2.1)).2
      simp only [INT_MAX]; omega

theorem disjunctiveInit_spec {D : Type} [Zero D] (ops : DoubleOps D)
    (invertedLists : List (Option (InvertedList D)))
    (terms : List (Option (List (List (Int × Nat)))))
    (hrep : List.Forall₂ RepresentsTerm invertedLists terms)
    (hok : ∀ t, some t ∈ terms → ChunksOK t) :
    ∃ cursors, disjunctiveInit ops invertedLists = some cursors ∧
      List.Forall₂ (CursorAt ops 0) cursors terms := by
  induction hrep with
  | nil => exact ⟨[], rfl, List.Forall₂.nil⟩
  | @cons l term ls ts h _ ih =>
    obtain ⟨cursors, hrun, hall⟩ := ih (fun t ht => hok t (List.mem_cons_of_mem _ ht))
    cases l with
    | none =>
      cases term with
      | none =>
        refine ⟨{ invertedList := none, currentDocId := 0, listExhausted := true } :: cursors,
          ?_, List.Forall₂.cons ?_ hall⟩
        · simp only [disjunctiveInit, hrun]
        · simp only [CursorAt]
      | some total => exact absurd h (by simp [RepresentsTerm])
    | some il =>
      cases term with
      | none => exact absurd h (by simp [RepresentsTerm])
      | some total =>
        have hrep1 : Represents il total := h
        obtain ⟨r, after, hrun1, hafter, hres⟩ := getNextGEQDocId_iterator ops il total 0 0 le_rfl
          ⟨_, hrep1, SkipsTo.refl _ _⟩ (hok total (List.mem_cons_self _ _))
        refine ⟨{ invertedList := some after, currentDocId := r
                  listExhausted := decide (r = -1) } :: cursors,
          ?_, List.Forall₂.cons ?_ hall⟩
        · simp only [disjunctiveInit, hrun1, hrun]
        · refine ⟨after, rfl, hafter, ?_⟩
          rcases hres with ⟨h1, h2⟩ | ⟨h1, h2, h3⟩
          · left; exact ⟨by simp [h1], h2⟩
          · right
            exact ⟨by simp only [decide_eq_false_iff_not]; omega, h1, h2, h3⟩

theorem sumMatchingImpacts_spec {D : Type} [Zero D] [Add D] (ops : DoubleOps D)
    (bound minDocId : Int) (hbm : bound ≤ minDocId) :
    ∀ (cursors : List (ListCursor D)) (terms : List (Option (List (List (Int × Nat))))),
      List.Forall₂ (CursorAt ops bound) cursors terms →
      (∀ c ∈ cursors, c.listExhausted = false → minDocId ≤ c.currentDocId) →
      ∀ total : D, ∃ contributions, List.Forall₂ (Contribution ops minDocId) terms contributions ∧
        sumMatchingImpacts cursors minDocId total = some (sumContributions total contributions) := by
  intro cursors terms hall
  induction hall with
  | nil => intro _ total; exact ⟨[], List.Forall₂.nil, rfl⟩
  | @cons c term cs ts hc _ ih =>
    intro hmin total
    have hmin1 : ∀ c ∈ cs, c.listExhausted = false → minDocId ≤ c.currentDocId :=
      fun x hx => hmin x (List.mem_cons_of_mem _ hx)
    cases term with
    | none =>
      have hce : c.listExhausted = true := hc
      obtain ⟨contributions, h1, h2⟩ := ih hmin1 total
      refine ⟨none :: contributions, List.Forall₂.cons (by simp only [Contribution]) h1, ?_⟩
      have hcond : ¬ (c.listExhausted = false ∧ c.currentDocId = minDocId) := by
        rw [hce]; simp
      simp only [sumMatchingImpacts, if_neg hcond, h2, sumContributions, List.foldl_cons]
    | some t =>
      obtain ⟨il, hil, _, hcase⟩ := hc
      by_cases hcond : c.listExhausted = false ∧ c.currentDocId = minDocId
      · have hx : (minDocId, il.impactScores.getD il.currentPostingIndex 0)
            ∈ decodedPostings ops t := by
          rcases hcase with h | h
          · rw [h.1] at hcond; exact absurd hcond.1 (by simp)
          · rw [← hcond.2]; exact h.2.2.1
        obtain ⟨contributions, h1, h2⟩ :=
          ih hmin1 (total + il.impactScores.getD il.currentPostingIndex 0)
        refine ⟨some (il.impactScores.getD il.currentPostingIndex 0) :: contributions,
          List.Forall₂.cons hx h1, ?_⟩
        simp only [sumMatchingImpacts, if_pos hcond, hil, h2, sumContributions, List.foldl_cons]
      · have hx : minDocId ∉ docIdsOf t := by
          intro hm
          rcases hcase with h | h
          · have := h.2 minDocId hm; omega
          · have h1 := h.2.2.2 minDocId hm hbm
            have h2 := hmin c (List.mem_cons_self _ _) h.1
            exact hcond ⟨h.1, by omega⟩
        obtain ⟨contributions, h1, h2⟩ := ih hmin1 total
        refine ⟨none :: contributions, List.Forall₂.cons hx h1, ?_⟩
        simp only [sumMatchingImpacts, if_neg hcond, h2, sumContributions, List.foldl_cons]

theorem advanceMatching_spec {D : Type} [Zero D] (ops : DoubleOps D)
    (bound minDocId : Int) (hbm : bound ≤ minDocId) (h0 : 0 ≤ minDocId) :
    ∀ (cursors : List (ListCursor D)) (terms : List (Option (List (List (Int × Nat))))),
      List.Forall₂ (CursorAt ops bound) cursors terms →
      (∀ t, some t ∈ terms → ChunksOK t) →
      (∀ c ∈ cursors, c.listExhausted = false → minDocId ≤ c.currentDocId) →
      ∀ flag : Bool, ∃ cursors1 flag1,
        advanceMatching ops cursors minDocId flag = some (cursors1, flag1) ∧
        List.Forall₂ (CursorAt ops (minDocId + 1)) cursors1 terms ∧
        (flag1 = true → flag = true ∧ ∀ c ∈ cursors1, c.listExhausted = true) := by
  intro cursors terms hall
  induction hall with
  | nil =>
    intro _ _ flag
    exact ⟨[], flag, rfl, List.Forall₂.nil, fun h => ⟨h, by simp⟩⟩
  | @cons c term cs ts hc _ ih =>
    intro hok hmin flag
    have hmin1 : ∀ c ∈ cs, c.listExhausted = false → minDocId ≤ c.currentDocId :=
      fun x hx => hmin x (List.mem_cons_of_mem _ hx)
    have hok1 : ∀ t, some t ∈ ts → ChunksOK t := fun t ht => hok t (List.mem_cons_of_mem _ ht)
    -- the cursor after its own step
    have hstep : ∃ c1 : ListCursor D,
        (if c.listExhausted = false ∧ c.currentDocId = minDocId then
          match c.invertedList with
          | none => none
          | some invertedList =>
            match getNextGEQDocId ops invertedList (minDocId + 1) with
            | none => none
            | some (docId, invertedList1) =>
              some { invertedList := some invertedList1, currentDocId := docId
                     listExhausted := decide (docId = -1) }
        else some c) = some c1 ∧ CursorAt ops (minDocId + 1) c1 term := by
      cases term with
      | none =>
        have hce : c.listExhausted = true := hc
        have hcond : ¬ (c.listExhausted = false ∧ c.currentDocId = minDocId) := by
          rw [hce]; simp
        exact ⟨c, by rw [if_neg hcond], hce⟩
      | some t =>
        obtain ⟨il, hil, hit, hcase⟩ := hc
        by_cases hcond : c.listExhausted = false ∧ c.currentDocId = minDocId
        · obtain ⟨r, after, hrun, hafter, hres⟩ := getNextGEQDocId_iterator ops il t bound
            (minDocId + 1) (by omega) hit (hok t (List.mem_cons_self _ _))
          refine ⟨{ invertedList := some after, currentDocId := r
                    listExhausted := decide (r = -1) }, ?_, after, rfl, hafter, ?_⟩
          · rw [if_pos hcond]
            simp only [hil, hrun]
          · rcases hres with ⟨h1, h2⟩ | ⟨h1, h2, h3⟩
            · left; exact ⟨by simp [h1], h2⟩
            · right
              exact ⟨by simp only [decide_eq_false_iff_not]; omega, h1, h2, h3⟩
        · refine ⟨c, by rw [if_neg hcond], il, hil,
            IteratorAt_mono bound _ (by omega) _ _ hit, ?_⟩
          rcases hcase with h | h
          · left; exact ⟨h.1, fun d hd => by have := h.2 d hd; omega⟩
          · right
            have h2 := hmin c (List.mem_cons_self _ _) h.1
            have hne : c.currentDocId ≠ minDocId := fun e => hcond ⟨h.1, e⟩
            exact ⟨h.1, by omega, h.2.2.1, fun d hd hle => h.2.2.2 d hd (by omega)⟩
    obtain ⟨c1, hc1, hcur1⟩ := hstep
    obtain ⟨cursors1, flag1, hrun, hall1, hflag⟩ :=
      ih hok1 hmin1 (if c1.listExhausted = false then false else flag)
    refine ⟨c1 :: cursors1, flag1, ?_, List.Forall₂.cons hcur1 hall1, ?_⟩
    · simp only [advanceMatching, hc1, hrun]
    · intro hf
      obtain ⟨h1, h2⟩ := hflag hf
      by_cases hce : c1.listExhausted = false
      · rw [if_pos hce] at h1; exact absurd h1 (by simp)
      · rw [if_neg hce] at h1
        refine ⟨h1, ?_⟩
        intro x hx
        rcases List.mem_cons.1 hx with e | e
        · subst e; simpa using hce
        · exact h2 x e

theorem forall₂_exists_of_mem_right {α β : Type} {R : α → β → Prop} {l1 : List α}
    {l2 : List β} (h : List.Forall₂ R l1 l2) {b : β} (hb : b ∈ l2) : ∃ a, a ∈ l1 ∧ R a b := by
  induction h with
  | nil => simp at hb
  | @cons x y xs ys hxy _ ih =>
    rcases List.mem_cons.1 hb with h | h
    · subst h; exact ⟨x, List.mem_cons_self _ _, hxy⟩
    · obtain ⟨a, ha, hr⟩ := ih h
      exact ⟨a, List.mem_cons_of_mem _ ha, hr⟩

theorem mem_presentDocIds (terms : List (Option (List (List (Int × Nat))))) (d : Int) :
    d ∈ presentDocIds terms ↔ ∃ t, some t ∈ terms ∧ d ∈ docIdsOf t := by
  simp only [presentDocIds, List.mem_flatMap]
  constructor
  · rintro ⟨term, hterm, hd⟩
    cases term with
    | none => simp at hd
    | some t => exact ⟨t, hterm, hd⟩
  · rintro ⟨t, ht, hd⟩
    exact ⟨some t, ht, hd⟩

/-- The main loop of `disjunctiveDocumentAtATime` from any state in which every
docID below `bound` has been dealt with. -/
theorem disjunctiveLoop_spec {D : Type} [Zero D] [Add D] [LT D]
    [DecidableRel (fun a b : D => a < b)] (ops : DoubleOps D)
    (terms : List (Option (List (List (Int × Nat)))))
    (hok : ∀ t, some t ∈ terms → ChunksOK t) :
    ∀ (fuel : Nat) (st : DisjunctiveState D) (bound : Int),
      List.Forall₂ (CursorAt ops bound) st.cursors terms →
      0 ≤ bound →
      (st.allListsExhausted = true → ∀ c ∈ st.cursors, c.listExhausted = true) →
      ((presentDocIds terms).filter (fun d => decide (bound ≤ d))).length < fuel →
      ∃ (st1 : DisjunctiveState D) (offered : List (Int × D)),
        disjunctiveLoop ops fuel st = some st1 ∧
        st1.topK = offered.foldl (fun topK c => updateTopK topK c.1 c.2) st.topK ∧
        (offered.map (fun c => c.1)).Pairwise (fun a b => a < b) ∧
        (∀ d, d ∈ offered.map (fun c => c.1) ↔
          bound ≤ d ∧ ∃ t, some t ∈ terms ∧ d ∈ docIdsOf t) ∧
        ∀ c ∈ offered, ∃ contributions,
          List.Forall₂ (Contribution ops c.1) terms contributions ∧
          c.2 = sumContributions 0 contributions := by
  intro fuel
  induction fuel with
  | zero => intro st bound _ _ _ h; omega
  | succ fuel ih =>
    intro st bound hall h0 hflag hfuel
    obtain ⟨cursors, topK, flag⟩ := st
    simp only at hall hflag
    -- when every list is exhausted no docID from `bound` on is left
    have hnone : (∀ c ∈ cursors, c.listExhausted = true) →
        ∀ d, ¬ (bound ≤ d ∧ ∃ t, some t ∈ terms ∧ d ∈ docIdsOf t) := by
      rintro hex d ⟨hd, t, ht, hdt⟩
      obtain ⟨c, hc, hcur⟩ := forall₂_exists_of_mem_right hall ht
      obtain ⟨il, _, _, h | h⟩ := hcur
      · have := h.2 d hdt; omega
      · have := hex c hc; rw [h.1] at this; exact absurd this (by simp)
    by_cases hf : flag = true
    · refine ⟨{ cursors := cursors, topK := topK, allListsExhausted := flag }, [], ?_, rfl,
        List.Pairwise.nil, ?_, ?_⟩
      · simp only [disjunctiveLoop, hf, if_true]
      · intro d
        simp only [List.map_nil, List.not_mem_nil, false_iff]
        exact hnone (hflag hf) d
      · intro c hc; simp at hc
    · have hf1 : flag = false := by simpa using hf
      rcases findMinDocId_spec cursors (CursorAt.lt_max ops bound cursors terms hall hok) with
        ⟨hm, hex⟩ | ⟨hm, ⟨c0, hc0, hc0e, hc0m⟩, hmin⟩
      · refine ⟨{ cursors := cursors, topK := topK, allListsExhausted := flag }, [], ?_, rfl,
          List.Pairwise.nil, ?_, ?_⟩
        · simp only [disjunctiveLoop, hf1, Bool.false_eq_true, if_false, hm, if_true]
        · intro d
          simp only [List.map_nil, List.not_mem_nil, false_iff]
          exact hnone hex d
        · intro c hc; simp at hc
      · -- the smallest current docID is offered
        obtain ⟨term0, hterm0, hcur0⟩ := forall₂_exists_of_mem hall hc0
        have hm0 : bound ≤ findMinDocId cursors ∧
            ∃ t, some t ∈ terms ∧ findMinDocId cursors ∈ docIdsOf t := by
          cases term0 with
          | none =>
            have : c0.listExhausted = true := hcur0
            rw [hc0e] at this; exact absurd this (by simp)
          | some t0 =>
            obtain ⟨il, _, _, h | h⟩ := hcur0
            · rw [hc0e] at h; exact absurd h.1 (by simp)
            · rw [← hc0m]
              exact ⟨h.2.1, t0, hterm0,
                mem_docIdsOf_of_mem_decodedPostings ops _ _ _ h.2.2.1⟩
        obtain ⟨hbm, t0, ht0, hmt0⟩ := hm0
        have hlow : ∀ d, bound ≤ d → (∃ t, some t ∈ terms ∧ d ∈ docIdsOf t) →
            findMinDocId cursors ≤ d := by
          rintro d hd ⟨t, ht, hdt⟩
          obtain ⟨c, hc, hcur⟩ := forall₂_exists_of_mem_right hall ht
          obtain ⟨il, _, _, h | h⟩ := hcur
          · have := h.2 d hdt; omega
          · have h1 := h.2.2.2 d hdt hd
            have h2 := hmin c hc h.1
            omega
        obtain ⟨contributions, hcon, hsum⟩ := sumMatchingImpacts_spec ops bound
          (findMinDocId cursors) hbm cursors terms hall hmin 0
        obtain ⟨cursors1, flag1, hadv, hall1, hflag1⟩ := advanceMatching_spec ops bound
          (findMinDocId cursors) hbm (by omega) cursors terms hall hok hmin true
        have hlt : ((presentDocIds terms).filter
            (fun d => decide (findMinDocId cursors + 1 ≤ d))).length < fuel := by
          have := filter_ge_length_lt (presentDocIds terms) bound (findMinDocId cursors + 1)
            (findMinDocId cursors) ((mem_presentDocIds terms _).2 ⟨t0, ht0, hmt0⟩) hbm
            (by omega)
          omega
        obtain ⟨st1, offered, hr1, hr2, hr3, hr4, hr5⟩ := ih
          { cursors := cursors1
            topK := updateTopK topK (findMinDocId cursors) (sumContributions 0 contributions)
            allListsExhausted := flag1 } (findMinDocId cursors + 1) hall1 (by omega)
          (fun h => (hflag1 h).2) hlt
        simp only at hr2
        refine ⟨st1, (findMinDocId cursors, sumContributions 0 contributions) :: offered,
          ?_, ?_, ?_, ?_, ?_⟩
        · simp only [disjunctiveLoop, hf1, Bool.false_eq_true, if_false, if_neg hm, hsum, hadv]
          exact hr1
        · simp only [List.foldl_cons]
          exact hr2
        · simp only [List.map_cons, List.pairwise_cons]
          refine ⟨?_, hr3⟩
          intro d hd
          have := ((hr4 d).1 hd).1
          omega
        · intro d
          simp only [List.map_cons]
          constructor
          · intro hd
            rcases List.mem_cons.1 hd with h | h
            · subst h; exact ⟨hbm, t0, ht0, hmt0⟩
            · have := (hr4 d).1 h
              exact ⟨by omega, this.2⟩
          · rintro ⟨h1, h2⟩
            have h3 := hlow d h1 h2
            by_cases hdc : d = findMinDocId cursors
            · exact List.mem_cons.2 (Or.inl hdc)
            · exact List.mem_cons_of_mem _ ((hr4 d).2 ⟨by omega, h2⟩)
        · intro c hcm
          rcases List.mem_cons.1 hcm with h | h
          · subst h; exact ⟨contributions, hcon, rfl⟩
          · exact hr5 c h

/-- C3: for words whose lists are fresh iterators on their postings (`NULL`
for a word that is not in the lexicon) and whose postings have strictly
increasing docIDs, non-negative and below `INT_MAX`,
`disjunctiveDocumentAtATime` returns the sorted heap that results from offering
a sequence `offered` of candidates to the empty top-K heap, where the docIDs of
`offered` are strictly increasing (ascending, no docID is offered twice), a
docID is offered exactly if it occurs in the postings of at least one word that
is in the lexicon, and the score of an offered docID is `0.0` plus, in the
order of the words, the decoded impact of the docID in the postings of each
word that is in the lexicon and holds the docID; a word that is not in the
lexicon adds nothing.  The loop needs more turns than the words have postings
together. -/
theorem disjunctiveDocumentAtATime_offers {D : Type} [Zero D] [Add D] [LT D]
    [DecidableRel (fun a b : D => a < b)] (ops : DoubleOps D) (fuel : Nat)
    (invertedLists : List (Option (InvertedList D)))
    (terms : List (Option (List (List (Int × Nat)))))
    (hrep : List.Forall₂ RepresentsTerm invertedLists terms)
    (hok : ∀ t, some t ∈ terms → ChunksOK t)
    (hfuel : (presentDocIds terms).length < fuel) :
    ∃ offered : List (Int × D),
      disjunctiveDocumentAtATime ops fuel invertedLists =
        some (QueryHeap.heapSort
          (offered.foldl (fun topK c => updateTopK topK c.1 c.2)
            { heap := QueryHeap.createHeap, resultCount := 0 }).heap) ∧
      (offered.map (fun c => c.1)).Pairwise (fun a b => a < b) ∧
      (∀ d, d ∈ offered.map (fun c => c.1) ↔ ∃ t, some t ∈ terms ∧ d ∈ docIdsOf t) ∧
      ∀ c ∈ offered, ∃ contributions,
        List.Forall₂ (Contribution ops c.1) terms contributions ∧
        c.2 = sumContributions 0 contributions := by
  obtain ⟨cursors, hinit, hall⟩ := disjunctiveInit_spec ops invertedLists terms hrep hok
  have hlen : ((presentDocIds terms).filter (fun d => decide ((0 : Int) ≤ d))).length < fuel :=
    lt_of_le_of_lt (List.length_filter_le _ _) hfuel
  obtain ⟨st1, offered, h1, h2, h3, h4, h5⟩ := disjunctiveLoop_spec ops terms hok fuel
    { cursors := cursors
      topK := { heap := QueryHeap.createHeap, resultCount := 0 }
      allListsExhausted := false } 0 hall le_rfl (fun h => absurd h (by simp)) hlen
  refine ⟨offered, ?_, h3, ?_, h5⟩
  · simp only [disjunctiveDocumentAtATime, hinit, h1]
    rw [h2]
  · intro d
    rw [h4 d]
    constructor
    · exact fun h => h.2
    · rintro ⟨t, ht, hd⟩
      exact ⟨((hok t ht).range d hd).1, t, ht, hd⟩

/-! ### The disjunctive evaluator on the concrete index file -/

set_option maxRecDepth 1000000 in
theorem threeWordLists_represent :
    List.Forall₂ RepresentsTerm threeWordLists threeWordPostings :=
  List.Forall₂.cons (by simp only [RepresentsTerm]; decide)
    (List.Forall₂.cons trivial
      (List.Forall₂.cons (by simp only [RepresentsTerm]; decide) List.Forall₂.nil))

set_option maxRecDepth 1000000 in
theorem threeWordPostings_ok : ∀ t, some t ∈ threeWordPostings → ChunksOK t := by
  intro t ht
  simp only [threeWordPostings, List.mem_cons, List.mem_singleton, List.not_mem_nil, or_false,
    Option.some.injEq, reduceCtorEq, false_or] at ht
  rcases ht with h | h <;> subst h <;> exact ⟨by decide, by decide, by decide, by decide⟩

set_option maxRecDepth 1000000 in
theorem disjunctiveDocumentAtATime_offers_witness :
    List.Forall₂ RepresentsTerm threeWordLists threeWordPostings ∧
    (∀ t, some t ∈ threeWordPostings → ChunksOK t) ∧
    (presentDocIds threeWordPostings).length < 9 ∧
    ∃ offered : List (Int × Int),
      disjunctiveDocumentAtATime intOps 9 threeWordLists =
        some (QueryHeap.heapSort
          (offered.foldl (fun topK c => updateTopK topK c.1 c.2)
            { heap := QueryHeap.createHeap, resultCount := 0 }).heap) ∧
      (offered.map (fun c => c.1)).Pairwise (fun a b => a < b) ∧
      (∀ d, d ∈ offered.map (fun c => c.1) ↔
        ∃ t, some t ∈ threeWordPostings ∧ d ∈ docIdsOf t) ∧
      ∀ c ∈ offered, ∃ contributions,
        List.Forall₂ (Contribution intOps c.1) threeWordPostings contributions ∧
        c.2 = sumContributions 0 contributions :=
  ⟨threeWordLists_represent, threeWordPostings_ok, by decide,
    disjunctiveDocumentAtATime_offers intOps 9 threeWordLists threeWordPostings
      threeWordLists_represent threeWordPostings_ok (by decide)⟩

set_option maxRecDepth 1000000 in
theorem disjunctiveDocumentAtATime_threeWord :
    (disjunctiveDocumentAtATime intOps 9 threeWordLists).map
      (fun heap => (heap.nodeCount, (heap.heapNodes.take 6).map (fun n => n.docId)))
      = some (6, [7, 4, 5, 9, 1, 3]) := by decide

/-! ### Records of the intermediate files -/

theorem int32ToBytes_length (v : Int) : (int32ToBytes v).length = 4 := by
  simp [int32ToBytes]

theorem intsToBytes_length (vs : List Int) : (intsToBytes vs).length = 4 * vs.length := by
  induction vs with
  | nil => simp [intsToBytes]
  | cons v vs ih =>
    simp only [intsToBytes, List.flatMap_cons, List.length_append, int32ToBytes_length,
      List.length_cons] at ih ⊢
    omega

theorem int32OfBytes_int32ToBytes (v : Int) (h1 : -2 ^ 31 ≤ v) (h2 : v < 2 ^ 31) :
    int32OfBytes ((v % 2 ^ 32).toNat % 256) ((v % 2 ^ 32).toNat / 256 % 256)
      ((v % 2 ^ 32).toNat / 65536 % 256) ((v % 2 ^ 32).toNat / 16777216 % 256) = v := by
  simp only [int32OfBytes]
  have hu : (v % 2 ^ 32).toNat < 2 ^ 32 := by omega
  have hsum : (v % 2 ^ 32).toNat % 256 + 256 * ((v % 2 ^ 32).toNat / 256 % 256)
      + 65536 * ((v % 2 ^ 32).toNat / 65536 % 256)
      + 16777216 * ((v % 2 ^ 32).toNat / 16777216 % 256) = (v % 2 ^ 32).toNat := by omega
  rw [hsum]
  split <;> omega

theorem intsOfBytes_intsToBytes (vs : List Int) (h : ∀ d ∈ vs, -2 ^ 31 ≤ d ∧ d < 2 ^ 31) :
    intsOfBytes (intsToBytes vs) = vs := by
  induction vs with
  | nil => simp [intsToBytes, intsOfBytes]
  | cons v vs ih =>
    have hv := h v (List.mem_cons_self _ _)
    have := ih (fun d hd => h d (List.mem_cons_of_mem _ hd))
    simp only [intsToBytes, List.flatMap_cons] at this ⊢
    simp only [int32ToBytes, List.cons_append, List.nil_append, intsOfBytes]
    rw [int32OfBytes_int32ToBytes v hv.1 hv.2]
    exact congrArg _ this

theorem readInt32_append (pre post : List Nat) :
    readInt32 (pre ++ post) pre.length = readInt32 post 0 := by
  simp only [readInt32, List.getD_eq_getElem?_getD, Nat.zero_add]
  rw [List.getElem?_append_right (le_refl _), List.getElem?_append_right (by omega),
    List.getElem?_append_right (by omega), List.getElem?_append_right (by omega)]
  simp

theorem readInt32_int32ToBytes (v : Int) (rest : List Nat) (h1 : -2 ^ 31 ≤ v) (h2 : v < 2 ^ 31) :
    readInt32 (int32ToBytes v ++ rest) 0 = v := by
  simp only [readInt32, int32ToBytes, List.cons_append, List.nil_append, List.getD_cons_zero,
    List.getD_cons_succ, Nat.zero_add]
  exact int32OfBytes_int32ToBytes v h1 h2

theorem readInt32_take (buffer : List Nat) (k s : Nat) (h : s + 4 ≤ k) :
    readInt32 (buffer.take k) s = readInt32 buffer s := by
  simp only [readInt32, List.getD_eq_getElem?_getD]
  rw [List.getElem?_take_of_lt (by omega), List.getElem?_take_of_lt (by omega),
    List.getElem?_take_of_lt (by omega), List.getElem?_take_of_lt (by omega)]

theorem encodeParsedItem_length (item : ParsedItem) (hwf : RecordWF item) :
    (encodeParsedItem item).length = 4 + item.word.length + 4 + 8 * item.docIds.length := by
  simp only [encodeParsedItem, List.length_append, int32ToBytes_length, intsToBytes_length,
    hwf.freq_len]
  omega

theorem toSizeT_natCast (n : Nat) (h : n < 2 ^ 31) : toSizeT (n : Int) = n := by
  simp only [toSizeT]
  omega

theorem convertBinaryToParsedItem_full (item : ParsedItem) (hwf : RecordWF item)
    (tail : List Nat) :
    convertBinaryToParsedItem (encodeParsedItem item ++ tail) = some (some item, tail) := by
  obtain ⟨word, pc, docIds, freqs⟩ := item
  have h1 := hwf.word_lt
  have h2 := hwf.count_eq
  have h3 := hwf.freq_len
  have h4 := hwf.count_lt
  simp only at h1 h2 h3 h4
  subst h2
  have hlenE := encodeParsedItem_length _ hwf
  simp only at hlenE
  have hlen : (encodeParsedItem ⟨word, (docIds.length : Int), docIds, freqs⟩ ++ tail).length
      = 4 + word.length + 4 + 8 * docIds.length + tail.length := by
    rw [List.length_append, hlenE]
  have hform : encodeParsedItem ⟨word, (docIds.length : Int), docIds, freqs⟩ ++ tail
      = int32ToBytes (word.length : Int) ++ (word ++ (int32ToBytes (docIds.length : Int)
          ++ (intsToBytes docIds ++ (intsToBytes freqs ++ tail)))) := by
    simp only [encodeParsedItem, List.append_assoc]
  have hwlr : readInt32 (encodeParsedItem ⟨word, (docIds.length : Int), docIds, freqs⟩ ++ tail) 0
      = (word.length : Int) := by
    rw [hform]; exact readInt32_int32ToBytes _ _ (by omega) (by omega)
  have hpcr : readInt32 (encodeParsedItem ⟨word, (docIds.length : Int), docIds, freqs⟩ ++ tail)
      (4 + word.length) = (docIds.length : Int) := by
    have e : encodeParsedItem ⟨word, (docIds.length : Int), docIds, freqs⟩ ++ tail
        = (int32ToBytes (word.length : Int) ++ word) ++ (int32ToBytes (docIds.length : Int)
          ++ (intsToBytes docIds ++ (intsToBytes freqs ++ tail))) := by
      simp only [encodeParsedItem, List.append_assoc]
    have l : (int32ToBytes (word.length : Int) ++ word).length = 4 + word.length := by
      rw [List.length_append, int32ToBytes_length]
    rw [e, ← l, readInt32_append]
    exact readInt32_int32ToBytes _ _ (by omega) (by omega)
  have hts1 := toSizeT_natCast word.length h1
  have hts2 := toSizeT_natCast docIds.length h4
  have hword : ((encodeParsedItem ⟨word, (docIds.length : Int), docIds, freqs⟩ ++ tail).drop 4).take
      word.length = word := by
    rw [hform, List.drop_left' (int32ToBytes_length _), List.take_left' rfl]
  have hdoc : intsOfBytes (((encodeParsedItem ⟨word, (docIds.length : Int), docIds, freqs⟩
      ++ tail).drop (4 + word.length + 4)).take (4 * docIds.length)) = docIds := by
    have e : encodeParsedItem ⟨word, (docIds.length : Int), docIds, freqs⟩ ++ tail
        = (int32ToBytes (word.length : Int) ++ word ++ int32ToBytes (docIds.length : Int))
          ++ (intsToBytes docIds ++ (intsToBytes freqs ++ tail)) := by
      simp only [encodeParsedItem, List.append_assoc]
    rw [e, List.drop_left' (by simp only [List.length_append, int32ToBytes_length]),
      List.take_left' (intsToBytes_length _)]
    exact intsOfBytes_intsToBytes _ hwf.docIds_range
  have hfreq : intsOfBytes (((encodeParsedItem ⟨word, (docIds.length : Int), docIds, freqs⟩
      ++ tail).drop (4 + word.length + 4 + 4 * docIds.length)).take (4 * docIds.length))
      = freqs := by
    have e : encodeParsedItem ⟨word, (docIds.length : Int), docIds, freqs⟩ ++ tail
        = (int32ToBytes (word.length : Int) ++ word ++ int32ToBytes (docIds.length : Int)
          ++ intsToBytes docIds) ++ (intsToBytes freqs ++ tail) := by
      simp only [encodeParsedItem, List.append_assoc]
    rw [e, List.drop_left' (by simp only [List.length_append, int32ToBytes_length,
        intsToBytes_length]),
      List.take_left' (by rw [intsToBytes_length, h3])]
    exact intsOfBytes_intsToBytes _ hwf.freq_range
  have htail : (encodeParsedItem ⟨word, (docIds.length : Int), docIds, freqs⟩ ++ tail).drop
      (4 + word.length + 4 + docIds.length * 4 * 2) = tail := by
    exact List.drop_left' (by rw [hlenE]; omega)
  have hmod1 : (4 + word.length) % 2 ^ 64 = 4 + word.length := Nat.mod_eq_of_lt (by omega)
  have hmod2 : (4 + word.length + 4) % 2 ^ 64 = 4 + word.length + 4 :=
    Nat.mod_eq_of_lt (by omega)
  have hmod3 : (4 + word.length + 4 + docIds.length * 4 * 2) % 2 ^ 64
      = 4 + word.length + 4 + docIds.length * 4 * 2 := Nat.mod_eq_of_lt (by omega)
  simp only [convertBinaryToParsedItem, hwlr, hpcr, hts1, hts2, Int.toNat_ofNat, hmod1, hmod2,
    hmod3, hword, hdoc, hfreq, htail]
  rw [if_neg (by rw [hlen]; omega), if_neg (by rw [hlen]; omega), if_neg (by omega),
    if_neg (by rw [hlen]; omega), if_neg (by rw [hlen]; omega), if_neg (by omega)]

theorem convertBinaryToParsedItem_partial (item : ParsedItem) (hwf : RecordWF item)
    (more : List Nat) (k : Nat) (hk : k < (encodeParsedItem item).length) :
    convertBinaryToParsedItem ((encodeParsedItem item ++ more).take k)
      = some (none, (encodeParsedItem item ++ more).take k) := by
  have h1 := hwf.word_lt
  have h4 := hwf.count_lt
  have hlenE := encodeParsedItem_length _ hwf
  have hlen : ((encodeParsedItem item ++ more).take k).length = k := by
    rw [List.length_take, List.length_append]; omega
  have hts1 := toSizeT_natCast item.word.length h1
  have hts2 := toSizeT_natCast item.docIds.length h4
  have hfull := convertBinaryToParsedItem_full item hwf more
  have hwlr : readInt32 (encodeParsedItem item ++ more) 0 = (item.word.length : Int) := by
    have hform : encodeParsedItem item ++ more
        = int32ToBytes (item.word.length : Int) ++ (item.word ++ (int32ToBytes item.postingCount
            ++ (intsToBytes item.docIds ++ (intsToBytes item.frequencies ++ more)))) := by
      simp only [encodeParsedItem, List.append_assoc]
    rw [hform]; exact readInt32_int32ToBytes _ _ (by omega) (by omega)
  have hpcr : readInt32 (encodeParsedItem item ++ more) (4 + item.word.length)
      = (item.docIds.length : Int) := by
    have e : encodeParsedItem item ++ more
        = (int32ToBytes (item.word.length : Int) ++ item.word) ++ (int32ToBytes item.postingCount
          ++ (intsToBytes item.docIds ++ (intsToBytes item.frequencies ++ more))) := by
      simp only [encodeParsedItem, List.append_assoc]
    have l : (int32ToBytes (item.word.length : Int) ++ item.word).length
        = 4 + item.word.length := by
      rw [List.length_append, int32ToBytes_length]
    rw [e, ← l, readInt32_append, hwf.count_eq]
    exact readInt32_int32ToBytes _ _ (by omega) (by omega)
  have hmod1 : (4 + item.word.length) % 2 ^ 64 = 4 + item.word.length :=
    Nat.mod_eq_of_lt (by omega)
  have hmod2 : (4 + item.word.length + 4) % 2 ^ 64 = 4 + item.word.length + 4 :=
    Nat.mod_eq_of_lt (by omega)
  have hmod3 : (4 + item.word.length + 4 + item.docIds.length * 4 * 2) % 2 ^ 64
      = 4 + item.word.length + 4 + item.docIds.length * 4 * 2 := Nat.mod_eq_of_lt (by omega)
  unfold convertBinaryToParsedItem
  simp only [hlen]
  by_cases c1 : k < 4
  · rw [if_pos c1]
  · rw [if_neg c1]
    rw [readInt32_take _ k 0 (by omega), hwlr]
    simp only [hts1, hmod1, hmod2, Int.toNat_ofNat]
    by_cases c2 : k < 4 + item.word.length
    · rw [if_pos c2]
    · rw [if_neg c2, if_neg (by omega)]
      by_cases c3 : k < 4 + item.word.length + 4
      · rw [if_pos c3]
      · rw [if_neg c3]
        rw [readInt32_take _ k _ (by omega), hpcr]
        simp only [hts2, hmod3]
        rw [if_pos (by omega)]

/-! ### Array heaps under any comparison -/

namespace ArrayHeap

variable {α : Type} [Inhabited α]

/-- Whatever the comparison, `heapify` permutes the nodes below `nodeCount`. -/
theorem heapifyLoop_perm (less : α → α → Bool) :
    ∀ (fuel : Nat) (h : ArrayHeap α) (i : Nat), h.nodeCount ≤ h.heapNodes.length →
      (heapifyLoop less fuel h i).nodeCount = h.nodeCount ∧
      (heapifyLoop less fuel h i).heapNodes.length = h.heapNodes.length ∧
      (heapifyLoop less fuel h i).heapNodes.Perm h.heapNodes ∧
      (heapifyLoop less fuel h i).heapNodes.drop h.nodeCount = h.heapNodes.drop h.nodeCount := by
  intro fuel
  induction fuel with
  | zero => intro h i _; exact ⟨rfl, rfl, List.Perm.refl _, rfl⟩
  | succ fuel ih =>
    intro h i hlen
    by_cases hin : i < h.nodeCount
    swap
    · have : heapifyLoop less (fuel + 1) h i = h := by simp [heapifyLoop, hin]
      rw [this]
      exact ⟨rfl, rfl, List.Perm.refl _, rfl⟩
    · obtain ⟨s, hs, hdef⟩ : ∃ s, s < h.nodeCount ∧
            heapifyLoop less (fuel + 1) h i =
              if s ≠ i then
                heapifyLoop less fuel { h with heapNodes := swapHeapNodes h.heapNodes i s } s
              else h := by
        by_cases hl : 2 * i + 1 < h.nodeCount ∧
            less (h.heapNodes.getD (2 * i + 1) default) (h.heapNodes.getD i default) = true
        · by_cases hr : 2 * i + 2 < h.nodeCount ∧
              less (h.heapNodes.getD (2 * i + 2) default) (h.heapNodes.getD (2 * i + 1) default) = true
          · refine ⟨2 * i + 2, hr.1, ?_⟩
            simp only [heapifyLoop, if_pos hin, hl, hr, and_self, and_true, and_false, if_true, if_false, true_and, false_and, not_false_eq_true, not_true_eq_false]
          · refine ⟨2 * i + 1, hl.1, ?_⟩
            simp only [heapifyLoop, if_pos hin, hl, hr, and_self, and_true, and_false, if_true, if_false, true_and, false_and, not_false_eq_true, not_true_eq_false]
        · by_cases hr : 2 * i + 2 < h.nodeCount ∧
              less (h.heapNodes.getD (2 * i + 2) default) (h.heapNodes.getD i default) = true
          · refine ⟨2 * i + 2, hr.1, ?_⟩
            simp only [heapifyLoop, if_pos hin, hl, hr, and_self, and_true, and_false, if_true, if_false, true_and, false_and, not_false_eq_true, not_true_eq_false]
          · refine ⟨i, hin, ?_⟩
            simp only [heapifyLoop, if_pos hin, hl, hr, and_self, and_true, and_false, if_true, if_false, true_and, false_and, not_false_eq_true, not_true_eq_false]
      rw [hdef]
      by_cases hsi : s ≠ i
      · rw [if_pos hsi]
        obtain ⟨e1, e2, e3, e4⟩ := ih { h with heapNodes := swapHeapNodes h.heapNodes i s } s
          (by simp only [swapHeapNodes_length]; exact hlen)
        simp only [swapHeapNodes_length] at e1 e2 e4
        refine ⟨e1, e2, e3.trans (swapHeapNodes_perm _ _ _ (by omega) (by omega)), ?_⟩
        rw [e4, swapHeapNodes_drop _ _ _ _ hin hs]
      · rw [if_neg hsi]
        exact ⟨rfl, rfl, List.Perm.refl _, rfl⟩

/-- Whatever the comparison, `extractMin` returns the node at index 0 and
leaves the other nodes in the heap. -/
theorem extractMin_perm (less : α → α → Bool) (h : ArrayHeap α)
    (hpos : 0 < h.nodeCount) (hlen : h.nodeCount ≤ h.heapNodes.length) :
    (extractMin less h).1 = h.heapNodes.getD 0 default ∧
    (extractMin less h).2.nodeCount = h.nodeCount - 1 ∧
    (extractMin less h).2.heapNodes.length = h.heapNodes.length ∧
    (h.heapNodes.take h.nodeCount).Perm
      ((extractMin less h).1 :: (extractMin less h).2.heapNodes.take (h.nodeCount - 1)) := by
  obtain ⟨heap1, hheap1⟩ : ∃ heap1 : ArrayHeap α, heap1 =
    { nodeCount := h.nodeCount - 1
      heapNodes := h.heapNodes.set 0 (h.heapNodes.getD (h.nodeCount - 1) default) } := ⟨_, rfl⟩
  obtain ⟨e1, e2, e3, e4⟩ := heapifyLoop_perm less (h.nodeCount - 1) heap1 0
    (by simp [hheap1]; omega)
  have hres : (extractMin less h).2 = heapifyLoop less (h.nodeCount - 1) heap1 0 := by
    rw [hheap1]; rfl
  have hmin : (extractMin less h).1 = h.heapNodes.getD 0 default := rfl
  rw [hres, hmin]
  have hn1 : heap1.nodeCount = h.nodeCount - 1 := by rw [hheap1]
  refine ⟨rfl, by rw [e1, hn1], by rw [e2, hheap1]; simp, ?_⟩
  rw [hn1] at e4
  have hp := perm_take_of_perm_of_drop _ _ (h.nodeCount - 1) e3 e4
  refine List.Perm.trans ?_ (List.Perm.cons _ hp.symm)
  obtain ⟨n, hn⟩ : ∃ n, h.nodeCount = n + 1 := ⟨h.nodeCount - 1, by omega⟩
  cases hl : h.heapNodes with
  | nil => rw [hl] at hlen; simp at hlen; omega
  | cons a0 rest =>
    simp only [hheap1, hl, hn, Nat.add_sub_cancel, List.set_cons_zero, List.take_succ_cons,
      List.getD_cons_zero]
    rcases Nat.eq_zero_or_pos n with h0 | hnpos
    · subst h0; simp
    · obtain ⟨m, hm⟩ : ∃ m, n = m + 1 := ⟨n - 1, by omega⟩
      subst hm
      have hml : m < rest.length := by rw [hl] at hlen; simp at hlen; omega
      have hgetm : (a0 :: rest).getD (m + 1) default = rest[m] := by
        simp [List.getD_eq_getElem?_getD, hml]
      rw [hgetm, List.take_succ_cons, List.take_succ, List.getElem?_eq_getElem hml]
      simp only [Option.toList_some]
      refine List.Perm.cons _ ?_
      exact List.perm_append_singleton _ _

/-- Whatever the comparison, the bubble-up loop permutes the nodes below `n`. -/
theorem bubbleUp_perm (less : α → α → Bool) (n : Nat) :
    ∀ (fuel : Nat) (a : List α) (i : Nat), i < n → n ≤ a.length →
      (bubbleUp less fuel a i).length = a.length ∧
      (bubbleUp less fuel a i).Perm a ∧
      (bubbleUp less fuel a i).drop n = a.drop n := by
  intro fuel
  induction fuel with
  | zero => intro a i _ _; exact ⟨rfl, List.Perm.refl _, rfl⟩
  | succ fuel ih =>
    intro a i hin hlen
    by_cases hpos : i > 0
    swap
    · have hb : bubbleUp less (fuel + 1) a i = a := by simp [bubbleUp, hpos]
      rw [hb]
      exact ⟨rfl, List.Perm.refl _, rfl⟩
    · by_cases hlt : less (a.getD i default) (a.getD ((i - 1) / 2) default) = true
      · have hb : bubbleUp less (fuel + 1) a i
            = bubbleUp less fuel (swapHeapNodes a i ((i - 1) / 2)) ((i - 1) / 2) := by
          simp only [bubbleUp, if_pos hpos, if_pos hlt]
        rw [hb]
        obtain ⟨e1, e2, e3⟩ := ih (swapHeapNodes a i ((i - 1) / 2)) ((i - 1) / 2) (by omega)
          (by rw [swapHeapNodes_length]; exact hlen)
        rw [swapHeapNodes_length] at e1
        refine ⟨e1, e2.trans (swapHeapNodes_perm _ _ _ (by omega) (by omega)), ?_⟩
        rw [e3, swapHeapNodes_drop _ _ _ _ hin (by omega)]
      · have hb : bubbleUp less (fuel + 1) a i = a := by
          simp only [bubbleUp, if_pos hpos, if_neg hlt]
        rw [hb]
        exact ⟨rfl, List.Perm.refl _, rfl⟩

/-- Whatever the comparison, `insertHeapNode` adds the node to the nodes of the
heap. -/
theorem insertHeapNode_perm (less : α → α → Bool) (h : ArrayHeap α) (x : α)
    (hlen : h.nodeCount < h.heapNodes.length) :
    (insertHeapNode less h x).nodeCount = h.nodeCount + 1 ∧
    (insertHeapNode less h x).heapNodes.length = h.heapNodes.length ∧
    ((insertHeapNode less h x).heapNodes.take (h.nodeCount + 1)).Perm
      (x :: h.heapNodes.take h.nodeCount) := by
  obtain ⟨e1, e2, e3⟩ := bubbleUp_perm less (h.nodeCount + 1) (h.nodeCount + 1)
    (h.heapNodes.set h.nodeCount x) h.nodeCount (by omega) (by simp; omega)
  refine ⟨rfl, by simp [insertHeapNode, e1], ?_⟩
  have hp := perm_take_of_perm_of_drop _ _ (h.nodeCount + 1) e2 e3
  simp only [insertHeapNode]
  refine hp.trans ?_
  rw [take_succ_set _ _ _ hlen]
  exact List.perm_append_singleton _ _

end ArrayHeap

/-! ### The steps of the merge -/

theorem convertBinaryToParsedItem_rem (buf unread : List Nat) (rem : List ParsedItem)
    (hwf : ∀ item ∈ rem, RecordWF item) (h : buf ++ unread = encodeParsedItems rem) :
    convertBinaryToParsedItem buf = some (none, buf) ∨
    ∃ item rem1 tail, rem = item :: rem1 ∧
      convertBinaryToParsedItem buf = some (some item, tail) ∧
      tail ++ unread = encodeParsedItems rem1 := by
  cases rem with
  | nil =>
    left
    simp only [encodeParsedItems, List.flatMap_nil, List.append_eq_nil] at h
    rw [h.1]
    rfl
  | cons item rem1 =>
    have hw := hwf item (List.mem_cons_self _ _)
    have h1 : buf ++ unread = encodeParsedItem item ++ encodeParsedItems rem1 := by
      rw [h]; simp only [encodeParsedItems, List.flatMap_cons]
    by_cases hl : (encodeParsedItem item).length ≤ buf.length
    · right
      have e1 : buf = encodeParsedItem item ++ buf.drop (encodeParsedItem item).length := by
        have := congrArg (List.take (encodeParsedItem item).length) h1
        rw [List.take_append_of_le_length hl, List.take_left' rfl] at this
        conv_lhs => rw [← List.take_append_drop (encodeParsedItem item).length buf]
        rw [this]
      have e2 : buf.drop (encodeParsedItem item).length ++ unread = encodeParsedItems rem1 := by
        have := congrArg (List.drop (encodeParsedItem item).length) h1
        rw [List.drop_append_of_le_length hl, List.drop_left' rfl] at this
        exact this
      refine ⟨item, rem1, buf.drop (encodeParsedItem item).length, rfl, ?_, e2⟩
      conv_lhs => rw [e1]
      exact convertBinaryToParsedItem_full item hw _
    · left
      have e1 : buf = (encodeParsedItem item ++ encodeParsedItems rem1).take buf.length := by
        rw [← h1, List.take_left' rfl]
      have := convertBinaryToParsedItem_partial item hw (encodeParsedItems rem1) buf.length
        (by omega)
      rw [← e1] at this
      exact this

theorem mapIntermediateContentFromDisk_inv (file : IntermediateFile) (rem : List ParsedItem)
    (h : FileInv file rem) : FileInv (mapIntermediateContentFromDisk file).2 rem := by
  unfold mapIntermediateContentFromDisk
  simp only
  by_cases hoff : file.offset ≥ file.content.length
  · rw [if_pos hoff]; exact h
  · rw [if_neg hoff]
    simp only [FileInv, Option.getD_some] at h ⊢
    obtain ⟨m, hm⟩ : ∃ m, (if file.content.length - file.offset < READ_SIZE
        then file.content.length - file.offset else READ_SIZE) = m := ⟨_, rfl⟩
    rw [hm]
    have hsplit : (file.content.drop file.offset).take m ++ file.content.drop (file.offset + m)
        = file.content.drop file.offset := by
      rw [← List.drop_drop, List.take_append_drop]
    cases hrb : file.remainingBuffer with
    | none =>
      rw [hrb] at h
      simp only [Option.getD_none, List.nil_append] at h ⊢
      rw [hsplit]; exact h
    | some old =>
      rw [hrb] at h
      simp only [Option.getD_some] at h ⊢
      by_cases hold : old.length > 0
      · rw [if_pos hold, List.append_assoc, hsplit]; exact h
      · rw [if_neg hold]
        have : old = [] := List.length_eq_zero.1 (by omega)
        rw [this] at h
        simp only [List.nil_append] at h
        rw [hsplit]; exact h

theorem forall₂_set {α β : Type} {R : α → β → Prop} {l1 : List α} {l2 : List β}
    (h : List.Forall₂ R l1 l2) (i : Nat) (a : α) (b : β) (hab : R a b) :
    List.Forall₂ R (l1.set i a) (l2.set i b) := by
  induction h generalizing i with
  | nil => exact List.Forall₂.nil
  | @cons x y xs ys hxy hrest ih =>
    cases i with
    | zero => exact List.Forall₂.cons hab hrest
    | succ i => exact List.Forall₂.cons hxy (ih i)

theorem forall₂_getElem? {α β : Type} {R : α → β → Prop} {l1 : List α} {l2 : List β}
    (h : List.Forall₂ R l1 l2) (i : Nat) (a : α) (ha : l1[i]? = some a) :
    ∃ b, l2[i]? = some b ∧ R a b := by
  induction h generalizing i with
  | nil => simp at ha
  | @cons x y xs ys hxy hrest ih =>
    cases i with
    | zero =>
      simp only [List.getElem?_cons_zero, Option.some.injEq] at ha
      subst ha
      exact ⟨y, List.getElem?_cons_zero, hxy⟩
    | succ i =>
      simp only [List.getElem?_cons_succ] at ha ⊢
      exact ih i ha

theorem sum_length_set {α : Type} (l : List (List α)) (i : Nat) (x : α) (xs : List α)
    (h : l[i]? = some (x :: xs)) :
    ((l.set i xs).map List.length).sum + 1 = (l.map List.length).sum := by
  induction l generalizing i with
  | nil => simp at h
  | cons y ys ih =>
    cases i with
    | zero =>
      simp only [List.getElem?_cons_zero, Option.some.injEq] at h
      subst h
      simp only [List.set_cons_zero, List.map_cons, List.sum_cons, List.length_cons]
      omega
    | succ i =>
      simp only [List.getElem?_cons_succ] at h
      have := ih i h
      simp only [List.set_cons_succ, List.map_cons, List.sum_cons]
      omega

theorem nodup_length_lt (l : List Nat) (k f : Nat) (hnd : l.Nodup) (hlt : ∀ x ∈ l, x < k)
    (hf : f < k) (hnot : f ∉ l) : l.length < k := by
  have hnd2 : (f :: l).Nodup := List.nodup_cons.2 ⟨hnot, hnd⟩
  have hsub : (f :: l) ⊆ List.range k := by
    intro x hx
    rw [List.mem_range]
    rcases List.mem_cons.1 hx with e | e
    · rw [e]; exact hf
    · exact hlt x e
  have := (List.Nodup.subperm hnd2 hsub).length_le
  simp only [List.length_cons, List.length_range] at this
  omega

theorem forall₂_set_left {α β : Type} {R : α → β → Prop} {l1 : List α} {l2 : List β}
    (h : List.Forall₂ R l1 l2) (i : Nat) (a : α) (b : β) (hb : l2[i]? = some b) (hab : R a b) :
    List.Forall₂ R (l1.set i a) l2 := by
  induction h generalizing i with
  | nil => exact List.Forall₂.nil
  | @cons x y xs ys hxy hrest ih =>
    cases i with
    | zero =>
      simp only [List.getElem?_cons_zero, Option.some.injEq] at hb
      subst hb
      exact List.Forall₂.cons hab hrest
    | succ i =>
      simp only [List.getElem?_cons_succ] at hb
      exact List.Forall₂.cons hxy (ih i hb)

theorem MergeInv.keep {records : List (List ParsedItem)} {k : Nat} {heap : MergeHeap}
    {files : List IntermediateFile} {rem : List (List ParsedItem)}
    (hinv : MergeInv records k heap files rem) (f : Nat) (file1 : IntermediateFile)
    (remf : List ParsedItem) (hremf : rem[f]? = some remf) (hfile : FileInv file1 remf) :
    MergeInv records k heap (files.set f file1) rem :=
  { hinv with files_inv := forall₂_set_left hinv.files_inv f file1 remf hremf hfile }

theorem MergeInv.insert {records : List (List ParsedItem)} {k : Nat} {heap : MergeHeap}
    {files : List IntermediateFile} {rem : List (List ParsedItem)}
    (hinv : MergeInv records k heap files rem) (f : Nat) (hf : f < k)
    (hnot : f ∉ (heap.heapNodes.take heap.nodeCount).map (fun node => node.fileNumber))
    (file1 : IntermediateFile) (item : ParsedItem) (rem1 : List ParsedItem)
    (hremf : rem[f]? = some (item :: rem1)) (hfile : FileInv file1 rem1) :
    MergeInv records k (MergeHeap.insertHeapNode heap { fileNumber := f, parsedItem := item })
      (files.set f file1) (rem.set f rem1) ∧
    mergeMeasure (MergeHeap.insertHeapNode heap { fileNumber := f, parsedItem := item })
      (rem.set f rem1) = mergeMeasure heap rem := by
  have hcount : heap.nodeCount < heap.heapNodes.length := by
    have h1 := nodup_length_lt _ k f hinv.heap_nodup
      (by
        intro x hx
        obtain ⟨node, hnode, rfl⟩ := List.mem_map.1 hx
        exact (hinv.heap_nodes node hnode).1) hf hnot
    have h2 := hinv.count_le
    have h3 := hinv.heap_len
    have h4 := hinv.k_le
    simp only [List.length_map, List.length_take] at h1
    omega
  obtain ⟨e1, e2, e3⟩ := ArrayHeap.insertHeapNode_perm MergeHeap.less heap
    { fileNumber := f, parsedItem := item } hcount
  have e1' : (MergeHeap.insertHeapNode heap { fileNumber := f, parsedItem := item }).nodeCount
      = heap.nodeCount + 1 := e1
  have e3' : ((MergeHeap.insertHeapNode heap { fileNumber := f, parsedItem := item }).heapNodes.take
      (heap.nodeCount + 1)).Perm
      ({ fileNumber := f, parsedItem := item } :: heap.heapNodes.take heap.nodeCount) := e3
  have hitem : item ∈ records.getD f [] := by
    apply hinv.rem_sub f
    rw [List.getD_eq_getElem?_getD, hremf]
    exact List.mem_cons_self _ _
  refine ⟨?_, ?_⟩
  · refine
      { files_inv := forall₂_set hinv.files_inv f file1 rem1 hfile
        rem_len := by rw [List.length_set]; exact hinv.rem_len
        rem_sub := ?_
        heap_len := by rw [← hinv.heap_len]; exact e2
        k_le := hinv.k_le
        count_le := by rw [e1']; have := hinv.heap_len; omega
        heap_nodes := ?_
        heap_nodup := ?_ }
    · intro i x hx
      by_cases hif : i = f
      · subst hif
        apply hinv.rem_sub i
        rw [List.getD_eq_getElem?_getD, hremf]
        rw [List.getD_eq_getElem?_getD, List.getElem?_set] at hx
        simp only [if_true] at hx
        split at hx
        · exact List.mem_cons_of_mem _ hx
        · simp at hx
      · apply hinv.rem_sub i
        rw [List.getD_eq_getElem?_getD, List.getElem?_set_ne (Ne.symm hif)] at hx
        rw [List.getD_eq_getElem?_getD]
        exact hx
    · intro node hnode
      rw [e1'] at hnode
      rcases List.mem_cons.1 (e3'.mem_iff.1 hnode) with e | e
      · rw [e]; exact ⟨hf, hitem⟩
      · exact hinv.heap_nodes node e
    · rw [e1']
      have hp := e3'.map (fun node => node.fileNumber)
      rw [hp.nodup_iff, List.map_cons, List.nodup_cons]
      exact ⟨hnot, hinv.heap_nodup⟩
  · simp only [mergeMeasure, e1']
    have := sum_length_set rem f item rem1 hremf
    omega

/-- The refill steps keep the invariant of the merge and do not raise the
number of records left. -/
theorem refill_spec (records : List (List ParsedItem))
    (hwf : ∀ i, ∀ item ∈ records.getD i [], RecordWF item) (k : Nat) (heap : MergeHeap)
    (files : List IntermediateFile) (rem : List (List ParsedItem))
    (hinv : MergeInv records k heap files rem) (f : Nat) (hf : f < k)
    (hnot : f ∉ (heap.heapNodes.take heap.nodeCount).map (fun node => node.fileNumber)) :
    ∃ heap2 files2 c rem2, refill heap files f = some (heap2, files2, c) ∧
      MergeInv records k heap2 files2 rem2 ∧
      mergeMeasure heap2 rem2 ≤ mergeMeasure heap rem := by
  have hflen : files.length = k := by rw [hinv.files_inv.length_eq, hinv.rem_len]
  obtain ⟨file, hfile⟩ : ∃ file, files[f]? = some file :=
    ⟨files[f], List.getElem?_eq_getElem (by omega)⟩
  obtain ⟨remf, hremf, hfinv⟩ := forall₂_getElem? hinv.files_inv f file hfile
  have hwff : ∀ item ∈ remf, RecordWF item := by
    intro item hitem
    apply hwf f
    apply hinv.rem_sub f
    rw [List.getD_eq_getElem?_getD, hremf]
    exact hitem
  rcases convertBinaryToParsedItem_rem _ _ remf hwff hfinv with hnull | ⟨item, rem1, tail, e, hconv, htail⟩
  · -- no record in the buffer: map more
    have hminv := mapIntermediateContentFromDisk_inv file remf hfinv
    by_cases hm : (mapIntermediateContentFromDisk file).1 = false
    · refine ⟨heap, files.set f (mapIntermediateContentFromDisk file).2, true, rem, ?_,
        hinv.keep f _ remf hremf hminv, le_rfl⟩
      simp only [refill, hfile, hnull, if_pos hm]
    · rcases convertBinaryToParsedItem_rem _ _ remf hwff hminv with
        hnull2 | ⟨item, rem1, tail, e, hconv, htail⟩
      · refine ⟨heap, files.set f (mapIntermediateContentFromDisk file).2, false, rem, ?_,
          hinv.keep f _ remf hremf hminv, le_rfl⟩
        simp only [refill, hfile, hnull, if_neg hm, hnull2]
      · subst e
        obtain ⟨h1, h2⟩ := hinv.insert f hf hnot
          { (mapIntermediateContentFromDisk file).2 with remainingBuffer := some tail }
          item rem1 hremf (by simp only [FileInv, Option.getD_some]; exact htail)
        refine ⟨_, _, false, rem.set f rem1, ?_, h1, le_of_eq h2⟩
        simp only [refill, hfile, hnull, if_neg hm, hconv]
  · subst e
    obtain ⟨h1, h2⟩ := hinv.insert f hf hnot { file with remainingBuffer := some tail }
      item rem1 hremf (by simp only [FileInv, Option.getD_some]; exact htail)
    refine ⟨_, _, false, rem.set f rem1, ?_, h1, le_of_eq h2⟩
    simp only [refill, hfile, hconv]

/-- The extraction step keeps the invariant of the merge, returns a record of
the file it names, and leaves no record of that file in the heap. -/
theorem extractMin_inv (records : List (List ParsedItem)) (k : Nat) (heap : MergeHeap)
    (files : List IntermediateFile) (rem : List (List ParsedItem))
    (hinv : MergeInv records k heap files rem) (hpos : 0 < heap.nodeCount) :
    (MergeHeap.extractMin heap).1.fileNumber < k ∧
    (MergeHeap.extractMin heap).1.parsedItem
      ∈ records.getD (MergeHeap.extractMin heap).1.fileNumber [] ∧
    MergeInv records k (MergeHeap.extractMin heap).2 files rem ∧
    mergeMeasure (MergeHeap.extractMin heap).2 rem + 1 = mergeMeasure heap rem ∧
    (MergeHeap.extractMin heap).1.fileNumber ∉
      ((MergeHeap.extractMin heap).2.heapNodes.take
        (MergeHeap.extractMin heap).2.nodeCount).map (fun node => node.fileNumber) := by
  have hlen : heap.nodeCount ≤ heap.heapNodes.length := by
    rw [hinv.heap_len]; exact hinv.count_le
  obtain ⟨e1, e2, e3, e4⟩ := ArrayHeap.extractMin_perm MergeHeap.less heap hpos hlen
  obtain ⟨r, hr⟩ : ∃ r, MergeHeap.extractMin heap = r := ⟨_, rfl⟩
  have hr' : ArrayHeap.extractMin MergeHeap.less heap = r := hr
  rw [hr'] at e1 e2 e3 e4
  rw [hr]
  have hmem : r.1 ∈ heap.heapNodes.take heap.nodeCount :=
    e4.mem_iff.2 (List.mem_cons_self _ _)
  have hnd := hinv.heap_nodup
  rw [(e4.map (fun node => node.fileNumber)).nodup_iff, List.map_cons, List.nodup_cons] at hnd
  refine ⟨(hinv.heap_nodes _ hmem).1, (hinv.heap_nodes _ hmem).2, ?_, ?_, ?_⟩
  · exact
      { files_inv := hinv.files_inv
        rem_len := hinv.rem_len
        rem_sub := hinv.rem_sub
        heap_len := by rw [e3]; exact hinv.heap_len
        k_le := hinv.k_le
        count_le := by rw [e2]; have := hinv.count_le; omega
        heap_nodes := by
          intro node hnode
          rw [e2] at hnode
          exact hinv.heap_nodes node (e4.mem_iff.2 (List.mem_cons_of_mem _ hnode))
        heap_nodup := by rw [e2]; exact hnd.2 }
  · simp only [mergeMeasure, e2]; omega
  · rw [e2]; exact hnd.1

/-! ### The lexicon and the chunks written -/

theorem SlotsInv.set {records : List (List ParsedItem)} {parsedItems : List (Option ParsedItem)}
    (h : SlotsInv records parsedItems) (f : Nat) (item : ParsedItem)
    (hitem : item ∈ records.getD f []) :
    SlotsInv records (parsedItems.set f (some item)) := by
  refine ⟨by rw [List.length_set]; exact h.1, ?_⟩
  intro i x hx
  rw [List.getD_eq_getElem?_getD, List.getElem?_set] at hx
  by_cases hif : f = i
  · subst hif
    rw [if_pos rfl] at hx
    split at hx
    · simp only [Option.getD_some, Option.some.injEq] at hx
      rw [← hx]; exact hitem
    · simp at hx
  · rw [if_neg hif] at hx
    exact h.2 i x (by rw [List.getD_eq_getElem?_getD]; exact hx)

theorem SlotsInv.freed {records : List (List ParsedItem)}
    {parsedItems : List (Option ParsedItem)} (h : SlotsInv records parsedItems) :
    SlotsInv records (parsedItems.map (fun _ => none)) := by
  refine ⟨by rw [List.length_map]; exact h.1, ?_⟩
  intro i x hx
  rw [List.getD_eq_getElem?_getD, List.getElem?_map] at hx
  cases hp : parsedItems[i]? with
  | none => rw [hp] at hx; simp at hx
  | some v => rw [hp] at hx; simp at hx

theorem lastWord_none (parsedItems : List (Option ParsedItem)) :
    ∀ w, lastWord w parsedItems = none →
      w = none ∧ ∀ item, some item ∈ parsedItems → item.postings = [] := by
  induction parsedItems with
  | nil => intro w h; exact ⟨h, by simp⟩
  | cons p ps ih =>
    intro w h
    simp only [lastWord, List.foldl_cons] at h
    cases p with
    | none =>
      obtain ⟨h1, h2⟩ := ih w h
      refine ⟨h1, ?_⟩
      intro item hitem
      rcases List.mem_cons.1 hitem with e | e
      · exact absurd e (by simp)
      · exact h2 item e
    | some it =>
      by_cases hp : it.postings = []
      · simp only [hp, if_true] at h
        obtain ⟨h1, h2⟩ := ih w h
        refine ⟨h1, ?_⟩
        intro item hitem
        rcases List.mem_cons.1 hitem with e | e
        · simp only [Option.some.injEq] at e; rw [e]; exact hp
        · exact h2 item e
      · simp only [hp, if_false] at h
        obtain ⟨h1, _⟩ := ih _ h
        exact absurd h1 (by simp)

theorem zip_map_fst_sublist {α β : Type} : ∀ (a : List α) (b : List β),
    ((a.zip b).map (fun p => p.1)).Sublist a
  | [], _ => by simp
  | _ :: _, [] => by simp
  | x :: xs, y :: ys => by
    simp only [List.zip_cons_cons, List.map_cons]
    exact (zip_map_fst_sublist xs ys).cons₂ x

theorem postings_docIds_sublist (item : ParsedItem) :
    (item.postings.map (fun p => p.1)).Sublist item.docIds := by
  simp only [ParsedItem.postings]
  exact ((List.take_sublist _ _).map _).trans (zip_map_fst_sublist _ _)

theorem itemsDocIds_sorted (records : List (List ParsedItem))
    (hinc : ∀ i, ∀ item ∈ records.getD i [], item.docIds.Pairwise (fun a b => a < b))
    (hcross : ∀ i j, i < j → ∀ a ∈ records.getD i [], ∀ b ∈ records.getD j [],
      ∀ d ∈ a.docIds, ∀ e ∈ b.docIds, d < e) :
    ∀ (slots : List (Option ParsedItem)) (o : Nat),
      (∀ i item, slots.getD i none = some item → item ∈ records.getD (o + i) []) →
      (itemsDocIds slots).Pairwise (fun a b => a < b) ∧
      ∀ d ∈ itemsDocIds slots, ∃ j item, item ∈ records.getD (o + j) [] ∧ d ∈ item.docIds := by
  intro slots
  induction slots with
  | nil => intro o _; simp [itemsDocIds]
  | cons s ss ih =>
    intro o h
    have hss : ∀ i item, ss.getD i none = some item → item ∈ records.getD (o + 1 + i) [] := by
      intro i item hi
      have := h (i + 1) item (by simpa using hi)
      rw [show o + 1 + i = o + (i + 1) from by omega]
      exact this
    obtain ⟨ih1, ih2⟩ := ih (o + 1) hss
    cases s with
    | none =>
      have hsplit : itemsDocIds (none :: ss) = itemsDocIds ss := by
        simp only [itemsDocIds, List.flatMap_cons, List.nil_append]
      rw [hsplit]
      refine ⟨ih1, ?_⟩
      intro d hd
      obtain ⟨j, item, h1, h2⟩ := ih2 d hd
      exact ⟨j + 1, item, by rw [show o + (j + 1) = o + 1 + j from by omega]; exact h1, h2⟩
    | some it =>
      have hsplit : itemsDocIds (some it :: ss)
          = it.postings.map (fun p => p.1) ++ itemsDocIds ss := by
        simp only [itemsDocIds, List.flatMap_cons]
      rw [hsplit]
      have hit : it ∈ records.getD (o + 0) [] := h 0 it (by simp)
      have hsub := postings_docIds_sublist it
      refine ⟨?_, ?_⟩
      · rw [List.pairwise_append]
        refine ⟨(hinc _ it hit).sublist hsub, ih1, ?_⟩
        intro a ha b hb
        obtain ⟨j, item, h1, h2⟩ := ih2 b hb
        exact hcross (o + 0) (o + 1 + j) (by omega) it hit item h1 a (hsub.subset ha) b h2
      · intro d hd
        rcases List.mem_append.1 hd with e | e
        · exact ⟨0, it, hit, hsub.subset e⟩
        · obtain ⟨j, item, h1, h2⟩ := ih2 d e
          exact ⟨j + 1, item, by rw [show o + (j + 1) = o + 1 + j from by omega]; exact h1, h2⟩

theorem termDocIds_append (G T : List (List Int)) (node : LexiconNode)
    (h1 : 1 ≤ node.startChunk) (h2 : node.startChunk ≤ node.endChunk)
    (h3 : node.endChunk ≤ G.length) : termDocIds (G ++ T) node = termDocIds G node := by
  simp only [termDocIds]
  have ha : (node.startChunk - 1).toNat ≤ G.length := by omega
  rw [List.drop_append_of_le_length ha, List.take_append_of_le_length]
  rw [List.length_drop]
  omega

theorem termDocIds_new (G T : List (List Int)) (word : List Nat) :
    termDocIds (G ++ T)
      { word := word, startChunk := (G.length : Int) + 1
        endChunk := (G.length : Int) + (T.length : Int) } = T.flatten := by
  simp only [termDocIds]
  have h1 : ((G.length : Int) + 1 - 1).toNat = G.length := by omega
  have h2 : ((G.length : Int) + (T.length : Int) - ((G.length : Int) + 1) + 1).toNat
      = T.length := by omega
  rw [h1, h2, List.drop_left' rfl, List.take_length]

theorem writtenChunks_snoc {D : Type} (written : List (InvertedIndex D))
    (invertedIndex : InvertedIndex D) :
    writtenChunks (written ++ [invertedIndex])
      = writtenChunks written ++ invertedIndex.absLists := by
  simp [writtenChunks, List.flatMap_append]

/-- One call of `addParsedItemsToInvertedIndex` in the merge loop keeps what has
been written as claimed. -/
theorem addParsedItems_good {D : Type} [Zero D] (ops : DoubleOps D) (docLengths : Int → Int)
    (totalDocCount avgDocLength : Int) (records : List (List ParsedItem))
    (hinc : ∀ i, ∀ item ∈ records.getD i [], item.docIds.Pairwise (fun a b => a < b))
    (hcross : ∀ i j, i < j → ∀ a ∈ records.getD i [], ∀ b ∈ records.getD j [],
      ∀ d ∈ a.docIds, ∀ e ∈ b.docIds, d < e)
    (written : List (InvertedIndex D)) (invertedIndex : InvertedIndex D) (lexicon : Lexicon)
    (parsedItems : List (Option ParsedItem))
    (hwf : IndexWF invertedIndex)
    (hcn : invertedIndex.chunkNumber = (writtenChunks (written ++ [invertedIndex])).length)
    (hlex : LexiconOK lexicon (writtenChunks (written ++ [invertedIndex])))
    (hslots : SlotsInv records parsedItems) :
    match addParsedItemsToInvertedIndex ops parsedItems invertedIndex lexicon docLengths
        totalDocCount avgDocLength with
    | none => ∀ item, some item ∈ parsedItems → item.postings = []
    | some (index1, lexicon1) =>
      IndexWF index1 ∧
      index1.chunkNumber = (writtenChunks (written ++ [index1])).length ∧
      LexiconOK lexicon1 (writtenChunks (written ++ [index1])) := by
  have hspec := addParsedItemsToInvertedIndex_spec ops parsedItems invertedIndex lexicon
    docLengths totalDocCount avgDocLength hwf
  cases hrun : addParsedItemsToInvertedIndex ops parsedItems invertedIndex lexicon docLengths
      totalDocCount avgDocLength with
  | none =>
    rw [hrun] at hspec
    exact (lastWord_none parsedItems none hspec).2
  | some r =>
    obtain ⟨index1, lexicon1⟩ := r
    rw [hrun] at hspec
    obtain ⟨hwf1, T, word, habs, hT, hflat, _, hcn1, _, hlex1⟩ := hspec
    have hG : writtenChunks (written ++ [index1])
        = writtenChunks (written ++ [invertedIndex]) ++ T := by
      rw [writtenChunks_snoc, writtenChunks_snoc, habs, List.append_assoc]
    have hTpos : 0 < T.length := List.length_pos.2 hT
    refine ⟨hwf1, ?_, ?_⟩
    · rw [hG, List.length_append, hcn1, hcn]; push_cast; ring
    · intro node hnode
      rw [hlex1] at hnode
      simp only [addNodeToLexicon, List.mem_append, List.mem_singleton] at hnode
      rw [hG]
      rcases hnode with e | e
      · obtain ⟨a, b, c, d⟩ := hlex node e
        refine ⟨a, b, ?_, ?_⟩
        · rw [List.length_append]; push_cast; omega
        · rw [termDocIds_append _ _ _ a b c]; exact d
      · rw [e, hcn]
        refine ⟨by simp only; omega, by simp only; omega, ?_, ?_⟩
        · simp only [List.length_append]; push_cast; omega
        · rw [termDocIds_new, hflat]
          exact (itemsDocIds_sorted records hinc hcross parsedItems 0
            (by intro i item hi; rw [Nat.zero_add]; exact hslots.2 i item hi)).1

/-! ### The merge loops -/

theorem getD_set_some (parsedItems : List (Option ParsedItem)) (f : Nat) (item : ParsedItem)
    (hf : f < parsedItems.length) : (parsedItems.set f (some item)).getD f none = some item := by
  rw [List.getD_eq_getElem?_getD, List.getElem?_set]
  simp [hf]

/-- The loop that collects the records of one word keeps the invariant of the
merge. -/
theorem collectLoop_spec (records : List (List ParsedItem))
    (hwf : ∀ i, ∀ item ∈ records.getD i [], RecordWF item) :
    ∀ (fuel : Nat) (heap : MergeHeap) (files : List IntermediateFile)
      (parsedItems : List (Option ParsedItem)) (minFileNumber : Nat)
      (rem : List (List ParsedItem)),
      MergeInv records MERGE_HEAP_SIZE heap files rem → SlotsInv records parsedItems →
      (∃ current, parsedItems.getD minFileNumber none = some current) →
      mergeMeasure heap rem < fuel →
      ∃ heap3 files3 parsedItems3 rem3,
        collectLoop fuel heap files parsedItems minFileNumber
          = some (heap3, files3, parsedItems3) ∧
        MergeInv records MERGE_HEAP_SIZE heap3 files3 rem3 ∧ SlotsInv records parsedItems3 ∧
        mergeMeasure heap3 rem3 ≤ mergeMeasure heap rem ∧
        ∃ i current, parsedItems3.getD i none = some current := by
  intro fuel
  induction fuel with
  | zero => intro _ _ _ _ _ _ _ _ h; omega
  | succ fuel ih =>
    intro heap files parsedItems minF rem hinv hslots hcur hfuel
    obtain ⟨current, hcurrent⟩ := hcur
    by_cases hcond : heap.nodeCount > 0 ∧
        strcmp current.word (heap.heapNodes.getD 0 default).parsedItem.word = 0
    · obtain ⟨x1, x2, x3, x4, x5⟩ := extractMin_inv records _ heap files rem hinv hcond.1
      obtain ⟨heap2, files2, c, rem2, hrefill, hinv2, hm2⟩ := refill_spec records hwf _ _ files rem
        x3 _ x1 x5
      have hslots1 := hslots.set _ _ x2
      obtain ⟨heap3, files3, parsedItems3, rem3, hrun, y1, y2, y3, y4⟩ :=
        ih heap2 files2 _ (MergeHeap.extractMin heap).1.fileNumber rem2 hinv2 hslots1
          ⟨_, getD_set_some _ _ _ (by rw [hslots.1]; exact x1)⟩ (by omega)
      refine ⟨heap3, files3, parsedItems3, rem3, ?_, y1, y2, by omega, y4⟩
      simp only [collectLoop, hcurrent, if_pos hcond, hrefill]
      exact hrun
    · refine ⟨heap, files, parsedItems, rem, ?_, hinv, hslots, le_rfl, minF, current, hcurrent⟩
      simp only [collectLoop, hcurrent, if_neg hcond]

/-- No entry is read before its assignment when every entry of `parsedItems`
holds `NULL` at the declaration. -/
theorem readsIndeterminate_nil (parsedItems : List (Option ParsedItem)) :
    readsIndeterminate [] parsedItems = false := rfl

/-- The merge loop of `buildIndex`, started with no entry of `parsedItems` that
holds an indeterminate value other than `NULL`, keeps what it writes as
claimed; it returns unless a record without postings makes
`addParsedItemsToInvertedIndex` pass a null word to `addNodeToLexicon`. -/
theorem mergeLoop_spec {D : Type} [Zero D] (ops : DoubleOps D) (docLengths : Int → Int)
    (totalDocCount avgDocLength : Int) (records : List (List ParsedItem))
    (hwf : ∀ i, ∀ item ∈ records.getD i [], RecordWF item)
    (hinc : ∀ i, ∀ item ∈ records.getD i [], item.docIds.Pairwise (fun a b => a < b))
    (hcross : ∀ i j, i < j → ∀ a ∈ records.getD i [], ∀ b ∈ records.getD j [],
      ∀ d ∈ a.docIds, ∀ e ∈ b.docIds, d < e) :
    ∀ (fuel : Nat) (st : MergeState D) (rem : List (List ParsedItem)),
      MergeInv records MERGE_HEAP_SIZE st.heap st.files rem → SlotsInv records st.parsedItems →
      StateGood st → st.indeterminate = [] → mergeMeasure st.heap rem < fuel →
      match mergeLoop ops docLengths totalDocCount avgDocLength fuel st with
      | some st1 => StateGood st1
      | none => ∃ i, ∃ item ∈ records.getD i [], item.postings = [] := by
  intro fuel
  induction fuel with
  | zero => intro _ _ _ _ _ _ h; omega
  | succ fuel ih =>
    intro st rem hinv hslots hgood hnull hfuel
    by_cases hpos : st.heap.nodeCount > 0
    swap
    · simp only [mergeLoop, if_neg hpos]
      exact hgood
    · obtain ⟨x1, x2, x3, x4, x5⟩ := extractMin_inv records _ st.heap st.files rem hinv hpos
      obtain ⟨heap2, files2, c, rem2, hrefill, hinv2, hm2⟩ := refill_spec records hwf _ _ st.files
        rem x3 _ x1 x5
      have hslots1 := hslots.set _ _ x2
      cases c with
      | true =>
        have := ih { st with heap := heap2, files := files2
                             parsedItems := st.parsedItems.set
                               (MergeHeap.extractMin st.heap).1.fileNumber
                               (some (MergeHeap.extractMin st.heap).1.parsedItem) }
          rem2 hinv2 hslots1 hgood hnull (by simp only; omega)
        simp only [mergeLoop, if_pos hpos, hrefill]
        exact this
      | false =>
        obtain ⟨heap3, files3, parsedItems3, rem3, hrun, y1, y2, y3, i, current, y4⟩ :=
          collectLoop_spec records hwf fuel heap2 files2 _
            (MergeHeap.extractMin st.heap).1.fileNumber rem2 hinv2 hslots1
            ⟨_, getD_set_some _ _ _ (by rw [hslots.1]; exact x1)⟩ (by omega)
        have hadd := addParsedItems_good ops docLengths totalDocCount avgDocLength records hinc
          hcross st.written st.invertedIndex st.lexicon parsedItems3 hgood.1 hgood.2.1 hgood.2.2 y2
        simp only [mergeLoop, if_pos hpos, hrefill, hrun, hnull, readsIndeterminate_nil,
          Bool.false_eq_true, if_false]
        cases hr : addParsedItemsToInvertedIndex ops parsedItems3 st.invertedIndex st.lexicon
            docLengths totalDocCount avgDocLength with
        | none =>
          rw [hr] at hadd
          simp only
          have hil : i < parsedItems3.length := by
            by_contra hcon
            rw [List.getD_eq_getElem?_getD, List.getElem?_eq_none (by omega)] at y4
            simp at y4
          have hmem : some current ∈ parsedItems3 := by
            rw [List.getD_eq_getElem?_getD, List.getElem?_eq_getElem hil] at y4
            simp only [Option.getD_some] at y4
            rw [← y4]
            exact List.getElem_mem _
          exact ⟨i, current, y2.2 i current y4, hadd current hmem⟩
        | some r =>
          obtain ⟨index1, lexicon1⟩ := r
          rw [hr] at hadd
          obtain ⟨a1, a2, a3⟩ := hadd
          simp only
          by_cases hbig : index1.blockCount ≥ MAX_BLOCK_COUNT
          · rw [if_pos hbig]
            apply ih _ rem3 y1 y2.freed _ rfl (by simp only; omega)
            have hw : writtenChunks ((st.written ++ [index1]) ++
                [({ createInvertedIndex with chunkNumber := index1.chunkNumber } :
                  InvertedIndex D)]) = writtenChunks (st.written ++ [index1]) := by
              rw [writtenChunks_snoc (st.written ++ [index1])]
              simp [InvertedIndex.absLists, createInvertedIndex, allChunks]
            refine ⟨?_, ?_, ?_⟩
            · intro b hb
              simp [createInvertedIndex] at hb
            · simp only; rw [hw]; exact a2
            · simp only; rw [hw]; exact a3
          · rw [if_neg hbig]
            exact ih _ rem3 y1 y2.freed ⟨a1, a2, a3⟩ rfl (by simp only; omega)

/-! ### The function buildIndex -/

theorem MergeInv.extend {records : List (List ParsedItem)} {k : Nat} {heap : MergeHeap}
    {files : List IntermediateFile} {rem : List (List ParsedItem)}
    (hinv : MergeInv records k heap files rem) (file : IntermediateFile)
    (recs : List ParsedItem) (hfile : FileInv file recs)
    (hsub : ∀ item ∈ recs, item ∈ records.getD k []) (hk : k + 1 ≤ MERGE_HEAP_SIZE) :
    MergeInv records (k + 1) heap (files ++ [file]) (rem ++ [recs]) :=
  { files_inv := List.rel_append hinv.files_inv (List.Forall₂.cons hfile List.Forall₂.nil)
    rem_len := by rw [List.length_append, hinv.rem_len]; rfl
    rem_sub := by
      intro i item hitem
      rw [List.getD_eq_getElem?_getD] at hitem
      by_cases hik : i < k
      · rw [List.getElem?_append_left (by rw [hinv.rem_len]; exact hik)] at hitem
        exact hinv.rem_sub i item (by rw [List.getD_eq_getElem?_getD]; exact hitem)
      · rw [List.getElem?_append_right (by rw [hinv.rem_len]; omega), hinv.rem_len] at hitem
        by_cases hik2 : i = k
        · subst hik2
          simp only [Nat.sub_self, List.getElem?_cons_zero, Option.getD_some] at hitem
          exact hsub item hitem
        · have : i - k = (i - k - 1) + 1 := by omega
          rw [this] at hitem
          simp at hitem
    heap_len := hinv.heap_len
    k_le := hk
    count_le := hinv.count_le
    heap_nodes := fun node hnode =>
      ⟨Nat.lt_succ_of_lt (hinv.heap_nodes node hnode).1, (hinv.heap_nodes node hnode).2⟩
    heap_nodup := hinv.heap_nodup }

theorem mergeMeasure_append (heap : MergeHeap) (rem : List (List ParsedItem))
    (recs : List ParsedItem) :
    mergeMeasure heap (rem ++ [recs]) = mergeMeasure heap rem + recs.length := by
  simp only [mergeMeasure, List.map_append, List.sum_append, List.map_cons, List.map_nil,
    List.sum_cons, List.sum_nil]
  omega

/-- The loop that opens the files establishes the invariant of the merge. -/
theorem openIntermediateFiles_spec (records : List (List ParsedItem))
    (hwf : ∀ i, ∀ item ∈ records.getD i [], RecordWF item) :
    ∀ (todo : List (List ParsedItem)) (k : Nat) (heap : MergeHeap)
      (files : List IntermediateFile) (rem : List (List ParsedItem)),
      (∀ j, todo.getD j [] = records.getD (k + j) []) →
      k + todo.length ≤ MERGE_HEAP_SIZE →
      MergeInv records k heap files rem →
      ∃ heap1 files1 rem1,
        openIntermediateFiles (todo.map encodeParsedItems) k heap files = some (heap1, files1) ∧
        MergeInv records (k + todo.length) heap1 files1 rem1 ∧
        mergeMeasure heap1 rem1 ≤ mergeMeasure heap rem + (todo.map List.length).sum := by
  intro todo
  induction todo with
  | nil =>
    intro k heap files rem _ _ hinv
    exact ⟨heap, files, rem, rfl, hinv, by simp⟩
  | cons recs todo ih =>
    intro k heap files rem htodo hk hinv
    simp only [List.length_cons] at hk
    have hrecs : recs = records.getD k [] := by
      have := htodo 0
      simpa using this
    have htodo1 : ∀ j, todo.getD j [] = records.getD (k + 1 + j) [] := by
      intro j
      have := htodo (j + 1)
      rw [show k + 1 + j = k + (j + 1) from by omega, ← this]
      simp
    have hinit : FileInv { content := encodeParsedItems recs, offset := 0
                           remainingBuffer := none } recs := by
      simp [FileInv]
    have hmapped := mapIntermediateContentFromDisk_inv _ recs hinit
    have hwfr : ∀ item ∈ recs, RecordWF item := by
      intro item hitem; rw [hrecs] at hitem; exact hwf k item hitem
    have hflen : files.length = k := by rw [hinv.files_inv.length_eq, hinv.rem_len]
    have hnot : k ∉ (heap.heapNodes.take heap.nodeCount).map (fun node => node.fileNumber) := by
      intro hmem
      obtain ⟨node, hnode, e⟩ := List.mem_map.1 hmem
      have := (hinv.heap_nodes node hnode).1
      omega
    rcases convertBinaryToParsedItem_rem _ _ recs hwfr hmapped with
      hnull | ⟨item, rem1, tail, e, hconv, htail⟩
    · have hext := hinv.extend _ recs hmapped (by intro item hitem; rw [← hrecs]; exact hitem)
        (by omega)
      obtain ⟨heap1, files1, rem1, hrun, h1, h2⟩ := ih (k + 1) heap _ _ htodo1 (by omega) hext
      refine ⟨heap1, files1, rem1, ?_, ?_, ?_⟩
      · simp only [List.map_cons, openIntermediateFiles, hnull]
        exact hrun
      · rw [List.length_cons, show k + (todo.length + 1) = k + 1 + todo.length from by omega]
        exact h1
      · rw [mergeMeasure_append] at h2
        simp only [List.map_cons, List.sum_cons]
        omega
    · have hext := hinv.extend _ recs hmapped (by intro item hitem; rw [← hrecs]; exact hitem)
        (by omega)
      have hremk : (rem ++ [recs])[k]? = some (item :: rem1) := by
        rw [List.getElem?_append_right (by rw [hinv.rem_len]), hinv.rem_len, e]
        simp
      obtain ⟨hins, hmeas⟩ := hext.insert k (by omega) hnot
        { (mapIntermediateContentFromDisk { content := encodeParsedItems recs, offset := 0
                                            remainingBuffer := none }).2 with
          remainingBuffer := some tail }
        item rem1 hremk (by simp only [FileInv, Option.getD_some]; exact htail)
      have hfs : (files ++ [(mapIntermediateContentFromDisk
            { content := encodeParsedItems recs, offset := 0, remainingBuffer := none }).2]).set k
          { (mapIntermediateContentFromDisk { content := encodeParsedItems recs, offset := 0
                                              remainingBuffer := none }).2 with
            remainingBuffer := some tail }
          = files ++ [{ (mapIntermediateContentFromDisk
              { content := encodeParsedItems recs, offset := 0, remainingBuffer := none }).2 with
            remainingBuffer := some tail }] := by
        rw [← hflen, List.set_append_right _ _ (le_refl _)]
        simp
      rw [hfs] at hins
      obtain ⟨heap1, files1, rem2, hrun, h1, h2⟩ := ih (k + 1) _ _ _ htodo1 (by omega) hins
      refine ⟨heap1, files1, rem2, ?_, ?_, ?_⟩
      · simp only [List.map_cons, openIntermediateFiles, hconv]
        exact hrun
      · rw [List.length_cons, show k + (todo.length + 1) = k + 1 + todo.length from by omega]
        exact h1
      · rw [hmeas, mergeMeasure_append] at h2
        simp only [List.map_cons, List.sum_cons]
        omega

theorem getD_mem_or_nil {α : Type} (l : List (List α)) (i : Nat) :
    l.getD i [] ∈ l ∨ l.getD i [] = [] := by
  rw [List.getD_eq_getElem?_getD]
  by_cases h : i < l.length
  · left
    rw [List.getElem?_eq_getElem h]
    exact List.getElem_mem _
  · right
    rw [List.getElem?_eq_none (by omega)]
    rfl

theorem postings_eq_nil (item : ParsedItem) (hwf : RecordWF item) (h : item.postings = []) :
    item.docIds = [] := by
  have h1 := hwf.count_eq
  have h2 := hwf.freq_len
  have hl := congrArg List.length h
  simp only [ParsedItem.postings, List.length_take, List.length_zip, List.length_nil, h1, h2,
    Int.toNat_ofNat] at hl
  exact List.length_eq_zero.1 (by omega)

/-- The postings of every term are strictly increasing when every entry of
`parsedItems` holds `NULL` at the declaration: for intermediate files that hold
records whose docIDs are strictly increasing, such that every docID of file `i`
is smaller than every docID of file `j` whenever `i < j`, every lexicon entry
that `buildIndex` writes names a non-empty range of chunks of the index files
written, and the docIDs of these chunks, read the way the decoder reads them
and in the order of the chunks, are strictly increasing.  `buildIndex` returns
when every record has a posting (without one, `addParsedItemsToInvertedIndex`
may pass a null word to `addNodeToLexicon`); the merge loop needs more turns
than there are records. -/
theorem buildIndex_postings_increasing_of_null {D : Type} [Zero D] (ops : DoubleOps D)
    (docLengths : Int → Int) (fuel : Nat) (records : List (List ParsedItem))
    (hcount : records.length = INTERMEDIATE_FILE_COUNT)
    (hwf : ∀ recs ∈ records, ∀ item ∈ recs, RecordWF item)
    (hinc : ∀ recs ∈ records, ∀ item ∈ recs, item.docIds.Pairwise (fun a b => a < b))
    (hcross : records.Pairwise (fun a b =>
      ∀ x ∈ a, ∀ y ∈ b, ∀ d ∈ x.docIds, ∀ e ∈ y.docIds, d < e))
    (hfuel : (records.map List.length).sum < fuel) :
    (∀ result : BuildResult D,
      buildIndex ops docLengths fuel [] (records.map encodeParsedItems) = some result →
      LexiconOK result.lexicon (writtenChunks result.indexes)) ∧
    ((∀ recs ∈ records, ∀ item ∈ recs, item.docIds ≠ []) →
      ∃ result : BuildResult D,
        buildIndex ops docLengths fuel [] (records.map encodeParsedItems) = some result) := by
  have hwf1 : ∀ i, ∀ item ∈ records.getD i [], RecordWF item := by
    intro i item hitem
    rcases getD_mem_or_nil records i with h | h
    · exact hwf _ h item hitem
    · rw [h] at hitem; simp at hitem
  have hinc1 : ∀ i, ∀ item ∈ records.getD i [], item.docIds.Pairwise (fun a b => a < b) := by
    intro i item hitem
    rcases getD_mem_or_nil records i with h | h
    · exact hinc _ h item hitem
    · rw [h] at hitem; simp at hitem
  have hcross1 : ∀ i j, i < j → ∀ a ∈ records.getD i [], ∀ b ∈ records.getD j [],
      ∀ d ∈ a.docIds, ∀ e ∈ b.docIds, d < e := by
    intro i j hij a ha b hb
    by_cases hj : j < records.length
    · have hi : i < records.length := by omega
      rw [List.getD_eq_getElem?_getD, List.getElem?_eq_getElem hi] at ha
      rw [List.getD_eq_getElem?_getD, List.getElem?_eq_getElem hj] at hb
      exact (List.pairwise_iff_getElem.1 hcross) i j hi hj hij a ha b hb
    · rw [List.getD_eq_getElem?_getD, List.getElem?_eq_none (by omega)] at hb
      simp at hb
  have hinit : MergeInv records 0 MergeHeap.createHeap [] [] :=
    { files_inv := List.Forall₂.nil
      rem_len := rfl
      rem_sub := by intro i item h; simp at h
      heap_len := by simp [MergeHeap.createHeap]
      k_le := Nat.zero_le _
      count_le := Nat.zero_le _
      heap_nodes := by intro node h; simp [MergeHeap.createHeap] at h
      heap_nodup := by simp [MergeHeap.createHeap] }
  obtain ⟨heap1, files1, rem1, hopen, hinv1, hm1⟩ := openIntermediateFiles_spec records hwf1
    records 0 MergeHeap.createHeap [] [] (by intro j; rw [Nat.zero_add])
    (by rw [hcount]; decide) hinit
  have hk : 0 + records.length = MERGE_HEAP_SIZE := by rw [hcount]; rfl
  rw [hk] at hinv1
  have hmeasure : mergeMeasure heap1 rem1 < fuel := by
    have : mergeMeasure MergeHeap.createHeap [] = 0 := by
      simp [mergeMeasure, MergeHeap.createHeap]
    omega
  have hslots : SlotsInv records (List.replicate MERGE_HEAP_SIZE none) := by
    refine ⟨by simp, ?_⟩
    intro i item h
    rw [List.getD_eq_getElem?_getD] at h
    by_cases hi : i < MERGE_HEAP_SIZE
    · rw [List.getElem?_replicate, if_pos hi] at h; simp at h
    · rw [List.getElem?_replicate, if_neg hi] at h; simp at h
  have hgood : StateGood ({ heap := heap1, files := files1
                            parsedItems := List.replicate MERGE_HEAP_SIZE none
                            indeterminate := []
                            lexicon := createLexicon
                            invertedIndex := createInvertedIndex
                            fileNumber := 0
                            written := [] } : MergeState D) := by
    refine ⟨IndexWF_create, ?_, ?_⟩
    · simp [writtenChunks, createInvertedIndex, InvertedIndex.absLists, allChunks]
    · intro node hnode
      simp [createLexicon] at hnode
  have hloop := mergeLoop_spec ops docLengths DOC_COUNT (computeAvgDocLength docLengths DOC_COUNT)
    records hwf1 hinc1 hcross1 fuel _ rem1 hinv1 hslots hgood rfl hmeasure
  have hlen : ¬ (records.map encodeParsedItems).length ≠ INTERMEDIATE_FILE_COUNT := by
    rw [List.length_map, hcount]; simp
  cases hres : mergeLoop ops docLengths DOC_COUNT (computeAvgDocLength docLengths DOC_COUNT) fuel
      ({ heap := heap1, files := files1
         parsedItems := List.replicate MERGE_HEAP_SIZE none
         indeterminate := []
         lexicon := createLexicon
         invertedIndex := createInvertedIndex
         fileNumber := 0
         written := [] } : MergeState D) with
  | none =>
    rw [hres] at hloop
    have hbuild : buildIndex ops docLengths fuel [] (records.map encodeParsedItems) = none := by
      simp only [buildIndex, if_neg hlen, hopen, hres]
    refine ⟨?_, ?_⟩
    · intro result h; rw [hbuild] at h; exact absurd h (by simp)
    · intro hne
      obtain ⟨i, item, hitem, hpost⟩ := hloop
      exfalso
      rcases getD_mem_or_nil records i with h | h
      · exact hne _ h item hitem (postings_eq_nil item (hwf1 i item hitem) hpost)
      · rw [h] at hitem; simp at hitem
  | some st1 =>
    rw [hres] at hloop
    have hbuild : buildIndex ops docLengths fuel [] (records.map encodeParsedItems)
        = some { indexes := st1.written ++ [st1.invertedIndex], lexicon := st1.lexicon } := by
      simp only [buildIndex, if_neg hlen, hopen, hres]
    refine ⟨?_, fun _ => ⟨_, hbuild⟩⟩
    intro result h
    rw [hbuild] at h
    simp only [Option.some.injEq] at h
    rw [← h]
    exact hloop.2.2

/-! ### The function buildIndex on concrete files -/

/-- C9 (fails in the code): when the last record of a file has been taken from
the heap, the `continue` of line 320 skips the call of
`addParsedItemsToInvertedIndex`, and the record stays in `parsedItems` until the
next call.  For the files `threeRecordFiles`, with the terms "a", "b" and "c"
and one posting each, `buildIndex` writes the single lexicon entry
`("b", 1, 1)`, whose chunk holds the docIDs 1 and 2: "a" and "c" have no entry,
and the posting of "a" is in the list of "b".  The array `parsedItems` holds
`NULL` in every entry at its declaration. -/
theorem buildIndex_drops_last_records :
    (buildIndex intOps (fun _ => 10) 10 [] threeRecordFiles).map
      (fun r => (r.lexicon.nodes, writtenChunks r.indexes))
      = some ([{ word := [98], startChunk := 1, endChunk := 1 }], [[1, 2]]) := by
  decide

theorem buildIndex_single_record :
    (buildIndex intOps (fun _ => 10) 10 [] singleRecordFiles).map
      (fun r => (r.lexicon.nodes, writtenChunks r.indexes)) = some ([], []) := by
  decide

theorem buildIndex_mergeRecords :
    (buildIndex intOps (fun _ => 10) 5 [] (mergeRecords.map encodeParsedItems)).map
      (fun r => (r.lexicon.nodes, writtenChunks r.indexes))
      = some ([{ word := [97], startChunk := 1, endChunk := 1 }], [[1, 2, 5]]) := by
  decide

/-! ### The metadata arrays of the encoder -/

theorem chunkSizeOf_empty {D : Type} [Zero D] : chunkSizeOf (emptyIndexChunk : IndexChunk D) = 0 := by
  simp [chunkSizeOf, emptyIndexChunk]

theorem absDocIds_empty {D : Type} [Zero D] :
    (emptyIndexChunk : IndexChunk D).absDocIds = [] := by
  simp [IndexChunk.absDocIds, emptyIndexChunk, decodeStored]

theorem BlockMeta_create {D : Type} [Zero D] : BlockMeta (createIndexBlock : IndexBlock D) := by
  have hchunk : ∀ j, (createIndexBlock : IndexBlock D).indexChunks.getD j emptyIndexChunk
      = emptyIndexChunk := by
    intro j
    simp only [createIndexBlock, List.getD_eq_getElem?_getD, List.getElem?_replicate]
    split <;> rfl
  refine ⟨?_, ?_⟩
  · intro j
    rw [hchunk j, chunkSizeOf_empty]
    simp only [createIndexBlock, List.getD_eq_getElem?_getD, List.getElem?_replicate]
    split <;> rfl
  · intro j
    rw [hchunk j, absDocIds_empty]
    simp only [createIndexBlock, List.getD_eq_getElem?_getD, List.getElem?_replicate]
    split <;> rfl

theorem openChunk_extra {D : Type} [Zero D] (s : EncoderState D) (h : EncExtra s) :
    EncExtra (openChunk s) :=
  ⟨⟨h.cur_meta.sizes, h.cur_meta.lasts⟩, h.done_meta, h.done_full, h.count_eq⟩

theorem openBlock_extra {D : Type} [Zero D] (s : EncoderState D) (h : EncExtra s)
    (hfull : s.currentBlock.chunkCount = MAX_CHUNK_COUNT) : EncExtra (openBlock s) := by
  refine ⟨BlockMeta_create, ?_, ?_, ?_⟩
  · intro b hb
    rcases List.mem_append.1 hb with hb | hb
    · exact h.done_meta b hb
    · have : b = s.currentBlock := by simpa using hb
      rw [this]; exact h.cur_meta
  · intro b hb
    rcases List.mem_append.1 hb with hb | hb
    · exact h.done_full b hb
    · have : b = s.currentBlock := by simpa using hb
      rw [this]; exact hfull
  · show s.blockCount + 1 = ((s.doneBlocks ++ [s.currentBlock]).length : Int) + 1
    rw [h.count_eq]; simp

theorem getD_set_other {α : Type} (l : List α) (i j : Nat) (x d : α) (h : j ≠ i) :
    (l.set i x).getD j d = l.getD j d := by
  simp only [List.getD_eq_getElem?_getD]
  rw [List.getElem?_set_ne (Ne.symm h)]

theorem storePosting_extra {D : Type} [Zero D] (s : EncoderState D) (docId : Int) (x : D)
    (h : EncInv s) (hroom : s.postingCount < MAX_POSTING_COUNT) (he : EncExtra s) :
    EncExtra (storePosting s docId x) := by
  obtain ⟨p1, p2, p3, p4, p5, p6, p7, p8, p9, p10⟩ := storePosting_spec s docId x h hroom
  obtain ⟨chunk, hchunk⟩ : ∃ c, s.currentBlock.indexChunks.getD s.chunkIndex emptyIndexChunk = c :=
    ⟨_, rfl⟩
  have hci : s.chunkIndex < MAX_CHUNK_COUNT := by
    have := h.wf.count_le; have := h.open_last; omega
  have hcl : s.chunkIndex < s.currentBlock.indexChunks.length := by
    rw [h.wf.chunks_length]; exact hci
  have hmem : chunk ∈ s.currentBlock.indexChunks := by
    rw [← hchunk, List.getD_eq_getElem?_getD, List.getElem?_eq_getElem hcl]
    exact List.getElem_mem _
  have hdl : chunk.docIds.length = MAX_POSTING_COUNT := h.wf.docIds_length chunk hmem
  have hpc : chunk.postingCount = s.postingCount := by rw [← hchunk]; exact h.posting_eq
  have hopen : (storePosting s docId x).openList = s.openList ++ [docId] := p4
  have heq := storePosting_eq s docId x chunk hchunk
  refine ⟨⟨?_, ?_⟩, by rw [p8]; exact he.done_meta, by rw [p8]; exact he.done_full,
    by rw [p6, p8]; exact he.count_eq⟩
  · intro j
    rw [heq]
    simp only
    by_cases hj : j = s.chunkIndex
    · subst hj
      rw [getD_set_self _ _ _ _ (by rw [h.wf.sizes_length]; exact hci),
        getD_set_self _ _ _ _ hcl, he.cur_meta.sizes s.chunkIndex, hchunk]
      simp only [chunkSizeOf, hpc]
      rw [ArrayHeap.take_succ_set _ _ _ (by rw [hdl]; exact hroom)]
      simp only [List.map_append, List.sum_append, List.map_cons, List.map_nil, List.sum_cons,
        List.sum_nil]
      omega
    · rw [getD_set_other _ _ _ _ _ hj, getD_set_other _ _ _ _ _ hj]
      exact he.cur_meta.sizes j
  · intro j
    by_cases hj : j = s.chunkIndex
    · subst hj
      have h1 : (storePosting s docId x).currentBlock.lastDocIds.getD s.chunkIndex (-1) = docId := by
        rw [heq]
        simp only
        exact getD_set_self _ _ _ _ (by rw [h.wf.lasts_length]; exact hci)
      have h2 : ((storePosting s docId x).currentBlock.indexChunks.getD s.chunkIndex
          emptyIndexChunk).absDocIds = s.openList ++ [docId] := by
        have := hopen
        simp only [EncoderState.openList, p9] at this
        exact this
      rw [h1, h2]
      simp
    · rw [heq]
      simp only
      rw [getD_set_other _ _ _ _ _ hj, getD_set_other _ _ _ _ _ hj]
      exact he.cur_meta.lasts j

theorem EncExtra_word {D : Type} [Zero D] (s : EncoderState D) (w : Option (List Nat))
    (h : EncExtra s) : EncExtra { s with word := w } :=
  ⟨h.cur_meta, h.done_meta, h.done_full, h.count_eq⟩

theorem addPosting_extra {D : Type} [Zero D] (ops : DoubleOps D) (docLengths : Int → Int)
    (totalDocCount termDocCount avgDocLength : Int) (word : List Nat)
    (s : EncoderState D) (posting : Int × Int) (h : EncInv s) (he : EncExtra s) :
    EncExtra (addPosting ops docLengths totalDocCount termDocCount avgDocLength word s posting) ∧
    0 < (addPosting ops docLengths totalDocCount termDocCount avgDocLength word s
      posting).postingCount := by
  have henc1 := EncInv_word s (some word) h
  have hex1 := EncExtra_word s (some word) he
  by_cases hfull : s.postingCount = MAX_POSTING_COUNT
  · obtain ⟨a1, a2, _⟩ := advance_spec { s with word := some word } henc1
    have hadd : addPosting ops docLengths totalDocCount termDocCount avgDocLength word s posting
        = storePosting (openChunk (if ({ s with word := some word } : EncoderState D).chunkIndex
            = MAX_CHUNK_COUNT - 1 then openBlock { s with word := some word }
            else { s with word := some word })) posting.1
          (ops.calculateBM25ImpactScore totalDocCount termDocCount posting.2
            (docLengths (posting.1 - 1)) avgDocLength) := by
      simp only [addPosting, hfull, if_true]
    rw [hadd]
    have hex2 : EncExtra (openChunk (if ({ s with word := some word } : EncoderState D).chunkIndex
            = MAX_CHUNK_COUNT - 1 then openBlock { s with word := some word }
            else { s with word := some word })) := by
      apply openChunk_extra
      by_cases hc : ({ s with word := some word } : EncoderState D).chunkIndex = MAX_CHUNK_COUNT - 1
      · rw [if_pos hc]
        apply openBlock_extra _ hex1
        have := henc1.open_last
        rw [this, hc]; rfl
      · rw [if_neg hc]; exact hex1
    obtain ⟨_, p2, _⟩ := storePosting_spec _ posting.1
      (ops.calculateBM25ImpactScore totalDocCount termDocCount posting.2
        (docLengths (posting.1 - 1)) avgDocLength) a1 (by rw [a2]; decide)
    exact ⟨storePosting_extra _ _ _ a1 (by rw [a2]; decide) hex2, by rw [p2]; omega⟩
  · have hroom : s.postingCount < MAX_POSTING_COUNT := by
      have := h.postingCount_le; omega
    have hadd : addPosting ops docLengths totalDocCount termDocCount avgDocLength word s posting
        = storePosting { s with word := some word } posting.1
          (ops.calculateBM25ImpactScore totalDocCount termDocCount posting.2
            (docLengths (posting.1 - 1)) avgDocLength) := by
      simp only [addPosting, hfull, if_false]
    rw [hadd]
    obtain ⟨_, p2, _⟩ := storePosting_spec { s with word := some word } posting.1
      (ops.calculateBM25ImpactScore totalDocCount termDocCount posting.2
        (docLengths (posting.1 - 1)) avgDocLength) henc1 hroom
    exact ⟨storePosting_extra _ _ _ henc1 hroom hex1, by rw [p2]; omega⟩

theorem addPostings_extra {D : Type} [Zero D] (ops : DoubleOps D) (docLengths : Int → Int)
    (totalDocCount termDocCount avgDocLength : Int) (word : List Nat)
    (postings : List (Int × Int)) :
    ∀ (s : EncoderState D) (G0 : List (List Int)) (n0 : Int) (Q : List Int),
      TermInv s G0 n0 Q → EncExtra s →
      EncExtra (postings.foldl
          (addPosting ops docLengths totalDocCount termDocCount avgDocLength word) s) ∧
      ((postings ≠ [] ∨ 0 < s.postingCount) →
        0 < (postings.foldl
          (addPosting ops docLengths totalDocCount termDocCount avgDocLength word) s).postingCount) := by
  induction postings with
  | nil =>
    intro s G0 n0 Q _ he
    refine ⟨he, ?_⟩
    rintro (h | h)
    · exact absurd rfl h
    · exact h
  | cons p rest ih =>
    intro s G0 n0 Q h he
    obtain ⟨h1, _⟩ := addPosting_spec ops docLengths totalDocCount termDocCount avgDocLength
      word s p G0 n0 Q h
    obtain ⟨e1, e2⟩ := addPosting_extra ops docLengths totalDocCount termDocCount avgDocLength
      word s p h.enc he
    obtain ⟨i1, i2⟩ := ih _ G0 n0 _ h1 e1
    simp only [List.foldl_cons]
    exact ⟨i1, fun _ => i2 (Or.inr e2)⟩

theorem addParsedItem_fold_extra {D : Type} [Zero D] (ops : DoubleOps D)
    (docLengths : Int → Int) (totalDocCount termDocCount avgDocLength : Int)
    (parsedItems : List (Option ParsedItem)) :
    ∀ (s : EncoderState D) (G0 : List (List Int)) (n0 : Int) (Q : List Int),
      TermInv s G0 n0 Q → EncExtra s →
      EncExtra (parsedItems.foldl
          (addParsedItem ops docLengths totalDocCount termDocCount avgDocLength) s) ∧
      ((itemsDocIds parsedItems ≠ [] ∨ 0 < s.postingCount) →
        0 < (parsedItems.foldl
          (addParsedItem ops docLengths totalDocCount termDocCount avgDocLength) s).postingCount) := by
  induction parsedItems with
  | nil =>
    intro s G0 n0 Q _ he
    refine ⟨he, ?_⟩
    rintro (h | h)
    · exact absurd rfl h
    · exact h
  | cons o rest ih =>
    intro s G0 n0 Q h he
    cases o with
    | none =>
      have := ih s G0 n0 Q h he
      simpa [itemsDocIds, addParsedItem] using this
    | some item =>
      obtain ⟨h1, _⟩ := addPostings_spec ops docLengths totalDocCount termDocCount avgDocLength
        item.word item.postings s G0 n0 Q h
      obtain ⟨e1, e2⟩ := addPostings_extra ops docLengths totalDocCount termDocCount avgDocLength
        item.word item.postings s G0 n0 Q h he
      obtain ⟨i1, i2⟩ := ih _ G0 n0 _ h1 e1
      simp only [List.foldl_cons, addParsedItem]
      refine ⟨i1, ?_⟩
      intro hne
      apply i2
      by_cases hr : itemsDocIds rest = []
      · right
        apply e2
        rcases hne with hne | hne
        · left
          intro hp
          apply hne
          simp [itemsDocIds, hp] at hr ⊢
          exact hr
        · exact Or.inr hne
      · exact Or.inl hr

theorem startTerm_extra {D : Type} [Zero D] (invertedIndex : InvertedIndex D)
    (he : IndexExtra invertedIndex) : EncExtra (startTerm invertedIndex) := by
  unfold startTerm
  apply openChunk_extra
  cases hlast : invertedIndex.blocks.getLast? with
  | none =>
    have hnil : invertedIndex.blocks = [] := by simpa using hlast
    simp only
    refine ⟨BlockMeta_create, by simp, by simp, ?_⟩
    simp only [he.count_eq, hnil, List.length_nil]
  | some currentBlock =>
    have hmem : currentBlock ∈ invertedIndex.blocks := List.mem_of_getLast?_eq_some hlast
    have hsplit : invertedIndex.blocks.dropLast ++ [currentBlock] = invertedIndex.blocks :=
      List.dropLast_append_getLast? _ hlast
    have hlen : invertedIndex.blocks.length = invertedIndex.blocks.dropLast.length + 1 := by
      conv_lhs => rw [← hsplit]
      simp
    simp only
    by_cases hfull : currentBlock.chunkCount = MAX_CHUNK_COUNT
    · rw [if_pos hfull]
      refine ⟨BlockMeta_create, he.blocks_meta, ?_, ?_⟩
      · intro b hb
        rw [← hsplit] at hb
        rcases List.mem_append.1 hb with hb | hb
        · exact he.full b hb
        · have : b = currentBlock := by simpa using hb
          rw [this]; exact hfull
      · simp only [he.count_eq]
    · rw [if_neg hfull]
      refine ⟨he.blocks_meta _ hmem, fun b hb => he.blocks_meta b (List.mem_of_mem_dropLast hb),
        he.full, ?_⟩
      simp only [he.count_eq, hlen]
      push_cast; ring

/-- What one call of `addParsedItemsToInvertedIndex` does to the index and the
lexicon, with the shape of the chunks of the term and the metadata of the
blocks. -/
theorem addParsedItemsToInvertedIndex_full {D : Type} [Zero D] (ops : DoubleOps D)
    (parsedItems : List (Option ParsedItem)) (invertedIndex : InvertedIndex D)
    (lexicon : Lexicon) (docLengths : Int → Int) (totalDocCount avgDocLength : Int)
    (hwf : IndexWF invertedIndex) (hex : IndexExtra invertedIndex) :
    match addParsedItemsToInvertedIndex ops parsedItems invertedIndex lexicon docLengths
        totalDocCount avgDocLength with
    | none => lastWord none parsedItems = none
    | some (index1, lexicon1) =>
      IndexWF index1 ∧ IndexExtra index1 ∧
      ∃ (T : List (List Int)) (word : List Nat),
        index1.absLists = invertedIndex.absLists ++ T ∧ T ≠ [] ∧
        T.flatten = itemsDocIds parsedItems ∧
        (∀ l ∈ T.dropLast, l.length = MAX_POSTING_COUNT) ∧
        (T.getLastD []).length ≤ MAX_POSTING_COUNT ∧
        (itemsDocIds parsedItems ≠ [] → T.getLastD [] ≠ []) ∧
        index1.chunkNumber = invertedIndex.chunkNumber + T.length ∧
        lastWord none parsedItems = some word ∧
        lexicon1 = addNodeToLexicon lexicon word (invertedIndex.chunkNumber + 1)
          (invertedIndex.chunkNumber + T.length) ∧
        ∃ last, index1.blocks.getLast? = some last ∧ 1 ≤ last.chunkCount := by
  obtain ⟨s1, s2, hstart⟩ := startTerm_spec invertedIndex hwf
  have x1 := startTerm_extra invertedIndex hex
  obtain ⟨f1, f2⟩ := addParsedItem_fold_spec ops docLengths totalDocCount
    (computeTermDocCount parsedItems) avgDocLength parsedItems _ _ _ _ s1
  obtain ⟨g1, g2⟩ := addParsedItem_fold_extra ops docLengths totalDocCount
    (computeTermDocCount parsedItems) avgDocLength parsedItems _ _ _ _ s1 x1
  rw [s2] at f2
  unfold addParsedItemsToInvertedIndex
  simp only
  obtain ⟨sf, hsf⟩ : ∃ sf, parsedItems.foldl (addParsedItem ops docLengths totalDocCount
      (computeTermDocCount parsedItems) avgDocLength) (startTerm invertedIndex) = sf := ⟨_, rfl⟩
  rw [hsf] at f1 f2 g1 g2 ⊢
  cases hw : sf.word with
  | none =>
    simp only
    rw [← f2, hw]
  | some word =>
    simp only
    obtain ⟨Tc, c1, c2, c3, c4⟩ := f1.closed
    have hlastT : (Tc ++ [sf.openList]).getLastD [] = sf.openList := by
      simp [List.getLastD_eq_getLast?]
    refine ⟨?_, ?_, Tc ++ [sf.openList], word, ?_, by simp, ?_, ?_, ?_, ?_, ?_, ?_, ?_, ?_⟩
    · intro b hb
      rcases List.mem_append.1 hb with hb | hb
      · exact f1.done_wf b hb
      · have : b = sf.currentBlock := by simpa using hb
        rw [this]; exact f1.enc.wf
    · refine ⟨?_, ?_, ?_⟩
      · intro b hb
        rcases List.mem_append.1 hb with hb | hb
        · exact g1.done_meta b hb
        · have : b = sf.currentBlock := by simpa using hb
          rw [this]; exact g1.cur_meta
      · simp only [List.dropLast_concat]
        exact g1.done_full
      · simp only [g1.count_eq, List.length_append, List.length_singleton]
        push_cast; ring
    · have := f1.enc.absLists_eq
      simp only [EncoderState.absLists] at this
      show List.map IndexChunk.absDocIds (allChunks (sf.doneBlocks ++ [sf.currentBlock])) = _
      rw [this, c1, List.append_assoc]
    · rw [List.flatten_append]; simpa using c2
    · intro l hl
      rw [List.dropLast_concat] at hl
      exact c4 l hl
    · rw [hlastT, f1.open_length]
      exact f1.enc.postingCount_le
    · intro hne
      rw [hlastT]
      have hp := g2 (Or.inl hne)
      intro hnil
      have := f1.open_length
      rw [hnil] at this
      simp at this
      omega
    · simp only [c3, List.length_append, List.length_singleton]; push_cast; omega
    · rw [← f2, hw]
    · rw [hstart]
      simp only [c3, List.length_append, List.length_singleton]; push_cast
      congr 1; omega
    · refine ⟨sf.currentBlock, by simp, ?_⟩
      rw [f1.enc.open_last]; omega

/-! ### Chunk sizes and bytes written -/

theorem IndexExtra_create {D : Type} [Zero D] :
    IndexExtra (createInvertedIndex : InvertedIndex D) := by
  refine ⟨?_, ?_, ?_⟩
  · intro b hb; simp [createInvertedIndex] at hb
  · intro b hb; simp [createInvertedIndex] at hb
  · simp [createInvertedIndex]

theorem itemsDocIds_eq_nil (parsedItems : List (Option ParsedItem))
    (h : ∀ item, some item ∈ parsedItems → item.postings = []) :
    itemsDocIds parsedItems = [] := by
  induction parsedItems with
  | nil => rfl
  | cons p ps ih =>
    have hps := ih (fun item hi => h item (List.mem_cons_of_mem _ hi))
    simp only [itemsDocIds, List.flatMap_cons] at hps ⊢
    rw [hps, List.append_nil]
    cases p with
    | none => rfl
    | some item => simp [h item (List.mem_cons_self _ _)]

/-- A term with a posting has a word. -/
theorem lastWord_ne_none (parsedItems : List (Option ParsedItem))
    (h : itemsDocIds parsedItems ≠ []) : lastWord none parsedItems ≠ none := by
  intro hn
  exact h (itemsDocIds_eq_nil parsedItems (lastWord_none parsedItems none hn).2)

/-- The byte count `computeVarByteLength` adds up is the number of bytes
`varByteCompressInt` writes, turn by turn of the two loops. -/
theorem computeVarByteLengthLoop_eq (fuel : Nat) :
    ∀ (x : Nat) (c : Int),
      computeVarByteLengthLoop fuel (x : Int) c + 1
        = c + ((varByteCompressLoop fuel x).length : Int) := by
  induction fuel with
  | zero => intro x c; simp [computeVarByteLengthLoop, varByteCompressLoop]
  | succ fuel ih =>
    intro x c
    by_cases hx : x ≥ 128
    · have hx2 : (x : Int) ≥ 128 := by omega
      have hdiv : (x : Int) / (128 : Int) = ((x >>> 7 : Nat) : Int) := by
        rw [Nat.shiftRight_eq_div_pow]; norm_num
      simp only [computeVarByteLengthLoop, varByteCompressLoop, if_pos hx, if_pos hx2,
        List.length_cons]
      rw [hdiv, ih]
      push_cast
      ring
    · have hx2 : ¬ (x : Int) ≥ 128 := by omega
      simp [computeVarByteLengthLoop, varByteCompressLoop, if_neg hx, if_neg hx2]

theorem computeVarByteLength_eq (v : Int) (h0 : 0 ≤ v) (h1 : v < 2 ^ 32) :
    computeVarByteLength v = ((varByteCompressInt (toUInt32 v)).length : Int) := by
  have hv : toUInt32 v = v.toNat := by
    unfold toUInt32
    rw [Int.emod_eq_of_lt h0 h1]
  have hc : ((v.toNat : Nat) : Int) = v := Int.toNat_of_nonneg h0
  rw [hv]
  unfold computeVarByteLength varByteCompressInt
  have := computeVarByteLengthLoop_eq v.toNat v.toNat 0
  rw [hc] at this
  rw [this]
  simp

theorem storedDocIds_range (l : List Int) :
    ∀ prev : Int, -1 ≤ prev → IncreasingFrom prev l →
      ∀ v ∈ storedDocIds prev l, 0 ≤ v ∧ v < 2 ^ 31 := by
  induction l with
  | nil => intro _ _ _ v hv; simp [storedDocIds] at hv
  | cons d rest ih =>
    intro prev hprev h v hv
    obtain ⟨h1, h2, h3, h4⟩ := h
    simp only [storedDocIds, List.mem_cons] at hv
    rcases hv with hv | hv
    · subst hv
      split <;> constructor <;> omega
    · exact ih d (by omega) h4 v hv

theorem sum_map_add_one (l : List Int) (f : Int → Int) :
    (l.map (fun v => f v + 1)).sum = (l.map f).sum + (l.length : Int) := by
  induction l with
  | nil => rfl
  | cons a rest ih =>
    simp only [List.map_cons, List.sum_cons, List.length_cons, ih]
    push_cast
    ring

theorem length_flatMap_int {α β : Type} (l : List α) (f : α → List β) :
    (((l.flatMap f).length : Nat) : Int) = (l.map (fun v => ((f v).length : Int))).sum := by
  induction l with
  | nil => rfl
  | cons a rest ih =>
    simp only [List.flatMap_cons, List.length_append, List.map_cons, List.sum_cons]
    push_cast
    rw [ih]

/-- The size the encoder adds up for a chunk whose stored values are
non-negative is the number of bytes `writeChunk` writes for it. -/
theorem chunkSizeOf_eq_bytes {D : Type} (ops : DoubleOps D) (chunk : IndexChunk D)
    (hlen : chunk.impactScores.length = chunk.docIds.length)
    (hr : ∀ v ∈ chunk.docIds.take chunk.postingCount, 0 ≤ v ∧ v < 2 ^ 31) :
    chunkSizeOf chunk = ((writeChunk ops chunk).length : Int) := by
  unfold chunkSizeOf writeChunk
  rw [List.length_append, List.length_map, Nat.cast_add, length_flatMap_int,
    sum_map_add_one]
  have h1 : (chunk.impactScores.take chunk.postingCount).length
      = (chunk.docIds.take chunk.postingCount).length := by
    simp [List.length_take, hlen]
  rw [h1]
  congr 2
  apply List.map_congr_left
  intro v hv
  have := hr v hv
  exact computeVarByteLength_eq v this.1 (by omega)

/-- The stored values of a chunk whose absolute docIDs increase from a
non-negative docID are non-negative. -/
theorem stored_range_of_increasing {D : Type} (chunk : IndexChunk D)
    (h : IncreasingFrom (-1) chunk.absDocIds) :
    ∀ v ∈ chunk.docIds.take chunk.postingCount, 0 ≤ v ∧ v < 2 ^ 31 := by
  intro v hv
  have := storedDocIds_range chunk.absDocIds (-1) (le_refl _) h v
  rw [IndexChunk.absDocIds, storedDocIds_decodeStored] at this
  exact this hv

/-! ### Chunks, last docIDs and blocks of a term -/

theorem take_eq_map_of_getD {α β : Type} (l : List α) (m : List β) (f : β → α) (n : Nat)
    (d : α) (e : β) (hl : n ≤ l.length) (hm : n ≤ m.length)
    (h : ∀ j, l.getD j d = f (m.getD j e)) : l.take n = (m.take n).map f := by
  apply List.ext_getElem?
  intro i
  by_cases hi : i < n
  · have h1 : i < l.length := by omega
    have h2 : i < m.length := by omega
    have := h i
    rw [List.getD_eq_getElem?_getD, List.getD_eq_getElem?_getD, List.getElem?_eq_getElem h1,
      List.getElem?_eq_getElem h2] at this
    simp only [Option.getD_some] at this
    rw [List.getElem?_take_of_lt hi, List.getElem?_map, List.getElem?_take_of_lt hi,
      List.getElem?_eq_getElem h1, List.getElem?_eq_getElem h2, this]
    rfl
  · rw [List.getElem?_eq_none (by rw [List.length_take]; omega),
      List.getElem?_eq_none (by rw [List.length_map, List.length_take]; omega)]

theorem lastDocIds_take {D : Type} [Zero D] (block : IndexBlock D) (hwf : BlockWF block)
    (hm : BlockMeta block) :
    block.lastDocIds.take block.chunkCount
      = (block.indexChunks.take block.chunkCount).map (fun c => c.absDocIds.getLastD (-1)) :=
  take_eq_map_of_getD _ _ _ _ (-1) emptyIndexChunk (by rw [hwf.lasts_length]; exact hwf.count_le)
    (by rw [hwf.chunks_length]; exact hwf.count_le) hm.lasts

theorem chunkSizes_take {D : Type} [Zero D] (block : IndexBlock D) (hwf : BlockWF block)
    (hm : BlockMeta block) :
    block.chunkSizes.take block.chunkCount
      = (block.indexChunks.take block.chunkCount).map chunkSizeOf :=
  take_eq_map_of_getD _ _ _ _ 0 emptyIndexChunk (by rw [hwf.sizes_length]; exact hwf.count_le)
    (by rw [hwf.chunks_length]; exact hwf.count_le) hm.sizes

theorem flatMap_map_of_forall {α β γ : Type} (l : List α) (f : α → List β) (g : α → List γ)
    (k : γ → β) (h : ∀ a ∈ l, f a = (g a).map k) : l.flatMap f = (l.flatMap g).map k := by
  induction l with
  | nil => rfl
  | cons a rest ih =>
    simp only [List.flatMap_cons, List.map_append]
    rw [h a (List.mem_cons_self _ _), ih (fun b hb => h b (List.mem_cons_of_mem _ hb))]

/-- The `lastDocIds` entries of an index the encoder has built are the last
absolute docIDs of its chunks. -/
theorem lastDocIdList_eq {D : Type} [Zero D] (invertedIndex : InvertedIndex D)
    (hwf : IndexWF invertedIndex) (hex : IndexExtra invertedIndex) :
    invertedIndex.lastDocIdList = invertedIndex.absLists.map (fun l => l.getLastD (-1)) := by
  unfold InvertedIndex.lastDocIdList InvertedIndex.absLists allChunks
  rw [List.map_map]
  exact flatMap_map_of_forall _ _ _ _
    (fun b hb => lastDocIds_take b (hwf b hb) (hex.blocks_meta b hb))

/-- The `chunkSizes` entries of an index the encoder has built are the sizes it
added up for its chunks. -/
theorem chunkSizeList_eq {D : Type} [Zero D] (invertedIndex : InvertedIndex D)
    (hwf : IndexWF invertedIndex) (hex : IndexExtra invertedIndex) :
    invertedIndex.chunkSizeList = (allChunks invertedIndex.blocks).map chunkSizeOf := by
  unfold InvertedIndex.chunkSizeList allChunks
  exact flatMap_map_of_forall _ _ _ _
    (fun b hb => chunkSizes_take b (hwf b hb) (hex.blocks_meta b hb))

theorem mem_dropLast_or_getLastD {α : Type} (T : List α) (d : α) (l : α) (h : l ∈ T) :
    l ∈ T.dropLast ∨ l = T.getLastD d := by
  rcases List.eq_nil_or_concat T with h0 | ⟨init, last, h0⟩
  · subst h0; simp at h
  · subst h0
    simp only [List.concat_eq_append, List.mem_append, List.mem_singleton] at h
    rcases h with h | h
    · left; simpa using h
    · right; simp [h, List.getLastD_eq_getLast?]

theorem flatten_length_of_dropLast {α : Type} (T : List (List α)) (k : Nat) (hT : T ≠ [])
    (h : ∀ l ∈ T.dropLast, l.length = k) :
    T.flatten.length = k * (T.length - 1) + (T.getLastD []).length := by
  rcases List.eq_nil_or_concat T with h0 | ⟨init, last, h0⟩
  · exact absurd h0 hT
  · subst h0
    simp only [List.concat_eq_append, List.dropLast_concat] at h
    have hinit : init.flatten.length = k * init.length := by
      clear hT
      induction init with
      | nil => simp
      | cons a rest ih =>
        simp only [List.flatten_cons, List.length_append, List.length_cons]
        rw [ih (fun l hl => h l (List.mem_cons_of_mem _ hl)), h a (List.mem_cons_self _ _)]
        ring
    simp [List.getLastD_eq_getLast?, hinit]

theorem head_decodeStored (vs : List Int) : (decodeStored (-1) vs).head? = vs.head? := by
  cases vs with
  | nil => rfl
  | cons v rest => simp [decodeStored]

/-- C16: after `addParsedItemsToInvertedIndex` has added a term with at least one
posting to an index the encoder has built, the entry of `lastDocIds` of every
chunk is the absolute docID of the last posting placed in that chunk: the
chunks of the term hold, in order, the docID lists `T`, which are a split of
the docIDs of the term into non-empty runs, and the `lastDocIds` entries of the
index are, chunk by chunk, the last docIDs of the lists of its chunks.  The
index that results is again one the encoder has built. -/
theorem addParsedItemsToInvertedIndex_lastDocIds {D : Type} [Zero D] (ops : DoubleOps D)
    (parsedItems : List (Option ParsedItem)) (invertedIndex : InvertedIndex D)
    (lexicon : Lexicon) (docLengths : Int → Int) (totalDocCount avgDocLength : Int)
    (hwf : IndexWF invertedIndex) (hex : IndexExtra invertedIndex)
    (hne : itemsDocIds parsedItems ≠ []) :
    ∃ (index1 : InvertedIndex D) (lexicon1 : Lexicon) (T : List (List Int)),
      addParsedItemsToInvertedIndex ops parsedItems invertedIndex lexicon docLengths
        totalDocCount avgDocLength = some (index1, lexicon1) ∧
      IndexWF index1 ∧ IndexExtra index1 ∧
      index1.absLists = invertedIndex.absLists ++ T ∧
      T.flatten = itemsDocIds parsedItems ∧ (∀ l ∈ T, l ≠ []) ∧
      index1.lastDocIdList
        = (invertedIndex.absLists ++ T).map (fun l => l.getLastD (-1)) := by
  have h := addParsedItemsToInvertedIndex_full ops parsedItems invertedIndex lexicon docLengths
    totalDocCount avgDocLength hwf hex
  cases hadd : addParsedItemsToInvertedIndex ops parsedItems invertedIndex lexicon docLengths
      totalDocCount avgDocLength with
  | none =>
    rw [hadd] at h
    exact absurd h (lastWord_ne_none parsedItems hne)
  | some r =>
    obtain ⟨index1, lexicon1⟩ := r
    rw [hadd] at h
    obtain ⟨hwf1, hex1, T, word, habs, hT, hflat, hdrop, hlast, hlast2, -, -, -, -⟩ := h
    refine ⟨index1, lexicon1, T, rfl, hwf1, hex1, habs, hflat, ?_, ?_⟩
    · intro l hl
      rcases mem_dropLast_or_getLastD T [] l hl with h1 | h1
      · intro h0
        have := hdrop l h1
        rw [h0] at this
        simp [MAX_POSTING_COUNT] at this
      · rw [h1]; exact hlast2 hne
    · rw [lastDocIdList_eq index1 hwf1 hex1, habs]

/-- C17: for a term with `n ≥ 1` postings, `addParsedItemsToInvertedIndex` lays
the docIDs of the term out in `(n + 127) / 128` chunks, the number
`endChunk - startChunk + 1` of its lexicon entry; every chunk but the last
holds `MAX_POSTING_COUNT` postings and the last holds between 1 and
`MAX_POSTING_COUNT`; the first stored docID of every chunk of the term is the
absolute docID, so that the 129th posting opens a chunk that starts with the
docID itself and not with a gap. -/
theorem addParsedItemsToInvertedIndex_chunk_count {D : Type} [Zero D] (ops : DoubleOps D)
    (parsedItems : List (Option ParsedItem)) (invertedIndex : InvertedIndex D)
    (lexicon : Lexicon) (docLengths : Int → Int) (totalDocCount avgDocLength : Int)
    (hwf : IndexWF invertedIndex) (hex : IndexExtra invertedIndex)
    (hne : itemsDocIds parsedItems ≠ []) :
    ∃ (index1 : InvertedIndex D) (lexicon1 : Lexicon) (T : List (List Int)) (word : List Nat)
        (startChunk endChunk : Int),
      addParsedItemsToInvertedIndex ops parsedItems invertedIndex lexicon docLengths
        totalDocCount avgDocLength = some (index1, lexicon1) ∧
      index1.absLists = invertedIndex.absLists ++ T ∧
      T.flatten = itemsDocIds parsedItems ∧
      T.length = ((itemsDocIds parsedItems).length + 127) / 128 ∧
      (∀ l ∈ T.dropLast, l.length = MAX_POSTING_COUNT) ∧
      1 ≤ (T.getLastD []).length ∧ (T.getLastD []).length ≤ MAX_POSTING_COUNT ∧
      lexicon1 = addNodeToLexicon lexicon word startChunk endChunk ∧
      endChunk - startChunk + 1 = (T.length : Int) ∧
      ((allChunks index1.blocks).drop invertedIndex.absLists.length).map
          (fun c => (c.docIds.take c.postingCount).head?) = T.map List.head? := by
  have h := addParsedItemsToInvertedIndex_full ops parsedItems invertedIndex lexicon docLengths
    totalDocCount avgDocLength hwf hex
  cases hadd : addParsedItemsToInvertedIndex ops parsedItems invertedIndex lexicon docLengths
      totalDocCount avgDocLength with
  | none =>
    rw [hadd] at h
    exact absurd h (lastWord_ne_none parsedItems hne)
  | some r =>
    obtain ⟨index1, lexicon1⟩ := r
    rw [hadd] at h
    obtain ⟨hwf1, hex1, T, word, habs, hT, hflat, hdrop, hlast, hlast2, -, -, hlex, -⟩ := h
    have hpos : 1 ≤ (T.getLastD []).length :=
      List.length_pos.2 (hlast2 hne)
    have hlen := flatten_length_of_dropLast T MAX_POSTING_COUNT hT hdrop
    rw [hflat] at hlen
    have hTpos : 1 ≤ T.length := List.length_pos.2 hT
    refine ⟨index1, lexicon1, T, word, invertedIndex.chunkNumber + 1,
      invertedIndex.chunkNumber + T.length, rfl, habs, hflat, ?_, hdrop, hpos, hlast, hlex,
      by ring, ?_⟩
    · rw [hlen]
      simp only [MAX_POSTING_COUNT] at hlast ⊢
      omega
    · have h1 : ((allChunks index1.blocks).drop invertedIndex.absLists.length).map
          IndexChunk.absDocIds = T := by
        have : (allChunks index1.blocks).map IndexChunk.absDocIds
            = invertedIndex.absLists ++ T := habs
        rw [List.map_drop, this, List.drop_left]
      rw [← h1, List.map_map]
      apply List.map_congr_left
      intro c _
      simp only [Function.comp, IndexChunk.absDocIds, head_decodeStored]

theorem allChunks_length {D : Type} [Zero D] (blocks : List (IndexBlock D))
    (hwf : ∀ b ∈ blocks, BlockWF b)
    (hfull : ∀ b ∈ blocks.dropLast, b.chunkCount = MAX_CHUNK_COUNT) (last : IndexBlock D)
    (hlast : blocks.getLast? = some last) :
    (allChunks blocks).length = MAX_CHUNK_COUNT * (blocks.length - 1) + last.chunkCount := by
  rcases List.eq_nil_or_concat blocks with h0 | ⟨init, last1, h0⟩
  · subst h0; simp at hlast
  · subst h0
    have hl : last1 = last := by simpa using hlast
    subst hl
    simp only [List.concat_eq_append, List.dropLast_concat] at hfull
    have hw := hwf last1 (by simp)
    have hinit : (allChunks init).length = MAX_CHUNK_COUNT * init.length := by
      have hwf1 : ∀ b ∈ init, BlockWF b := fun b hb => hwf b (by simp [hb])
      clear hwf hlast hw
      induction init with
      | nil => simp [allChunks]
      | cons a rest ih =>
        have ha := hfull a (List.mem_cons_self _ _)
        have hr := ih (fun b hb => hfull b (List.mem_cons_of_mem _ hb))
          (fun b hb => hwf1 b (List.mem_cons_of_mem _ hb))
        have hw := hwf1 a (by simp)
        simp only [allChunks, List.flatMap_cons, List.length_append, List.length_cons,
          List.length_take, hw.chunks_length, ha] at hr ⊢
        rw [hr]
        simp only [MAX_CHUNK_COUNT]
        omega
    rw [List.concat_eq_append, allChunks_append, List.length_append, hinit]
    simp only [allChunks, List.flatMap_cons, List.flatMap_nil, List.append_nil, List.length_take,
      hw.chunks_length, List.length_append, List.length_singleton]
    have := hw.count_le
    simp only [MAX_CHUNK_COUNT] at this ⊢
    omega

/-- C18: after `addParsedItemsToInvertedIndex` has added a term with at least one
posting to an index the encoder has built, every block holds at most
`MAX_CHUNK_COUNT` chunks, every block but the last holds exactly
`MAX_CHUNK_COUNT` chunks and the last block holds at least one, so that the
number of blocks is the number of chunks divided by `MAX_CHUNK_COUNT`, rounded
up: a block is opened only for the chunk that follows `MAX_CHUNK_COUNT` chunks
of the block before it.  The field `blockCount` is the number of blocks, and the
index that results is again one the encoder has built. -/
theorem addParsedItemsToInvertedIndex_blocks {D : Type} [Zero D] (ops : DoubleOps D)
    (parsedItems : List (Option ParsedItem)) (invertedIndex : InvertedIndex D)
    (lexicon : Lexicon) (docLengths : Int → Int) (totalDocCount avgDocLength : Int)
    (hwf : IndexWF invertedIndex) (hex : IndexExtra invertedIndex)
    (hne : itemsDocIds parsedItems ≠ []) :
    ∃ (index1 : InvertedIndex D) (lexicon1 : Lexicon),
      addParsedItemsToInvertedIndex ops parsedItems invertedIndex lexicon docLengths
        totalDocCount avgDocLength = some (index1, lexicon1) ∧
      IndexWF index1 ∧ IndexExtra index1 ∧
      (∀ b ∈ index1.blocks, b.chunkCount ≤ MAX_CHUNK_COUNT) ∧
      (∀ b ∈ index1.blocks.dropLast, b.chunkCount = MAX_CHUNK_COUNT) ∧
      (∃ last, index1.blocks.getLast? = some last ∧ 1 ≤ last.chunkCount) ∧
      index1.blocks.length = ((allChunks index1.blocks).length + 63) / 64 ∧
      index1.blockCount = (index1.blocks.length : Int) := by
  have h := addParsedItemsToInvertedIndex_full ops parsedItems invertedIndex lexicon docLengths
    totalDocCount avgDocLength hwf hex
  cases hadd : addParsedItemsToInvertedIndex ops parsedItems invertedIndex lexicon docLengths
      totalDocCount avgDocLength with
  | none =>
    rw [hadd] at h
    exact absurd h (lastWord_ne_none parsedItems hne)
  | some r =>
    obtain ⟨index1, lexicon1⟩ := r
    rw [hadd] at h
    obtain ⟨hwf1, hex1, T, word, -, -, -, -, -, -, -, -, -, last, hlast, hlast1⟩ := h
    refine ⟨index1, lexicon1, rfl, hwf1, hex1, fun b hb => (hwf1 b hb).count_le, hex1.full,
      ⟨last, hlast, hlast1⟩, ?_, hex1.count_eq⟩
    have hlen := allChunks_length index1.blocks hwf1 hex1.full last hlast
    have hle := (hwf1 last (List.mem_of_mem_getLast? hlast)).count_le
    have hpos : 1 ≤ index1.blocks.length := by
      cases hb : index1.blocks with
      | nil => rw [hb] at hlast; simp at hlast
      | cons a rest => simp
    rw [hlen]
    simp only [MAX_CHUNK_COUNT] at hle ⊢
    omega

set_option maxRecDepth 100000 in
theorem addParsedItemsToInvertedIndex_lastDocIds_witness :
    IndexWF (createInvertedIndex : InvertedIndex Int) ∧
    IndexExtra (createInvertedIndex : InvertedIndex Int) ∧
    itemsDocIds [some itemA, none, some itemB] ≠ [] ∧
    ∃ (index1 : InvertedIndex Int) (lexicon1 : Lexicon) (T : List (List Int)),
      addParsedItemsToInvertedIndex intOps [some itemA, none, some itemB] createInvertedIndex
        createLexicon (fun _ => 10) 100 10 = some (index1, lexicon1) ∧
      IndexWF index1 ∧ IndexExtra index1 ∧
      index1.absLists = (createInvertedIndex : InvertedIndex Int).absLists ++ T ∧
      T.flatten = itemsDocIds [some itemA, none, some itemB] ∧ (∀ l ∈ T, l ≠ []) ∧
      index1.lastDocIdList
        = ((createInvertedIndex : InvertedIndex Int).absLists ++ T).map
            (fun l => l.getLastD (-1)) :=
  ⟨IndexWF_create, IndexExtra_create, by decide,
    addParsedItemsToInvertedIndex_lastDocIds intOps [some itemA, none, some itemB]
      createInvertedIndex createLexicon (fun _ => 10) 100 10 IndexWF_create IndexExtra_create
      (by decide)⟩

set_option maxRecDepth 100000 in
theorem addParsedItemsToInvertedIndex_chunk_count_witness :
    IndexWF (createInvertedIndex : InvertedIndex Int) ∧
    IndexExtra (createInvertedIndex : InvertedIndex Int) ∧
    itemsDocIds [some longItem] ≠ [] ∧
    ∃ (index1 : InvertedIndex Int) (lexicon1 : Lexicon) (T : List (List Int)) (word : List Nat)
        (startChunk endChunk : Int),
      addParsedItemsToInvertedIndex intOps [some longItem] createInvertedIndex createLexicon
        (fun _ => 10) 100 10 = some (index1, lexicon1) ∧
      index1.absLists = (createInvertedIndex : InvertedIndex Int).absLists ++ T ∧
      T.flatten = itemsDocIds [some longItem] ∧
      T.length = ((itemsDocIds [some longItem]).length + 127) / 128 ∧
      (∀ l ∈ T.dropLast, l.length = MAX_POSTING_COUNT) ∧
      1 ≤ (T.getLastD []).length ∧ (T.getLastD []).length ≤ MAX_POSTING_COUNT ∧
      lexicon1 = addNodeToLexicon createLexicon word startChunk endChunk ∧
      endChunk - startChunk + 1 = (T.length : Int) ∧
      ((allChunks index1.blocks).drop
          (createInvertedIndex : InvertedIndex Int).absLists.length).map
          (fun c => (c.docIds.take c.postingCount).head?) = T.map List.head? :=
  ⟨IndexWF_create, IndexExtra_create, by decide,
    addParsedItemsToInvertedIndex_chunk_count intOps [some longItem] createInvertedIndex
      createLexicon (fun _ => 10) 100 10 IndexWF_create IndexExtra_create (by decide)⟩

set_option maxRecDepth 100000 in
theorem addParsedItemsToInvertedIndex_blocks_witness :
    IndexWF (createInvertedIndex : InvertedIndex Int) ∧
    IndexExtra (createInvertedIndex : InvertedIndex Int) ∧
    itemsDocIds [some itemB, some itemA] ≠ [] ∧
    ∃ (index1 : InvertedIndex Int) (lexicon1 : Lexicon),
      addParsedItemsToInvertedIndex intOps [some itemB, some itemA] createInvertedIndex
        createLexicon (fun _ => 10) 100 10 = some (index1, lexicon1) ∧
      IndexWF index1 ∧ IndexExtra index1 ∧
      (∀ b ∈ index1.blocks, b.chunkCount ≤ MAX_CHUNK_COUNT) ∧
      (∀ b ∈ index1.blocks.dropLast, b.chunkCount = MAX_CHUNK_COUNT) ∧
      (∃ last, index1.blocks.getLast? = some last ∧ 1 ≤ last.chunkCount) ∧
      index1.blocks.length = ((allChunks index1.blocks).length + 63) / 64 ∧
      index1.blockCount = (index1.blocks.length : Int) :=
  ⟨IndexWF_create, IndexExtra_create, by decide,
    addParsedItemsToInvertedIndex_blocks intOps [some itemB, some itemA] createInvertedIndex
      createLexicon (fun _ => 10) 100 10 IndexWF_create IndexExtra_create (by decide)⟩

set_option maxRecDepth 1000000 in
/-- The chunks `addParsedItemsToInvertedIndex` builds for a term with 130
postings: 128 stored values that start with the docID 1 and go on with the gap
2, then the absolute docID 257 and the gap 2; the `lastDocIds` entries are 255
and 259 and the lexicon entry is the range of chunks 1 to 2. -/

theorem addParsedItemsToInvertedIndex_longItem :
    (addParsedItemsToInvertedIndex intOps [some longItem] createInvertedIndex createLexicon
        (fun _ => 10) 100 10).map
      (fun r => ((allChunks r.1.blocks).map (fun c => c.docIds.take c.postingCount),
        r.1.lastDocIdList, r.1.chunkSizeList, r.2.nodes))
      = some ([1 :: List.replicate 127 2, [257, 2]], [255, 259], [256, 5],
          [{ word := [97], startChunk := 1, endChunk := 2 }]) := by
  decide

/-! ### Invariants of the merge loop -/

/-- The main merge loop of `buildIndex` keeps every property `P` of the indexes
written, the index under construction and the lexicon that one turn of the loop
keeps: a call of `addParsedItemsToInvertedIndex` on records of the files,
followed by the write of the index when its block count has reached
`MAX_BLOCK_COUNT`.  The loop is started with no entry of `parsedItems` that holds an indeterminate
value other than `NULL`; it returns unless a record has no posting. -/
theorem mergeLoop_inv {D : Type} [Zero D] (ops : DoubleOps D) (docLengths : Int → Int)
    (totalDocCount avgDocLength : Int) (records : List (List ParsedItem))
    (hwf : ∀ i, ∀ item ∈ records.getD i [], RecordWF item)
    (P : List (InvertedIndex D) → InvertedIndex D → Lexicon → Prop)
    (hPwf : ∀ written invertedIndex lexicon, P written invertedIndex lexicon →
      IndexWF invertedIndex)
    (hstep : ∀ written invertedIndex lexicon parsedItems index1 lexicon1,
      P written invertedIndex lexicon → SlotsInv records parsedItems →
      addParsedItemsToInvertedIndex ops parsedItems invertedIndex lexicon docLengths
        totalDocCount avgDocLength = some (index1, lexicon1) →
      (index1.blockCount ≥ MAX_BLOCK_COUNT →
        P (written ++ [index1]) { createInvertedIndex with chunkNumber := index1.chunkNumber }
          lexicon1) ∧
      (¬ index1.blockCount ≥ MAX_BLOCK_COUNT → P written index1 lexicon1)) :
    ∀ (fuel : Nat) (st : MergeState D) (rem : List (List ParsedItem)),
      MergeInv records MERGE_HEAP_SIZE st.heap st.files rem → SlotsInv records st.parsedItems →
      P st.written st.invertedIndex st.lexicon → st.indeterminate = [] →
      mergeMeasure st.heap rem < fuel →
      match mergeLoop ops docLengths totalDocCount avgDocLength fuel st with
      | some st1 => P st1.written st1.invertedIndex st1.lexicon
      | none => ∃ i, ∃ item ∈ records.getD i [], item.postings = [] := by
  intro fuel
  induction fuel with
  | zero => intro _ _ _ _ _ _ h; omega
  | succ fuel ih =>
    intro st rem hinv hslots hgood hnull hfuel
    by_cases hpos : st.heap.nodeCount > 0
    swap
    · simp only [mergeLoop, if_neg hpos]
      exact hgood
    · obtain ⟨x1, x2, x3, x4, x5⟩ := extractMin_inv records _ st.heap st.files rem hinv hpos
      obtain ⟨heap2, files2, c, rem2, hrefill, hinv2, hm2⟩ := refill_spec records hwf _ _ st.files
        rem x3 _ x1 x5
      have hslots1 := hslots.set _ _ x2
      cases c with
      | true =>
        have := ih { st with heap := heap2, files := files2
                             parsedItems := st.parsedItems.set
                               (MergeHeap.extractMin st.heap).1.fileNumber
                               (some (MergeHeap.extractMin st.heap).1.parsedItem) }
          rem2 hinv2 hslots1 hgood hnull (by simp only; omega)
        simp only [mergeLoop, if_pos hpos, hrefill]
        exact this
      | false =>
        obtain ⟨heap3, files3, parsedItems3, rem3, hrun, y1, y2, y3, i, current, y4⟩ :=
          collectLoop_spec records hwf fuel heap2 files2 _
            (MergeHeap.extractMin st.heap).1.fileNumber rem2 hinv2 hslots1
            ⟨_, getD_set_some _ _ _ (by rw [hslots.1]; exact x1)⟩ (by omega)
        have hadd := addParsedItemsToInvertedIndex_spec ops parsedItems3 st.invertedIndex
          st.lexicon docLengths totalDocCount avgDocLength (hPwf _ _ _ hgood)
        simp only [mergeLoop, if_pos hpos, hrefill, hrun, hnull, readsIndeterminate_nil,
          Bool.false_eq_true, if_false]
        cases hr : addParsedItemsToInvertedIndex ops parsedItems3 st.invertedIndex st.lexicon
            docLengths totalDocCount avgDocLength with
        | none =>
          rw [hr] at hadd
          simp only
          have hil : i < parsedItems3.length := by
            by_contra hcon
            rw [List.getD_eq_getElem?_getD, List.getElem?_eq_none (by omega)] at y4
            simp at y4
          have hmem : some current ∈ parsedItems3 := by
            rw [List.getD_eq_getElem?_getD, List.getElem?_eq_getElem hil] at y4
            simp only [Option.getD_some] at y4
            rw [← y4]
            exact List.getElem_mem _
          exact ⟨i, current, y2.2 i current y4, (lastWord_none parsedItems3 none hadd).2 current hmem⟩
        | some r =>
          obtain ⟨index1, lexicon1⟩ := r
          have hs := hstep st.written st.invertedIndex st.lexicon parsedItems3 index1 lexicon1
            hgood y2 hr
          simp only
          by_cases hbig : index1.blockCount ≥ MAX_BLOCK_COUNT
          · rw [if_pos hbig]
            exact ih _ rem3 y1 y2.freed (hs.1 hbig) rfl (by simp only; omega)
          · rw [if_neg hbig]
            exact ih _ rem3 y1 y2.freed (hs.2 hbig) rfl (by simp only; omega)

/-- The function `buildIndex` on files of well-formed records establishes every
property `P` of the indexes written and the lexicon that holds of the empty
index and the empty lexicon and that one turn of the merge loop keeps, when
every entry of `parsedItems` holds `NULL` at the declaration.  `buildIndex`
returns unless a record has no posting. -/
theorem buildIndex_inv {D : Type} [Zero D] (ops : DoubleOps D)
    (docLengths : Int → Int) (fuel : Nat) (records : List (List ParsedItem))
    (hcount : records.length = INTERMEDIATE_FILE_COUNT)
    (hwf : ∀ recs ∈ records, ∀ item ∈ recs, RecordWF item)
    (hfuel : (records.map List.length).sum < fuel)
    (P : List (InvertedIndex D) → InvertedIndex D → Lexicon → Prop)
    (hPwf : ∀ written invertedIndex lexicon, P written invertedIndex lexicon →
      IndexWF invertedIndex)
    (hinit : P [] createInvertedIndex createLexicon)
    (hstep : ∀ written invertedIndex lexicon parsedItems index1 lexicon1,
      P written invertedIndex lexicon → SlotsInv records parsedItems →
      addParsedItemsToInvertedIndex ops parsedItems invertedIndex lexicon docLengths
        DOC_COUNT (computeAvgDocLength docLengths DOC_COUNT) = some (index1, lexicon1) →
      (index1.blockCount ≥ MAX_BLOCK_COUNT →
        P (written ++ [index1]) { createInvertedIndex with chunkNumber := index1.chunkNumber }
          lexicon1) ∧
      (¬ index1.blockCount ≥ MAX_BLOCK_COUNT → P written index1 lexicon1)) :
    match buildIndex ops docLengths fuel [] (records.map encodeParsedItems) with
    | some result => ∃ written invertedIndex,
        result.indexes = written ++ [invertedIndex] ∧ P written invertedIndex result.lexicon
    | none => ∃ recs ∈ records, ∃ item ∈ recs, item.docIds = [] := by
  have hwf1 : ∀ i, ∀ item ∈ records.getD i [], RecordWF item := by
    intro i item hitem
    rcases getD_mem_or_nil records i with h | h
    · exact hwf _ h item hitem
    · rw [h] at hitem; simp at hitem
  have hinit0 : MergeInv records 0 MergeHeap.createHeap [] [] :=
    { files_inv := List.Forall₂.nil
      rem_len := rfl
      rem_sub := by intro i item h; simp at h
      heap_len := by simp [MergeHeap.createHeap]
      k_le := Nat.zero_le _
      count_le := Nat.zero_le _
      heap_nodes := by intro node h; simp [MergeHeap.createHeap] at h
      heap_nodup := by simp [MergeHeap.createHeap] }
  obtain ⟨heap1, files1, rem1, hopen, hinv1, hm1⟩ := openIntermediateFiles_spec records hwf1
    records 0 MergeHeap.createHeap [] [] (by intro j; rw [Nat.zero_add])
    (by rw [hcount]; decide) hinit0
  have hk : 0 + records.length = MERGE_HEAP_SIZE := by rw [hcount]; rfl
  rw [hk] at hinv1
  have hmeasure : mergeMeasure heap1 rem1 < fuel := by
    have : mergeMeasure MergeHeap.createHeap [] = 0 := by
      simp [mergeMeasure, MergeHeap.createHeap]
    omega
  have hslots : SlotsInv records (List.replicate MERGE_HEAP_SIZE none) := by
    refine ⟨by simp, ?_⟩
    intro i item h
    rw [List.getD_eq_getElem?_getD] at h
    by_cases hi : i < MERGE_HEAP_SIZE
    · rw [List.getElem?_replicate, if_pos hi] at h; simp at h
    · rw [List.getElem?_replicate, if_neg hi] at h; simp at h
  have hloop := mergeLoop_inv ops docLengths DOC_COUNT (computeAvgDocLength docLengths DOC_COUNT)
    records hwf1 P hPwf hstep fuel
    ({ heap := heap1, files := files1
       parsedItems := List.replicate MERGE_HEAP_SIZE none
       indeterminate := []
       lexicon := createLexicon
       invertedIndex := createInvertedIndex
       fileNumber := 0
       written := [] } : MergeState D) rem1 hinv1 hslots hinit rfl hmeasure
  have hlen : ¬ (records.map encodeParsedItems).length ≠ INTERMEDIATE_FILE_COUNT := by
    rw [List.length_map, hcount]; simp
  cases hres : mergeLoop ops docLengths DOC_COUNT (computeAvgDocLength docLengths DOC_COUNT) fuel
      ({ heap := heap1, files := files1
         parsedItems := List.replicate MERGE_HEAP_SIZE none
         indeterminate := []
         lexicon := createLexicon
         invertedIndex := createInvertedIndex
         fileNumber := 0
         written := [] } : MergeState D) with
  | none =>
    rw [hres] at hloop
    have hbuild : buildIndex ops docLengths fuel [] (records.map encodeParsedItems) = none := by
      simp only [buildIndex, if_neg hlen, hopen, hres]
    rw [hbuild]
    obtain ⟨i, item, hitem, hpost⟩ := hloop
    rcases getD_mem_or_nil records i with h | h
    · exact ⟨_, h, item, hitem, postings_eq_nil item (hwf1 i item hitem) hpost⟩
    · rw [h] at hitem; simp at hitem
  | some st1 =>
    rw [hres] at hloop
    have hbuild : buildIndex ops docLengths fuel [] (records.map encodeParsedItems)
        = some { indexes := st1.written ++ [st1.invertedIndex], lexicon := st1.lexicon } := by
      simp only [buildIndex, if_neg hlen, hopen, hres]
    rw [hbuild]
    exact ⟨st1.written, st1.invertedIndex, rfl, hloop⟩

/-! ### Chunk metadata of the indexes written -/

theorem lastWord_of_itemsDocIds_nil (parsedItems : List (Option ParsedItem)) :
    ∀ w, itemsDocIds parsedItems = [] → lastWord w parsedItems = w := by
  induction parsedItems with
  | nil => intro w _; rfl
  | cons p ps ih =>
    intro w h
    simp only [itemsDocIds, List.flatMap_cons, List.append_eq_nil] at h
    simp only [lastWord, List.foldl_cons]
    cases p with
    | none => exact ih w h.2
    | some item =>
      have hp : item.postings = [] := by simpa using h.1
      simp only [hp, if_true]
      exact ih w h.2

theorem IndexWF_reset {D : Type} [Zero D] (chunkNumber : Int) :
    IndexWF ({ createInvertedIndex with chunkNumber := chunkNumber } : InvertedIndex D) := by
  intro b hb
  simp [createInvertedIndex] at hb

theorem IndexExtra_reset {D : Type} [Zero D] (chunkNumber : Int) :
    IndexExtra ({ createInvertedIndex with chunkNumber := chunkNumber } : InvertedIndex D) := by
  refine ⟨?_, ?_, ?_⟩
  · intro b hb; simp [createInvertedIndex] at hb
  · intro b hb; simp [createInvertedIndex] at hb
  · simp [createInvertedIndex]

theorem absLists_reset {D : Type} (chunkNumber : Int) :
    ({ createInvertedIndex with chunkNumber := chunkNumber } : InvertedIndex D).absLists = [] := by
  simp [InvertedIndex.absLists, createInvertedIndex, allChunks]

/-- Every index `buildIndex` writes is one the encoder has built, and every
chunk holds a non-empty run of docIDs of one term; a property `R` of the runs
of the docIDs that `addParsedItemsToInvertedIndex` is called with holds of the
docIDs of every chunk. -/
theorem buildIndex_chunks {D : Type} [Zero D] (ops : DoubleOps D)
    (docLengths : Int → Int) (fuel : Nat) (records : List (List ParsedItem))
    (hcount : records.length = INTERMEDIATE_FILE_COUNT)
    (hwf : ∀ recs ∈ records, ∀ item ∈ recs, RecordWF item)
    (hfuel : (records.map List.length).sum < fuel)
    (R : List Int → Prop)
    (hR : ∀ parsedItems, SlotsInv records parsedItems → ∀ T : List (List Int),
      T.flatten = itemsDocIds parsedItems → ∀ l ∈ T, R l) :
    match buildIndex ops docLengths fuel [] (records.map encodeParsedItems) with
    | some result => ∀ ix ∈ result.indexes,
        IndexWF ix ∧ IndexExtra ix ∧ ∀ l ∈ ix.absLists, l ≠ [] ∧ R l
    | none => ∃ recs ∈ records, ∃ item ∈ recs, item.docIds = [] := by
  have h := buildIndex_inv ops docLengths fuel records hcount hwf hfuel
    (fun written invertedIndex _ => ∀ ix ∈ written ++ [invertedIndex],
      IndexWF ix ∧ IndexExtra ix ∧ ∀ l ∈ ix.absLists, l ≠ [] ∧ R l)
    (fun written invertedIndex _ hP => (hP invertedIndex (by simp)).1)
    (by
      intro ix hix
      simp only [List.nil_append, List.mem_singleton] at hix
      subst hix
      refine ⟨IndexWF_create, IndexExtra_create, ?_⟩
      intro l hl
      simp [InvertedIndex.absLists, createInvertedIndex, allChunks] at hl)
    (by
      intro written invertedIndex lexicon parsedItems index1 lexicon1 hP hslots hadd
      obtain ⟨hwf0, hex0, hall0⟩ := hP invertedIndex (by simp)
      have hfull := addParsedItemsToInvertedIndex_full ops parsedItems invertedIndex lexicon
        docLengths DOC_COUNT (computeAvgDocLength docLengths DOC_COUNT) hwf0 hex0
      rw [hadd] at hfull
      obtain ⟨hwf1, hex1, T, word, habs, hT, hflat, hdrop, hlast, hlast2, -, hword, -, -⟩ := hfull
      have hne : itemsDocIds parsedItems ≠ [] := by
        intro h0
        rw [lastWord_of_itemsDocIds_nil parsedItems none h0] at hword
        exact absurd hword (by simp)
      have h1 : IndexWF index1 ∧ IndexExtra index1 ∧ ∀ l ∈ index1.absLists, l ≠ [] ∧ R l := by
        refine ⟨hwf1, hex1, ?_⟩
        intro l hl
        rw [habs, List.mem_append] at hl
        rcases hl with hl | hl
        · exact hall0 l hl
        · refine ⟨?_, hR parsedItems hslots T hflat l hl⟩
          rcases mem_dropLast_or_getLastD T [] l hl with h2 | h2
          · intro h0
            have := hdrop l h2
            rw [h0] at this
            simp [MAX_POSTING_COUNT] at this
          · rw [h2]; exact hlast2 hne
      refine ⟨fun _ => ?_, fun _ => ?_⟩
      · intro ix hix
        simp only [List.mem_append, List.mem_singleton] at hix
        rcases hix with (hix | hix) | hix
        · exact hP ix (by simp [hix])
        · rw [hix]; exact h1
        · rw [hix]
          refine ⟨IndexWF_reset _, IndexExtra_reset _, ?_⟩
          intro l hl
          rw [absLists_reset] at hl
          simp at hl
      · intro ix hix
        simp only [List.mem_append, List.mem_singleton] at hix
        rcases hix with hix | hix
        · exact hP ix (by simp [hix])
        · rw [hix]; exact h1)
  cases hb : buildIndex ops docLengths fuel [] (records.map encodeParsedItems) with
  | none => rw [hb] at h; exact h
  | some result =>
    rw [hb] at h
    obtain ⟨written, invertedIndex, hres, hP⟩ := h
    intro ix hix
    rw [hres] at hix
    exact hP ix hix

theorem sublist_flatten_of_mem {α : Type} (T : List (List α)) (l : List α) (h : l ∈ T) :
    l.Sublist T.flatten := by
  induction T with
  | nil => simp at h
  | cons a rest ih =>
    rw [List.flatten_cons]
    rcases List.mem_cons.1 h with h1 | h1
    · rw [h1]; exact List.sublist_append_left _ _
    · exact (ih h1).trans (List.sublist_append_right _ _)

theorem itemsDocIds_mem (parsedItems : List (Option ParsedItem)) (d : Int)
    (h : d ∈ itemsDocIds parsedItems) :
    ∃ item, some item ∈ parsedItems ∧ d ∈ item.docIds := by
  simp only [itemsDocIds, List.mem_flatMap] at h
  obtain ⟨p, hp, hd⟩ := h
  cases p with
  | none => simp at hd
  | some item =>
    refine ⟨item, hp, ?_⟩
    exact (postings_docIds_sublist item).subset hd

theorem SlotsInv.mem_records {records : List (List ParsedItem)}
    {parsedItems : List (Option ParsedItem)} (h : SlotsInv records parsedItems)
    (item : ParsedItem) (hitem : some item ∈ parsedItems) :
    ∃ recs ∈ records, item ∈ recs := by
  obtain ⟨i, hi, hget⟩ := List.mem_iff_getElem.1 hitem
  have : parsedItems.getD i none = some item := by
    rw [List.getD_eq_getElem?_getD, List.getElem?_eq_getElem hi, hget]; rfl
  have hm := h.2 i item this
  rcases getD_mem_or_nil records i with h1 | h1
  · exact ⟨_, h1, hm⟩
  · rw [h1] at hm; simp at hm

theorem forall_getD_of_forall {α : Type} (records : List (List α)) (Q : α → Prop)
    (h : ∀ recs ∈ records, ∀ item ∈ recs, Q item) :
    ∀ i, ∀ item ∈ records.getD i [], Q item := by
  intro i item hitem
  rcases getD_mem_or_nil records i with h1 | h1
  · exact h _ h1 item hitem
  · rw [h1] at hitem; simp at hitem

theorem cross_getD_of_pairwise (records : List (List ParsedItem))
    (hcross : records.Pairwise (fun a b =>
      ∀ x ∈ a, ∀ y ∈ b, ∀ d ∈ x.docIds, ∀ e ∈ y.docIds, d < e)) :
    ∀ i j, i < j → ∀ a ∈ records.getD i [], ∀ b ∈ records.getD j [],
      ∀ d ∈ a.docIds, ∀ e ∈ b.docIds, d < e := by
  intro i j hij a ha b hb
  by_cases hj : j < records.length
  · have hi : i < records.length := by omega
    rw [List.getD_eq_getElem?_getD, List.getElem?_eq_getElem hi] at ha
    rw [List.getD_eq_getElem?_getD, List.getElem?_eq_getElem hj] at hb
    exact (List.pairwise_iff_getElem.1 hcross) i j hi hj hij a ha b hb
  · rw [List.getD_eq_getElem?_getD, List.getElem?_eq_none (by omega)] at hb
    simp at hb

/-- The runs of docIDs that `addParsedItemsToInvertedIndex` is called with in
the merge of sorted files of non-negative docIDs are strictly increasing. -/
theorem runs_increasing (records : List (List ParsedItem))
    (hwf : ∀ recs ∈ records, ∀ item ∈ recs, RecordWF item)
    (hinc : ∀ recs ∈ records, ∀ item ∈ recs, item.docIds.Pairwise (fun a b => a < b))
    (hcross : records.Pairwise (fun a b =>
      ∀ x ∈ a, ∀ y ∈ b, ∀ d ∈ x.docIds, ∀ e ∈ y.docIds, d < e))
    (hnonneg : ∀ recs ∈ records, ∀ item ∈ recs, ∀ d ∈ item.docIds, 0 ≤ d)
    (parsedItems : List (Option ParsedItem)) (hslots : SlotsInv records parsedItems)
    (T : List (List Int)) (hflat : T.flatten = itemsDocIds parsedItems) :
    ∀ l ∈ T, IncreasingFrom (-1) l := by
  intro l hl
  have hsub := sublist_flatten_of_mem T l hl
  rw [hflat] at hsub
  have hsorted := (itemsDocIds_sorted records (forall_getD_of_forall records _ hinc)
    (cross_getD_of_pairwise records hcross) parsedItems 0
    (by intro i item hi; rw [Nat.zero_add]; exact hslots.2 i item hi)).1
  have hrange : ∀ d ∈ l, 0 ≤ d ∧ d < 2 ^ 31 := by
    intro d hd
    obtain ⟨item, hitem, hdi⟩ := itemsDocIds_mem parsedItems d (hsub.subset hd)
    obtain ⟨recs, hrecs, hir⟩ := hslots.mem_records item hitem
    exact ⟨hnonneg recs hrecs item hir d hdi, ((hwf recs hrecs item hir).docIds_range d hdi).2⟩
  exact IncreasingFrom_of_pairwise l (-1) (hsorted.sublist hsub) hrange
    (fun d hd => by have := (hrange d hd).1; omega)

theorem getD_mem_take_of_lt {α : Type} (l : List α) (d : α) (j n : Nat) (hj : j < n)
    (hn : n ≤ l.length) : l.getD j d ∈ l.take n := by
  have h1 : j < l.length := by omega
  rw [List.getD_eq_getElem?_getD, List.getElem?_eq_getElem h1, Option.getD_some]
  have h2 : j < (l.take n).length := by rw [List.length_take]; omega
  have : (l.take n)[j] = l[j] := List.getElem_take l
  rw [← this]
  exact List.getElem_mem _

theorem mem_allChunks {D : Type} (blocks : List (IndexBlock D)) (b : IndexBlock D)
    (hb : b ∈ blocks) (c : IndexChunk D) (hc : c ∈ b.indexChunks.take b.chunkCount) :
    c ∈ allChunks blocks := by
  unfold allChunks
  exact List.mem_flatMap.2 ⟨b, hb, hc⟩

theorem mem_drop_fresh {D : Type} [Zero D] (b : IndexBlock D) (hwf : BlockWF b) :
    ∀ c ∈ b.indexChunks.drop b.chunkCount, c = emptyIndexChunk := by
  intro c hc
  obtain ⟨i, hi, hget⟩ := List.mem_iff_getElem.1 hc
  rw [List.getElem_drop] at hget
  have hlt : b.chunkCount + i < b.indexChunks.length := by
    rw [List.length_drop] at hi; omega
  have := hwf.fresh (b.chunkCount + i) (by omega)
  rw [List.getD_eq_getElem?_getD, List.getElem?_eq_getElem hlt, Option.getD_some] at this
  rw [← hget, this]

theorem chunkSizes_eq_map {D : Type} [Zero D] (b : IndexBlock D) (hwf : BlockWF b)
    (hm : BlockMeta b) : b.chunkSizes = b.indexChunks.map chunkSizeOf := by
  have := take_eq_map_of_getD b.chunkSizes b.indexChunks chunkSizeOf MAX_CHUNK_COUNT 0
    emptyIndexChunk (by rw [hwf.sizes_length]) (by rw [hwf.chunks_length]) hm.sizes
  rw [List.take_of_length_le (by rw [hwf.sizes_length]),
    List.take_of_length_le (by rw [hwf.chunks_length])] at this
  exact this

/-- The sizes of the chunks of a block the encoder has built from increasing
runs of docIDs are the numbers of bytes written for the chunks. -/
theorem block_sizes_eq_bytes {D : Type} [Zero D] (ops : DoubleOps D) (b : IndexBlock D)
    (hwf : BlockWF b) (hm : BlockMeta b)
    (hinc : ∀ c ∈ b.indexChunks.take b.chunkCount, IncreasingFrom (-1) c.absDocIds) :
    (∀ j, j < b.chunkCount → b.chunkSizes.getD j 0
      = ((writeChunk ops (b.indexChunks.getD j emptyIndexChunk)).length : Int)) ∧
    b.chunkSizes.sum
      = (((b.indexChunks.take b.chunkCount).flatMap (writeChunk ops)).length : Int) := by
  have hchunk : ∀ c ∈ b.indexChunks.take b.chunkCount,
      chunkSizeOf c = ((writeChunk ops c).length : Int) := by
    intro c hc
    have hmem := List.mem_of_mem_take hc
    exact chunkSizeOf_eq_bytes ops c
      (by rw [hwf.scores_length c hmem, hwf.docIds_length c hmem])
      (stored_range_of_increasing c (hinc c hc))
  constructor
  · intro j hj
    rw [hm.sizes j]
    exact hchunk _ (getD_mem_take_of_lt _ _ _ _ hj (by rw [hwf.chunks_length]; exact hwf.count_le))
  · rw [chunkSizes_eq_map b hwf hm, length_flatMap_int]
    conv_lhs => rw [← List.take_append_drop b.chunkCount b.indexChunks]
    rw [List.map_append, List.sum_append]
    have h0 : ((b.indexChunks.drop b.chunkCount).map chunkSizeOf).sum = 0 := by
      apply List.sum_eq_zero
      intro x hx
      obtain ⟨c, hc, rfl⟩ := List.mem_map.1 hx
      rw [mem_drop_fresh b hwf c hc]
      exact chunkSizeOf_empty
    rw [h0, add_zero]
    congr 1
    exact List.map_congr_left hchunk

/-- The sizes of the chunks when every entry of `parsedItems` holds `NULL` at
the declaration: for files of records with strictly increasing non-negative
docIDs, such that every docID of file `i` is smaller than every docID of file
`j` whenever `i < j`, every block of every index that `buildIndex` writes has in
`chunkSizes[c]`, for every chunk `c` of the block, the number of bytes
`writeInvertedIndexToDisk` writes for that chunk (the variable-byte codes of
its stored docID values and one byte per posting for the impact score), and the
sum of the entries of `chunkSizes` is the number of bytes written for the block
after its two metadata arrays.  `buildIndex` returns when every record has a
posting. -/
theorem buildIndex_chunkSizes_of_null {D : Type} [Zero D] (ops : DoubleOps D)
    (docLengths : Int → Int) (fuel : Nat) (records : List (List ParsedItem))
    (hcount : records.length = INTERMEDIATE_FILE_COUNT)
    (hwf : ∀ recs ∈ records, ∀ item ∈ recs, RecordWF item)
    (hinc : ∀ recs ∈ records, ∀ item ∈ recs, item.docIds.Pairwise (fun a b => a < b))
    (hcross : records.Pairwise (fun a b =>
      ∀ x ∈ a, ∀ y ∈ b, ∀ d ∈ x.docIds, ∀ e ∈ y.docIds, d < e))
    (hnonneg : ∀ recs ∈ records, ∀ item ∈ recs, ∀ d ∈ item.docIds, 0 ≤ d)
    (hne : ∀ recs ∈ records, ∀ item ∈ recs, item.docIds ≠ [])
    (hfuel : (records.map List.length).sum < fuel) :
    ∃ result : BuildResult D,
      buildIndex ops docLengths fuel [] (records.map encodeParsedItems) = some result ∧
      ∀ ix ∈ result.indexes, ∀ b ∈ ix.blocks,
        (∀ j, j < b.chunkCount → b.chunkSizes.getD j 0
          = ((writeChunk ops (b.indexChunks.getD j emptyIndexChunk)).length : Int)) ∧
        b.chunkSizes.sum
          = (((b.indexChunks.take b.chunkCount).flatMap (writeChunk ops)).length : Int) ∧
        writeBlock ops b = intsToBytes b.chunkSizes ++ intsToBytes b.lastDocIds
          ++ (b.indexChunks.take b.chunkCount).flatMap (writeChunk ops) := by
  have h := buildIndex_chunks ops docLengths fuel records hcount hwf hfuel
    (IncreasingFrom (-1)) (runs_increasing records hwf hinc hcross hnonneg)
  cases hb : buildIndex ops docLengths fuel [] (records.map encodeParsedItems) with
  | none =>
    rw [hb] at h
    obtain ⟨recs, hrecs, item, hitem, h0⟩ := h
    exact absurd h0 (hne recs hrecs item hitem)
  | some result =>
    rw [hb] at h
    refine ⟨result, rfl, ?_⟩
    intro ix hix b hbm
    obtain ⟨hwf1, hex1, hall⟩ := h ix hix
    have := block_sizes_eq_bytes ops b (hwf1 b hbm) (hex1.blocks_meta b hbm)
      (fun c hc => (hall c.absDocIds
        (List.mem_map.2 ⟨c, mem_allChunks ix.blocks b hbm c hc, rfl⟩)).2)
    exact ⟨this.1, this.2, rfl⟩

theorem computeVarByteLengthLoop_ge (fuel : Nat) :
    ∀ (docId byteCount : Int), byteCount ≤ computeVarByteLengthLoop fuel docId byteCount := by
  induction fuel with
  | zero => intro _ c; simp [computeVarByteLengthLoop]
  | succ fuel ih =>
    intro d c
    simp only [computeVarByteLengthLoop]
    split
    · have := ih (d / 128) (c + 1); omega
    · exact le_refl _

theorem chunkSizeOf_pos {D : Type} (chunk : IndexChunk D)
    (h : chunk.docIds.take chunk.postingCount ≠ []) : 0 < chunkSizeOf chunk := by
  unfold chunkSizeOf
  apply List.sum_pos
  · intro x hx
    obtain ⟨v, _, rfl⟩ := List.mem_map.1 hx
    have := computeVarByteLengthLoop_ge v.toNat v 0
    unfold computeVarByteLength
    omega
  · simpa using h

theorem getLastD_mem {α : Type} (l : List α) (d : α) (h : l ≠ []) : l.getLastD d ∈ l := by
  rcases List.eq_nil_or_concat l with h0 | ⟨init, last, h0⟩
  · exact absurd h0 h
  · subst h0
    simp [List.getLastD_eq_getLast?]

/-- The metadata of a block the encoder has built from non-empty runs of
non-negative docIDs: positive sizes and non-negative last docIDs below
`chunkCount`, the initial values from `chunkCount` on. -/
theorem block_slots {D : Type} [Zero D] (b : IndexBlock D) (hwf : BlockWF b) (hm : BlockMeta b)
    (hrun : ∀ c ∈ b.indexChunks.take b.chunkCount,
      c.absDocIds ≠ [] ∧ ∀ d ∈ c.absDocIds, 0 ≤ d) :
    (∀ j, j < b.chunkCount → 0 < b.chunkSizes.getD j 0 ∧ 0 ≤ b.lastDocIds.getD j (-1)) ∧
    (∀ j, b.chunkCount ≤ j → j < MAX_CHUNK_COUNT →
      b.chunkSizes.getD j 0 = 0 ∧ b.lastDocIds.getD j (-1) = -1) := by
  constructor
  · intro j hj
    have hc := hrun _ (getD_mem_take_of_lt b.indexChunks emptyIndexChunk j b.chunkCount hj
      (by rw [hwf.chunks_length]; exact hwf.count_le))
    rw [hm.sizes j, hm.lasts j]
    refine ⟨chunkSizeOf_pos _ ?_, hc.2 _ (getLastD_mem _ _ hc.1)⟩
    intro h0
    apply hc.1
    rw [IndexChunk.absDocIds, h0]
    rfl
  · intro j hj _
    rw [hm.sizes j, hm.lasts j, hwf.fresh j hj, chunkSizeOf_empty, absDocIds_empty]
    exact ⟨rfl, rfl⟩

/-- The metadata arrays when every entry of `parsedItems` holds `NULL` at the
declaration: every block of every index that `buildIndex` writes for files of
records with non-negative docIDs (every merged term has at least one posting,
or `buildIndex` does not return) has `MAX_CHUNK_COUNT` entries in `chunkSizes`
and in `lastDocIds`; every slot below `chunkCount` has a size above 0 and a
last docID of at least 0, and every slot from `chunkCount` to
`MAX_CHUNK_COUNT - 1` has the size 0 and the last docID -1, so that the first
slot with the size 0 is the slot `chunkCount`.  `buildIndex` returns when every
record has a posting. -/
theorem buildIndex_metadata_slots_of_null {D : Type} [Zero D] (ops : DoubleOps D)
    (docLengths : Int → Int) (fuel : Nat) (records : List (List ParsedItem))
    (hcount : records.length = INTERMEDIATE_FILE_COUNT)
    (hwf : ∀ recs ∈ records, ∀ item ∈ recs, RecordWF item)
    (hnonneg : ∀ recs ∈ records, ∀ item ∈ recs, ∀ d ∈ item.docIds, 0 ≤ d)
    (hne : ∀ recs ∈ records, ∀ item ∈ recs, item.docIds ≠ [])
    (hfuel : (records.map List.length).sum < fuel) :
    ∃ result : BuildResult D,
      buildIndex ops docLengths fuel [] (records.map encodeParsedItems) = some result ∧
      ∀ ix ∈ result.indexes, ∀ b ∈ ix.blocks,
        b.chunkCount ≤ MAX_CHUNK_COUNT ∧
        b.chunkSizes.length = MAX_CHUNK_COUNT ∧ b.lastDocIds.length = MAX_CHUNK_COUNT ∧
        (∀ j, j < b.chunkCount → 0 < b.chunkSizes.getD j 0 ∧ 0 ≤ b.lastDocIds.getD j (-1)) ∧
        (∀ j, b.chunkCount ≤ j → j < MAX_CHUNK_COUNT →
          b.chunkSizes.getD j 0 = 0 ∧ b.lastDocIds.getD j (-1) = -1) := by
  have h := buildIndex_chunks ops docLengths fuel records hcount hwf hfuel
    (fun l => ∀ d ∈ l, 0 ≤ d)
    (by
      intro parsedItems hslots T hflat l hl d hd
      have hsub := sublist_flatten_of_mem T l hl
      rw [hflat] at hsub
      obtain ⟨item, hitem, hdi⟩ := itemsDocIds_mem parsedItems d (hsub.subset hd)
      obtain ⟨recs, hrecs, hir⟩ := hslots.mem_records item hitem
      exact hnonneg recs hrecs item hir d hdi)
  cases hb : buildIndex ops docLengths fuel [] (records.map encodeParsedItems) with
  | none =>
    rw [hb] at h
    obtain ⟨recs, hrecs, item, hitem, h0⟩ := h
    exact absurd h0 (hne recs hrecs item hitem)
  | some result =>
    rw [hb] at h
    refine ⟨result, rfl, ?_⟩
    intro ix hix b hbm
    obtain ⟨hwf1, hex1, hall⟩ := h ix hix
    have hw := hwf1 b hbm
    have := block_slots b hw (hex1.blocks_meta b hbm)
      (fun c hc => hall c.absDocIds
        (List.mem_map.2 ⟨c, mem_allChunks ix.blocks b hbm c hc, rfl⟩))
    exact ⟨hw.count_le, hw.sizes_length, hw.lasts_length, this.1, this.2⟩

set_option maxRecDepth 1000000 in
/-- The metadata of the block `buildIndex` writes for `mergeRecords`: one chunk
of three postings whose stored values and impact bytes take 6 bytes, with the
last docID 5; the other slots hold the size 0 and the last docID -1. -/

theorem buildIndex_mergeRecords_metadata :
    (buildIndex intOps (fun _ => 10) 5 [] (mergeRecords.map encodeParsedItems)).map
      (fun r => r.indexes.flatMap (fun ix => ix.blocks.map (fun b =>
        (b.chunkCount, b.chunkSizes, b.lastDocIds,
          ((b.indexChunks.take b.chunkCount).flatMap (writeChunk intOps)).length))))
      = some [((1 : Nat), (6 : Int) :: List.replicate 63 0,
          (5 : Int) :: List.replicate 63 (-1), (6 : Nat))] := by
  decide

/-! ### The lexicon tiles the chunk numbering -/

theorem lexiconTiles_append (nodes : List LexiconNode) :
    ∀ (prev total : Int) (node : LexiconNode), lexiconTiles prev nodes total →
      node.startChunk = total + 1 → node.startChunk ≤ node.endChunk →
      lexiconTiles prev (nodes ++ [node]) node.endChunk := by
  induction nodes with
  | nil =>
    intro prev total node h h1 h2
    simp only [lexiconTiles] at h
    subst h
    exact ⟨h1, h2, rfl⟩
  | cons a rest ih =>
    intro prev total node h h1 h2
    exact ⟨h.1, h.2.1, ih _ _ node h.2.2 h1 h2⟩

theorem lexiconTiles_le (nodes : List LexiconNode) :
    ∀ (prev total : Int), lexiconTiles prev nodes total → prev ≤ total := by
  induction nodes with
  | nil => intro prev total h; exact le_of_eq h
  | cons a rest ih =>
    intro prev total h
    have := ih _ _ h.2.2
    have := h.1
    have := h.2.1
    omega

/-- The ranges of entries that tile the chunk numbers lie above `prev` and do
not overlap: every entry ends before the entries after it start. -/
theorem lexiconTiles_disjoint (nodes : List LexiconNode) :
    ∀ (prev total : Int), lexiconTiles prev nodes total →
      (∀ node ∈ nodes, prev < node.startChunk ∧ node.endChunk ≤ total) ∧
      nodes.Pairwise (fun a b => a.endChunk < b.startChunk) := by
  induction nodes with
  | nil => intro prev total _; simp
  | cons a rest ih =>
    intro prev total h
    obtain ⟨h1, h2, h3⟩ := h
    obtain ⟨i1, i2⟩ := ih _ _ h3
    have hle := lexiconTiles_le rest _ _ h3
    refine ⟨?_, ?_⟩
    · intro node hnode
      rcases List.mem_cons.1 hnode with e | e
      · rw [e]; exact ⟨by omega, hle⟩
      · have := i1 node e
        exact ⟨by omega, this.2⟩
    · rw [List.pairwise_cons]
      exact ⟨fun b hb => (i1 b hb).1, i2⟩

/-- Every chunk number from `prev + 1` to `total` lies in the range of an entry
of a lexicon that tiles these numbers. -/
theorem lexiconTiles_cover (nodes : List LexiconNode) :
    ∀ (prev total : Int), lexiconTiles prev nodes total →
      ∀ g, prev < g → g ≤ total →
        ∃ node ∈ nodes, node.startChunk ≤ g ∧ g ≤ node.endChunk := by
  induction nodes with
  | nil =>
    intro prev total h g h1 h2
    simp only [lexiconTiles] at h
    omega
  | cons a rest ih =>
    intro prev total h g h1 h2
    obtain ⟨e1, e2, e3⟩ := h
    by_cases hg : g ≤ a.endChunk
    · exact ⟨a, List.mem_cons_self _ _, by omega, hg⟩
    · obtain ⟨node, hnode, hn⟩ := ih _ _ e3 g (by omega) h2
      exact ⟨node, List.mem_cons_of_mem _ hnode, hn⟩

/-- The ranges of the lexicon entries, when every entry of `parsedItems` holds
`NULL` at the declaration: the lexicon entries `buildIndex` produces for files
of well-formed records, in the order in which they are added, tile the global
chunk numbering of the index files written: the first entry has
`startChunk = 1`, every later entry has `startChunk` one above the `endChunk`
of the entry before it, every entry has `startChunk ≤ endChunk`, and the last
`endChunk` is the number of chunks of all index files together.  Hence no two
ranges overlap and every chunk lies in the range of an entry.  `buildIndex`
returns when every record has a posting. -/
theorem buildIndex_lexicon_tiles {D : Type} [Zero D] (ops : DoubleOps D)
    (docLengths : Int → Int) (fuel : Nat) (records : List (List ParsedItem))
    (hcount : records.length = INTERMEDIATE_FILE_COUNT)
    (hwf : ∀ recs ∈ records, ∀ item ∈ recs, RecordWF item)
    (hne : ∀ recs ∈ records, ∀ item ∈ recs, item.docIds ≠ [])
    (hfuel : (records.map List.length).sum < fuel) :
    ∃ result : BuildResult D,
      buildIndex ops docLengths fuel [] (records.map encodeParsedItems) = some result ∧
      lexiconTiles 0 result.lexicon.nodes (writtenChunks result.indexes).length ∧
      result.lexicon.nodes.Pairwise (fun a b => a.endChunk < b.startChunk) ∧
      ∀ g : Int, 1 ≤ g → g ≤ (writtenChunks result.indexes).length →
        ∃ node ∈ result.lexicon.nodes, node.startChunk ≤ g ∧ g ≤ node.endChunk := by
  have h := buildIndex_inv ops docLengths fuel records hcount hwf hfuel
    (fun written invertedIndex lexicon => IndexWF invertedIndex ∧
      invertedIndex.chunkNumber = (writtenChunks (written ++ [invertedIndex])).length ∧
      lexiconTiles 0 lexicon.nodes invertedIndex.chunkNumber)
    (fun _ _ _ hP => hP.1)
    ⟨IndexWF_create,
      by simp [writtenChunks, createInvertedIndex, InvertedIndex.absLists, allChunks],
      by simp [createLexicon, createInvertedIndex, lexiconTiles]⟩
    (by
      intro written invertedIndex lexicon parsedItems index1 lexicon1 hP hslots hadd
      obtain ⟨hwf0, hcn, htile⟩ := hP
      have hspec := addParsedItemsToInvertedIndex_spec ops parsedItems invertedIndex lexicon
        docLengths DOC_COUNT (computeAvgDocLength docLengths DOC_COUNT) hwf0
      rw [hadd] at hspec
      obtain ⟨hwf1, T, word, habs, hT, -, -, hcn1, -, hlex1⟩ := hspec
      have hTpos : 0 < T.length := List.length_pos.2 hT
      have hG : writtenChunks (written ++ [index1])
          = writtenChunks (written ++ [invertedIndex]) ++ T := by
        rw [writtenChunks_snoc, writtenChunks_snoc, habs, List.append_assoc]
      have hcn2 : index1.chunkNumber = (writtenChunks (written ++ [index1])).length := by
        rw [hG, List.length_append, hcn1, hcn]; push_cast; ring
      have htile1 : lexiconTiles 0 lexicon1.nodes index1.chunkNumber := by
        rw [hlex1, hcn1]
        exact lexiconTiles_append lexicon.nodes 0 invertedIndex.chunkNumber
          { word := word, startChunk := invertedIndex.chunkNumber + 1
            endChunk := invertedIndex.chunkNumber + T.length } htile rfl
          (by simp only; omega)
      refine ⟨fun _ => ⟨IndexWF_reset _, ?_, htile1⟩, fun _ => ⟨hwf1, hcn2, htile1⟩⟩
      have hw : writtenChunks ((written ++ [index1]) ++
          [({ createInvertedIndex with chunkNumber := index1.chunkNumber } :
            InvertedIndex D)]) = writtenChunks (written ++ [index1]) := by
        rw [writtenChunks_snoc (written ++ [index1]), absLists_reset, List.append_nil]
      rw [hw]
      exact hcn2)
  cases hb : buildIndex ops docLengths fuel [] (records.map encodeParsedItems) with
  | none =>
    rw [hb] at h
    obtain ⟨recs, hrecs, item, hitem, h0⟩ := h
    exact absurd h0 (hne recs hrecs item hitem)
  | some result =>
    rw [hb] at h
    obtain ⟨written, invertedIndex, hres, -, hcn, htile⟩ := h
    rw [hcn, ← hres] at htile
    refine ⟨result, rfl, htile, (lexiconTiles_disjoint _ _ _ htile).2, ?_⟩
    intro g h1 h2
    exact lexiconTiles_cover _ _ _ htile g (by omega) h2

/-! ### The order of strcmp -/

theorem cstr_nil : cstr [] = [] := rfl

theorem cstr_cons_zero (rest : List Nat) : cstr (0 :: rest) = [] := by
  simp [cstr]

theorem cstr_cons_ne (a : Nat) (rest : List Nat) (h : a ≠ 0) :
    cstr (a :: rest) = a :: cstr rest := by
  simp [cstr, h]

theorem not_lex_nil (l : List Nat) : ¬ List.Lex (· < ·) l [] := by
  intro h; cases h

theorem lex_cons_cons (a b : Nat) (l1 l2 : List Nat) :
    List.Lex (· < ·) (a :: l1) (b :: l2) ↔ a < b ∨ (a = b ∧ List.Lex (· < ·) l1 l2) := by
  constructor
  · intro h
    cases h with
    | cons h1 => exact Or.inr ⟨rfl, h1⟩
    | rel h1 => exact Or.inl h1
  · rintro (h | ⟨rfl, h⟩)
    · exact List.Lex.rel h
    · exact List.Lex.cons h

/-- The function `strcmp` is negative when the first string is before the
second in the lexicographic order of the bytes. -/
theorem strcmp_lt_iff (a : List Nat) :
    ∀ b, strcmp a b < 0 ↔ List.Lex (· < ·) (cstr a) (cstr b) := by
  induction a with
  | nil =>
    intro b
    cases b with
    | nil => simp [strcmp, cstr_nil, not_lex_nil]
    | cons y ys =>
      by_cases hy : y = 0
      · subst hy
        simp [strcmp, cstr_nil, cstr_cons_zero, not_lex_nil]
      · simp only [strcmp, if_neg hy, cstr_nil, cstr_cons_ne y ys hy]
        exact ⟨fun _ => List.Lex.nil, fun _ => by omega⟩
  | cons x xs ih =>
    intro b
    cases b with
    | nil =>
      simp only [strcmp, cstr_nil]
      constructor
      · intro h; split at h <;> omega
      · intro h; exact absurd h (not_lex_nil _)
    | cons y ys =>
      by_cases hxy : x = y
      · subst hxy
        by_cases hx : x = 0
        · subst hx
          simp [strcmp, cstr_cons_zero, not_lex_nil]
        · simp only [strcmp, ne_eq, not_true_eq_false, if_false, if_neg hx,
            cstr_cons_ne x _ hx, lex_cons_cons, lt_irrefl, true_and, false_or]
          exact ih ys
      · by_cases hx : x = 0
        · subst hx
          have hy : y ≠ 0 := fun h => hxy h.symm
          have hlt : 0 < y := Nat.pos_of_ne_zero hy
          simp only [strcmp, ne_eq, hxy, not_false_eq_true, if_true, hlt, cstr_cons_zero,
            cstr_cons_ne y ys hy]
          exact ⟨fun _ => List.Lex.nil, fun _ => by omega⟩
        · by_cases hy : y = 0
          · subst hy
            have hlt : ¬ x < 0 := Nat.not_lt_zero x
            simp only [strcmp, ne_eq, hxy, not_false_eq_true, if_true, hlt, if_false,
              cstr_cons_zero]
            exact ⟨fun h => by omega, fun h => absurd h (not_lex_nil _)⟩
          · simp only [strcmp, ne_eq, hxy, not_false_eq_true, if_true, cstr_cons_ne x xs hx,
              cstr_cons_ne y ys hy, lex_cons_cons, false_and, or_false]
            constructor
            · intro h; split at h
              · assumption
              · omega
            · intro h; rw [if_pos h]; omega

/-- The function `strcmp` is zero when the two strings are equal. -/
theorem strcmp_eq_zero_iff (a : List Nat) :
    ∀ b, strcmp a b = 0 ↔ cstr a = cstr b := by
  induction a with
  | nil =>
    intro b
    cases b with
    | nil => simp [strcmp]
    | cons y ys =>
      by_cases hy : y = 0
      · subst hy
        simp [strcmp, cstr_nil, cstr_cons_zero]
      · simp [strcmp, if_neg hy, cstr_nil, cstr_cons_ne y ys hy]
  | cons x xs ih =>
    intro b
    cases b with
    | nil =>
      by_cases hx : x = 0
      · subst hx
        simp [strcmp, cstr_nil, cstr_cons_zero]
      · simp [strcmp, if_neg hx, cstr_nil, cstr_cons_ne x xs hx]
    | cons y ys =>
      by_cases hxy : x = y
      · subst hxy
        by_cases hx : x = 0
        · subst hx
          simp [strcmp, cstr_cons_zero]
        · simp only [strcmp, ne_eq, not_true_eq_false, if_false, if_neg hx,
            cstr_cons_ne x _ hx, List.cons.injEq, true_and]
          exact ih ys
      · by_cases hx : x = 0
        · subst hx
          have hy : y ≠ 0 := fun h => hxy h.symm
          simp only [strcmp, ne_eq, hxy, not_false_eq_true, if_true, cstr_cons_zero,
            cstr_cons_ne y ys hy]
          constructor
          · intro h; split at h <;> omega
          · intro h; simp at h
        · by_cases hy : y = 0
          · subst hy
            simp only [strcmp, ne_eq, hxy, not_false_eq_true, if_true, cstr_cons_zero,
              cstr_cons_ne x xs hx]
            constructor
            · intro h; split at h <;> omega
            · intro h; simp at h
          · simp only [strcmp, ne_eq, hxy, not_false_eq_true, if_true, cstr_cons_ne x xs hx,
              cstr_cons_ne y ys hy, List.cons.injEq, false_and, iff_false]
            intro h; split at h <;> omega

/-- The comparison of the merge heap is the order of the keys. -/
theorem mergeLess_iff (a b : MergeHeapNode) :
    MergeHeap.less a b = true ↔ mergeKey a < mergeKey b := by
  simp only [MergeHeap.less, mergeKey, Prod.Lex.lt_iff, Bool.or_eq_true, Bool.and_eq_true,
    decide_eq_true_eq]
  rw [strcmp_lt_iff, strcmp_eq_zero_iff]
  exact Iff.rfl

theorem mergeKey_le (a b : MergeHeapNode) (h : mergeKey a ≤ mergeKey b) :
    cstr a.parsedItem.word ≤ cstr b.parsedItem.word := by
  simp only [mergeKey, Prod.Lex.le_iff] at h
  rcases h with h | h
  · exact le_of_lt h
  · exact le_of_eq h.1

/-! ### The merge keeps the order of the words -/

theorem MergeInv_count_lt {records : List (List ParsedItem)} {k : Nat} {heap : MergeHeap}
    {files : List IntermediateFile} {rem : List (List ParsedItem)}
    (hinv : MergeInv records k heap files rem) (f : Nat) (hf : f < k)
    (hnot : f ∉ (heap.heapNodes.take heap.nodeCount).map (fun node => node.fileNumber)) :
    heap.nodeCount < heap.heapNodes.length := by
  have h1 := nodup_length_lt _ k f hinv.heap_nodup
    (by
      intro x hx
      obtain ⟨node, hnode, rfl⟩ := List.mem_map.1 hx
      exact (hinv.heap_nodes node hnode).1) hf hnot
  have h2 := hinv.count_le
  have h3 := hinv.heap_len
  have h4 := hinv.k_le
  simp only [List.length_map, List.length_take] at h1
  omega

/-- The outcomes of the refill steps: the heap and the records left are as they
were, or the first record left in the file has been put into the heap. -/
theorem refill_cases (records : List (List ParsedItem))
    (hwf : ∀ i, ∀ item ∈ records.getD i [], RecordWF item) (k : Nat) (heap : MergeHeap)
    (files : List IntermediateFile) (rem : List (List ParsedItem))
    (hinv : MergeInv records k heap files rem) (f : Nat) (hf : f < k)
    (hnot : f ∉ (heap.heapNodes.take heap.nodeCount).map (fun node => node.fileNumber)) :
    ∃ heap2 files2 c rem2, refill heap files f = some (heap2, files2, c) ∧
      MergeInv records k heap2 files2 rem2 ∧
      mergeMeasure heap2 rem2 ≤ mergeMeasure heap rem ∧
      ((heap2 = heap ∧ rem2 = rem) ∨
        ∃ item rem1, rem[f]? = some (item :: rem1) ∧
          heap2 = MergeHeap.insertHeapNode heap { fileNumber := f, parsedItem := item } ∧
          rem2 = rem.set f rem1) := by
  have hflen : files.length = k := by rw [hinv.files_inv.length_eq, hinv.rem_len]
  obtain ⟨file, hfile⟩ : ∃ file, files[f]? = some file :=
    ⟨files[f], List.getElem?_eq_getElem (by omega)⟩
  obtain ⟨remf, hremf, hfinv⟩ := forall₂_getElem? hinv.files_inv f file hfile
  have hwff : ∀ item ∈ remf, RecordWF item := by
    intro item hitem
    apply hwf f
    apply hinv.rem_sub f
    rw [List.getD_eq_getElem?_getD, hremf]
    exact hitem
  rcases convertBinaryToParsedItem_rem _ _ remf hwff hfinv with
    hnull | ⟨item, rem1, tail, e, hconv, htail⟩
  · have hminv := mapIntermediateContentFromDisk_inv file remf hfinv
    by_cases hm : (mapIntermediateContentFromDisk file).1 = false
    · refine ⟨heap, files.set f (mapIntermediateContentFromDisk file).2, true, rem, ?_,
        hinv.keep f _ remf hremf hminv, le_rfl, Or.inl ⟨rfl, rfl⟩⟩
      simp only [refill, hfile, hnull, if_pos hm]
    · rcases convertBinaryToParsedItem_rem _ _ remf hwff hminv with
        hnull2 | ⟨item, rem1, tail, e, hconv, htail⟩
      · refine ⟨heap, files.set f (mapIntermediateContentFromDisk file).2, false, rem, ?_,
          hinv.keep f _ remf hremf hminv, le_rfl, Or.inl ⟨rfl, rfl⟩⟩
        simp only [refill, hfile, hnull, if_neg hm, hnull2]
      · subst e
        obtain ⟨h1, h2⟩ := hinv.insert f hf hnot
          { (mapIntermediateContentFromDisk file).2 with remainingBuffer := some tail }
          item rem1 hremf (by simp only [FileInv, Option.getD_some]; exact htail)
        refine ⟨_, _, false, rem.set f rem1, ?_, h1, le_of_eq h2,
          Or.inr ⟨item, rem1, hremf, rfl, rfl⟩⟩
        simp only [refill, hfile, hnull, if_neg hm, hconv]
  · subst e
    obtain ⟨h1, h2⟩ := hinv.insert f hf hnot { file with remainingBuffer := some tail }
      item rem1 hremf (by simp only [FileInv, Option.getD_some]; exact htail)
    refine ⟨_, _, false, rem.set f rem1, ?_, h1, le_of_eq h2,
      Or.inr ⟨item, rem1, hremf, rfl, rfl⟩⟩
    simp only [refill, hfile, hconv]

/-- The insertion of the first record left in a file whose records are not in
the heap keeps the order invariant of the heap. -/
theorem HeapOrd_insert {heap : MergeHeap} {rem : List (List ParsedItem)}
    (hord : HeapOrd heap rem) (f : Nat) (item : ParsedItem) (rem1 : List ParsedItem)
    (hcount : heap.nodeCount < heap.heapNodes.length)
    (hnot : f ∉ (heap.heapNodes.take heap.nodeCount).map (fun node => node.fileNumber))
    (hremf : rem[f]? = some (item :: rem1)) :
    HeapOrd (MergeHeap.insertHeapNode heap { fileNumber := f, parsedItem := item })
      (rem.set f rem1) ∧
    ∀ node ∈ (MergeHeap.insertHeapNode heap
        { fileNumber := f, parsedItem := item }).heapNodes.take
        (MergeHeap.insertHeapNode heap { fileNumber := f, parsedItem := item }).nodeCount,
      node = { fileNumber := f, parsedItem := item } ∨
        node ∈ heap.heapNodes.take heap.nodeCount := by
  obtain ⟨e1, e2, e3, e4⟩ := ArrayHeap.insertHeapNode_spec mergeKey MergeHeap.less mergeLess_iff
    heap { fileNumber := f, parsedItem := item } hcount hord.heap_ord
  have hmem : ∀ node ∈ (MergeHeap.insertHeapNode heap
        { fileNumber := f, parsedItem := item }).heapNodes.take
        (MergeHeap.insertHeapNode heap { fileNumber := f, parsedItem := item }).nodeCount,
      node = { fileNumber := f, parsedItem := item } ∨
        node ∈ heap.heapNodes.take heap.nodeCount := by
    intro node hnode
    have hnode1 : node ∈ (ArrayHeap.insertHeapNode MergeHeap.less heap
        { fileNumber := f, parsedItem := item }).heapNodes.take (heap.nodeCount + 1) := by
      rw [← e1]; exact hnode
    exact List.mem_cons.1 (e3.mem_iff.1 hnode1)
  have hsorted := hord.rem_sorted f
  rw [List.getD_eq_getElem?_getD, hremf, Option.getD_some, List.pairwise_cons] at hsorted
  have hfl : f < rem.length := by
    by_contra hcon
    rw [List.getElem?_eq_none (by omega)] at hremf
    exact absurd hremf (by simp)
  refine ⟨⟨?_, ?_, ?_⟩, hmem⟩
  · have : (MergeHeap.insertHeapNode heap { fileNumber := f, parsedItem := item }).nodeCount
        = heap.nodeCount + 1 := e1
    rw [this]
    exact e4
  · intro i
    by_cases hif : i = f
    · subst hif
      rw [List.getD_eq_getElem?_getD, List.getElem?_set_self hfl, Option.getD_some]
      exact hsorted.2
    · rw [List.getD_eq_getElem?_getD, List.getElem?_set_ne (Ne.symm hif),
        ← List.getD_eq_getElem?_getD]
      exact hord.rem_sorted i
  · intro node hnode x hx
    rcases hmem node hnode with e | e
    · rw [e] at hx ⊢
      simp only at hx ⊢
      rw [List.getD_eq_getElem?_getD, List.getElem?_set_self hfl, Option.getD_some] at hx
      exact hsorted.1 x hx
    · have hne : node.fileNumber ≠ f := by
        intro h0
        exact hnot (List.mem_map.2 ⟨node, e, h0⟩)
      rw [List.getD_eq_getElem?_getD, List.getElem?_set_ne (Ne.symm hne),
        ← List.getD_eq_getElem?_getD] at hx
      exact hord.heap_rem node e x hx

/-- One extraction from the merge heap followed by the refill steps: the
invariants are kept, the record extracted is not after any record of the heap,
and a record that has come into the heap is after it. -/
theorem mergeStep_ord (records : List (List ParsedItem))
    (hwf : ∀ i, ∀ item ∈ records.getD i [], RecordWF item) (heap : MergeHeap)
    (files : List IntermediateFile) (rem : List (List ParsedItem))
    (hinv : MergeInv records MERGE_HEAP_SIZE heap files rem) (hord : HeapOrd heap rem)
    (hpos : 0 < heap.nodeCount) :
    ∃ heap2 files2 c rem2,
      refill (MergeHeap.extractMin heap).2 files (MergeHeap.extractMin heap).1.fileNumber
        = some (heap2, files2, c) ∧
      MergeInv records MERGE_HEAP_SIZE heap2 files2 rem2 ∧
      mergeMeasure heap2 rem2 + 1 ≤ mergeMeasure heap rem ∧
      HeapOrd heap2 rem2 ∧
      (MergeHeap.extractMin heap).1 = heap.heapNodes.getD 0 default ∧
      (MergeHeap.extractMin heap).1.fileNumber < MERGE_HEAP_SIZE ∧
      (MergeHeap.extractMin heap).1.parsedItem
        ∈ records.getD (MergeHeap.extractMin heap).1.fileNumber [] ∧
      (MergeHeap.extractMin heap).1 ∈ heap.heapNodes.take heap.nodeCount ∧
      (∀ node ∈ heap.heapNodes.take heap.nodeCount,
        cstr (MergeHeap.extractMin heap).1.parsedItem.word ≤ cstr node.parsedItem.word) ∧
      (∀ node ∈ heap2.heapNodes.take heap2.nodeCount,
        node ∈ heap.heapNodes.take heap.nodeCount ∨
          cstr (MergeHeap.extractMin heap).1.parsedItem.word < cstr node.parsedItem.word) := by
  have hlen : heap.nodeCount ≤ heap.heapNodes.length := by
    rw [hinv.heap_len]; exact hinv.count_le
  obtain ⟨x1, x2, x3, x4, x5⟩ := extractMin_inv records _ heap files rem hinv hpos
  obtain ⟨e1, e2, e3, e4, e5⟩ := ArrayHeap.extractMin_spec mergeKey MergeHeap.less mergeLess_iff
    heap hpos hlen hord.heap_ord
  obtain ⟨r, hr⟩ : ∃ r, MergeHeap.extractMin heap = r := ⟨_, rfl⟩
  have hr' : ArrayHeap.extractMin MergeHeap.less heap = r := hr
  rw [hr'] at e1 e2 e3 e4 e5
  rw [hr] at x1 x2 x3 x4 x5 ⊢
  rw [← e1] at e4
  have hmin : r.1 ∈ heap.heapNodes.take heap.nodeCount := e4.mem_iff.2 (List.mem_cons_self _ _)
  have hsub : ∀ node ∈ r.2.heapNodes.take r.2.nodeCount,
      node ∈ heap.heapNodes.take heap.nodeCount := by
    intro node hnode
    rw [e2] at hnode
    exact e4.mem_iff.2 (List.mem_cons_of_mem _ hnode)
  have hle : ∀ node ∈ heap.heapNodes.take heap.nodeCount,
      cstr r.1.parsedItem.word ≤ cstr node.parsedItem.word := by
    intro node hnode
    obtain ⟨j, hj, -, rfl⟩ := ArrayHeap.exists_of_mem_take _ _ _ hnode
    have := ArrayHeap.IsHeap.root_le mergeKey heap.heapNodes heap.nodeCount hord.heap_ord j hj
    rw [← e1] at this
    exact mergeKey_le _ _ this
  have hord1 : HeapOrd r.2 rem :=
    { heap_ord := by rw [e2]; exact e5
      rem_sorted := hord.rem_sorted
      heap_rem := fun node hnode => hord.heap_rem node (hsub node hnode) }
  obtain ⟨heap2, files2, c, rem2, hrefill, hinv2, hm2, hcases⟩ :=
    refill_cases records hwf _ r.2 files rem x3 r.1.fileNumber x1 x5
  refine ⟨heap2, files2, c, rem2, hrefill, hinv2, by omega, ?_, e1, x1, x2, hmin, hle, ?_⟩
  · rcases hcases with ⟨h1, h2⟩ | ⟨item, rem1, hrem, h1, h2⟩
    · rw [h1, h2]; exact hord1
    · rw [h1, h2]
      exact (HeapOrd_insert hord1 r.1.fileNumber item rem1
        (MergeInv_count_lt x3 r.1.fileNumber x1 x5) x5 hrem).1
  · rcases hcases with ⟨h1, h2⟩ | ⟨item, rem1, hrem, h1, h2⟩
    · intro node hnode
      rw [h1] at hnode
      exact Or.inl (hsub node hnode)
    · intro node hnode
      rw [h1] at hnode
      rcases (HeapOrd_insert hord1 r.1.fileNumber item rem1
        (MergeInv_count_lt x3 r.1.fileNumber x1 x5) x5 hrem).2 node hnode with e | e
      · right
        rw [e]
        apply hord.heap_rem r.1 hmin
        rw [List.getD_eq_getElem?_getD, hrem]
        exact List.mem_cons_self _ _
      · exact Or.inl (hsub node e)

theorem mem_set_some (parsedItems : List (Option ParsedItem)) (f : Nat) (item s : ParsedItem)
    (h : some s ∈ parsedItems.set f (some item)) : s = item ∨ some s ∈ parsedItems := by
  rcases List.mem_or_eq_of_mem_set h with h1 | h1
  · exact Or.inr h1
  · left; exact Option.some.inj h1

/-- The order invariant of the lexicon after one extraction and refill. -/
theorem LexOrd_step {heap heap2 : MergeHeap} {parsedItems : List (Option ParsedItem)}
    {lexicon : Lexicon} (hlex : LexOrd heap parsedItems lexicon) (m : MergeHeapNode)
    (hmin : m ∈ heap.heapNodes.take heap.nodeCount)
    (hle : ∀ node ∈ heap.heapNodes.take heap.nodeCount,
      cstr m.parsedItem.word ≤ cstr node.parsedItem.word)
    (hnew : ∀ node ∈ heap2.heapNodes.take heap2.nodeCount,
      node ∈ heap.heapNodes.take heap.nodeCount ∨
        cstr m.parsedItem.word < cstr node.parsedItem.word) :
    LexOrd heap2 (parsedItems.set m.fileNumber (some m.parsedItem)) lexicon ∧
    ∀ s, some s ∈ parsedItems.set m.fileNumber (some m.parsedItem) →
      cstr s.word ≤ cstr m.parsedItem.word := by
  have hs : ∀ s, some s ∈ parsedItems.set m.fileNumber (some m.parsedItem) →
      cstr s.word ≤ cstr m.parsedItem.word := by
    intro s hs
    rcases mem_set_some _ _ _ _ hs with e | e
    · rw [e]
    · exact hlex.slots_heap s e m hmin
  refine ⟨⟨hlex.lex_sorted, ?_, ?_, ?_⟩, hs⟩
  · intro l hl s hs
    rcases mem_set_some _ _ _ _ hs with e | e
    · rw [e]; exact hlex.lex_heap l hl m hmin
    · exact hlex.lex_slots l hl s e
  · intro l hl node hnode
    rcases hnew node hnode with e | e
    · exact hlex.lex_heap l hl node e
    · exact lt_trans (hlex.lex_heap l hl m hmin) e
  · intro s hs1 node hnode
    rcases hnew node hnode with e | e
    · exact le_trans (hs s hs1) (hle node e)
    · exact le_trans (hs s hs1) (le_of_lt e)

/-- The loop that collects the records of one word keeps the order invariants;
when it ends, every record in `parsedItems` has a word that is not after the
word `c` of the record extracted last, and every node of the heap has a word
after `c`. -/
theorem collectLoop_ord (records : List (List ParsedItem))
    (hwf : ∀ i, ∀ item ∈ records.getD i [], RecordWF item) (lexicon : Lexicon) :
    ∀ (fuel : Nat) (heap : MergeHeap) (files : List IntermediateFile)
      (parsedItems : List (Option ParsedItem)) (minFileNumber : Nat)
      (rem : List (List ParsedItem)) (c : List Nat),
      MergeInv records MERGE_HEAP_SIZE heap files rem → SlotsInv records parsedItems →
      HeapOrd heap rem → LexOrd heap parsedItems lexicon →
      (∃ current, parsedItems.getD minFileNumber none = some current ∧ cstr current.word = c) →
      (∀ s, some s ∈ parsedItems → cstr s.word ≤ c) →
      mergeMeasure heap rem < fuel →
      ∃ heap3 files3 parsedItems3 rem3,
        collectLoop fuel heap files parsedItems minFileNumber
          = some (heap3, files3, parsedItems3) ∧
        MergeInv records MERGE_HEAP_SIZE heap3 files3 rem3 ∧ SlotsInv records parsedItems3 ∧
        mergeMeasure heap3 rem3 ≤ mergeMeasure heap rem ∧
        HeapOrd heap3 rem3 ∧ LexOrd heap3 parsedItems3 lexicon ∧
        (∀ s, some s ∈ parsedItems3 → cstr s.word ≤ c) ∧
        (∀ node ∈ heap3.heapNodes.take heap3.nodeCount, c < cstr node.parsedItem.word) := by
  intro fuel
  induction fuel with
  | zero => intro _ _ _ _ _ _ _ _ _ _ _ _ h; omega
  | succ fuel ih =>
    intro heap files parsedItems minF rem c hinv hslots hord hlex hcur hsc hfuel
    obtain ⟨current, hcurrent, hc⟩ := hcur
    have hlen : heap.nodeCount ≤ heap.heapNodes.length := by
      rw [hinv.heap_len]; exact hinv.count_le
    have hcurmem : some current ∈ parsedItems := by
      have hil : minF < parsedItems.length := by
        by_contra hcon
        rw [List.getD_eq_getElem?_getD, List.getElem?_eq_none (by omega)] at hcurrent
        simp at hcurrent
      rw [List.getD_eq_getElem?_getD, List.getElem?_eq_getElem hil] at hcurrent
      simp only [Option.getD_some] at hcurrent
      rw [← hcurrent]
      exact List.getElem_mem _
    by_cases hcond : heap.nodeCount > 0 ∧
        strcmp current.word (heap.heapNodes.getD 0 default).parsedItem.word = 0
    · obtain ⟨heap2, files2, c2, rem2, hrefill, hinv2, hm2, hord2, m1, m2, m3, m4, m5, m6⟩ :=
        mergeStep_ord records hwf heap files rem hinv hord hcond.1
      have hslots1 := hslots.set _ _ m3
      obtain ⟨hlex2, hs2⟩ := LexOrd_step hlex (MergeHeap.extractMin heap).1 m4 m5 m6
      have hmc : cstr (MergeHeap.extractMin heap).1.parsedItem.word = c := by
        rw [m1, ← hc]
        exact ((strcmp_eq_zero_iff _ _).1 hcond.2).symm
      rw [hmc] at hs2
      obtain ⟨heap3, files3, parsedItems3, rem3, hrun, y1, y2, y3, y4, y5, y6, y7⟩ :=
        ih heap2 files2 _ (MergeHeap.extractMin heap).1.fileNumber rem2 c hinv2 hslots1 hord2
          hlex2 ⟨_, getD_set_some _ _ _ (by rw [hslots.1]; exact m2), hmc⟩ hs2 (by omega)
      refine ⟨heap3, files3, parsedItems3, rem3, ?_, y1, y2, by omega, y4, y5, y6, y7⟩
      simp only [collectLoop, hcurrent, if_pos hcond, hrefill]
      exact hrun
    · refine ⟨heap, files, parsedItems, rem, ?_, hinv, hslots, le_rfl, hord, hlex, hsc, ?_⟩
      · simp only [collectLoop, hcurrent, if_neg hcond]
      · intro node hnode
        have hpos : 0 < heap.nodeCount := by
          by_contra hcon
          have : heap.nodeCount = 0 := by omega
          rw [this] at hnode
          simp at hnode
        have htop := ArrayHeap.getD_mem_take heap.heapNodes heap.nodeCount 0 hpos hlen
        have h1 : c ≤ cstr (heap.heapNodes.getD 0 default).parsedItem.word := by
          rw [← hc]; exact hlex.slots_heap current hcurmem _ htop
        have h2 : c ≠ cstr (heap.heapNodes.getD 0 default).parsedItem.word := by
          intro h0
          apply hcond
          refine ⟨hpos, (strcmp_eq_zero_iff _ _).2 ?_⟩
          rw [hc]; exact h0
        obtain ⟨j, hj, -, rfl⟩ := ArrayHeap.exists_of_mem_take _ _ _ hnode
        have h3 := mergeKey_le _ _
          (ArrayHeap.IsHeap.root_le mergeKey heap.heapNodes heap.nodeCount hord.heap_ord j hj)
        exact lt_of_lt_of_le (lt_of_le_of_ne h1 h2) h3

theorem lastWord_mem (parsedItems : List (Option ParsedItem)) :
    ∀ (w0 : Option (List Nat)) (w : List Nat), lastWord w0 parsedItems = some w →
      w0 = some w ∨ ∃ item, some item ∈ parsedItems ∧ item.word = w := by
  induction parsedItems with
  | nil => intro w0 w h; exact Or.inl h
  | cons p ps ih =>
    intro w0 w h
    simp only [lastWord, List.foldl_cons] at h
    cases p with
    | none =>
      rcases ih w0 w h with e | ⟨item, hi, hw⟩
      · exact Or.inl e
      · exact Or.inr ⟨item, List.mem_cons_of_mem _ hi, hw⟩
    | some x =>
      simp only at h
      by_cases hx : x.postings = []
      · rw [if_pos hx] at h
        rcases ih w0 w h with e | ⟨item, hi, hw⟩
        · exact Or.inl e
        · exact Or.inr ⟨item, List.mem_cons_of_mem _ hi, hw⟩
      · rw [if_neg hx] at h
        rcases ih _ w h with e | ⟨item, hi, hw⟩
        · right
          exact ⟨x, List.mem_cons_self _ _, Option.some.inj e⟩
        · exact Or.inr ⟨item, List.mem_cons_of_mem _ hi, hw⟩

/-! ### The lexicon is sorted -/

/-- The main merge loop of `buildIndex`, started with no entry of `parsedItems`
that holds an indeterminate value other than `NULL`, keeps the words of the
lexicon in strictly ascending order. -/
theorem mergeLoop_ord {D : Type} [Zero D] (ops : DoubleOps D) (docLengths : Int → Int)
    (totalDocCount avgDocLength : Int) (records : List (List ParsedItem))
    (hwf : ∀ i, ∀ item ∈ records.getD i [], RecordWF item) :
    ∀ (fuel : Nat) (st : MergeState D) (rem : List (List ParsedItem)),
      MergeInv records MERGE_HEAP_SIZE st.heap st.files rem → SlotsInv records st.parsedItems →
      HeapOrd st.heap rem → LexOrd st.heap st.parsedItems st.lexicon →
      IndexWF st.invertedIndex → st.indeterminate = [] → mergeMeasure st.heap rem < fuel →
      ∀ st1, mergeLoop ops docLengths totalDocCount avgDocLength fuel st = some st1 →
        st1.lexicon.nodes.Pairwise (fun a b => cstr a.word < cstr b.word) := by
  intro fuel
  induction fuel with
  | zero => intro _ _ _ _ _ _ _ _ h; omega
  | succ fuel ih =>
    intro st rem hinv hslots hord hlex hiwf hnull hfuel st1 hrun
    by_cases hpos : st.heap.nodeCount > 0
    swap
    · simp only [mergeLoop, if_neg hpos, Option.some.injEq] at hrun
      rw [← hrun]
      exact hlex.lex_sorted
    · obtain ⟨heap2, files2, c2, rem2, hrefill, hinv2, hm2, hord2, m1, m2, m3, m4, m5, m6⟩ :=
        mergeStep_ord records hwf st.heap st.files rem hinv hord hpos
      have hslots1 := hslots.set _ _ m3
      obtain ⟨hlex2, hs2⟩ := LexOrd_step hlex (MergeHeap.extractMin st.heap).1 m4 m5 m6
      cases c2 with
      | true =>
        simp only [mergeLoop, if_pos hpos, hrefill] at hrun
        exact ih { st with heap := heap2, files := files2
                           parsedItems := st.parsedItems.set
                             (MergeHeap.extractMin st.heap).1.fileNumber
                             (some (MergeHeap.extractMin st.heap).1.parsedItem) }
          rem2 hinv2 hslots1 hord2 hlex2 hiwf hnull (by simp only; omega) st1 hrun
      | false =>
        obtain ⟨heap3, files3, parsedItems3, rem3, hcol, y1, y2, y3, y4, y5, y6, y7⟩ :=
          collectLoop_ord records hwf st.lexicon fuel heap2 files2 _
            (MergeHeap.extractMin st.heap).1.fileNumber rem2
            (cstr (MergeHeap.extractMin st.heap).1.parsedItem.word) hinv2 hslots1 hord2 hlex2
            ⟨_, getD_set_some _ _ _ (by rw [hslots.1]; exact m2), rfl⟩ hs2 (by omega)
        have hadd := addParsedItemsToInvertedIndex_spec ops parsedItems3 st.invertedIndex
          st.lexicon docLengths totalDocCount avgDocLength hiwf
        simp only [mergeLoop, if_pos hpos, hrefill, hcol, hnull, readsIndeterminate_nil,
          Bool.false_eq_true, if_false] at hrun
        cases hr : addParsedItemsToInvertedIndex ops parsedItems3 st.invertedIndex st.lexicon
            docLengths totalDocCount avgDocLength with
        | none =>
          rw [hr] at hrun
          exact absurd hrun (by simp)
        | some r =>
          obtain ⟨index1, lexicon1⟩ := r
          rw [hr] at hadd hrun
          obtain ⟨hwf1, T, word, -, -, -, -, -, hword, hlex1⟩ := hadd
          obtain ⟨item, hitem, hiw⟩ : ∃ item, some item ∈ parsedItems3 ∧ item.word = word := by
            rcases lastWord_mem parsedItems3 none word hword with e | e
            · exact absurd e (by simp)
            · exact e
          have hfreed : ∀ s, some s ∉ parsedItems3.map (fun _ => (none : Option ParsedItem)) := by
            intro s hs
            obtain ⟨_, _, e⟩ := List.mem_map.1 hs
            exact absurd e (by simp)
          have hlexnew : LexOrd heap3 (parsedItems3.map (fun _ => none)) lexicon1 := by
            rw [hlex1]
            refine ⟨?_, ?_, ?_, ?_⟩
            · simp only [addNodeToLexicon]
              rw [List.pairwise_append]
              refine ⟨y5.lex_sorted, List.pairwise_singleton _ _, ?_⟩
              intro a ha b hb
              rw [List.mem_singleton.1 hb]
              simp only
              rw [← hiw]
              exact y5.lex_slots a ha item hitem
            · intro l _ s hs
              exact absurd hs (hfreed s)
            · intro l hl node hnode
              simp only [addNodeToLexicon, List.mem_append, List.mem_singleton] at hl
              rcases hl with e | e
              · exact y5.lex_heap l e node hnode
              · rw [e]
                simp only
                rw [← hiw]
                exact lt_of_le_of_lt (y6 item hitem) (y7 node hnode)
            · intro s hs
              exact absurd hs (hfreed s)
          simp only at hrun
          by_cases hbig : index1.blockCount ≥ MAX_BLOCK_COUNT
          · rw [if_pos hbig] at hrun
            exact ih _ rem3 y1 y2.freed y4 hlexnew (IndexWF_reset _) rfl (by simp only; omega) st1
              hrun
          · rw [if_neg hbig] at hrun
            exact ih _ rem3 y1 y2.freed y4 hlexnew hwf1 rfl (by simp only; omega) st1 hrun

theorem HeapOrd_extend {records : List (List ParsedItem)} {k : Nat} {heap : MergeHeap}
    {files : List IntermediateFile} {rem : List (List ParsedItem)}
    (hinv : MergeInv records k heap files rem) (hord : HeapOrd heap rem)
    (recs : List ParsedItem)
    (hrecs : recs.Pairwise (fun a b => cstr a.word < cstr b.word)) :
    HeapOrd heap (rem ++ [recs]) := by
  refine ⟨hord.heap_ord, ?_, ?_⟩
  · intro i
    rw [List.getD_eq_getElem?_getD]
    by_cases hik : i < k
    · rw [List.getElem?_append_left (by rw [hinv.rem_len]; exact hik),
        ← List.getD_eq_getElem?_getD]
      exact hord.rem_sorted i
    · rw [List.getElem?_append_right (by rw [hinv.rem_len]; omega), hinv.rem_len]
      by_cases hik2 : i = k
      · subst hik2
        simpa using hrecs
      · have : i - k = (i - k - 1) + 1 := by omega
        rw [this]
        simp
  · intro node hnode item hitem
    have hlt := (hinv.heap_nodes node hnode).1
    rw [List.getD_eq_getElem?_getD,
      List.getElem?_append_left (by rw [hinv.rem_len]; exact hlt),
      ← List.getD_eq_getElem?_getD] at hitem
    exact hord.heap_rem node hnode item hitem

/-- The loop that opens the files establishes the invariant of the merge and the
order invariant of the heap. -/
theorem openIntermediateFiles_ord (records : List (List ParsedItem))
    (hwf : ∀ i, ∀ item ∈ records.getD i [], RecordWF item)
    (hsorted : ∀ i, (records.getD i []).Pairwise (fun a b => cstr a.word < cstr b.word)) :
    ∀ (todo : List (List ParsedItem)) (k : Nat) (heap : MergeHeap)
      (files : List IntermediateFile) (rem : List (List ParsedItem)),
      (∀ j, todo.getD j [] = records.getD (k + j) []) →
      k + todo.length ≤ MERGE_HEAP_SIZE →
      MergeInv records k heap files rem → HeapOrd heap rem →
      ∃ heap1 files1 rem1,
        openIntermediateFiles (todo.map encodeParsedItems) k heap files = some (heap1, files1) ∧
        MergeInv records (k + todo.length) heap1 files1 rem1 ∧
        mergeMeasure heap1 rem1 ≤ mergeMeasure heap rem + (todo.map List.length).sum ∧
        HeapOrd heap1 rem1 := by
  intro todo
  induction todo with
  | nil =>
    intro k heap files rem _ _ hinv hord
    exact ⟨heap, files, rem, rfl, hinv, by simp, hord⟩
  | cons recs todo ih =>
    intro k heap files rem htodo hk hinv hord
    simp only [List.length_cons] at hk
    have hrecs : recs = records.getD k [] := by
      have := htodo 0
      simpa using this
    have htodo1 : ∀ j, todo.getD j [] = records.getD (k + 1 + j) [] := by
      intro j
      have := htodo (j + 1)
      rw [show k + 1 + j = k + (j + 1) from by omega, ← this]
      simp
    have hinit : FileInv { content := encodeParsedItems recs, offset := 0
                           remainingBuffer := none } recs := by
      simp [FileInv]
    have hmapped := mapIntermediateContentFromDisk_inv _ recs hinit
    have hwfr : ∀ item ∈ recs, RecordWF item := by
      intro item hitem; rw [hrecs] at hitem; exact hwf k item hitem
    have hflen : files.length = k := by rw [hinv.files_inv.length_eq, hinv.rem_len]
    have hnot : k ∉ (heap.heapNodes.take heap.nodeCount).map (fun node => node.fileNumber) := by
      intro hmem
      obtain ⟨node, hnode, e⟩ := List.mem_map.1 hmem
      have := (hinv.heap_nodes node hnode).1
      omega
    have hext := hinv.extend _ recs hmapped (by intro item hitem; rw [← hrecs]; exact hitem)
      (by omega)
    have hordext := HeapOrd_extend hinv hord recs (by rw [hrecs]; exact hsorted k)
    rcases convertBinaryToParsedItem_rem _ _ recs hwfr hmapped with
      hnull | ⟨item, rem1, tail, e, hconv, htail⟩
    · obtain ⟨heap1, files1, rem1, hrun, h1, h2, h3⟩ :=
        ih (k + 1) heap _ _ htodo1 (by omega) hext hordext
      refine ⟨heap1, files1, rem1, ?_, ?_, ?_, h3⟩
      · simp only [List.map_cons, openIntermediateFiles, hnull]
        exact hrun
      · rw [List.length_cons, show k + (todo.length + 1) = k + 1 + todo.length from by omega]
        exact h1
      · rw [mergeMeasure_append] at h2
        simp only [List.map_cons, List.sum_cons]
        omega
    · have hremk : (rem ++ [recs])[k]? = some (item :: rem1) := by
        rw [List.getElem?_append_right (by rw [hinv.rem_len]), hinv.rem_len, e]
        simp
      obtain ⟨hins, hmeas⟩ := hext.insert k (by omega) hnot
        { (mapIntermediateContentFromDisk { content := encodeParsedItems recs, offset := 0
                                            remainingBuffer := none }).2 with
          remainingBuffer := some tail }
        item rem1 hremk (by simp only [FileInv, Option.getD_some]; exact htail)
      have hordins := (HeapOrd_insert hordext k item rem1
        (MergeInv_count_lt hext k (by omega) hnot) hnot hremk).1
      have hfs : (files ++ [(mapIntermediateContentFromDisk
            { content := encodeParsedItems recs, offset := 0, remainingBuffer := none }).2]).set k
          { (mapIntermediateContentFromDisk { content := encodeParsedItems recs, offset := 0
                                              remainingBuffer := none }).2 with
            remainingBuffer := some tail }
          = files ++ [{ (mapIntermediateContentFromDisk
              { content := encodeParsedItems recs, offset := 0, remainingBuffer := none }).2 with
            remainingBuffer := some tail }] := by
        rw [← hflen, List.set_append_right _ _ (le_refl _)]
        simp
      rw [hfs] at hins
      obtain ⟨heap1, files1, rem2, hrun, h1, h2, h3⟩ :=
        ih (k + 1) _ _ _ htodo1 (by omega) hins hordins
      refine ⟨heap1, files1, rem2, ?_, ?_, ?_, h3⟩
      · simp only [List.map_cons, openIntermediateFiles, hconv]
        exact hrun
      · rw [List.length_cons, show k + (todo.length + 1) = k + 1 + todo.length from by omega]
        exact h1
      · rw [hmeas, mergeMeasure_append] at h2
        simp only [List.map_cons, List.sum_cons]
        omega

/-- The order of the lexicon when every entry of `parsedItems` holds `NULL` at
the declaration: for intermediate files of well-formed records whose words are,
in every file, in strictly ascending byte order (the lexicographic order of the bytes of
the words as strings, the order of `strcmp`), the words of the lexicon entries
that `buildIndex` produces are in strictly ascending byte order, in the order in
which the entries are added.  `buildIndex` returns when every record has a
posting. -/
theorem buildIndex_lexicon_sorted_of_null {D : Type} [Zero D] (ops : DoubleOps D)
    (docLengths : Int → Int) (fuel : Nat) (records : List (List ParsedItem))
    (hcount : records.length = INTERMEDIATE_FILE_COUNT)
    (hwf : ∀ recs ∈ records, ∀ item ∈ recs, RecordWF item)
    (hsorted : ∀ recs ∈ records,
      recs.Pairwise (fun a b => List.Lex (fun x y => x < y) (cstr a.word) (cstr b.word)))
    (hne : ∀ recs ∈ records, ∀ item ∈ recs, item.docIds ≠ [])
    (hfuel : (records.map List.length).sum < fuel) :
    ∃ result : BuildResult D,
      buildIndex ops docLengths fuel [] (records.map encodeParsedItems) = some result ∧
      result.lexicon.nodes.Pairwise
        (fun a b => List.Lex (fun x y => x < y) (cstr a.word) (cstr b.word)) := by
  have hwf1 : ∀ i, ∀ item ∈ records.getD i [], RecordWF item :=
    forall_getD_of_forall records _ hwf
  have hsorted1 : ∀ i, (records.getD i []).Pairwise (fun a b => cstr a.word < cstr b.word) := by
    intro i
    rcases getD_mem_or_nil records i with h | h
    · exact hsorted _ h
    · rw [h]; exact List.Pairwise.nil
  have hex := buildIndex_inv ops docLengths fuel records hcount hwf hfuel
    (fun _ invertedIndex _ => IndexWF invertedIndex) (fun _ _ _ h => h) IndexWF_create
    (by
      intro written invertedIndex lexicon parsedItems index1 lexicon1 hP _ hadd
      have hspec := addParsedItemsToInvertedIndex_spec ops parsedItems invertedIndex lexicon
        docLengths DOC_COUNT (computeAvgDocLength docLengths DOC_COUNT) hP
      rw [hadd] at hspec
      exact ⟨fun _ => IndexWF_reset _, fun _ => hspec.1⟩)
  have hinit0 : MergeInv records 0 MergeHeap.createHeap [] [] :=
    { files_inv := List.Forall₂.nil
      rem_len := rfl
      rem_sub := by intro i item h; simp at h
      heap_len := by simp [MergeHeap.createHeap]
      k_le := Nat.zero_le _
      count_le := Nat.zero_le _
      heap_nodes := by intro node h; simp [MergeHeap.createHeap] at h
      heap_nodup := by simp [MergeHeap.createHeap] }
  have hord0 : HeapOrd MergeHeap.createHeap [] :=
    { heap_ord := by
        intro j c _ hc
        simp [MergeHeap.createHeap] at hc
      rem_sorted := by intro i; simp
      heap_rem := by intro node h; simp [MergeHeap.createHeap] at h }
  obtain ⟨heap1, files1, rem1, hopen, hinv1, hm1, hord1⟩ := openIntermediateFiles_ord records
    hwf1 hsorted1 records 0 MergeHeap.createHeap [] [] (by intro j; rw [Nat.zero_add])
    (by rw [hcount]; decide) hinit0 hord0
  have hk : 0 + records.length = MERGE_HEAP_SIZE := by rw [hcount]; rfl
  rw [hk] at hinv1
  have hmeasure : mergeMeasure heap1 rem1 < fuel := by
    have : mergeMeasure MergeHeap.createHeap [] = 0 := by
      simp [mergeMeasure, MergeHeap.createHeap]
    omega
  have hslots : SlotsInv records (List.replicate MERGE_HEAP_SIZE none) := by
    refine ⟨by simp, ?_⟩
    intro i item h
    rw [List.getD_eq_getElem?_getD] at h
    by_cases hi : i < MERGE_HEAP_SIZE
    · rw [List.getElem?_replicate, if_pos hi] at h; simp at h
    · rw [List.getElem?_replicate, if_neg hi] at h; simp at h
  have hlex0 : LexOrd heap1 (List.replicate MERGE_HEAP_SIZE none) createLexicon := by
    refine ⟨by simp [createLexicon], ?_, ?_, ?_⟩
    · intro l hl; simp [createLexicon] at hl
    · intro l hl; simp [createLexicon] at hl
    · intro s hs
      exact absurd (List.eq_of_mem_replicate hs) (by simp)
  have hlen : ¬ (records.map encodeParsedItems).length ≠ INTERMEDIATE_FILE_COUNT := by
    rw [List.length_map, hcount]; simp
  cases hres : mergeLoop ops docLengths DOC_COUNT (computeAvgDocLength docLengths DOC_COUNT) fuel
      ({ heap := heap1, files := files1
         parsedItems := List.replicate MERGE_HEAP_SIZE none
         indeterminate := []
         lexicon := createLexicon
         invertedIndex := createInvertedIndex
         fileNumber := 0
         written := [] } : MergeState D) with
  | none =>
    have hbuild : buildIndex ops docLengths fuel [] (records.map encodeParsedItems) = none := by
      simp only [buildIndex, if_neg hlen, hopen, hres]
    rw [hbuild] at hex
    obtain ⟨recs, hrecs, item, hitem, h0⟩ := hex
    exact absurd h0 (hne recs hrecs item hitem)
  | some st1 =>
    have hbuild : buildIndex ops docLengths fuel [] (records.map encodeParsedItems)
        = some { indexes := st1.written ++ [st1.invertedIndex], lexicon := st1.lexicon } := by
      simp only [buildIndex, if_neg hlen, hopen, hres]
    refine ⟨_, hbuild, ?_⟩
    exact mergeLoop_ord ops docLengths DOC_COUNT (computeAvgDocLength docLengths DOC_COUNT)
      records hwf1 fuel _ rem1 hinv1 hslots hord1 hlex0 IndexWF_create rfl hmeasure st1 hres

/-! ### A concrete merge of four words -/

set_option maxRecDepth 1000000 in
/-- The lexicon and the chunks `buildIndex` writes for `fourRecords`: one entry
and one chunk for each of the first three words, in the order of the words. -/

theorem buildIndex_fourRecords :
    (buildIndex intOps (fun _ => 10) 5 [] (fourRecords.map encodeParsedItems)).map
      (fun r => (r.lexicon.nodes, writtenChunks r.indexes))
      = some ([{ word := [97], startChunk := 1, endChunk := 1 },
               { word := [98], startChunk := 2, endChunk := 2 },
               { word := [99], startChunk := 3, endChunk := 3 }], [[1], [2], [3]]) := by
  decide

/-! ### The list pointer of a word -/

set_option maxRecDepth 1000000 in
/-- C13 fails on the code: for two index files of one block with one chunk each,
`getListPointerForWord` called with 1 for the global chunk 2, which is chunk 0
of block 0 of the second file, returns the first file at its block 0 and
leaves 1 in `remainingChunkToStart`; that block holds one chunk (its entry
`chunkSizes[1]` is 0), and the second file starts with a block whose chunk 0
has 8 bytes. -/

theorem getListPointerForWord_partial_last_block :
    (getListPointerForWord twoIndexFiles 1).map
        (fun r => (r.fileNumber, r.filePointer.pos, r.closed, r.remainingChunkToStart))
      = some (0, 0, false, 1) ∧
    ((intsOfBytes (twoIndexFiles.getD 0 [])).take 2, (intsOfBytes (twoIndexFiles.getD 1 [])).take 2)
      = ([8, 0], [8, 0]) := by
  decide

set_option maxRecDepth 1000000 in
/-- The first chunk of the files is found: called with 0, the function returns
the first file at its block 0 and leaves 0. -/

theorem getListPointerForWord_first :
    (getListPointerForWord twoIndexFiles 0).map
        (fun r => (r.fileNumber, r.filePointer.pos, r.closed, r.remainingChunkToStart))
      = some (0, 0, false, 0) := by
  decide

/-! ### A query with a word that is not in the lexicon -/

theorem lookupInvertedLists_spec {D : Type} [Zero D] (lexiconTable : LexiconTable)
    (files : List (List Nat)) (words : List (List Nat))
    (hopen : ∀ word ∈ words, (findWordInLexiconTable lexiconTable word).all
      (fun lexiconEntry =>
        (openInvertedList files word lexiconEntry : Option (InvertedList D)).isSome) = true) :
    ∃ invertedLists : List (Option (InvertedList D)),
      lookupInvertedLists lexiconTable files words = some invertedLists ∧
      ((∃ word ∈ words, findWordInLexiconTable lexiconTable word = none) →
        invertedLists.any (fun l => l.isNone) = true) := by
  induction words with
  | nil => exact ⟨[], rfl, by rintro ⟨w, hw, -⟩; simp at hw⟩
  | cons word words ih =>
    obtain ⟨rest, hrest, habs⟩ := ih (fun w hw => hopen w (List.mem_cons_of_mem _ hw))
    have h0 := hopen word (List.mem_cons_self _ _)
    cases hf : findWordInLexiconTable lexiconTable word with
    | none =>
      refine ⟨none :: rest, ?_, fun _ => by simp⟩
      simp only [lookupInvertedLists, hf, hrest]
    | some lexiconEntry =>
      rw [hf] at h0
      simp only [Option.all_some] at h0
      obtain ⟨l, hl⟩ := Option.isSome_iff_exists.1 h0
      refine ⟨some l :: rest, ?_, ?_⟩
      · simp only [lookupInvertedLists, hf, hl, Option.map_some', hrest]
      · rintro ⟨w, hw, hnone⟩
        rcases List.mem_cons.1 hw with e | e
        · rw [e, hf] at hnone; exact absurd hnone (by simp)
        · simp only [List.any_cons, Option.isNone_some, Bool.false_or]
          exact habs ⟨w, e, hnone⟩

/-- C14: if at least one word of the query is not in the lexicon table, and
`createInvertedList` returns for every word that is, then
`conjunctiveDocumentAtATime` returns the heap `createHeap` made, which has
`nodeCount = 0`, whatever the index files hold for the other words. -/
theorem conjunctiveDocumentAtATime_absent_word {D : Type} [Zero D] [Add D] [LT D]
    [DecidableRel (fun a b : D => a < b)] (ops : DoubleOps D) (fuel : Nat)
    (lexiconTable : LexiconTable) (files : List (List Nat)) (words : List (List Nat))
    (habsent : ∃ word ∈ words, findWordInLexiconTable lexiconTable word = none)
    (hopen : ∀ word ∈ words, (findWordInLexiconTable lexiconTable word).all
      (fun lexiconEntry =>
        (openInvertedList files word lexiconEntry : Option (InvertedList D)).isSome) = true) :
    ∃ heap : QueryHeap D,
      conjunctiveDocumentAtATimeOfWords ops fuel lexiconTable files words = some heap ∧
      heap = QueryHeap.createHeap ∧ heap.nodeCount = 0 := by
  obtain ⟨invertedLists, hlook, hany⟩ := lookupInvertedLists_spec lexiconTable files words hopen
  refine ⟨QueryHeap.createHeap, ?_, rfl, rfl⟩
  simp only [conjunctiveDocumentAtATimeOfWords, hlook, conjunctiveDocumentAtATime,
    hany habsent, if_true]

set_option maxRecDepth 1000000 in
theorem conjunctiveDocumentAtATime_absent_word_witness :
    (∃ word ∈ [[97], [120], [98]], findWordInLexiconTable twoTermTable word = none) ∧
    (∀ word ∈ [[97], [120], [98]], (findWordInLexiconTable twoTermTable word).all
      (fun lexiconEntry =>
        (openInvertedList [twoTermFile, [], []] word lexiconEntry :
          Option (InvertedList Int)).isSome) = true) ∧
    ∃ heap : QueryHeap Int,
      conjunctiveDocumentAtATimeOfWords intOps 10 twoTermTable [twoTermFile, [], []]
        [[97], [120], [98]] = some heap ∧
      heap = QueryHeap.createHeap ∧ heap.nodeCount = 0 :=
  ⟨⟨[120], by decide, by decide⟩, by decide,
    conjunctiveDocumentAtATime_absent_word intOps 10 twoTermTable [twoTermFile, [], []]
      [[97], [120], [98]] ⟨[120], by decide, by decide⟩ (by decide)⟩

/-! ### The merge of a single file -/

theorem refill_mapped_some (heap : MergeHeap) (files : List IntermediateFile)
    (file : IntermediateFile) (item : ParsedItem) (rem1 : List ParsedItem)
    (hfile : files[0]? = some file) (hinv : FileInv file (item :: rem1))
    (hoff : file.content.length ≤ file.offset) (hwf : RecordWF item) :
    refill heap files 0
      = some (MergeHeap.insertHeapNode heap { fileNumber := 0, parsedItem := item },
          files.set 0 { file with remainingBuffer := some (encodeParsedItems rem1) }, false) ∧
    FileInv { file with remainingBuffer := some (encodeParsedItems rem1) } rem1 := by
  have hdrop : file.content.drop file.offset = [] := List.drop_eq_nil_of_le hoff
  have hbuf : file.remainingBuffer.getD [] = encodeParsedItem item ++ encodeParsedItems rem1 := by
    have := hinv
    simp only [FileInv, hdrop, List.append_nil] at this
    rw [this]
    simp [encodeParsedItems]
  have hconv := convertBinaryToParsedItem_full item hwf (encodeParsedItems rem1)
  rw [← hbuf] at hconv
  refine ⟨?_, ?_⟩
  · simp only [refill, hfile, hconv]
  · simp only [FileInv, Option.getD_some, hdrop, List.append_nil]

theorem refill_mapped_none (heap : MergeHeap) (files : List IntermediateFile)
    (file : IntermediateFile) (hfile : files[0]? = some file) (hinv : FileInv file [])
    (hoff : file.content.length ≤ file.offset) :
    refill heap files 0 = some (heap, files.set 0 file, true) := by
  have hdrop : file.content.drop file.offset = [] := List.drop_eq_nil_of_le hoff
  have hbuf : file.remainingBuffer.getD [] = [] := by
    have := hinv
    simp only [FileInv, hdrop, List.append_nil] at this
    rw [this]
    rfl
  have hconv : convertBinaryToParsedItem (file.remainingBuffer.getD []) = some (none, []) := by
    rw [hbuf]; rfl
  have hmap : mapIntermediateContentFromDisk file = (false, file) := by
    simp only [mapIntermediateContentFromDisk]
    rw [if_pos hoff]
  simp only [refill, hfile, hconv, hmap, if_true]

theorem extractMin_single (heap : MergeHeap) (hcount : heap.nodeCount = 1)
    (hlen : heap.heapNodes.length = MERGE_HEAP_SIZE) :
    (MergeHeap.extractMin heap).1 = heap.heapNodes.getD 0 default ∧
    (MergeHeap.extractMin heap).2.nodeCount = 0 ∧
    (MergeHeap.extractMin heap).2.heapNodes.length = MERGE_HEAP_SIZE := by
  obtain ⟨e1, e2, e3, -⟩ := ArrayHeap.extractMin_perm MergeHeap.less heap
    (by rw [hcount]; exact Nat.one_pos) (by rw [hcount, hlen]; decide)
  refine ⟨e1, ?_, ?_⟩
  · have : (MergeHeap.extractMin heap).2.nodeCount = heap.nodeCount - 1 := e2
    rw [this, hcount]
  · have : (MergeHeap.extractMin heap).2.heapNodes.length = heap.heapNodes.length := e3
    rw [this, hlen]

theorem insertHeapNode_single (heap : MergeHeap) (node : MergeHeapNode)
    (hcount : heap.nodeCount = 0) (hlen : heap.heapNodes.length = MERGE_HEAP_SIZE) :
    (MergeHeap.insertHeapNode heap node).nodeCount = 1 ∧
    (MergeHeap.insertHeapNode heap node).heapNodes.length = MERGE_HEAP_SIZE ∧
    (MergeHeap.insertHeapNode heap node).heapNodes.getD 0 default = node := by
  obtain ⟨e1, e2, e3⟩ := ArrayHeap.insertHeapNode_perm MergeHeap.less heap node
    (by rw [hcount, hlen]; decide)
  have h1 : (MergeHeap.insertHeapNode heap node).nodeCount = heap.nodeCount + 1 := e1
  have h2 : (MergeHeap.insertHeapNode heap node).heapNodes.length = heap.heapNodes.length := e2
  have h3 : ((MergeHeap.insertHeapNode heap node).heapNodes.take (heap.nodeCount + 1)).Perm
      (node :: heap.heapNodes.take heap.nodeCount) := e3
  rw [hcount] at h1 h3
  rw [hlen] at h2
  refine ⟨h1, h2, ?_⟩
  simp only [Nat.zero_add, List.take_zero] at h3
  have h4 := List.perm_singleton.1 h3
  have hpos : 0 < (MergeHeap.insertHeapNode heap node).heapNodes.length := by
    rw [h2]; decide
  rw [List.getD_eq_getElem?_getD, List.getElem?_eq_getElem hpos, Option.getD_some]
  have h5 : ((MergeHeap.insertHeapNode heap node).heapNodes.take 1)[0]? = some node := by
    rw [h4]; rfl
  rw [List.getElem?_take_of_lt Nat.one_pos, List.getElem?_eq_getElem hpos] at h5
  exact Option.some.inj h5

/-- The merge loop of `buildIndex` on one file of records whose words differ
from one record to the next, mapped to its end: every record but the last is
passed to `addParsedItemsToInvertedIndex` alone, in the order of the file, and
a property `P i` of the indexes written, the index under construction and the
lexicon that these calls carry from `i` to `i + 1` holds at the end for the
number of the last record.  No entry of `parsedItems` holds an indeterminate
value other than `NULL`. -/
theorem mergeLoop_single {D : Type} [Zero D] (ops : DoubleOps D) (docLengths : Int → Int)
    (totalDocCount avgDocLength : Int) (recs : List ParsedItem)
    (hwf : ∀ item ∈ recs, RecordWF item)
    (hdist : ∀ i, i + 1 < recs.length →
      cstr (recs.getD i default).word ≠ cstr (recs.getD (i + 1) default).word)
    (P : Nat → List (InvertedIndex D) → InvertedIndex D → Lexicon → Prop)
    (hstep : ∀ i written invertedIndex lexicon, i + 1 < recs.length →
      P i written invertedIndex lexicon →
      ∃ index1 lexicon1,
        addParsedItemsToInvertedIndex ops (some (recs.getD i default) :: List.replicate 7 none)
          invertedIndex lexicon docLengths totalDocCount avgDocLength = some (index1, lexicon1) ∧
        (index1.blockCount ≥ MAX_BLOCK_COUNT →
          P (i + 1) (written ++ [index1])
            { createInvertedIndex with chunkNumber := index1.chunkNumber } lexicon1) ∧
        (¬ index1.blockCount ≥ MAX_BLOCK_COUNT → P (i + 1) written index1 lexicon1)) :
    ∀ (fuel i : Nat) (st : MergeState D), i < recs.length → recs.length - i < fuel →
      SingleInv recs i st.heap st.files →
      st.parsedItems = List.replicate MERGE_HEAP_SIZE none → st.indeterminate = [] →
      P i st.written st.invertedIndex st.lexicon →
      ∃ st1, mergeLoop ops docLengths totalDocCount avgDocLength fuel st = some st1 ∧
        P (recs.length - 1) st1.written st1.invertedIndex st1.lexicon := by
  intro fuel
  induction fuel with
  | zero => intro _ _ _ h; omega
  | succ fuel ih =>
    intro i st hi hfuel hinv hslots hnull hP
    have hpos : st.heap.nodeCount > 0 := by rw [hinv.count]; exact Nat.one_pos
    obtain ⟨e1, e2, e3⟩ := extractMin_single st.heap hinv.count hinv.len
    have hr1 : (MergeHeap.extractMin st.heap).1
        = { fileNumber := 0, parsedItem := recs.getD i default } := by rw [e1, hinv.top]
    have hfn : (MergeHeap.extractMin st.heap).1.fileNumber = 0 := by rw [hr1]
    have hpi : (MergeHeap.extractMin st.heap).1.parsedItem = recs.getD i default := by rw [hr1]
    obtain ⟨file, hfile, hfinv, hoff⟩ := hinv.file
    have hset : (List.replicate MERGE_HEAP_SIZE (none : Option ParsedItem)).set 0
        (some (recs.getD i default)) = some (recs.getD i default) :: List.replicate 7 none := rfl
    by_cases hnext : i + 1 < recs.length
    · -- the next record of the file comes into the heap
      have hdropeq : recs.drop (i + 1) = recs.getD (i + 1) default :: recs.drop (i + 2) := by
        rw [List.getD_eq_getElem?_getD, List.getElem?_eq_getElem hnext, Option.getD_some]
        exact List.drop_eq_getElem_cons hnext
      rw [hdropeq] at hfinv
      have hmem : recs.getD (i + 1) default ∈ recs := by
        rw [List.getD_eq_getElem?_getD, List.getElem?_eq_getElem hnext, Option.getD_some]
        exact List.getElem_mem _
      obtain ⟨hrefill0, hfinv1⟩ := refill_mapped_some (MergeHeap.extractMin st.heap).2 st.files
        file _ _ hfile hfinv hoff (hwf _ hmem)
      obtain ⟨i1, i2, i3⟩ := insertHeapNode_single (MergeHeap.extractMin st.heap).2
        { fileNumber := 0, parsedItem := recs.getD (i + 1) default } e2 e3
      obtain ⟨fuel1, hf1⟩ : ∃ fuel1, fuel = fuel1 + 1 := ⟨fuel - 1, by omega⟩
      have hcond : ¬ ((MergeHeap.insertHeapNode (MergeHeap.extractMin st.heap).2
            { fileNumber := 0, parsedItem := recs.getD (i + 1) default }).nodeCount > 0 ∧
          strcmp (recs.getD i default).word
            ((MergeHeap.insertHeapNode (MergeHeap.extractMin st.heap).2
              { fileNumber := 0, parsedItem := recs.getD (i + 1) default }).heapNodes.getD 0
                default).parsedItem.word = 0) := by
        rintro ⟨-, h0⟩
        rw [i3] at h0
        exact hdist i hnext ((strcmp_eq_zero_iff _ _).1 h0)
      have hcollect : collectLoop fuel
          (MergeHeap.insertHeapNode (MergeHeap.extractMin st.heap).2
            { fileNumber := 0, parsedItem := recs.getD (i + 1) default })
          (st.files.set 0
            { file with remainingBuffer := some (encodeParsedItems (recs.drop (i + 2))) })
          (some (recs.getD i default) :: List.replicate 7 none) 0
          = some (MergeHeap.insertHeapNode (MergeHeap.extractMin st.heap).2
              { fileNumber := 0, parsedItem := recs.getD (i + 1) default },
            st.files.set 0
              { file with remainingBuffer := some (encodeParsedItems (recs.drop (i + 2))) },
            some (recs.getD i default) :: List.replicate 7 none) := by
        rw [hf1]
        have hget : (some (recs.getD i default) :: List.replicate 7 none).getD 0 none
            = some (recs.getD i default) := rfl
        simp only [collectLoop, hget, if_neg hcond]
      obtain ⟨index1, lexicon1, hadd, hbig1, hbig2⟩ :=
        hstep i st.written st.invertedIndex st.lexicon hnext hP
      have hflen : 0 < st.files.length := by
        by_contra hcon
        rw [List.getElem?_eq_none (by omega)] at hfile
        exact absurd hfile (by simp)
      have hinv1 : SingleInv recs (i + 1)
          (MergeHeap.insertHeapNode (MergeHeap.extractMin st.heap).2
            { fileNumber := 0, parsedItem := recs.getD (i + 1) default })
          (st.files.set 0
            { file with remainingBuffer := some (encodeParsedItems (recs.drop (i + 2))) }) :=
        { count := i1
          len := i2
          top := i3
          file := ⟨_, List.getElem?_set_self hflen, hfinv1, hoff⟩ }
      by_cases hbig : index1.blockCount ≥ MAX_BLOCK_COUNT
      · obtain ⟨st1, hrun, hres⟩ := ih (i + 1)
          { heap := MergeHeap.insertHeapNode (MergeHeap.extractMin st.heap).2
              { fileNumber := 0, parsedItem := recs.getD (i + 1) default }
            files := st.files.set 0
              { file with remainingBuffer := some (encodeParsedItems (recs.drop (i + 2))) }
            parsedItems := (some (recs.getD i default) :: List.replicate 7 none).map
              (fun _ => none)
            indeterminate := []
            lexicon := lexicon1
            invertedIndex := { createInvertedIndex with chunkNumber := index1.chunkNumber }
            fileNumber := st.fileNumber + 1
            written := st.written ++ [index1] }
          hnext (by omega) hinv1 rfl rfl (hbig1 hbig)
        refine ⟨st1, ?_, hres⟩
        simp only [mergeLoop, if_pos hpos, hfn, hpi, hslots, hset, hrefill0, hcollect, hnull,
          readsIndeterminate_nil, Bool.false_eq_true, if_false, hadd, if_pos hbig]
        exact hrun
      · obtain ⟨st1, hrun, hres⟩ := ih (i + 1)
          { heap := MergeHeap.insertHeapNode (MergeHeap.extractMin st.heap).2
              { fileNumber := 0, parsedItem := recs.getD (i + 1) default }
            files := st.files.set 0
              { file with remainingBuffer := some (encodeParsedItems (recs.drop (i + 2))) }
            parsedItems := (some (recs.getD i default) :: List.replicate 7 none).map
              (fun _ => none)
            indeterminate := []
            lexicon := lexicon1
            invertedIndex := index1
            fileNumber := st.fileNumber
            written := st.written }
          hnext (by omega) hinv1 rfl rfl (hbig2 hbig)
        refine ⟨st1, ?_, hres⟩
        simp only [mergeLoop, if_pos hpos, hfn, hpi, hslots, hset, hrefill0, hcollect, hnull,
          readsIndeterminate_nil, Bool.false_eq_true, if_false, hadd, if_neg hbig]
        exact hrun
    · -- the file has no record left: the record extracted is not added
      have hlast : i + 1 = recs.length := by omega
      have hdropnil : recs.drop (i + 1) = [] := List.drop_eq_nil_of_le (by omega)
      rw [hdropnil] at hfinv
      have hrefill0 := refill_mapped_none (MergeHeap.extractMin st.heap).2 st.files file hfile
        hfinv hoff
      have hrefill : refill (MergeHeap.extractMin st.heap).2 st.files
          (MergeHeap.extractMin st.heap).1.fileNumber
          = some ((MergeHeap.extractMin st.heap).2, st.files.set 0 file, true) := by
        rw [hfn]; exact hrefill0
      obtain ⟨fuel1, hf1⟩ : ∃ fuel1, fuel = fuel1 + 1 := ⟨fuel - 1, by omega⟩
      have hzero : ¬ (MergeHeap.extractMin st.heap).2.nodeCount > 0 := by rw [e2]; omega
      refine ⟨{ st with heap := (MergeHeap.extractMin st.heap).2, files := st.files.set 0 file
                        parsedItems := st.parsedItems.set
                          (MergeHeap.extractMin st.heap).1.fileNumber
                          (some (MergeHeap.extractMin st.heap).1.parsedItem) }, ?_, ?_⟩
      · simp only [mergeLoop, if_pos hpos, hrefill]
        rw [hf1]
        simp only [mergeLoop, if_neg hzero]
      · have : recs.length - 1 = i := by omega
        rw [this]
        exact hP

theorem openIntermediateFiles_empty (k : Nat) :
    ∀ (fileIndex : Nat) (heap : MergeHeap) (files : List IntermediateFile),
      openIntermediateFiles (List.replicate k []) fileIndex heap files
        = some (heap, files ++ List.replicate k
            { content := [], offset := 0, remainingBuffer := none }) := by
  induction k with
  | zero => intro _ heap files; simp [openIntermediateFiles]
  | succ k ih =>
    intro fileIndex heap files
    have hmap : mapIntermediateContentFromDisk
        { content := [], offset := 0, remainingBuffer := none }
        = (false, { content := [], offset := 0, remainingBuffer := none }) := rfl
    have hconv : convertBinaryToParsedItem ((none : Option (List Nat)).getD []) = some (none, []) :=
      rfl
    rw [List.replicate_succ]
    simp only [openIntermediateFiles, hmap, hconv, ih]
    simp [List.replicate_succ]

/-- The function `buildIndex` on one file of records that fits into the first
mapping, with the other files empty: a property `P i` that the calls of
`addParsedItemsToInvertedIndex` on the records of the file carry from `i` to
`i + 1` holds of what is written for the number of the last record. -/
theorem buildIndex_single {D : Type} [Zero D] (ops : DoubleOps D) (docLengths : Int → Int)
    (fuel : Nat) (recs : List ParsedItem) (hne : recs ≠ [])
    (hsize : (encodeParsedItems recs).length ≤ READ_SIZE)
    (hwf : ∀ item ∈ recs, RecordWF item)
    (hdist : ∀ i, i + 1 < recs.length →
      cstr (recs.getD i default).word ≠ cstr (recs.getD (i + 1) default).word)
    (hfuel : recs.length < fuel)
    (P : Nat → List (InvertedIndex D) → InvertedIndex D → Lexicon → Prop)
    (hinit : P 0 [] createInvertedIndex createLexicon)
    (hstep : ∀ i written invertedIndex lexicon, i + 1 < recs.length →
      P i written invertedIndex lexicon →
      ∃ index1 lexicon1,
        addParsedItemsToInvertedIndex ops (some (recs.getD i default) :: List.replicate 7 none)
          invertedIndex lexicon docLengths DOC_COUNT (computeAvgDocLength docLengths DOC_COUNT)
          = some (index1, lexicon1) ∧
        (index1.blockCount ≥ MAX_BLOCK_COUNT →
          P (i + 1) (written ++ [index1])
            { createInvertedIndex with chunkNumber := index1.chunkNumber } lexicon1) ∧
        (¬ index1.blockCount ≥ MAX_BLOCK_COUNT → P (i + 1) written index1 lexicon1)) :
    ∃ (result : BuildResult D) (written : List (InvertedIndex D))
        (invertedIndex : InvertedIndex D),
      buildIndex ops docLengths fuel [] ((recs :: List.replicate 7 []).map encodeParsedItems)
        = some result ∧
      result.indexes = written ++ [invertedIndex] ∧
      P (recs.length - 1) written invertedIndex result.lexicon := by
  obtain ⟨r0, rest, hrecs⟩ : ∃ r0 rest, recs = r0 :: rest := by
    cases recs with
    | nil => exact absurd rfl hne
    | cons a b => exact ⟨a, b, rfl⟩
  have hw0 : RecordWF r0 := hwf r0 (by rw [hrecs]; exact List.mem_cons_self _ _)
  have henc : encodeParsedItems recs = encodeParsedItem r0 ++ encodeParsedItems rest := by
    rw [hrecs]; simp [encodeParsedItems]
  have hpos : 0 < (encodeParsedItems recs).length := by
    rw [henc, List.length_append, encodeParsedItem_length r0 hw0]; omega
  have hmap : mapIntermediateContentFromDisk
      { content := encodeParsedItems recs, offset := 0, remainingBuffer := none }
      = (true, { content := encodeParsedItems recs, offset := (encodeParsedItems recs).length
                 remainingBuffer := some (encodeParsedItems recs) }) := by
    have h1 : ¬ (0 ≥ (encodeParsedItems recs).length) := by omega
    have h2 : (if (encodeParsedItems recs).length - 0 < READ_SIZE
        then (encodeParsedItems recs).length - 0 else READ_SIZE)
        = (encodeParsedItems recs).length := by
      split <;> omega
    simp only [mapIntermediateContentFromDisk, if_neg h1, h2, List.drop_zero, List.take_length,
      Nat.zero_add]
  have hconv : convertBinaryToParsedItem (encodeParsedItems recs)
      = some (some r0, encodeParsedItems rest) := by
    rw [henc]; exact convertBinaryToParsedItem_full r0 hw0 _
  have hfiles : (recs :: List.replicate 7 []).map encodeParsedItems
      = encodeParsedItems recs :: List.replicate 7 [] := by
    simp [encodeParsedItems]
  have hopen : openIntermediateFiles (encodeParsedItems recs :: List.replicate 7 []) 0
      MergeHeap.createHeap []
      = some (MergeHeap.insertHeapNode MergeHeap.createHeap { fileNumber := 0, parsedItem := r0 },
          [{ content := encodeParsedItems recs, offset := (encodeParsedItems recs).length
             remainingBuffer := some (encodeParsedItems rest) }]
            ++ List.replicate 7 { content := [], offset := 0, remainingBuffer := none }) := by
    rw [openIntermediateFiles]
    simp only [hmap, Option.getD_some, hconv]
    rw [openIntermediateFiles_empty, List.nil_append]
  obtain ⟨i1, i2, i3⟩ := insertHeapNode_single MergeHeap.createHeap
    { fileNumber := 0, parsedItem := r0 } rfl (by simp [MergeHeap.createHeap])
  have hinv : SingleInv recs 0
      (MergeHeap.insertHeapNode MergeHeap.createHeap { fileNumber := 0, parsedItem := r0 })
      ([{ content := encodeParsedItems recs, offset := (encodeParsedItems recs).length
          remainingBuffer := some (encodeParsedItems rest) }]
        ++ List.replicate 7 { content := [], offset := 0, remainingBuffer := none }) :=
    { count := i1
      len := i2
      top := by rw [i3, hrecs]; rfl
      file := ⟨{ content := encodeParsedItems recs, offset := (encodeParsedItems recs).length
                 remainingBuffer := some (encodeParsedItems rest) }, rfl, by
        have hd : recs.drop (0 + 1) = rest := by rw [hrecs]; rfl
        simp only [FileInv, Option.getD_some, List.drop_length, List.append_nil, hd],
        le_refl _⟩ }
  obtain ⟨st1, hrun, hres⟩ := mergeLoop_single ops docLengths DOC_COUNT
    (computeAvgDocLength docLengths DOC_COUNT) recs hwf hdist P hstep fuel 0
    { heap := MergeHeap.insertHeapNode MergeHeap.createHeap { fileNumber := 0, parsedItem := r0 }
      files := [{ content := encodeParsedItems recs, offset := (encodeParsedItems recs).length
                  remainingBuffer := some (encodeParsedItems rest) }]
        ++ List.replicate 7 { content := [], offset := 0, remainingBuffer := none }
      parsedItems := List.replicate MERGE_HEAP_SIZE none
      indeterminate := []
      lexicon := createLexicon
      invertedIndex := createInvertedIndex
      fileNumber := 0
      written := [] }
    (by rw [hrecs]; simp) (by omega) hinv rfl rfl hinit
  have hlen : ¬ (encodeParsedItems recs :: List.replicate 7 ([] : List Nat)).length
      ≠ INTERMEDIATE_FILE_COUNT := by
    simp [INTERMEDIATE_FILE_COUNT]
  refine ⟨{ indexes := st1.written ++ [st1.invertedIndex], lexicon := st1.lexicon },
    st1.written, st1.invertedIndex, ?_, rfl, hres⟩
  rw [hfiles]
  simp only [buildIndex, if_neg hlen, hopen, hrun]

/-! ### Blocks per index file -/

theorem ceil_add_le (a t : Nat) : (a + t + 63) / 64 ≤ (a + 63) / 64 + (t + 63) / 64 := by
  omega

/-- What one call of `addParsedItemsToInvertedIndex` with a term of `n ≥ 1`
postings does to the numbers of chunks and of blocks of an index the encoder
has built. -/
theorem addParsedItems_counts {D : Type} [Zero D] (ops : DoubleOps D)
    (parsedItems : List (Option ParsedItem)) (invertedIndex : InvertedIndex D)
    (lexicon : Lexicon) (docLengths : Int → Int) (totalDocCount avgDocLength : Int)
    (hwf : IndexWF invertedIndex) (hex : IndexExtra invertedIndex)
    (hne : itemsDocIds parsedItems ≠ []) :
    ∃ (index1 : InvertedIndex D) (lexicon1 : Lexicon),
      addParsedItemsToInvertedIndex ops parsedItems invertedIndex lexicon docLengths
        totalDocCount avgDocLength = some (index1, lexicon1) ∧
      IndexWF index1 ∧ IndexExtra index1 ∧ LastBlockUsed index1 ∧
      (allChunks index1.blocks).length = (allChunks invertedIndex.blocks).length
        + ((itemsDocIds parsedItems).length + 127) / 128 ∧
      index1.blocks.length = ((allChunks index1.blocks).length + 63) / 64 ∧
      index1.blockCount = (index1.blocks.length : Int) := by
  have h := addParsedItemsToInvertedIndex_full ops parsedItems invertedIndex lexicon docLengths
    totalDocCount avgDocLength hwf hex
  cases hadd : addParsedItemsToInvertedIndex ops parsedItems invertedIndex lexicon docLengths
      totalDocCount avgDocLength with
  | none =>
    rw [hadd] at h
    exact absurd h (lastWord_ne_none parsedItems hne)
  | some r =>
    obtain ⟨index1, lexicon1⟩ := r
    rw [hadd] at h
    obtain ⟨hwf1, hex1, T, word, habs, hT, hflat, hdrop, hlast, hlast2, -, -, -, last, hl1, hl2⟩ := h
    have hpos : 1 ≤ (T.getLastD []).length := List.length_pos.2 (hlast2 hne)
    have hlen := flatten_length_of_dropLast T MAX_POSTING_COUNT hT hdrop
    rw [hflat] at hlen
    have hTpos : 1 ≤ T.length := List.length_pos.2 hT
    have hTlen : T.length = ((itemsDocIds parsedItems).length + 127) / 128 := by
      rw [hlen]
      simp only [MAX_POSTING_COUNT] at hlast ⊢
      omega
    have hchunks : (allChunks index1.blocks).length
        = (allChunks invertedIndex.blocks).length + T.length := by
      have := congrArg List.length habs
      simpa [InvertedIndex.absLists] using this
    have hblocks := allChunks_length index1.blocks hwf1 hex1.full last hl1
    have hle := (hwf1 last (List.mem_of_mem_getLast? hl1)).count_le
    have hbpos : 1 ≤ index1.blocks.length := by
      cases hb : index1.blocks with
      | nil => rw [hb] at hl1; simp at hl1
      | cons a rest => simp
    refine ⟨index1, lexicon1, rfl, hwf1, hex1, Or.inr ⟨last, hl1, hl2⟩, ?_, ?_, hex1.count_eq⟩
    · rw [hchunks, hTlen]
    · rw [hblocks]
      simp only [MAX_CHUNK_COUNT] at hle ⊢
      omega

/-- The number of blocks of an index the encoder has built whose last block
holds a chunk is the number of its chunks divided by `MAX_CHUNK_COUNT`, rounded
up. -/
theorem blocks_length_eq {D : Type} [Zero D] (invertedIndex : InvertedIndex D)
    (hwf : IndexWF invertedIndex) (hex : IndexExtra invertedIndex)
    (hlast : LastBlockUsed invertedIndex) :
    invertedIndex.blocks.length = ((allChunks invertedIndex.blocks).length + 63) / 64 := by
  rcases hlast with h0 | ⟨last, hl1, hl2⟩
  · rw [h0]; simp [allChunks]
  · have hblocks := allChunks_length invertedIndex.blocks hwf hex.full last hl1
    have hle := (hwf last (List.mem_of_mem_getLast? hl1)).count_le
    have hbpos : 1 ≤ invertedIndex.blocks.length := by
      cases hb : invertedIndex.blocks with
      | nil => rw [hb] at hl1; simp at hl1
      | cons a rest => simp
    rw [hblocks]
    simp only [MAX_CHUNK_COUNT] at hle ⊢
    omega

/-- The bound on the blocks of a file that the code keeps, when every entry of
`parsedItems` holds `NULL` at the declaration: every index file that
`buildIndex` writes for files of well-formed records holds fewer than `MAX_BLOCK_COUNT` blocks, or it is the
result of one call of `addParsedItemsToInvertedIndex` on an index of fewer than
`MAX_BLOCK_COUNT` blocks, in which case it holds at most the blocks of that
index and the blocks that the chunks of the term added last fill, rounded up.
`buildIndex` returns when every record has a posting. -/
theorem buildIndex_blocks_before_last_term {D : Type} [Zero D] (ops : DoubleOps D)
    (docLengths : Int → Int) (fuel : Nat) (records : List (List ParsedItem))
    (hcount : records.length = INTERMEDIATE_FILE_COUNT)
    (hwf : ∀ recs ∈ records, ∀ item ∈ recs, RecordWF item)
    (hne : ∀ recs ∈ records, ∀ item ∈ recs, item.docIds ≠ [])
    (hfuel : (records.map List.length).sum < fuel) :
    ∃ result : BuildResult D,
      buildIndex ops docLengths fuel [] (records.map encodeParsedItems) = some result ∧
      ∀ ix ∈ result.indexes, ix.blocks.length < MAX_BLOCK_COUNT ∨
        ∃ (pre : InvertedIndex D) (parsedItems : List (Option ParsedItem))
            (lexicon0 lexicon1 : Lexicon),
          pre.blocks.length < MAX_BLOCK_COUNT ∧
          addParsedItemsToInvertedIndex ops parsedItems pre lexicon0 docLengths DOC_COUNT
            (computeAvgDocLength docLengths DOC_COUNT) = some (ix, lexicon1) ∧
          ix.blocks.length ≤ pre.blocks.length
            + (((itemsDocIds parsedItems).length + 127) / 128 + 63) / 64 := by
  have h := buildIndex_inv ops docLengths fuel records hcount hwf hfuel
    (fun written invertedIndex _ => IndexWF invertedIndex ∧ IndexExtra invertedIndex ∧
      LastBlockUsed invertedIndex ∧ invertedIndex.blocks.length < MAX_BLOCK_COUNT ∧
      ∀ ix ∈ written, ∃ (pre : InvertedIndex D) (parsedItems : List (Option ParsedItem))
          (lexicon0 lexicon1 : Lexicon),
        pre.blocks.length < MAX_BLOCK_COUNT ∧
        addParsedItemsToInvertedIndex ops parsedItems pre lexicon0 docLengths DOC_COUNT
          (computeAvgDocLength docLengths DOC_COUNT) = some (ix, lexicon1) ∧
        ix.blocks.length ≤ pre.blocks.length
          + (((itemsDocIds parsedItems).length + 127) / 128 + 63) / 64)
    (fun _ _ _ hP => hP.1)
    ⟨IndexWF_create, IndexExtra_create, Or.inl rfl, by simp [createInvertedIndex, MAX_BLOCK_COUNT],
      by intro ix hix; simp at hix⟩
    (by
      intro written invertedIndex lexicon parsedItems index1 lexicon1 hP hslots hadd
      obtain ⟨hwf0, hex0, hlast0, hlt0, hall⟩ := hP
      have hspec := addParsedItemsToInvertedIndex_spec ops parsedItems invertedIndex lexicon
        docLengths DOC_COUNT (computeAvgDocLength docLengths DOC_COUNT) hwf0
      rw [hadd] at hspec
      obtain ⟨-, T, word, -, -, -, -, -, hword, -⟩ := hspec
      have hne1 : itemsDocIds parsedItems ≠ [] := by
        intro h0
        rw [lastWord_of_itemsDocIds_nil parsedItems none h0] at hword
        exact absurd hword (by simp)
      obtain ⟨ix1, lx1, hadd1, hwf1, hex1, hlast1, hchunks, hblocks, hcnt⟩ :=
        addParsedItems_counts ops parsedItems invertedIndex lexicon docLengths DOC_COUNT
          (computeAvgDocLength docLengths DOC_COUNT) hwf0 hex0 hne1
      rw [hadd] at hadd1
      simp only [Option.some.injEq, Prod.mk.injEq] at hadd1
      obtain ⟨e1, e2⟩ := hadd1
      subst e1
      have hb0 := blocks_length_eq invertedIndex hwf0 hex0 hlast0
      have hbound : index1.blocks.length ≤ invertedIndex.blocks.length
          + (((itemsDocIds parsedItems).length + 127) / 128 + 63) / 64 := by
        rw [hblocks, hchunks, hb0]
        exact ceil_add_le _ _
      refine ⟨fun _ => ⟨IndexWF_reset _, IndexExtra_reset _, Or.inl rfl,
        by simp [createInvertedIndex, MAX_BLOCK_COUNT], ?_⟩, fun hsmall => ⟨hwf1, hex1, hlast1, ?_, hall⟩⟩
      · intro ix hix
        rcases List.mem_append.1 hix with e | e
        · exact hall ix e
        · rw [List.mem_singleton.1 e]
          exact ⟨invertedIndex, parsedItems, lexicon, lexicon1, hlt0, hadd, hbound⟩
      · rw [hcnt] at hsmall
        have : ¬ (MAX_BLOCK_COUNT ≤ index1.blocks.length) := by
          intro hcon
          exact hsmall (by exact_mod_cast hcon)
        omega)
  cases hb : buildIndex ops docLengths fuel [] (records.map encodeParsedItems) with
  | none =>
    rw [hb] at h
    obtain ⟨recs, hrecs, item, hitem, h0⟩ := h
    exact absurd h0 (hne recs hrecs item hitem)
  | some result =>
    rw [hb] at h
    obtain ⟨written, invertedIndex, hres, -, -, -, hlt, hall⟩ := h
    refine ⟨result, rfl, ?_⟩
    intro ix hix
    rw [hres] at hix
    rcases List.mem_append.1 hix with e | e
    · exact Or.inr (hall ix e)
    · rw [List.mem_singleton.1 e]
      exact Or.inl hlt

theorem overflowPostingCount_le (i : Nat) :
    1 ≤ overflowPostingCount i ∧ overflowPostingCount i ≤ 16385 := by
  unfold overflowPostingCount
  split <;> omega

theorem overflowRecord_wf (i : Nat) : RecordWF (overflowRecord i) := by
  have hn := overflowPostingCount_le i
  refine ⟨?_, ?_, ?_, ?_, ?_, ?_⟩
  · simp [overflowRecord, smallWord]
  · simp [overflowRecord]
  · simp [overflowRecord]
  · simp only [overflowRecord, List.length_map, List.length_range]; omega
  · intro d hd
    simp only [overflowRecord, List.mem_map, List.mem_range] at hd
    obtain ⟨j, hj, rfl⟩ := hd
    constructor <;> omega
  · intro d hd
    simp only [overflowRecord] at hd
    rw [List.eq_of_mem_replicate hd]
    constructor <;> norm_num

theorem cstr_smallWord (i : Nat) : cstr (smallWord i) = smallWord i := by
  simp [cstr, smallWord, List.takeWhile]

theorem smallWord_succ_ne (i : Nat) : cstr (smallWord i) ≠ cstr (smallWord (i + 1)) := by
  rw [cstr_smallWord, cstr_smallWord]
  intro h
  simp only [smallWord, List.cons.injEq, and_true] at h
  omega

theorem overflowRecords_length : overflowRecords.length = overflowTermCount + 2 := by
  simp [overflowRecords]

theorem overflowRecords_getD (i : Nat) (hi : i < overflowTermCount + 2) :
    overflowRecords.getD i default = overflowRecord i := by
  simp [overflowRecords, List.getD_eq_getElem?_getD, List.getElem?_range hi]

theorem encode_range_length (k : Nat) :
    (encodeParsedItems ((List.range k).map overflowRecord)).length
      ≤ 19 * k + (if overflowTermCount < k then 131072 else 0) := by
  induction k with
  | zero => simp [encodeParsedItems]
  | succ k ih =>
    have hlen := encodeParsedItem_length (overflowRecord k) (overflowRecord_wf k)
    have hw : (overflowRecord k).word.length = 3 := by simp [overflowRecord, smallWord]
    have hd : (overflowRecord k).docIds.length = overflowPostingCount k := by
      simp [overflowRecord]
    rw [hw, hd] at hlen
    simp only [encodeParsedItems, List.range_succ, List.map_append, List.map_cons, List.map_nil,
      List.flatMap_append, List.flatMap_cons, List.flatMap_nil, List.append_nil,
      List.length_append] at ih ⊢
    rw [hlen]
    unfold overflowPostingCount
    by_cases hk : k = overflowTermCount
    · rw [if_pos hk]
      rw [if_neg (by omega)] at ih
      rw [if_pos (by omega)]
      omega
    · rw [if_neg hk]
      by_cases hk2 : overflowTermCount < k
      · rw [if_pos hk2] at ih
        rw [if_pos (by omega)]
        omega
      · rw [if_neg hk2] at ih
        rw [if_neg (by omega)]
        omega

theorem overflowRecords_size : (encodeParsedItems overflowRecords).length ≤ READ_SIZE := by
  have := encode_range_length (overflowTermCount + 2)
  rw [if_pos (by omega)] at this
  unfold overflowRecords
  simp only [overflowTermCount, READ_SIZE] at this ⊢
  omega

theorem itemsDocIds_single (item : ParsedItem) (hwf : RecordWF item) :
    (itemsDocIds (some item :: List.replicate 7 none)).length = item.docIds.length := by
  have h1 : itemsDocIds (some item :: List.replicate 7 none)
      = item.postings.map (fun p => p.1) := by
    simp [itemsDocIds, List.replicate]
  rw [h1, List.length_map]
  simp only [ParsedItem.postings, List.length_take, List.length_zip, hwf.freq_len, hwf.count_eq,
    Int.toNat_ofNat]
  omega

/-- C19 (fails in the code): for one intermediate file with 1535936 words of one
posting each, which fill 23999 blocks, then a word with 16385 postings, which
takes 129 chunks, and one more word, `buildIndex` writes an index file with
more than `MAX_BLOCK_COUNT` blocks, the number that `InvertedIndex.h` calls the
"Maximum blocks per index" and the comment of `createInvertedIndex` "24000
blocks max": the block count is compared with `MAX_BLOCK_COUNT` only after the
word with 16385 postings has been added.  The array `parsedItems` holds `NULL`
in every entry at its declaration. -/
theorem buildIndex_exceeds_block_count :
    ∃ result : BuildResult Int,
      buildIndex intOps (fun _ => 1) (overflowTermCount + 3) [] overflowFiles = some result ∧
      ∃ ix ∈ result.indexes, MAX_BLOCK_COUNT < ix.blocks.length := by
  have hlen := overflowRecords_length
  obtain ⟨result, written, invertedIndex, hbuild, hres, hP⟩ := buildIndex_single intOps
    (fun _ => 1) (overflowTermCount + 3) overflowRecords
    (by intro h0; rw [h0] at hlen; simp at hlen)
    overflowRecords_size
    (by
      intro item hitem
      simp only [overflowRecords, List.mem_map] at hitem
      obtain ⟨i, -, rfl⟩ := hitem
      exact overflowRecord_wf i)
    (by
      intro i hi
      rw [hlen] at hi
      rw [overflowRecords_getD i (by omega), overflowRecords_getD (i + 1) hi]
      exact smallWord_succ_ne i)
    (by rw [hlen]; omega)
    (fun i written invertedIndex _ =>
      (i ≤ overflowTermCount → written = [] ∧ IndexWF invertedIndex ∧ IndexExtra invertedIndex ∧
        (allChunks invertedIndex.blocks).length = i) ∧
      (i = overflowTermCount + 1 → ∃ ix ∈ written, MAX_BLOCK_COUNT < ix.blocks.length))
    ⟨fun _ => ⟨rfl, IndexWF_create, IndexExtra_create, by simp [createInvertedIndex, allChunks]⟩,
      fun h => by simp [overflowTermCount] at h⟩
    (by
      intro i written invertedIndex lexicon hi hP
      rw [hlen] at hi
      have hile : i ≤ overflowTermCount := by omega
      obtain ⟨hw, hwf0, hex0, hchunks0⟩ := hP.1 hile
      rw [overflowRecords_getD i (by omega)]
      have hdl := itemsDocIds_single (overflowRecord i) (overflowRecord_wf i)
      have hd : (overflowRecord i).docIds.length = overflowPostingCount i := by
        simp [overflowRecord]
      rw [hd] at hdl
      have hpc := overflowPostingCount_le i
      have hne : itemsDocIds (some (overflowRecord i) :: List.replicate 7 none) ≠ [] := by
        intro h0
        rw [h0] at hdl
        simp at hdl
        omega
      obtain ⟨index1, lexicon1, hadd, hwf1, hex1, -, hchunks, hblocks, hcnt⟩ :=
        addParsedItems_counts intOps (some (overflowRecord i) :: List.replicate 7 none)
          invertedIndex lexicon (fun _ => 1) DOC_COUNT
          (computeAvgDocLength (fun _ => 1) DOC_COUNT) hwf0 hex0 hne
      rw [hdl, hchunks0] at hchunks
      rw [hchunks] at hblocks
      refine ⟨index1, lexicon1, hadd, ?_, ?_⟩
      · intro hbig
        rw [hcnt] at hbig
        have hbig1 : MAX_BLOCK_COUNT ≤ index1.blocks.length := by exact_mod_cast hbig
        have hiM : i = overflowTermCount := by
          by_contra hcon
          have : overflowPostingCount i = 1 := by
            unfold overflowPostingCount; rw [if_neg hcon]
          rw [this] at hblocks
          simp only [overflowTermCount, MAX_BLOCK_COUNT] at hile hcon hbig1
          omega
        refine ⟨fun h => by omega, fun _ => ⟨index1, by simp, ?_⟩⟩
        have : overflowPostingCount i = 16385 := by
          unfold overflowPostingCount; rw [if_pos hiM]
        rw [this, hiM] at hblocks
        simp only [overflowTermCount, MAX_BLOCK_COUNT] at hblocks ⊢
        omega
      · intro hsmall
        rw [hcnt] at hsmall
        have hsmall1 : ¬ MAX_BLOCK_COUNT ≤ index1.blocks.length := by
          intro hcon
          exact hsmall (by exact_mod_cast hcon)
        have hiM : i ≠ overflowTermCount := by
          intro hcon
          have : overflowPostingCount i = 16385 := by
            unfold overflowPostingCount; rw [if_pos hcon]
          rw [this, hcon] at hblocks
          simp only [overflowTermCount, MAX_BLOCK_COUNT] at hblocks hsmall1
          omega
        have hp1 : overflowPostingCount i = 1 := by
          unfold overflowPostingCount; rw [if_neg hiM]
        rw [hp1] at hchunks
        refine ⟨fun _ => ⟨hw, hwf1, hex1, by rw [hchunks]⟩, fun h => by omega⟩)
  refine ⟨result, hbuild, ?_⟩
  rw [hlen] at hP
  obtain ⟨ix, hix, hgt⟩ := hP.2 (by omega)
  exact ⟨ix, by rw [hres]; exact List.mem_append_left _ hix, hgt⟩

/-! ### The list pointer on files of the encoder -/

theorem sum_drop_getD (l : List Int) (k : Nat) (hk : k < l.length) :
    (l.drop k).sum = l.getD k 0 + (l.drop (k + 1)).sum := by
  rw [List.drop_eq_getElem_cons hk, List.sum_cons, List.getD_eq_getElem?_getD,
    List.getElem?_eq_getElem hk, Option.getD_some]

/-- The scan of the sizes of a full block adds all sizes up and leaves
`chunkEndIndex` at `MAX_CHUNK_COUNT`. -/
theorem scanChunkSizes_full (chunkSizes : List Int) (hlen : chunkSizes.length = MAX_CHUNK_COUNT)
    (hpos : ∀ j, j < MAX_CHUNK_COUNT → chunkSizes.getD j 0 ≠ 0) :
    ∀ (fuel chunkIndex : Nat) (sumSize : Int), chunkIndex + fuel = MAX_CHUNK_COUNT →
      scanChunkSizes chunkSizes fuel chunkIndex sumSize
        = (sumSize + (chunkSizes.drop chunkIndex).sum, MAX_CHUNK_COUNT) := by
  intro fuel
  induction fuel with
  | zero =>
    intro k s hk
    simp only [Nat.add_zero] at hk
    rw [scanChunkSizes, List.drop_of_length_le (by rw [hlen, hk])]
    simp
  | succ fuel ih =>
    intro k s hk
    have hk2 : k < MAX_CHUNK_COUNT := by omega
    rw [scanChunkSizes, if_neg (hpos k hk2), ih (k + 1) _ (by omega),
      sum_drop_getD chunkSizes k (by rw [hlen]; exact hk2)]
    congr 1
    ring

theorem writeBlock_length {D : Type} (ops : DoubleOps D) (block : IndexBlock D)
    (h : BlockOnDisk ops block) :
    ((writeBlock ops block).length : Int) = 512 + block.chunkSizes.sum := by
  rw [h.sizes_sum]
  simp only [writeBlock, List.length_append, intsToBytes_length, h.sizes_length, h.lasts_length,
    MAX_CHUNK_COUNT]
  push_cast
  ring

theorem sizes_sum_nonneg {D : Type} (ops : DoubleOps D) (block : IndexBlock D)
    (h : BlockOnDisk ops block) : 0 ≤ block.chunkSizes.sum := by
  rw [h.sizes_sum]; exact Int.natCast_nonneg _

/-- The header read at the start of a block in a file gives the sizes of the
chunks of the block. -/
theorem freadInts_block {D : Type} (ops : DoubleOps D) (block : IndexBlock D)
    (h : BlockOnDisk ops block) (pre post : List Nat) (old : List Int)
    (hold : old.length = MAX_CHUNK_COUNT) :
    freadInts { content := pre ++ writeBlock ops block ++ post, pos := pre.length }
        MAX_CHUNK_COUNT old
      = (block.chunkSizes, { content := pre ++ writeBlock ops block ++ post
                             pos := pre.length + 4 * MAX_CHUNK_COUNT }) := by
  have hbytes : ((pre ++ writeBlock ops block ++ post).drop pre.length).take (4 * MAX_CHUNK_COUNT)
      = intsToBytes block.chunkSizes := by
    rw [List.append_assoc, List.drop_left]
    simp only [writeBlock, List.append_assoc]
    rw [List.take_left' (by rw [intsToBytes_length, h.sizes_length])]
  have := freadInts_full { content := pre ++ writeBlock ops block ++ post, pos := pre.length } old
    hold (by
      simp only
      rw [hbytes, intsToBytes_length, h.sizes_length])
  rw [this]
  simp only
  rw [hbytes, intsOfBytes_intsToBytes _ h.sizes_range]

theorem fseekCur_nonneg (fp : FILE) (offset : Nat) :
    fseekCur fp (offset : Int) = { fp with pos := fp.pos + offset } := by
  have h : 0 ≤ (fp.pos : Int) + (offset : Int) := by omega
  simp only [fseekCur, if_pos h]
  congr 1

theorem tdiv_natCast (a : Nat) : Int.tdiv (a : Int) (MAX_CHUNK_COUNT : Int) = ((a / 64 : Nat) : Int) :=
  rfl

/-- The loop that skips blocks goes over the full blocks that the chunks to
skip cover and stops at the start of the block after them when fewer than
`MAX_CHUNK_COUNT` chunks remain to skip, whatever that block holds. -/
theorem skipBlocksToStart_full {D : Type} (ops : DoubleOps D) (last : IndexBlock D)
    (hlast : BlockOnDisk ops last) (m : Nat) (hm : m < 64) :
    ∀ (fulls : List (IndexBlock D)) (pre : List Nat) (fuel : Nat) (old : List Int),
      (∀ b ∈ fulls, BlockOnDisk ops b ∧ b.chunkCount = MAX_CHUNK_COUNT) →
      old.length = MAX_CHUNK_COUNT → fulls.length ≤ fuel →
      skipBlocksToStart (pre ++ fulls.flatMap (writeBlock ops) ++ writeBlock ops last).length fuel
          { content := pre ++ fulls.flatMap (writeBlock ops) ++ writeBlock ops last
            pos := pre.length } old ((64 * fulls.length + m : Nat) : Int)
        = ({ content := pre ++ fulls.flatMap (writeBlock ops) ++ writeBlock ops last
             pos := pre.length + (fulls.flatMap (writeBlock ops)).length }, (m : Int)) := by
  intro fulls
  induction fulls with
  | nil =>
    intro pre fuel old _ _ _
    have hcond : ¬ Int.tdiv ((64 * ([] : List (IndexBlock D)).length + m : Nat) : Int)
        (MAX_CHUNK_COUNT : Int) > 0 := by
      rw [tdiv_natCast]
      simp only [List.length_nil, Nat.mul_zero, Nat.zero_add]
      have : m / 64 = 0 := by omega
      rw [this]
      simp
    cases fuel with
    | zero => simp [skipBlocksToStart]
    | succ fuel =>
      rw [skipBlocksToStart, if_neg hcond]
      simp
  | cons b rest ih =>
    intro pre fuel old hfull hold hfuel
    obtain ⟨hb, hbfull⟩ := hfull b (List.mem_cons_self _ _)
    obtain ⟨fuel1, rfl⟩ : ∃ fuel1, fuel = fuel1 + 1 :=
      ⟨fuel - 1, by simp only [List.length_cons] at hfuel; omega⟩
    have hcond : Int.tdiv ((64 * (b :: rest).length + m : Nat) : Int) (MAX_CHUNK_COUNT : Int) > 0 := by
      rw [tdiv_natCast]
      simp only [List.length_cons]
      have : 1 ≤ (64 * (rest.length + 1) + m) / 64 := by omega
      exact_mod_cast this
    have hcontent : pre ++ (b :: rest).flatMap (writeBlock ops) ++ writeBlock ops last
        = pre ++ writeBlock ops b ++ (rest.flatMap (writeBlock ops) ++ writeBlock ops last) := by
      simp only [List.flatMap_cons, List.append_assoc]
    have hcontent2 : pre ++ (b :: rest).flatMap (writeBlock ops) ++ writeBlock ops last
        = (pre ++ writeBlock ops b) ++ rest.flatMap (writeBlock ops) ++ writeBlock ops last := by
      simp only [List.flatMap_cons, List.append_assoc]
    have hread := freadInts_block ops b hb pre
      (rest.flatMap (writeBlock ops) ++ writeBlock ops last) old hold
    have hnz : ∀ j, j < MAX_CHUNK_COUNT → b.chunkSizes.getD j 0 ≠ 0 := by
      intro j hj
      have := hb.sizes_pos j (by rw [hbfull]; exact hj)
      omega
    have hscan := scanChunkSizes_full b.chunkSizes hb.sizes_length hnz MAX_CHUNK_COUNT 0 0
      (by omega)
    rw [List.drop_zero, zero_add] at hscan
    have hsum0 := sizes_sum_nonneg ops b hb
    have hblen := writeBlock_length ops b hb
    have hllen := writeBlock_length ops last hlast
    have hlsum := sizes_sum_nonneg ops last hlast
    obtain ⟨s, hs⟩ : ∃ s : Nat, b.chunkSizes.sum = (s : Int) := ⟨b.chunkSizes.sum.toNat, by omega⟩
    have hblen2 : (writeBlock ops b).length = 512 + s := by
      rw [hs] at hblen; exact_mod_cast hblen
    have hrem : ((64 * (b :: rest).length + m : Nat) : Int) - (MAX_CHUNK_COUNT : Int)
        = ((64 * rest.length + m : Nat) : Int) := by
      simp only [List.length_cons, MAX_CHUNK_COUNT]
      push_cast
      ring
    have hih := ih (pre ++ writeBlock ops b) fuel1 b.chunkSizes
      (fun x hx => hfull x (List.mem_cons_of_mem _ hx)) hb.sizes_length
      (by simp only [List.length_cons] at hfuel; omega)
    rw [← hcontent2] at hih
    have hpos2 : pre.length + 4 * MAX_CHUNK_COUNT + MAX_CHUNK_COUNT * 4 + s
        = (pre ++ writeBlock ops b).length := by
      rw [List.length_append, hblen2]
      simp only [MAX_CHUNK_COUNT]
      omega
    have hne : ¬ ((pre ++ writeBlock ops b).length
        = (pre ++ (b :: rest).flatMap (writeBlock ops) ++ writeBlock ops last).length) := by
      rw [hcontent2]
      simp only [List.length_append]
      have : 512 ≤ (writeBlock ops last).length := by
        have h1 : ((writeBlock ops last).length : Int) = 512 + last.chunkSizes.sum := hllen
        omega
      omega
    have hstep : skipBlocksToStart
        (pre ++ (b :: rest).flatMap (writeBlock ops) ++ writeBlock ops last).length (fuel1 + 1)
        { content := pre ++ (b :: rest).flatMap (writeBlock ops) ++ writeBlock ops last
          pos := pre.length } old ((64 * (b :: rest).length + m : Nat) : Int)
        = skipBlocksToStart
          (pre ++ (b :: rest).flatMap (writeBlock ops) ++ writeBlock ops last).length fuel1
          { content := pre ++ (b :: rest).flatMap (writeBlock ops) ++ writeBlock ops last
            pos := (pre ++ writeBlock ops b).length } b.chunkSizes
          ((64 * rest.length + m : Nat) : Int) := by
      rw [skipBlocksToStart, if_pos hcond]
      simp only
      rw [hcontent, hread]
      simp only
      have hoff : ((MAX_CHUNK_COUNT : Int) * 4) = ((MAX_CHUNK_COUNT * 4 : Nat) : Int) := by
        push_cast; rfl
      rw [hoff, fseekCur_nonneg, hscan, hs, fseekCur_nonneg]
      simp only
      rw [hpos2, ← hcontent, if_neg hne, hrem]
    rw [hstep, hih]
    simp only [List.length_append, List.flatMap_cons, Nat.add_assoc]

/-- The defect of `getListPointerForWord` on index files as the encoder writes
them: when the first file holds full blocks and a last block with
`last.chunkCount` chunks, and the chunk looked for is chunk `r1` of the files
after it with `last.chunkCount + r1 < MAX_CHUNK_COUNT`, the function returns
the first file at the start of its last block and leaves
`last.chunkCount + r1` in `remainingChunkToStart`, a slot of that block that
holds no chunk. -/
theorem getListPointerForWord_stops_early {D : Type} (ops : DoubleOps D)
    (fulls : List (IndexBlock D)) (last : IndexBlock D) (others : List (List Nat))
    (chunkNumber blockCount : Int) (r1 : Nat)
    (hfull : ∀ b ∈ fulls, BlockOnDisk ops b ∧ b.chunkCount = MAX_CHUNK_COUNT)
    (hlast : BlockOnDisk ops last) (hroom : last.chunkCount + r1 < MAX_CHUNK_COUNT) :
    getListPointerForWord
        (writeInvertedIndexToDisk ops
          { chunkNumber := chunkNumber, blockCount := blockCount, blocks := fulls ++ [last] }
            :: others)
        ((64 * fulls.length + (last.chunkCount + r1) : Nat) : Int)
      = some { filePointer :=
                 { content := writeInvertedIndexToDisk ops
                     { chunkNumber := chunkNumber, blockCount := blockCount
                       blocks := fulls ++ [last] }
                   pos := (fulls.flatMap (writeBlock ops)).length }
               fileNumber := 0
               closed := false
               remainingChunkToStart := ((last.chunkCount + r1 : Nat) : Int) } ∧
    last.chunkSizes.getD (last.chunkCount + r1) 0 = 0 := by
  refine ⟨?_, hlast.sizes_zero _ (by omega)⟩
  have hfile : writeInvertedIndexToDisk ops
      { chunkNumber := chunkNumber, blockCount := blockCount, blocks := fulls ++ [last] }
      = [] ++ fulls.flatMap (writeBlock ops) ++ writeBlock ops last := by
    simp [writeInvertedIndexToDisk, List.flatMap_append]
  have hskip := skipBlocksToStart_full ops last hlast (last.chunkCount + r1)
    (by simp only [MAX_CHUNK_COUNT] at hroom; exact hroom) fulls []
    ((64 * fulls.length + (last.chunkCount + r1) : Nat) : Int).toNat
    (List.replicate MAX_CHUNK_COUNT 0) hfull (by simp)
    (by rw [Int.toNat_ofNat]; omega)
  rw [← hfile] at hskip
  simp only [List.length_nil, Nat.zero_add] at hskip
  have hllen := writeBlock_length ops last hlast
  have hlsum := sizes_sum_nonneg ops last hlast
  have hne : ¬ ((fulls.flatMap (writeBlock ops)).length
      = (writeInvertedIndexToDisk ops
          { chunkNumber := chunkNumber, blockCount := blockCount
            blocks := fulls ++ [last] }).length) := by
    rw [hfile]
    simp only [List.nil_append, List.length_append]
    have : 512 ≤ (writeBlock ops last).length := by omega
    omega
  have hloop : getListPointerForWord
      (writeInvertedIndexToDisk ops
        { chunkNumber := chunkNumber, blockCount := blockCount, blocks := fulls ++ [last] }
          :: others)
      ((64 * fulls.length + (last.chunkCount + r1) : Nat) : Int)
      = getListPointerLoop
        (writeInvertedIndexToDisk ops
          { chunkNumber := chunkNumber, blockCount := blockCount, blocks := fulls ++ [last] }
            :: others)
        (2 + 1) 0 none ((64 * fulls.length + (last.chunkCount + r1) : Nat) : Int) := rfl
  rw [hloop, getListPointerLoop]
  simp only [List.getElem?_cons_zero, hskip, if_neg hne]

theorem computeVarByteLengthLoop_le (k : Nat) :
    ∀ (fuel : Nat) (docId byteCount : Int), docId < 128 * 128 ^ k →
      computeVarByteLengthLoop fuel docId byteCount ≤ byteCount + k := by
  induction k with
  | zero =>
    intro fuel d c hd
    cases fuel with
    | zero => simp [computeVarByteLengthLoop]
    | succ fuel =>
      have : ¬ d ≥ 128 := by simpa using hd
      simp [computeVarByteLengthLoop, if_neg this]
  | succ k ih =>
    intro fuel d c hd
    cases fuel with
    | zero => simp only [computeVarByteLengthLoop]; omega
    | succ fuel =>
      simp only [computeVarByteLengthLoop]
      split
      · have hdiv : d / 128 < 128 * 128 ^ k := by
          rw [pow_succ] at hd
          omega
        have := ih fuel (d / 128) (c + 1) hdiv
        push_cast
        omega
      · omega

theorem IncreasingFrom_nonneg (l : List Int) :
    ∀ prev, IncreasingFrom prev l → ∀ d ∈ l, 0 ≤ d := by
  induction l with
  | nil => intro _ _ d hd; simp at hd
  | cons a rest ih =>
    intro prev h d hd
    obtain ⟨-, h2, -, h4⟩ := h
    rcases List.mem_cons.1 hd with e | e
    · rw [e]; exact h2
    · exact ih a h4 d e

theorem chunkSizeOf_range {D : Type} (chunk : IndexChunk D)
    (hcount : chunk.postingCount ≤ MAX_POSTING_COUNT)
    (hr : ∀ v ∈ chunk.docIds.take chunk.postingCount, 0 ≤ v ∧ v < 2 ^ 31) :
    0 ≤ chunkSizeOf chunk ∧ chunkSizeOf chunk ≤ 768 := by
  unfold chunkSizeOf
  have hlen : (chunk.docIds.take chunk.postingCount).length ≤ 128 := by
    rw [List.length_take]
    simp only [MAX_POSTING_COUNT] at hcount
    omega
  obtain ⟨l, hl⟩ : ∃ l, chunk.docIds.take chunk.postingCount = l := ⟨_, rfl⟩
  rw [hl] at hr hlen ⊢
  have hgen : 0 ≤ (l.map (fun v => computeVarByteLength v + 1)).sum ∧
      (l.map (fun v => computeVarByteLength v + 1)).sum ≤ 6 * (l.length : Int) := by
    clear hlen hl
    induction l with
    | nil => simp
    | cons a rest ih =>
      have ha := hr a (List.mem_cons_self _ _)
      have h1 := computeVarByteLengthLoop_ge a.toNat a 0
      have h2 := computeVarByteLengthLoop_le 4 a.toNat a 0 (by norm_num; omega)
      have := ih (fun v hv => hr v (List.mem_cons_of_mem _ hv))
      have hcv : computeVarByteLength a = computeVarByteLengthLoop a.toNat a 0 + 1 := rfl
      simp only [List.map_cons, List.sum_cons, List.length_cons]
      rw [hcv]
      push_cast
      omega
  constructor
  · exact hgen.1
  · have := hgen.2
    omega

/-- A block of an index the encoder has built from non-empty increasing runs
of docIDs is written as `BlockOnDisk` describes. -/
theorem blockOnDisk_of_encoded {D : Type} [Zero D] (ops : DoubleOps D) (block : IndexBlock D)
    (hwf : BlockWF block) (hm : BlockMeta block)
    (hrun : ∀ c ∈ block.indexChunks.take block.chunkCount,
      c.absDocIds ≠ [] ∧ IncreasingFrom (-1) c.absDocIds) :
    BlockOnDisk ops block := by
  have hslots := block_slots block hwf hm
    (fun c hc => ⟨(hrun c hc).1, IncreasingFrom_nonneg _ _ (hrun c hc).2⟩)
  refine ⟨hwf.sizes_length, hwf.lasts_length, hwf.count_le, ?_, fun j hj => (hslots.1 j hj).1,
    ?_, (block_sizes_eq_bytes ops block hwf hm (fun c hc => (hrun c hc).2)).2⟩
  · intro v hv
    rw [chunkSizes_eq_map block hwf hm] at hv
    obtain ⟨c, hc, rfl⟩ := List.mem_map.1 hv
    have hcases : c ∈ block.indexChunks.take block.chunkCount ∨
        c ∈ block.indexChunks.drop block.chunkCount := by
      rw [← List.take_append_drop block.chunkCount block.indexChunks] at hc
      exact List.mem_append.1 hc
    rcases hcases with h1 | h1
    · have := chunkSizeOf_range c (hwf.posting_le c (List.mem_of_mem_take h1))
        (stored_range_of_increasing c (hrun c h1).2)
      constructor <;> omega
    · rw [mem_drop_fresh block hwf c h1, chunkSizeOf_empty]
      constructor <;> norm_num
  · intro j hj
    by_cases hj2 : j < MAX_CHUNK_COUNT
    · exact (hslots.2 j hj hj2).1
    · rw [List.getD_eq_getElem?_getD, List.getElem?_eq_none (by rw [hwf.sizes_length]; omega)]
      rfl

/-! ### The shape of the variable-byte code -/

theorem varByteCompressLoop_shape (fuel : Nat) :
    ∀ (x k : Nat), x ≤ fuel → x < 2 ^ (7 * (k + 1)) →
      (varByteCompressLoop fuel x).length ≤ k + 1 ∧
      (∀ b ∈ (varByteCompressLoop fuel x).dropLast, b &&& 0x80 = 0x80 ∧ b < 256) ∧
      ∃ last, (varByteCompressLoop fuel x).getLast? = some last ∧ last &&& 0x80 = 0 ∧
        last < 128 := by
  induction fuel with
  | zero =>
    intro x k hx _
    have hx0 : x = 0 := by omega
    subst hx0
    simp [varByteCompressLoop]
  | succ fuel ih =>
    intro x k hx hlt
    by_cases hbig : x ≥ 128
    · have hmod : x &&& 127 = x % 128 := Nat.and_pow_two_sub_one_eq_mod x 7
      have hr : x % 128 < 128 := Nat.mod_lt _ (by norm_num)
      obtain ⟨h1, -, h3⟩ := low7_or_high (x % 128) hr
      have hdiv : x >>> 7 = x / 128 := by rw [Nat.shiftRight_eq_div_pow]
      obtain ⟨j, rfl⟩ : ∃ j, k = j + 1 := by
        cases k with
        | zero => exact absurd hlt (by norm_num; omega)
        | succ j => exact ⟨j, rfl⟩
      have hpow : 2 ^ (7 * (j + 1 + 1)) = 2 ^ (7 * (j + 1)) * 128 := by
        rw [show 7 * (j + 1 + 1) = 7 * (j + 1) + 7 by ring, pow_add]; norm_num
      have hq : x / 128 < 2 ^ (7 * (j + 1)) := by
        rw [hpow] at hlt
        exact Nat.div_lt_of_lt_mul (by rw [Nat.mul_comm]; exact hlt)
      obtain ⟨i1, i2, last, i3, i4⟩ := ih (x / 128) j (by omega) hq
      have hne := varByteCompressLoop_ne_nil fuel (x / 128)
      simp only [varByteCompressLoop, if_pos hbig, hmod, h1, hdiv, List.length_cons]
      refine ⟨by omega, ?_, last, ?_, i4⟩
      · intro b hb
        rw [List.dropLast_cons_of_ne_nil hne] at hb
        rcases List.mem_cons.1 hb with e | e
        · rw [e]; exact ⟨h3, by omega⟩
        · exact i2 b e
      · rw [List.getLast?_cons, i3]; rfl
    · have hsm : x < 128 := by omega
      obtain ⟨h1, -, h3⟩ := low7_small x hsm
      simp only [varByteCompressLoop, if_neg hbig, h1]
      exact ⟨by simp, by simp, x, by simp, h3, hsm⟩

/-- C30: for every `x` with `0 ≤ x < 2^32`, `varByteCompressInt` writes between
1 and 5 bytes, every byte but the last has its high bit set, the last byte has
it clear, and `x = 0` is written as the single byte `0x00`. -/
theorem varByteCompressInt_shape (x : Nat) (hx : x < 2 ^ 32) :
    1 ≤ (varByteCompressInt x).length ∧ (varByteCompressInt x).length ≤ 5 ∧
    (∀ b ∈ (varByteCompressInt x).dropLast, b &&& 0x80 = 0x80 ∧ b < 256) ∧
    (∃ last, (varByteCompressInt x).getLast? = some last ∧ last &&& 0x80 = 0 ∧ last < 128) ∧
    (x = 0 → varByteCompressInt x = [0x00]) := by
  obtain ⟨h1, h2, h3⟩ := varByteCompressLoop_shape x x 4 le_rfl
    (lt_of_lt_of_le hx (by norm_num))
  refine ⟨varByteCompressInt_length_pos x, h1, h2, h3, ?_⟩
  intro h0
  subst h0
  rfl

theorem varByteCompressInt_shape_witness :
    1 ≤ (varByteCompressInt 300).length ∧ (varByteCompressInt 300).length ≤ 5 ∧
    (∀ b ∈ (varByteCompressInt 300).dropLast, b &&& 0x80 = 0x80 ∧ b < 256) ∧
    (∃ last, (varByteCompressInt 300).getLast? = some last ∧ last &&& 0x80 = 0 ∧
      last < 128) ∧
    (300 = 0 → varByteCompressInt 300 = [0x00]) :=
  varByteCompressInt_shape 300 (by decide)

/-! ### The segment table -/

theorem cstr_cstr (word : List Nat) : cstr (cstr word) = cstr word := by
  induction word with
  | nil => rfl
  | cons a rest ih =>
    by_cases h : a = 0
    · subst h; simp [cstr_cons_zero, cstr_nil]
    · rw [cstr_cons_ne a rest h, cstr_cons_ne a _ h, ih]

theorem hashLoop_cstr (word : List Nat) : ∀ hash, hashLoop (cstr word) hash = hashLoop word hash := by
  induction word with
  | nil => intro hash; rfl
  | cons a rest ih =>
    intro hash
    by_cases h : a = 0
    · subst h; simp [cstr_cons_zero, hashLoop]
    · rw [cstr_cons_ne a rest h]
      simp only [hashLoop, if_neg h]
      exact ih _

theorem hashLoop_congr (a b : List Nat) (h : cstr a = cstr b) (hash : Int) :
    hashLoop a hash = hashLoop b hash := by
  rw [← hashLoop_cstr a, ← hashLoop_cstr b, h]

/-- The slot of a word depends on the string only. -/
theorem HashTable.hashFunction_of_cstr_eq (a b : List Nat) (h : cstr a = cstr b) :
    HashTable.hashFunction a = HashTable.hashFunction b := by
  simp only [HashTable.hashFunction, hashLoop_congr a b h]

theorem neg_lt_tmod (a : Int) (n : Nat) (hn : 0 < n) : -(n : Int) < Int.tmod a n := by
  cases a with
  | ofNat m =>
    have : (0 : Int) ≤ ((m % n : Nat) : Int) := Int.ofNat_nonneg _
    show -(n : Int) < ((m % n : Nat) : Int)
    omega
  | negSucc m =>
    have h : (m + 1) % n < n := Nat.mod_lt _ hn
    show -(n : Int) < -(((m + 1) % n : Nat) : Int)
    omega

theorem HashTable.hashFunction_lt (word : List Nat) :
    HashTable.hashFunction word < HASHTABLE_SLOT_SIZE := by
  simp only [HashTable.hashFunction]
  have h1 := Int.tmod_lt_of_pos (hashLoop word 5381)
    (show (0 : Int) < (HASHTABLE_SLOT_SIZE : Int) by decide)
  have h2 := neg_lt_tmod (hashLoop word 5381) HASHTABLE_SLOT_SIZE (by decide)
  split <;> omega

/-- The comparison of `strcmp` with zero is the equality of the strings. -/
theorem strcmp_cstr_right (a b : List Nat) : strcmp a (cstr b) = 0 ↔ strcmp a b = 0 := by
  rw [strcmp_eq_zero_iff, strcmp_eq_zero_iff, cstr_cstr]

theorem updateEntries_cases (word : List Nat) (docId : Int) (chain : List HashTableEntry) :
    ((∀ x ∈ chain, strcmp x.word word ≠ 0) ∧ updateEntries word docId chain = some none) ∨
    ∃ pre entry post, chain = pre ++ entry :: post ∧ (∀ x ∈ pre, strcmp x.word word ≠ 0) ∧
      strcmp entry.word word = 0 ∧
      updateEntries word docId chain
        = (updateLinkedList entry.list docId).map
            (fun list => some (pre ++ { entry with list := list } :: post)) := by
  induction chain with
  | nil => left; exact ⟨by simp, rfl⟩
  | cons a rest ih =>
    by_cases h : strcmp a.word word = 0
    · right
      refine ⟨[], a, rest, rfl, by simp, h, ?_⟩
      simp only [updateEntries, if_pos h, List.nil_append]
      cases updateLinkedList a.list docId <;> rfl
    · rcases ih with ⟨h1, h2⟩ | ⟨pre, entry, post, h1, h2, h3, h4⟩
      · left
        refine ⟨?_, ?_⟩
        · intro x hx
          rcases List.mem_cons.1 hx with e | e
          · rw [e]; exact h
          · exact h1 x e
        · simp only [updateEntries, if_neg h, h2]
      · right
        refine ⟨a :: pre, entry, post, by rw [h1]; rfl, ?_, h3, ?_⟩
        · intro x hx
          rcases List.mem_cons.1 hx with e | e
          · rw [e]; exact h
          · exact h2 x e
        · simp only [updateEntries, if_neg h, h4]
          cases updateLinkedList entry.list docId <;> rfl

theorem find_append_of_forall_not {α : Type} (p : α → Bool) (pre : List α) (a : α)
    (post : List α) (hpre : ∀ x ∈ pre, p x = false) (ha : p a = true) :
    (pre ++ a :: post).find? p = some a := by
  induction pre with
  | nil => simp [List.find?, ha]
  | cons b rest ih =>
    have hb := hpre b (List.mem_cons_self _ _)
    simp only [List.cons_append, List.find?, hb]
    exact ih (fun x hx => hpre x (List.mem_cons_of_mem _ hx))

theorem find_replace_of_not {α : Type} (p : α → Bool) (pre : List α) (a b : α)
    (post : List α) (ha : p a = false) (hb : p b = false) :
    (pre ++ a :: post).find? p = (pre ++ b :: post).find? p := by
  induction pre with
  | nil => simp [List.find?, ha, hb]
  | cons c rest ih =>
    simp only [List.cons_append, List.find?]
    cases p c
    · exact ih
    · rfl

/-! ### The lists of the segment table -/

theorem incrementInt_eq (v : Int) (h0 : 0 ≤ v) (h1 : v + 1 < 2 ^ 31) :
    incrementInt v = v + 1 :=
  (toInt32_toUInt32 (v + 1) (by omega) h1).1

theorem ListOK.mono {n m : Nat} {list : LinkedList} (h : ListOK n list) (hnm : n ≤ m) :
    ListOK m list :=
  ⟨h.nodes_ne, h.count_eq, le_trans h.count_le hnm,
    fun node hnode => ⟨(h.freq_range node hnode).1,
      le_trans (h.freq_range node hnode).2 (by exact_mod_cast hnm)⟩⟩

theorem updateLinkedList_ok (n : Nat) (list : LinkedList) (docId : Int) (h : ListOK n list)
    (hn : n + 1 < 2 ^ 31) :
    ∃ list1, updateLinkedList list docId = some list1 ∧ ListOK (n + 1) list1 ∧
      list1.postings = countOccurrence list.postings docId := by
  obtain ⟨init, last, hnodes⟩ : ∃ init last, list.nodes = init ++ [last] :=
    ⟨list.nodes.dropLast, list.nodes.getLast h.nodes_ne,
      (List.dropLast_append_getLast h.nodes_ne).symm⟩
  have hlast : list.nodes.getLast? = some last := by rw [hnodes]; simp
  have hdrop : list.nodes.dropLast = init := by rw [hnodes]; simp
  have hplast : list.postings.getLast? = some (last.docId, last.frequency) := by
    simp [LinkedList.postings, hnodes]
  have hpdrop : list.postings.dropLast
      = init.map (fun node => (node.docId, node.frequency)) := by
    simp [LinkedList.postings, hnodes, List.dropLast_append_of_ne_nil]
  have hpall : list.postings
      = init.map (fun node => (node.docId, node.frequency)) ++ [(last.docId, last.frequency)] := by
    simp [LinkedList.postings, hnodes]
  have hmem : last ∈ list.nodes := by rw [hnodes]; simp
  have hfr := h.freq_range last hmem
  have hlen : list.nodes.length = init.length + 1 := by rw [hnodes]; simp
  have hcl := h.count_le
  have hcnt : list.nodeCount = (init.length : Int) + 1 := by
    rw [h.count_eq, hlen]; push_cast; rfl
  have hnI : ((n : Nat) : Int) + 1 < 2 ^ 31 := by exact_mod_cast hn
  have hold : ∀ node ∈ init, 1 ≤ node.frequency ∧ node.frequency ≤ ((n + 1 : Nat) : Int) := by
    intro node hnode
    have := h.freq_range node (by rw [hnodes]; exact List.mem_append_left _ hnode)
    push_cast
    omega
  by_cases hd : last.docId = docId
  · have hinc : incrementInt last.frequency = last.frequency + 1 :=
      incrementInt_eq _ (by omega) (by omega)
    refine ⟨_, by simp only [updateLinkedList, hlast, if_pos hd, hdrop]; rfl, ?_, ?_⟩
    · refine ⟨by simp, ?_, ?_, ?_⟩
      · simp only [List.length_append, List.length_singleton]
        rw [hcnt]; push_cast; rfl
      · simp only [List.length_append, List.length_singleton]; omega
      · intro node hnode
        rcases List.mem_append.1 hnode with e | e
        · exact hold node e
        · rw [List.mem_singleton.1 e]
          simp only
          rw [hinc]
          push_cast
          omega
    · simp only [countOccurrence, hplast, if_pos hd, hpdrop]
      simp only [LinkedList.postings, List.map_append, List.map_cons, List.map_nil, hinc]
  · have hc0 : list.nodeCount ≠ 0 := by rw [hcnt]; omega
    have hinc : incrementInt list.nodeCount = list.nodeCount + 1 :=
      incrementInt_eq _ (by rw [hcnt]; omega) (by rw [hcnt]; omega)
    refine ⟨{ nodeCount := list.nodeCount + 1
              nodes := list.nodes ++ [{ docId := docId, frequency := 1 }] }, ?_, ?_, ?_⟩
    · simp only [updateLinkedList, hlast, if_neg hd, addLinkedListNode, if_neg hc0,
        if_neg h.nodes_ne, hinc]
    · refine ⟨by simp, ?_, ?_, ?_⟩
      · simp only [List.length_append, List.length_singleton]
        rw [hcnt, hlen]; push_cast; rfl
      · simp only [List.length_append, List.length_singleton]; omega
      · intro node hnode
        rcases List.mem_append.1 hnode with e | e
        · have := h.freq_range node e
          push_cast
          omega
        · rw [List.mem_singleton.1 e]
          exact ⟨le_refl _, by push_cast; omega⟩
    · simp only [countOccurrence, hplast, if_neg hd]
      simp only [LinkedList.postings, List.map_append, List.map_cons, List.map_nil]

/-! ### One slot of the segment table -/

theorem sum_range_map_congr {M : Type} [AddCommMonoid M] (f g : Nat → M) (n : Nat)
    (h : ∀ i, i < n → f i = g i) :
    ((List.range n).map f).sum = ((List.range n).map g).sum := by
  congr 1
  apply List.map_congr_left
  intro i hi
  exact h i (List.mem_range.1 hi)

theorem sum_range_map_update {M : Type} [AddCommMonoid M] (f g : Nat → M) (n s : Nat)
    (hs : s < n) (h : ∀ i, i ≠ s → f i = g i) :
    ((List.range n).map f).sum + g s = ((List.range n).map g).sum + f s := by
  induction n with
  | zero => omega
  | succ n ih =>
    rw [List.range_succ, List.map_append, List.map_append, List.sum_append, List.sum_append]
    simp only [List.map_cons, List.map_nil, List.sum_cons, List.sum_nil, add_zero]
    by_cases hsn : s = n
    · subst hsn
      rw [sum_range_map_congr f g s (fun i hi => h i (by omega))]
      abel
    · have := ih (by omega)
      rw [h n (fun e => hsn e.symm)]
      calc ((List.range n).map f).sum + g n + g s
          = (((List.range n).map f).sum + g s) + g n := by abel
        _ = (((List.range n).map g).sum + f s) + g n := by rw [this]
        _ = ((List.range n).map g).sum + g n + f s := by abel

theorem tableEntries_length (table : HashTable) :
    (tableEntries table).length
      = ((List.range HASHTABLE_SLOT_SIZE).map (fun i => (table.slots i).length)).sum := by
  simp only [tableEntries, List.length_flatMap]
  rfl

theorem mem_tableEntries (table : HashTable) (entry : HashTableEntry) :
    entry ∈ tableEntries table ↔ ∃ i, i < HASHTABLE_SLOT_SIZE ∧ entry ∈ table.slots i := by
  simp only [tableEntries, List.mem_flatMap, List.mem_range]

/-- The two ways of `updateHashTable` on a table as `TableOK` says: the first
entry of the chain that holds the word has its list updated, or no entry holds
the word and a new entry is put before the chain. -/
theorem updateHashTable_cases (n : Nat) (table : HashTable) (word : List Nat) (docId : Int)
    (h : TableOK n table) (hn : n + 1 < 2 ^ 31) :
    (∃ pre entry post list1,
      table.slots (HashTable.hashFunction word) = pre ++ entry :: post ∧
      (∀ x ∈ pre, strcmp x.word word ≠ 0) ∧ strcmp entry.word word = 0 ∧
      ListOK (n + 1) list1 ∧ list1.postings = countOccurrence entry.list.postings docId ∧
      updateHashTable table word docId
        = some { table with
            slots := fun i =>
              if i = HashTable.hashFunction word then pre ++ { entry with list := list1 } :: post
              else table.slots i }) ∨
    ((∀ x ∈ table.slots (HashTable.hashFunction word), strcmp x.word word ≠ 0) ∧
      updateHashTable table word docId
        = some { wordCount := table.wordCount + 1
                 slots := fun i =>
                   if i = HashTable.hashFunction word then
                     { wordLength := toInt32 (cstr word).length, word := cstr word
                       list := { nodeCount := 1, nodes := [{ docId := docId, frequency := 1 }] } }
                       :: table.slots i
                   else table.slots i }) := by
  rcases updateEntries_cases word docId (table.slots (HashTable.hashFunction word)) with
    ⟨h1, h2⟩ | ⟨pre, entry, post, h1, h2, h3, h4⟩
  · right
    refine ⟨h1, ?_⟩
    have hinc : incrementInt table.wordCount = table.wordCount + 1 := by
      have := h.count_le
      exact incrementInt_eq _ (by rw [h.count_eq]; omega) (by rw [h.count_eq]; omega)
    have hone : incrementInt 0 = 1 := by decide
    simp only [updateHashTable, h2, addHashTableEntry, addLinkedListNode, if_true, hinc, hone]
  · left
    have hmem : entry ∈ table.slots (HashTable.hashFunction word) := by rw [h1]; simp
    obtain ⟨list1, e1, e2, e3⟩ := updateLinkedList_ok n entry.list docId
      (h.lists_ok _ entry hmem) hn
    refine ⟨pre, entry, post, list1, h1, h2, h3, e2, e3, ?_⟩
    simp only [updateHashTable, h4, e1, Option.map_some']

theorem entryFrequency_eq (docId : Int) (entry : HashTableEntry) :
    entryFrequency docId entry
      = ((entry.list.postings.filter (fun p => p.1 = docId)).map (fun p => p.2)).sum := by
  simp only [entryFrequency, LinkedList.postings, List.filter_map, List.map_map]
  rfl

theorem countOccurrence_frequency (postings : List (Int × Int)) (docId d : Int) :
    (((countOccurrence postings docId).filter (fun p => p.1 = d)).map (fun p => p.2)).sum
      = ((postings.filter (fun p => p.1 = d)).map (fun p => p.2)).sum
        + (if d = docId then 1 else 0) := by
  rcases List.eq_nil_or_concat postings with h | ⟨init, last, h⟩
  · subst h
    by_cases hd : d = docId
    · subst hd; simp [countOccurrence]
    · have : ¬ docId = d := fun e => hd e.symm
      simp [countOccurrence, hd, this]
  · have hlast : postings.getLast? = some last := by rw [h]; simp
    have hdrop : postings.dropLast = init := by rw [h]; simp
    simp only [countOccurrence, hlast]
    by_cases h1 : last.1 = docId
    · rw [if_pos h1, hdrop, h]
      by_cases hd : d = docId
      · subst hd
        simp [List.filter_append, List.filter_cons, h1]
        ring
      · have : ¬ last.1 = d := fun e => hd (by rw [← e, h1])
        simp [List.filter_append, List.filter_cons, this, hd]
    · rw [if_neg h1]
      by_cases hd : d = docId
      · subst hd
        simp [List.filter_append, List.filter_cons]
      · have : ¬ docId = d := fun e => hd e.symm
        simp [List.filter_append, List.filter_cons, this, hd]

theorem docFrequency_slot (table table1 : HashTable) (s : Nat) (hs : s < HASHTABLE_SLOT_SIZE)
    (hother : ∀ i, i ≠ s → table1.slots i = table.slots i) (d delta : Int)
    (hdelta : ((table1.slots s).map (entryFrequency d)).sum
      = ((table.slots s).map (entryFrequency d)).sum + delta) :
    docFrequency table1 d = docFrequency table d + delta := by
  have := sum_range_map_update
    (fun i => ((table1.slots i).map (entryFrequency d)).sum)
    (fun i => ((table.slots i).map (entryFrequency d)).sum) HASHTABLE_SLOT_SIZE s hs
    (fun i hi => by simp only [hother i hi])
  simp only [hdelta] at this
  simp only [docFrequency]
  omega

theorem tableEntries_length_slot (table table1 : HashTable) (s : Nat)
    (hs : s < HASHTABLE_SLOT_SIZE)
    (hother : ∀ i, i ≠ s → table1.slots i = table.slots i) (k : Nat)
    (hlen : (table1.slots s).length = (table.slots s).length + k) :
    (tableEntries table1).length = (tableEntries table).length + k := by
  have := sum_range_map_update
    (fun i => (table1.slots i).length) (fun i => (table.slots i).length) HASHTABLE_SLOT_SIZE s hs
    (fun i hi => by simp only [hother i hi])
  simp only [hlen] at this
  rw [tableEntries_length, tableEntries_length]
  omega

theorem tableEntries_words_slot (table table1 : HashTable) (s : Nat)
    (hs : s < HASHTABLE_SLOT_SIZE)
    (hother : ∀ i, i ≠ s → table1.slots i = table.slots i) (w : List Nat) (P : Prop)
    (hslot : (∃ entry ∈ table1.slots s, entry.word = w)
      ↔ (∃ entry ∈ table.slots s, entry.word = w) ∨ P) :
    (∃ entry ∈ tableEntries table1, entry.word = w)
      ↔ (∃ entry ∈ tableEntries table, entry.word = w) ∨ P := by
  constructor
  · rintro ⟨entry, hmem, hw⟩
    obtain ⟨i, hi, hin⟩ := (mem_tableEntries _ _).1 hmem
    by_cases his : i = s
    · subst his
      rcases hslot.1 ⟨entry, hin, hw⟩ with ⟨e2, h2, h3⟩ | hP
      · exact Or.inl ⟨e2, (mem_tableEntries _ _).2 ⟨i, hi, h2⟩, h3⟩
      · exact Or.inr hP
    · rw [hother i his] at hin
      exact Or.inl ⟨entry, (mem_tableEntries _ _).2 ⟨i, hi, hin⟩, hw⟩
  · rintro (⟨entry, hmem, hw⟩ | hP)
    · obtain ⟨i, hi, hin⟩ := (mem_tableEntries _ _).1 hmem
      by_cases his : i = s
      · subst his
        obtain ⟨e2, h2, h3⟩ := hslot.2 (Or.inl ⟨entry, hin, hw⟩)
        exact ⟨e2, (mem_tableEntries _ _).2 ⟨i, hi, h2⟩, h3⟩
      · rw [← hother i his] at hin
        exact ⟨entry, (mem_tableEntries _ _).2 ⟨i, hi, hin⟩, hw⟩
    · obtain ⟨e2, h2, h3⟩ := hslot.2 (Or.inr hP)
      exact ⟨e2, (mem_tableEntries _ _).2 ⟨s, hs, h2⟩, h3⟩

theorem strcmp_congr_right (a b c : List Nat) (h : cstr b = cstr c) :
    strcmp a b = 0 ↔ strcmp a c = 0 := by
  rw [strcmp_eq_zero_iff, strcmp_eq_zero_iff, h]

/-! ### One call of updateHashTable -/

/-- The step of `updateHashTable` when an entry holds the word. -/
theorem updateHashTable_found (n : Nat) (table : HashTable) (word : List Nat) (docId : Int)
    (h : TableOK n table) (pre post : List HashTableEntry) (entry : HashTableEntry)
    (list1 : LinkedList)
    (hchain : table.slots (HashTable.hashFunction word) = pre ++ entry :: post)
    (hpre : ∀ x ∈ pre, strcmp x.word word ≠ 0) (hentry : strcmp entry.word word = 0)
    (hlist : ListOK (n + 1) list1)
    (hpost : list1.postings = countOccurrence entry.list.postings docId)
    (table1 : HashTable)
    (htable : table1 = { table with
      slots := fun i =>
        if i = HashTable.hashFunction word then pre ++ { entry with list := list1 } :: post
        else table.slots i }) :
    TableOK (n + 1) table1 ∧
    (∀ term, postingList table1 term
      = if cstr term = cstr word then countOccurrence (postingList table term) docId
        else postingList table term) ∧
    (∀ w, (∃ e ∈ tableEntries table1, e.word = w)
      ↔ (∃ e ∈ tableEntries table, e.word = w) ∨ w = cstr word) ∧
    (∀ d, docFrequency table1 d = docFrequency table d + if d = docId then 1 else 0) := by
  have hs := HashTable.hashFunction_lt word
  have hother : ∀ i, i ≠ HashTable.hashFunction word → table1.slots i = table.slots i := by
    intro i hi; rw [htable]; simp only [if_neg hi]
  have hslot : table1.slots (HashTable.hashFunction word)
      = pre ++ { entry with list := list1 } :: post := by
    rw [htable]; simp only [if_true]
  have hmemE : entry ∈ table.slots (HashTable.hashFunction word) := by rw [hchain]; simp
  have hwords : (table1.slots (HashTable.hashFunction word)).map (fun e => e.word)
      = (table.slots (HashTable.hashFunction word)).map (fun e => e.word) := by
    rw [hslot, hchain]; simp
  have hcases : ∀ i, ∀ x ∈ table1.slots i,
      x ∈ table.slots i ∨ (i = HashTable.hashFunction word ∧
        x = { entry with list := list1 }) := by
    intro i x hx
    by_cases hi : i = HashTable.hashFunction word
    · subst hi
      rw [hslot] at hx
      rcases List.mem_append.1 hx with e | e
      · left; rw [hchain]; exact List.mem_append_left _ e
      · rcases List.mem_cons.1 e with e | e
        · right; exact ⟨rfl, e⟩
        · left; rw [hchain]; exact List.mem_append_right _ (List.mem_cons_of_mem _ e)
    · left; rw [← hother i hi]; exact hx
  have hcstrE : cstr entry.word = cstr word := (strcmp_eq_zero_iff _ _).1 hentry
  refine ⟨⟨?_, ?_, ?_, ?_, ?_, ?_⟩, ?_, ?_, ?_⟩
  · intro i x hx
    rcases hcases i x hx with e | ⟨e1, e2⟩
    · exact h.slot_hash i x e
    · rw [e2, e1]; exact h.slot_hash _ entry hmemE
  · intro i x hx
    rcases hcases i x hx with e | ⟨e1, e2⟩
    · exact h.word_cstr i x e
    · rw [e2]; exact h.word_cstr _ entry hmemE
  · intro i
    by_cases hi : i = HashTable.hashFunction word
    · subst hi
      have := h.words_nodup (HashTable.hashFunction word)
      rw [← List.pairwise_map (f := fun e : HashTableEntry => e.word)
        (R := fun a b => a ≠ b)] at this ⊢
      rw [hwords]; exact this
    · rw [hother i hi]; exact h.words_nodup i
  · have hl := tableEntries_length_slot table table1 _ hs hother 0 (by rw [hslot, hchain]; simp)
    rw [Nat.add_zero] at hl
    rw [hl, ← h.count_eq, htable]
  · have hl := tableEntries_length_slot table table1 _ hs hother 0 (by rw [hslot, hchain]; simp)
    rw [Nat.add_zero] at hl
    rw [hl]
    exact Nat.le_succ_of_le h.count_le
  · intro i x hx
    rcases hcases i x hx with e | ⟨e1, e2⟩
    · exact (h.lists_ok i x e).mono (by omega)
    · rw [e2]; exact hlist
  · intro term
    by_cases ht : cstr term = cstr word
    · rw [if_pos ht]
      have hh := HashTable.hashFunction_of_cstr_eq term word ht
      have hp : ∀ x : HashTableEntry, decide (strcmp x.word term = 0)
          = decide (strcmp x.word word = 0) := by
        intro x; rw [decide_eq_decide]; exact strcmp_congr_right _ _ _ ht
      have hf1 : findHashTableEntry table1 term = some { entry with list := list1 } := by
        simp only [findHashTableEntry, hh, hslot, hp]
        exact find_append_of_forall_not _ pre _ post
          (fun x hx => by simpa using hpre x hx) (by simpa using hentry)
      have hf0 : findHashTableEntry table term = some entry := by
        simp only [findHashTableEntry, hh, hchain, hp]
        exact find_append_of_forall_not _ pre _ post
          (fun x hx => by simpa using hpre x hx) (by simpa using hentry)
      simp only [postingList, hf1, hf0]
      exact hpost
    · rw [if_neg ht]
      by_cases hh : HashTable.hashFunction term = HashTable.hashFunction word
      · have hne : ¬ strcmp entry.word term = 0 := by
          intro e
          exact ht (((strcmp_eq_zero_iff _ _).1 e).symm.trans hcstrE)
        have : findHashTableEntry table1 term = findHashTableEntry table term := by
          simp only [findHashTableEntry, hh, hslot, hchain]
          exact (find_replace_of_not _ pre _ _ post (by simpa using hne)
            (by simpa using hne)).symm
        simp only [postingList, this]
      · simp only [postingList, findHashTableEntry, hother _ hh]
  · intro w
    refine tableEntries_words_slot table table1 _ hs hother w (w = cstr word) ?_
    constructor
    · rintro ⟨e, he, hw⟩
      left
      have : e.word ∈ (table1.slots (HashTable.hashFunction word)).map (fun e => e.word) :=
        List.mem_map.2 ⟨e, he, rfl⟩
      rw [hwords] at this
      obtain ⟨e2, h2, h3⟩ := List.mem_map.1 this
      exact ⟨e2, h2, h3.trans hw⟩
    · rintro (⟨e, he, hw⟩ | hw)
      · have : e.word ∈ (table.slots (HashTable.hashFunction word)).map (fun e => e.word) :=
          List.mem_map.2 ⟨e, he, rfl⟩
        rw [← hwords] at this
        obtain ⟨e2, h2, h3⟩ := List.mem_map.1 this
        exact ⟨e2, h2, h3.trans hw⟩
      · refine ⟨{ entry with list := list1 }, by rw [hslot]; simp, ?_⟩
        rw [hw, ← hcstrE]
        exact ((h.word_cstr _ entry hmemE).1).symm
  · intro d
    refine docFrequency_slot table table1 _ hs hother d _ ?_
    rw [hslot, hchain]
    simp only [List.map_append, List.map_cons, List.sum_append, List.sum_cons]
    have : entryFrequency d { entry with list := list1 }
        = entryFrequency d entry + if d = docId then 1 else 0 := by
      rw [entryFrequency_eq, entryFrequency_eq]
      simp only [hpost]
      exact countOccurrence_frequency _ _ _
    rw [this]
    ring

/-- The step of `updateHashTable` when no entry holds the word. -/
theorem updateHashTable_new (n : Nat) (table : HashTable) (word : List Nat) (docId : Int)
    (h : TableOK n table) (hn : n + 1 < 2 ^ 31)
    (hchain : ∀ x ∈ table.slots (HashTable.hashFunction word), strcmp x.word word ≠ 0)
    (table1 : HashTable)
    (htable : table1 = { wordCount := table.wordCount + 1
                         slots := fun i =>
                           if i = HashTable.hashFunction word then
                             { wordLength := toInt32 (cstr word).length, word := cstr word
                               list := { nodeCount := 1
                                         nodes := [{ docId := docId, frequency := 1 }] } }
                               :: table.slots i
                           else table.slots i }) :
    TableOK (n + 1) table1 ∧
    (∀ term, postingList table1 term
      = if cstr term = cstr word then countOccurrence (postingList table term) docId
        else postingList table term) ∧
    (∀ w, (∃ e ∈ tableEntries table1, e.word = w)
      ↔ (∃ e ∈ tableEntries table, e.word = w) ∨ w = cstr word) ∧
    (∀ d, docFrequency table1 d = docFrequency table d + if d = docId then 1 else 0) := by
  have hs := HashTable.hashFunction_lt word
  have hother : ∀ i, i ≠ HashTable.hashFunction word → table1.slots i = table.slots i := by
    intro i hi; rw [htable]; simp only [if_neg hi]
  have hslot : table1.slots (HashTable.hashFunction word)
      = { wordLength := toInt32 (cstr word).length, word := cstr word
          list := { nodeCount := 1, nodes := [{ docId := docId, frequency := 1 }] } }
        :: table.slots (HashTable.hashFunction word) := by
    rw [htable]; simp only [if_true]
  have hcases : ∀ i, ∀ x ∈ table1.slots i,
      x ∈ table.slots i ∨ (i = HashTable.hashFunction word ∧
        x = { wordLength := toInt32 (cstr word).length, word := cstr word
              list := { nodeCount := 1, nodes := [{ docId := docId, frequency := 1 }] } }) := by
    intro i x hx
    by_cases hi : i = HashTable.hashFunction word
    · subst hi
      rw [hslot] at hx
      rcases List.mem_cons.1 hx with e | e
      · right; exact ⟨rfl, e⟩
      · left; exact e
    · left; rw [← hother i hi]; exact hx
  have hl := tableEntries_length_slot table table1 _ hs hother 1 (by rw [hslot]; simp)
  refine ⟨⟨?_, ?_, ?_, ?_, ?_, ?_⟩, ?_, ?_, ?_⟩
  · intro i x hx
    rcases hcases i x hx with e | ⟨e1, e2⟩
    · exact h.slot_hash i x e
    · rw [e2, e1]; exact HashTable.hashFunction_of_cstr_eq _ _ (cstr_cstr word)
  · intro i x hx
    rcases hcases i x hx with e | ⟨e1, e2⟩
    · exact h.word_cstr i x e
    · rw [e2]; exact ⟨cstr_cstr word, rfl⟩
  · intro i
    by_cases hi : i = HashTable.hashFunction word
    · subst hi
      rw [hslot, List.pairwise_cons]
      refine ⟨?_, h.words_nodup _⟩
      intro x hx e
      apply hchain x hx
      rw [strcmp_eq_zero_iff, ← e, cstr_cstr]
    · rw [hother i hi]; exact h.words_nodup i
  · rw [hl, htable]
    simp only
    rw [h.count_eq]
    push_cast
    rfl
  · rw [hl]
    exact Nat.succ_le_succ h.count_le
  · intro i x hx
    rcases hcases i x hx with e | ⟨e1, e2⟩
    · exact (h.lists_ok i x e).mono (by omega)
    · rw [e2]
      refine ⟨by simp, rfl, by simp, ?_⟩
      intro node hnode
      rw [List.mem_singleton.1 hnode]
      exact ⟨le_refl _, by push_cast; omega⟩
  · intro term
    by_cases ht : cstr term = cstr word
    · rw [if_pos ht]
      have hh := HashTable.hashFunction_of_cstr_eq term word ht
      have hp : ∀ x : HashTableEntry, decide (strcmp x.word term = 0)
          = decide (strcmp x.word word = 0) := by
        intro x; rw [decide_eq_decide]; exact strcmp_congr_right _ _ _ ht
      have hnew : strcmp (cstr word) word = 0 := by
        rw [strcmp_eq_zero_iff, cstr_cstr]
      have hf1 : findHashTableEntry table1 term
          = some { wordLength := toInt32 (cstr word).length, word := cstr word
                   list := { nodeCount := 1
                             nodes := [{ docId := docId, frequency := 1 }] } } := by
        simp only [findHashTableEntry, hh, hslot, hp, List.find?, hnew, decide_True]
      have hf0 : findHashTableEntry table term = none := by
        simp only [findHashTableEntry, hh, hp]
        rw [List.find?_eq_none]
        intro x hx
        simpa using hchain x hx
      simp only [postingList, hf1, hf0]
      rfl
    · rw [if_neg ht]
      by_cases hh : HashTable.hashFunction term = HashTable.hashFunction word
      · have hne : ¬ strcmp (cstr word) term = 0 := by
          intro e
          apply ht
          have := (strcmp_eq_zero_iff _ _).1 e
          rw [cstr_cstr] at this
          exact this.symm
        have : findHashTableEntry table1 term = findHashTableEntry table term := by
          simp only [findHashTableEntry, hh, hslot, List.find?, hne, decide_False]
        simp only [postingList, this]
      · simp only [postingList, findHashTableEntry, hother _ hh]
  · intro w
    refine tableEntries_words_slot table table1 _ hs hother w (w = cstr word) ?_
    rw [hslot]
    constructor
    · rintro ⟨e, he, hw⟩
      rcases List.mem_cons.1 he with e1 | e1
      · right; rw [← hw, e1]
      · left; exact ⟨e, e1, hw⟩
    · rintro (⟨e, he, hw⟩ | hw)
      · exact ⟨e, List.mem_cons_of_mem _ he, hw⟩
      · exact ⟨_, List.mem_cons_self _ _, hw.symm⟩
  · intro d
    refine docFrequency_slot table table1 _ hs hother d _ ?_
    rw [hslot]
    simp only [List.map_cons, List.sum_cons]
    have : entryFrequency d
        { wordLength := toInt32 (cstr word).length, word := cstr word
          list := { nodeCount := 1, nodes := [{ docId := docId, frequency := 1 }] } }
        = if d = docId then 1 else 0 := by
      by_cases hd : d = docId
      · subst hd; simp [entryFrequency]
      · have : ¬ docId = d := fun e => hd e.symm
        simp [entryFrequency, hd, this]
    rw [this]
    ring

/-- One call of `updateHashTable` on a table as `TableOK` says returns a table
as `TableOK` says; the posting list of the word follows the rule of
`countOccurrence`, the other posting lists stay, the word is among the words of
the table, and the frequencies recorded for the document grow by one. -/
theorem updateHashTable_step (n : Nat) (table : HashTable) (word : List Nat) (docId : Int)
    (h : TableOK n table) (hn : n + 1 < 2 ^ 31) :
    ∃ table1, updateHashTable table word docId = some table1 ∧ TableOK (n + 1) table1 ∧
      (∀ term, postingList table1 term
        = if cstr term = cstr word then countOccurrence (postingList table term) docId
          else postingList table term) ∧
      (∀ w, (∃ e ∈ tableEntries table1, e.word = w)
        ↔ (∃ e ∈ tableEntries table, e.word = w) ∨ w = cstr word) ∧
      (∀ d, docFrequency table1 d = docFrequency table d + if d = docId then 1 else 0) := by
  rcases updateHashTable_cases n table word docId h hn with
    ⟨pre, entry, post, list1, h1, h2, h3, h4, h5, h6⟩ | ⟨h1, h2⟩
  · exact ⟨_, h6, updateHashTable_found n table word docId h pre post entry list1 h1 h2 h3 h4 h5
      _ rfl⟩
  · exact ⟨_, h2, updateHashTable_new n table word docId h hn h1 _ rfl⟩

/-! ### Runs of documents -/

theorem mem_distinctInOrder {α : Type} [DecidableEq α] (l : List α) (a : α) :
    a ∈ distinctInOrder l ↔ a ∈ l := by
  induction l with
  | nil => simp [distinctInOrder]
  | cons b l ih =>
    simp only [distinctInOrder, List.mem_cons, List.mem_filter, ih, decide_eq_true_eq]
    constructor
    · rintro (h | ⟨h, -⟩)
      · exact Or.inl h
      · exact Or.inr h
    · rintro (h | h)
      · exact Or.inl h
      · by_cases e : a = b
        · exact Or.inl e
        · exact Or.inr ⟨h, e⟩

theorem nodup_distinctInOrder {α : Type} [DecidableEq α] (l : List α) :
    (distinctInOrder l).Nodup := by
  induction l with
  | nil => simp [distinctInOrder]
  | cons b l ih =>
    simp only [distinctInOrder, List.nodup_cons, List.mem_filter, decide_eq_true_eq]
    exact ⟨fun h => h.2 rfl, ih.filter _⟩

theorem distinctInOrder_concat {α : Type} [DecidableEq α] (l : List α) (a : α) :
    distinctInOrder (l ++ [a])
      = if a ∈ l then distinctInOrder l else distinctInOrder l ++ [a] := by
  induction l with
  | nil => simp [distinctInOrder]
  | cons b l ih =>
    rw [List.cons_append, distinctInOrder, ih]
    by_cases hab : a = b
    · subst hab
      by_cases hal : a ∈ l
      · simp [hal, distinctInOrder]
      · simp [hal, distinctInOrder, List.filter_append]
    · by_cases hal : a ∈ l
      · simp [hal, hab, distinctInOrder]
      · simp [hal, hab, distinctInOrder, List.filter_append]

theorem Contiguous.of_sublist {α : Type} {l l1 : List α} (h : Contiguous l)
    (hs : List.Sublist l1 l) : Contiguous l1 :=
  fun a b hab => h a b (hab.trans hs)

theorem Contiguous.getLast_of_mem {α : Type} [DecidableEq α] (l : List α) (a : α)
    (h : Contiguous (l ++ [a])) (ha : a ∈ l) : l.getLast? = some a := by
  rcases List.eq_nil_or_concat l with e | ⟨init, b, e⟩
  · subst e; simp at ha
  · rw [List.concat_eq_append] at e
    subst e
    have hgl : (init ++ [b]).getLast? = some b := by simp
    rw [hgl]
    rw [List.mem_append, List.mem_singleton] at ha
    rcases ha with ha | ha
    · have hsub : List.Sublist [a, b, a] (init ++ [b] ++ [a]) := by
        have h1 : List.Sublist [a] init := List.singleton_sublist.2 ha
        have := (h1.append (List.Sublist.refl [b])).append (List.Sublist.refl [a])
        simpa using this
      rw [h a b hsub]
    · rw [ha]

theorem getLast_distinctInOrder {α : Type} [DecidableEq α] (l : List α) :
    Contiguous l → (distinctInOrder l).getLast? = l.getLast? := by
  induction l using List.reverseRecOn with
  | nil => intro _; rfl
  | append_singleton l a ih =>
    intro h
    have hl : Contiguous l := h.of_sublist (List.sublist_append_left _ _)
    rw [distinctInOrder_concat]
    by_cases ha : a ∈ l
    · rw [if_pos ha, ih hl, Contiguous.getLast_of_mem l a h ha]
      simp
    · rw [if_neg ha]; simp

theorem countOccurrence_same (postings : List (Int × Int)) (a c : Int) :
    countOccurrence (postings ++ [(a, c)]) a = postings ++ [(a, c + 1)] := by
  simp [countOccurrence]

theorem countOccurrence_other (postings : List (Int × Int)) (a : Int)
    (h : ∀ q ∈ postings, q.1 ≠ a) : countOccurrence postings a = postings ++ [(a, 1)] := by
  rcases List.eq_nil_or_concat postings with e | ⟨init, last, e⟩
  · subst e; rfl
  · rw [List.concat_eq_append] at e
    subst e
    have hl : (init ++ [last]).getLast? = some last := by simp
    have hne : ¬ last.1 = a := h last (by simp)
    simp only [countOccurrence, hl, if_neg hne]

/-- The rule of `countOccurrence`, applied to a sequence of documents in which
the occurrences of one document are contiguous, gives one record for every
distinct document, in the order of first occurrence, with the number of
occurrences of the document. -/
theorem foldl_countOccurrence (ds : List Int) :
    Contiguous ds →
      ds.foldl countOccurrence [] = (distinctInOrder ds).map (fun d => (d, (ds.count d : Int))) := by
  induction ds using List.reverseRecOn with
  | nil => intro _; rfl
  | append_singleton l a ih =>
    intro h
    have hl : Contiguous l := h.of_sublist (List.sublist_append_left _ _)
    rw [List.foldl_append, ih hl, distinctInOrder_concat]
    simp only [List.foldl_cons, List.foldl_nil]
    by_cases ha : a ∈ l
    · rw [if_pos ha]
      have hlast : (distinctInOrder l).getLast? = some a := by
        rw [getLast_distinctInOrder l hl, Contiguous.getLast_of_mem l a h ha]
      obtain ⟨init, hinit⟩ : ∃ init, distinctInOrder l = init ++ [a] := by
        rcases List.eq_nil_or_concat (distinctInOrder l) with e | ⟨init, b, e⟩
        · rw [e] at hlast; simp at hlast
        · rw [List.concat_eq_append] at e
          rw [e] at hlast
          simp at hlast
          exact ⟨init, by rw [e, hlast]⟩
      have hnd := nodup_distinctInOrder l
      rw [hinit] at hnd
      have hnot : a ∉ init := by
        intro hm
        have := List.nodup_append.1 hnd
        exact this.2.2 hm (List.mem_singleton_self a)
      rw [hinit, List.map_append, List.map_append]
      simp only [List.map_cons, List.map_nil]
      rw [countOccurrence_same]
      congr 1
      · apply List.map_congr_left
        intro d hd
        have hda : d ≠ a := fun e => hnot (e ▸ hd)
        simp [List.count_append, hda]
      · simp [List.count_append]
    · rw [if_neg ha]
      rw [countOccurrence_other _ a (by
        intro q hq
        obtain ⟨d, hd, e⟩ := List.mem_map.1 hq
        rw [← e]
        intro e2
        simp only at e2
        exact ha (e2 ▸ (mem_distinctInOrder l d).1 hd))]
      rw [List.map_append]
      simp only [List.map_cons, List.map_nil]
      congr 1
      · apply List.map_congr_left
        intro d hd
        have hda : d ≠ a := fun e => ha (e ▸ (mem_distinctInOrder l d).1 hd)
        simp [List.count_append, hda]
      · simp [List.count_append, List.count_eq_zero_of_not_mem ha]

/-! ### The posting lists of the segment table -/

theorem updateHashTableAll_append (first second : List (Int × List Nat)) :
    ∀ table, updateHashTableAll table (first ++ second)
      = (updateHashTableAll table first).bind (fun table1 => updateHashTableAll table1 second) := by
  induction first with
  | nil => intro table; rfl
  | cons occ rest ih =>
    intro table
    simp only [List.cons_append, updateHashTableAll]
    cases updateHashTable table occ.2 occ.1 with
    | none => rfl
    | some table1 => exact ih table1

theorem tableEntries_create : tableEntries createHashTable = [] := by
  rw [List.eq_nil_iff_forall_not_mem]
  intro entry hmem
  obtain ⟨i, -, hin⟩ := (mem_tableEntries _ _).1 hmem
  simp [createHashTable] at hin

theorem TableOK_create : TableOK 0 createHashTable := by
  refine ⟨?_, ?_, ?_, ?_, ?_, ?_⟩
  · intro i entry h; simp [createHashTable] at h
  · intro i entry h; simp [createHashTable] at h
  · intro i; simp [createHashTable]
  · rw [tableEntries_create]; rfl
  · rw [tableEntries_create]; exact Nat.le_refl _
  · intro i entry h; simp [createHashTable] at h

theorem docFrequency_create (d : Int) : docFrequency createHashTable d = 0 := by
  simp only [docFrequency, createHashTable, List.map_nil, List.sum_nil]
  apply List.sum_eq_zero
  intro x hx
  obtain ⟨i, -, e⟩ := List.mem_map.1 hx
  exact e.symm

/-- The table after the calls of `updateHashTable` for a sequence of fewer than
`2^31` occurrences, from the table of `createHashTable`. -/
theorem updateHashTableAll_reached (occurrences : List (Int × List Nat)) :
    occurrences.length < 2 ^ 31 →
    ∃ table, updateHashTableAll createHashTable occurrences = some table ∧
      TableOK occurrences.length table ∧
      (∀ term, postingList table term
        = (occurrenceDocIds occurrences term).foldl countOccurrence []) ∧
      (∀ w, (∃ e ∈ tableEntries table, e.word = w) ↔ ∃ occ ∈ occurrences, cstr occ.2 = w) ∧
      (∀ d, docFrequency table d = ((occurrences.filter (fun o => o.1 = d)).length : Int)) := by
  induction occurrences using List.reverseRecOn with
  | nil =>
    intro _
    refine ⟨createHashTable, rfl, TableOK_create, ?_, ?_, ?_⟩
    · intro term; rfl
    · intro w
      rw [tableEntries_create]
      simp
    · intro d; rw [docFrequency_create]; rfl
  | append_singleton occs occ ih =>
    intro hlen
    rw [List.length_append, List.length_singleton] at hlen
    obtain ⟨table, h1, h2, h3, h4, h5⟩ := ih (by omega)
    obtain ⟨table1, g1, g2, g3, g4, g5⟩ := updateHashTable_step occs.length table occ.2 occ.1 h2 hlen
    refine ⟨table1, ?_, ?_, ?_, ?_, ?_⟩
    · rw [updateHashTableAll_append, h1]
      simp only [Option.bind, updateHashTableAll, g1]
    · rw [List.length_append, List.length_singleton]; exact g2
    · intro term
      rw [g3 term, h3 term]
      simp only [occurrenceDocIds, List.filter_append, List.map_append, List.foldl_append,
        List.filter_cons, List.filter_nil]
      by_cases ht : cstr term = cstr occ.2
      · have : cstr occ.2 = cstr term := ht.symm
        simp only [if_pos ht, this, decide_True, if_true, List.map_cons, List.map_nil,
          List.foldl_cons, List.foldl_nil]
      · have : ¬ cstr occ.2 = cstr term := fun e => ht e.symm
        simp only [if_neg ht, this, decide_False, List.map_nil, List.foldl_nil]
        rfl
    · intro w
      rw [g4 w, h4 w]
      simp only [List.mem_append, List.mem_singleton]
      constructor
      · rintro (⟨o, ho, hw⟩ | hw)
        · exact ⟨o, Or.inl ho, hw⟩
        · exact ⟨occ, Or.inr rfl, hw.symm⟩
      · rintro ⟨o, ho | ho, hw⟩
        · exact Or.inl ⟨o, ho, hw⟩
        · right; rw [← hw, ho]
    · intro d
      rw [g5 d, h5 d]
      simp only [List.filter_append, List.length_append, List.filter_cons, List.filter_nil]
      by_cases hd : d = occ.1
      · have : occ.1 = d := hd.symm
        simp only [if_pos hd, this, decide_True, if_true, List.length_cons, List.length_nil]
        push_cast
        rfl
      · have : ¬ occ.1 = d := fun e => hd e.symm
        simp only [if_neg hd, this, decide_False, List.length_nil, Bool.false_eq_true,
          if_false, Nat.cast_zero, add_zero]

theorem contiguous_of_positions {α : Type} (l : List α)
    (h : ∀ k, k < l.length → ∀ j, j < k → ∀ i, i < j → l[i]? = l[k]? → l[j]? = l[i]?) :
    Contiguous l := by
  intro a b hsub
  obtain ⟨f, hf⟩ := List.sublist_iff_exists_orderEmbedding_get?_eq.1 hsub
  have h0 := hf 0
  have h1 := hf 1
  have h2 := hf 2
  simp only [List.get?_eq_getElem?] at h0 h1 h2
  have e0 : l[f 0]? = some a := by rw [← h0]; rfl
  have e1 : l[f 1]? = some b := by rw [← h1]; rfl
  have e2 : l[f 2]? = some a := by rw [← h2]; rfl
  have l01 : f 0 < f 1 := f.lt_iff_lt.2 (by norm_num)
  have l12 : f 1 < f 2 := f.lt_iff_lt.2 (by norm_num)
  have hk : f 2 < l.length := by
    by_contra hc
    rw [List.getElem?_eq_none (by omega)] at e2
    exact absurd e2 (by simp)
  have := h (f 2) hk (f 1) l12 (f 0) l01 (by rw [e0, e2])
  rw [e1, e0] at this
  exact Option.some.inj this

/-- C21: for every sequence of occurrences `(docId, term)` in which the
occurrences of one docId are contiguous (of fewer than `2^31` occurrences, the
range of the `int` counters), the calls of `updateHashTable` for the occurrences
in order return a table in which the posting list of every term has exactly one
record for every distinct docId that contains the term, in the order of first
appearance, with the number of occurrences of the term in that document as its
frequency. -/
theorem updateHashTable_posting_lists (occurrences : List (Int × List Nat))
    (hlen : occurrences.length < 2 ^ 31)
    (hcontig : ∀ k, k < occurrences.length → ∀ j, j < k → ∀ i, i < j →
      (occurrences.map Prod.fst)[i]? = (occurrences.map Prod.fst)[k]? →
      (occurrences.map Prod.fst)[j]? = (occurrences.map Prod.fst)[i]?) :
    ∃ table, updateHashTableAll createHashTable occurrences = some table ∧
      ∀ term, postingList table term
        = (distinctInOrder (occurrenceDocIds occurrences term)).map
            (fun d => (d, ((occurrenceDocIds occurrences term).count d : Int))) := by
  obtain ⟨table, h1, -, h3, -, -⟩ := updateHashTableAll_reached occurrences hlen
  refine ⟨table, h1, ?_⟩
  intro term
  rw [h3 term]
  apply foldl_countOccurrence
  have hall : Contiguous (occurrences.map Prod.fst) :=
    contiguous_of_positions _ (by rw [List.length_map]; exact hcontig)
  exact hall.of_sublist ((List.filter_sublist _).map _)

theorem updateHashTable_posting_lists_witness :
    sampleOccurrences.length < 2 ^ 31 ∧
    (∀ k, k < sampleOccurrences.length → ∀ j, j < k → ∀ i, i < j →
      (sampleOccurrences.map Prod.fst)[i]? = (sampleOccurrences.map Prod.fst)[k]? →
      (sampleOccurrences.map Prod.fst)[j]? = (sampleOccurrences.map Prod.fst)[i]?) ∧
    ∃ table, updateHashTableAll createHashTable sampleOccurrences = some table ∧
      ∀ term, postingList table term
        = (distinctInOrder (occurrenceDocIds sampleOccurrences term)).map
            (fun d => (d, ((occurrenceDocIds sampleOccurrences term).count d : Int))) :=
  ⟨by decide, by decide,
    updateHashTable_posting_lists sampleOccurrences (by decide) (by decide)⟩

/-! ### The intermediate file of a segment -/

theorem int32ToBytes_toInt32 (n : Nat) : int32ToBytes (toInt32 n) = int32ToBytes (n : Int) := by
  have h : (toInt32 n % 2 ^ 32).toNat = ((n : Int) % 2 ^ 32).toNat := by
    simp only [toInt32]
    split <;> omega
  simp only [int32ToBytes, h]

theorem writeEntry_eq (entry : HashTableEntry) (h1 : cstr entry.word = entry.word)
    (h2 : entry.wordLength = toInt32 entry.word.length) :
    writeEntry entry = encodeParsedItem (entryItem entry) := by
  simp only [writeEntry, encodeParsedItem, entryItem, h1, h2, int32ToBytes_toInt32]

theorem collected_words (table : HashTable) :
    (List.range HASHTABLE_SLOT_SIZE).flatMap
      (fun slotIndex => (table.slots slotIndex).map (fun currentEntry => currentEntry.word))
      = (tableEntries table).map (fun entry => entry.word) := by
  simp only [tableEntries, List.map_flatMap]

theorem TableOK.words_nodup_all {n : Nat} {table : HashTable} (h : TableOK n table) :
    ((tableEntries table).map (fun entry => entry.word)).Nodup := by
  rw [← collected_words, List.nodup_flatMap]
  refine ⟨?_, ?_⟩
  · intro i _
    have := h.words_nodup i
    rw [← List.pairwise_map (f := fun e : HashTableEntry => e.word)
      (R := fun a b => a ≠ b)] at this
    exact this
  · apply (List.nodup_range _).pairwise_of_forall_ne
    intro i _ j _ hij
    intro x hx1 hx2
    obtain ⟨e1, m1, w1⟩ := List.mem_map.1 hx1
    obtain ⟨e2, m2, w2⟩ := List.mem_map.1 hx2
    apply hij
    rw [← h.slot_hash i e1 m1, ← h.slot_hash j e2 m2]
    rw [w1, w2]

theorem TableOK.find_of_mem {n : Nat} {table : HashTable} (h : TableOK n table)
    (entry : HashTableEntry) (hmem : entry ∈ tableEntries table) :
    ∃ e, findHashTableEntry table entry.word = some e ∧ e.word = entry.word ∧
      e ∈ tableEntries table := by
  obtain ⟨i, hi, hin⟩ := (mem_tableEntries _ _).1 hmem
  have hslot := h.slot_hash i entry hin
  have hself : strcmp entry.word entry.word = 0 := (strcmp_eq_zero_iff _ _).2 rfl
  cases hf : findHashTableEntry table entry.word with
  | none =>
    simp only [findHashTableEntry, hslot] at hf
    rw [List.find?_eq_none] at hf
    exact absurd (by simpa using hself) (hf entry hin)
  | some e =>
    refine ⟨e, rfl, ?_, ?_⟩
    · simp only [findHashTableEntry, hslot] at hf
      have hp := List.find?_some hf
      have hm := List.mem_of_find?_eq_some hf
      have := (strcmp_eq_zero_iff _ _).1 (by simpa using hp)
      rw [(h.word_cstr i e hm).1, (h.word_cstr i entry hin).1] at this
      exact this
    · simp only [findHashTableEntry, hslot] at hf
      exact (mem_tableEntries _ _).2 ⟨i, hi, List.mem_of_find?_eq_some hf⟩

theorem writeWord_all (table : HashTable) (n : Nat) (h : TableOK n table) (ws : List (List Nat)) :
    (∀ w ∈ ws, ∃ entry ∈ tableEntries table, entry.word = w) →
    ∃ records : List ParsedItem,
      ws.flatMap (writeWord table) = encodeParsedItems records ∧
      records.map (fun r => r.word) = ws ∧
      ∀ r ∈ records, ∃ e, findHashTableEntry table r.word = some e ∧ r = entryItem e := by
  induction ws with
  | nil => intro _; exact ⟨[], rfl, rfl, by simp⟩
  | cons w rest ih =>
    intro hall
    obtain ⟨records, r1, r2, r3⟩ := ih (fun x hx => hall x (List.mem_cons_of_mem _ hx))
    obtain ⟨entry, hmem, hw⟩ := hall w (List.mem_cons_self _ _)
    obtain ⟨e, hf, he, hem⟩ := h.find_of_mem entry hmem
    rw [hw] at hf he
    obtain ⟨i, -, hin⟩ := (mem_tableEntries _ _).1 hem
    have hwc := h.word_cstr i e hin
    refine ⟨entryItem e :: records, ?_, ?_, ?_⟩
    · simp only [List.flatMap_cons, encodeParsedItems, r1, writeWord, hf]
      rw [writeEntry_eq e hwc.1 hwc.2]
    · simp only [List.map_cons, r2, entryItem, he]
    · intro r hr
      rcases List.mem_cons.1 hr with e1 | e1
      · rw [e1]
        refine ⟨e, ?_, rfl⟩
        simp only [entryItem, he]
        exact hf
      · exact r3 r e1

theorem compare_le_iff (a b : List Nat) : HashTable.compare a b ≤ 0 ↔ cstr a ≤ cstr b := by
  rw [HashTable.compare, le_iff_lt_or_eq, le_iff_lt_or_eq, strcmp_lt_iff, strcmp_eq_zero_iff]
  exact Iff.rfl

/-- The array of `qsortWords` holds the words it was given and is in the order
of the strings. -/
theorem qsortWords_sorted (words : List (List Nat)) :
    (qsortWords words).Perm words ∧
      (qsortWords words).Pairwise (fun a b => cstr a ≤ cstr b) := by
  refine ⟨List.perm_insertionSort _ _, ?_⟩
  haveI : IsTotal (List Nat) (fun a b => HashTable.compare a b ≤ 0) :=
    ⟨fun a b => by
      simp only [compare_le_iff]
      exact le_total _ _⟩
  haveI : IsTrans (List Nat) (fun a b => HashTable.compare a b ≤ 0) :=
    ⟨fun a b c hab hbc => by
      simp only [compare_le_iff] at hab hbc ⊢
      exact le_trans hab hbc⟩
  have := List.sorted_insertionSort (fun a b : List Nat => HashTable.compare a b ≤ 0) words
  exact List.Pairwise.imp (fun {a b} hab => (compare_le_iff a b).1 hab) this

/-- The file `writeHashTableToDisk` writes for a table as `TableOK` says: the
records of the entries of the table, one for every word, in the strict order of
the words. -/
theorem writeHashTableToDisk_of_ok (n : Nat) (table : HashTable) (h : TableOK n table) :
    ∃ records : List ParsedItem,
      writeHashTableToDisk table = some (encodeParsedItems records) ∧
      records.Pairwise (fun a b => List.Lex (fun x y => x < y) (cstr a.word) (cstr b.word)) ∧
      (∀ w, w ∈ records.map (fun r => r.word) ↔ ∃ e ∈ tableEntries table, e.word = w) ∧
      ∀ r ∈ records, ∃ e, findHashTableEntry table r.word = some e ∧ r = entryItem e := by
  obtain ⟨hperm, hsorted⟩ := qsortWords_sorted ((tableEntries table).map (fun entry => entry.word))
  have hlen : (qsortWords ((tableEntries table).map (fun entry => entry.word))).length
      = (tableEntries table).length := by
    rw [hperm.length_eq, List.length_map]
  have hmemw : ∀ w, w ∈ qsortWords ((tableEntries table).map (fun entry => entry.word))
      ↔ ∃ e ∈ tableEntries table, e.word = w := by
    intro w
    rw [hperm.mem_iff, List.mem_map]
  obtain ⟨records, r1, r2, r3⟩ := writeWord_all table n h _ (fun w hw => (hmemw w).1 hw)
  refine ⟨records, ?_, ?_, ?_, r3⟩
  · have hc : ((tableEntries table).length : Int) ≤ table.wordCount := by rw [h.count_eq]
    have hc2 : table.wordCount ≤ ((tableEntries table).length : Int) := by rw [h.count_eq]
    have htake : (qsortWords ((tableEntries table).map (fun entry => entry.word))).take
        table.wordCount.toNat
        = qsortWords ((tableEntries table).map (fun entry => entry.word)) := by
      apply List.take_of_length_le
      rw [hlen, h.count_eq]
      simp
    simp only [writeHashTableToDisk, getSortedWordsFromHashTable, collected_words,
      List.length_map, if_pos hc, hlen, if_pos hc2, htake, r1]
  · have hnd : (qsortWords ((tableEntries table).map (fun entry => entry.word))).Nodup :=
      hperm.symm.nodup h.words_nodup_all
    have hstrict := (hsorted.and hnd).imp_of_mem (S := fun a b => cstr a < cstr b)
      (by
        intro a b ha hb hab
        obtain ⟨ea, hea, hwa⟩ := (hmemw a).1 ha
        obtain ⟨eb, heb, hwb⟩ := (hmemw b).1 hb
        obtain ⟨i, -, hi⟩ := (mem_tableEntries _ _).1 hea
        obtain ⟨j, -, hj⟩ := (mem_tableEntries _ _).1 heb
        have ca := (h.word_cstr i ea hi).1
        have cb := (h.word_cstr j eb hj).1
        rw [hwa] at ca
        rw [hwb] at cb
        refine lt_of_le_of_ne hab.1 ?_
        rw [ca, cb]
        exact hab.2)
    rw [← r2, List.pairwise_map] at hstrict
    exact hstrict
  · intro w
    rw [r2]
    exact hmemw w

/-- C23: the file `writeHashTableToDisk` writes for the segment table of a
sequence of occurrences (of fewer than `2^31` occurrences, the range of the
`int` counters) is the sequence of the records of the table; there is exactly
one record for every distinct term among the occurrences, and the records are in
strictly ascending byte order of the terms, whatever the order of the
occurrences. -/
theorem writeHashTableToDisk_sorted (occurrences : List (Int × List Nat))
    (hlen : occurrences.length < 2 ^ 31) :
    ∃ (table : HashTable) (records : List ParsedItem),
      updateHashTableAll createHashTable occurrences = some table ∧
      writeHashTableToDisk table = some (encodeParsedItems records) ∧
      records.Pairwise (fun a b => List.Lex (fun x y => x < y) (cstr a.word) (cstr b.word)) ∧
      (records.map (fun r => r.word)).Nodup ∧
      (∀ w, w ∈ records.map (fun r => r.word) ↔ ∃ occ ∈ occurrences, cstr occ.2 = w) ∧
      ∀ r ∈ records, ∃ e, findHashTableEntry table r.word = some e ∧ r = entryItem e := by
  obtain ⟨table, h1, h2, -, h4, -⟩ := updateHashTableAll_reached occurrences hlen
  obtain ⟨records, r1, r2, r3, r4⟩ := writeHashTableToDisk_of_ok _ table h2
  refine ⟨table, records, h1, r1, r2, ?_, ?_, r4⟩
  · rw [List.Nodup, List.pairwise_map]
    refine r2.imp ?_
    intro a b hab e
    rw [e] at hab
    exact lt_irrefl (cstr b.word) hab
  · intro w
    rw [r3 w, h4 w]

theorem writeHashTableToDisk_sorted_witness :
    sampleOccurrences.length < 2 ^ 31 ∧
    ∃ (table : HashTable) (records : List ParsedItem),
      updateHashTableAll createHashTable sampleOccurrences = some table ∧
      writeHashTableToDisk table = some (encodeParsedItems records) ∧
      records.Pairwise (fun a b => List.Lex (fun x y => x < y) (cstr a.word) (cstr b.word)) ∧
      (records.map (fun r => r.word)).Nodup ∧
      (∀ w, w ∈ records.map (fun r => r.word) ↔ ∃ occ ∈ sampleOccurrences, cstr occ.2 = w) ∧
      ∀ r ∈ records, ∃ e, findHashTableEntry table r.word = some e ∧ r = entryItem e :=
  ⟨by decide, writeHashTableToDisk_sorted sampleOccurrences (by decide)⟩

/-! ### Records read back by the merge -/

/-- C24: for every record in the layout `writeHashTableToDisk` writes (the
length of the word, the bytes of the word, the number of postings, the docIDs,
the frequencies), `convertBinaryToParsedItem` on a buffer that starts with the
record returns an item with the same word, posting count, docIDs and
frequencies; the buffer position advances and the remaining size shrinks by
exactly `8 + wordLength + 8 * postingCount` bytes. -/
theorem convertBinaryToParsedItem_record (item : ParsedItem) (hwf : RecordWF item)
    (rest : List Nat) :
    convertBinaryToParsedItem (encodeParsedItem item ++ rest)
      = some (some item,
          (encodeParsedItem item ++ rest).drop
            (8 + item.word.length + 8 * item.postingCount.toNat)) ∧
    ((encodeParsedItem item ++ rest).drop
        (8 + item.word.length + 8 * item.postingCount.toNat)).length
      + (8 + item.word.length + 8 * item.postingCount.toNat)
      = (encodeParsedItem item ++ rest).length := by
  have hlen := encodeParsedItem_length item hwf
  have hpc : item.postingCount.toNat = item.docIds.length := by
    rw [hwf.count_eq]; rfl
  have hdrop : (encodeParsedItem item ++ rest).drop
      (8 + item.word.length + 8 * item.postingCount.toNat) = rest := by
    apply List.drop_left'
    rw [hlen, hpc]; omega
  rw [hdrop]
  refine ⟨convertBinaryToParsedItem_full item hwf rest, ?_⟩
  rw [List.length_append, hlen, hpc]
  omega

theorem convertBinaryToParsedItem_record_witness :
    RecordWF recordA ∧
    convertBinaryToParsedItem (encodeParsedItem recordA ++ [7, 7])
      = some (some recordA,
          (encodeParsedItem recordA ++ [7, 7]).drop
            (8 + recordA.word.length + 8 * recordA.postingCount.toNat)) ∧
    ((encodeParsedItem recordA ++ [7, 7]).drop
        (8 + recordA.word.length + 8 * recordA.postingCount.toNat)).length
      + (8 + recordA.word.length + 8 * recordA.postingCount.toNat)
      = (encodeParsedItem recordA ++ [7, 7]).length :=
  ⟨by decide, convertBinaryToParsedItem_record recordA (by decide) [7, 7]⟩

/-- C25: when the remaining buffer holds fewer bytes than the next record needs
(for its length field, its word, its posting count or its two arrays of
postings), `convertBinaryToParsedItem` returns `NULL` and leaves the buffer
position and the remaining size as they were. -/
theorem convertBinaryToParsedItem_short (item : ParsedItem) (hwf : RecordWF item)
    (rest : List Nat) (size : Nat) (hsize : size < 8 + item.word.length + 8 * item.docIds.length) :
    convertBinaryToParsedItem ((encodeParsedItem item ++ rest).take size)
      = some (none, (encodeParsedItem item ++ rest).take size) ∧
    ((encodeParsedItem item ++ rest).take size).length = size := by
  have hlen := encodeParsedItem_length item hwf
  have hnull := convertBinaryToParsedItem_partial item hwf rest size (by rw [hlen]; omega)
  refine ⟨hnull, ?_⟩
  rw [List.length_take, List.length_append, hlen]
  omega

theorem convertBinaryToParsedItem_short_witness :
    RecordWF recordA ∧ 10 < 8 + recordA.word.length + 8 * recordA.docIds.length ∧
    convertBinaryToParsedItem ((encodeParsedItem recordA ++ [7, 7]).take 10)
      = some (none, (encodeParsedItem recordA ++ [7, 7]).take 10) ∧
    ((encodeParsedItem recordA ++ [7, 7]).take 10).length = 10 :=
  ⟨by decide, by decide, convertBinaryToParsedItem_short recordA (by decide) [7, 7] 10 (by decide)⟩

/-! ### The words of a query -/

theorem modifyHead_append_nil (l : List (List Nat)) :
    l.modifyHead (fun x => ([] : List Nat) ++ x) = l := by
  cases l <;> simp [List.modifyHead]

theorem strtokLoop_eq (s : List Nat) :
    ∀ token, strtokLoop [32, 9, 10] token (s.map (fun c => if isalnum c = true then c else 32))
      = (((s.splitOnP (fun c => !isalnum c)).modifyHead (fun x => token ++ x)).filter
          (fun run => run ≠ [])) := by
  induction s with
  | nil =>
    intro token
    by_cases h : token = []
    · simp [strtokLoop, List.splitOnP_nil, List.modifyHead, h]
    · simp [strtokLoop, List.splitOnP_nil, List.modifyHead, h]
  | cons c rest ih =>
    intro token
    rw [List.splitOnP_cons]
    by_cases hc : isalnum c = true
    · have hnd : c ∉ [32, 9, 10] := by
        intro hm
        simp only [List.mem_cons, List.mem_singleton, List.not_mem_nil, or_false] at hm
        rcases hm with e | e | e <;> (subst e; revert hc; decide)
      simp only [List.map_cons, hc, if_true, strtokLoop, if_neg hnd, Bool.not_true,
        Bool.false_eq_true, if_false]
      rw [ih (token ++ [c]), List.modifyHead_modifyHead]
      congr 2
      funext x
      simp
    · have hc2 : isalnum c = false := by simpa using hc
      have hd : (32 : Nat) ∈ [32, 9, 10] := by simp
      simp only [List.map_cons, hc2, Bool.false_eq_true, if_false, strtokLoop, if_pos hd,
        Bool.not_false, if_true, List.modifyHead, List.append_nil]
      rw [ih [], modifyHead_append_nil]
      by_cases h : token = []
      · simp [h]
      · simp [h]

theorem strtokLoop_alnumRuns (s : List Nat) :
    strtokLoop [32, 9, 10] [] (s.map (fun c => if isalnum c = true then c else 32))
      = alnumRuns s := by
  rw [strtokLoop_eq, modifyHead_append_nil, alnumRuns]

theorem mem_splitOnP_not (p : Nat → Bool) (s : List Nat) :
    ∀ run ∈ s.splitOnP p, ∀ c ∈ run, p c = false := by
  induction s with
  | nil =>
    intro run hrun c hc
    rw [List.splitOnP_nil, List.mem_singleton] at hrun
    rw [hrun] at hc
    simp at hc
  | cons a rest ih =>
    intro run hrun c hc
    rw [List.splitOnP_cons] at hrun
    by_cases ha : p a = true
    · rw [if_pos ha] at hrun
      rcases List.mem_cons.1 hrun with e | e
      · rw [e] at hc; simp at hc
      · exact ih run e c hc
    · rw [if_neg ha] at hrun
      cases hsp : rest.splitOnP p with
      | nil => exact absurd hsp (List.splitOnP_ne_nil p rest)
      | cons h t =>
        rw [hsp] at hrun ih
        simp only [List.modifyHead] at hrun
        rcases List.mem_cons.1 hrun with e | e
        · rw [e] at hc
          rcases List.mem_cons.1 hc with e1 | e1
          · rw [e1]; simpa using ha
          · exact ih h (List.mem_cons_self _ _) c e1
        · exact ih run (List.mem_cons_of_mem _ e) c hc

theorem cstr_eq_self (word : List Nat) (h : ∀ c ∈ word, c ≠ 0) : cstr word = word := by
  induction word with
  | nil => rfl
  | cons a rest ih =>
    rw [cstr_cons_ne a rest (h a (List.mem_cons_self _ _)),
      ih (fun c hc => h c (List.mem_cons_of_mem _ hc))]

/-- The runs of `alnumRuns` hold alphanumeric bytes only, and no zero byte. -/
theorem mem_alnumRuns (s : List Nat) (run : List Nat) (hrun : run ∈ alnumRuns s) :
    run ≠ [] ∧ (∀ c ∈ run, isalnum c = true) ∧ cstr run = run := by
  simp only [alnumRuns, List.mem_filter, decide_eq_true_eq] at hrun
  have hal : ∀ c ∈ run, isalnum c = true := by
    intro c hc
    have := mem_splitOnP_not _ s run hrun.1 c hc
    simpa using this
  refine ⟨hrun.2, hal, cstr_eq_self run ?_⟩
  intro c hc e
  have := hal c hc
  rw [e] at this
  exact absurd this (by decide)

theorem dedupTokens_eq (tokens : List (List Nat)) :
    ∀ tempWords : List (List Nat),
      (∀ w ∈ tempWords, cstr w = w) → (∀ w ∈ tokens, cstr w = w) →
      dedupTokens tempWords tokens
        = tempWords ++ (distinctInOrder tokens).filter (fun w => w ∉ tempWords) := by
  induction tokens with
  | nil => intro tempWords _ _; simp [dedupTokens, distinctInOrder]
  | cons token rest ih =>
    intro tempWords h1 h2
    have ht := h2 token (List.mem_cons_self _ _)
    have hrest : ∀ w ∈ rest, cstr w = w := fun w hw => h2 w (List.mem_cons_of_mem _ hw)
    have hany : (tempWords.any (fun word => decide (strcmp word token = 0))) = true
        ↔ token ∈ tempWords := by
      rw [List.any_eq_true]
      constructor
      · rintro ⟨w, hw, hs⟩
        have := (strcmp_eq_zero_iff _ _).1 (by simpa using hs)
        rw [h1 w hw, ht] at this
        rw [← this]; exact hw
      · intro hm
        exact ⟨token, hm, by simpa using (strcmp_eq_zero_iff token token).2 rfl⟩
    by_cases hm : token ∈ tempWords
    · rw [dedupTokens, if_pos (hany.2 hm), ih tempWords h1 hrest]
      congr 1
      simp only [distinctInOrder, List.filter_cons, hm, not_true_eq_false, decide_False,
        Bool.false_eq_true, if_false, List.filter_filter]
      apply List.filter_congr
      intro w _
      by_cases hw : w ∈ tempWords
      · simp [hw]
      · have : w ≠ token := fun e => hw (e ▸ hm)
        simp [hw, this]
    · have hany2 : ¬ (tempWords.any (fun word => decide (strcmp word token = 0))) = true :=
        fun e => hm (hany.1 e)
      rw [dedupTokens, if_neg hany2, ih (tempWords ++ [token]) (by
        intro w hw
        rcases List.mem_append.1 hw with e | e
        · exact h1 w e
        · rw [List.mem_singleton.1 e]; exact ht) hrest]
      simp only [distinctInOrder, List.filter_cons, hm, not_false_eq_true, decide_True, if_true,
        List.filter_filter, List.append_assoc, List.singleton_append]
      congr 2
      apply List.filter_congr
      intro w _
      by_cases hw : w ∈ tempWords
      · simp [hw]
      · by_cases hwt : w = token
        · simp [hwt, hm]
        · simp [hw, hwt]

theorem toInt32_of_lt (n : Nat) (h : n < 2 ^ 31) : toInt32 n = (n : Int) := by
  have hmod : n % 2 ^ 32 = n := Nat.mod_eq_of_lt (by omega)
  simp only [toInt32, hmod]
  rw [if_neg (by omega)]

theorem sum_length_splitOnP (p : Nat → Bool) (s : List Nat) :
    ((s.splitOnP p).map List.length).sum ≤ s.length := by
  induction s with
  | nil => simp [List.splitOnP_nil]
  | cons a rest ih =>
    rw [List.splitOnP_cons]
    by_cases ha : p a = true
    · rw [if_pos ha]
      simp only [List.map_cons, List.length_nil, List.sum_cons, List.length_cons]
      omega
    · rw [if_neg ha]
      cases hsp : rest.splitOnP p with
      | nil => exact absurd hsp (List.splitOnP_ne_nil p rest)
      | cons h t =>
        rw [hsp] at ih
        simp only [List.modifyHead, List.map_cons, List.length_cons, List.sum_cons] at ih ⊢
        omega

theorem length_filter_ne_nil (pieces : List (List Nat)) :
    (pieces.filter (fun run => run ≠ [])).length ≤ (pieces.map List.length).sum := by
  induction pieces with
  | nil => simp
  | cons a rest ih =>
    cases a with
    | nil => simpa using ih
    | cons x xs =>
      have hd : decide ((x :: xs) ≠ []) = true := by simp
      rw [List.filter_cons, if_pos hd]
      simp only [List.length_cons, List.map_cons, List.sum_cons]
      omega

theorem length_alnumRuns (s : List Nat) : (alnumRuns s).length ≤ s.length :=
  le_trans (length_filter_ne_nil _) (sum_length_splitOnP _ s)

theorem length_distinctInOrder {α : Type} [DecidableEq α] (l : List α) :
    (distinctInOrder l).length ≤ l.length := by
  induction l with
  | nil => simp [distinctInOrder]
  | cons a l ih =>
    simp only [distinctInOrder, List.length_cons]
    have := List.length_filter_le (fun b => decide (b ≠ a)) (distinctInOrder l)
    omega

theorem length_cstr_le (word : List Nat) : (cstr word).length ≤ word.length := by
  simp only [cstr]
  exact (List.takeWhile_sublist _).length_le

/-- The words `splitIntoWords` returns are the maximal alphanumeric runs of the
string, without the later occurrences of a run. -/
theorem splitIntoWords_words (input : List Nat) :
    (splitIntoWords input).1 = distinctInOrder (alnumRuns (cstr input)) := by
  simp only [splitIntoWords, strtokLoop_alnumRuns]
  rw [dedupTokens_eq _ [] (by simp) (fun w hw => (mem_alnumRuns _ w hw).2.2)]
  simp

/-- C27: for every query string (of fewer than `2^31` bytes, the range of the
`int` counters), `splitIntoWords` returns the maximal alphanumeric runs of the
string with duplicates removed, in the order of first occurrence, and sets
`wordCount` to the number of distinct runs. -/
theorem splitIntoWords_runs (input : List Nat) (hlen : input.length < 2 ^ 31) :
    (splitIntoWords input).1 = distinctInOrder (alnumRuns (cstr input)) ∧
    (splitIntoWords input).2 = ((distinctInOrder (alnumRuns (cstr input))).length : Int) := by
  have hwords := splitIntoWords_words input
  refine ⟨hwords, ?_⟩
  have h2 : (splitIntoWords input).2 = toInt32 (splitIntoWords input).1.length := rfl
  rw [h2, hwords]
  apply toInt32_of_lt
  have h3 := length_distinctInOrder (alnumRuns (cstr input))
  have h4 := length_alnumRuns (cstr input)
  have h5 := length_cstr_le input
  omega

theorem splitIntoWords_runs_witness :
    [104, 105, 44, 32, 104, 105, 33, 9, 97, 49].length < 2 ^ 31 ∧
    (splitIntoWords [104, 105, 44, 32, 104, 105, 33, 9, 97, 49]).1
      = distinctInOrder (alnumRuns (cstr [104, 105, 44, 32, 104, 105, 33, 9, 97, 49])) ∧
    (splitIntoWords [104, 105, 44, 32, 104, 105, 33, 9, 97, 49]).2
      = ((distinctInOrder (alnumRuns
          (cstr [104, 105, 44, 32, 104, 105, 33, 9, 97, 49]))).length : Int) :=
  ⟨by decide, splitIntoWords_runs [104, 105, 44, 32, 104, 105, 33, 9, 97, 49] (by decide)⟩

/-! ### Lookups in the lexicon table -/

theorem hashFunction_congr (a b : List Nat) (h : cstr a = cstr b) :
    hashFunction a = hashFunction b := by
  simp only [hashFunction, hashLoop_congr a b h]

/-- The lookup of a word after one more entry has been added. -/
theorem findWordInLexiconTable_add (lexiconTable : LexiconTable) (word : List Nat)
    (startChunk endChunk : Int) (query : List Nat) :
    findWordInLexiconTable (addEntryToLexiconTable lexiconTable word startChunk endChunk) query
      = if cstr word = cstr query then
          some { word := cstr word, startChunk := startChunk, endChunk := endChunk }
        else findWordInLexiconTable lexiconTable query := by
  by_cases hc : cstr word = cstr query
  · have hh := hashFunction_congr query word hc.symm
    have hs : strcmp (cstr word) query = 0 := by rw [strcmp_eq_zero_iff, cstr_cstr, hc]
    simp only [findWordInLexiconTable, addEntryToLexiconTable, hh, if_true, List.find?, hs,
      decide_True, if_pos hc]
  · have hs : ¬ strcmp (cstr word) query = 0 := by
      rw [strcmp_eq_zero_iff, cstr_cstr]; exact hc
    rw [if_neg hc]
    by_cases hh : hashFunction query = hashFunction word
    · simp only [findWordInLexiconTable, addEntryToLexiconTable, hh, if_true, List.find?, hs,
        decide_False]
    · simp only [findWordInLexiconTable, addEntryToLexiconTable, if_neg hh]

theorem addEntriesToLexiconTable_concat (entries : List (List Nat × Int × Int))
    (entry : List Nat × Int × Int) :
    addEntriesToLexiconTable (entries ++ [entry])
      = addEntryToLexiconTable (addEntriesToLexiconTable entries) entry.1 entry.2.1 entry.2.2 := by
  simp only [addEntriesToLexiconTable, List.foldl_append, List.foldl_cons, List.foldl_nil]

theorem addEntriesToLexiconTable_wordCount (entries : List (List Nat × Int × Int)) :
    (addEntriesToLexiconTable entries).wordCount = (entries.length : Int) := by
  induction entries using List.reverseRecOn with
  | nil => rfl
  | append_singleton entries entry ih =>
    rw [addEntriesToLexiconTable_concat]
    simp only [addEntryToLexiconTable, ih, List.length_append, List.length_singleton]
    push_cast
    rfl

/-- The lookups in a table built from entries with pairwise distinct words. -/
theorem findWordInLexiconTable_entries (entries : List (List Nat × Int × Int))
    (hdistinct : (entries.map (fun entry => cstr entry.1)).Nodup) :
    (∀ entry ∈ entries, ∀ query, cstr query = cstr entry.1 →
      findWordInLexiconTable (addEntriesToLexiconTable entries) query
        = some { word := cstr entry.1, startChunk := entry.2.1, endChunk := entry.2.2 }) ∧
    (∀ query, (∀ entry ∈ entries, cstr entry.1 ≠ cstr query) →
      findWordInLexiconTable (addEntriesToLexiconTable entries) query = none) := by
  induction entries using List.reverseRecOn with
  | nil =>
    refine ⟨by simp, ?_⟩
    intro query _
    rfl
  | append_singleton entries last ih =>
    rw [List.map_append, List.nodup_append] at hdistinct
    obtain ⟨hnd, -, hdisj⟩ := hdistinct
    obtain ⟨ih1, ih2⟩ := ih hnd
    refine ⟨?_, ?_⟩
    · intro entry hentry query hq
      rw [addEntriesToLexiconTable_concat, findWordInLexiconTable_add]
      rcases List.mem_append.1 hentry with e | e
      · have hne : ¬ cstr last.1 = cstr query := by
          intro e2
          exact hdisj (List.mem_map.2 ⟨entry, e, rfl⟩)
            (List.mem_map.2 ⟨last, by simp, by rw [e2, hq]⟩)
        rw [if_neg hne]
        exact ih1 entry e query hq
      · rw [List.mem_singleton.1 e] at hq ⊢
        rw [if_pos hq.symm]
    · intro query hq
      rw [addEntriesToLexiconTable_concat, findWordInLexiconTable_add,
        if_neg (hq last (by simp))]
      exact ih2 query (fun entry hentry => hq entry (List.mem_append_left _ hentry))

/-- C28: after the calls of `addEntryToLexiconTable` for a sequence of entries
with pairwise distinct words, `findWordInLexiconTable` on a word that was added
returns an entry with exactly the `startChunk` and `endChunk` that were added
for the word, and it returns `NULL` on a word that was never added, also when
several words fall into one slot. -/
theorem findWordInLexiconTable_added (entries : List (List Nat × Int × Int))
    (hdistinct : (entries.map (fun entry => cstr entry.1)).Nodup) :
    (∀ entry ∈ entries, ∀ query, cstr query = cstr entry.1 →
      findWordInLexiconTable (addEntriesToLexiconTable entries) query
        = some { word := cstr entry.1, startChunk := entry.2.1, endChunk := entry.2.2 }) ∧
    (∀ query, (∀ entry ∈ entries, cstr entry.1 ≠ cstr query) →
      findWordInLexiconTable (addEntriesToLexiconTable entries) query = none) :=
  findWordInLexiconTable_entries entries hdistinct

theorem findWordInLexiconTable_added_witness :
    (collidingEntries.map (fun entry => cstr entry.1)).Nodup ∧
    hashFunction [97, 114] = hashFunction [99, 48] ∧
    (∀ entry ∈ collidingEntries, ∀ query, cstr query = cstr entry.1 →
      findWordInLexiconTable (addEntriesToLexiconTable collidingEntries) query
        = some { word := cstr entry.1, startChunk := entry.2.1, endChunk := entry.2.2 }) ∧
    (∀ query, (∀ entry ∈ collidingEntries, cstr entry.1 ≠ cstr query) →
      findWordInLexiconTable (addEntriesToLexiconTable collidingEntries) query = none) :=
  ⟨by decide, by decide, findWordInLexiconTable_added collidingEntries (by decide)⟩

/-! ### The lexicon file -/

theorem formatNatLoop_eq (fuel : Nat) :
    ∀ n acc, n < fuel → formatNatLoop fuel n acc = formatNatLoop (n + 1) n [] ++ acc := by
  induction fuel using Nat.strong_induction_on with
  | _ fuel ih =>
    intro n acc hn
    cases fuel with
    | zero => omega
    | succ f =>
      by_cases h10 : n < 10
      · simp only [formatNatLoop, if_pos h10, List.singleton_append]
      · have hdiv : n / 10 < n := Nat.div_lt_self (by omega) (by omega)
        have h1 : formatNatLoop (f + 1) n acc
            = formatNatLoop (n / 10 + 1) (n / 10) [] ++ (48 + n % 10) :: acc := by
          simp only [formatNatLoop, if_neg h10]
          exact ih f (by omega) (n / 10) _ (by omega)
        have h2 : formatNatLoop (n + 1) n []
            = formatNatLoop (n / 10 + 1) (n / 10) [] ++ [48 + n % 10] := by
          simp only [formatNatLoop, if_neg h10]
          exact ih n hn (n / 10) _ hdiv
        rw [h1, h2]
        simp

theorem formatNat_eq (n : Nat) :
    formatNat n = if n < 10 then [48 + n] else formatNat (n / 10) ++ [48 + n % 10] := by
  by_cases h10 : n < 10
  · simp only [formatNat, formatNatLoop, if_pos h10]
  · have hdiv : n / 10 < n := Nat.div_lt_self (by omega) (by omega)
    simp only [formatNat, formatNatLoop, if_neg h10]
    exact formatNatLoop_eq n (n / 10) _ hdiv

theorem formatNat_digits (n : Nat) : ∀ c ∈ formatNat n, 48 ≤ c ∧ c ≤ 57 := by
  induction n using Nat.strong_induction_on with
  | _ n ih =>
    intro c hc
    rw [formatNat_eq] at hc
    by_cases h10 : n < 10
    · rw [if_pos h10, List.mem_singleton] at hc
      omega
    · rw [if_neg h10] at hc
      rcases List.mem_append.1 hc with e | e
      · exact ih (n / 10) (Nat.div_lt_self (by omega) (by omega)) c e
      · rw [List.mem_singleton] at e
        omega

theorem formatNat_ne_nil (n : Nat) : formatNat n ≠ [] := by
  rw [formatNat_eq]
  split <;> simp

theorem isdigit_iff (c : Nat) : isdigit c = true ↔ 48 ≤ c ∧ c ≤ 57 := by
  simp [isdigit]

theorem digitsValue_concat (ds : List Nat) (d : Nat) (hd : 48 ≤ d ∧ d ≤ 57) :
    ∀ v, (∀ c ∈ ds, 48 ≤ c ∧ c ≤ 57) →
      digitsValue (ds ++ [d]) v = digitsValue ds v * 10 + (d - 48) := by
  induction ds with
  | nil =>
    intro v _
    simp only [List.nil_append, digitsValue, (isdigit_iff d).2 hd, if_true]
  | cons a rest ih =>
    intro v h
    have ha := (isdigit_iff a).2 (h a (List.mem_cons_self _ _))
    simp only [List.cons_append, digitsValue, ha, if_true]
    exact ih _ (fun c hc => h c (List.mem_cons_of_mem _ hc))

theorem digitsValue_formatNat (n : Nat) : digitsValue (formatNat n) 0 = n := by
  induction n using Nat.strong_induction_on with
  | _ n ih =>
    rw [formatNat_eq]
    by_cases h10 : n < 10
    · have hd : isdigit (48 + n) = true := (isdigit_iff _).2 (by omega)
      simp only [if_pos h10, digitsValue, hd, if_true]
      omega
    · rw [if_neg h10, digitsValue_concat _ _ (by omega) 0 (formatNat_digits _),
        ih (n / 10) (Nat.div_lt_self (by omega) (by omega))]
      omega

theorem toInt32_toUInt32_range (v : Int) (h0 : -2 ^ 31 ≤ v) (h1 : v < 2 ^ 31) :
    toInt32 (toUInt32 v) = v := by
  simp only [toInt32, toUInt32]
  have hlt : (v % 2 ^ 32).toNat < 2 ^ 32 := by omega
  rw [Nat.mod_eq_of_lt hlt]
  split <;> omega

theorem strtoll_formatInt (v : Int) (h0 : -2 ^ 63 ≤ v) (h1 : v < 2 ^ 63) :
    strtoll (formatInt v) = v := by
  by_cases hneg : v < 0
  · have hval := digitsValue_formatNat (-v).toNat
    simp only [formatInt, if_pos hneg, strtoll]
    have hd : List.dropWhile isspace (45 :: formatNat (-v).toNat)
        = 45 :: formatNat (-v).toNat := by
      rw [List.dropWhile_cons_of_neg (by decide)]
    rw [hd]
    simp only [hval]
    omega
  · have hval := digitsValue_formatNat v.toNat
    simp only [formatInt, if_neg hneg, strtoll]
    obtain ⟨a, rest, hform⟩ : ∃ a rest, formatNat v.toNat = a :: rest := by
      cases hf : formatNat v.toNat with
      | nil => exact absurd hf (formatNat_ne_nil _)
      | cons a rest => exact ⟨a, rest, rfl⟩
    have ha := formatNat_digits v.toNat a (by rw [hform]; exact List.mem_cons_self _ _)
    have hsp : ¬ isspace a = true := by
      simp only [isspace, Bool.or_eq_true, decide_eq_true_eq, Bool.and_eq_true, not_or, not_and]
      omega
    rw [hform] at hval ⊢
    rw [List.dropWhile_cons_of_neg hsp]
    split
    · rename_i heq
      have : a = 45 := by injection heq
      omega
    · rename_i heq
      have : a = 43 := by injection heq
      omega
    · rw [hval]
      omega

theorem formatInt_bytes (v : Int) : ∀ c ∈ formatInt v, c ≠ 32 ∧ c ≠ 10 ∧ c ≠ 0 := by
  intro c hc
  simp only [formatInt] at hc
  split at hc
  · rcases List.mem_cons.1 hc with e | e
    · omega
    · have := formatNat_digits _ c e
      omega
  · have := formatNat_digits _ c hc
    omega

theorem takeWhile_dropWhile_append (p : Nat → Bool) (a : List Nat) (x : Nat) (rest : List Nat)
    (ha : ∀ c ∈ a, p c = true) (hx : p x = false) :
    (a ++ x :: rest).takeWhile p = a ∧ (a ++ x :: rest).dropWhile p = x :: rest := by
  induction a with
  | nil => simp [List.takeWhile, List.dropWhile, hx]
  | cons b a ih =>
    have hb := ha b (List.mem_cons_self _ _)
    obtain ⟨i1, i2⟩ := ih (fun c hc => ha c (List.mem_cons_of_mem _ hc))
    rw [List.cons_append, List.takeWhile_cons_of_pos hb, List.dropWhile_cons_of_pos hb, i1, i2]
    exact ⟨rfl, rfl⟩

theorem takeWhile_all (p : Nat → Bool) (a : List Nat) (ha : ∀ c ∈ a, p c = true) :
    a.takeWhile p = a ∧ a.dropWhile p = [] := by
  induction a with
  | nil => simp
  | cons b a ih =>
    have hb := ha b (List.mem_cons_self _ _)
    obtain ⟨i1, i2⟩ := ih (fun c hc => ha c (List.mem_cons_of_mem _ hc))
    rw [List.takeWhile_cons_of_pos hb, List.dropWhile_cons_of_pos hb, i1, i2]
    exact ⟨rfl, rfl⟩

theorem addEntryToLexiconTable_cstr (lexiconTable : LexiconTable) (word : List Nat)
    (startChunk endChunk : Int) :
    addEntryToLexiconTable lexiconTable (cstr word) startChunk endChunk
      = addEntryToLexiconTable lexiconTable word startChunk endChunk := by
  simp only [addEntryToLexiconTable, cstr_cstr, hashFunction_congr (cstr word) word (cstr_cstr word)]

/-- The line of `writeLexiconToDisk` for a node is read back by the body of the
loop of `convertLexiconFileToLexiconTable` as the entry of the node. -/
theorem convertLexiconLine_written (lexiconTable : LexiconTable) (node : LexiconNode)
    (hword : ∀ c ∈ cstr node.word, c ≠ 32)
    (hs : -2 ^ 31 ≤ node.startChunk ∧ node.startChunk < 2 ^ 31)
    (he : -2 ^ 31 ≤ node.endChunk ∧ node.endChunk < 2 ^ 31) :
    convertLexiconLine lexiconTable
      (cstr node.word ++ [32] ++ formatInt node.startChunk ++ [32] ++ formatInt node.endChunk)
      = addEntryToLexiconTable lexiconTable node.word node.startChunk node.endChunk := by
  have hform : cstr node.word ++ [32] ++ formatInt node.startChunk ++ [32]
      ++ formatInt node.endChunk
      = cstr node.word ++ 32 :: (formatInt node.startChunk ++ 32 :: formatInt node.endChunk) := by
    simp
  obtain ⟨t1, d1⟩ := takeWhile_dropWhile_append (fun c => decide (c ≠ 32)) (cstr node.word) 32
    (formatInt node.startChunk ++ 32 :: formatInt node.endChunk)
    (fun c hc => by simpa using hword c hc) (by simp)
  obtain ⟨t2, d2⟩ := takeWhile_dropWhile_append (fun c => decide (c ≠ 32))
    (formatInt node.startChunk) 32 (formatInt node.endChunk)
    (fun c hc => by simpa using (formatInt_bytes _ c hc).1) (by simp)
  rw [hform]
  simp only [convertLexiconLine, t1, d1, t2, d2]
  rw [strtoll_formatInt _ (by omega) (by omega), strtoll_formatInt _ (by omega) (by omega),
    toInt32_toUInt32_range _ hs.1 hs.2, toInt32_toUInt32_range _ he.1 he.2,
    addEntryToLexiconTable_cstr]

theorem convertLexiconLoop_written (nodes : List LexiconNode) :
    ∀ (fuel : Nat) (lexiconTable : LexiconTable), nodes.length < fuel →
      (∀ node ∈ nodes, ∀ c ∈ cstr node.word, c ≠ 32 ∧ c ≠ 10) →
      (∀ node ∈ nodes, -2 ^ 31 ≤ node.startChunk ∧ node.startChunk < 2 ^ 31 ∧
        -2 ^ 31 ≤ node.endChunk ∧ node.endChunk < 2 ^ 31) →
      convertLexiconLoop fuel lexiconTable (writeLexiconToDisk { nodeCount := 0, nodes := nodes })
        = nodes.foldl (fun table node =>
            addEntryToLexiconTable table node.word node.startChunk node.endChunk)
            lexiconTable := by
  induction nodes with
  | nil =>
    intro fuel lexiconTable hfuel _ _
    cases fuel with
    | zero => simp at hfuel
    | succ f => rfl
  | cons node rest ih =>
    intro fuel lexiconTable hfuel hword hrange
    cases fuel with
    | zero => simp at hfuel
    | succ f =>
      have hw := hword node (List.mem_cons_self _ _)
      have hr := hrange node (List.mem_cons_self _ _)
      have hbuf : writeLexiconToDisk { nodeCount := 0, nodes := node :: rest }
          = (cstr node.word ++ [32] ++ formatInt node.startChunk ++ [32]
              ++ formatInt node.endChunk)
            ++ 10 :: writeLexiconToDisk { nodeCount := 0, nodes := rest } := by
        simp [writeLexiconToDisk]
      have hline : ∀ c ∈ cstr node.word ++ [32] ++ formatInt node.startChunk ++ [32]
          ++ formatInt node.endChunk, (fun c => decide (c ≠ 10)) c = true := by
        intro c hc
        simp only [List.mem_append, List.mem_singleton] at hc
        simp only [ne_eq, decide_not, Bool.not_eq_true', decide_eq_false_iff_not]
        rcases hc with (((h | h) | h) | h) | h
        · exact (hw c h).2
        · omega
        · exact (formatInt_bytes _ c h).2.1
        · omega
        · exact (formatInt_bytes _ c h).2.1
      obtain ⟨t1, d1⟩ := takeWhile_dropWhile_append (fun c => decide (c ≠ 10)) _ 10
        (writeLexiconToDisk { nodeCount := 0, nodes := rest }) hline (by simp)
      rw [hbuf]
      simp only [convertLexiconLoop, t1, d1]
      rw [convertLexiconLine_written lexiconTable node (fun c hc => (hw c hc).1)
        ⟨hr.1, hr.2.1⟩ ⟨hr.2.2.1, hr.2.2.2⟩]
      rw [List.foldl_cons]
      exact ih f _ (by simpa using hfuel)
        (fun n hn => hword n (List.mem_cons_of_mem _ hn))
        (fun n hn => hrange n (List.mem_cons_of_mem _ hn))

theorem writeLexiconToDisk_bytes (nodes : List LexiconNode) :
    (∀ c ∈ writeLexiconToDisk { nodeCount := 0, nodes := nodes }, c ≠ 0) ∧
    nodes.length ≤ (writeLexiconToDisk { nodeCount := 0, nodes := nodes }).length := by
  induction nodes with
  | nil => simp [writeLexiconToDisk]
  | cons node rest ih =>
    have hbuf : writeLexiconToDisk { nodeCount := 0, nodes := node :: rest }
        = (cstr node.word ++ [32] ++ formatInt node.startChunk ++ [32]
            ++ formatInt node.endChunk)
          ++ 10 :: writeLexiconToDisk { nodeCount := 0, nodes := rest } := by
      simp [writeLexiconToDisk]
    rw [hbuf]
    refine ⟨?_, ?_⟩
    · intro c hc
      simp only [List.mem_append, List.mem_cons, List.not_mem_nil, or_false] at hc
      rcases hc with ((((h | h) | h) | h) | h) | h | h
      · intro e
        rw [e] at h
        simp only [cstr] at h
        have := List.mem_takeWhile_imp h
        simp at this
      · omega
      · exact (formatInt_bytes _ c h).2.2
      · omega
      · exact (formatInt_bytes _ c h).2.2
      · omega
      · exact ih.1 c h
    · simp only [List.length_append, List.length_cons]
      have := ih.2
      omega

theorem writeLexiconToDisk_nodes (lexicon : Lexicon) :
    writeLexiconToDisk lexicon = writeLexiconToDisk { nodeCount := 0, nodes := lexicon.nodes } :=
  rfl

/-- The table `convertLexiconFileToLexiconTable` builds from the text of
`writeLexiconToDisk`: the entries of the lexicon, added in order. -/
theorem convertLexiconFileToLexiconTable_written (lexicon : Lexicon)
    (hword : ∀ node ∈ lexicon.nodes, ∀ c ∈ cstr node.word, c ≠ 32 ∧ c ≠ 10)
    (hrange : ∀ node ∈ lexicon.nodes, -2 ^ 31 ≤ node.startChunk ∧ node.startChunk < 2 ^ 31 ∧
      -2 ^ 31 ≤ node.endChunk ∧ node.endChunk < 2 ^ 31) :
    convertLexiconFileToLexiconTable createLexiconTable (writeLexiconToDisk lexicon)
      = addEntriesToLexiconTable
          (lexicon.nodes.map (fun node => (node.word, node.startChunk, node.endChunk))) := by
  obtain ⟨hb1, hb2⟩ := writeLexiconToDisk_bytes lexicon.nodes
  rw [writeLexiconToDisk_nodes]
  have hc : cstr (writeLexiconToDisk { nodeCount := 0, nodes := lexicon.nodes })
      = writeLexiconToDisk { nodeCount := 0, nodes := lexicon.nodes } :=
    cstr_eq_self _ hb1
  simp only [convertLexiconFileToLexiconTable, hc]
  rw [convertLexiconLoop_written lexicon.nodes _ createLexiconTable (by omega) hword hrange]
  simp only [addEntriesToLexiconTable, List.foldl_map]

/-- C29: for every lexicon whose terms are pairwise distinct and contain no
space and no newline (and whose chunk numbers are `int`s), the table that
`convertLexiconFileToLexiconTable` builds from the text that
`writeLexiconToDisk` writes has the number of entries as its `wordCount`, and
every term looks up to exactly its written `startChunk` and `endChunk`. -/
theorem convertLexiconFileToLexiconTable_roundtrip (lexicon : Lexicon)
    (hword : ∀ node ∈ lexicon.nodes, ∀ c ∈ cstr node.word, c ≠ 32 ∧ c ≠ 10)
    (hdistinct : (lexicon.nodes.map (fun node => cstr node.word)).Nodup)
    (hrange : ∀ node ∈ lexicon.nodes, -2 ^ 31 ≤ node.startChunk ∧ node.startChunk < 2 ^ 31 ∧
      -2 ^ 31 ≤ node.endChunk ∧ node.endChunk < 2 ^ 31) :
    (convertLexiconFileToLexiconTable createLexiconTable
      (writeLexiconToDisk lexicon)).wordCount = (lexicon.nodes.length : Int) ∧
    ∀ node ∈ lexicon.nodes,
      findWordInLexiconTable
        (convertLexiconFileToLexiconTable createLexiconTable (writeLexiconToDisk lexicon))
        node.word
        = some { word := cstr node.word, startChunk := node.startChunk
                 endChunk := node.endChunk } := by
  rw [convertLexiconFileToLexiconTable_written lexicon hword hrange]
  refine ⟨?_, ?_⟩
  · rw [addEntriesToLexiconTable_wordCount, List.length_map]
  · intro node hnode
    have hd : ((lexicon.nodes.map
        (fun node => (node.word, node.startChunk, node.endChunk))).map
          (fun entry => cstr entry.1)).Nodup := by
      rw [List.map_map]
      exact hdistinct
    exact (findWordInLexiconTable_entries _ hd).1 (node.word, node.startChunk, node.endChunk)
      (List.mem_map.2 ⟨node, hnode, rfl⟩) node.word rfl

theorem convertLexiconFileToLexiconTable_roundtrip_witness :
    (∀ node ∈ collidingLexicon.nodes, ∀ c ∈ cstr node.word, c ≠ 32 ∧ c ≠ 10) ∧
    (collidingLexicon.nodes.map (fun node => cstr node.word)).Nodup ∧
    (∀ node ∈ collidingLexicon.nodes, -2 ^ 31 ≤ node.startChunk ∧ node.startChunk < 2 ^ 31 ∧
      -2 ^ 31 ≤ node.endChunk ∧ node.endChunk < 2 ^ 31) ∧
    (convertLexiconFileToLexiconTable createLexiconTable
      (writeLexiconToDisk collidingLexicon)).wordCount = (collidingLexicon.nodes.length : Int) ∧
    ∀ node ∈ collidingLexicon.nodes,
      findWordInLexiconTable
        (convertLexiconFileToLexiconTable createLexiconTable
          (writeLexiconToDisk collidingLexicon))
        node.word
        = some { word := cstr node.word, startChunk := node.startChunk
                 endChunk := node.endChunk } :=
  ⟨by decide, by decide, by decide,
    convertLexiconFileToLexiconTable_roundtrip collidingLexicon (by decide) (by decide)
      (by decide)⟩

/-! ### Document lengths -/

theorem dropWhile_head_not (p : Nat → Bool) (l : List Nat) (x : Nat) (rest : List Nat)
    (h : l.dropWhile p = x :: rest) : p x = false := by
  induction l with
  | nil => simp at h
  | cons a l ih =>
    by_cases ha : p a = true
    · rw [List.dropWhile_cons_of_pos ha] at h
      exact ih h
    · rw [List.dropWhile_cons_of_neg ha] at h
      have : a = x := by injection h
      rw [← this]
      simpa using ha

theorem bodyWords_nil : bodyWords [] = [] := by
  simp [bodyWords, List.splitOn, List.splitOnP_nil]

theorem bodyWords_single (body : List Nat) (hne : body ≠ [])
    (h : body.dropWhile (fun c => decide (c ≠ 32)) = []) : bodyWords body = [body] := by
  have hall : ∀ c ∈ body, ¬ (c == 32) = true := by
    intro c hc
    have := List.dropWhile_eq_nil_iff.1 h c hc
    simpa using this
  simp only [bodyWords, List.splitOn]
  rw [List.splitOnP_eq_single _ _ hall]
  simp [hne]

theorem bodyWords_cons (body next : List Nat) (x : Nat)
    (h : body.dropWhile (fun c => decide (c ≠ 32)) = x :: next) :
    body = body.takeWhile (fun c => decide (c ≠ 32)) ++ 32 :: next ∧
    bodyWords body
      = (if body.takeWhile (fun c => decide (c ≠ 32)) = [] then []
         else [body.takeWhile (fun c => decide (c ≠ 32))]) ++ bodyWords next := by
  have hx : x = 32 := by
    have := dropWhile_head_not _ _ _ _ h
    simpa using this
  subst hx
  have hbody : body = body.takeWhile (fun c => decide (c ≠ 32)) ++ 32 :: next := by
    rw [← h, List.takeWhile_append_dropWhile]
  refine ⟨hbody, ?_⟩
  have hall : ∀ c ∈ body.takeWhile (fun c => decide (c ≠ 32)), ¬ (c == 32) = true := by
    intro c hc
    have := List.mem_takeWhile_imp hc
    simpa using this
  have hsplit : (List.splitOn 32 body)
      = body.takeWhile (fun c => decide (c ≠ 32)) :: List.splitOn 32 next := by
    conv_lhs => rw [hbody]
    simp only [List.splitOn]
    exact List.splitOnP_first _ _ hall 32 (by simp) next
  simp only [bodyWords, hsplit]
  generalize body.takeWhile (fun c => decide (c ≠ 32)) = w
  by_cases hw : w = []
  · rw [List.filter_cons_of_neg (by simpa using hw), if_pos hw, List.nil_append]
  · rw [List.filter_cons_of_pos (by simpa using hw), if_neg hw, List.singleton_append]

theorem length_bodyWords (body : List Nat) : (bodyWords body).length ≤ body.length :=
  le_trans (length_filter_ne_nil _) (sum_length_splitOnP _ body)

/-- The loop of `parseData` over the words of a line calls `updateHashTable`
for the strings between the spaces that are not empty, in order, and counts
them. -/
theorem parseWords_eq (fuel : Nat) :
    ∀ (table : HashTable) (wordCount : Int) (body : List Nat) (docId : Int),
      body.length < fuel →
      parseWords fuel table wordCount body docId
        = (updateHashTableAll table ((bodyWords body).map (fun word => (docId, word)))).map
            (fun table1 => (table1, incrementInt^[(bodyWords body).length] wordCount)) := by
  induction fuel with
  | zero => intro _ _ body _ h; omega
  | succ fuel ih =>
    intro table wordCount body docId hfuel
    by_cases hnil : body = []
    · subst hnil
      simp [parseWords, bodyWords_nil, updateHashTableAll]
    · simp only [parseWords, if_neg hnil]
      cases hd : body.dropWhile (fun c => decide (c ≠ 32)) with
      | nil =>
        have htw : body.takeWhile (fun c => decide (c ≠ 32)) = body := by
          have := List.takeWhile_append_dropWhile (fun c => decide (c ≠ 32)) body
          rw [hd, List.append_nil] at this
          exact this
        rw [bodyWords_single body hnil hd]
        simp only [htw, List.map_cons, List.map_nil, updateHashTableAll, List.length_singleton,
          Function.iterate_one]
        cases updateHashTable table body docId <;> rfl
      | cons x next =>
        obtain ⟨hbody, hwords⟩ := bodyWords_cons body next x hd
        have hlen : next.length < fuel := by
          have := congrArg List.length hbody
          simp only [List.length_append, List.length_cons] at this
          omega
        by_cases hw : body.takeWhile (fun c => decide (c ≠ 32)) = []
        · simp only [hw, if_true]
          rw [hwords, hw]
          simp only [if_true, List.nil_append]
          exact ih table wordCount next docId hlen
        · simp only [if_neg hw]
          rw [hwords, if_neg hw]
          simp only [List.singleton_append, List.map_cons, updateHashTableAll, List.length_cons,
            Function.iterate_succ, Function.comp]
          cases updateHashTable table (body.takeWhile (fun c => decide (c ≠ 32))) docId with
          | none => rfl
          | some table1 => exact ih table1 (incrementInt wordCount) next docId hlen

theorem iterate_incrementInt (k : Nat) (hk : k < 2 ^ 31) : incrementInt^[k] 0 = (k : Int) := by
  induction k with
  | zero => rfl
  | succ k ih =>
    rw [Function.iterate_succ_apply', ih (by omega), incrementInt_eq _ (by omega) (by omega)]
    push_cast
    rfl

theorem parseLine_eq (table : HashTable) (docLengths : Int → Int) (line : List Nat)
    (htab : 9 ∈ line) :
    parseLine table docLengths line
      = match parseWords ((lineBody line).length + 1) table 0 (lineBody line) (lineDocId line) with
        | none => none
        | some (table1, wordCount) =>
          if 0 ≤ lineDocId line ∧ lineDocId line < DOC_COUNT then
            some (table1, fun i => if i = lineDocId line then wordCount else docLengths i)
          else none := by
  cases hd : line.dropWhile (fun c => decide (c ≠ 9)) with
  | nil =>
    have := List.dropWhile_eq_nil_iff.1 hd 9 htab
    simp at this
  | cons x wordsStart =>
    simp only [parseLine, hd, lineBody, lineDocId, List.drop_one, List.tail_cons]

/-- C22: for every complete line with a tab, of a document number inside the
array that no earlier line of the slice has, `parseData` sets
`docLengths[docId]` to the number of term occurrences it inserts for the line,
and this is the sum, over all terms of the segment table, of the frequency
recorded for the document.  The line is given by its bytes in the buffer of
`mapRawContentFromDisk`, the table is the one reached by the occurrences of the
earlier lines, and the occurrences are fewer than `2^31`. -/
theorem parseLine_docLength (occurrences : List (Int × List Nat)) (table : HashTable)
    (docLengths : Int → Int) (raw : List Nat)
    (htable : updateHashTableAll createHashTable occurrences = some table)
    (htab : 9 ∈ raw)
    (hdoc : 0 ≤ lineDocId (raw.map normalizeByte) ∧ lineDocId (raw.map normalizeByte) < DOC_COUNT)
    (hfresh : ∀ occ ∈ occurrences, occ.1 ≠ lineDocId (raw.map normalizeByte))
    (hlen : occurrences.length + raw.length < 2 ^ 31) :
    ∃ (table1 : HashTable) (docLengths1 : Int → Int),
      parseLine table docLengths (raw.map normalizeByte) = some (table1, docLengths1) ∧
      updateHashTableAll table
        ((bodyWords (lineBody (raw.map normalizeByte))).map
          (fun word => (lineDocId (raw.map normalizeByte), word))) = some table1 ∧
      docLengths1 (lineDocId (raw.map normalizeByte))
        = ((bodyWords (lineBody (raw.map normalizeByte))).length : Int) ∧
      docFrequency table1 (lineDocId (raw.map normalizeByte))
        = ((bodyWords (lineBody (raw.map normalizeByte))).length : Int) := by
  have htab1 : 9 ∈ raw.map normalizeByte := List.mem_map.2 ⟨9, htab, by decide⟩
  generalize hline : raw.map normalizeByte = line at *
  have hll : line.length = raw.length := by rw [← hline, List.length_map]
  have hbl : (lineBody line).length ≤ line.length := by
    simp only [lineBody, List.length_drop]
    have := (List.dropWhile_sublist (fun c => decide (c ≠ 9)) (l := line)).length_le
    omega
  have hwl := length_bodyWords (lineBody line)
  have hreach := updateHashTableAll_reached
    (occurrences ++ (bodyWords (lineBody line)).map (fun word => (lineDocId line, word)))
    (by rw [List.length_append, List.length_map]; omega)
  obtain ⟨table1, h1, -, -, -, h5⟩ := hreach
  rw [updateHashTableAll_append, htable] at h1
  simp only [Option.bind] at h1
  refine ⟨table1, fun i => if i = lineDocId line
    then ((bodyWords (lineBody line)).length : Int) else docLengths i, ?_, h1, ?_, ?_⟩
  · rw [parseLine_eq table docLengths line htab1, parseWords_eq _ _ _ _ _ (Nat.lt_succ_self _), h1]
    simp only [Option.map_some', if_pos hdoc, iterate_incrementInt _ (show
      (bodyWords (lineBody line)).length < 2 ^ 31 by omega)]
  · simp only [if_true]
  · rw [h5, List.filter_append]
    have hz : occurrences.filter (fun o => decide (o.1 = lineDocId line)) = [] := by
      rw [List.filter_eq_nil_iff]
      intro o ho
      simpa using hfresh o ho
    have hall : ((bodyWords (lineBody line)).map (fun word => (lineDocId line, word))).filter
        (fun o => decide (o.1 = lineDocId line))
        = (bodyWords (lineBody line)).map (fun word => (lineDocId line, word)) := by
      rw [List.filter_eq_self]
      intro o ho
      obtain ⟨w, -, e⟩ := List.mem_map.1 ho
      rw [← e]
      simp
    rw [hz, hall, List.nil_append, List.length_map]

theorem parseLine_docLength_witness :
    updateHashTableAll createHashTable sampleOccurrences
      = some ((updateHashTableAll createHashTable sampleOccurrences).getD createHashTable) ∧
    9 ∈ [51, 9, 97, 44, 32, 98, 32, 97] ∧
    (0 ≤ lineDocId ([51, 9, 97, 44, 32, 98, 32, 97].map normalizeByte) ∧
      lineDocId ([51, 9, 97, 44, 32, 98, 32, 97].map normalizeByte) < DOC_COUNT) ∧
    (∀ occ ∈ sampleOccurrences,
      occ.1 ≠ lineDocId ([51, 9, 97, 44, 32, 98, 32, 97].map normalizeByte)) ∧
    sampleOccurrences.length + [51, 9, 97, 44, 32, 98, 32, 97].length < 2 ^ 31 ∧
    ∃ (table1 : HashTable) (docLengths1 : Int → Int),
      parseLine ((updateHashTableAll createHashTable sampleOccurrences).getD createHashTable)
        (fun _ => 0) ([51, 9, 97, 44, 32, 98, 32, 97].map normalizeByte)
        = some (table1, docLengths1) ∧
      updateHashTableAll
        ((updateHashTableAll createHashTable sampleOccurrences).getD createHashTable)
        ((bodyWords (lineBody ([51, 9, 97, 44, 32, 98, 32, 97].map normalizeByte))).map
          (fun word => (lineDocId ([51, 9, 97, 44, 32, 98, 32, 97].map normalizeByte), word)))
        = some table1 ∧
      docLengths1 (lineDocId ([51, 9, 97, 44, 32, 98, 32, 97].map normalizeByte))
        = ((bodyWords (lineBody ([51, 9, 97, 44, 32, 98, 32, 97].map normalizeByte))).length
            : Int) ∧
      docFrequency table1 (lineDocId ([51, 9, 97, 44, 32, 98, 32, 97].map normalizeByte))
        = ((bodyWords (lineBody ([51, 9, 97, 44, 32, 98, 32, 97].map normalizeByte))).length
            : Int) :=
  ⟨rfl, by decide, by decide, by decide, by decide,
    parseLine_docLength sampleOccurrences _ (fun _ => 0) [51, 9, 97, 44, 32, 98, 32, 97]
      rfl (by decide) (by decide) (by decide) (by decide)⟩

/-! ### Tabs in the body of a line -/

theorem splitOnP_map (p : Nat → Bool) (f : Nat → Nat) (l : List Nat) :
    (l.map f).splitOnP p = ((l.splitOnP (fun c => p (f c))).map (fun piece => piece.map f)) := by
  induction l with
  | nil => simp [List.splitOnP_nil]
  | cons a rest ih =>
    rw [List.map_cons, List.splitOnP_cons, List.splitOnP_cons, ih]
    by_cases ha : p (f a) = true
    · simp [ha]
    · simp only [ha, Bool.false_eq_true, if_false]
      cases hsp : rest.splitOnP (fun c => p (f c)) with
      | nil => exact absurd hsp (List.splitOnP_ne_nil _ rest)
      | cons h t => simp [List.modifyHead]

theorem splitOnP_congr (p q : Nat → Bool) (l : List Nat) (h : ∀ c ∈ l, p c = q c) :
    l.splitOnP p = l.splitOnP q := by
  induction l with
  | nil => simp [List.splitOnP_nil]
  | cons a rest ih =>
    rw [List.splitOnP_cons, List.splitOnP_cons, ih (fun c hc => h c (List.mem_cons_of_mem _ hc)),
      h a (List.mem_cons_self _ _)]

theorem normalizeByte_alnum (c : Nat) (h : isalnum c = true) : normalizeByte c = c := by
  simp [normalizeByte, h]

theorem normalizeByte_eq_space (c : Nat) (h9 : c ≠ 9) (h10 : c ≠ 10) :
    (normalizeByte c == 32) = !isalnum c := by
  by_cases h : isalnum c = true
  · have hc : c ≠ 32 := by
      intro e; rw [e] at h; exact absurd h (by decide)
    simp [normalizeByte, h, hc]
  · have h2 : isalnum c = false := by simpa using h
    simp [normalizeByte, h2, h9, h10]

/-- The words that `parseData` takes from the normalized bytes of a body
without tab and without newline are the maximal alphanumeric runs of the
body. -/
theorem bodyWords_normalized (body : List Nat) (h9 : 9 ∉ body) (h10 : 10 ∉ body) :
    bodyWords (body.map normalizeByte) = alnumRuns body := by
  have hsplit : (body.map normalizeByte).splitOnP (fun c => c == 32)
      = body.splitOnP (fun c => !isalnum c) := by
    rw [splitOnP_map]
    rw [splitOnP_congr (fun c => normalizeByte c == 32) (fun c => !isalnum c) body
      (fun c hc => normalizeByte_eq_space c (fun e => h9 (e ▸ hc)) (fun e => h10 (e ▸ hc)))]
    conv_rhs => rw [← List.map_id (body.splitOnP (fun c => !isalnum c))]
    apply List.map_congr_left
    intro piece hpiece
    simp only [id]
    conv_rhs => rw [← List.map_id piece]
    apply List.map_congr_left
    intro c hc
    have := mem_splitOnP_not _ body piece hpiece c hc
    exact normalizeByte_alnum c (by simpa using this)
  simp only [bodyWords, alnumRuns, List.splitOn, hsplit]

/-- For a body without tab and without newline, the terms that the segment
builder inserts are not empty, hold alphanumeric bytes only, and their distinct
ones are the words `splitIntoWords` returns for the body. -/
theorem bodyWords_normalized_terms (body : List Nat) (h9 : 9 ∉ body) (h10 : 10 ∉ body)
    (h0 : 0 ∉ body) :
    (∀ term ∈ bodyWords (body.map normalizeByte),
      term ≠ [] ∧ ∀ c ∈ term, isalnum c = true) ∧
    distinctInOrder (bodyWords (body.map normalizeByte)) = (splitIntoWords body).1 := by
  rw [bodyWords_normalized body h9 h10]
  refine ⟨fun term hterm => ⟨(mem_alnumRuns body term hterm).1, (mem_alnumRuns body term hterm).2.1⟩,
    ?_⟩
  have hc : cstr body = body := cstr_eq_self body (fun c hc e => h0 (e ▸ hc))
  rw [splitIntoWords_words, hc]

/-- C26 fails on the code: for the line `"1\ta\tb"` the segment builder inserts
the one term `"a\tb"`, which holds the tab byte, and no term `"a"` or `"b"`;
the tab is not alphanumeric, and `splitIntoWords` gives the two terms `"a"` and
`"b"` for the body `"a\tb"`. -/
theorem parseLine_tab_in_term :
    bodyWords (lineBody ([49, 9, 97, 9, 98].map normalizeByte)) = [[97, 9, 98]] ∧
    (parseLine createHashTable (fun _ => 0) ([49, 9, 97, 9, 98].map normalizeByte)).map
      (fun r => [postingList r.1 [97, 9, 98], postingList r.1 [97], postingList r.1 [98]])
      = some [[(1, 1)], [], []] ∧
    isalnum 9 = false ∧
    (splitIntoWords [97, 9, 98]).1 = [[97], [98]] := by
  decide

/-! ### Impact bytes and BM25 scores -/

theorem castToUInt8_of_nonneg {D : Type} [LinearOrderedField D] [FloorRing D] (x : D) (h0 : 0 ≤ x) :
    castToUInt8 x = if ⌊x⌋ ≤ 255 then some ⌊x⌋.toNat else none := by
  have hf : 0 ≤ ⌊x⌋ := Int.floor_nonneg.2 h0
  simp only [castToUInt8, if_pos h0, hf, true_and]

theorem logCompressDouble_pos {D : Type} [LinearOrderedField D] [FloorRing D] (m : MathOps D) (hnonneg : ∀ x, 1 ≤ x → 0 ≤ m.log2 x)
    (s : D) (hs : 0 < s) :
    logCompressDouble m s =
      if ⌊m.log2 (s + 1) * 36.06⌋ ≤ 255 then some ⌊m.log2 (s + 1) * 36.06⌋.toNat else none := by
  have h1 : 0 ≤ m.log2 (s + 1) * 36.06 :=
    mul_nonneg (hnonneg _ (by linarith)) (by norm_num)
  simp only [logCompressDouble, if_neg (not_le.2 hs)]
  exact castToUInt8_of_nonneg _ h1

/-- The score before the conversion to a byte grows with the impact. -/
theorem logScaled_mono {D : Type} [LinearOrderedField D] [FloorRing D] (m : MathOps D) (hmono : ∀ x y, x ≤ y → m.log2 x ≤ m.log2 y)
    (s t : D) (hst : s ≤ t) :
    ⌊m.log2 (s + 1) * 36.06⌋ ≤ ⌊m.log2 (t + 1) * 36.06⌋ :=
  Int.floor_mono (mul_le_mul_of_nonneg_right (hmono _ _ (by linarith)) (by norm_num))

/-- C31, as the code has it: `logCompressDouble` returns 0 for every impact
`s <= 0` and, for every `s > 0` with `floor(log2(s + 1) * 36.06) <= 255`,
returns `floor(log2(s + 1) * 36.06)`; there is no clamp, and for the other `s`
the conversion to a byte is undefined.  On the impacts for which it is defined
the function is monotone non-decreasing, and it is defined below every impact
for which it is defined.  The arithmetic is exact, `log2` is any monotone
function that is not negative from 1 on. -/
theorem logCompressDouble_unclamped {D : Type} [LinearOrderedField D] [FloorRing D] 
    (m : MathOps D)
    (hmono : ∀ x y, x ≤ y → m.log2 x ≤ m.log2 y) (hnonneg : ∀ x, 1 ≤ x → 0 ≤ m.log2 x) :
    (∀ s, s ≤ 0 → logCompressDouble m s = some 0) ∧
    (∀ s, 0 < s → ⌊m.log2 (s + 1) * 36.06⌋ ≤ 255 →
      0 ≤ ⌊m.log2 (s + 1) * 36.06⌋ ∧
      logCompressDouble m s = some ⌊m.log2 (s + 1) * 36.06⌋.toNat) ∧
    (∀ s, 0 < s → 255 < ⌊m.log2 (s + 1) * 36.06⌋ → logCompressDouble m s = none) ∧
    (∀ s t b, s ≤ t → logCompressDouble m t = some b →
      ∃ a, logCompressDouble m s = some a ∧ a ≤ b) := by
  refine ⟨?_, ?_, ?_, ?_⟩
  · intro s hs
    simp only [logCompressDouble, if_pos hs]
  · intro s hs hle
    refine ⟨Int.floor_nonneg.2 (mul_nonneg (hnonneg _ (by linarith)) (by norm_num)), ?_⟩
    rw [logCompressDouble_pos m hnonneg s hs, if_pos hle]
  · intro s hs hgt
    rw [logCompressDouble_pos m hnonneg s hs, if_neg (not_le.2 hgt)]
  · intro s t b hst ht
    by_cases hs : s ≤ 0
    · exact ⟨0, by simp only [logCompressDouble, if_pos hs], Nat.zero_le _⟩
    · have hs0 : 0 < s := not_le.1 hs
      have ht0 : 0 < t := lt_of_lt_of_le hs0 hst
      have hfl := logScaled_mono m hmono s t hst
      rw [logCompressDouble_pos m hnonneg t ht0] at ht
      by_cases hle : ⌊m.log2 (t + 1) * 36.06⌋ ≤ 255
      · rw [if_pos hle] at ht
        simp only [Option.some.injEq] at ht
        refine ⟨⌊m.log2 (s + 1) * 36.06⌋.toNat, ?_, ?_⟩
        · rw [logCompressDouble_pos m hnonneg s hs0, if_pos (le_trans hfl hle)]
        · rw [← ht]
          exact Int.toNat_le_toNat hfl
      · rw [if_neg hle] at ht
        simp at ht

/-- C32: in exact arithmetic and as long as `N - n` is in the range of `int`,
`calculateBM25ImpactScore(N, n, f, L, Lavg)` with `Lavg > 0` is
`ln((N - n + 0.5) / (n + 0.5)) * ((k1 + 1) * f) / (k1 * ((1 - b) + b * L / Lavg) + f)`
with `k1 = 1.2` and `b = 0.75`, and the result is not clamped: it is negative
when the idf factor is negative and `f > 0`, `L >= 0`. -/
theorem calculateBM25ImpactScore_formula {D : Type} [LinearOrderedField D] 
    (m : MathOps D) (N n f L Lavg : Int)
    (hrange : -2 ^ 31 ≤ N - n ∧ N - n < 2 ^ 31) (hLavg : 0 < Lavg) :
    calculateBM25ImpactScore m N n f L Lavg = bm25Formula m N n f L Lavg ∧
    (m.log (((N : D) - (n : D) + 0.5) / ((n : D) + 0.5)) < 0 → 0 < f → 0 ≤ L →
      calculateBM25ImpactScore m N n f L Lavg < 0) := by
  have hsub : ((toInt32 (toUInt32 (N - n)) : Int) : D) = (N : D) - (n : D) := by
    rw [(toInt32_toUInt32_range (N - n) hrange.1 hrange.2)]
    push_cast
    rfl
  have heq : calculateBM25ImpactScore m N n f L Lavg = bm25Formula m N n f L Lavg := by
    simp only [calculateBM25ImpactScore, bm25Formula, hsub]
    rw [← mul_div_assoc, ← mul_div_assoc]
  refine ⟨heq, ?_⟩
  intro hidf hf hL
  have hLavg' : (0 : D) < (Lavg : D) := by exact_mod_cast hLavg
  have hf' : (0 : D) < (f : D) := by exact_mod_cast hf
  have hL' : (0 : D) ≤ (L : D) := by exact_mod_cast hL
  have hden : (0 : D) < 1.2 * ((1 - 0.75) + 0.75 * ((L : D) / (Lavg : D))) + (f : D) := by
    have h1 : (0 : D) ≤ (L : D) / (Lavg : D) := div_nonneg hL' (le_of_lt hLavg')
    have h2 : (0 : D) ≤ 1.2 * ((1 - 0.75) + 0.75 * ((L : D) / (Lavg : D))) := by
      apply mul_nonneg (by norm_num)
      have : (0 : D) ≤ 0.75 * ((L : D) / (Lavg : D)) := mul_nonneg (by norm_num) h1
      have h3 : (0 : D) ≤ 1 - 0.75 := by norm_num
      linarith
    linarith
  have htf : (0 : D) < ((1.2 + 1) * (f : D))
      / (1.2 * ((1 - 0.75) + 0.75 * ((L : D) / (Lavg : D))) + (f : D)) :=
    div_pos (mul_pos (by norm_num) hf') hden
  simp only [calculateBM25ImpactScore, hsub]
  exact mul_neg_of_neg_of_pos hidf htf

theorem floorLog2Loop_mono : ∀ (fuel1 fuel2 a b : Nat), a ≤ fuel1 → b ≤ fuel2 → a ≤ b →
    floorLog2Loop fuel1 a ≤ floorLog2Loop fuel2 b := by
  intro fuel1
  induction fuel1 with
  | zero => intro fuel2 a b _ _ _; exact Nat.zero_le _
  | succ fuel1 ih =>
    intro fuel2 a b ha hb hab
    rw [floorLog2Loop]
    by_cases h2 : 2 ≤ a
    · rw [if_pos h2]
      cases fuel2 with
      | zero => omega
      | succ fuel2 =>
        rw [floorLog2Loop, if_pos (by omega)]
        exact Nat.succ_le_succ (ih fuel2 (a / 2) (b / 2) (by omega) (by omega)
          (Nat.div_le_div_right hab))
    · rw [if_neg h2]
      exact Nat.zero_le _

theorem ratOps_log2_mono : ∀ x y : ℚ, x ≤ y → ratOps.log2 x ≤ ratOps.log2 y := by
  intro x y hxy
  simp only [ratOps]
  have h1 : ⌊x⌋.toNat ≤ ⌊y⌋.toNat := Int.toNat_le_toNat (Int.floor_mono hxy)
  exact_mod_cast floorLog2Loop_mono _ _ _ _ (le_refl _) (le_refl _) h1

theorem ratOps_log2_nonneg : ∀ x : ℚ, 1 ≤ x → 0 ≤ ratOps.log2 x := by
  intro x _
  simp only [ratOps]
  exact_mod_cast Nat.zero_le _

/-- For the impact 255 the score before the conversion is `8 * 36.06 = 288.48`:
the code converts 288 to a byte, which is undefined, where the claim has the
byte 255. -/
theorem logCompressDouble_not_clamped :
    ratOps.log2 (255 + 1) = 8 ∧ ⌊ratOps.log2 (255 + 1) * 36.06⌋ = 288 ∧
    logCompressDouble ratOps 255 = none ∧ logCompressClamped ratOps 255 = 255 := by
  have h1 : ratOps.log2 (255 + 1) = 8 := by
    have : ⌊((255 : ℚ) + 1)⌋ = 256 := by norm_num
    simp only [ratOps, this]
    decide
  have h2 : ⌊ratOps.log2 (255 + 1) * 36.06⌋ = 288 := by
    rw [h1, Int.floor_eq_iff]
    norm_num
  refine ⟨h1, h2, ?_, ?_⟩
  · rw [logCompressDouble_pos ratOps ratOps_log2_nonneg 255 (by norm_num), h2]
    decide
  · simp only [logCompressClamped, h2]
    rw [if_neg (by norm_num)]
    decide

theorem logCompressDouble_unclamped_witness :
    logCompressDouble ratOps 0 = some 0 ∧ logCompressDouble ratOps 7 = some 108 ∧
    ∀ s : ℚ, s ≤ 7 → ∃ a, logCompressDouble ratOps s = some a ∧ a ≤ 108 := by
  have h7 : logCompressDouble ratOps 7 = some 108 := by
    have h1 : ratOps.log2 (7 + 1) = 3 := by
      have : ⌊((7 : ℚ) + 1)⌋ = 8 := by norm_num
      simp only [ratOps, this]
      decide
    have h2 : ⌊ratOps.log2 (7 + 1) * 36.06⌋ = 108 := by
      rw [h1, Int.floor_eq_iff]
      norm_num
    rw [logCompressDouble_pos ratOps ratOps_log2_nonneg 7 (by norm_num), h2]
    decide
  exact ⟨(logCompressDouble_unclamped ratOps ratOps_log2_mono ratOps_log2_nonneg).1 0 le_rfl, h7,
    fun s hs => (logCompressDouble_unclamped ratOps ratOps_log2_mono ratOps_log2_nonneg).2.2.2
      s 7 108 hs h7⟩

theorem calculateBM25ImpactScore_formula_witness :
    (-2 ^ 31 ≤ (100 : Int) - 80 ∧ (100 : Int) - 80 < 2 ^ 31) ∧ (0 : Int) < 10 ∧
    calculateBM25ImpactScore ratOps 100 80 2 5 10 = bm25Formula ratOps 100 80 2 5 10 ∧
    calculateBM25ImpactScore ratOps 100 80 2 5 10 < 0 :=
  ⟨by decide, by decide,
   (calculateBM25ImpactScore_formula ratOps 100 80 2 5 10 (by decide) (by decide)).1,
   (calculateBM25ImpactScore_formula ratOps 100 80 2 5 10 (by decide) (by decide)).2
     (by simp only [ratOps]; norm_num) (by decide) (by decide)⟩

/-! ### The document length passed to BM25 -/

/-- The body of the loop over `postingIndex` passes `docLengths[docId - 1]` to
`calculateBM25ImpactScore`, whatever the posting. -/
theorem addPosting_docLength {D : Type} [Zero D] (ops : DoubleOps D) (docLengths : Int → Int)
    (totalDocCount termDocCount avgDocLength : Int) (word : List Nat)
    (s : EncoderState D) (docId frequency : Int) :
    ∃ s2 : EncoderState D,
      addPosting ops docLengths totalDocCount termDocCount avgDocLength word s (docId, frequency)
        = storePosting s2 docId
            (ops.calculateBM25ImpactScore totalDocCount termDocCount frequency
              (docLengths (docId - 1)) avgDocLength) :=
  ⟨_, rfl⟩

set_option maxRecDepth 1000000 in
/-- C33, as the code has it: for the posting of docID 1 the encoder passes
`docLengths[0] = 5` to the BM25 computation, which is the length the segment
builder recorded for the document 0, and not `docLengths[1] = 15`. -/

theorem addParsedItemsToInvertedIndex_docLength_off_by_one :
    sampleDocLengths 1 = 15 ∧ sampleDocLengths 0 = 5 ∧
    (addParsedItemsToInvertedIndex symOps (some lengthItem :: List.replicate 7 none)
        createInvertedIndex createLexicon sampleDocLengths 100 10).map
      (fun r => indexScores r.1) = some [([1], [SymDouble.bm25 100 1 2 5 10])] := by
  decide

/-! ### Chunks that run past their last docID -/

/-- The first loop of `decompressPostings` leaves by its `break` only: when it
returns, the docID stored last is `lastDocId`, no docID stored before it in
the call is `lastDocId`, and the entries below `postingIndex1` are as they
were. -/
theorem decompressDocIds_ends_at_last :
    ∀ (fuel : Nat) (currentByte : List Nat) (lastDocId prevDocId : Int) (postingIndex1 : Nat)
      (docIds : List Int) (rest : List Nat) (n : Nat) (out : List Int),
      decompressDocIds fuel currentByte lastDocId prevDocId postingIndex1 docIds
        = some (rest, n, out) →
      postingIndex1 < n ∧ n ≤ docIds.length ∧ out.length = docIds.length ∧
      out.getD (n - 1) 0 = lastDocId ∧
      (∀ j, postingIndex1 ≤ j → j + 1 < n → out.getD j 0 ≠ lastDocId) ∧
      ∀ j, j < postingIndex1 → out.getD j 0 = docIds.getD j 0 := by
  intro fuel
  induction fuel with
  | zero => intro _ _ _ _ _ _ _ _ h; simp [decompressDocIds] at h
  | succ fuel ih =>
    intro currentByte lastDocId prevDocId postingIndex1 docIds rest n out h
    rw [decompressDocIds] at h
    cases hv : varByteDecompressInt currentByte with
    | none => rw [hv] at h; simp at h
    | some p =>
      obtain ⟨v, currentByte1⟩ := p
      rw [hv] at h
      simp only at h
      by_cases hidx : postingIndex1 < docIds.length
      swap
      · rw [if_neg hidx] at h; simp at h
      rw [if_pos hidx] at h
      have hget : ∀ (x : Int) (j : Nat), (docIds.set postingIndex1 x).getD j 0
          = if j = postingIndex1 then x else docIds.getD j 0 := by
        intro x j
        simp only [List.getD_eq_getElem?_getD, List.getElem?_set]
        by_cases hj : postingIndex1 = j
        · subst hj; simp [hidx]
        · rw [if_neg hj, if_neg (Ne.symm hj)]
      by_cases hlast : (if prevDocId ≠ -1 then toInt32 v + prevDocId else toInt32 v) = lastDocId
      · rw [if_pos hlast] at h
        simp only [Option.some.injEq, Prod.mk.injEq] at h
        obtain ⟨-, h2, h3⟩ := h
        subst h2 h3
        refine ⟨by omega, by omega, by simp, ?_, ?_, ?_⟩
        · rw [Nat.add_sub_cancel, hget, if_pos rfl, hlast]
        · intro j h1 h2; omega
        · intro j hj
          rw [hget, if_neg (by omega)]
      · rw [if_neg hlast] at h
        obtain ⟨e1, e2, e3, e4, e5, e6⟩ := ih _ _ _ _ _ _ _ _ h
        rw [List.length_set] at e2 e3
        refine ⟨by omega, e2, e3, e4, ?_, ?_⟩
        · intro j h1 h2
          rcases Nat.eq_or_lt_of_le h1 with h0 | h0
          · rw [e6 j (by omega), hget, if_pos h0.symm]
            exact hlast
          · exact e5 j (by omega) h2
        · intro j hj
          rw [e6 j (by omega), hget, if_neg (by omega)]

/-- A running docID above `lastDocId` does not end the first loop of
`decompressPostings`: the loop stores it and goes on with the next bytes. -/
theorem decompressDocIds_exceeding (fuel : Nat) (currentByte rest : List Nat)
    (lastDocId prevDocId : Int) (postingIndex1 : Nat) (docIds : List Int) (v : Nat)
    (hv : varByteDecompressInt currentByte = some (v, rest))
    (hidx : postingIndex1 < docIds.length)
    (hex : lastDocId < (if prevDocId ≠ -1 then toInt32 v + prevDocId else toInt32 v)) :
    decompressDocIds (fuel + 1) currentByte lastDocId prevDocId postingIndex1 docIds
      = decompressDocIds fuel rest lastDocId
          (if prevDocId ≠ -1 then toInt32 v + prevDocId else toInt32 v) (postingIndex1 + 1)
          (docIds.set postingIndex1
            (if prevDocId ≠ -1 then toInt32 v + prevDocId else toInt32 v)) := by
  rw [decompressDocIds, hv]
  simp only
  rw [if_pos hidx, if_neg (ne_of_gt hex)]

/-- C34, as the code has it: `decompressPostings` has no check for a running
docID above the `lastDocId` of the chunk.  Such a docID is stored and the loop
goes on decoding the bytes that follow as gaps; when `decompressPostings`
returns, its first loop has ended at a docID equal to `lastDocId`, which is the
last of the `postingCount` docIDs decoded, and every docID decoded before it,
below or above `lastDocId`, differs from `lastDocId`. -/
theorem decompressPostings_no_corruption_check {D : Type} [Zero D] (ops : DoubleOps D)
    (invertedList decoded : InvertedList D)
    (h : decompressPostings ops invertedList = some decoded) :
    0 < decoded.postingCount ∧
    decoded.docIds.getD (decoded.postingCount - 1) 0
      = invertedList.lastDocIds.getD invertedList.currentChunkIndex 0 ∧
    (∀ j, j + 1 < decoded.postingCount →
      decoded.docIds.getD j 0 ≠ invertedList.lastDocIds.getD invertedList.currentChunkIndex 0) ∧
    ∀ (fuel : Nat) (currentByte rest : List Nat) (lastDocId prevDocId : Int)
      (postingIndex1 : Nat) (docIds : List Int) (v : Nat),
      varByteDecompressInt currentByte = some (v, rest) → postingIndex1 < docIds.length →
      lastDocId < (if prevDocId ≠ -1 then toInt32 v + prevDocId else toInt32 v) →
      decompressDocIds (fuel + 1) currentByte lastDocId prevDocId postingIndex1 docIds
        = decompressDocIds fuel rest lastDocId
            (if prevDocId ≠ -1 then toInt32 v + prevDocId else toInt32 v) (postingIndex1 + 1)
            (docIds.set postingIndex1
              (if prevDocId ≠ -1 then toInt32 v + prevDocId else toInt32 v)) := by
  simp only [decompressPostings] at h
  cases h1 : decompressDocIds (invertedList.postings.length + 1) invertedList.postings
      (invertedList.lastDocIds.getD invertedList.currentChunkIndex 0) (-1) 0
      invertedList.docIds with
  | none => rw [h1] at h; simp at h
  | some p =>
    obtain ⟨currentByte, postingIndex1, docIds⟩ := p
    rw [h1] at h
    simp only at h
    cases h2 : decompressImpactScores ops postingIndex1 currentByte 0 invertedList.impactScores with
    | none => rw [h2] at h; simp at h
    | some impactScores =>
      rw [h2] at h
      simp only [Option.some.injEq] at h
      subst h
      obtain ⟨e1, -, -, e4, e5, -⟩ := decompressDocIds_ends_at_last _ _ _ _ _ _ _ _ _ h1
      exact ⟨e1, e4, fun j hj => e5 j (Nat.zero_le _) hj,
        fun fuel currentByte rest lastDocId prevDocId postingIndex1 docIds v hv hidx hex =>
          decompressDocIds_exceeding fuel currentByte rest lastDocId prevDocId postingIndex1
            docIds v hv hidx hex⟩

set_option maxRecDepth 1000000 in
/-- On the chunk of `corruptList` the running docID 7 is above `lastDocId = 5`
before any docID has equalled 5; `decompressPostings` returns all the same,
with the three docIDs 3, 7, 5 decoded, and `getNextGEQDocId` with the target 6
returns the docID 7. -/

theorem decompressPostings_decodes_past_lastDocId :
    corruptList.lastDocIds.getD corruptList.currentChunkIndex 0 = 5 ∧
    (decompressPostings intOps corruptList).map
        (fun l => (l.postingCount, l.docIds.take l.postingCount)) = some (3, [3, 7, 5]) ∧
    (getNextGEQDocId intOps corruptList 6).map (fun p => p.1) = some 7 := by
  decide

set_option maxRecDepth 1000000 in
theorem decompressPostings_no_corruption_check_witness :
    ∃ decoded : InvertedList Int, decompressPostings intOps corruptList = some decoded ∧
      0 < decoded.postingCount ∧
      decoded.docIds.getD (decoded.postingCount - 1) 0
        = corruptList.lastDocIds.getD corruptList.currentChunkIndex 0 := by
  have hsome : (decompressPostings intOps corruptList).isSome = true := by decide
  obtain ⟨decoded, h⟩ := Option.isSome_iff_exists.1 hsome
  exact ⟨decoded, h, (decompressPostings_no_corruption_check intOps corruptList decoded h).1,
    (decompressPostings_no_corruption_check intOps corruptList decoded h).2.1⟩

/-! ### Heaps the program reaches -/

/-- Every reached merge heap has its nodes in an array of `MERGE_HEAP_SIZE`
entries and is a heap in the order of `mergeKey`. -/
theorem mergeHeap_reached_inv (heap : MergeHeap) (h : MergeHeap.Reached heap) :
    heap.nodeCount ≤ MERGE_HEAP_SIZE ∧ heap.heapNodes.length = MERGE_HEAP_SIZE ∧
    ArrayHeap.IsHeap mergeKey heap.heapNodes heap.nodeCount := by
  induction h with
  | create =>
    refine ⟨Nat.zero_le _, by simp [MergeHeap.createHeap], ?_⟩
    intro j c _ hcn
    simp [MergeHeap.createHeap] at hcn
  | insert heap heapNode _ hlt ih =>
    obtain ⟨_, h2, h3⟩ := ih
    obtain ⟨e1, e2, _, e4⟩ := ArrayHeap.insertHeapNode_spec mergeKey MergeHeap.less mergeLess_iff
      heap heapNode (by rw [h2]; exact hlt) h3
    refine ⟨?_, ?_, ?_⟩
    · show (ArrayHeap.insertHeapNode MergeHeap.less heap heapNode).nodeCount ≤ _
      rw [e1]; exact hlt
    · show (ArrayHeap.insertHeapNode MergeHeap.less heap heapNode).heapNodes.length = _
      rw [e2, h2]
    · show ArrayHeap.IsHeap mergeKey (ArrayHeap.insertHeapNode MergeHeap.less heap heapNode).heapNodes
        (ArrayHeap.insertHeapNode MergeHeap.less heap heapNode).nodeCount
      rw [e1]; exact e4
  | extract heap _ hpos ih =>
    obtain ⟨h1, h2, h3⟩ := ih
    obtain ⟨_, e2, e3, _, e5⟩ := ArrayHeap.extractMin_spec mergeKey MergeHeap.less mergeLess_iff
      heap hpos (by rw [h2]; exact h1) h3
    refine ⟨?_, ?_, ?_⟩
    · show (ArrayHeap.extractMin MergeHeap.less heap).2.nodeCount ≤ _
      rw [e2]; omega
    · show (ArrayHeap.extractMin MergeHeap.less heap).2.heapNodes.length = _
      rw [e3, h2]
    · show ArrayHeap.IsHeap mergeKey (ArrayHeap.extractMin MergeHeap.less heap).2.heapNodes
        (ArrayHeap.extractMin MergeHeap.less heap).2.nodeCount
      rw [e2]; exact e5

/-- C35: `insertHeapNode` and `extractMin` of the merge heap keep the min-heap
property in the order of the word as a string, bytewise, and then of the file
number (`mergeKey`): every heap built from `createHeap` by insertions below
`MERGE_HEAP_SIZE` nodes and extractions from non-empty heaps is a heap of at
most 8 nodes in that order, and on such a heap of at least one node `extractMin`
returns a node of the heap before which the comparison of the code puts no node
of the heap, leaves the other nodes, one node fewer, and leaves a heap. -/
theorem mergeHeap_extractMin_minimal (heap : MergeHeap) (hreach : MergeHeap.Reached heap) :
    heap.nodeCount ≤ MERGE_HEAP_SIZE ∧
    ArrayHeap.IsHeap mergeKey heap.heapNodes heap.nodeCount ∧
    (1 ≤ heap.nodeCount →
      (MergeHeap.extractMin heap).1 ∈ heap.heapNodes.take heap.nodeCount ∧
      (∀ node ∈ heap.heapNodes.take heap.nodeCount,
        mergeKey (MergeHeap.extractMin heap).1 ≤ mergeKey node ∧
        MergeHeap.less node (MergeHeap.extractMin heap).1 = false) ∧
      (MergeHeap.extractMin heap).2.nodeCount = heap.nodeCount - 1 ∧
      (heap.heapNodes.take heap.nodeCount).Perm
        ((MergeHeap.extractMin heap).1 ::
          (MergeHeap.extractMin heap).2.heapNodes.take (MergeHeap.extractMin heap).2.nodeCount) ∧
      ArrayHeap.IsHeap mergeKey (MergeHeap.extractMin heap).2.heapNodes
        (MergeHeap.extractMin heap).2.nodeCount ∧
      MergeHeap.Reached (MergeHeap.extractMin heap).2) := by
  obtain ⟨h1, h2, h3⟩ := mergeHeap_reached_inv heap hreach
  refine ⟨h1, h3, fun hpos => ?_⟩
  obtain ⟨e1, e2, _, e4, e5⟩ := ArrayHeap.extractMin_spec mergeKey MergeHeap.less mergeLess_iff
    heap hpos (by rw [h2]; exact h1) h3
  have hmin : (MergeHeap.extractMin heap).1 = heap.heapNodes.getD 0 default := e1
  have hcount : (MergeHeap.extractMin heap).2.nodeCount = heap.nodeCount - 1 := e2
  have hle : ∀ node ∈ heap.heapNodes.take heap.nodeCount,
      mergeKey (MergeHeap.extractMin heap).1 ≤ mergeKey node := by
    intro node hnode
    obtain ⟨c, hc, _, rfl⟩ := ArrayHeap.exists_of_mem_take _ _ _ hnode
    rw [hmin]
    exact ArrayHeap.IsHeap.root_le mergeKey _ _ h3 c hc
  refine ⟨?_, ?_, hcount, ?_, ?_, MergeHeap.Reached.extract heap hreach hpos⟩
  · rw [hmin]
    exact ArrayHeap.getD_mem_take _ _ _ hpos (by rw [h2]; exact h1)
  · intro node hnode
    refine ⟨hle node hnode, ?_⟩
    cases hl : MergeHeap.less node (MergeHeap.extractMin heap).1 with
    | false => rfl
    | true => exact absurd ((mergeLess_iff _ _).1 hl) (not_lt.2 (hle node hnode))
  · rw [hcount, hmin]; exact e4
  · rw [hcount]; exact e5

theorem sampleMergeHeap_reached : MergeHeap.Reached sampleMergeHeap :=
  MergeHeap.Reached.insert _ _
    (MergeHeap.Reached.insert _ _ MergeHeap.Reached.create (by decide)) (by decide)

theorem mergeHeap_extractMin_minimal_witness :
    MergeHeap.Reached sampleMergeHeap ∧ 1 ≤ sampleMergeHeap.nodeCount ∧
    (MergeHeap.extractMin sampleMergeHeap).1 ∈ sampleMergeHeap.heapNodes.take sampleMergeHeap.nodeCount ∧
    (MergeHeap.extractMin sampleMergeHeap).1.fileNumber = 2 ∧
    (∀ node ∈ sampleMergeHeap.heapNodes.take sampleMergeHeap.nodeCount,
      mergeKey (MergeHeap.extractMin sampleMergeHeap).1 ≤ mergeKey node ∧
      MergeHeap.less node (MergeHeap.extractMin sampleMergeHeap).1 = false) :=
  ⟨sampleMergeHeap_reached, by decide,
   ((mergeHeap_extractMin_minimal sampleMergeHeap sampleMergeHeap_reached).2.2 (by decide)).1,
   by decide,
   ((mergeHeap_extractMin_minimal sampleMergeHeap sampleMergeHeap_reached).2.2 (by decide)).2.1⟩

/-- Every reached top-K heap has its nodes in an array of `QUERY_HEAP_SIZE`
entries and is a heap in the order of the impact scores. -/
theorem queryHeap_reached_inv {D : Type} [Zero D] [LinearOrder D] (heap : QueryHeap D) (h : QueryHeap.Reached heap) :
    heap.nodeCount ≤ QUERY_HEAP_SIZE ∧ heap.heapNodes.length = QUERY_HEAP_SIZE ∧
    ArrayHeap.IsHeap (fun node : QueryHeapNode D => node.impactScore)
      heap.heapNodes heap.nodeCount := by
  induction h with
  | create =>
    refine ⟨Nat.zero_le _, by simp [QueryHeap.createHeap], ?_⟩
    intro j c _ hcn
    simp [QueryHeap.createHeap] at hcn
  | insert heap heapNode _ hlt ih =>
    obtain ⟨_, h2, h3⟩ := ih
    obtain ⟨e1, e2, _, e4⟩ := ArrayHeap.insertHeapNode_spec
      (fun node : QueryHeapNode D => node.impactScore) QueryHeap.less QueryHeap.less_iff
      heap heapNode (by rw [h2]; exact hlt) h3
    refine ⟨?_, ?_, ?_⟩
    · show (ArrayHeap.insertHeapNode QueryHeap.less heap heapNode).nodeCount ≤ _
      rw [e1]; exact hlt
    · show (ArrayHeap.insertHeapNode QueryHeap.less heap heapNode).heapNodes.length = _
      rw [e2, h2]
    · show ArrayHeap.IsHeap _ (ArrayHeap.insertHeapNode QueryHeap.less heap heapNode).heapNodes
        (ArrayHeap.insertHeapNode QueryHeap.less heap heapNode).nodeCount
      rw [e1]; exact e4
  | extract heap _ hpos ih =>
    obtain ⟨h1, h2, h3⟩ := ih
    obtain ⟨_, e2, e3, _, e5⟩ := ArrayHeap.extractMin_spec
      (fun node : QueryHeapNode D => node.impactScore) QueryHeap.less QueryHeap.less_iff
      heap hpos (by rw [h2]; exact h1) h3
    refine ⟨?_, ?_, ?_⟩
    · show (ArrayHeap.extractMin QueryHeap.less heap).2.nodeCount ≤ _
      rw [e2]; omega
    · show (ArrayHeap.extractMin QueryHeap.less heap).2.heapNodes.length = _
      rw [e3, h2]
    · show ArrayHeap.IsHeap _ (ArrayHeap.extractMin QueryHeap.less heap).2.heapNodes
        (ArrayHeap.extractMin QueryHeap.less heap).2.nodeCount
      rw [e2]; exact e5

/-- C37: every `QueryHeap` reached from `createHeap` by `insertHeapNode` on a
heap of fewer than 20 nodes and `extractMin` on a non-empty heap has at most 20
nodes and the min-heap property: the `impactScore` of every node below
`nodeCount` is not smaller than that of its parent, so that no node has a
smaller score than `heapNodes[0]`. -/
theorem queryHeap_reached_min_heap {D : Type} [Zero D] [LinearOrder D] (heap : QueryHeap D) (hreach : QueryHeap.Reached heap) :
    0 ≤ heap.nodeCount ∧ heap.nodeCount ≤ QUERY_HEAP_SIZE ∧
    (∀ i, 0 < i → i < heap.nodeCount →
      (heap.heapNodes.getD ((i - 1) / 2) default).impactScore
        ≤ (heap.heapNodes.getD i default).impactScore) ∧
    (∀ j, j < heap.nodeCount →
      (heap.heapNodes.getD 0 default).impactScore
        ≤ (heap.heapNodes.getD j default).impactScore) := by
  obtain ⟨h1, _, h3⟩ := queryHeap_reached_inv heap hreach
  refine ⟨Nat.zero_le _, h1, ?_, ?_⟩
  · intro i hi hin
    exact h3 ((i - 1) / 2) i (by omega) hin
  · intro j hj
    exact ArrayHeap.IsHeap.root_le _ _ _ h3 j hj

theorem sampleQueryHeap_reached : QueryHeap.Reached sampleQueryHeap :=
  QueryHeap.Reached.insert _ _
    (QueryHeap.Reached.insert _ _
      (QueryHeap.Reached.insert _ _ QueryHeap.Reached.create (by decide)) (by decide)) (by decide)

theorem queryHeap_reached_min_heap_witness :
    QueryHeap.Reached sampleQueryHeap ∧ sampleQueryHeap.nodeCount = 3 ∧
    (sampleQueryHeap.heapNodes.getD 0 default).impactScore = 2 ∧
    (∀ j, j < sampleQueryHeap.nodeCount →
      (sampleQueryHeap.heapNodes.getD 0 default).impactScore
        ≤ (sampleQueryHeap.heapNodes.getD j default).impactScore) :=
  ⟨sampleQueryHeap_reached, by decide, by decide,
   (queryHeap_reached_min_heap sampleQueryHeap sampleQueryHeap_reached).2.2.2⟩

/-! ### A second call of nextGEQ -/

/-- The first loop of `decompressPostings` reads the array `docIds` only to
store into it: when it returns from the array `docIds`, it returns from every
array of the same length, with the same values stored in the same entries. -/
theorem decompressDocIds_stores :
    ∀ (fuel : Nat) (currentByte : List Nat) (lastDocId prevDocId : Int) (postingIndex1 : Nat)
      (docIds : List Int) (rest : List Nat) (n : Nat) (out : List Int),
      decompressDocIds fuel currentByte lastDocId prevDocId postingIndex1 docIds
        = some (rest, n, out) →
      ∃ vals : List Int, postingIndex1 + vals.length = n ∧ n ≤ docIds.length ∧
        ∀ docIds2 : List Int, docIds2.length = docIds.length →
          decompressDocIds fuel currentByte lastDocId prevDocId postingIndex1 docIds2
            = some (rest, n, docIds2.take postingIndex1 ++ vals ++ docIds2.drop n) := by
  intro fuel
  induction fuel with
  | zero => intro _ _ _ _ _ _ _ _ h; simp [decompressDocIds] at h
  | succ fuel ih =>
    intro currentByte lastDocId prevDocId postingIndex1 docIds rest n out h
    rw [decompressDocIds] at h
    cases hv : varByteDecompressInt currentByte with
    | none => rw [hv] at h; simp at h
    | some p =>
      obtain ⟨v, currentByte1⟩ := p
      rw [hv] at h
      simp only at h
      by_cases hidx : postingIndex1 < docIds.length
      swap
      · rw [if_neg hidx] at h; simp at h
      rw [if_pos hidx] at h
      by_cases hlast : (if prevDocId ≠ -1 then toInt32 v + prevDocId else toInt32 v) = lastDocId
      · rw [if_pos hlast] at h
        simp only [Option.some.injEq, Prod.mk.injEq] at h
        obtain ⟨h1, h2, _⟩ := h
        refine ⟨[if prevDocId ≠ -1 then toInt32 v + prevDocId else toInt32 v], by simp [← h2],
          by omega, ?_⟩
        intro docIds2 hlen
        rw [decompressDocIds, hv]
        simp only
        rw [if_pos (by omega), if_pos hlast, ← h1, ← h2]
        congr 3
        rw [List.set_eq_take_append_cons_drop, if_pos (by omega)]
        simp
      · rw [if_neg hlast] at h
        obtain ⟨vals, hv1, hv2, hv3⟩ := ih _ _ _ _ _ _ _ _ h
        rw [List.length_set] at hv2
        refine ⟨(if prevDocId ≠ -1 then toInt32 v + prevDocId else toInt32 v) :: vals,
          by simp only [List.length_cons]; omega, hv2, ?_⟩
        intro docIds2 hlen
        rw [decompressDocIds, hv]
        simp only
        rw [if_pos (by omega), if_neg hlast]
        have := hv3 (docIds2.set postingIndex1
          (if prevDocId ≠ -1 then toInt32 v + prevDocId else toInt32 v))
          (by rw [List.length_set, List.length_set, hlen])
        rw [this]
        congr 3
        rw [ArrayHeap.take_succ_set _ _ _ (by omega), List.drop_set_of_lt _ _ (by omega)]
        simp

/-- The second loop of `decompressPostings` reads the array `impactScores` only
to store into it. -/
theorem decompressImpactScores_stores {D : Type} [Zero D] (ops : DoubleOps D) :
    ∀ (n : Nat) (currentByte : List Nat) (postingIndex2 : Nat) (impactScores out : List D),
      decompressImpactScores ops n currentByte postingIndex2 impactScores = some out →
      ∃ vals : List D, vals.length = n ∧ (n ≠ 0 → postingIndex2 + n ≤ impactScores.length) ∧
        ∀ scores2 : List D, scores2.length = impactScores.length →
          decompressImpactScores ops n currentByte postingIndex2 scores2
            = some (scores2.take postingIndex2 ++ vals ++ scores2.drop (postingIndex2 + n)) := by
  intro n
  induction n with
  | zero =>
    intro currentByte postingIndex2 impactScores out _
    exact ⟨[], rfl, by simp, fun scores2 _ => by simp [decompressImpactScores]⟩
  | succ n ih =>
    intro currentByte postingIndex2 impactScores out h
    rw [decompressImpactScores] at h
    cases hd : logDecompressToDouble ops currentByte with
    | none => rw [hd] at h; simp at h
    | some p =>
      obtain ⟨score, currentByte1⟩ := p
      rw [hd] at h
      simp only at h
      by_cases hidx : postingIndex2 < impactScores.length
      swap
      · rw [if_neg hidx] at h; simp at h
      rw [if_pos hidx] at h
      obtain ⟨vals, hv1, hv2, hv3⟩ := ih _ _ _ _ h
      rw [List.length_set] at hv2
      refine ⟨score :: vals, by simp [hv1], ?_, ?_⟩
      · intro _
        by_cases hn : n = 0
        · subst hn; omega
        · have := hv2 hn; omega
      · intro scores2 hlen
        rw [decompressImpactScores, hd]
        simp only
        rw [if_pos (by omega)]
        have := hv3 (scores2.set postingIndex2 score)
          (by rw [List.length_set, List.length_set, hlen])
        rw [this]
        congr 1
        rw [ArrayHeap.take_succ_set _ _ _ (by omega), List.drop_set_of_lt _ _ (by omega)]
        simp [Nat.add_assoc, Nat.add_comm 1 n]

/-- The condition of the loop `// Skip blocks if possible`. -/
theorem skipBlocks_of_not {D : Type} [Zero D] (fuel : Nat) (invertedList : InvertedList D)
    (docId : Int)
    (h : ¬ (invertedList.remainingChunkCount
          - ((MAX_CHUNK_COUNT : Int) - ((invertedList.currentChunkIndex : Int) + 1)) > 0
        ∧ invertedList.lastDocIds.getD (MAX_CHUNK_COUNT - 1) 0 < docId)) :
    skipBlocks fuel invertedList docId = invertedList := by
  cases fuel with
  | zero => rfl
  | succ fuel => rw [skipBlocks, if_neg h]

theorem skipChunks_of_not {D : Type} [Zero D] (fuel : Nat) (invertedList : InvertedList D)
    (docId : Int)
    (h : ¬ (invertedList.remainingChunkCount > 0
        ∧ invertedList.lastDocIds.getD invertedList.currentChunkIndex 0 < docId)) :
    skipChunks fuel invertedList docId = invertedList := by
  cases fuel with
  | zero => rfl
  | succ fuel => rw [skipChunks, if_neg h]

/-- With `remainingChunkCount` turns of fuel the loop that skips blocks ends
where its condition is false, on a chunk index below `MAX_CHUNK_COUNT`. -/
theorem skipBlocks_stops {D : Type} [Zero D] (docId : Int) :
    ∀ (fuel : Nat) (invertedList : InvertedList D),
      invertedList.currentChunkIndex < MAX_CHUNK_COUNT →
      invertedList.remainingChunkCount.toNat ≤ fuel →
      (skipBlocks fuel invertedList docId).currentChunkIndex < MAX_CHUNK_COUNT ∧
      ¬ ((skipBlocks fuel invertedList docId).remainingChunkCount
          - ((MAX_CHUNK_COUNT : Int)
              - (((skipBlocks fuel invertedList docId).currentChunkIndex : Int) + 1)) > 0
        ∧ (skipBlocks fuel invertedList docId).lastDocIds.getD (MAX_CHUNK_COUNT - 1) 0
            < docId) := by
  intro fuel
  induction fuel with
  | zero =>
    intro l hidx hfuel
    refine ⟨hidx, ?_⟩
    simp only [skipBlocks, MAX_CHUNK_COUNT] at hidx ⊢
    rintro ⟨h1, -⟩
    push_cast at h1
    omega
  | succ fuel ih =>
    intro l hidx hfuel
    rw [skipBlocks]
    split
    · rename_i hc
      apply ih
      · simp [updateInvertedListByBlock, MAX_CHUNK_COUNT]
      · simp only [updateInvertedListByBlock, MAX_CHUNK_COUNT] at hidx hc ⊢
        push_cast at hc ⊢
        omega
    · rename_i hc
      exact ⟨hidx, hc⟩

/-- The loop that skips chunks, started where the condition of the loop that
skips blocks is false, ends where both conditions are false. -/
theorem skipChunks_stops {D : Type} [Zero D] (docId : Int) :
    ∀ (fuel : Nat) (invertedList : InvertedList D),
      invertedList.currentChunkIndex < MAX_CHUNK_COUNT →
      invertedList.remainingChunkCount.toNat ≤ fuel →
      ¬ (invertedList.remainingChunkCount
          - ((MAX_CHUNK_COUNT : Int) - ((invertedList.currentChunkIndex : Int) + 1)) > 0
        ∧ invertedList.lastDocIds.getD (MAX_CHUNK_COUNT - 1) 0 < docId) →
      (skipChunks fuel invertedList docId).currentChunkIndex < MAX_CHUNK_COUNT ∧
      ¬ ((skipChunks fuel invertedList docId).remainingChunkCount
          - ((MAX_CHUNK_COUNT : Int)
              - (((skipChunks fuel invertedList docId).currentChunkIndex : Int) + 1)) > 0
        ∧ (skipChunks fuel invertedList docId).lastDocIds.getD (MAX_CHUNK_COUNT - 1) 0
            < docId) ∧
      ¬ ((skipChunks fuel invertedList docId).remainingChunkCount > 0
        ∧ (skipChunks fuel invertedList docId).lastDocIds.getD
            (skipChunks fuel invertedList docId).currentChunkIndex 0 < docId) := by
  intro fuel
  induction fuel with
  | zero =>
    intro l hidx hfuel hb
    refine ⟨hidx, hb, ?_⟩
    simp only [skipChunks]
    rintro ⟨h1, -⟩
    omega
  | succ fuel ih =>
    intro l hidx hfuel hb
    rw [skipChunks]
    split
    · rename_i hc
      have h63 : l.currentChunkIndex ≠ MAX_CHUNK_COUNT - 1 := by
        intro h63
        apply hb
        rw [h63] at hc ⊢
        refine ⟨?_, hc.2⟩
        simp only [MAX_CHUNK_COUNT]
        have := hc.1
        push_cast
        omega
      have hupd : (updateInvertedListByChunk l).currentChunkIndex = l.currentChunkIndex + 1 ∧
          (updateInvertedListByChunk l).remainingChunkCount = l.remainingChunkCount - 1 ∧
          (updateInvertedListByChunk l).lastDocIds = l.lastDocIds := by
        simp [updateInvertedListByChunk, h63]
      obtain ⟨u1, u2, u3⟩ := hupd
      apply ih
      · rw [u1]; simp only [MAX_CHUNK_COUNT] at hidx h63 ⊢; omega
      · rw [u2]; have := hc.1; omega
      · rw [u1, u2, u3]
        intro hb2
        apply hb
        refine ⟨?_, hb2.2⟩
        have := hb2.1
        push_cast at this ⊢
        omega
    · rename_i hc
      exact ⟨hidx, hb, hc⟩

/-- The function `decompressPostings` applied to its own result gives that
result again. -/
theorem decompressPostings_again {D : Type} [Zero D] (ops : DoubleOps D)
    (invertedList decoded : InvertedList D)
    (h : decompressPostings ops invertedList = some decoded) (currentPostingIndex : Nat) :
    decompressPostings ops { decoded with currentPostingIndex := currentPostingIndex }
      = some { decoded with currentPostingIndex := currentPostingIndex } := by
  simp only [decompressPostings] at h
  cases h1 : decompressDocIds (invertedList.postings.length + 1) invertedList.postings
      (invertedList.lastDocIds.getD invertedList.currentChunkIndex 0) (-1) 0
      invertedList.docIds with
  | none => rw [h1] at h; simp at h
  | some p =>
    obtain ⟨currentByte, postingIndex1, docIds⟩ := p
    rw [h1] at h
    simp only at h
    cases h2 : decompressImpactScores ops postingIndex1 currentByte 0 invertedList.impactScores with
    | none => rw [h2] at h; simp at h
    | some impactScores =>
      rw [h2] at h
      simp only [Option.some.injEq] at h
      subst h
      obtain ⟨vals, hv1, hv2, hv3⟩ := decompressDocIds_stores _ _ _ _ _ _ _ _ _ h1
      obtain ⟨svals, hs1, hs2, hs3⟩ := decompressImpactScores_stores ops _ _ _ _ _ h2
      have hd0 := hv3 invertedList.docIds rfl
      rw [h1] at hd0
      simp only [Option.some.injEq, Prod.mk.injEq, true_and] at hd0
      have hs0 := hs3 invertedList.impactScores rfl
      rw [h2] at hs0
      simp only [Option.some.injEq] at hs0
      have hdlen : docIds.length = invertedList.docIds.length := by
        rw [hd0]
        simp only [List.take_zero, List.nil_append, List.length_append, List.length_drop]
        omega
      have hslen : impactScores.length = invertedList.impactScores.length := by
        rw [hs0]
        simp only [List.take_zero, List.nil_append, List.length_append, List.length_drop,
          Nat.zero_add]
        by_cases hn : postingIndex1 = 0
        · omega
        · have := hs2 hn; omega
      have hd1 := hv3 docIds hdlen
      have hs1' := hs3 impactScores hslen
      have hdfix : List.take 0 docIds ++ vals ++ List.drop postingIndex1 docIds = docIds := by
        conv_rhs => rw [hd0]
        conv_lhs => rw [hd0]
        simp only [List.take_zero, List.nil_append]
        rw [List.drop_append_of_le_length (by omega), List.drop_of_length_le (by omega)]
        simp
      have hsfix : List.take 0 impactScores ++ svals ++ List.drop (0 + postingIndex1) impactScores
          = impactScores := by
        conv_rhs => rw [hs0]
        conv_lhs => rw [hs0]
        simp only [List.take_zero, List.nil_append, Nat.zero_add]
        rw [List.drop_append_of_le_length (by omega), List.drop_of_length_le (by omega)]
        simp
      rw [hdfix] at hd1
      rw [hsfix] at hs1'
      simp only [decompressPostings, hd1, hs1']

/-- C38: `getNextGEQDocId` is idempotent.  For every iterator whose
`currentChunkIndex` is an index of its arrays of `MAX_CHUNK_COUNT` entries and
every target `docId`, when a call returns the docID `r` and leaves the iterator
`after`, a second call with the same target on `after` returns `r` again and
leaves the iterator `after`: `currentChunkIndex`, `remainingChunkCount`,
`currentPostingIndex` and every other field are as the first call left them. -/
theorem getNextGEQDocId_idempotent {D : Type} [Zero D] (ops : DoubleOps D)
    (invertedList after : InvertedList D) (docId r : Int)
    (hidx : invertedList.currentChunkIndex < MAX_CHUNK_COUNT)
    (hfirst : getNextGEQDocId ops invertedList docId = some (r, after)) :
    getNextGEQDocId ops after docId = some (r, after) ∧
    ∀ second : Int × InvertedList D, getNextGEQDocId ops after docId = some second →
      second.1 = r ∧ second.2.currentChunkIndex = after.currentChunkIndex ∧
      second.2.remainingChunkCount = after.remainingChunkCount ∧
      second.2.currentPostingIndex = after.currentPostingIndex := by
  have key : getNextGEQDocId ops after docId = some (r, after) := by
    simp only [getNextGEQDocId] at hfirst
    obtain ⟨b1, b2⟩ := skipBlocks_stops docId invertedList.remainingChunkCount.toNat invertedList
      hidx (le_refl _)
    obtain ⟨c1, c2, c3⟩ := skipChunks_stops docId
      (skipBlocks invertedList.remainingChunkCount.toNat invertedList docId).remainingChunkCount.toNat
      (skipBlocks invertedList.remainingChunkCount.toNat invertedList docId) b1 (le_refl _) b2
    generalize skipChunks
      (skipBlocks invertedList.remainingChunkCount.toNat invertedList docId).remainingChunkCount.toNat
      (skipBlocks invertedList.remainingChunkCount.toNat invertedList docId) docId = l2
      at hfirst c1 c2 c3
    cases hdec : decompressPostings ops l2 with
    | none => rw [hdec] at hfirst; simp at hfirst
    | some l3 =>
      rw [hdec] at hfirst
      simp only at hfirst
      -- the fields the skipping loops look at are those of `l2`
      have hsame : l3.currentChunkIndex = l2.currentChunkIndex ∧
          l3.remainingChunkCount = l2.remainingChunkCount ∧ l3.lastDocIds = l2.lastDocIds := by
        simp only [decompressPostings] at hdec
        cases h1 : decompressDocIds (l2.postings.length + 1) l2.postings
            (l2.lastDocIds.getD l2.currentChunkIndex 0) (-1) 0 l2.docIds with
        | none => rw [h1] at hdec; simp at hdec
        | some p =>
          rw [h1] at hdec
          simp only at hdec
          cases h2 : decompressImpactScores ops p.2.1 p.1 0 l2.impactScores with
          | none => rw [h2] at hdec; simp at hdec
          | some impactScores =>
            rw [h2] at hdec
            simp only [Option.some.injEq] at hdec
            subst hdec
            exact ⟨rfl, rfl, rfl⟩
      obtain ⟨s1, s2, s3⟩ := hsame
      have hrun : ∀ p : Nat,
          getNextGEQDocId ops { l3 with currentPostingIndex := p } docId
            = (match searchPostings l3.postingCount 0 l3.docIds docId with
              | some postingIndex =>
                some (l3.docIds.getD postingIndex 0, { l3 with currentPostingIndex := postingIndex })
              | none => some (-1, { l3 with currentPostingIndex := p })) := by
        intro p
        have hb : skipBlocks ({ l3 with currentPostingIndex := p } : InvertedList D).remainingChunkCount.toNat
            { l3 with currentPostingIndex := p } docId = { l3 with currentPostingIndex := p } :=
          skipBlocks_of_not _ _ _ (by simp only [s1, s2, s3]; exact c2)
        have hc : skipChunks ({ l3 with currentPostingIndex := p } : InvertedList D).remainingChunkCount.toNat
            { l3 with currentPostingIndex := p } docId = { l3 with currentPostingIndex := p } :=
          skipChunks_of_not _ _ _ (by simp only [s1, s2, s3]; exact c3)
        simp only [getNextGEQDocId]
        rw [hb, hc, decompressPostings_again ops l2 l3 hdec p]
      cases hs : searchPostings l3.postingCount 0 l3.docIds docId with
      | some postingIndex =>
        rw [hs] at hfirst
        simp only [Option.some.injEq, Prod.mk.injEq] at hfirst
        obtain ⟨hr, hafter⟩ := hfirst
        subst hr hafter
        rw [hrun postingIndex, hs]
      | none =>
        rw [hs] at hfirst
        simp only [Option.some.injEq, Prod.mk.injEq] at hfirst
        obtain ⟨hr, hafter⟩ := hfirst
        subst hr hafter
        have := hrun l3.currentPostingIndex
        rw [hs] at this
        exact this
  refine ⟨key, ?_⟩
  intro second hsecond
  rw [key] at hsecond
  simp only [Option.some.injEq] at hsecond
  subst hsecond
  exact ⟨rfl, rfl, rfl, rfl⟩

set_option maxRecDepth 1000000 in
theorem getNextGEQDocId_idempotent_witness :
    longList.currentChunkIndex < MAX_CHUNK_COUNT ∧
    ∃ after : InvertedList Int,
      getNextGEQDocId intOps longList 258 = some (259, after) ∧
      getNextGEQDocId intOps after 258 = some (259, after) := by
  have hsome : (getNextGEQDocId intOps longList 258).isSome = true := by decide
  obtain ⟨⟨r, after⟩, h⟩ := Option.isSome_iff_exists.1 hsome
  have hr : (getNextGEQDocId intOps longList 258).map (fun p => p.1) = some 259 := by decide
  rw [h] at hr
  simp only [Option.map_some', Option.some.injEq] at hr
  subst hr
  exact ⟨by decide, after, h,
    (getNextGEQDocId_idempotent intOps longList after 258 259 (by decide) h).1⟩

/-! ### Termination of the conjunctive evaluator -/

/-- The main loop of `conjunctiveDocumentAtATime` is its turn, repeated until a
turn leaves the loop. -/
theorem conjunctiveLoop_turn {D : Type} [Zero D] [Add D] [LT D]
    [DecidableRel (fun a b : D => a < b)] (ops : DoubleOps D) (fuel : Nat)
    (st : ConjunctiveState D) :
    conjunctiveLoop ops (fuel + 1) st =
      match conjunctiveTurn ops st with
      | none => none
      | some (true, st1) => some st1
      | some (false, st1) => conjunctiveLoop ops fuel st1 := by
  rw [conjunctiveLoop, conjunctiveTurn]
  cases st.invertedLists with
  | nil => rfl
  | cons first others =>
    simp only
    cases getNextGEQDocId ops first st.currentDocId with
    | none => rfl
    | some p =>
      obtain ⟨candidateDocId, first1⟩ := p
      simp only
      by_cases h1 : candidateDocId = -1
      · simp only [h1, if_true]
      · simp only [if_neg h1]
        cases conjunctiveCheck ops others candidateDocId
            { anyListExhausted := false, allMatched := true,
              currentDocId := st.currentDocId } with
        | none => rfl
        | some q =>
          obtain ⟨others1, flags⟩ := q
          simp only
          by_cases h2 : flags.anyListExhausted = true
          · simp only [h2, if_true]
          · simp only [h2, if_false, Bool.false_eq_true]
            by_cases h3 : flags.allMatched = true
            · simp only [h3, if_true]
              by_cases h4 : candidateDocId = INT_MAX
              · simp only [h4, if_true]
              · simp only [if_neg h4]
            · simp only [h3, if_false, Bool.false_eq_true]

/-- More fuel does not change the result of the main loop. -/
theorem conjunctiveLoop_fuel {D : Type} [Zero D] [Add D] [LT D]
    [DecidableRel (fun a b : D => a < b)] (ops : DoubleOps D) :
    ∀ (fuel : Nat) (st st1 : ConjunctiveState D), conjunctiveLoop ops fuel st = some st1 →
      ∀ k, conjunctiveLoop ops (fuel + k) st = some st1 := by
  intro fuel
  induction fuel with
  | zero => intro st st1 h; simp [conjunctiveLoop] at h
  | succ fuel ih =>
    intro st st1 h k
    rw [Nat.add_right_comm, conjunctiveLoop_turn]
    rw [conjunctiveLoop_turn] at h
    cases ht : conjunctiveTurn ops st with
    | none => rw [ht] at h; simp at h
    | some p =>
      obtain ⟨b, st2⟩ := p
      rw [ht] at h
      cases b with
      | true => exact h
      | false => exact ih st2 st1 h k

/-- A docID that `getNextGEQDocId` returns is `-1` or at least the target. -/
theorem getNextGEQDocId_ge {D : Type} [Zero D] (ops : DoubleOps D) (invertedList : InvertedList D)
    (docId r : Int) (after : InvertedList D)
    (h : getNextGEQDocId ops invertedList docId = some (r, after)) : r = -1 ∨ docId ≤ r := by
  simp only [getNextGEQDocId] at h
  cases hdec : decompressPostings ops
      (skipChunks
        (skipBlocks invertedList.remainingChunkCount.toNat invertedList docId).remainingChunkCount.toNat
        (skipBlocks invertedList.remainingChunkCount.toNat invertedList docId) docId) with
  | none => rw [hdec] at h; simp at h
  | some l3 =>
    rw [hdec] at h
    simp only at h
    have hspec := searchPostings_spec l3.docIds docId l3.postingCount 0
    cases hs : searchPostings l3.postingCount 0 l3.docIds docId with
    | none =>
      rw [hs] at h
      simp only [Option.some.injEq, Prod.mk.injEq] at h
      exact Or.inl h.1.symm
    | some k =>
      rw [hs] at h hspec
      simp only [Option.some.injEq, Prod.mk.injEq] at h
      right
      rw [← h.1]
      exact hspec.2.2.1

/-- The loop over the other lists leaves `currentDocId` as it is unless it finds
a mismatch, where it sets `currentDocId` to a docID above the candidate. -/
theorem conjunctiveCheck_flags {D : Type} [Zero D] (ops : DoubleOps D) (candidateDocId : Int) :
    ∀ (others others1 : List (InvertedList D)) (flags flags1 : ConjunctiveFlags),
      flags.anyListExhausted = false → flags.allMatched = true →
      conjunctiveCheck ops others candidateDocId flags = some (others1, flags1) →
      flags1.anyListExhausted = true ∨
      (flags1.allMatched = true ∧ flags1.currentDocId = flags.currentDocId) ∨
      (flags1.allMatched = false ∧ candidateDocId < flags1.currentDocId) := by
  intro others
  induction others with
  | nil =>
    intro others1 flags flags1 _ h2 h
    simp only [conjunctiveCheck, Option.some.injEq, Prod.mk.injEq] at h
    rw [← h.2]
    exact Or.inr (Or.inl ⟨h2, rfl⟩)
  | cons invertedList others ih =>
    intro others1 flags flags1 h1 h2 h
    rw [conjunctiveCheck] at h
    cases hg : getNextGEQDocId ops invertedList candidateDocId with
    | none => rw [hg] at h; simp at h
    | some p =>
      obtain ⟨nextDocId, invertedList1⟩ := p
      rw [hg] at h
      simp only at h
      by_cases hn : nextDocId = -1
      · rw [if_pos hn] at h
        simp only [Option.some.injEq, Prod.mk.injEq] at h
        rw [← h.2]
        exact Or.inl rfl
      · rw [if_neg hn] at h
        by_cases hm : nextDocId ≠ candidateDocId
        · rw [if_pos hm] at h
          simp only [Option.some.injEq, Prod.mk.injEq] at h
          rw [← h.2]
          right; right
          refine ⟨rfl, ?_⟩
          rcases getNextGEQDocId_ge ops invertedList candidateDocId nextDocId invertedList1 hg
            with h0 | h0
          · exact absurd h0 hn
          · exact lt_of_le_of_ne h0 (Ne.symm hm)
        · rw [if_neg hm] at h
          cases hc : conjunctiveCheck ops others candidateDocId flags with
          | none => rw [hc] at h; simp at h
          | some q =>
            obtain ⟨others2, flags2⟩ := q
            rw [hc] at h
            simp only [Option.some.injEq, Prod.mk.injEq] at h
            rw [← h.2]
            exact ih others2 flags flags2 h1 h2 hc

/-- A turn of the main loop that does not leave the loop moves `currentDocId`
above the candidate of the turn, which is not below `currentDocId`. -/
theorem conjunctiveTurn_increases {D : Type} [Zero D] [Add D] [LT D]
    [DecidableRel (fun a b : D => a < b)] (ops : DoubleOps D) (st st1 : ConjunctiveState D)
    (h : conjunctiveTurn ops st = some (false, st1)) :
    ∃ (first : InvertedList D) (candidateDocId : Int) (first1 : InvertedList D),
      st.invertedLists.head? = some first ∧
      getNextGEQDocId ops first st.currentDocId = some (candidateDocId, first1) ∧
      st.currentDocId ≤ candidateDocId ∧
      (st1.currentDocId = candidateDocId + 1 ∨ candidateDocId < st1.currentDocId) ∧
      st.currentDocId < st1.currentDocId := by
  rw [conjunctiveTurn] at h
  cases hl : st.invertedLists with
  | nil => rw [hl] at h; simp at h
  | cons first others =>
    rw [hl] at h
    simp only at h
    cases hg : getNextGEQDocId ops first st.currentDocId with
    | none => rw [hg] at h; simp at h
    | some p =>
      obtain ⟨candidateDocId, first1⟩ := p
      rw [hg] at h
      simp only at h
      by_cases h1 : candidateDocId = -1
      · rw [if_pos h1] at h; simp at h
      rw [if_neg h1] at h
      have hge : st.currentDocId ≤ candidateDocId := by
        rcases getNextGEQDocId_ge ops first st.currentDocId candidateDocId first1 hg with h0 | h0
        · exact absurd h0 h1
        · exact h0
      cases hc : conjunctiveCheck ops others candidateDocId
          { anyListExhausted := false, allMatched := true,
            currentDocId := st.currentDocId } with
      | none => rw [hc] at h; simp at h
      | some q =>
        obtain ⟨others1, flags⟩ := q
        rw [hc] at h
        simp only at h
        by_cases h2 : flags.anyListExhausted = true
        · rw [if_pos h2] at h; simp at h
        rw [if_neg h2] at h
        by_cases h3 : flags.allMatched = true
        · rw [if_pos h3] at h
          by_cases h4 : candidateDocId = INT_MAX
          · rw [if_pos h4] at h; simp at h
          rw [if_neg h4] at h
          simp only [Option.some.injEq, Prod.mk.injEq, true_and] at h
          rw [← h]
          exact ⟨first, candidateDocId, first1, rfl, hg, hge, Or.inl rfl, by simp only; omega⟩
        · rw [if_neg h3] at h
          simp only [Option.some.injEq, Prod.mk.injEq, true_and] at h
          rw [← h]
          rcases conjunctiveCheck_flags ops candidateDocId others others1 _ flags rfl rfl hc
            with h5 | h5 | h5
          · exact absurd h5 h2
          · exact absurd h5.1 h3
          · exact ⟨first, candidateDocId, first1, rfl, hg, hge, Or.inr h5.2,
              lt_of_le_of_lt hge h5.2⟩

/-- C39: in `conjunctiveDocumentAtATime` the cursor `currentDocId` strictly
increases on every turn of the main loop that does not leave the loop: the
candidate of the turn is not below `currentDocId`, and the turn sets
`currentDocId` to `candidateDocId + 1` on a match and to the larger docID that a
later list returned on a mismatch.  So the loop terminates on posting lists
with strictly increasing docIDs: with more turns of fuel than the first list has
postings the function returns, and returns the same heap whatever the fuel. -/
theorem conjunctiveDocumentAtATime_terminates {D : Type} [Zero D] [Add D] [LT D]
    [DecidableRel (fun a b : D => a < b)] (ops : DoubleOps D)
    (invertedLists : List (InvertedList D)) (terms : List (List (List (Int × Nat))))
    (hne : invertedLists ≠ [])
    (hrep : List.Forall₂ Represents invertedLists terms)
    (hok : ∀ t ∈ terms, ChunksOK t) :
    (∀ (fuel : Nat) (st : ConjunctiveState D),
      conjunctiveLoop ops (fuel + 1) st =
        match conjunctiveTurn ops st with
        | none => none
        | some (true, st1) => some st1
        | some (false, st1) => conjunctiveLoop ops fuel st1) ∧
    (∀ st st1 : ConjunctiveState D, conjunctiveTurn ops st = some (false, st1) →
      st.currentDocId < st1.currentDocId ∧
      ∃ (first : InvertedList D) (candidateDocId : Int) (first1 : InvertedList D),
        st.invertedLists.head? = some first ∧
        getNextGEQDocId ops first st.currentDocId = some (candidateDocId, first1) ∧
        st.currentDocId ≤ candidateDocId ∧
        (st1.currentDocId = candidateDocId + 1 ∨ candidateDocId < st1.currentDocId)) ∧
    ∃ heap : QueryHeap D, ∀ fuel, (docIdsOf (terms.headD [])).length < fuel →
      conjunctiveDocumentAtATime ops fuel (invertedLists.map some) = some heap := by
  refine ⟨conjunctiveLoop_turn ops, ?_, ?_⟩
  · intro st st1 h
    obtain ⟨first, c, first1, e1, e2, e3, e4, e5⟩ := conjunctiveTurn_increases ops st st1 h
    exact ⟨e5, first, c, first1, e1, e2, e3, e4⟩
  · cases hrep with
    | nil => exact absurd rfl hne
    | @cons first total0 others totals hfirst hothers =>
      have hall : List.Forall₂ (IteratorAt (0 : Int)) (first :: others) (total0 :: totals) :=
        List.Forall₂.cons ⟨_, hfirst, SkipsTo.refl _ _⟩
          (hothers.imp (fun a b h => ⟨_, h, SkipsTo.refl _ _⟩))
      have hlen : ((docIdsOf total0).filter (fun d => decide ((0 : Int) ≤ d))).length
          < (docIdsOf total0).length + 1 :=
        Nat.lt_succ_of_le (List.length_filter_le _ _)
      obtain ⟨st1, offered, h1, -⟩ := conjunctiveLoop_spec ops total0 totals hok
        ((docIdsOf total0).length + 1)
        { invertedLists := first :: others
          topK := { heap := QueryHeap.createHeap, resultCount := 0 }
          currentDocId := 0 } hall le_rfl hlen
      refine ⟨QueryHeap.heapSort st1.topK.heap, ?_⟩
      intro fuel hfuel
      simp only [List.headD_cons] at hfuel
      have hany : ((first :: others).map some).any (fun l => l.isNone) = false := by
        simp
      have hfm : ((first :: others).map some).filterMap id = first :: others := by
        simp
      have h2 := conjunctiveLoop_fuel ops _ _ _ h1 (fuel - ((docIdsOf total0).length + 1))
      rw [show (docIdsOf total0).length + 1 + (fuel - ((docIdsOf total0).length + 1)) = fuel
        by omega] at h2
      simp only [conjunctiveDocumentAtATime, hany, hfm, Bool.false_eq_true, if_false, h2]

set_option maxRecDepth 1000000 in
theorem conjunctiveDocumentAtATime_terminates_witness :
    twoTermLists ≠ [] ∧ List.Forall₂ Represents twoTermLists twoTermPostings ∧
    (∀ t ∈ twoTermPostings, ChunksOK t) ∧
    ∃ heap : QueryHeap Int, ∀ fuel, (docIdsOf (twoTermPostings.headD [])).length < fuel →
      conjunctiveDocumentAtATime intOps fuel (twoTermLists.map some) = some heap :=
  ⟨List.cons_ne_nil _ _, twoTermLists_represent, twoTermPostings_ok,
   (conjunctiveDocumentAtATime_terminates intOps twoTermLists twoTermPostings
      (List.cons_ne_nil _ _)
      twoTermLists_represent twoTermPostings_ok).2.2⟩

/-! ### Queries of a single term -/

/-- The first components of a zip are among the entries of the first list, in
their order. -/
theorem map_fst_zip_sublist {α β : Type} :
    ∀ (a : List α) (b : List β), ((a.zip b).map (fun p => p.1)).Sublist a := by
  intro a
  induction a with
  | nil => intro b; simp
  | cons x a ih =>
    intro b
    cases b with
    | nil => simp
    | cons y b =>
      simp only [List.zip_cons_cons, List.map_cons]
      exact List.Sublist.cons₂ _ (ih b)

/-- The docIDs of the decoded postings are docIDs of the chunks, in their order. -/
theorem decodedPostings_fst_sublist {D : Type} [Zero D] (ops : DoubleOps D)
    (chunks : List (List (Int × Nat))) :
    ((decodedPostings ops chunks).map (fun p => p.1)).Sublist (docIdsOf chunks) := by
  induction chunks with
  | nil => simp [decodedPostings, docIdsOf]
  | cons c cs ih =>
    rw [docIdsOf_cons]
    have h1 : decodedPostings ops (c :: cs) = decodedChunk ops c ++ decodedPostings ops cs := by
      simp [decodedPostings]
    rw [h1, List.map_append]
    refine List.Sublist.append ?_ ih
    simp only [decodedChunk]
    exact map_fst_zip_sublist _ _

/-- In a list of pairs with distinct first components, the first component
determines the second. -/
theorem snd_unique_of_nodup_fst {α β : Type} :
    ∀ (l : List (α × β)), (l.map (fun p => p.1)).Nodup →
      ∀ (a : α) (x y : β), (a, x) ∈ l → (a, y) ∈ l → x = y := by
  intro l
  induction l with
  | nil => intro _ a x y h; simp at h
  | cons p l ih =>
    intro hnd a x y hx hy
    rw [List.map_cons, List.nodup_cons] at hnd
    rcases List.mem_cons.1 hx with hx | hx <;> rcases List.mem_cons.1 hy with hy | hy
    · rw [← hx] at hy
      exact (Prod.mk.inj hy).2.symm
    · exfalso
      apply hnd.1
      rw [← hx]
      exact List.mem_map.2 ⟨(a, y), hy, rfl⟩
    · exfalso
      apply hnd.1
      rw [← hy]
      exact List.mem_map.2 ⟨(a, x), hx, rfl⟩
    · exact ih hnd.2 a x y hx hy

/-- The decoded impact of a docID of a posting list with increasing docIDs is
unique. -/
theorem decodedPostings_unique {D : Type} [Zero D] (ops : DoubleOps D)
    (chunks : List (List (Int × Nat))) (hok : ChunksOK chunks) (d : Int) (x y : D)
    (hx : (d, x) ∈ decodedPostings ops chunks) (hy : (d, y) ∈ decodedPostings ops chunks) :
    x = y := by
  have hs := (decodedPostings_fst_sublist ops chunks)
  have hp : ((decodedPostings ops chunks).map (fun p => p.1)).Pairwise (fun a b => a < b) :=
    List.Pairwise.sublist hs hok.sorted
  have hnd : ((decodedPostings ops chunks).map (fun p => p.1)).Nodup :=
    hp.imp (fun h => ne_of_lt h)
  exact snd_unique_of_nodup_fst _ hnd d x y hx hy

/-- Two lists of pairs with the same first components, in which equal first
components go with equal second components, are equal. -/
theorem eq_of_map_fst_eq {α β : Type} :
    ∀ (l1 l2 : List (α × β)), l1.map (fun p => p.1) = l2.map (fun p => p.1) →
      (∀ p ∈ l1, ∀ q ∈ l2, p.1 = q.1 → p.2 = q.2) → l1 = l2 := by
  intro l1
  induction l1 with
  | nil =>
    intro l2 h _
    cases l2 with
    | nil => rfl
    | cons q l2 => simp at h
  | cons p l1 ih =>
    intro l2 h hsnd
    cases l2 with
    | nil => simp at h
    | cons q l2 =>
      simp only [List.map_cons, List.cons.injEq] at h
      have h2 := hsnd p (List.mem_cons_self _ _) q (List.mem_cons_self _ _) h.1
      have hpq : p = q := Prod.ext h.1 h2
      rw [hpq, ih l2 h.2 (fun p hp q hq => hsnd p (List.mem_cons_of_mem _ hp) q
        (List.mem_cons_of_mem _ hq))]

/-- Two strictly increasing lists of docIDs with the same members are equal. -/
theorem eq_of_increasing_of_mem_iff (l1 l2 : List Int)
    (h1 : l1.Pairwise (fun a b => a < b)) (h2 : l2.Pairwise (fun a b => a < b))
    (hmem : ∀ d, d ∈ l1 ↔ d ∈ l2) : l1 = l2 := by
  have hn1 : l1.Nodup := h1.imp (fun h => ne_of_lt h)
  have hn2 : l2.Nodup := h2.imp (fun h => ne_of_lt h)
  have hperm : l1.Perm l2 := (List.perm_ext_iff_of_nodup hn1 hn2).2 hmem
  exact List.eq_of_perm_of_sorted hperm h1 h2

/-- C40: for a query of a single term that is in the lexicon,
`conjunctiveDocumentAtATime` and `disjunctiveDocumentAtATime` return the same
heap: the same `nodeCount` and the same sequence of nodes `(docId,
impactScore)`.  The iterator of the term stands at the start of its postings,
which have strictly increasing docIDs, and each evaluator has more turns of
fuel than the term has postings. -/
theorem conjunctive_eq_disjunctive_single_term {D : Type} [Zero D] [Add D] [LT D]
    [DecidableRel (fun a b : D => a < b)] (ops : DoubleOps D) (fuel1 fuel2 : Nat)
    (invertedList : InvertedList D) (total : List (List (Int × Nat)))
    (hrep : Represents invertedList total) (hok : ChunksOK total)
    (hfuel1 : (docIdsOf total).length < fuel1) (hfuel2 : (docIdsOf total).length < fuel2) :
    ∃ heap : QueryHeap D,
      conjunctiveDocumentAtATime ops fuel1 [some invertedList] = some heap ∧
      disjunctiveDocumentAtATime ops fuel2 [some invertedList] = some heap ∧
      ∀ conjunctive disjunctive : QueryHeap D,
        conjunctiveDocumentAtATime ops fuel1 [some invertedList] = some conjunctive →
        disjunctiveDocumentAtATime ops fuel2 [some invertedList] = some disjunctive →
        conjunctive.nodeCount = disjunctive.nodeCount ∧
        conjunctive.heapNodes = disjunctive.heapNodes := by
  -- the conjunctive evaluator
  have hokc : ∀ t ∈ total :: ([] : List (List (List (Int × Nat)))), ChunksOK t := by
    intro t ht
    simp only [List.mem_singleton] at ht
    rw [ht]; exact hok
  have hallc : List.Forall₂ (IteratorAt (0 : Int)) [invertedList] [total] :=
    List.Forall₂.cons ⟨_, hrep, SkipsTo.refl _ _⟩ List.Forall₂.nil
  obtain ⟨stc, offc, c1, c2, c3, c4, c5⟩ := conjunctiveLoop_spec ops total [] hokc fuel1
    { invertedLists := [invertedList]
      topK := { heap := QueryHeap.createHeap, resultCount := 0 }
      currentDocId := 0 } hallc le_rfl
    (lt_of_le_of_lt (List.length_filter_le _ _) hfuel1)
  have hconj : conjunctiveDocumentAtATime ops fuel1 [some invertedList]
      = some (QueryHeap.heapSort stc.topK.heap) := by
    have hany : ([some invertedList]).any (fun l => l.isNone) = false := by simp
    have hfm : ([some invertedList]).filterMap id = [invertedList] := by simp
    simp only [conjunctiveDocumentAtATime, hany, hfm, Bool.false_eq_true, if_false, c1]
  -- the disjunctive evaluator
  have hokd : ∀ t, some t ∈ [some total] → ChunksOK t := by
    intro t ht
    simp only [List.mem_singleton, Option.some.injEq] at ht
    rw [ht]; exact hok
  have hrepd : List.Forall₂ RepresentsTerm [some invertedList] [some total] :=
    List.Forall₂.cons hrep List.Forall₂.nil
  obtain ⟨cursors, hinit, halld⟩ := disjunctiveInit_spec ops _ _ hrepd hokd
  have hpres : presentDocIds [some total] = docIdsOf total := by
    simp [presentDocIds]
  obtain ⟨std, offd, d1, d2, d3, d4, d5⟩ := disjunctiveLoop_spec ops [some total] hokd fuel2
    { cursors := cursors
      topK := { heap := QueryHeap.createHeap, resultCount := 0 }
      allListsExhausted := false } 0 halld le_rfl (fun h => absurd h (by simp))
    (lt_of_le_of_lt (List.length_filter_le _ _) (by rw [hpres]; exact hfuel2))
  have hdisj : disjunctiveDocumentAtATime ops fuel2 [some invertedList]
      = some (QueryHeap.heapSort std.topK.heap) := by
    simp only [disjunctiveDocumentAtATime, hinit, d1]
  -- the two evaluators offer the same candidates
  have hfst : offc.map (fun c => c.1) = offd.map (fun c => c.1) := by
    apply eq_of_increasing_of_mem_iff _ _ c3 d3
    intro d
    rw [c4 d, d4 d]
    constructor
    · rintro ⟨h0, h⟩
      exact ⟨h0, total, List.mem_singleton.2 rfl, h total (List.mem_singleton.2 rfl)⟩
    · rintro ⟨h0, t, ht, hd⟩
      simp only [List.mem_singleton, Option.some.injEq] at ht
      subst ht
      refine ⟨h0, ?_⟩
      intro t' ht'
      simp only [List.mem_singleton] at ht'
      rw [ht']; exact hd
  have hoff : offc = offd := by
    apply eq_of_map_fst_eq _ _ hfst
    intro p hp q hq hpq
    obtain ⟨impacts, hi1, hi2⟩ := c5 p hp
    obtain ⟨contributions, hc1, hc2⟩ := d5 q hq
    cases hi1 with
    | @cons _ x _ rest hx hrest =>
    cases hrest
    cases hc1 with
    | @cons _ y _ rest hy hrest =>
    cases hrest
    have hqmem : q.1 ∈ docIdsOf total := by
      rw [← hpq]
      exact mem_docIdsOf_of_mem_decodedPostings ops total p.1 x hx
    cases y with
    | none => exact absurd hqmem hy
    | some y =>
      have hxy : x = y := by
        rw [hpq] at hx
        exact decodedPostings_unique ops total hok q.1 x y hx hy
      rw [hi2, hc2, hxy]
      rfl
  have hheap : QueryHeap.heapSort stc.topK.heap = QueryHeap.heapSort std.topK.heap := by
    rw [c2, d2, hoff]
  refine ⟨QueryHeap.heapSort stc.topK.heap, hconj, by rw [hdisj, hheap], ?_⟩
  intro conjunctive disjunctive hc hd
  rw [hconj] at hc
  rw [hdisj, ← hheap] at hd
  simp only [Option.some.injEq] at hc hd
  rw [← hc, ← hd]
  exact ⟨rfl, rfl⟩

set_option maxRecDepth 1000000 in
theorem conjunctive_eq_disjunctive_single_term_witness :
    Represents longList longChunks ∧ ChunksOK longChunks ∧ (docIdsOf longChunks).length < 131 ∧
    ∃ heap : QueryHeap Int,
      conjunctiveDocumentAtATime intOps 131 [some longList] = some heap ∧
      disjunctiveDocumentAtATime intOps 131 [some longList] = some heap :=
  ⟨longList_represents, longChunks_ok, by decide,
   (conjunctive_eq_disjunctive_single_term intOps 131 131 longList longChunks longList_represents
      longChunks_ok (by decide) (by decide)).imp (fun _ h => ⟨h.1, h.2.1⟩)⟩

/-! ### Chunks of an index file -/

theorem eq_take_cons_drop {α : Type} (l : List α) (i : Nat) (x : α) (h : l[i]? = some x) :
    l = l.take i ++ x :: l.drop (i + 1) := by
  have hi : i < l.length := by
    by_contra hc
    rw [List.getElem?_eq_none (by omega)] at h
    simp at h
  rw [List.getElem?_eq_getElem hi] at h
  simp only [Option.some.injEq] at h
  rw [← h, List.getElem_cons_drop, List.take_append_drop]

/-- Chunk `k` of an index whose blocks but the last are full is slot
`k % MAX_CHUNK_COUNT` of block `k / MAX_CHUNK_COUNT`. -/
theorem allChunks_getElem {D : Type} [Zero D] :
    ∀ (blocks : List (IndexBlock D)), (∀ b ∈ blocks, BlockWF b) →
      (∀ b ∈ blocks.dropLast, b.chunkCount = MAX_CHUNK_COUNT) →
      ∀ k, k < (allChunks blocks).length →
        ∃ b, blocks[k / MAX_CHUNK_COUNT]? = some b ∧ k % MAX_CHUNK_COUNT < b.chunkCount ∧
          (allChunks blocks)[k]? = some (b.indexChunks.getD (k % MAX_CHUNK_COUNT) emptyIndexChunk) := by
  intro blocks
  induction blocks with
  | nil => intro _ _ k hk; simp [allChunks] at hk
  | cons b rest ih =>
    intro hwf hfull k hk
    have hb := hwf b (List.mem_cons_self _ _)
    have hall : allChunks (b :: rest) = b.indexChunks.take b.chunkCount ++ allChunks rest := by
      simp [allChunks]
    have hcl : (b.indexChunks.take b.chunkCount).length = b.chunkCount := by
      rw [List.length_take, hb.chunks_length]; exact min_eq_left hb.count_le
    have hin : ∀ j, j < b.chunkCount → (b.indexChunks.take b.chunkCount)[j]?
        = some (b.indexChunks.getD j emptyIndexChunk) := by
      intro j hj
      have hj2 : j < b.indexChunks.length := by
        rw [hb.chunks_length]; exact lt_of_lt_of_le hj hb.count_le
      rw [List.getElem?_take_of_lt hj, List.getD_eq_getElem?_getD, List.getElem?_eq_getElem hj2]
      rfl
    by_cases hk1 : k < b.chunkCount
    · have hk64 : k < MAX_CHUNK_COUNT := lt_of_lt_of_le hk1 hb.count_le
      have hdiv : k / MAX_CHUNK_COUNT = 0 := Nat.div_eq_of_lt hk64
      have hmod : k % MAX_CHUNK_COUNT = k := Nat.mod_eq_of_lt hk64
      refine ⟨b, by rw [hdiv]; simp, by rw [hmod]; exact hk1, ?_⟩
      rw [hall, List.getElem?_append_left (by rw [hcl]; exact hk1), hmod]
      exact hin k hk1
    · have hrest : rest ≠ [] := by
        intro h0
        subst h0
        rw [hall, List.length_append, hcl] at hk
        simp [allChunks] at hk
        omega
      have hbfull : b.chunkCount = MAX_CHUNK_COUNT := by
        apply hfull
        rw [List.dropLast_cons_of_ne_nil hrest]
        exact List.mem_cons_self _ _
      have hk2 : k - MAX_CHUNK_COUNT < (allChunks rest).length := by
        rw [hall, List.length_append, hcl, hbfull] at hk
        rw [hbfull] at hk1
        omega
      obtain ⟨b2, e1, e2, e3⟩ := ih (fun x hx => hwf x (List.mem_cons_of_mem _ hx))
        (fun x hx => hfull x (by
          rw [List.dropLast_cons_of_ne_nil hrest]; exact List.mem_cons_of_mem _ hx))
        (k - MAX_CHUNK_COUNT) hk2
      rw [hbfull] at hk1
      have hge : MAX_CHUNK_COUNT ≤ k := not_lt.1 hk1
      have hdiv : k / MAX_CHUNK_COUNT = (k - MAX_CHUNK_COUNT) / MAX_CHUNK_COUNT + 1 := by
        simp only [MAX_CHUNK_COUNT] at hge ⊢; omega
      have hmod : k % MAX_CHUNK_COUNT = (k - MAX_CHUNK_COUNT) % MAX_CHUNK_COUNT := by
        simp only [MAX_CHUNK_COUNT] at hge ⊢; omega
      refine ⟨b2, by rw [hdiv, List.getElem?_cons_succ]; exact e1, by rw [hmod]; exact e2, ?_⟩
      rw [hall, List.getElem?_append_right (by rw [hcl, hbfull]; exact hge), hcl, hbfull, hmod]
      exact e3

/-- The file of an index around one of its blocks. -/
theorem writeInvertedIndexToDisk_block {D : Type} (ops : DoubleOps D)
    (invertedIndex : InvertedIndex D) (blockIndex : Nat) (block : IndexBlock D)
    (h : invertedIndex.blocks[blockIndex]? = some block) :
    writeInvertedIndexToDisk ops invertedIndex
      = (invertedIndex.blocks.take blockIndex).flatMap (writeBlock ops) ++ writeBlock ops block
        ++ (invertedIndex.blocks.drop (blockIndex + 1)).flatMap (writeBlock ops) ∧
    invertedIndex.blockOffset ops (blockIndex + 1)
      = invertedIndex.blockOffset ops blockIndex + (writeBlock ops block).length := by
  constructor
  · simp only [writeInvertedIndexToDisk]
    conv_lhs => rw [eq_take_cons_drop _ _ _ h]
    simp [List.flatMap_append]
  · simp only [InvertedIndex.blockOffset]
    rw [List.take_succ, h]
    simp [List.flatMap_append]

/-- The bytes of a block around one of its chunks. -/
theorem writeBlock_chunk {D : Type} [Zero D] (ops : DoubleOps D) (block : IndexBlock D)
    (hwf : BlockWF block) (j : Nat) (hj : j < block.chunkCount) :
    writeBlock ops block
      = intsToBytes block.chunkSizes ++ intsToBytes block.lastDocIds
        ++ (block.indexChunks.take j).flatMap (writeChunk ops)
        ++ writeChunk ops (block.indexChunks.getD j emptyIndexChunk)
        ++ ((block.indexChunks.take block.chunkCount).drop (j + 1)).flatMap (writeChunk ops) ∧
    (block.indexChunks.take (j + 1)).flatMap (writeChunk ops)
      = (block.indexChunks.take j).flatMap (writeChunk ops)
        ++ writeChunk ops (block.indexChunks.getD j emptyIndexChunk) := by
  have hj2 : j < block.indexChunks.length := by
    rw [hwf.chunks_length]; exact lt_of_lt_of_le hj hwf.count_le
  have hget : (block.indexChunks.take block.chunkCount)[j]?
      = some (block.indexChunks.getD j emptyIndexChunk) := by
    rw [List.getElem?_take_of_lt hj, List.getD_eq_getElem?_getD, List.getElem?_eq_getElem hj2]
    rfl
  constructor
  · simp only [writeBlock]
    conv_lhs => rw [eq_take_cons_drop _ _ _ hget]
    rw [List.take_take, min_eq_left (le_of_lt hj)]
    simp [List.flatMap_append, List.append_assoc]
  · rw [take_succ_getD _ _ emptyIndexChunk hj2]
    simp [List.flatMap_append]

/-! ### Chunks and blocks as they lie in a file -/

theorem IncreasingFrom_range (l : List Int) :
    ∀ prev, IncreasingFrom prev l → ∀ d ∈ l, 0 ≤ d ∧ d < 2 ^ 31 := by
  induction l with
  | nil => intro _ _ d hd; simp at hd
  | cons a rest ih =>
    intro prev h d hd
    obtain ⟨-, h2, h3, h4⟩ := h
    rcases List.mem_cons.1 hd with h0 | h0
    · rw [h0]; exact ⟨h2, h3⟩
    · exact ih a h4 d h0

/-- What the file holds for a chunk of an index the encoder has built: the
bytes of its postings, and in the header of its block their number and the
last docID. -/
theorem chunk_on_disk {D : Type} [Zero D] (ops : DoubleOps D) (invertedIndex : InvertedIndex D)
    (hix : IndexOnDisk invertedIndex) (block : IndexBlock D) (hb : block ∈ invertedIndex.blocks)
    (j : Nat) (hj : j < block.chunkCount) :
    writeChunk ops (block.indexChunks.getD j emptyIndexChunk)
      = chunkBytes ((block.indexChunks.getD j emptyIndexChunk).pairs ops) ∧
    block.lastDocIds.getD j 0
      = chunkLastDocId ((block.indexChunks.getD j emptyIndexChunk).pairs ops) ∧
    block.chunkSizes.getD j 0
      = ((chunkBytes ((block.indexChunks.getD j emptyIndexChunk).pairs ops)).length : Int) ∧
    ((block.indexChunks.getD j emptyIndexChunk).pairs ops).map (fun p => p.1)
      = (block.indexChunks.getD j emptyIndexChunk).absDocIds := by
  have hwf := hix.wf block hb
  have hm := hix.extra.blocks_meta block hb
  have hj2 : j < block.indexChunks.length := by
    rw [hwf.chunks_length]; exact lt_of_lt_of_le hj hwf.count_le
  have hmem : block.indexChunks.getD j emptyIndexChunk ∈ block.indexChunks := by
    rw [List.getD_eq_getElem?_getD, List.getElem?_eq_getElem hj2]
    exact List.getElem_mem _
  generalize hc : block.indexChunks.getD j emptyIndexChunk = c at hmem ⊢
  have hd := hwf.docIds_length c hmem
  have hs := hwf.scores_length c hmem
  have hp := hwf.posting_le c hmem
  have habs : c.absDocIds.length = c.postingCount := by
    simp only [IndexChunk.absDocIds, decodeStored_length, List.length_take, hd]
    exact min_eq_left hp
  have hbl : ((c.impactScores.take c.postingCount).map
      (fun x => ops.logCompressDouble x % 256)).length = c.postingCount := by
    simp only [List.length_map, List.length_take, hs]
    exact min_eq_left hp
  have hfst : (c.pairs ops).map (fun p => p.1) = c.absDocIds := by
    have := List.map_fst_zip c.absDocIds
      ((c.impactScores.take c.postingCount).map (fun x => ops.logCompressDouble x % 256))
      (by rw [habs, hbl])
    exact this
  have hsnd : (c.pairs ops).map (fun p => p.2)
      = (c.impactScores.take c.postingCount).map (fun x => ops.logCompressDouble x % 256) := by
    have := List.map_snd_zip c.absDocIds
      ((c.impactScores.take c.postingCount).map (fun x => ops.logCompressDouble x % 256))
      (by rw [habs, hbl])
    exact this
  have hbytes : writeChunk ops c = chunkBytes (c.pairs ops) := by
    simp only [chunkBytes, hfst, hsnd, writeChunk, IndexChunk.absDocIds,
      storedDocIds_decodeStored]
  have hinc : ∀ x ∈ block.indexChunks.take block.chunkCount,
      IncreasingFrom (-1) x.absDocIds := by
    intro x hx
    exact (hix.runs _ (List.mem_map_of_mem _ (mem_allChunks _ block hb x hx))).2
  refine ⟨hbytes, ?_, ?_, hfst⟩
  · have h1 := hm.lasts j
    rw [hc] at h1
    simp only [chunkLastDocId, hfst]
    rw [← h1]
    have hj3 : j < block.lastDocIds.length := by
      rw [hwf.lasts_length]; exact lt_of_lt_of_le hj hwf.count_le
    simp only [List.getD_eq_getElem?_getD, List.getElem?_eq_getElem hj3, Option.getD_some]
  · have h1 := (block_sizes_eq_bytes ops block hwf hm hinc).1 j hj
    rw [hc] at h1
    rw [h1, hbytes]

/-- A block of an index the encoder has built lies in the file with a header
that `fread` reads back. -/
theorem block_on_disk {D : Type} [Zero D] (ops : DoubleOps D) (invertedIndex : InvertedIndex D)
    (hix : IndexOnDisk invertedIndex) (block : IndexBlock D) (hb : block ∈ invertedIndex.blocks) :
    BlockOnDisk ops block ∧ ∀ v ∈ block.lastDocIds, -2 ^ 31 ≤ v ∧ v < 2 ^ 31 := by
  have hwf := hix.wf block hb
  have hm := hix.extra.blocks_meta block hb
  have hrun : ∀ c ∈ block.indexChunks.take block.chunkCount,
      c.absDocIds ≠ [] ∧ IncreasingFrom (-1) c.absDocIds := by
    intro x hx
    exact hix.runs _ (List.mem_map_of_mem _ (mem_allChunks _ block hb x hx))
  refine ⟨blockOnDisk_of_encoded ops block hwf hm hrun, ?_⟩
  intro v hv
  obtain ⟨i, hi, hvi⟩ := List.getElem_of_mem hv
  have h1 := hm.lasts i
  rw [List.getD_eq_getElem?_getD, List.getElem?_eq_getElem hi, Option.getD_some, hvi] at h1
  rw [h1]
  by_cases hic : i < block.chunkCount
  · have hi2 : i < block.indexChunks.length := by
      rw [hwf.chunks_length]; exact lt_of_lt_of_le hic hwf.count_le
    have hmem : block.indexChunks.getD i emptyIndexChunk ∈ block.indexChunks.take block.chunkCount :=
      getD_mem_take_of_lt _ _ _ _ hic (by rw [hwf.chunks_length]; exact hwf.count_le)
    obtain ⟨hne, hinc⟩ := hrun _ hmem
    have hl := getLastD_mem _ (-1) hne
    have := IncreasingFrom_range _ _ hinc _ hl
    constructor <;> omega
  · have := hwf.fresh i (not_lt.1 hic)
    rw [this]
    simp [emptyIndexChunk, IndexChunk.absDocIds, decodeStored]

/-- The two arrays of the header of a block, read where the block starts in the
file. -/
theorem header_on_disk {D : Type} (ops : DoubleOps D) (block : IndexBlock D)
    (h : BlockOnDisk ops block) (hl : ∀ v ∈ block.lastDocIds, -2 ^ 31 ≤ v ∧ v < 2 ^ 31)
    (pre post : List Nat) :
    intsOfBytes (((pre ++ writeBlock ops block ++ post).drop pre.length).take (4 * MAX_CHUNK_COUNT))
      = block.chunkSizes ∧
    intsOfBytes (((pre ++ writeBlock ops block ++ post).drop
        (pre.length + 4 * MAX_CHUNK_COUNT)).take (4 * MAX_CHUNK_COUNT)) = block.lastDocIds ∧
    (((pre ++ writeBlock ops block ++ post).drop pre.length).take (4 * MAX_CHUNK_COUNT)).length
      = 4 * MAX_CHUNK_COUNT ∧
    (((pre ++ writeBlock ops block ++ post).drop
        (pre.length + 4 * MAX_CHUNK_COUNT)).take (4 * MAX_CHUNK_COUNT)).length
      = 4 * MAX_CHUNK_COUNT := by
  have h1 : ((pre ++ writeBlock ops block ++ post).drop pre.length).take (4 * MAX_CHUNK_COUNT)
      = intsToBytes block.chunkSizes := by
    rw [List.append_assoc, List.drop_left]
    simp only [writeBlock, List.append_assoc]
    rw [List.take_left' (by rw [intsToBytes_length, h.sizes_length])]
  have h2 : ((pre ++ writeBlock ops block ++ post).drop
      (pre.length + 4 * MAX_CHUNK_COUNT)).take (4 * MAX_CHUNK_COUNT)
      = intsToBytes block.lastDocIds := by
    have e : pre ++ writeBlock ops block ++ post
        = (pre ++ intsToBytes block.chunkSizes) ++ (intsToBytes block.lastDocIds
          ++ ((block.indexChunks.take block.chunkCount).flatMap (writeChunk ops) ++ post)) := by
      simp only [writeBlock, List.append_assoc]
    rw [e, List.drop_left' (by
      rw [List.length_append, intsToBytes_length, h.sizes_length])]
    rw [List.take_left' (by rw [intsToBytes_length, h.lasts_length])]
  rw [h1, h2]
  exact ⟨intsOfBytes_intsToBytes _ h.sizes_range, intsOfBytes_intsToBytes _ hl,
    by rw [intsToBytes_length, h.sizes_length], by rw [intsToBytes_length, h.lasts_length]⟩

/-! ### The layout the iterator walks -/

theorem mem_of_getElem_some {α : Type} {l : List α} {i : Nat} {x : α} (h : l[i]? = some x) :
    x ∈ l :=
  List.mem_iff_getElem?.2 ⟨i, h⟩

theorem chunkRun_zero {D : Type} (ops : DoubleOps D) (invertedIndex : InvertedIndex D)
    (start : Nat) : invertedIndex.chunkRun ops start 0 = [] := by
  simp [InvertedIndex.chunkRun]

theorem chunkRun_succ {D : Type} (ops : DoubleOps D) (invertedIndex : InvertedIndex D)
    (start count : Nat) (chunk : IndexChunk D)
    (h : (allChunks invertedIndex.blocks)[start]? = some chunk) :
    invertedIndex.chunkRun ops start (count + 1)
      = chunk.pairs ops :: invertedIndex.chunkRun ops (start + 1) count := by
  have hs : start < (allChunks invertedIndex.blocks).length := by
    by_contra hc
    rw [List.getElem?_eq_none (by omega)] at h
    simp at h
  rw [List.getElem?_eq_getElem hs] at h
  simp only [Option.some.injEq] at h
  simp only [InvertedIndex.chunkRun]
  rw [List.drop_eq_getElem_cons hs, List.take_succ_cons, List.map_cons, h]

/-- The bytes of chunk `j` of a block lie in the file after the header of the
block and the chunks before it. -/
theorem chunk_bytes_in_file {D : Type} [Zero D] (ops : DoubleOps D)
    (invertedIndex : InvertedIndex D) (hix : IndexOnDisk invertedIndex) (bi : Nat)
    (block : IndexBlock D) (hb : invertedIndex.blocks[bi]? = some block) (j : Nat)
    (hj : j < block.chunkCount) :
    ((writeInvertedIndexToDisk ops invertedIndex).drop
        (invertedIndex.blockOffset ops bi + 8 * MAX_CHUNK_COUNT
          + ((block.indexChunks.take j).flatMap (writeChunk ops)).length)).take
      (chunkBytes ((block.indexChunks.getD j emptyIndexChunk).pairs ops)).length
      = chunkBytes ((block.indexChunks.getD j emptyIndexChunk).pairs ops) := by
  have hmem : block ∈ invertedIndex.blocks := mem_of_getElem_some hb
  have hwf := hix.wf block hmem
  obtain ⟨hbod, -⟩ := block_on_disk ops invertedIndex hix block hmem
  obtain ⟨c1, -, -, -⟩ := chunk_on_disk ops invertedIndex hix block hmem j hj
  obtain ⟨f1, -⟩ := writeInvertedIndexToDisk_block ops invertedIndex bi block hb
  obtain ⟨w1, -⟩ := writeBlock_chunk ops block hwf j hj
  rw [f1, w1, ← c1]
  have e : (invertedIndex.blocks.take bi).flatMap (writeBlock ops)
        ++ (intsToBytes block.chunkSizes ++ intsToBytes block.lastDocIds
          ++ (block.indexChunks.take j).flatMap (writeChunk ops)
          ++ writeChunk ops (block.indexChunks.getD j emptyIndexChunk)
          ++ ((block.indexChunks.take block.chunkCount).drop (j + 1)).flatMap (writeChunk ops))
        ++ (invertedIndex.blocks.drop (bi + 1)).flatMap (writeBlock ops)
      = ((invertedIndex.blocks.take bi).flatMap (writeBlock ops)
          ++ intsToBytes block.chunkSizes ++ intsToBytes block.lastDocIds
          ++ (block.indexChunks.take j).flatMap (writeChunk ops))
        ++ (writeChunk ops (block.indexChunks.getD j emptyIndexChunk)
          ++ (((block.indexChunks.take block.chunkCount).drop (j + 1)).flatMap (writeChunk ops)
            ++ (invertedIndex.blocks.drop (bi + 1)).flatMap (writeBlock ops))) := by
    simp only [List.append_assoc]
  rw [e, List.drop_left' (by
    simp only [List.length_append, intsToBytes_length, hbod.sizes_length, hbod.lasts_length,
      InvertedIndex.blockOffset, MAX_CHUNK_COUNT])]
  rw [List.take_left' rfl]

/-- The chunks after chunk `k` of an index file lie in the file the way the
iterator walks it from chunk `k`: slot after slot in the block, and after the
last slot of a block the header of the next block and its slot 0. -/
theorem laidOut_written {D : Type} [Zero D] (ops : DoubleOps D)
    (invertedIndex : InvertedIndex D) (hix : IndexOnDisk invertedIndex) :
    ∀ (r bi j : Nat) (block : IndexBlock D), j < MAX_CHUNK_COUNT →
      invertedIndex.blocks[bi]? = some block →
      MAX_CHUNK_COUNT * bi + j + r < (allChunks invertedIndex.blocks).length →
      laidOut (writeInvertedIndexToDisk ops invertedIndex) block.chunkSizes block.lastDocIds j
        (invertedIndex.blockOffset ops bi + 8 * MAX_CHUNK_COUNT
          + ((block.indexChunks.take (j + 1)).flatMap (writeChunk ops)).length)
        (invertedIndex.chunkRun ops (MAX_CHUNK_COUNT * bi + j + 1) r) = true := by
  intro r
  induction r with
  | zero =>
    intro bi j block _ _ _
    rw [chunkRun_zero]
    rfl
  | succ r ih =>
    intro bi j block hj hb hlen
    have hmem : block ∈ invertedIndex.blocks := mem_of_getElem_some hb
    have hwf := hix.wf block hmem
    obtain ⟨b2, g1, g2, g3⟩ := allChunks_getElem invertedIndex.blocks hix.wf hix.extra.full
      (MAX_CHUNK_COUNT * bi + j + 1) (by omega)
    rw [chunkRun_succ ops invertedIndex _ r _ g3]
    by_cases hnext : j + 1 < MAX_CHUNK_COUNT
    · -- the next chunk is in the same block
      have hdiv : (MAX_CHUNK_COUNT * bi + j + 1) / MAX_CHUNK_COUNT = bi := by
        simp only [MAX_CHUNK_COUNT] at hnext ⊢; omega
      have hmod : (MAX_CHUNK_COUNT * bi + j + 1) % MAX_CHUNK_COUNT = j + 1 := by
        simp only [MAX_CHUNK_COUNT] at hnext ⊢; omega
      rw [hdiv, hb] at g1
      simp only [Option.some.injEq] at g1
      subst g1
      rw [hmod] at g2 ⊢
      obtain ⟨c1, c2, c3, -⟩ := chunk_on_disk ops invertedIndex hix block hmem (j + 1) g2
      have hbytes := chunk_bytes_in_file ops invertedIndex hix bi block hb (j + 1) g2
      obtain ⟨-, w2⟩ := writeBlock_chunk ops block hwf (j + 1) g2
      rw [laidOut, if_pos hnext]
      simp only [Bool.and_eq_true, decide_eq_true_eq]
      refine ⟨⟨⟨c3, c2⟩, hbytes⟩, ?_⟩
      have := ih bi (j + 1) block hnext hb (by omega)
      rw [w2, List.length_append, c1] at this
      rw [← this]
      congr 1
      omega
    · -- the next chunk is slot 0 of the next block
      have hj63 : j = MAX_CHUNK_COUNT - 1 := by
        simp only [MAX_CHUNK_COUNT] at hnext hj ⊢; omega
      have hdiv : (MAX_CHUNK_COUNT * bi + j + 1) / MAX_CHUNK_COUNT = bi + 1 := by
        simp only [MAX_CHUNK_COUNT] at hj63 ⊢; omega
      have hmod : (MAX_CHUNK_COUNT * bi + j + 1) % MAX_CHUNK_COUNT = 0 := by
        simp only [MAX_CHUNK_COUNT] at hj63 ⊢; omega
      rw [hdiv] at g1
      rw [hmod] at g2 g3 ⊢
      have hmem2 : b2 ∈ invertedIndex.blocks := mem_of_getElem_some g1
      have hwf2 := hix.wf b2 hmem2
      -- the block is full and ends where the next block starts
      have hfull : block.chunkCount = MAX_CHUNK_COUNT := by
        apply hix.extra.full
        have hbi : bi + 1 < invertedIndex.blocks.length := by
          by_contra hc
          rw [List.getElem?_eq_none (by omega)] at g1
          simp at g1
        have hbi0 : bi < invertedIndex.blocks.dropLast.length := by
          rw [List.length_dropLast]; omega
        have hget : invertedIndex.blocks.dropLast[bi]? = some block := by
          rw [List.getElem?_eq_getElem hbi0, List.getElem_dropLast]
          rw [List.getElem?_eq_getElem (by omega)] at hb
          exact hb
        exact mem_of_getElem_some hget
      obtain ⟨hbod, -⟩ := block_on_disk ops invertedIndex hix block hmem
      obtain ⟨hbod2, hl2⟩ := block_on_disk ops invertedIndex hix b2 hmem2
      obtain ⟨f1, f2⟩ := writeInvertedIndexToDisk_block ops invertedIndex bi block hb
      obtain ⟨f3, -⟩ := writeInvertedIndexToDisk_block ops invertedIndex (bi + 1) b2 g1
      have hpos : invertedIndex.blockOffset ops bi + 8 * MAX_CHUNK_COUNT
          + ((block.indexChunks.take (j + 1)).flatMap (writeChunk ops)).length
          = invertedIndex.blockOffset ops (bi + 1) := by
        rw [f2]
        have : j + 1 = block.chunkCount := by rw [hfull, hj63]; rfl
        rw [this]
        simp only [writeBlock, List.length_append, intsToBytes_length, hbod.sizes_length,
          hbod.lasts_length, MAX_CHUNK_COUNT]
        omega
      obtain ⟨h1, h2, h3, h4⟩ := header_on_disk ops b2 hbod2 hl2
        ((invertedIndex.blocks.take (bi + 1)).flatMap (writeBlock ops))
        ((invertedIndex.blocks.drop (bi + 1 + 1)).flatMap (writeBlock ops))
      rw [← f3] at h1 h2 h3 h4
      have hoff : ((invertedIndex.blocks.take (bi + 1)).flatMap (writeBlock ops)).length
          = invertedIndex.blockOffset ops (bi + 1) := rfl
      rw [hoff] at h1 h2 h3 h4
      obtain ⟨c1, c2, c3, -⟩ := chunk_on_disk ops invertedIndex hix b2 hmem2 0 g2
      have hbytes := chunk_bytes_in_file ops invertedIndex hix (bi + 1) b2 g1 0 g2
      simp only [List.take_zero, List.flatMap_nil, List.length_nil, Nat.add_zero] at hbytes
      obtain ⟨-, w2⟩ := writeBlock_chunk ops b2 hwf2 0 g2
      simp only [List.take_zero, List.flatMap_nil, List.nil_append] at w2
      rw [laidOut, if_neg hnext, hpos]
      simp only [Bool.and_eq_true, decide_eq_true_eq]
      rw [h1, h2]
      refine ⟨⟨⟨⟨⟨h3, h4⟩, c3⟩, c2⟩, hbytes⟩, ?_⟩
      have := ih (bi + 1) 0 b2 (by simp [MAX_CHUNK_COUNT]) g1 (by
        simp only [MAX_CHUNK_COUNT] at hlen hj63 ⊢; omega)
      rw [w2, c1] at this
      have hk : MAX_CHUNK_COUNT * (bi + 1) + 0 + 1 = MAX_CHUNK_COUNT * bi + j + 1 + 1 := by
        simp only [MAX_CHUNK_COUNT] at hj63 ⊢; omega
      rw [hk] at this
      exact this

/-! ### An iterator opened on a file of the encoder -/

/-- The sizes of the chunks before slot `j` of a block add up to the number of
bytes the file holds for these chunks. -/
theorem sumChunkSizes_written {D : Type} [Zero D] (ops : DoubleOps D)
    (invertedIndex : InvertedIndex D) (hix : IndexOnDisk invertedIndex) (block : IndexBlock D)
    (hb : block ∈ invertedIndex.blocks) :
    ∀ j, j ≤ block.chunkCount →
      sumChunkSizes block.chunkSizes 0 j
        = (((block.indexChunks.take j).flatMap (writeChunk ops)).length : Int) := by
  have hwf := hix.wf block hb
  intro j
  induction j with
  | zero => intro _; simp [sumChunkSizes]
  | succ j ih =>
    intro hj
    obtain ⟨c1, -, c3, -⟩ := chunk_on_disk ops invertedIndex hix block hb j (by omega)
    obtain ⟨-, w2⟩ := writeBlock_chunk ops block hwf j (by omega)
    have h0 := ih (by omega)
    simp only [sumChunkSizes, Nat.sub_zero, Nat.zero_add] at h0 ⊢
    rw [List.range_succ, List.map_append, List.sum_append, h0, w2, List.length_append, c1]
    simp only [List.map_cons, List.map_nil, List.sum_cons, List.sum_nil, add_zero]
    rw [c3]
    push_cast
    rfl

theorem chunkRun_length {D : Type} (ops : DoubleOps D) (invertedIndex : InvertedIndex D)
    (start count : Nat) (h : start + count ≤ (allChunks invertedIndex.blocks).length) :
    (invertedIndex.chunkRun ops start count).length = count := by
  simp only [InvertedIndex.chunkRun, List.length_map, List.length_take, List.length_drop]
  omega

/-- An iterator opened with `createInvertedList` at the start of the block of
chunk `s` of an index file, on slot `s % MAX_CHUNK_COUNT`, with `n` chunks to
come, is on the chunks `s`, ..., `s + n` of the file. -/
theorem createInvertedList_written {D : Type} [Zero D] (ops : DoubleOps D)
    (invertedIndex : InvertedIndex D) (hix : IndexOnDisk invertedIndex) (word : List Nat)
    (s n : Nat) (hlen : s + n < (allChunks invertedIndex.blocks).length) :
    Represents
      (createInvertedList
        { content := writeInvertedIndexToDisk ops invertedIndex
          pos := invertedIndex.blockOffset ops (s / MAX_CHUNK_COUNT) }
        word (s % MAX_CHUNK_COUNT) (n : Int) : InvertedList D)
      (invertedIndex.chunkRun ops s (n + 1)) := by
  obtain ⟨block, g1, g2, g3⟩ := allChunks_getElem invertedIndex.blocks hix.wf hix.extra.full
    s (by omega)
  have hmem : block ∈ invertedIndex.blocks := mem_of_getElem_some g1
  have hwf := hix.wf block hmem
  obtain ⟨hbod, hl⟩ := block_on_disk ops invertedIndex hix block hmem
  obtain ⟨f1, -⟩ := writeInvertedIndexToDisk_block ops invertedIndex (s / MAX_CHUNK_COUNT) block g1
  obtain ⟨h1, h2, h3, h4⟩ := header_on_disk ops block hbod hl
    ((invertedIndex.blocks.take (s / MAX_CHUNK_COUNT)).flatMap (writeBlock ops))
    ((invertedIndex.blocks.drop (s / MAX_CHUNK_COUNT + 1)).flatMap (writeBlock ops))
  rw [← f1] at h1 h2 h3 h4
  have hoff : ((invertedIndex.blocks.take (s / MAX_CHUNK_COUNT)).flatMap (writeBlock ops)).length
      = invertedIndex.blockOffset ops (s / MAX_CHUNK_COUNT) := rfl
  rw [hoff] at h1 h2 h3 h4
  have hj64 : s % MAX_CHUNK_COUNT < MAX_CHUNK_COUNT := Nat.mod_lt _ (by decide)
  obtain ⟨c1, c2, c3, -⟩ := chunk_on_disk ops invertedIndex hix block hmem (s % MAX_CHUNK_COUNT) g2
  have hbytes := chunk_bytes_in_file ops invertedIndex hix (s / MAX_CHUNK_COUNT) block g1
    (s % MAX_CHUNK_COUNT) g2
  obtain ⟨-, w2⟩ := writeBlock_chunk ops block hwf (s % MAX_CHUNK_COUNT) g2
  have hsum := sumChunkSizes_written ops invertedIndex hix block hmem (s % MAX_CHUNK_COUNT)
    (le_of_lt g2)
  -- the three reads of `createInvertedList`
  have r1 : freadInts { content := writeInvertedIndexToDisk ops invertedIndex
                        pos := invertedIndex.blockOffset ops (s / MAX_CHUNK_COUNT) }
      MAX_CHUNK_COUNT (List.replicate MAX_CHUNK_COUNT 0)
      = (block.chunkSizes, { content := writeInvertedIndexToDisk ops invertedIndex
                             pos := invertedIndex.blockOffset ops (s / MAX_CHUNK_COUNT)
                               + 4 * MAX_CHUNK_COUNT }) := by
    rw [freadInts_full _ _ (by simp) (by simp only; exact h3)]
    simp only
    rw [h1]
  have r2 : freadInts { content := writeInvertedIndexToDisk ops invertedIndex
                        pos := invertedIndex.blockOffset ops (s / MAX_CHUNK_COUNT)
                          + 4 * MAX_CHUNK_COUNT }
      MAX_CHUNK_COUNT (List.replicate MAX_CHUNK_COUNT 0)
      = (block.lastDocIds, { content := writeInvertedIndexToDisk ops invertedIndex
                             pos := invertedIndex.blockOffset ops (s / MAX_CHUNK_COUNT)
                               + 4 * MAX_CHUNK_COUNT + 4 * MAX_CHUNK_COUNT }) := by
    rw [freadInts_full _ _ (by simp) (by simp only; exact h4)]
    simp only
    rw [h2]
  have hmin : min (s % MAX_CHUNK_COUNT) MAX_CHUNK_COUNT = s % MAX_CHUNK_COUNT :=
    min_eq_left (le_of_lt hj64)
  have hpos3 : invertedIndex.blockOffset ops (s / MAX_CHUNK_COUNT) + 4 * MAX_CHUNK_COUNT
        + 4 * MAX_CHUNK_COUNT
        + ((block.indexChunks.take (s % MAX_CHUNK_COUNT)).flatMap (writeChunk ops)).length
      = invertedIndex.blockOffset ops (s / MAX_CHUNK_COUNT) + 8 * MAX_CHUNK_COUNT
        + ((block.indexChunks.take (s % MAX_CHUNK_COUNT)).flatMap (writeChunk ops)).length := by
    omega
  have hsize : (block.chunkSizes.getD (s % MAX_CHUNK_COUNT) 0).toNat
      = (chunkBytes ((block.indexChunks.getD (s % MAX_CHUNK_COUNT) emptyIndexChunk).pairs ops)).length := by
    rw [c3]; rfl
  have r3 : freadBytes
      (fseekCur { content := writeInvertedIndexToDisk ops invertedIndex
                  pos := invertedIndex.blockOffset ops (s / MAX_CHUNK_COUNT)
                    + 4 * MAX_CHUNK_COUNT + 4 * MAX_CHUNK_COUNT }
        (sumChunkSizes block.chunkSizes 0 (s % MAX_CHUNK_COUNT)))
      (block.chunkSizes.getD (s % MAX_CHUNK_COUNT) 0).toNat
      = (chunkBytes ((block.indexChunks.getD (s % MAX_CHUNK_COUNT) emptyIndexChunk).pairs ops),
         { content := writeInvertedIndexToDisk ops invertedIndex
           pos := invertedIndex.blockOffset ops (s / MAX_CHUNK_COUNT) + 8 * MAX_CHUNK_COUNT
             + ((block.indexChunks.take (s % MAX_CHUNK_COUNT + 1)).flatMap (writeChunk ops)).length }) := by
    rw [hsum, fseekCur_nonneg, hsize]
    simp only
    rw [hpos3, freadBytes_exact _ _ _ hbytes rfl]
    simp only
    rw [w2, List.length_append, c1]
    congr 2
    omega
  have hlay := laidOut_written ops invertedIndex hix n (s / MAX_CHUNK_COUNT) (s % MAX_CHUNK_COUNT)
    block hj64 g1 (by rw [Nat.div_add_mod]; exact hlen)
  rw [Nat.div_add_mod] at hlay
  rw [chunkRun_succ ops invertedIndex s n _ g3]
  simp only [Represents, createInvertedList, r1, r2, hmin, r3]
  refine ⟨hj64, ?_, trivial, c2, hbod.sizes_length, hbod.lasts_length, by simp, by simp, hlay⟩
  rw [chunkRun_length ops invertedIndex (s + 1) n (by omega)]

/-! ### Every term lies in one index file -/

theorem TermPlaced.grow {D : Type} (written : List (InvertedIndex D)) (a b : Int)
    (node : LexiconNode) (hab : a ≤ b) (h : TermPlaced written a node) :
    TermPlaced written b node := by
  obtain ⟨h1, h2 | h2⟩ := h
  · exact ⟨h1, Or.inl h2⟩
  · exact ⟨h1, Or.inr ⟨h2.1, le_trans h2.2 hab⟩⟩

theorem TermPlaced.roll {D : Type} (written : List (InvertedIndex D))
    (invertedIndex : InvertedIndex D) (c : Int) (node : LexiconNode)
    (hcn : invertedIndex.chunkNumber = ((writtenChunks (written ++ [invertedIndex])).length : Int))
    (h : TermPlaced written invertedIndex.chunkNumber node) :
    TermPlaced (written ++ [invertedIndex]) c node := by
  obtain ⟨h1, ⟨pre, ix, post, e1, e2, e3⟩ | h2⟩ := h
  · exact ⟨h1, Or.inl ⟨pre, ix, post ++ [invertedIndex], by rw [e1]; simp, e2, e3⟩⟩
  · exact ⟨h1, Or.inl ⟨written, invertedIndex, [], by simp, h2.1, by rw [← hcn]; exact h2.2⟩⟩

/-- The merge places every lexicon entry in one index file. -/
theorem buildIndex_placed {D : Type} [Zero D] (ops : DoubleOps D)
    (docLengths : Int → Int) (fuel : Nat) (records : List (List ParsedItem))
    (hcount : records.length = INTERMEDIATE_FILE_COUNT)
    (hwf : ∀ recs ∈ records, ∀ item ∈ recs, RecordWF item)
    (hfuel : (records.map List.length).sum < fuel) :
    match buildIndex ops docLengths fuel [] (records.map encodeParsedItems) with
    | some result => ∀ node ∈ result.lexicon.nodes, ∃ pre ix post,
        result.indexes = pre ++ ix :: post ∧ node.startChunk ≤ node.endChunk ∧
        ((writtenChunks pre).length : Int) < node.startChunk ∧
        node.endChunk ≤ ((writtenChunks (pre ++ [ix])).length : Int)
    | none => ∃ recs ∈ records, ∃ item ∈ recs, item.docIds = [] := by
  have h := buildIndex_inv ops docLengths fuel records hcount hwf hfuel
    (fun written invertedIndex lexicon => IndexWF invertedIndex ∧
      invertedIndex.chunkNumber = (writtenChunks (written ++ [invertedIndex])).length ∧
      ∀ node ∈ lexicon.nodes, TermPlaced written invertedIndex.chunkNumber node)
    (fun _ _ _ hP => hP.1)
    ⟨IndexWF_create,
      by simp [writtenChunks, createInvertedIndex, InvertedIndex.absLists, allChunks],
      by simp [createLexicon]⟩
    (by
      intro written invertedIndex lexicon parsedItems index1 lexicon1 hP hslots hadd
      obtain ⟨hwf0, hcn, hplaced⟩ := hP
      have hspec := addParsedItemsToInvertedIndex_spec ops parsedItems invertedIndex lexicon
        docLengths DOC_COUNT (computeAvgDocLength docLengths DOC_COUNT) hwf0
      rw [hadd] at hspec
      obtain ⟨hwf1, T, word, habs, hT, -, -, hcn1, -, hlex1⟩ := hspec
      have hTpos : 0 < T.length := List.length_pos.2 hT
      have hG : writtenChunks (written ++ [index1])
          = writtenChunks (written ++ [invertedIndex]) ++ T := by
        rw [writtenChunks_snoc, writtenChunks_snoc, habs, List.append_assoc]
      have hcn2 : index1.chunkNumber = (writtenChunks (written ++ [index1])).length := by
        rw [hG, List.length_append, hcn1, hcn]; push_cast; ring
      have hge : ((writtenChunks written).length : Int) ≤ invertedIndex.chunkNumber := by
        rw [hcn, writtenChunks_snoc, List.length_append]; push_cast; omega
      have hall : ∀ node ∈ lexicon1.nodes, TermPlaced written index1.chunkNumber node := by
        intro node hnode
        rw [hlex1] at hnode
        simp only [addNodeToLexicon, List.mem_append, List.mem_singleton] at hnode
        rcases hnode with hnode | hnode
        · exact TermPlaced.grow written _ _ node (by rw [hcn1]; omega) (hplaced node hnode)
        · rw [hnode]
          refine ⟨by simp only; omega, Or.inr ⟨by simp only; omega, by simp only; omega⟩⟩
      refine ⟨fun _ => ⟨IndexWF_reset _, ?_, ?_⟩, fun _ => ⟨hwf1, hcn2, hall⟩⟩
      · have hw : writtenChunks ((written ++ [index1]) ++
            [({ createInvertedIndex with chunkNumber := index1.chunkNumber } :
              InvertedIndex D)]) = writtenChunks (written ++ [index1]) := by
          rw [writtenChunks_snoc (written ++ [index1]), absLists_reset, List.append_nil]
        rw [hw]
        exact hcn2
      · intro node hnode
        exact TermPlaced.roll written index1 _ node hcn2 (hall node hnode))
  cases hb : buildIndex ops docLengths fuel [] (records.map encodeParsedItems) with
  | none =>
    rw [hb] at h
    exact h
  | some result =>
    rw [hb] at h
    obtain ⟨written, invertedIndex, hres, -, hcn, hplaced⟩ := h
    intro node hnode
    obtain ⟨h1, ⟨pre, ix, post, e1, e2, e3⟩ | h2⟩ := hplaced node hnode
    · exact ⟨pre, ix, post ++ [invertedIndex], by rw [hres, e1]; simp, h1, e2, e3⟩
    · exact ⟨written, invertedIndex, [], by rw [hres], h1, h2.1, by rw [← hcn]; exact h2.2⟩

/-- The docIDs of a run of chunks of an index file are the docIDs of these
chunks in the index. -/
theorem docIdsOf_chunkRun {D : Type} [Zero D] (ops : DoubleOps D)
    (invertedIndex : InvertedIndex D) (hix : IndexOnDisk invertedIndex) (start count : Nat) :
    docIdsOf (invertedIndex.chunkRun ops start count)
      = ((invertedIndex.absLists.drop start).take count).flatten := by
  have hfst : ∀ c ∈ allChunks invertedIndex.blocks,
      (c.pairs ops).map (fun p => p.1) = c.absDocIds := by
    intro c hc
    obtain ⟨k, hk⟩ := List.mem_iff_getElem?.1 hc
    have hklen : k < (allChunks invertedIndex.blocks).length := by
      by_contra hcon
      rw [List.getElem?_eq_none (by omega)] at hk
      simp at hk
    obtain ⟨block, g1, g2, g3⟩ := allChunks_getElem invertedIndex.blocks hix.wf hix.extra.full
      k hklen
    rw [hk] at g3
    simp only [Option.some.injEq] at g3
    rw [g3]
    exact (chunk_on_disk ops invertedIndex hix block (mem_of_getElem_some g1) _ g2).2.2.2
  simp only [docIdsOf, InvertedIndex.chunkRun, InvertedIndex.absLists, List.map_flatten,
    List.map_map, ← List.map_drop, ← List.map_take]
  congr 1
  apply List.map_congr_left
  intro c hc
  exact hfst c (List.mem_of_mem_drop (List.mem_of_mem_take hc))

theorem termDocIds_in_file {D : Type} (pre post : List (InvertedIndex D))
    (ix : InvertedIndex D) (node : LexiconNode) (s n : Nat)
    (hstart : node.startChunk = ((writtenChunks pre).length : Int) + s + 1)
    (hend : node.endChunk = node.startChunk + n) (hlen : s + n < ix.absLists.length) :
    termDocIds (writtenChunks (pre ++ ix :: post)) node
      = ((ix.absLists.drop s).take (n + 1)).flatten := by
  have e1 : writtenChunks (pre ++ ix :: post)
      = writtenChunks pre ++ (ix.absLists ++ writtenChunks post) := by
    simp [writtenChunks, List.flatMap_append]
  have e2 : (node.startChunk - 1).toNat = (writtenChunks pre).length + s := by
    rw [hstart]; omega
  have e3 : (node.endChunk - node.startChunk + 1).toNat = n + 1 := by
    rw [hend]; omega
  simp only [termDocIds, e1, e2, e3]
  rw [List.drop_append, List.drop_append_of_le_length (by omega),
    List.take_append_of_le_length (by rw [List.length_drop]; omega)]

/-! ### The iterator stays in its file -/

theorem updateInvertedListByChunk_content {D : Type} [Zero D] (invertedList : InvertedList D) :
    (updateInvertedListByChunk invertedList).listPointer.content
      = invertedList.listPointer.content := by
  simp only [updateInvertedListByChunk, freadBytes, freadInts]
  split <;> rfl

theorem updateInvertedListByBlock_content {D : Type} [Zero D] (invertedList : InvertedList D) :
    (updateInvertedListByBlock invertedList).listPointer.content
      = invertedList.listPointer.content := by
  simp only [updateInvertedListByBlock, freadBytes, freadInts, fseekCur]
  split <;> rfl

theorem skipBlocks_content {D : Type} [Zero D] (docId : Int) :
    ∀ (fuel : Nat) (invertedList : InvertedList D),
      (skipBlocks fuel invertedList docId).listPointer.content
        = invertedList.listPointer.content := by
  intro fuel
  induction fuel with
  | zero => intro l; rfl
  | succ fuel ih =>
    intro l
    rw [skipBlocks]
    split
    · rw [ih, updateInvertedListByBlock_content]
    · rfl

theorem skipChunks_content {D : Type} [Zero D] (docId : Int) :
    ∀ (fuel : Nat) (invertedList : InvertedList D),
      (skipChunks fuel invertedList docId).listPointer.content
        = invertedList.listPointer.content := by
  intro fuel
  induction fuel with
  | zero => intro l; rfl
  | succ fuel ih =>
    intro l
    rw [skipChunks]
    split
    · rw [ih, updateInvertedListByChunk_content]
    · rfl

theorem decompressPostings_listPointer {D : Type} [Zero D] (ops : DoubleOps D)
    (invertedList decoded : InvertedList D)
    (h : decompressPostings ops invertedList = some decoded) :
    decoded.listPointer = invertedList.listPointer := by
  simp only [decompressPostings] at h
  cases h1 : decompressDocIds (invertedList.postings.length + 1) invertedList.postings
      (invertedList.lastDocIds.getD invertedList.currentChunkIndex 0) (-1) 0
      invertedList.docIds with
  | none => rw [h1] at h; simp at h
  | some p =>
    rw [h1] at h
    simp only at h
    cases h2 : decompressImpactScores ops p.2.1 p.1 0 invertedList.impactScores with
    | none => rw [h2] at h; simp at h
    | some impactScores =>
      rw [h2] at h
      simp only [Option.some.injEq] at h
      rw [← h]

/-- The iterator reads on in the file it was opened on: no function of the
iterator changes the file of its stream. -/
theorem getNextGEQDocId_content {D : Type} [Zero D] (ops : DoubleOps D)
    (invertedList after : InvertedList D) (docId r : Int)
    (h : getNextGEQDocId ops invertedList docId = some (r, after)) :
    after.listPointer.content = invertedList.listPointer.content := by
  simp only [getNextGEQDocId] at h
  cases hdec : decompressPostings ops
      (skipChunks
        (skipBlocks invertedList.remainingChunkCount.toNat invertedList docId).remainingChunkCount.toNat
        (skipBlocks invertedList.remainingChunkCount.toNat invertedList docId) docId) with
  | none => rw [hdec] at h; simp at h
  | some l3 =>
    rw [hdec] at h
    simp only at h
    have h3 := decompressPostings_listPointer ops _ _ hdec
    have hc : l3.listPointer.content = invertedList.listPointer.content := by
      rw [h3, skipChunks_content, skipBlocks_content]
    cases hs : searchPostings l3.postingCount 0 l3.docIds docId with
    | none =>
      rw [hs] at h
      simp only [Option.some.injEq, Prod.mk.injEq] at h
      rw [← h.2]; exact hc
    | some k =>
      rw [hs] at h
      simp only [Option.some.injEq, Prod.mk.injEq] at h
      rw [← h.2]; exact hc

/-- The chunks of a term lie in one file when every entry of `parsedItems`
holds `NULL` at the declaration: `buildIndex` writes and resets the in-memory
index only after a term has been added completely, so that all chunks of a term
lie in one index file:
for every entry of the lexicon there is a file `ix`, after the files `pre`, in
which the chunks of the entry are the chunks `s`, ..., `s + n`, counted from 0.
They lie in consecutive blocks: chunk `k` of a file is slot
`k % MAX_CHUNK_COUNT` of its block `k / MAX_CHUNK_COUNT`.  The iterator reaches
every chunk of the term: opened with `createInvertedList` at the block of chunk
`s` of the file, it is on the chunks `s`, ..., `s + n`, whose docIDs are the
docIDs of the entry, laid out in that file the way `updateInvertedListByChunk`
and `updateInvertedListByBlock` walk it; and no function of the iterator changes
the file of its stream. -/
theorem buildIndex_term_in_one_file_of_null {D : Type} [Zero D] (ops : DoubleOps D)
    (docLengths : Int → Int) (fuel : Nat) (records : List (List ParsedItem))
    (hcount : records.length = INTERMEDIATE_FILE_COUNT)
    (hwf : ∀ recs ∈ records, ∀ item ∈ recs, RecordWF item)
    (hinc : ∀ recs ∈ records, ∀ item ∈ recs, item.docIds.Pairwise (fun a b => a < b))
    (hcross : records.Pairwise (fun a b =>
      ∀ x ∈ a, ∀ y ∈ b, ∀ d ∈ x.docIds, ∀ e ∈ y.docIds, d < e))
    (hnonneg : ∀ recs ∈ records, ∀ item ∈ recs, ∀ d ∈ item.docIds, 0 ≤ d)
    (hne : ∀ recs ∈ records, ∀ item ∈ recs, item.docIds ≠ [])
    (hfuel : (records.map List.length).sum < fuel) :
    ∃ result : BuildResult D,
      buildIndex ops docLengths fuel [] (records.map encodeParsedItems) = some result ∧
      (∀ node ∈ result.lexicon.nodes,
        ∃ (pre : List (InvertedIndex D)) (ix : InvertedIndex D) (post : List (InvertedIndex D))
            (s n : Nat),
          result.indexes = pre ++ ix :: post ∧
          node.startChunk = ((writtenChunks pre).length : Int) + s + 1 ∧
          node.endChunk = node.startChunk + n ∧
          s + n < (allChunks ix.blocks).length ∧
          (∀ k, k < (allChunks ix.blocks).length →
            ∃ block, ix.blocks[k / MAX_CHUNK_COUNT]? = some block ∧
              k % MAX_CHUNK_COUNT < block.chunkCount ∧
              (allChunks ix.blocks)[k]?
                = some (block.indexChunks.getD (k % MAX_CHUNK_COUNT) emptyIndexChunk)) ∧
          docIdsOf (ix.chunkRun ops s (n + 1))
            = termDocIds (writtenChunks result.indexes) node ∧
          Represents
            (createInvertedList
              { content := writeInvertedIndexToDisk ops ix
                pos := ix.blockOffset ops (s / MAX_CHUNK_COUNT) }
              node.word (s % MAX_CHUNK_COUNT) (node.endChunk - node.startChunk) : InvertedList D)
            (ix.chunkRun ops s (n + 1))) ∧
      ∀ invertedList : InvertedList D,
        (updateInvertedListByChunk invertedList).listPointer.content
          = invertedList.listPointer.content ∧
        (updateInvertedListByBlock invertedList).listPointer.content
          = invertedList.listPointer.content ∧
        ∀ (docId r : Int) (after : InvertedList D),
          getNextGEQDocId ops invertedList docId = some (r, after) →
          after.listPointer.content = invertedList.listPointer.content := by
  have hch := buildIndex_chunks ops docLengths fuel records hcount hwf hfuel
    (IncreasingFrom (-1)) (runs_increasing records hwf hinc hcross hnonneg)
  have hpl := buildIndex_placed ops docLengths fuel records hcount hwf hfuel
  cases hb : buildIndex ops docLengths fuel [] (records.map encodeParsedItems) with
  | none =>
    rw [hb] at hch
    obtain ⟨recs, hrecs, item, hitem, h0⟩ := hch
    exact absurd h0 (hne recs hrecs item hitem)
  | some result =>
    rw [hb] at hch hpl
    refine ⟨result, rfl, ?_, ?_⟩
    · intro node hnode
      obtain ⟨pre, ix, post, e1, h1, e2, e3⟩ := hpl node hnode
      obtain ⟨hwf1, hex1, hall⟩ := hch ix (by rw [e1]; simp)
      have hix : IndexOnDisk ix := ⟨hwf1, hex1, hall⟩
      have habs : ix.absLists.length = (allChunks ix.blocks).length := by
        simp [InvertedIndex.absLists]
      rw [writtenChunks_snoc, List.length_append, habs] at e3
      push_cast at e3
      obtain ⟨s, hs⟩ : ∃ s : Nat, node.startChunk = ((writtenChunks pre).length : Int) + s + 1 :=
        ⟨(node.startChunk - 1 - (writtenChunks pre).length).toNat, by omega⟩
      obtain ⟨n, hn⟩ : ∃ n : Nat, node.endChunk = node.startChunk + n :=
        ⟨(node.endChunk - node.startChunk).toNat, by omega⟩
      have hlen : s + n < (allChunks ix.blocks).length := by omega
      refine ⟨pre, ix, post, s, n, e1, hs, hn, hlen,
        allChunks_getElem ix.blocks hix.wf hix.extra.full, ?_, ?_⟩
      · rw [docIdsOf_chunkRun ops ix hix, e1,
          termDocIds_in_file pre post ix node s n hs hn (by rw [habs]; exact hlen)]
      · have hrem : node.endChunk - node.startChunk = (n : Int) := by omega
        rw [hrem]
        exact createInvertedList_written ops ix hix node.word s n hlen
    · intro invertedList
      exact ⟨updateInvertedListByChunk_content invertedList,
        updateInvertedListByBlock_content invertedList,
        fun docId r after h => getNextGEQDocId_content ops invertedList after docId r h⟩

/-! ### The array parsedItems before its first assignment -/

/-- A run of the merge loop that returns has not read an entry of `parsedItems`
that held an indeterminate value other than `NULL`: the loop started with
`NULL` in every entry returns the same indexes and the same lexicon. -/
theorem mergeLoop_indeterminate {D : Type} [Zero D] (ops : DoubleOps D)
    (docLengths : Int → Int) (totalDocCount avgDocLength : Int) :
    ∀ (fuel : Nat) (st st1 : MergeState D),
      mergeLoop ops docLengths totalDocCount avgDocLength fuel st = some st1 →
      ∃ st2, mergeLoop ops docLengths totalDocCount avgDocLength fuel
          { st with indeterminate := [] } = some st2 ∧
        st2.written = st1.written ∧ st2.invertedIndex = st1.invertedIndex ∧
        st2.lexicon = st1.lexicon := by
  intro fuel
  induction fuel with
  | zero => intro st st1 h; simp [mergeLoop] at h
  | succ fuel ih =>
    intro st st1 h
    by_cases hpos : st.heap.nodeCount > 0
    swap
    · simp only [mergeLoop, if_neg hpos, Option.some.injEq] at h ⊢
      exact ⟨_, rfl, by rw [← h], by rw [← h], by rw [← h]⟩
    · simp only [mergeLoop, if_pos hpos] at h ⊢
      cases hrefill : refill (MergeHeap.extractMin st.heap).2 st.files
          (MergeHeap.extractMin st.heap).1.fileNumber with
      | none => rw [hrefill] at h; simp at h
      | some r =>
        obtain ⟨heap2, files2, c⟩ := r
        rw [hrefill] at h
        cases c with
        | true =>
          simp only at h ⊢
          exact ih _ _ h
        | false =>
          simp only at h ⊢
          cases hcol : collectLoop fuel heap2 files2
              (st.parsedItems.set (MergeHeap.extractMin st.heap).1.fileNumber
                (some (MergeHeap.extractMin st.heap).1.parsedItem))
              (MergeHeap.extractMin st.heap).1.fileNumber with
          | none => rw [hcol] at h; simp at h
          | some r3 =>
            obtain ⟨heap3, files3, parsedItems3⟩ := r3
            rw [hcol] at h
            simp only at h ⊢
            by_cases hg : readsIndeterminate st.indeterminate parsedItems3 = true
            · rw [if_pos hg] at h; simp at h
            · rw [if_neg hg] at h
              simp only [readsIndeterminate_nil, Bool.false_eq_true, if_false]
              exact ⟨st1, h, rfl, rfl, rfl⟩

/-- Whatever the array `parsedItems` holds at its declaration, a result of
`buildIndex` is the result for an array that holds `NULL` in every entry. -/
theorem buildIndex_indeterminate {D : Type} [Zero D] (ops : DoubleOps D)
    (docLengths : Int → Int) (fuel : Nat) (indeterminate : List Nat)
    (intermediateFiles : List (List Nat)) (result : BuildResult D)
    (h : buildIndex ops docLengths fuel indeterminate intermediateFiles = some result) :
    buildIndex ops docLengths fuel [] intermediateFiles = some result := by
  by_cases hlen : intermediateFiles.length ≠ INTERMEDIATE_FILE_COUNT
  · simp only [buildIndex, if_pos hlen] at h
    exact absurd h (by simp)
  · simp only [buildIndex, if_neg hlen] at h ⊢
    cases hopen : openIntermediateFiles intermediateFiles 0 MergeHeap.createHeap [] with
    | none => rw [hopen] at h; simp at h
    | some r =>
      obtain ⟨heap, files⟩ := r
      rw [hopen] at h
      simp only at h ⊢
      cases hrun : mergeLoop ops docLengths DOC_COUNT (computeAvgDocLength docLengths DOC_COUNT)
          fuel
          ({ heap := heap, files := files
             parsedItems := List.replicate MERGE_HEAP_SIZE none
             indeterminate := indeterminate
             lexicon := createLexicon
             invertedIndex := createInvertedIndex
             fileNumber := 0
             written := [] } : MergeState D) with
      | none => rw [hrun] at h; simp at h
      | some st1 =>
        rw [hrun] at h
        obtain ⟨st2, h2, e1, e2, e3⟩ := mergeLoop_indeterminate ops docLengths DOC_COUNT
          (computeAvgDocLength docLengths DOC_COUNT) fuel _ st1 hrun
        simp only at h2
        rw [h2]
        simp only [Option.some.injEq] at h ⊢
        rw [e1, e2, e3]
        exact h

/-- The array `parsedItems` is read before it is assigned: with an indeterminate
value other than `NULL` in entry 2, the first call of
`addParsedItemsToInvertedIndex` for the files `mergeRecords`, whose first word
occurs in the files 0 and 1 only, reads entry 2 before any assignment to it, and
`buildIndex` has no result. -/
theorem buildIndex_reads_indeterminate :
    (buildIndex intOps (fun _ => 10) 5 [2] (mergeRecords.map encodeParsedItems)).isNone
      = true := by
  decide

/-- With indeterminate values in the entries 0 and 1 only, which are assigned
the records of the first word of `mergeRecords` before the first call of
`addParsedItemsToInvertedIndex`, `buildIndex` writes what it writes when every
entry holds `NULL`. -/
theorem buildIndex_assigned_first :
    (buildIndex intOps (fun _ => 10) 5 [0, 1] (mergeRecords.map encodeParsedItems)).map
      (fun r => (r.lexicon.nodes, writtenChunks r.indexes))
      = some ([{ word := [97], startChunk := 1, endChunk := 1 }], [[1, 2, 5]]) := by
  decide

set_option maxRecDepth 1000000 in
/-- The lexicon and the chunks `buildIndex` writes for `sharedWordRecords`,
whatever the array `parsedItems` holds at its declaration: every entry is
assigned a record of the word "a" before the first call of
`addParsedItemsToInvertedIndex`, so that no entry is read before its
assignment.  The word "a" takes two chunks, with the postings of the other
files at the end of the second, "b" and "c" one chunk each; the last record of
every file is dropped. -/
theorem buildIndex_sharedWordRecords :
    (buildIndex intOps (fun _ => 10) 20 allEntries
        (sharedWordRecords.map encodeParsedItems)).map
      (fun r => (r.lexicon.nodes, writtenChunks r.indexes))
      = some ([{ word := [97], startChunk := 1, endChunk := 2 },
               { word := [98], startChunk := 3, endChunk := 3 },
               { word := [99], startChunk := 4, endChunk := 4 }],
          [(List.range 128).map (fun (i : Nat) => 2 * (i : Int) + 1),
            [257, 259, 400, 600, 700, 800, 900, 1000, 1100], [300], [500]]) := by
  decide

/-! ### The claims on buildIndex, for every content of the array parsedItems -/

/-- C10: for intermediate files that hold records whose docIDs are strictly
increasing, such that every docID of file `i` is smaller than every docID of
file `j` whenever `i < j`, and for every content of the array `parsedItems` at
its declaration (`indeterminate` lists the entries that do not hold `NULL`):
whenever `buildIndex` returns, every lexicon entry names a non-empty range of
chunks of the index files written, and the docIDs of these chunks, read the way
the decoder reads them and in the order of the chunks, are strictly increasing.
`buildIndex` returns when the array holds `NULL` in every entry and every
record has a posting; the merge loop needs more turns than there are
records. -/
theorem buildIndex_postings_increasing {D : Type} [Zero D] (ops : DoubleOps D)
    (docLengths : Int → Int) (fuel : Nat) (indeterminate : List Nat)
    (records : List (List ParsedItem))
    (hcount : records.length = INTERMEDIATE_FILE_COUNT)
    (hwf : ∀ recs ∈ records, ∀ item ∈ recs, RecordWF item)
    (hinc : ∀ recs ∈ records, ∀ item ∈ recs, item.docIds.Pairwise (fun a b => a < b))
    (hcross : records.Pairwise (fun a b =>
      ∀ x ∈ a, ∀ y ∈ b, ∀ d ∈ x.docIds, ∀ e ∈ y.docIds, d < e))
    (hfuel : (records.map List.length).sum < fuel) :
    (∀ result : BuildResult D,
      buildIndex ops docLengths fuel indeterminate (records.map encodeParsedItems)
        = some result →
      LexiconOK result.lexicon (writtenChunks result.indexes)) ∧
    ((∀ recs ∈ records, ∀ item ∈ recs, item.docIds ≠ []) →
      ∃ result : BuildResult D,
        buildIndex ops docLengths fuel [] (records.map encodeParsedItems) = some result) := by
  obtain ⟨h1, h2⟩ := buildIndex_postings_increasing_of_null ops docLengths fuel records hcount
    hwf hinc hcross hfuel
  exact ⟨fun result h =>
    h1 result (buildIndex_indeterminate ops docLengths fuel indeterminate _ result h), h2⟩

set_option maxRecDepth 1000000 in
theorem buildIndex_postings_increasing_witness :
    sharedWordRecords.length = INTERMEDIATE_FILE_COUNT ∧
    (∀ recs ∈ sharedWordRecords, ∀ item ∈ recs, RecordWF item) ∧
    (∀ recs ∈ sharedWordRecords, ∀ item ∈ recs, item.docIds.Pairwise (fun a b => a < b)) ∧
    sharedWordRecords.Pairwise (fun a b =>
      ∀ x ∈ a, ∀ y ∈ b, ∀ d ∈ x.docIds, ∀ e ∈ y.docIds, d < e) ∧
    (sharedWordRecords.map List.length).sum < 20 ∧
    (buildIndex intOps (fun _ => 10) 20 allEntries
      (sharedWordRecords.map encodeParsedItems)).isSome = true ∧
    ((∀ result : BuildResult Int,
      buildIndex intOps (fun _ => 10) 20 allEntries
          (sharedWordRecords.map encodeParsedItems) = some result →
      LexiconOK result.lexicon (writtenChunks result.indexes)) ∧
    ((∀ recs ∈ sharedWordRecords, ∀ item ∈ recs, item.docIds ≠ []) →
      ∃ result : BuildResult Int,
        buildIndex intOps (fun _ => 10) 20 [] (sharedWordRecords.map encodeParsedItems)
          = some result)) :=
  ⟨by decide, by decide, by decide, by decide, by decide, by decide,
    buildIndex_postings_increasing intOps (fun _ => 10) 20 allEntries sharedWordRecords (by decide)
      (by decide) (by decide) (by decide) (by decide)⟩

/-- C12: for intermediate files of well-formed records whose words are, in every
file, in strictly ascending byte order (the lexicographic order of the bytes of
the words as strings, the order of `strcmp`), and for every content of the
array `parsedItems` at its declaration (`indeterminate` lists the entries that
do not hold `NULL`): whenever `buildIndex` returns, the words of the lexicon
entries are in strictly ascending byte order, in the order in which the entries
are added.  `buildIndex` returns when the array holds `NULL` in every entry;
every record has a posting. -/
theorem buildIndex_lexicon_sorted {D : Type} [Zero D] (ops : DoubleOps D)
    (docLengths : Int → Int) (fuel : Nat) (indeterminate : List Nat)
    (records : List (List ParsedItem))
    (hcount : records.length = INTERMEDIATE_FILE_COUNT)
    (hwf : ∀ recs ∈ records, ∀ item ∈ recs, RecordWF item)
    (hsorted : ∀ recs ∈ records,
      recs.Pairwise (fun a b => List.Lex (fun x y => x < y) (cstr a.word) (cstr b.word)))
    (hne : ∀ recs ∈ records, ∀ item ∈ recs, item.docIds ≠ [])
    (hfuel : (records.map List.length).sum < fuel) :
    (∃ result : BuildResult D,
      buildIndex ops docLengths fuel [] (records.map encodeParsedItems) = some result) ∧
    ∀ result : BuildResult D,
      buildIndex ops docLengths fuel indeterminate (records.map encodeParsedItems)
        = some result →
      result.lexicon.nodes.Pairwise
        (fun a b => List.Lex (fun x y => x < y) (cstr a.word) (cstr b.word)) := by
  obtain ⟨r0, hb, hP⟩ := buildIndex_lexicon_sorted_of_null ops docLengths fuel records hcount hwf
    hsorted hne hfuel
  refine ⟨⟨r0, hb⟩, fun result h => ?_⟩
  have h0 := buildIndex_indeterminate ops docLengths fuel indeterminate _ result h
  rw [hb] at h0
  rw [← Option.some.inj h0]
  exact hP

set_option maxRecDepth 1000000 in
theorem buildIndex_lexicon_sorted_witness :
    sharedWordRecords.length = INTERMEDIATE_FILE_COUNT ∧
    (∀ recs ∈ sharedWordRecords, ∀ item ∈ recs, RecordWF item) ∧
    (∀ recs ∈ sharedWordRecords,
      recs.Pairwise (fun a b => List.Lex (fun x y => x < y) (cstr a.word) (cstr b.word))) ∧
    (∀ recs ∈ sharedWordRecords, ∀ item ∈ recs, item.docIds ≠ []) ∧
    (sharedWordRecords.map List.length).sum < 20 ∧
    (buildIndex intOps (fun _ => 10) 20 allEntries
      (sharedWordRecords.map encodeParsedItems)).isSome = true ∧
    (∃ result : BuildResult Int,
      buildIndex intOps (fun _ => 10) 20 [] (sharedWordRecords.map encodeParsedItems)
        = some result) ∧
    ∀ result : BuildResult Int,
      buildIndex intOps (fun _ => 10) 20 allEntries
          (sharedWordRecords.map encodeParsedItems) = some result →
      result.lexicon.nodes.Pairwise
        (fun a b => List.Lex (fun x y => x < y) (cstr a.word) (cstr b.word)) :=
  ⟨by decide, by decide, by decide, by decide, by decide, by decide,
    buildIndex_lexicon_sorted intOps (fun _ => 10) 20 allEntries sharedWordRecords (by decide) (by decide)
      (by decide) (by decide) (by decide)⟩

/-- C15: for files of records with strictly increasing non-negative docIDs, such
that every docID of file `i` is smaller than every docID of file `j` whenever
`i < j`, and for every content of the array `parsedItems` at its declaration
(`indeterminate` lists the entries that do not hold `NULL`): whenever
`buildIndex` returns, every block of every index it writes has in
`chunkSizes[c]`, for every chunk `c` of the block, the number of bytes
`writeInvertedIndexToDisk` writes for that chunk (the variable-byte codes of
its stored docID values and one byte per posting for the impact score), and the
sum of the entries of `chunkSizes` is the number of bytes written for the block
after its two metadata arrays.  `buildIndex` returns when the array holds
`NULL` in every entry; every record has a posting. -/
theorem buildIndex_chunkSizes {D : Type} [Zero D] (ops : DoubleOps D)
    (docLengths : Int → Int) (fuel : Nat) (indeterminate : List Nat)
    (records : List (List ParsedItem))
    (hcount : records.length = INTERMEDIATE_FILE_COUNT)
    (hwf : ∀ recs ∈ records, ∀ item ∈ recs, RecordWF item)
    (hinc : ∀ recs ∈ records, ∀ item ∈ recs, item.docIds.Pairwise (fun a b => a < b))
    (hcross : records.Pairwise (fun a b =>
      ∀ x ∈ a, ∀ y ∈ b, ∀ d ∈ x.docIds, ∀ e ∈ y.docIds, d < e))
    (hnonneg : ∀ recs ∈ records, ∀ item ∈ recs, ∀ d ∈ item.docIds, 0 ≤ d)
    (hne : ∀ recs ∈ records, ∀ item ∈ recs, item.docIds ≠ [])
    (hfuel : (records.map List.length).sum < fuel) :
    (∃ result : BuildResult D,
      buildIndex ops docLengths fuel [] (records.map encodeParsedItems) = some result) ∧
    ∀ result : BuildResult D,
      buildIndex ops docLengths fuel indeterminate (records.map encodeParsedItems)
        = some result →
      ∀ ix ∈ result.indexes, ∀ b ∈ ix.blocks,
        (∀ j, j < b.chunkCount → b.chunkSizes.getD j 0
          = ((writeChunk ops (b.indexChunks.getD j emptyIndexChunk)).length : Int)) ∧
        b.chunkSizes.sum
          = (((b.indexChunks.take b.chunkCount).flatMap (writeChunk ops)).length : Int) ∧
        writeBlock ops b = intsToBytes b.chunkSizes ++ intsToBytes b.lastDocIds
          ++ (b.indexChunks.take b.chunkCount).flatMap (writeChunk ops) := by
  obtain ⟨r0, hb, hP⟩ := buildIndex_chunkSizes_of_null ops docLengths fuel records hcount hwf
    hinc hcross hnonneg hne hfuel
  refine ⟨⟨r0, hb⟩, fun result h => ?_⟩
  have h0 := buildIndex_indeterminate ops docLengths fuel indeterminate _ result h
  rw [hb] at h0
  rw [← Option.some.inj h0]
  exact hP

set_option maxRecDepth 1000000 in
theorem buildIndex_chunkSizes_witness :
    sharedWordRecords.length = INTERMEDIATE_FILE_COUNT ∧
    (∀ recs ∈ sharedWordRecords, ∀ item ∈ recs, RecordWF item) ∧
    (∀ recs ∈ sharedWordRecords, ∀ item ∈ recs, item.docIds.Pairwise (fun a b => a < b)) ∧
    sharedWordRecords.Pairwise (fun a b =>
      ∀ x ∈ a, ∀ y ∈ b, ∀ d ∈ x.docIds, ∀ e ∈ y.docIds, d < e) ∧
    (∀ recs ∈ sharedWordRecords, ∀ item ∈ recs, ∀ d ∈ item.docIds, 0 ≤ d) ∧
    (∀ recs ∈ sharedWordRecords, ∀ item ∈ recs, item.docIds ≠ []) ∧
    (sharedWordRecords.map List.length).sum < 20 ∧
    (buildIndex intOps (fun _ => 10) 20 allEntries
      (sharedWordRecords.map encodeParsedItems)).isSome = true ∧
    (∃ result : BuildResult Int,
      buildIndex intOps (fun _ => 10) 20 [] (sharedWordRecords.map encodeParsedItems)
        = some result) ∧
    ∀ result : BuildResult Int,
      buildIndex intOps (fun _ => 10) 20 allEntries
          (sharedWordRecords.map encodeParsedItems) = some result →
      ∀ ix ∈ result.indexes, ∀ b ∈ ix.blocks,
        (∀ j, j < b.chunkCount → b.chunkSizes.getD j 0
          = ((writeChunk intOps (b.indexChunks.getD j emptyIndexChunk)).length : Int)) ∧
        b.chunkSizes.sum
          = (((b.indexChunks.take b.chunkCount).flatMap (writeChunk intOps)).length : Int) ∧
        writeBlock intOps b = intsToBytes b.chunkSizes ++ intsToBytes b.lastDocIds
          ++ (b.indexChunks.take b.chunkCount).flatMap (writeChunk intOps) :=
  ⟨by decide, by decide, by decide, by decide, by decide, by decide, by decide, by decide,
    buildIndex_chunkSizes intOps (fun _ => 10) 20 allEntries sharedWordRecords (by decide) (by decide)
      (by decide) (by decide) (by decide) (by decide) (by decide)⟩

/-- C20: for files of records with non-negative docIDs in which every record has
a posting (every merged term has at least one posting), and for every content
of the array `parsedItems` at its declaration (`indeterminate` lists the
entries that do not hold `NULL`): whenever `buildIndex` returns, every block of
every index it writes has `MAX_CHUNK_COUNT` entries in `chunkSizes` and in
`lastDocIds`; every slot below `chunkCount` has a size above 0 and a last docID
of at least 0, and every slot from `chunkCount` to `MAX_CHUNK_COUNT - 1` has the
size 0 and the last docID -1, so that the first slot with the size 0 is the
slot `chunkCount`.  `buildIndex` returns when the array holds `NULL` in every
entry. -/
theorem buildIndex_metadata_slots {D : Type} [Zero D] (ops : DoubleOps D)
    (docLengths : Int → Int) (fuel : Nat) (indeterminate : List Nat)
    (records : List (List ParsedItem))
    (hcount : records.length = INTERMEDIATE_FILE_COUNT)
    (hwf : ∀ recs ∈ records, ∀ item ∈ recs, RecordWF item)
    (hnonneg : ∀ recs ∈ records, ∀ item ∈ recs, ∀ d ∈ item.docIds, 0 ≤ d)
    (hne : ∀ recs ∈ records, ∀ item ∈ recs, item.docIds ≠ [])
    (hfuel : (records.map List.length).sum < fuel) :
    (∃ result : BuildResult D,
      buildIndex ops docLengths fuel [] (records.map encodeParsedItems) = some result) ∧
    ∀ result : BuildResult D,
      buildIndex ops docLengths fuel indeterminate (records.map encodeParsedItems)
        = some result →
      ∀ ix ∈ result.indexes, ∀ b ∈ ix.blocks,
        b.chunkCount ≤ MAX_CHUNK_COUNT ∧
        b.chunkSizes.length = MAX_CHUNK_COUNT ∧ b.lastDocIds.length = MAX_CHUNK_COUNT ∧
        (∀ j, j < b.chunkCount → 0 < b.chunkSizes.getD j 0 ∧ 0 ≤ b.lastDocIds.getD j (-1)) ∧
        (∀ j, b.chunkCount ≤ j → j < MAX_CHUNK_COUNT →
          b.chunkSizes.getD j 0 = 0 ∧ b.lastDocIds.getD j (-1) = -1) := by
  obtain ⟨r0, hb, hP⟩ := buildIndex_metadata_slots_of_null ops docLengths fuel records hcount hwf
    hnonneg hne hfuel
  refine ⟨⟨r0, hb⟩, fun result h => ?_⟩
  have h0 := buildIndex_indeterminate ops docLengths fuel indeterminate _ result h
  rw [hb] at h0
  rw [← Option.some.inj h0]
  exact hP

set_option maxRecDepth 1000000 in
theorem buildIndex_metadata_slots_witness :
    sharedWordRecords.length = INTERMEDIATE_FILE_COUNT ∧
    (∀ recs ∈ sharedWordRecords, ∀ item ∈ recs, RecordWF item) ∧
    (∀ recs ∈ sharedWordRecords, ∀ item ∈ recs, ∀ d ∈ item.docIds, 0 ≤ d) ∧
    (∀ recs ∈ sharedWordRecords, ∀ item ∈ recs, item.docIds ≠ []) ∧
    (sharedWordRecords.map List.length).sum < 20 ∧
    (buildIndex intOps (fun _ => 10) 20 allEntries
      (sharedWordRecords.map encodeParsedItems)).isSome = true ∧
    (∃ result : BuildResult Int,
      buildIndex intOps (fun _ => 10) 20 [] (sharedWordRecords.map encodeParsedItems)
        = some result) ∧
    ∀ result : BuildResult Int,
      buildIndex intOps (fun _ => 10) 20 allEntries
          (sharedWordRecords.map encodeParsedItems) = some result →
      ∀ ix ∈ result.indexes, ∀ b ∈ ix.blocks,
        b.chunkCount ≤ MAX_CHUNK_COUNT ∧
        b.chunkSizes.length = MAX_CHUNK_COUNT ∧ b.lastDocIds.length = MAX_CHUNK_COUNT ∧
        (∀ j, j < b.chunkCount → 0 < b.chunkSizes.getD j 0 ∧ 0 ≤ b.lastDocIds.getD j (-1)) ∧
        (∀ j, b.chunkCount ≤ j → j < MAX_CHUNK_COUNT →
          b.chunkSizes.getD j 0 = 0 ∧ b.lastDocIds.getD j (-1) = -1) :=
  ⟨by decide, by decide, by decide, by decide, by decide, by decide,
    buildIndex_metadata_slots intOps (fun _ => 10) 20 allEntries sharedWordRecords (by decide) (by decide)
      (by decide) (by decide) (by decide)⟩

set_option maxRecDepth 1000000 in
/-- The metadata of the block `buildIndex` writes for `sharedWordRecords`: four
chunks, of 128, 9, 1 and 1 postings; the sizes are the bytes written for the
chunks, the last docIDs those of the chunks, and the other 60 slots hold the
size 0 and the last docID -1. -/
theorem buildIndex_sharedWordRecords_metadata :
    (buildIndex intOps (fun _ => 10) 20 allEntries
        (sharedWordRecords.map encodeParsedItems)).map
      (fun r => r.indexes.flatMap (fun ix => ix.blocks.map (fun b =>
        (b.chunkCount, b.chunkSizes, b.lastDocIds,
          (b.indexChunks.take b.chunkCount).map (fun c => (writeChunk intOps c).length)))))
      = some [((4 : Nat), [256, 21, 3, 3] ++ List.replicate 60 (0 : Int),
          [255, 1100, 300, 500] ++ List.replicate 60 (-1 : Int), [256, 21, 3, 3])] := by
  decide

set_option maxRecDepth 1000000 in
/-- C11 (fails in the code): for the files `mixedChunkRecords`, with the word "a"
in the first file and "b", "c", "d" in the second, one posting each,
`buildIndex` writes the lexicon entries `("b", 1, 1)` and `("c", 2, 2)`, which
tile the two chunks written, but chunk 1 holds the docIDs 1 and 2: the posting
of "a" and the posting of "b" lie in one chunk.  The record of "a" is the last
of its file, so that the `continue` of line 320 leaves it in `parsedItems` for
the call of `addParsedItemsToInvertedIndex` for the next word.  The array
`parsedItems` holds `NULL` in every entry at its declaration. -/
theorem buildIndex_chunk_of_two_terms :
    (buildIndex intOps (fun _ => 10) 10 [] (mixedChunkRecords.map encodeParsedItems)).map
      (fun r => (r.lexicon.nodes, writtenChunks r.indexes))
      = some ([{ word := [98], startChunk := 1, endChunk := 1 },
               { word := [99], startChunk := 2, endChunk := 2 }], [[1, 2], [3]]) := by
  decide

/-! ### The chunks of a term lie in one file -/

/-- C36: for files of well-formed records of non-empty lists of non-negative
docIDs that increase within and across the files, and for every content of the
array `parsedItems` at its declaration (`indeterminate` lists the entries that
do not hold `NULL`): `buildIndex` writes and resets the in-memory index only
after a term has been added completely, so that, whenever it returns, all
chunks of a term lie in one index file: for every entry of the lexicon there is
a file `ix`, after the files `pre`, in which the chunks of the entry are the
chunks `s`, ..., `s + n`, counted from 0.  They lie in consecutive blocks:
chunk `k` of a file is slot `k % MAX_CHUNK_COUNT` of its block
`k / MAX_CHUNK_COUNT`.  The iterator reaches every chunk of the term: opened
with `createInvertedList` at the block of chunk `s` of the file, it is on the
chunks `s`, ..., `s + n`, whose docIDs are the docIDs of the entry, laid out in
that file the way `updateInvertedListByChunk` and `updateInvertedListByBlock`
walk it; and no function of the iterator changes the file of its stream.
`buildIndex` returns when the array holds `NULL` in every entry. -/
theorem buildIndex_term_in_one_file {D : Type} [Zero D] (ops : DoubleOps D)
    (docLengths : Int → Int) (fuel : Nat) (indeterminate : List Nat)
    (records : List (List ParsedItem))
    (hcount : records.length = INTERMEDIATE_FILE_COUNT)
    (hwf : ∀ recs ∈ records, ∀ item ∈ recs, RecordWF item)
    (hinc : ∀ recs ∈ records, ∀ item ∈ recs, item.docIds.Pairwise (fun a b => a < b))
    (hcross : records.Pairwise (fun a b =>
      ∀ x ∈ a, ∀ y ∈ b, ∀ d ∈ x.docIds, ∀ e ∈ y.docIds, d < e))
    (hnonneg : ∀ recs ∈ records, ∀ item ∈ recs, ∀ d ∈ item.docIds, 0 ≤ d)
    (hne : ∀ recs ∈ records, ∀ item ∈ recs, item.docIds ≠ [])
    (hfuel : (records.map List.length).sum < fuel) :
    (∃ result : BuildResult D,
      buildIndex ops docLengths fuel [] (records.map encodeParsedItems) = some result) ∧
    (∀ result : BuildResult D,
      buildIndex ops docLengths fuel indeterminate (records.map encodeParsedItems)
        = some result →
      ∀ node ∈ result.lexicon.nodes,
        ∃ (pre : List (InvertedIndex D)) (ix : InvertedIndex D) (post : List (InvertedIndex D))
            (s n : Nat),
          result.indexes = pre ++ ix :: post ∧
          node.startChunk = ((writtenChunks pre).length : Int) + s + 1 ∧
          node.endChunk = node.startChunk + n ∧
          s + n < (allChunks ix.blocks).length ∧
          (∀ k, k < (allChunks ix.blocks).length →
            ∃ block, ix.blocks[k / MAX_CHUNK_COUNT]? = some block ∧
              k % MAX_CHUNK_COUNT < block.chunkCount ∧
              (allChunks ix.blocks)[k]?
                = some (block.indexChunks.getD (k % MAX_CHUNK_COUNT) emptyIndexChunk)) ∧
          docIdsOf (ix.chunkRun ops s (n + 1))
            = termDocIds (writtenChunks result.indexes) node ∧
          Represents
            (createInvertedList
              { content := writeInvertedIndexToDisk ops ix
                pos := ix.blockOffset ops (s / MAX_CHUNK_COUNT) }
              node.word (s % MAX_CHUNK_COUNT) (node.endChunk - node.startChunk) : InvertedList D)
            (ix.chunkRun ops s (n + 1))) ∧
    ∀ invertedList : InvertedList D,
      (updateInvertedListByChunk invertedList).listPointer.content
        = invertedList.listPointer.content ∧
      (updateInvertedListByBlock invertedList).listPointer.content
        = invertedList.listPointer.content ∧
      ∀ (docId r : Int) (after : InvertedList D),
        getNextGEQDocId ops invertedList docId = some (r, after) →
        after.listPointer.content = invertedList.listPointer.content := by
  obtain ⟨r0, hb, hP, hQ⟩ := buildIndex_term_in_one_file_of_null ops docLengths fuel records
    hcount hwf hinc hcross hnonneg hne hfuel
  refine ⟨⟨r0, hb⟩, fun result h => ?_, hQ⟩
  have h0 := buildIndex_indeterminate ops docLengths fuel indeterminate _ result h
  rw [hb] at h0
  rw [← Option.some.inj h0]
  exact hP

set_option maxRecDepth 1000000 in
theorem buildIndex_term_in_one_file_witness :
    sharedWordRecords.length = INTERMEDIATE_FILE_COUNT ∧
    (∀ recs ∈ sharedWordRecords, ∀ item ∈ recs, RecordWF item) ∧
    (∀ recs ∈ sharedWordRecords, ∀ item ∈ recs, item.docIds.Pairwise (fun a b => a < b)) ∧
    sharedWordRecords.Pairwise (fun a b =>
      ∀ x ∈ a, ∀ y ∈ b, ∀ d ∈ x.docIds, ∀ e ∈ y.docIds, d < e) ∧
    (∀ recs ∈ sharedWordRecords, ∀ item ∈ recs, ∀ d ∈ item.docIds, 0 ≤ d) ∧
    (∀ recs ∈ sharedWordRecords, ∀ item ∈ recs, item.docIds ≠ []) ∧
    (sharedWordRecords.map List.length).sum < 20 ∧
    (buildIndex intOps (fun _ => 10) 20 allEntries
      (sharedWordRecords.map encodeParsedItems)).isSome = true ∧
    (∃ result : BuildResult Int,
      buildIndex intOps (fun _ => 10) 20 [] (sharedWordRecords.map encodeParsedItems)
        = some result) ∧
    ∀ result : BuildResult Int,
      buildIndex intOps (fun _ => 10) 20 allEntries
          (sharedWordRecords.map encodeParsedItems) = some result →
      ∀ node ∈ result.lexicon.nodes,
        ∃ (pre : List (InvertedIndex Int)) (ix : InvertedIndex Int)
            (post : List (InvertedIndex Int)) (s n : Nat),
          result.indexes = pre ++ ix :: post ∧
          node.startChunk = ((writtenChunks pre).length : Int) + s + 1 ∧
          node.endChunk = node.startChunk + n ∧
          s + n < (allChunks ix.blocks).length ∧
          docIdsOf (ix.chunkRun intOps s (n + 1))
            = termDocIds (writtenChunks result.indexes) node ∧
          Represents
            (createInvertedList
              { content := writeInvertedIndexToDisk intOps ix
                pos := ix.blockOffset intOps (s / MAX_CHUNK_COUNT) }
              node.word (s % MAX_CHUNK_COUNT) (node.endChunk - node.startChunk) : InvertedList Int)
            (ix.chunkRun intOps s (n + 1)) := by
  obtain ⟨h1, h2, -⟩ := buildIndex_term_in_one_file intOps (fun _ => 10) 20 allEntries sharedWordRecords
    (by decide) (by decide) (by decide) (by decide) (by decide) (by decide) (by decide)
  refine ⟨by decide, by decide, by decide, by decide, by decide, by decide, by decide, by decide,
    h1, ?_⟩
  intro result hres node hnode
  obtain ⟨pre, ix, post, s, n, e1, e2, e3, e4, -, e6, e7⟩ := h2 result hres node hnode
  exact ⟨pre, ix, post, s, n, e1, e2, e3, e4, e6, e7⟩

set_option maxRecDepth 1000000 in
/-- The iterator on the file written for `sharedWordRecords`: opened on the word
"a", whose lexicon entry is `(1, 2)`, it finds the docID 400 of the second
chunk from the docID 260 on; opened on the word "c", whose entry is `(4, 4)`, at
the chunk 3 of the block, it finds the docID 500. -/
theorem getNextGEQDocId_sharedWordIndexFile :
    (getNextGEQDocId intOps
        (createInvertedList { content := sharedWordIndexFile, pos := 0 } [97] 0 1) 260).map
      (fun p => p.1) = some 400 ∧
    (getNextGEQDocId intOps
        (createInvertedList { content := sharedWordIndexFile, pos := 0 } [99] 3 0) 0).map
      (fun p => p.1) = some 500 := by
  decide

end SearchSystem
